import Mathlib

/-!
# The class linker of `hphp/runtime/vm/class.cpp`

A shallow embedding of the runtime class model and of the linker that builds a
`Class` from a `PreClass` and an already linked parent, followed by theorems
about it.

Conventions of the embedding.

* A `Class*` is a `ClassId`; dereferencing goes through `Env.classes`.  The
  object under construction has the address `self`.  A dereference of an
  address that holds no class is the fatal `Fatal.nullDeref`.
* `raise_error` is `Except.error`; every call site has its own constructor of
  `Fatal`.
* `assert` is compiled out (release build) and is not modelled.
* `Func::setNewFuncId` only draws a fresh global identifier and is not
  modelled.
* Loops over vectors are structural recursions over lists.
-/

set_option autoImplicit false

namespace HPHP

/-! ## Attribute bits -/

/-- The enum `Attr`, a set of bits. -/
abbrev Attr := Nat

/-- Modelled from the spec: the `Attr` bit constants are declared in a header
that is not part of the source.  The source relies on them being distinct bits
with `AttrPublic < AttrProtected < AttrPrivate` (asserted in `setMethods` and
`setProperties`); the spec names the same ordering. -/
abbrev AttrNone : Attr := 0
/-- Modelled from the spec: see `AttrNone`. -/
abbrev AttrPublic : Attr := 2
/-- Modelled from the spec: see `AttrNone`. -/
abbrev AttrProtected : Attr := 4
/-- Modelled from the spec: see `AttrNone`. -/
abbrev AttrPrivate : Attr := 8
/-- Modelled from the spec: see `AttrNone`. -/
abbrev AttrStatic : Attr := 16
/-- Modelled from the spec: see `AttrNone`. -/
abbrev AttrAbstract : Attr := 32
/-- Modelled from the spec: see `AttrNone`. -/
abbrev AttrFinal : Attr := 64
/-- Modelled from the spec: see `AttrNone`. -/
abbrev AttrInterface : Attr := 128
/-- Modelled from the spec: see `AttrNone`. -/
abbrev AttrTrait : Attr := 256
/-- Modelled from the spec: see `AttrNone`. -/
abbrev AttrNoExpandTrait : Attr := 4096
/-- Modelled from the spec: see `AttrNone`. -/
abbrev AttrClone : Attr := 16384
/-- Modelled from the spec: see `AttrNone`. -/
abbrev AttrPersistent : Attr := 131072
/-- Modelled from the spec: see `AttrNone`. -/
abbrev AttrDeepInit : Attr := 262144

/-- The mask `AttrPublic|AttrProtected|AttrPrivate`. -/
abbrev visMask : Attr := AttrPublic ||| AttrProtected ||| AttrPrivate

/-- The test `attrs & bit` used as a condition. -/
def hasAttr (attrs bit : Attr) : Bool := attrs &&& bit != 0

/-- The visibility part `attrs & (AttrPublic|AttrProtected|AttrPrivate)`. -/
def visOf (attrs : Attr) : Nat := attrs &&& visMask

/-- The expression `attrs & ~mask` on the 32 bit enum. -/
def clearBits (attrs mask : Attr) : Attr := attrs &&& (0xFFFFFFFF ^^^ mask)

/-! ## Names -/

/-- ASCII case folding of a name, as the case-insensitive string comparison
`isame` sees it. -/
def foldCase (s : String) : String := String.mk (s.data.map Char.toLower)

/-- The comparison `string_data_isame` of the case-insensitive maps. -/
def isame (a b : String) : Bool := foldCase a == foldCase b

/-- Modelled from the spec: `Func::isSpecial` is declared outside the source;
the special lifecycle-hook names (`86ctor`, `86pinit`, `86sinit`, `86cinit`)
are those that start with `86`. -/
def isSpecial (name : String) : Bool := "86".data.isPrefixOf name.data

/-- The names `sd86ctor`, `sd86pinit`, `sd86sinit`. -/
abbrev sd86ctor : String := "86ctor"
/-- See `sd86ctor`. -/
abbrev sd86pinit : String := "86pinit"
/-- See `sd86ctor`. -/
abbrev sd86sinit : String := "86sinit"

/-- The user attribute `__MockClass`. -/
abbrev sd___MockClass : String := "__MockClass"

/-! ## Indexed string maps -/

/-- Key comparison of an `IndexedStringMap`: exact when the map is case
sensitive, `isame` otherwise. -/
def keyEq (caseSensitive : Bool) (a b : String) : Bool :=
  if caseSensitive then a == b else isame a b

/-- Modelled from the spec: `IndexedStringMap<T, CaseSensitive, Index>` and its
`Builder` are declared outside the source.  A vector of values plus a map from
names to indices; `m_map` lists the bindings newest first, so that a later
binding of a name takes the place of an earlier one as `m_map[name] = index`
does. -/
structure IndexedStringMap (α : Type) (caseSensitive : Bool) where
  m_list : List α
  m_map : List (String × Nat)
deriving Repr, DecidableEq

namespace IndexedStringMap

variable {α : Type} {cs : Bool}

/-- The empty builder. -/
def empty : IndexedStringMap α cs := ⟨[], []⟩

/-- The number of values, `size()`. -/
def size (m : IndexedStringMap α cs) : Nat := m.m_list.length

/-- The index bound to a name: `find` of a builder, `findIndex` of a finished
map (`kInvalidSlot` is `none`). -/
def find (m : IndexedStringMap α cs) (name : String) : Option Nat :=
  (m.m_map.find? (fun e => keyEq cs e.1 name)).map (fun e => e.2)

/-- The operator `[]` by index. -/
def get? (m : IndexedStringMap α cs) (i : Nat) : Option α := m.m_list[i]?

/-- The value bound to a name, together with its index. -/
def lookup (m : IndexedStringMap α cs) (name : String) : Option (Nat × α) :=
  match m.find name with
  | none => none
  | some i =>
    match m.m_list[i]? with
    | none => none
    | some v => some (i, v)

/-- Whether a name is bound, `contains`. -/
def contains (m : IndexedStringMap α cs) (name : String) : Bool :=
  (m.find name).isSome

/-- Builder `add(name, t)`: `m_map[name] = m_list.size(); m_list.push_back(t)`. -/
def add (m : IndexedStringMap α cs) (name : String) (v : α) : IndexedStringMap α cs :=
  { m_list := m.m_list ++ [v], m_map := (name, m.m_list.length) :: m.m_map }

/-- Builder `addUnnamed(t)`: `m_list.push_back(t)`. -/
def addUnnamed (m : IndexedStringMap α cs) (v : α) : IndexedStringMap α cs :=
  { m with m_list := m.m_list ++ [v] }

/-- The assignment `builder[i] = v`. -/
def set (m : IndexedStringMap α cs) (i : Nat) (v : α) : IndexedStringMap α cs :=
  { m with m_list := m.m_list.set i v }

end IndexedStringMap

/-! ## Values -/

/-- The address of a `Class`. -/
abbrev ClassId := Nat

/-- The type tags of a `TypedValue` that the linker distinguishes. -/
inductive DataType where
  | KindOfUninit | KindOfNull | KindOfBoolean | KindOfInt64 | KindOfDouble
  | KindOfStaticString | KindOfString | KindOfArray | KindOfObject | KindOfIndirect
deriving Repr, DecidableEq

/-- A `TypedValue`: the type tag with its payload.  A double carries its bit
pattern, an array or object its address, and an indirect value (made by
`tvBindIndirect`) the static-property cell it points to: the class whose table
holds the cell and the slot in that table, or `none` for a null pointer. -/
inductive TypedValue where
  | uninit
  | null
  | bool (b : Bool)
  | int (i : Int)
  | dbl (bits : Nat)
  | staticStr (s : String)
  | str (s : String)
  | arr (addr : Nat)
  | obj (addr : Nat)
  | indirect (cell : Option (ClassId × Nat))
deriving Repr, DecidableEq

/-- The field `m_type`. -/
def TypedValue.m_type : TypedValue → DataType
  | .uninit => .KindOfUninit
  | .null => .KindOfNull
  | .bool _ => .KindOfBoolean
  | .int _ => .KindOfInt64
  | .dbl _ => .KindOfDouble
  | .staticStr _ => .KindOfStaticString
  | .str _ => .KindOfString
  | .arr _ => .KindOfArray
  | .obj _ => .KindOfObject
  | .indirect _ => .KindOfIndirect

/-- A `TypedValueAux` of a `PropInitVec`: the value and the `deepInit` flag. -/
structure TypedValueAux where
  tv : TypedValue
  deepInit : Bool
deriving Repr, DecidableEq

/-! ## Functions -/

/-- A `Func`, as far as the linker reads and writes it.  `m_shared` stands for
the immutable shared part (the body) that a clone has in common with its
original; `m_preClass` is the name of the `PreClass` that declares it. -/
structure Func where
  m_name : String
  m_attrs : Attr
  m_shared : Nat
  m_preClass : String
  m_cls : Option ClassId
  m_baseCls : Option ClassId
  m_hasPrivateAncestor : Bool
  m_hasStaticLocals : Bool
  m_isGenerated : Bool
  m_methodSlot : Nat
deriving Repr, DecidableEq

namespace Func

/-- The copy `clone(cls)`: the same function bound to `cls`. -/
def clone (f : Func) (cls : Option ClassId) : Func := { f with m_cls := cls }

/-- The setter `setBaseCls`. -/
def setBaseCls (f : Func) (cls : ClassId) : Func := { f with m_baseCls := some cls }

/-- The setter `setHasPrivateAncestor`. -/
def setHasPrivateAncestor (f : Func) (b : Bool) : Func := { f with m_hasPrivateAncestor := b }

/-- The setter `setName`. -/
def setName (f : Func) (n : String) : Func := { f with m_name := n }

/-- The setter `setAttrs`. -/
def setAttrs (f : Func) (a : Attr) : Func := { f with m_attrs := a }

/-- The setter `setMethodSlot`. -/
def setMethodSlot (f : Func) (i : Nat) : Func := { f with m_methodSlot := i }

end Func

/-! ## Compile-time classes -/

/-- A `PreClass::Prop`.  Its mangled name is computed from the name of the
declaring `PreClass`, see `PreClass.Prop.mangledName`. -/
structure PreClass.Prop where
  m_name : String
  m_attrs : Attr
  m_typeConstraint : String
  m_docComment : String
  m_val : TypedValue
  m_hphpcType : Nat
deriving Repr, DecidableEq

/-- A `PreClass::Const`. -/
structure PreClass.Const where
  m_name : String
  m_typeConstraint : String
  m_val : TypedValue
  m_phpCode : String
deriving Repr, DecidableEq

/-- A `PreClass::TraitPrecRule`: for `m_methodName` use the method of
`m_selectedTraitName` instead of those of `m_otherTraitNames`. -/
structure PreClass.TraitPrecRule where
  m_methodName : String
  m_selectedTraitName : String
  m_otherTraitNames : List String
deriving Repr, DecidableEq

/-- A `PreClass::TraitAliasRule`. -/
structure PreClass.TraitAliasRule where
  m_traitName : String
  m_origMethodName : String
  m_newMethodName : String
  m_modifiers : Attr
deriving Repr, DecidableEq

/-- A `PreClass`, the compile-time declaration of a class. -/
structure PreClass where
  m_name : String
  m_parent : Option String
  m_attrs : Attr
  m_methods : List Func
  m_properties : List PreClass.Prop
  m_constants : List PreClass.Const
  m_interfaces : List String
  m_usedTraits : List String
  m_traitPrecRules : List PreClass.TraitPrecRule
  m_traitAliasRules : List PreClass.TraitAliasRule
  m_userAttributes : List String
  m_instanceCtor : Option Nat
  m_builtinPropSize : Nat
deriving Repr, DecidableEq

/-- The bytes that `std::string::operator+=` takes from the C string
`s->data()`: those before the first NUL byte. -/
def cStringOf (s : String) : String := ⟨s.data.takeWhile (fun c => c != Char.ofNat 0)⟩

/-- The function `PreClass::manglePropName`; `none` is the `not_reached()`
default of the switch.  A public name is returned as it is; the other two
cases build a `std::string` from `className->data()` and `propName->data()`,
which are read as C strings. -/
def PreClass.manglePropName (className propName : String) (attrs : Attr) : Option String :=
  if visOf attrs = AttrPublic then some propName
  else if visOf attrs = AttrProtected then some ("\x00*\x00" ++ cStringOf propName)
  else if visOf attrs = AttrPrivate then
    some ("\x00" ++ cStringOf className ++ "\x00" ++ cStringOf propName)
  else none

namespace PreClass

/-- The field `m_mangledName` that the constructor of `PreClass::Prop` fills in
with `manglePropName(preClass->name(), n, attrs)`. -/
def Prop.mangledName (className : String) (p : PreClass.Prop) : String :=
  (manglePropName className p.m_name p.m_attrs).getD p.m_name

/-- The query `hasMethod`, on the case-insensitive method map. -/
def hasMethod (pre : PreClass) (name : String) : Bool :=
  pre.m_methods.any (fun f => isame f.m_name name)

/-- The query `lookupMethod`. -/
def lookupMethod (pre : PreClass) (name : String) : Option Func :=
  pre.m_methods.find? (fun f => isame f.m_name name)

/-- The query `hasProp`, on the case-sensitive property map. -/
def hasProp (pre : PreClass) (name : String) : Bool :=
  pre.m_properties.any (fun p => p.m_name == name)

/-- The query `lookupProp`. -/
def lookupProp (pre : PreClass) (name : String) : Option PreClass.Prop :=
  pre.m_properties.find? (fun p => p.m_name == name)

/-- Whether the user attributes contain `__MockClass`. -/
def isMockClass (pre : PreClass) : Bool :=
  pre.m_userAttributes.any (fun a => a == sd___MockClass)

end PreClass

/-! ## Linked classes -/

/-- A `Class::Prop`, an entry of the declared-property table. -/
structure Class.Prop where
  m_name : String
  m_mangledName : String
  m_originalMangledName : String
  m_class : ClassId
  m_attrs : Attr
  m_typeConstraint : String
  m_docComment : String
  m_hphpcType : Nat
deriving Repr, DecidableEq

/-- A `Class::SProp`, an entry of the static-property table. -/
structure Class.SProp where
  m_name : String
  m_attrs : Attr
  m_typeConstraint : String
  m_docComment : String
  m_class : ClassId
  m_val : TypedValue
deriving Repr, DecidableEq

/-- A `Class::Const`, an entry of the constant table. -/
structure Class.Const where
  m_class : ClassId
  m_name : String
  m_val : TypedValue
  m_phpCode : String
deriving Repr, DecidableEq

/-- The method table `MethodMap`, case insensitive. -/
abbrev MethodMap := IndexedStringMap Func false
/-- The declared-property table `PropMap`, case sensitive. -/
abbrev PropMap := IndexedStringMap Class.Prop true
/-- The static-property table `SPropMap`, case sensitive. -/
abbrev SPropMap := IndexedStringMap Class.SProp true
/-- The constant table `ConstMap`, case sensitive. -/
abbrev ConstMap := IndexedStringMap Class.Const true
/-- The interface table `InterfaceMap`, case insensitive. -/
abbrev InterfaceMap := IndexedStringMap ClassId false

/-- A `Class`.  `m_self` is the address of the object (`this`); the flexible
array `m_classVec` has `m_classVecLen` entries. -/
structure Class where
  m_self : ClassId
  m_preClass : PreClass
  m_parent : Option ClassId
  m_attrCopy : Attr
  m_usedTraits : List ClassId
  m_declInterfaces : List ClassId
  m_interfaces : InterfaceMap
  m_methods : MethodMap
  m_traitsBeginIdx : Nat
  m_traitsEndIdx : Nat
  m_traitAliases : List (String × String)
  m_constants : ConstMap
  m_declProperties : PropMap
  m_declPropInit : List TypedValueAux
  m_declPropNumAccessible : Int
  m_hasDeepInitProps : Bool
  m_staticProperties : SPropMap
  m_pinitVec : List Func
  m_sinitVec : List Func
  m_needInitialization : Bool
  m_hasInitMethods : Bool
  m_instanceCtor : Option Nat
  m_builtinPropSize : Nat
  m_classVecLen : Nat
  m_classVec : List ClassId
deriving Repr, DecidableEq

namespace Class

/-- The accessor `name()`. -/
def name (c : Class) : String := c.m_preClass.m_name

/-- The accessor `attrs()`. -/
def attrs (c : Class) : Attr := c.m_attrCopy

/-- The query `lookupMethod`. -/
def lookupMethod (c : Class) (methName : String) : Option Func :=
  (c.m_methods.lookup methName).map (fun e => e.2)

/-- The query `lookupDeclProp`, `kInvalidSlot` being `none`. -/
def lookupDeclProp (c : Class) (propName : String) : Option Nat :=
  c.m_declProperties.find propName

/-- The query `lookupSProp`. -/
def lookupSProp (c : Class) (sPropName : String) : Option Nat :=
  c.m_staticProperties.find sPropName

/-- The number of static properties. -/
def numStaticProperties (c : Class) : Nat := c.m_staticProperties.size

/-- The number of declared properties. -/
def numDeclProperties (c : Class) : Nat := c.m_declProperties.size

end Class

/-- The fatal errors of the linker, one constructor for each `raise_error`
site, `nullDeref` for a dereference of a null or dangling pointer,
`notReached` for a `not_reached()` that is reached, `outOfFuel` for a
recursion that the model cut off, and `thrown` for an exception that user code
run by `invokeFunc` throws. -/
inductive Fatal where
  | mayNotInherit (cls parent : String)
  | traitNotFound (name : String)
  | notATrait (cls name : String)
  | unknownMethod (name : String)
  | unknownTrait (name : String)
  | unknownTraitMethod (name : String)
  | staticAsModifier
  | multipleTraits (name : String)
  | overrideFinal (name : String)
  | redeclareAbstract (name : String)
  | accessLevel (cls name : String)
  | changeStatic (name : String)
  | parametersIncompat (name : String)
  | containsAbstract (cls name : String)
  | undefinedInterface (name : String)
  | notAnInterface (cls name : String)
  | ifaceStatic (name : String)
  | ifacePublic (name : String)
  | inheritConstant (name : String)
  | overrideConstant (name : String)
  | redeclareStatic (name : String)
  | redeclareNonStatic (name : String)
  | propAccessLevel (name : String)
  | traitPropIncompatible (name : String)
  | nullDeref
  | notReached
  | outOfFuel
  | thrown (what : String)
deriving Repr, DecidableEq

/-- What the linker reads from its surroundings: the heap of linked classes,
the name lookup `Unit::loadClass`, the check `Func::parametersCompat` (declared
outside the source; `false` when it raises), the flag `hphpiCompat` and the
comparison `same` of two doubles given by their bit patterns. -/
structure Env where
  classes : ClassId → Option Class
  loadClass : String → Option ClassId
  parametersCompat : PreClass → Func → Func → Bool
  hphpiCompat : Bool
  dblSame : Nat → Nat → Bool

/-- Dereference of a `Class*`. -/
def Env.deref (env : Env) (id : ClassId) : Except Fatal Class :=
  match env.classes id with
  | some c => .ok c
  | none => .error .nullDeref

/-- Dereference of a `Class*` while `this` is under construction: the address
`this.m_self` holds the partially built object. -/
def Env.derefIn (env : Env) (this : Class) (id : ClassId) : Except Fatal Class :=
  if id = this.m_self then .ok this else env.deref id

/-! ## The linker: parent and used traits -/

/-- The values of the member initialisers of the constructor `Class::Class`. -/
def Class.init (self : ClassId) (preClass : PreClass) (parent : Option Class)
    (classVecLen : Nat) : Class :=
  { m_self := self
    m_preClass := preClass
    m_parent := parent.map (fun p => p.m_self)
    m_attrCopy := 0
    m_usedTraits := []
    m_declInterfaces := []
    m_interfaces := IndexedStringMap.empty
    m_methods := IndexedStringMap.empty
    m_traitsBeginIdx := 0
    m_traitsEndIdx := 0
    m_traitAliases := []
    m_constants := IndexedStringMap.empty
    m_declProperties := IndexedStringMap.empty
    m_declPropInit := []
    m_declPropNumAccessible := 0
    m_hasDeepInitProps := false
    m_staticProperties := IndexedStringMap.empty
    m_pinitVec := []
    m_sinitVec := []
    m_needInitialization := false
    m_hasInitMethods := false
    m_instanceCtor := none
    m_builtinPropSize := 0
    m_classVecLen := classVecLen
    m_classVec := [] }

/-- The validation of the parent at the start of `Class::setParent`. -/
def Class.validateParent (parent : Option Class) (this : Class) : Except Fatal Unit :=
  match parent with
  | none => .ok ()
  | some p =>
    let attrs := p.attrs
    if hasAttr attrs (AttrFinal ||| AttrInterface ||| AttrTrait) then
      if !hasAttr attrs AttrFinal || !this.m_preClass.isMockClass then
        .error (.mayNotInherit this.m_preClass.m_name p.name)
      else .ok ()
    else .ok ()

/-- The rest of `Class::setParent`: the attributes of the `PreClass` are
cached and the native-constructor hook is taken over. -/
def Class.cacheAttrs (parent : Option Class) (this : Class) : Class :=
  let this := { this with m_attrCopy := this.m_preClass.m_attrs }
  if this.m_preClass.m_instanceCtor.isSome then
    { this with m_instanceCtor := this.m_preClass.m_instanceCtor
                m_builtinPropSize := this.m_preClass.m_builtinPropSize }
  else
    match parent with
    | some p => { this with m_instanceCtor := p.m_instanceCtor
                            m_builtinPropSize := p.m_builtinPropSize }
    | none => this

/-- The method `Class::setParent`. -/
def Class.setParent (parent : Option Class) (this : Class) : Except Fatal Class :=
  match Class.validateParent parent this with
  | .error e => .error e
  | .ok () => .ok (Class.cacheAttrs parent this)

/-- The loop of `Class::setUsedTraits` over the names of the used traits; the
result lists the traits in the order of `m_usedTraits`. -/
def Class.loadUsedTraits (env : Env) (clsName : String) : List String → Except Fatal (List Class)
  | [] => .ok []
  | n :: rest =>
    match env.loadClass n with
    | none => .error (.traitNotFound n)
    | some id =>
      match env.deref id with
      | .error e => .error e
      | .ok t =>
        if !hasAttr t.attrs AttrTrait then .error (.notATrait clsName t.name)
        else
          match loadUsedTraits env clsName rest with
          | .error e => .error e
          | .ok ts => .ok (t :: ts)

/-! ## The linker: trait methods -/

/-- A `TraitMethod`: the trait, its method and the modifiers to import it
with. -/
structure TraitMethod where
  m_trait : Class
  m_method : Func
  m_modifiers : Attr
deriving Repr, DecidableEq

/-- The list `TraitMethodList`. -/
abbrev TraitMethodList := List TraitMethod

/-- Modelled from the spec: `MethodToTraitListMap`, a hash map from method
names (compared with `isame`) to candidate lists, is declared outside the
source.  The bindings are listed in the order in which the names were first
inserted, which is also the order of iteration. -/
abbrev MethodToTraitListMap := List (String × TraitMethodList)

namespace MethodToTraitListMap

/-- The lookup `find(name)`; `end()` is `none`. -/
def find (m : MethodToTraitListMap) (name : String) : Option TraitMethodList :=
  (List.find? (fun e => isame e.1 name) m).map (fun e => e.2)

/-- The update of `m[name]` by `f`; the operator `[]` inserts an empty list
for a name that is not bound. -/
def update (f : TraitMethodList → TraitMethodList) :
    MethodToTraitListMap → String → MethodToTraitListMap
  | [], name => [(name, f [])]
  | (k, l) :: rest, name =>
    if isame k name then (k, f l) :: rest else (k, l) :: update f rest name

/-- The statement `m[name].push_back(tm)`. -/
def pushBack (m : MethodToTraitListMap) (name : String) (tm : TraitMethod) :
    MethodToTraitListMap :=
  update (fun l => l ++ [tm]) m name

/-- The assignment of a new list to a name that is bound. -/
def replace (m : MethodToTraitListMap) (name : String) (l : TraitMethodList) :
    MethodToTraitListMap :=
  update (fun _ => l) m name

end MethodToTraitListMap

/-- Membership in a `TraitNameSet` (compared with `isame`). -/
def TraitNameSet.contains (s : List String) (name : String) : Bool :=
  s.any (fun n => isame n name)

/-- The removal `erase(name)` from a `TraitNameSet`. -/
def TraitNameSet.erase (s : List String) (name : String) : List String :=
  s.filter (fun n => !isame n name)

/-- The loop of `Class::applyTraitPrecRule` over the candidate list: the result
is `foundSelectedTrait`, what is left of `otherTraitNames`, and the candidate
list after the erasures. -/
def Class.applyTraitPrecRuleLoop (selectedTraitName : String) :
    TraitMethodList → List String → Bool × List String × TraitMethodList
  | [], otherTraitNames => (false, otherTraitNames, [])
  | tm :: rest, otherTraitNames =>
    let availTraitName := tm.m_trait.name
    if availTraitName = selectedTraitName then
      let r := applyTraitPrecRuleLoop selectedTraitName rest otherTraitNames
      (true, r.2.1, tm :: r.2.2)
    else if TraitNameSet.contains otherTraitNames availTraitName then
      applyTraitPrecRuleLoop selectedTraitName rest
        (TraitNameSet.erase otherTraitNames availTraitName)
    else
      let r := applyTraitPrecRuleLoop selectedTraitName rest otherTraitNames
      (r.1, r.2.1, tm :: r.2.2)

/-- The method `Class::applyTraitPrecRule`. -/
def Class.applyTraitPrecRule (rule : PreClass.TraitPrecRule)
    (importMethToTraitMap : MethodToTraitListMap) : Except Fatal MethodToTraitListMap :=
  let methName := rule.m_methodName
  let selectedTraitName := rule.m_selectedTraitName
  match importMethToTraitMap.find methName with
  | none => .error (.unknownMethod methName)
  | some methList =>
    let r := Class.applyTraitPrecRuleLoop selectedTraitName methList rule.m_otherTraitNames
    if !r.1 then .error (.unknownTrait selectedTraitName)
    else
      match r.2.1 with
      | n :: _ => .error (.unknownTrait n)
      | [] => .ok (importMethToTraitMap.replace methName r.2.2)

/-- The loop of `Class::findSingleTraitWithMethod`, `traitCls` being the trait
found so far. -/
def Class.findSingleTraitWithMethodLoop (methName : String) :
    List Class → Option Class → Option Class
  | [], traitCls => traitCls
  | t :: rest, traitCls =>
    if t.m_methods.contains methName then
      match traitCls with
      | some _ => none
      | none => findSingleTraitWithMethodLoop methName rest (some t)
    else findSingleTraitWithMethodLoop methName rest traitCls

/-- The method `Class::findSingleTraitWithMethod`. -/
def Class.findSingleTraitWithMethod (usedTraits : List Class) (methName : String) :
    Option Class :=
  Class.findSingleTraitWithMethodLoop methName usedTraits none

/-- The method `Class::setImportTraitMethodModifiers`: the first candidate of
the trait gets the modifiers. -/
def Class.setImportTraitMethodModifiers (traitCls : Class) (modifiers : Attr) :
    TraitMethodList → TraitMethodList
  | [] => []
  | tm :: rest =>
    if tm.m_trait.m_self = traitCls.m_self then { tm with m_modifiers := modifiers } :: rest
    else tm :: setImportTraitMethodModifiers traitCls modifiers rest

/-- The method `Class::addTraitAlias`: one more pair for
`ReflectionClass::getTraitAliases`. -/
def Class.addTraitAlias (traitAliases : List (String × String))
    (traitName origMethName newMethName : String) : List (String × String) :=
  let origName := (if traitName.isEmpty then "(null)" else traitName) ++ "::" ++ origMethName
  traitAliases ++ [(newMethName, origName)]

/-- The method `Class::applyTraitAliasRule`, on the pair of `m_traitAliases` and
the candidate map. -/
def Class.applyTraitAliasRule (env : Env) (usedTraits : List Class)
    (rule : PreClass.TraitAliasRule)
    (st : List (String × String) × MethodToTraitListMap) :
    Except Fatal (List (String × String) × MethodToTraitListMap) :=
  let traitName := rule.m_traitName
  let origMethName := rule.m_origMethodName
  let newMethName := rule.m_newMethodName
  let traitCls : Option Class :=
    if traitName.isEmpty then Class.findSingleTraitWithMethod usedTraits origMethName
    else
      match env.loadClass traitName with
      | none => none
      | some id => env.classes id
  match traitCls with
  | none => .error (.unknownTrait traitName)
  | some traitCls =>
    if !hasAttr traitCls.attrs AttrTrait then .error (.unknownTrait traitName)
    else
      let aliases := Class.addTraitAlias st.1 traitName origMethName newMethName
      match traitCls.lookupMethod origMethName with
      | none => .error (.unknownTraitMethod origMethName)
      | some traitMeth =>
        let ruleModifiers := rule.m_modifiers
        let map :=
          if origMethName = newMethName then
            MethodToTraitListMap.update
              (Class.setImportTraitMethodModifiers traitCls ruleModifiers) st.2 origMethName
          else if !isSpecial newMethName then
            MethodToTraitListMap.pushBack st.2 newMethName ⟨traitCls, traitMeth, ruleModifiers⟩
          else st.2
        if hasAttr ruleModifiers AttrStatic then .error .staticAsModifier
        else .ok (aliases, map)

/-- The first loop of `Class::applyTraitRules`. -/
def Class.applyTraitPrecRules :
    List PreClass.TraitPrecRule → MethodToTraitListMap → Except Fatal MethodToTraitListMap
  | [], m => .ok m
  | r :: rest, m =>
    match Class.applyTraitPrecRule r m with
    | .error e => .error e
    | .ok m1 => applyTraitPrecRules rest m1

/-- The second loop of `Class::applyTraitRules`. -/
def Class.applyTraitAliasRules (env : Env) (usedTraits : List Class) :
    List PreClass.TraitAliasRule → List (String × String) × MethodToTraitListMap →
    Except Fatal (List (String × String) × MethodToTraitListMap)
  | [], st => .ok st
  | r :: rest, st =>
    match Class.applyTraitAliasRule env usedTraits r st with
    | .error e => .error e
    | .ok st1 => applyTraitAliasRules env usedTraits rest st1

/-- The method `Class::applyTraitRules`. -/
def Class.applyTraitRules (env : Env) (usedTraits : List Class) (pre : PreClass)
    (st : List (String × String) × MethodToTraitListMap) :
    Except Fatal (List (String × String) × MethodToTraitListMap) :=
  match Class.applyTraitPrecRules pre.m_traitPrecRules st.2 with
  | .error e => .error e
  | .ok m1 => Class.applyTraitAliasRules env usedTraits pre.m_traitAliasRules (st.1, m1)

/-- The erasing loop of `Class::removeSpareTraitAbstractMethods` over one
candidate list, `firstAbstractMeth` being the flag of the loop. -/
def Class.eraseSpareAbstract (hasNonAbstractMeth : Bool) :
    TraitMethodList → Bool → TraitMethodList
  | [], _ => []
  | tm :: rest, firstAbstractMeth =>
    if hasAttr tm.m_modifiers AttrAbstract then
      if hasNonAbstractMeth || !firstAbstractMeth then
        eraseSpareAbstract hasNonAbstractMeth rest false
      else tm :: eraseSpareAbstract hasNonAbstractMeth rest false
    else tm :: eraseSpareAbstract hasNonAbstractMeth rest firstAbstractMeth

/-- The body of the outer loop of `Class::removeSpareTraitAbstractMethods`, for
one candidate list. -/
def Class.removeSpareAbstractInList (tMethList : TraitMethodList) : TraitMethodList :=
  let hasNonAbstractMeth := tMethList.any (fun tm => !hasAttr tm.m_modifiers AttrAbstract)
  let countAbstractMeths := tMethList.countP (fun tm => hasAttr tm.m_modifiers AttrAbstract)
  if hasNonAbstractMeth || decide (countAbstractMeths > 1) then
    Class.eraseSpareAbstract hasNonAbstractMeth tMethList true
  else tMethList

/-- The method `Class::removeSpareTraitAbstractMethods`. -/
def Class.removeSpareTraitAbstractMethods (importMethToTraitMap : MethodToTraitListMap) :
    MethodToTraitListMap :=
  importMethToTraitMap.map (fun e => (e.1, Class.removeSpareAbstractInList e.2))

/-- The method `Class::methodOverrideCheck`.  The dereferences made only to
format a message are not modelled. -/
def Class.methodOverrideCheck (env : Env) (this : Class) (parentMethod method : Func) :
    Except Fatal Unit :=
  if method.m_isGenerated then .ok ()
  else if hasAttr parentMethod.m_attrs AttrFinal && !this.m_preClass.isMockClass then
    .error (.overrideFinal parentMethod.m_name)
  else if hasAttr method.m_attrs AttrAbstract then
    .error (.redeclareAbstract parentMethod.m_name)
  else if visOf method.m_attrs > visOf parentMethod.m_attrs then
    .error (.accessLevel this.m_preClass.m_name method.m_name)
  else if (method.m_attrs &&& AttrStatic) != (parentMethod.m_attrs &&& AttrStatic) then
    .error (.changeStatic method.m_name)
  else
    match parentMethod.m_baseCls with
    | none => .error .nullDeref
    | some baseCls =>
      match env.derefIn this baseCls with
      | .error e => .error e
      | .ok base =>
        match base.lookupMethod method.m_name with
        | none => .error .nullDeref
        | some baseMethod =>
          if !hasAttr method.m_attrs AttrAbstract && hasAttr baseMethod.m_attrs AttrAbstract
              && (!env.hphpiCompat || method.m_name != "__construct") then
            if env.parametersCompat this.m_preClass method baseMethod then .ok ()
            else .error (.parametersIncompat method.m_name)
          else .ok ()

/-- The base class and the private-ancestor flag of a method `f` of `this` that
takes the place of `parentMethod`, as `setMethods` and `importTraitMethod`
compute them. -/
def Class.overlay (this : Class) (parentMethod f : Func) : Func :=
  let baseClass : Option ClassId :=
    if hasAttr parentMethod.m_attrs AttrPrivate || hasAttr f.m_attrs AttrPrivate then
      some this.m_self
    else parentMethod.m_baseCls
  { f with m_baseCls := baseClass
           m_hasPrivateAncestor :=
             parentMethod.m_hasPrivateAncestor || hasAttr parentMethod.m_attrs AttrPrivate }

/-- The modifiers that `Class::importTraitMethod` gives the imported method. -/
def Class.importModifiers (method : Func) (modifiers : Attr) : Attr :=
  if modifiers = AttrNone then method.m_attrs
  else
    let attrMask := AttrPublic ||| AttrProtected ||| AttrPrivate ||| AttrAbstract ||| AttrFinal
    (modifiers &&& attrMask) ||| clearBits method.m_attrs attrMask

/-- The method `Class::importTraitMethod`. -/
def Class.importTraitMethod (env : Env) (this : Class) (traitMethod : TraitMethod)
    (methName : String) (builder : MethodMap) : Except Fatal MethodMap :=
  let method := traitMethod.m_method
  let modifiers := traitMethod.m_modifiers
  let mm_iter := builder.lookup methName
  if hasAttr modifiers AttrAbstract && mm_iter.isSome then .ok builder
  else
    let modifiers := Class.importModifiers method modifiers
    match mm_iter with
    | some (slot, existingMethod) =>
      if existingMethod.m_cls = some this.m_self then .ok builder
      else
        let parentMethod := existingMethod
        let f := ((method.clone (some this.m_self)).setName methName).setAttrs modifiers
        match Class.methodOverrideCheck env this parentMethod f with
        | .error e => .error e
        | .ok () => .ok (builder.set slot (Class.overlay this parentMethod f))
    | none =>
      let f := ((method.clone (some this.m_self)).setName methName).setAttrs modifiers
      .ok (builder.add methName ((f.setBaseCls this.m_self).setHasPrivateAncestor false))

/-- Step 1 of `Class::importTraitMethods`, inner loop: the methods of one
trait. -/
def Class.findTraitMethods (trait : Class) :
    List Func → MethodToTraitListMap → MethodToTraitListMap
  | [], m => m
  | method :: rest, m =>
    let methName := method.m_name
    let traitMethod : TraitMethod := ⟨trait, method, method.m_attrs⟩
    if !isSpecial methName then findTraitMethods trait rest (m.pushBack methName traitMethod)
    else findTraitMethods trait rest m

/-- Step 1 of `Class::importTraitMethods`, outer loop: all used traits. -/
def Class.findAllTraitMethods : List Class → MethodToTraitListMap → MethodToTraitListMap
  | [], m => m
  | trait :: rest, m =>
    findAllTraitMethods rest (Class.findTraitMethods trait trait.m_methods.m_list m)

/-- Step 4 of `Class::importTraitMethods`, the body of the loop for one name
and its candidates. -/
def Class.importTraitMethodsStep (env : Env) (this : Class) (entry : String × TraitMethodList)
    (builder : MethodMap) : Except Fatal MethodMap :=
  match entry.2 with
  | [] => .ok builder
  | traitMeth :: _ =>
    if decide (entry.2.length > 1) then
      if this.m_preClass.hasMethod entry.1 then .ok builder
      else .error (.multipleTraits entry.1)
    else Class.importTraitMethod env this traitMeth entry.1 builder

/-- Step 4 of `Class::importTraitMethods`, the loop. -/
def Class.importTraitMethodsLoop (env : Env) (this : Class) :
    MethodToTraitListMap → MethodMap → Except Fatal MethodMap
  | [], builder => .ok builder
  | entry :: rest, builder =>
    match Class.importTraitMethodsStep env this entry builder with
    | .error e => .error e
    | .ok b1 => importTraitMethodsLoop env this rest b1

/-- Steps 1 to 3 of `Class::importTraitMethods`: the candidate map after the
trait rules and the removal of spare abstract candidates, with the trait
aliases recorded on the way. -/
def Class.traitCandidates (env : Env) (usedTraits : List Class) (this : Class) :
    Except Fatal (List (String × String) × MethodToTraitListMap) :=
  let importMethToTraitMap := Class.findAllTraitMethods usedTraits []
  match Class.applyTraitRules env usedTraits this.m_preClass
      (this.m_traitAliases, importMethToTraitMap) with
  | .error e => .error e
  | .ok st => .ok (st.1, Class.removeSpareTraitAbstractMethods st.2)

/-- The method `Class::importTraitMethods`, on the pair of `this` (whose
`m_traitAliases` grow) and the builder. -/
def Class.importTraitMethods (env : Env) (usedTraits : List Class) (this : Class)
    (builder : MethodMap) : Except Fatal (Class × MethodMap) :=
  match Class.traitCandidates env usedTraits this with
  | .error e => .error e
  | .ok st =>
    let this := { this with m_traitAliases := st.1 }
    match Class.importTraitMethodsLoop env this st.2 builder with
    | .error e => .error e
    | .ok b => .ok (this, b)

/-! ## The linker: the method table -/

/-- First loop of `Class::setMethods`: the entries of the parent are copied
down; the result also lists `parentMethodsWithStaticLocals`.  `i` is the slot
of the first method of the list. -/
def Class.copyParentMethods : List Func → Nat → MethodMap × List Nat → MethodMap × List Nat
  | [], _, st => st
  | f :: rest, i, st =>
    let withStaticLocals :=
      if hasAttr f.m_attrs AttrClone ||
          (!hasAttr f.m_attrs AttrPrivate && f.m_hasStaticLocals) then st.2 ++ [i] else st.2
    copyParentMethods rest (i + 1) (st.1.add f.m_name f, withStaticLocals)

/-- Second loop of `Class::setMethods`, the body for one method of the
`PreClass`. -/
def Class.addOwnMethod (env : Env) (this : Class) (method : Func) (builder : MethodMap) :
    Except Fatal MethodMap :=
  if isSpecial method.m_name &&
      (method.m_name == sd86ctor || method.m_name == sd86sinit || method.m_name == sd86pinit)
  then .ok builder
  else
    match builder.lookup method.m_name with
    | some (slot, parentMethod) =>
      match Class.methodOverrideCheck env this parentMethod method with
      | .error e => .error e
      | .ok () =>
        let f := method.clone (some this.m_self)
        .ok (builder.set slot (Class.overlay this parentMethod f))
    | none =>
      let f := method.clone (some this.m_self)
      .ok (builder.add method.m_name ((f.setBaseCls this.m_self).setHasPrivateAncestor false))

/-- Second loop of `Class::setMethods`. -/
def Class.addOwnMethods (env : Env) (this : Class) :
    List Func → MethodMap → Except Fatal MethodMap
  | [], builder => .ok builder
  | method :: rest, builder =>
    match Class.addOwnMethod env this method builder with
    | .error e => .error e
    | .ok b1 => addOwnMethods env this rest b1

/-- Third loop of `Class::setMethods`: fresh copies of the inherited methods
with static locals that were not overridden. -/
def Class.recloneMethods (this : Class) : List Nat → MethodMap → MethodMap
  | [], builder => builder
  | slot :: rest, builder =>
    match builder.get? slot with
    | none => recloneMethods this rest builder
    | some f =>
      if f.m_cls != some this.m_self then
        let g := f.clone (if hasAttr f.m_attrs AttrClone then some this.m_self else f.m_cls)
        recloneMethods this rest (builder.set slot g)
      else recloneMethods this rest builder

/-- Fourth loop of `Class::setMethods`: a class that is not abstract has no
abstract method. -/
def Class.checkNoAbstract (clsName : String) : List Func → Except Fatal Unit
  | [] => .ok ()
  | meth :: rest =>
    if hasAttr meth.m_attrs AttrAbstract then .error (.containsAbstract clsName meth.m_name)
    else checkNoAbstract clsName rest

/-- Last loop of `Class::setMethods`: every method learns its slot. -/
def Class.setMethodSlots : List Func → Nat → List Func
  | [], _ => []
  | f :: rest, i => f.setMethodSlot i :: setMethodSlots rest (i + 1)

/-- The builder of `Class::setMethods` after the first loop, with the vector
`parentMethodsWithStaticLocals`. -/
def Class.inheritedMethods (parent : Option Class) : MethodMap × List Nat :=
  match parent with
  | some p => Class.copyParentMethods p.m_methods.m_list 0 (IndexedStringMap.empty, [])
  | none => (IndexedStringMap.empty, [])

/-- The statement `if (m_usedTraits.size()) importTraitMethods(builder)` of
`Class::setMethods`. -/
def Class.importTraitMethodsIfAny (env : Env) (usedTraits : List Class) (this : Class)
    (builder : MethodMap) : Except Fatal (Class × MethodMap) :=
  if usedTraits.length != 0 then Class.importTraitMethods env usedTraits this builder
  else .ok (this, builder)

/-- The check of `Class::setMethods` that a class which is neither a trait nor
an interface nor abstract has no abstract method. -/
def Class.checkConcrete (this : Class) (builder : MethodMap) : Except Fatal Unit :=
  if !hasAttr this.attrs (AttrTrait ||| AttrInterface ||| AttrAbstract) then
    Class.checkNoAbstract this.m_preClass.m_name builder.m_list
  else .ok ()

/-- The method `Class::setMethods` up to the builder that the final check
reads: parent copy, own methods, trait imports and fresh copies. -/
def Class.buildMethods (env : Env) (parent : Option Class) (usedTraits : List Class)
    (this : Class) : Except Fatal (Class × MethodMap) :=
  match Class.addOwnMethods env this this.m_preClass.m_methods (Class.inheritedMethods parent).1 with
  | .error e => .error e
  | .ok builder =>
    match Class.importTraitMethodsIfAny env usedTraits
        { this with m_traitsBeginIdx := builder.size } builder with
    | .error e => .error e
    | .ok r =>
      let this := { r.1 with m_traitsEndIdx := r.2.size }
      .ok (this, Class.recloneMethods this (Class.inheritedMethods parent).2 r.2)

/-- The method `Class::setMethods`. -/
def Class.setMethods (env : Env) (parent : Option Class) (usedTraits : List Class)
    (this : Class) : Except Fatal Class :=
  match Class.buildMethods env parent usedTraits this with
  | .error e => .error e
  | .ok r =>
    match Class.checkConcrete r.1 r.2 with
    | .error e => .error e
    | .ok () =>
      .ok { r.1 with m_methods := { r.2 with m_list := Class.setMethodSlots r.2.m_list 0 } }

/-! ## The linker: interfaces -/

/-- The loops of `Class::setInterfaces` and `addInterfacesFromUsedTraits` that
add a list of interfaces to the builder under their names; `always` is set for
the interfaces of the parent, which are added without a lookup. -/
def Class.addInterfaces (env : Env) (always : Bool) :
    List ClassId → InterfaceMap → Except Fatal InterfaceMap
  | [], builder => .ok builder
  | interface :: rest, builder =>
    match env.deref interface with
    | .error e => .error e
    | .ok iface =>
      if always || (builder.find iface.name).isNone then
        addInterfaces env always rest (builder.add iface.name interface)
      else addInterfaces env always rest builder

/-- The loop of `Class::setInterfaces` over the declared interfaces; the state
is the builder and the vector `declInterfaces`. -/
def Class.addDeclInterfaces (env : Env) (clsName : String) :
    List String → InterfaceMap × List ClassId → Except Fatal (InterfaceMap × List ClassId)
  | [], st => .ok st
  | n :: rest, st =>
    match env.loadClass n with
    | none => .error (.undefinedInterface n)
    | some id =>
      match env.deref id with
      | .error e => .error e
      | .ok cp =>
        if !hasAttr cp.attrs AttrInterface then .error (.notAnInterface clsName cp.name)
        else
          let builder :=
            if (st.1.find cp.name).isNone then st.1.add cp.name id else st.1
          match Class.addInterfaces env false cp.m_interfaces.m_list builder with
          | .error e => .error e
          | .ok b1 => addDeclInterfaces env clsName rest (b1, st.2 ++ [id])

/-- The method `Class::addInterfacesFromUsedTraits`. -/
def Class.addInterfacesFromUsedTraits (env : Env) :
    List Class → InterfaceMap → Except Fatal InterfaceMap
  | [], builder => .ok builder
  | trait :: rest, builder =>
    match Class.addInterfaces env false trait.m_interfaces.m_list builder with
    | .error e => .error e
    | .ok b1 => addInterfacesFromUsedTraits env rest b1

/-- The body of the inner loop of `Class::checkInterfaceMethods` for one method
of an interface. -/
def Class.checkInterfaceMethod (env : Env) (this : Class) (imeth : Func) : Except Fatal Unit :=
  let methName := imeth.m_name
  if isSpecial methName then .ok ()
  else
    let meth := this.lookupMethod methName
    let lenient := hasAttr this.attrs (AttrTrait ||| AttrInterface ||| AttrAbstract)
    match meth with
    | none => if lenient then .ok () else .error (.containsAbstract this.name methName)
    | some meth =>
      if !lenient && hasAttr meth.m_attrs AttrAbstract then
        .error (.containsAbstract this.name methName)
      else
        let ifaceStaticMethod := hasAttr imeth.m_attrs AttrStatic
        let classStaticMethod := hasAttr meth.m_attrs AttrStatic
        if classStaticMethod != ifaceStaticMethod then .error (.ifaceStatic methName)
        else if hasAttr imeth.m_attrs AttrPublic && !hasAttr meth.m_attrs AttrPublic then
          .error (.ifacePublic methName)
        else if env.parametersCompat this.m_preClass meth imeth then .ok ()
        else .error (.parametersIncompat methName)

/-- The inner loop of `Class::checkInterfaceMethods`. -/
def Class.checkInterfaceMethodList (env : Env) (this : Class) : List Func → Except Fatal Unit
  | [] => .ok ()
  | imeth :: rest =>
    match Class.checkInterfaceMethod env this imeth with
    | .error e => .error e
    | .ok () => checkInterfaceMethodList env this rest

/-- The outer loop of `Class::checkInterfaceMethods`. -/
def Class.checkInterfaceMethodsLoop (env : Env) (this : Class) : List ClassId → Except Fatal Unit
  | [] => .ok ()
  | i :: rest =>
    match env.deref i with
    | .error e => .error e
    | .ok iface =>
      match Class.checkInterfaceMethodList env this iface.m_methods.m_list with
      | .error e => .error e
      | .ok () => checkInterfaceMethodsLoop env this rest

/-- The method `Class::checkInterfaceMethods`. -/
def Class.checkInterfaceMethods (env : Env) (this : Class) : Except Fatal Unit :=
  Class.checkInterfaceMethodsLoop env this this.m_interfaces.m_list

/-- The first loop of `Class::setInterfaces`: the interfaces of the parent. -/
def Class.inheritedInterfaces (env : Env) (parent : Option Class) : Except Fatal InterfaceMap :=
  match parent with
  | some p => Class.addInterfaces env true p.m_interfaces.m_list IndexedStringMap.empty
  | none => .ok IndexedStringMap.empty

/-- The method `Class::setInterfaces` up to the call of
`checkInterfaceMethods`: the interface table and the declared interfaces. -/
def Class.buildInterfaces (env : Env) (parent : Option Class) (usedTraits : List Class)
    (pre : PreClass) : Except Fatal (InterfaceMap × List ClassId) :=
  match Class.inheritedInterfaces env parent with
  | .error e => .error e
  | .ok interfacesBuilder =>
    match Class.addDeclInterfaces env pre.m_name pre.m_interfaces (interfacesBuilder, []) with
    | .error e => .error e
    | .ok st =>
      match Class.addInterfacesFromUsedTraits env usedTraits st.1 with
      | .error e => .error e
      | .ok interfacesBuilder => .ok (interfacesBuilder, st.2)

/-- The method `Class::setInterfaces`. -/
def Class.setInterfaces (env : Env) (parent : Option Class) (usedTraits : List Class)
    (this : Class) : Except Fatal Class :=
  match Class.buildInterfaces env parent usedTraits this.m_preClass with
  | .error e => .error e
  | .ok st =>
    let this := { this with m_declInterfaces := st.2, m_interfaces := st.1 }
    match Class.checkInterfaceMethods env this with
    | .error e => .error e
    | .ok () => .ok this

/-! ## The linker: constants -/

/-- First loop of `Class::setConstants`: the constants of the parent. -/
def Class.copyParentConstants : List Class.Const → ConstMap → ConstMap
  | [], builder => builder
  | c :: rest, builder => copyParentConstants rest (builder.add c.m_name c)

/-- Second loop of `Class::setConstants`, the constants of one interface. -/
def Class.addInterfaceConstants : List Class.Const → ConstMap → Except Fatal ConstMap
  | [], builder => .ok builder
  | iConst :: rest, builder =>
    let clash :=
      match builder.lookup iConst.m_name with
      | some (_, existing) => existing.m_class != iConst.m_class
      | none => false
    if clash then .error (.inheritConstant iConst.m_name)
    else addInterfaceConstants rest (builder.add iConst.m_name iConst)

/-- Second loop of `Class::setConstants`, over the declared interfaces. -/
def Class.addAllInterfaceConstants (env : Env) : List ClassId → ConstMap → Except Fatal ConstMap
  | [], builder => .ok builder
  | i :: rest, builder =>
    match env.deref i with
    | .error e => .error e
    | .ok di =>
      match Class.addInterfaceConstants di.m_constants.m_list builder with
      | .error e => .error e
      | .ok b1 => addAllInterfaceConstants env rest b1

/-- Third loop of `Class::setConstants`, the body for one constant of the
`PreClass`. -/
def Class.addOwnConstant (env : Env) (this : Class) (preConst : PreClass.Const)
    (builder : ConstMap) : Except Fatal ConstMap :=
  match builder.lookup preConst.m_name with
  | some (slot, existing) =>
    match env.derefIn this existing.m_class with
    | .error e => .error e
    | .ok owner =>
      if !hasAttr owner.attrs AttrInterface then
        .ok (builder.set slot { existing with m_class := this.m_self, m_val := preConst.m_val })
      else .error (.overrideConstant preConst.m_name)
  | none =>
    .ok (builder.add preConst.m_name
      { m_class := this.m_self, m_name := preConst.m_name, m_val := preConst.m_val,
        m_phpCode := preConst.m_phpCode })

/-- Third loop of `Class::setConstants`. -/
def Class.addOwnConstants (env : Env) (this : Class) :
    List PreClass.Const → ConstMap → Except Fatal ConstMap
  | [], builder => .ok builder
  | c :: rest, builder =>
    match Class.addOwnConstant env this c builder with
    | .error e => .error e
    | .ok b1 => addOwnConstants env this rest b1

/-- The builder of `Class::setConstants` after the first loop. -/
def Class.inheritedConstants (parent : Option Class) : ConstMap :=
  match parent with
  | some p => Class.copyParentConstants p.m_constants.m_list IndexedStringMap.empty
  | none => IndexedStringMap.empty

/-- The method `Class::setConstants`. -/
def Class.setConstants (env : Env) (parent : Option Class) (this : Class) :
    Except Fatal Class :=
  match Class.addAllInterfaceConstants env this.m_declInterfaces
      (Class.inheritedConstants parent) with
  | .error e => .error e
  | .ok builder =>
    match Class.addOwnConstants env this this.m_preClass.m_constants builder with
    | .error e => .error e
    | .ok builder => .ok { this with m_constants := builder }

/-! ## The linker: properties -/

/-- The function `copyDeepInitAttr`. -/
def copyDeepInitAttr (pclsProp : PreClass.Prop) (clsProp : Class.Prop) : Class.Prop :=
  if hasAttr pclsProp.m_attrs AttrDeepInit then
    { clsProp with m_attrs := clsProp.m_attrs ||| AttrDeepInit }
  else { clsProp with m_attrs := clearBits clsProp.m_attrs AttrDeepInit }

/-- The state of `Class::setProperties`: the two builders and the fields of
`this` that the method writes. -/
structure PropState where
  curPropMap : PropMap
  curSPropMap : SPropMap
  m_declPropInit : List TypedValueAux
  m_hasDeepInitProps : Bool
  numInaccessible : Nat
deriving Repr, DecidableEq

/-- The method `PropInitVec::push_back`. -/
def PropInitVec.push_back (v : List TypedValueAux) (tv : TypedValue) : List TypedValueAux :=
  v ++ [⟨tv, false⟩]

/-- The assignment of type and data of `tv` to the entry `i` of a
`PropInitVec`; the auxiliary flag of the entry stays. -/
def PropInitVec.assign (v : List TypedValueAux) (i : Nat) (tv : TypedValue) :
    List TypedValueAux :=
  match v[i]? with
  | some old => v.set i { old with tv := tv }
  | none => v

/-- First loop of `Class::setProperties`: the declared properties of the
parent are copied, the private ones without a name. -/
def Class.copyParentProps : List Class.Prop → PropMap × Nat → PropMap × Nat
  | [], st => st
  | parentProp :: rest, st =>
    let prop : Class.Prop :=
      { m_class := parentProp.m_class
        m_mangledName := parentProp.m_mangledName
        m_originalMangledName := parentProp.m_originalMangledName
        m_attrs := parentProp.m_attrs
        m_docComment := parentProp.m_docComment
        m_typeConstraint := parentProp.m_typeConstraint
        m_name := parentProp.m_name
        m_hphpcType := parentProp.m_hphpcType }
    if !hasAttr parentProp.m_attrs AttrPrivate then
      copyParentProps rest (st.1.add prop.m_name prop, st.2)
    else copyParentProps rest (st.1.addUnnamed prop, st.2 + 1)

/-- Second loop of `Class::setProperties`: the static properties of the parent
that are not private are aliased. -/
def Class.copyParentSProps : List Class.SProp → SPropMap → SPropMap
  | [], m => m
  | parentProp :: rest, m =>
    if hasAttr parentProp.m_attrs AttrPrivate then copyParentSProps rest m
    else
      let sProp : Class.SProp :=
        { m_name := parentProp.m_name
          m_attrs := parentProp.m_attrs
          m_typeConstraint := parentProp.m_typeConstraint
          m_docComment := parentProp.m_docComment
          m_class := parentProp.m_class
          m_val := .uninit }
      copyParentSProps rest (m.add sProp.m_name sProp)

/-- The value `m_preClass->lookupProp(name)->val()`. -/
def PreClass.lookupPropVal (pre : PreClass) (name : String) : Except Fatal TypedValue :=
  match pre.lookupProp name with
  | some p => .ok p.m_val
  | none => .error .nullDeref

/-- The property that `Class::setProperties` appends for a declaration of the
class itself. -/
def Class.newProp (this : Class) (preProp : PreClass.Prop) : Class.Prop :=
  { m_name := preProp.m_name
    m_mangledName := preProp.mangledName this.m_preClass.m_name
    m_originalMangledName := preProp.mangledName this.m_preClass.m_name
    m_attrs := preProp.m_attrs
    m_class := this.m_self
    m_typeConstraint := preProp.m_typeConstraint
    m_docComment := preProp.m_docComment
    m_hphpcType := preProp.m_hphpcType }

/-- The three places of `Class::setProperties` that append a new property and
its initial value. -/
def Class.appendProp (this : Class) (preProp : PreClass.Prop) (st : PropState) :
    Except Fatal PropState :=
  match this.m_preClass.lookupPropVal preProp.m_name with
  | .error e => .error e
  | .ok v =>
    .ok { st with curPropMap := st.curPropMap.add preProp.m_name (Class.newProp this preProp)
                  m_declPropInit := PropInitVec.push_back st.m_declPropInit v }

/-- The two places of `Class::setProperties` that overlay the initial value
and the deep-init attribute of the entry `slot`, which is `prop` by now. -/
def Class.overlayProp (this : Class) (preProp : PreClass.Prop) (slot : Nat)
    (prop : Class.Prop) (st : PropState) : Except Fatal PropState :=
  match this.m_preClass.lookupPropVal preProp.m_name with
  | .error e => .error e
  | .ok tv =>
    .ok { st with m_declPropInit := PropInitVec.assign st.m_declPropInit slot tv
                  curPropMap := st.curPropMap.set slot (copyDeepInitAttr preProp prop) }

/-- The loop of `Class::setProperties` that looks for the ancestor whose
`PreClass` declares the property, starting at `ancestor`; it runs past the
root after at most `fuel` classes. -/
def Class.findDeclaringAncestor (env : Env) (propName : String) :
    Nat → Option Class → Except Fatal Class
  | _, none => .error .nullDeref
  | 0, some _ => .error .nullDeref
  | fuel + 1, some ancestor =>
    if ancestor.m_preClass.hasProp propName then .ok ancestor
    else
      match ancestor.m_parent with
      | none => .error .nullDeref
      | some id => findDeclaringAncestor env propName fuel (env.classes id)

/-- The body of the main loop of `Class::setProperties` for a declaration that
is not static. -/
def Class.addOwnInstanceProp (parent : Option Class) (this : Class)
    (preProp : PreClass.Prop) (st : PropState) : Except Fatal PropState :=
  if (st.curSPropMap.find preProp.m_name).isSome then .error (.redeclareStatic preProp.m_name)
  else
    let parentProp : Option Class.Prop :=
      match parent with
      | none => none
      | some p => (p.m_declProperties.lookup preProp.m_name).map (fun e => e.2)
    let strengthens :=
      match parentProp with
      | some pp => decide (visOf preProp.m_attrs > visOf pp.m_attrs)
      | none => false
    if strengthens then .error (.propAccessLevel preProp.m_name)
    else
      let st :=
        if hasAttr preProp.m_attrs AttrDeepInit then { st with m_hasDeepInitProps := true }
        else st
      if visOf preProp.m_attrs = AttrPrivate then Class.appendProp this preProp st
      else if visOf preProp.m_attrs = AttrProtected then
        match st.curPropMap.lookup preProp.m_name with
        | some (slot, prop) => Class.overlayProp this preProp slot prop st
        | none => Class.appendProp this preProp st
      else if visOf preProp.m_attrs = AttrPublic then
        match st.curPropMap.lookup preProp.m_name with
        | some (slot, prop) =>
          let prop :=
            if visOf prop.m_attrs = AttrProtected then
              { prop with m_mangledName := preProp.mangledName this.m_preClass.m_name
                          m_originalMangledName := preProp.mangledName this.m_preClass.m_name
                          m_attrs := prop.m_attrs ^^^ (AttrProtected ||| AttrPublic)
                          m_typeConstraint := preProp.m_typeConstraint }
            else prop
          Class.overlayProp this preProp slot prop st
        | none => Class.appendProp this preProp st
      else .ok st

/-- The body of the main loop of `Class::setProperties` for a static
declaration. -/
def Class.addOwnStaticProp (env : Env) (parent : Option Class) (this : Class)
    (preProp : PreClass.Prop) (st : PropState) : Except Fatal PropState :=
  if (st.curPropMap.find preProp.m_name).isSome then
    match Class.findDeclaringAncestor env preProp.m_name this.m_classVecLen parent with
    | .error e => .error e
    | .ok _ => .error (.redeclareNonStatic preProp.m_name)
  else
    let found := st.curSPropMap.lookup preProp.m_name
    let strengthens :=
      match found with
      | some (_, parentSProp) => decide (visOf preProp.m_attrs > visOf parentSProp.m_attrs)
      | none => false
    if strengthens then .error (.propAccessLevel preProp.m_name)
    else
      match this.m_preClass.lookupPropVal preProp.m_name with
      | .error e => .error e
      | .ok v =>
        let sProp : Class.SProp :=
          { m_name := (match found with
                       | some (_, parentSProp) => parentSProp.m_name
                       | none => preProp.m_name)
            m_attrs := preProp.m_attrs
            m_typeConstraint := preProp.m_typeConstraint
            m_docComment := preProp.m_docComment
            m_class := this.m_self
            m_val := v }
        match found with
        | some (sPropInd, _) => .ok { st with curSPropMap := st.curSPropMap.set sPropInd sProp }
        | none => .ok { st with curSPropMap := st.curSPropMap.add preProp.m_name sProp }

/-- The body of the main loop of `Class::setProperties`. -/
def Class.addOwnProp (env : Env) (parent : Option Class) (this : Class)
    (preProp : PreClass.Prop) (st : PropState) : Except Fatal PropState :=
  if !hasAttr preProp.m_attrs AttrStatic then Class.addOwnInstanceProp parent this preProp st
  else Class.addOwnStaticProp env parent this preProp st

/-- The main loop of `Class::setProperties`. -/
def Class.addOwnProps (env : Env) (parent : Option Class) (this : Class) :
    List PreClass.Prop → PropState → Except Fatal PropState
  | [], st => .ok st
  | preProp :: rest, st =>
    match Class.addOwnProp env parent this preProp st with
    | .error e => .error e
    | .ok st1 => addOwnProps env parent this rest st1

/-- The method `Class::compatibleTraitPropInit`. -/
def Class.compatibleTraitPropInit (env : Env) (tv1 tv2 : TypedValue) : Bool :=
  if tv1.m_type != tv2.m_type then false
  else
    match tv1, tv2 with
    | .null, _ => true
    | .bool a, .bool b => a == b
    | .int a, .int b => a == b
    | .dbl a, .dbl b => env.dblSame a b
    | .staticStr a, .staticStr b => a == b
    | .str a, .str b => a == b
    | _, _ => false

/-- The method `Class::importTraitInstanceProp`. -/
def Class.importTraitInstanceProp (env : Env) (this : Class) (traitProp : Class.Prop)
    (traitPropVal : TypedValueAux) (st : PropState) : Except Fatal PropState :=
  match st.curPropMap.find traitProp.m_name with
  | none =>
    let prop := { traitProp with m_class := this.m_self }
    let prop :=
      if hasAttr prop.m_attrs AttrPrivate then
        { prop with m_mangledName :=
            Option.getD (PreClass.manglePropName this.m_preClass.m_name prop.m_name prop.m_attrs) prop.m_mangledName }
      else prop
    let st := if hasAttr prop.m_attrs AttrDeepInit then { st with m_hasDeepInitProps := true }
              else st
    .ok { st with curPropMap := st.curPropMap.add prop.m_name prop
                  m_declPropInit := PropInitVec.push_back st.m_declPropInit traitPropVal.tv }
  | some slot =>
    match st.curPropMap.get? slot, st.m_declPropInit[slot]? with
    | some prevProp, some prevPropVal =>
      if prevProp.m_attrs != traitProp.m_attrs ||
          !Class.compatibleTraitPropInit env prevPropVal.tv traitPropVal.tv then
        .error (.traitPropIncompatible traitProp.m_name)
      else .ok st
    | _, _ => .error .nullDeref

/-- The method `Class::getStaticPropInitVal`. -/
def Class.getStaticPropInitVal (env : Env) (prop : Class.SProp) : Except Fatal TypedValue :=
  match env.deref prop.m_class with
  | .error e => .error e
  | .ok declCls =>
    match declCls.m_staticProperties.lookup prop.m_name with
    | some (_, sp) => .ok sp.m_val
    | none => .error .nullDeref

/-- The method `Class::importTraitStaticProp`. -/
def Class.importTraitStaticProp (env : Env) (this : Class) (traitProp : Class.SProp)
    (st : PropState) : Except Fatal PropState :=
  if (st.curPropMap.find traitProp.m_name).isSome then
    .error (.traitPropIncompatible traitProp.m_name)
  else
    match st.curSPropMap.find traitProp.m_name with
    | none =>
      let prop := { traitProp with m_class := this.m_self }
      .ok { st with curSPropMap := st.curSPropMap.add prop.m_name prop }
    | some slot =>
      match st.curSPropMap.get? slot with
      | none => .error .nullDeref
      | some prevProp =>
        let prevPropVal : Except Fatal TypedValue :=
          if prevProp.m_class = this.m_self then .ok prevProp.m_val
          else Class.getStaticPropInitVal env prevProp
        match prevPropVal with
        | .error e => .error e
        | .ok prevPropVal =>
          if prevProp.m_attrs != traitProp.m_attrs ||
              !Class.compatibleTraitPropInit env traitProp.m_val prevPropVal then
            .error (.traitPropIncompatible traitProp.m_name)
          else
            let owned : Class.SProp := { prevProp with m_class := this.m_self, m_val := prevPropVal }
            .ok { st with curSPropMap := st.curSPropMap.set slot owned }

/-- The loop of `Class::importTraitProps` over the instance properties of one
trait, `p` being the slot of the first property of the list. -/
def Class.importTraitInstanceProps (env : Env) (this : Class) (trait : Class) :
    List Class.Prop → Nat → PropState → Except Fatal PropState
  | [], _, st => .ok st
  | traitProp :: rest, p, st =>
    match trait.m_declPropInit[p]? with
    | none => .error .nullDeref
    | some traitPropVal =>
      match Class.importTraitInstanceProp env this traitProp traitPropVal st with
      | .error e => .error e
      | .ok st1 => importTraitInstanceProps env this trait rest (p + 1) st1

/-- The loop of `Class::importTraitProps` over the static properties of one
trait. -/
def Class.importTraitStaticProps (env : Env) (this : Class) :
    List Class.SProp → PropState → Except Fatal PropState
  | [], st => .ok st
  | traitProp :: rest, st =>
    match Class.importTraitStaticProp env this traitProp st with
    | .error e => .error e
    | .ok st1 => importTraitStaticProps env this rest st1

/-- The loop of `Class::importTraitProps` over the used traits. -/
def Class.importTraitPropsLoop (env : Env) (this : Class) :
    List Class → PropState → Except Fatal PropState
  | [], st => .ok st
  | trait :: rest, st =>
    match Class.importTraitInstanceProps env this trait trait.m_declProperties.m_list 0 st with
    | .error e => .error e
    | .ok st1 =>
      match Class.importTraitStaticProps env this trait.m_staticProperties.m_list st1 with
      | .error e => .error e
      | .ok st2 => importTraitPropsLoop env this rest st2

/-- The method `Class::importTraitProps`. -/
def Class.importTraitProps (env : Env) (usedTraits : List Class) (this : Class)
    (st : PropState) : Except Fatal PropState :=
  if hasAttr this.attrs AttrNoExpandTrait then .ok st
  else Class.importTraitPropsLoop env this usedTraits st

/-- The part of `Class::setProperties` before the main loop: what the class
takes over from its parent. -/
def Class.inheritedProps (parent : Option Class) : PropState :=
  match parent with
  | some p =>
    let copied := Class.copyParentProps p.m_declProperties.m_list (IndexedStringMap.empty, 0)
    { curPropMap := copied.1
      curSPropMap := Class.copyParentSProps p.m_staticProperties.m_list IndexedStringMap.empty
      m_declPropInit := p.m_declPropInit
      m_hasDeepInitProps := p.m_hasDeepInitProps
      numInaccessible := copied.2 }
  | none =>
    { curPropMap := IndexedStringMap.empty
      curSPropMap := IndexedStringMap.empty
      m_declPropInit := []
      m_hasDeepInitProps := false
      numInaccessible := 0 }

/-- The builders of `Class::setProperties` after the main loop and the import
of the trait properties. -/
def Class.buildProps (env : Env) (parent : Option Class) (usedTraits : List Class)
    (this : Class) : Except Fatal PropState :=
  match Class.addOwnProps env parent this this.m_preClass.m_properties
      (Class.inheritedProps parent) with
  | .error e => .error e
  | .ok st => Class.importTraitProps env usedTraits this st

/-- The method `Class::setProperties`. -/
def Class.setProperties (env : Env) (parent : Option Class) (usedTraits : List Class)
    (this : Class) : Except Fatal Class :=
  match Class.buildProps env parent usedTraits this with
  | .error e => .error e
  | .ok st =>
    .ok { this with
          m_hasDeepInitProps := st.m_hasDeepInitProps
          m_declPropInit := st.m_declPropInit
          m_declProperties := st.curPropMap
          m_staticProperties := st.curSPropMap
          m_declPropNumAccessible := (st.curPropMap.size : Int) - (st.numInaccessible : Int) }

/-! ## The linker: initialisers, ancestor vector, constructor -/

/-- The function `findSpecialMethod`. -/
def findSpecialMethod (cls : Class) (name : String) : Option Func :=
  if !cls.m_preClass.hasMethod name then none
  else
    match cls.m_preClass.lookupMethod name with
    | none => none
    | some f => some (((f.clone (some cls.m_self)).setBaseCls cls.m_self).setHasPrivateAncestor false)

/-- The inner loop of `Class::addTraitPropInitializers`: the entries of the
vector of a trait that are not yet in the vector of the class are appended. -/
def Class.addTraitInitVec : List Func → List Func → List Func
  | [], thisInitVec => thisInitVec
  | m :: rest, thisInitVec =>
    if thisInitVec.contains m then addTraitInitVec rest thisInitVec
    else addTraitInitVec rest (thisInitVec ++ [m])

/-- The outer loop of `Class::addTraitPropInitializers`. -/
def Class.addTraitPropInitializersLoop (staticProps : Bool) : List Class → List Func → List Func
  | [], thisInitVec => thisInitVec
  | trait :: rest, thisInitVec =>
    let traitInitVec := if staticProps then trait.m_sinitVec else trait.m_pinitVec
    addTraitPropInitializersLoop staticProps rest (Class.addTraitInitVec traitInitVec thisInitVec)

/-- The method `Class::addTraitPropInitializers`, on the vector that
`staticProps` selects (`m_sinitVec` or `m_pinitVec`). -/
def Class.addTraitPropInitializers (usedTraits : List Class) (staticProps : Bool)
    (this : Class) (thisInitVec : List Func) : List Func :=
  if hasAttr this.attrs AttrNoExpandTrait then thisInitVec
  else Class.addTraitPropInitializersLoop staticProps usedTraits thisInitVec

/-- The vector `m_pinitVec` as `Class::setInitializers` builds it: the vector
of the parent, the own `86pinit` if there is one, then those of the traits. -/
def Class.buildPinitVec (parent : Option Class) (usedTraits : List Class) (this : Class) :
    List Func :=
  let inherited :=
    match parent with
    | some p => p.m_pinitVec
    | none => this.m_pinitVec
  let own :=
    match findSpecialMethod this sd86pinit with
    | some meth86pinit => inherited ++ [meth86pinit]
    | none => inherited
  Class.addTraitPropInitializers usedTraits false this own

/-- The vector `m_sinitVec` as `Class::setInitializers` builds it: the own
`86sinit` if there is one, then those of the traits. -/
def Class.buildSinitVec (usedTraits : List Class) (this : Class) : List Func :=
  let own :=
    match findSpecialMethod this sd86sinit with
    | some sinit => this.m_sinitVec ++ [sinit]
    | none => this.m_sinitVec
  Class.addTraitPropInitializers usedTraits true this own

/-- The method `Class::setInitializers`. -/
def Class.setInitializers (parent : Option Class) (usedTraits : List Class) (this : Class) :
    Class :=
  { this with
    m_pinitVec := Class.buildPinitVec parent usedTraits this
    m_sinitVec := Class.buildSinitVec usedTraits this
    m_needInitialization :=
      decide ((Class.buildPinitVec parent usedTraits this).length > 0) ||
        decide (this.m_staticProperties.size > 0)
    m_hasInitMethods :=
      decide ((Class.buildPinitVec parent usedTraits this).length > 0) ||
        decide ((Class.buildSinitVec usedTraits this).length > 0) }

/-- The entries that `Class::setClassVec` copies from the parent: the first
`m_classVecLen - 1` ones, when `m_classVecLen > 1`. -/
def Class.copiedClassVec (parent : Option Class) (classVecLen : Nat) : List ClassId :=
  if classVecLen > 1 then
    match parent with
    | some p => p.m_classVec.take (classVecLen - 1)
    | none => []
  else []

/-- The method `Class::setClassVec`: the first `m_classVecLen - 1` entries are
copied from the parent, the last one is `this`. -/
def Class.setClassVec (parent : Option Class) (this : Class) : Class :=
  { this with m_classVec := Class.copiedClassVec parent this.m_classVecLen ++ [this.m_self] }

/-- The length `classVecLen` that `Class::newClass` allocates the ancestor
vector with. -/
def Class.newClassVecLen (parent : Option Class) : Nat :=
  match parent with
  | some p => p.m_classVecLen + 1
  | none => 1

/-- The function `Class::newClass` with the constructor `Class::Class`: the
class is built at the address `self`.  The stages `setSpecial` and
`setODAttributes`, which raise no error and fill in fields that no other stage
reads, are left out. -/
def Class.newClass (env : Env) (self : ClassId) (preClass : PreClass) (parent : Option Class) :
    Except Fatal Class :=
  match Class.setParent parent
      (Class.init self preClass parent (Class.newClassVecLen parent)) with
  | .error e => .error e
  | .ok this =>
    match Class.loadUsedTraits env preClass.m_name preClass.m_usedTraits with
    | .error e => .error e
    | .ok usedTraits =>
      let this := { this with m_usedTraits := usedTraits.map (fun t => t.m_self) }
      match Class.setMethods env parent usedTraits this with
      | .error e => .error e
      | .ok this =>
        match Class.setInterfaces env parent usedTraits this with
        | .error e => .error e
        | .ok this =>
          match Class.setConstants env parent this with
          | .error e => .error e
          | .ok this =>
            match Class.setProperties env parent usedTraits this with
            | .error e => .error e
            | .ok this =>
              .ok (Class.setClassVec parent (Class.setInitializers parent usedTraits this))

/-! ## Queries on linked classes -/

/-- The scan of `Class::commonAncestor`: downwards from `vecIdx` to `0`, the
first index at which the two vectors hold the same class. -/
def Class.commonAncestorScan (v1 v2 : List ClassId) : Nat → Option ClassId
  | 0 =>
    match v1[0]?, v2[0]? with
    | some a, some b => if a = b then some a else none
    | _, _ => none
  | vecIdx + 1 =>
    match v1[vecIdx + 1]?, v2[vecIdx + 1]? with
    | some a, some b => if a = b then some a else commonAncestorScan v1 v2 vecIdx
    | _, _ => commonAncestorScan v1 v2 vecIdx

/-- The method `Class::commonAncestor`; `nullptr` is `none`. -/
def Class.commonAncestor (this cls : Class) : Option ClassId :=
  let vecIdx := min this.m_classVecLen cls.m_classVecLen - 1
  Class.commonAncestorScan this.m_classVec cls.m_classVec vecIdx

/-- Modelled from the spec: `isSubclassOf(otherClass)`, whose implementation
is declared outside the source, is the containment of `otherClass` in the
ancestor vector. -/
def Class.isSubclassOf (this other : Class) : Bool :=
  this.m_classVec.contains other.m_self

/-! ## Linked hierarchies -/

/-- A lineage: a class followed by its parent, grandparent and so on up to the
root, each made by `newClass` from the next one. -/
inductive Lineage : List Class → Prop where
  | root (env : Env) (self : ClassId) (pre : PreClass) (cls : Class) :
      Class.newClass env self pre none = .ok cls → Lineage [cls]
  | child (env : Env) (self : ClassId) (pre : PreClass) (cls p : Class) (rest : List Class) :
      Lineage (p :: rest) → Class.newClass env self pre (some p) = .ok cls →
      Lineage (cls :: p :: rest)

/-- A heap whose classes were all built by linking: starting from the empty
heap, a class is linked at a fresh address from a parent that the heap
holds. -/
inductive LinkedHeap : (ClassId → Option Class) → Prop where
  | empty : LinkedHeap (fun _ => none)
  | link (env : Env) (self : ClassId) (pre : PreClass) (parent : Option Class) (cls : Class) :
      LinkedHeap env.classes → env.classes self = none →
      (∀ p, parent = some p → env.classes p.m_self = some p) →
      Class.newClass env self pre parent = .ok cls →
      LinkedHeap (fun id => if id = self then some cls else env.classes id)

/-- The fields of a class that only `setParent` and the member initialisers
write: two classes agree on them. -/
def Class.SameCore (a b : Class) : Prop :=
  b.m_self = a.m_self ∧ b.m_preClass = a.m_preClass ∧ b.m_parent = a.m_parent ∧
  b.m_classVecLen = a.m_classVecLen ∧ b.m_attrCopy = a.m_attrCopy

/-! ## Example classes -/

/-- The result of `newClass` as a class, for examples that link. -/
def Class.linked (env : Env) (self : ClassId) (pre : PreClass) (parent : Option Class) : Class :=
  match Class.newClass env self pre parent with
  | .ok c => c
  | .error _ => Class.init self pre parent 0

/-- A method declaration for the examples. -/
def exFunc (name : String) (attrs : Attr) (shared : Nat) (preClass : String) : Func :=
  { m_name := name, m_attrs := attrs, m_shared := shared, m_preClass := preClass, m_cls := none,
    m_baseCls := none, m_hasPrivateAncestor := false, m_hasStaticLocals := false,
    m_isGenerated := false, m_methodSlot := 0 }

/-- A property declaration for the examples. -/
def exProp (name : String) (attrs : Attr) (val : TypedValue) : PreClass.Prop :=
  { m_name := name, m_attrs := attrs, m_typeConstraint := "", m_docComment := "", m_val := val,
    m_hphpcType := 0 }

/-- A class declaration for the examples. -/
def exPre (name : String) (parent : Option String) (attrs : Attr) (methods : List Func)
    (props : List PreClass.Prop) : PreClass :=
  { m_name := name, m_parent := parent, m_attrs := attrs, m_methods := methods,
    m_properties := props, m_constants := [], m_interfaces := [], m_usedTraits := [],
    m_traitPrecRules := [], m_traitAliasRules := [], m_userAttributes := [],
    m_instanceCtor := none, m_builtinPropSize := 0 }

/-- An environment over a heap and a name lookup, for the examples. -/
def exEnv (classes : ClassId → Option Class) (loadClass : String → Option ClassId) : Env :=
  { classes := classes, loadClass := loadClass, parametersCompat := fun _ _ _ => true,
    hphpiCompat := false, dblSame := fun a b => a == b }

/-- The empty environment. -/
def env0 : Env := exEnv (fun _ => none) (fun _ => none)

/-- The declaration `class Base { protected $x = 1; public function get() }`. -/
def preBase : PreClass :=
  exPre "Base" none 0 [exFunc "get" AttrPublic 1 "Base"] [exProp "x" AttrProtected (.int 1)]

/-- The class `Base`, linked at address 10. -/
def exBase : Class := Class.linked env0 10 preBase none

/-- The heap that holds `Base`. -/
def envBase : Env := exEnv (fun id => if id = 10 then some exBase else env0.classes id)
  (fun n => if n = "Base" then some 10 else none)

/-- The declaration `class Child extends Base {}`. -/
def preChild : PreClass := exPre "Child" (some "Base") 0 [] []

/-- The class `Child`, linked at address 11. -/
def exChild : Class := Class.linked envBase 11 preChild (some exBase)

/-- The invariant of a linked heap: every class sits at its own address, its
ancestor vector has `m_classVecLen` entries and ends in the class itself, and
the class at index `i` of the vector is in the heap with the first `i + 1`
entries as its own vector. -/
def HeapVecInv (h : ClassId → Option Class) : Prop :=
  ∀ id c, h id = some c →
    c.m_self = id ∧ c.m_classVec.length = c.m_classVecLen ∧ 0 < c.m_classVecLen ∧
    c.m_classVec.getLast? = some id ∧
    ∀ (i : Nat) (x : ClassId), c.m_classVec[i]? = some x →
      ∃ a, h x = some a ∧ a.m_classVec = c.m_classVec.take (i + 1)

/-- The class that `newClass` hands to `setMethods`: the member initialisers,
`setParent` and `setUsedTraits` are done. -/
def Class.beforeMethods (self : ClassId) (pre : PreClass) (parent : Option Class)
    (usedTraits : List Class) : Class :=
  { Class.cacheAttrs parent (Class.init self pre parent (Class.newClassVecLen parent)) with
    m_usedTraits := usedTraits.map (fun t => t.m_self) }

/-- The method list of the parent, empty without a parent. -/
def Class.parentMethodList (parent : Option Class) : List Func :=
  match parent with
  | some p => p.m_methods.m_list
  | none => []

/-- The class declares a compiler-generated method under the name. -/
def OwnGenerated (pre : PreClass) (name : String) : Prop :=
  ∃ m, m ∈ pre.m_methods ∧ isame name m.m_name = true ∧ m.m_isGenerated = true

/-- How the entry `e` of a slot of the builder of `setMethods` relates to the
entry `g` of the parent in the same slot while the methods of the class itself
are added: its visibility has not narrowed, unless the class declares a
generated method of that name. -/
def OverrideRelOwn (pre : PreClass) (e g : Func) : Prop :=
  visOf e.m_attrs ≤ visOf g.m_attrs ∨ OwnGenerated pre g.m_name

/-- The same relation once trait methods are imported: the entry may also be a
generated method of the class. -/
def OverrideRel (self : ClassId) (pre : PreClass) (e g : Func) : Prop :=
  OverrideRelOwn pre e g ∨ (e.m_isGenerated = true ∧ e.m_cls = some self)

/-- The invariant of the builder of `setMethods` with respect to the method
list `G` of the parent: the slots of the parent are there, each related by `R`
to the entry of the parent and under the same name up to case, and the names
bound to these slots are those of the parent. -/
def MethodsInv (R : Func → Func → Prop) (G : List Func) (b : MethodMap) : Prop :=
  G.length ≤ b.m_list.length ∧
  (∀ (i : Nat) (e g : Func), b.m_list[i]? = some e → G[i]? = some g →
    R e g ∧ isame g.m_name e.m_name = true) ∧
  (∀ (k : String) (i : Nat) (g : Func), (k, i) ∈ b.m_map → G[i]? = some g → k = g.m_name)

/-- The declaration `class Gen extends Base` with a compiler-generated
protected method `get`. -/
def preGen : PreClass :=
  exPre "Gen" (some "Base") 0
    [{ exFunc "get" AttrProtected 7 "Gen" with m_isGenerated := true }] []

/-- The class `Gen`, linked at address 11. -/
def exGen : Class := Class.linked envBase 11 preGen (some exBase)

/-- The heap that holds `Base` and `Child`. -/
def envChild : Env := exEnv (fun id => if id = 11 then some exChild else envBase.classes id)
  (fun n => if n = "Base" then some 10 else if n = "Child" then some 11 else none)

/-- The declaration `class Other extends Base {}`. -/
def preOther : PreClass := exPre "Other" (some "Base") 0 [] []

/-- The class `Other`, linked at address 12. -/
def exOther : Class := Class.linked envChild 12 preOther (some exBase)

/-- The heap that holds `Base`, `Child` and `Other`. -/
def heapOther : ClassId → Option Class :=
  fun id => if id = 12 then some exOther else envChild.classes id

/-- The declaration `interface I { public function get(); }`. -/
def preIface : PreClass :=
  exPre "I" none AttrInterface [exFunc "get" (AttrPublic ||| AttrAbstract) 3 "I"] []

/-- The interface `I`, linked at address 20. -/
def exIface : Class := Class.linked env0 20 preIface none

/-- The heap that holds `I`. -/
def envIface : Env := exEnv (fun id => if id = 20 then some exIface else env0.classes id)
  (fun n => if n = "I" then some 20 else none)

/-- The declaration `class Impl implements I { public function get() }`. -/
def preImpl : PreClass :=
  { exPre "Impl" none 0 [exFunc "get" AttrPublic 4 "Impl"] [] with m_interfaces := ["I"] }

/-- The class `Impl`, linked at address 21. -/
def exImpl : Class := Class.linked envIface 21 preImpl none

/-- The method `get` of the linked interface `I`. -/
def exIfaceGet : Func :=
  { exFunc "get" (AttrPublic ||| AttrAbstract) 3 "I" with m_cls := some 20, m_baseCls := some 20 }

/-- A builder is well formed when the indices bound in `m_map` are indices of
`m_list` and no two bindings share an index; `add`, `addUnnamed` and `set`
keep it so. -/
def IndexedStringMap.WF {α : Type} {cs : Bool} (m : IndexedStringMap α cs) : Prop :=
  (∀ x, x ∈ m.m_map → x.2 < m.m_list.length) ∧ m.m_map.Pairwise (fun x y => x.2 ≠ y.2)

/-- The entry `e` of a method table is the copy, bound to the class at `self`,
of a method that the class declares under a name that matches `name`. -/
def OwnEntry (self : ClassId) (pre : PreClass) (name : String) (e : Func) : Prop :=
  e.m_cls = some self ∧
  ∃ m, m ∈ pre.m_methods ∧ isame m.m_name name = true ∧ e.m_name = m.m_name ∧
    e.m_attrs = m.m_attrs ∧ e.m_shared = m.m_shared ∧ e.m_preClass = m.m_preClass ∧
    e.m_isGenerated = m.m_isGenerated

/-- The builder resolves `name` to a method of the class itself. -/
def OwnAt (self : ClassId) (pre : PreClass) (b : MethodMap) (name : String) : Prop :=
  ∃ i e, b.lookup name = some (i, e) ∧ OwnEntry self pre name e

/-- The test of `setMethods` that leaves a method of the `PreClass` out of the
method table: its name is `86ctor`, `86sinit` or `86pinit`. -/
def skippedOwnMethod (method : Func) : Bool :=
  isSpecial method.m_name &&
    (method.m_name == sd86ctor || method.m_name == sd86sinit || method.m_name == sd86pinit)

/-- The names of a candidate map that have candidates are not special. -/
def CandidateKeysPlain (m : MethodToTraitListMap) : Prop :=
  ∀ e, e ∈ m → e.2 ≠ [] → isSpecial e.1 = false

/-- The declaration `trait A { public function foo() }`. -/
def preTraitA : PreClass := exPre "A" none AttrTrait [exFunc "foo" AttrPublic 5 "A"] []

/-- The trait `A`, linked at address 30. -/
def exTraitA : Class := Class.linked env0 30 preTraitA none

/-- The declaration `trait B { public function foo() }`. -/
def preTraitB : PreClass := exPre "B" none AttrTrait [exFunc "foo" AttrPublic 6 "B"] []

/-- The trait `B`, linked at address 31. -/
def exTraitB : Class := Class.linked env0 31 preTraitB none

/-- The heap that holds the traits `A` and `B`. -/
def envTraits : Env :=
  exEnv (fun id => if id = 30 then some exTraitA else if id = 31 then some exTraitB else none)
    (fun n => if n = "A" then some 30 else if n = "B" then some 31 else none)

/-- The declaration `class UseBoth { use A, B; }`. -/
def preUseBoth : PreClass :=
  { exPre "UseBoth" none 0 [] [] with m_usedTraits := ["A", "B"] }

/-- The declaration `class UseOwn { use A, B; public function foo() }`. -/
def preUseOwn : PreClass :=
  { exPre "UseOwn" none 0 [exFunc "foo" AttrPublic 9 "UseOwn"] [] with
    m_usedTraits := ["A", "B"] }

/-- The class `UseOwn`, linked at address 32. -/
def exUseOwn : Class := Class.linked envTraits 32 preUseOwn none

/-- The method `foo` of the linked trait `A`. -/
def exTraitAFoo : Func :=
  { exFunc "foo" AttrPublic 5 "A" with m_cls := some 30, m_baseCls := some 30 }

/-- The method `foo` of the linked trait `B`. -/
def exTraitBFoo : Func :=
  { exFunc "foo" AttrPublic 6 "B" with m_cls := some 31, m_baseCls := some 31 }

/-- The two candidates for `foo` that `A` and `B` contribute. -/
def exFooCandidates : TraitMethodList :=
  [⟨exTraitA, exTraitAFoo, AttrPublic⟩, ⟨exTraitB, exTraitBFoo, AttrPublic⟩]

/-- The candidates of a list come from traits with names that differ pairwise,
also up to case: no trait contributes two candidates. -/
def DistinctTraits (L : TraitMethodList) : Prop :=
  L.Pairwise (fun x y => isame x.m_trait.name y.m_trait.name = false)

/-- The builder resolves `name` to a method bound to the class at `self` that
satisfies `P`. -/
def BoundAt (self : ClassId) (P : Func → Prop) (b : MethodMap) (name : String) : Prop :=
  ∃ i e, b.lookup name = some (i, e) ∧ e.m_cls = some self ∧ P e

/-- The names of a candidate map differ pairwise, also up to case. -/
def CandidateKeysDistinct (m : MethodToTraitListMap) : Prop :=
  m.Pairwise (fun x y => isame x.1 y.1 = false)

/-- The method that `Class::importTraitMethod` adds to the builder for the
candidate `tm` under a name that the builder does not resolve yet. -/
def Class.importedMethod (self : ClassId) (tm : TraitMethod) (methName : String) : Func :=
  (((((tm.m_method.clone (some self)).setName methName).setAttrs
    (Class.importModifiers tm.m_method tm.m_modifiers)).setBaseCls self).setHasPrivateAncestor false)

/-- The candidates that the trait contributes under `name`: its methods with
that name (up to case) that are not special, with their own modifiers. -/
def Class.candidatesOf (trait : Class) (name : String) : TraitMethodList :=
  (trait.m_methods.m_list.filter (fun f => !isSpecial f.m_name && isame f.m_name name)).map
    (fun f => ⟨trait, f, f.m_attrs⟩)

/-- The declaration `class UsePrefer { use A, B { A::foo insteadof B; } }`. -/
def preUsePrefer : PreClass :=
  { exPre "UsePrefer" none 0 [] [] with
    m_usedTraits := ["A", "B"], m_traitPrecRules := [⟨"foo", "A", ["B"]⟩] }

/-- The class `UsePrefer`, linked at address 33. -/
def exUsePrefer : Class := Class.linked envTraits 33 preUsePrefer none

/-- The declaration `trait C { abstract public function foo() }`. -/
def preTraitC : PreClass :=
  exPre "C" none AttrTrait [exFunc "foo" (AttrPublic ||| AttrAbstract) 7 "C"] []

/-- The trait `C`, linked at address 34. -/
def exTraitC : Class := Class.linked env0 34 preTraitC none

/-- The declaration `class FooBase { public function foo() }`. -/
def preFooBase : PreClass := exPre "FooBase" none 0 [exFunc "foo" AttrPublic 8 "FooBase"] []

/-- The class `FooBase`, linked at address 35. -/
def exFooBase : Class := Class.linked env0 35 preFooBase none

/-- The heap that holds the traits `B` and `C` and the class `FooBase`. -/
def envAbs : Env :=
  exEnv (fun id => if id = 31 then some exTraitB else if id = 34 then some exTraitC
      else if id = 35 then some exFooBase else none)
    (fun n => if n = "B" then some 31 else if n = "C" then some 34
      else if n = "FooBase" then some 35 else none)

/-- The declaration
`class UseAbs extends FooBase { use C, B { C::foo insteadof B; } }`. -/
def preUseAbs : PreClass :=
  { exPre "UseAbs" (some "FooBase") 0 [] [] with
    m_usedTraits := ["C", "B"], m_traitPrecRules := [⟨"foo", "C", ["B"]⟩] }

/-- The class `UseAbs`, linked at address 36. -/
def exUseAbs : Class := Class.linked envAbs 36 preUseAbs (some exFooBase)

/-- The property `q` is what `Class::setProperties` may make of the property
`p` in its slot: name and declaring class stay, and a private property keeps
its mangled name and stays private. -/
def Class.Prop.Derives (p q : Class.Prop) : Prop :=
  q.m_name = p.m_name ∧ q.m_class = p.m_class ∧
  (visOf p.m_attrs = AttrPrivate →
    q.m_mangledName = p.m_mangledName ∧ visOf q.m_attrs = AttrPrivate)

/-- The declared-property list grows from `l` to `k` in the class at `self`:
every slot of `l` holds in `k` a property derived from the one it held, and
every further slot of `k` holds a property that `self` declares. -/
def PropsEvolve (self : ClassId) (l k : List Class.Prop) : Prop :=
  l.length ≤ k.length ∧
  (∀ (i : Nat) (p : Class.Prop), l[i]? = some p → ∃ q, k[i]? = some q ∧ p.Derives q) ∧
  (∀ (j : Nat) (q : Class.Prop), k[j]? = some q → l.length ≤ j → q.m_class = self)

/-- The declared-property list of the parent, empty without a parent. -/
def Class.parentPropList (parent : Option Class) : List Class.Prop :=
  match parent with
  | some p => p.m_declProperties.m_list
  | none => []

/-- The declaration `class P { private $p = 1; protected $q = 5; }`. -/
def prePrivParent : PreClass :=
  exPre "P" none 0 [] [exProp "p" AttrPrivate (.int 1), exProp "q" AttrProtected (.int 5)]

/-- The class `P`, linked at address 40. -/
def exPrivParent : Class := Class.linked env0 40 prePrivParent none

/-- The heap that holds the class `P`. -/
def envPriv : Env :=
  exEnv (fun id => if id = 40 then some exPrivParent else none)
    (fun n => if n = "P" then some 40 else none)

/-- The declaration
`class Q extends P { private $p = 2; public $q = 6; public $r = 7; }`. -/
def prePrivChild : PreClass :=
  exPre "Q" (some "P") 0 []
    [exProp "p" AttrPrivate (.int 2), exProp "q" AttrPublic (.int 6), exProp "r" AttrPublic (.int 7)]

/-- The class `Q`, linked at address 41. -/
def exPrivChild : Class := Class.linked envPriv 41 prePrivChild (some exPrivParent)

/-- The table resolves the name `p` to a slot, not below `n0`, that holds a
private property named `p`, declared by the class at `self`, with the mangled
name `mangled`. -/
def PrivOwnAt (self : ClassId) (mangled p : String) (n0 : Nat) (m : PropMap) : Prop :=
  ∃ (j : Nat) (q : Class.Prop), m.find p = some j ∧ m.m_list[j]? = some q ∧ n0 ≤ j ∧
    q.m_name = p ∧ q.m_class = self ∧ q.m_mangledName = mangled ∧
    visOf q.m_attrs = AttrPrivate

/-! ## Lazy initialisation within a request -/

/-- Modelled from the spec: the arrays (`ArrayData`, `ArrayInit`) that carry
property values to the initialiser routines are declared outside the source.
An array with string keys, in the order of insertion. -/
abbrev PropArray := List (String × TypedValue)

/-- The call `set(key, value)` of an array. -/
def PropArray.set (a : PropArray) (k : String) (v : TypedValue) : PropArray :=
  if a.any (fun e => e.1 == k) then a.map (fun e => if e.1 == k then (k, v) else e)
  else a ++ [(k, v)]

/-- The call `nvGet(key)` of an array; a null result is `none`. -/
def PropArray.nvGet (a : PropArray) (k : String) : Option TypedValue :=
  (a.find? (fun e => e.1 == k)).map (fun e => e.2)

/-- Modelled from the spec: the execution context `g_vmContext` and
`SystemLib` are declared outside the source.  `invokeFunc f cls arr` runs the
initialiser routine `f` for the class at `cls` on the array it is handed by
reference and gives the array afterwards, or the error the routine raised;
`pinitSentinel` is the address of the object of `AllocPinitSentinel`. -/
structure ExecutionContext where
  invokeFunc : Func → ClassId → PropArray → Except Fatal PropArray
  debuggerBypassCheck : Bool
  pinitSentinel : Nat

/-- The address of a cell of a static-property table: the class whose table
holds it and the slot. -/
abbrev CellRef := ClassId × Nat

/-- Modelled from the spec: the state of one request, which lives in the
target cache and the request arena outside the source: for every class the
instance-property vector behind `m_propDataCache`, the static-property table
behind `m_propSDataCache` (both `none` while not set), and the number of open
frames of the request arena. -/
structure RequestState where
  propData : ClassId → Option (List TypedValueAux)
  sPropData : ClassId → Option (List TypedValue)
  arenaFrames : Nat

/-- The state at the start of a request. -/
def RequestState.fresh : RequestState :=
  { propData := fun _ => none, sPropData := fun _ => none, arenaFrames := 0 }

/-- The result of a routine that runs in a request: what it returns or raises,
and the state it leaves. -/
abbrev Run (α : Type) := Except Fatal α × RequestState

/-- The accessor `Class::getPropData`. -/
def Class.getPropData (this : Class) (st : RequestState) : Option (List TypedValueAux) :=
  st.propData this.m_self

/-- The method `Class::setPropData`. -/
def Class.setPropData (this : Class) (propData : List TypedValueAux) (st : RequestState) :
    RequestState :=
  { st with propData := fun id => if id = this.m_self then some propData else st.propData id }

/-- The accessor `Class::getSPropData`. -/
def Class.getSPropData (this : Class) (st : RequestState) : Option (List TypedValue) :=
  st.sPropData this.m_self

/-- The method `Class::setSPropData`. -/
def Class.setSPropData (this : Class) (sPropData : List TypedValue) (st : RequestState) :
    RequestState :=
  { st with sPropData := fun id => if id = this.m_self then some sPropData else st.sPropData id }

/-- The key under which `initPropsImpl` files the property of a slot. -/
def Class.pinitKey (p : Class.Prop) : String :=
  if hasAttr p.m_attrs AttrPrivate then p.m_originalMangledName else p.m_name

/-- The first loop of `Class::initPropsImpl`: the array for the `86pinit`
routines, with the sentinel in the place of the values that are not set. -/
def Class.pinitArray (tvSentinel : TypedValue) :
    List Class.Prop → List TypedValueAux → PropArray → Except Fatal PropArray
  | [], _, a => .ok a
  | _ :: _, [], _ => .error .nullDeref
  | p :: ps, prop :: rest, a =>
    pinitArray tvSentinel ps rest
      (a.set (Class.pinitKey p)
        (if prop.tv.m_type == DataType.KindOfUninit then tvSentinel else prop.tv))

/-- The loop of `Class::initPropsImpl` and of `Class::initSPropsImpl` that
invokes the initialiser routines in the order of the list. -/
def Class.invokeInits (ec : ExecutionContext) (this : Class) :
    List Func → PropArray → Except Fatal PropArray
  | [], a => .ok a
  | f :: rest, a =>
    match ec.invokeFunc f this.m_self a with
    | .error e => .error e
    | .ok a1 => invokeInits ec this rest a1

/-- The loop of `Class::initPropsImpl` that pulls the values of the slots that
were not set out of the array. -/
def Class.pullValues (propArr : PropArray) :
    List Class.Prop → List TypedValueAux → Except Fatal (List TypedValueAux)
  | [], rest => .ok rest
  | _ :: _, [] => .error .nullDeref
  | p :: ps, prop :: rest =>
    match pullValues propArr ps rest with
    | .error e => .error e
    | .ok tail =>
      if prop.tv.m_type == DataType.KindOfUninit then
        match propArr.nvGet (Class.pinitKey p) with
        | none => .error .nullDeref
        | some value => .ok ({ prop with tv := value } :: tail)
      else .ok (prop :: tail)

/-- Modelled from the spec: `setEvalScalar`, declared outside the source, turns
a string into a static string; the other values that the model distinguishes
stay. -/
def TypedValue.setEvalScalar : TypedValue → TypedValue
  | .str s => .staticStr s
  | v => v

/-- The last loop of `Class::initPropsImpl`: the `deepInit` flags. -/
def Class.markDeepInit : List Class.Prop → List TypedValueAux → Except Fatal (List TypedValueAux)
  | _, [] => .ok []
  | [], _ :: _ => .error .nullDeref
  | p :: ps, tv :: rest =>
    match markDeepInit ps rest with
    | .error e => .error e
    | .ok tail =>
      if hasAttr p.m_attrs AttrDeepInit then .ok ({ tv with deepInit := true } :: tail)
      else .ok ({ tv := tv.tv.setEvalScalar, deepInit := false } :: tail)

/-- The method `Class::initPropsImpl`.  A frame of the request arena is opened
for the new vector; it is closed again when an initialiser routine raises. -/
def Class.initPropsImpl (ec : ExecutionContext) (this : Class) (st : RequestState) :
    Run (List TypedValueAux) :=
  let st := { st with arenaFrames := st.arenaFrames + 1 }
  let propVec := this.m_declPropInit
  let tvSentinel := TypedValue.obj ec.pinitSentinel
  match Class.pinitArray tvSentinel this.m_declProperties.m_list propVec [] with
  | .error e => (.error e, st)
  | .ok arg0 =>
    match Class.invokeInits ec this this.m_pinitVec.reverse arg0 with
    | .error e => (.error e, { st with arenaFrames := st.arenaFrames - 1 })
    | .ok propArr =>
      match Class.pullValues propArr this.m_declProperties.m_list propVec with
      | .error e => (.error e, st)
      | .ok propVec =>
        match Class.markDeepInit this.m_declProperties.m_list propVec with
        | .error e => (.error e, st)
        | .ok propVec => (.ok propVec, st)

/-- The method `Class::initProps`. -/
def Class.initProps (ec : ExecutionContext) (this : Class) (st : RequestState) : Run Unit :=
  match Class.initPropsImpl ec this st with
  | (.error e, st1) => (.error e, st1)
  | (.ok propVec, st1) => (.ok (), this.setPropData propVec st1)

/-- Modelled from the spec: `tvDerefIndirect`, declared outside the source,
follows the pointer of an indirect cell and leaves any other cell alone.  The
cell is given by its address and the value it holds. -/
def tvDerefIndirect (cell : CellRef) (value : TypedValue) : Option CellRef :=
  match value with
  | .indirect p => p
  | _ => some cell

/-- The assignment through a pointer to a cell of a static-property table
(`cellDup(value, *storage)`). -/
def RequestState.writeCell (st : RequestState) (storage : CellRef) (value : TypedValue) :
    RequestState :=
  { st with sPropData := fun id =>
      if id = storage.1 then (st.sPropData id).map (fun t => t.set storage.2 value)
      else st.sPropData id }

/-- What `Class::getSProp` gives: the pointer it returns and the two flags. -/
structure SPropResult where
  sProp : Option CellRef
  visible : Bool
  accessible : Bool
deriving Repr, DecidableEq

/-- The array that `Class::initSPropsImpl` hands to the `86sinit` routines:
every static property is set to the sentinel. -/
def Class.sinitArray (tvSentinel : TypedValue) : List Class.SProp → PropArray → PropArray
  | [], a => a
  | sProp :: rest, a => sinitArray tvSentinel rest (a.set sProp.m_name tvSentinel)

/-- The helper `getValueFromArr` of `Class::initSPropsImpl`: the value that an
`86sinit` routine produced for the name, if any. -/
def Class.getValueFromArr (tvSentinel : TypedValue) (propArr : Option PropArray)
    (name : String) : Except Fatal (Option TypedValue) :=
  match propArr with
  | none => .ok none
  | some arr =>
    match arr.nvGet name with
    | none => .error .nullDeref
    | some v => if v != tvSentinel then .ok (some v) else .ok none

/-- The last loop of `Class::initSPropsImpl` over the static properties, with
`getSProp` of the declaring class passed in; the table grows slot by slot. -/
def Class.fillSPropTable (env : Env)
    (getSProp : Class → String → RequestState → Run SPropResult)
    (tvSentinel : TypedValue) (propArr : Option PropArray) (this : Class) :
    List Class.SProp → List TypedValue → RequestState → Run (List TypedValue)
  | [], spropTable, st => (.ok spropTable, st)
  | sProp :: rest, spropTable, st =>
    let propName := sProp.m_name
    if sProp.m_class = this.m_self then
      match Class.getValueFromArr tvSentinel propArr propName with
      | .error e => (.error e, st)
      | .ok (some value) =>
        fillSPropTable env getSProp tvSentinel propArr this rest (spropTable ++ [value]) st
      | .ok none =>
        fillSPropTable env getSProp tvSentinel propArr this rest (spropTable ++ [sProp.m_val]) st
    else
      match env.deref sProp.m_class with
      | .error e => (.error e, st)
      | .ok declCls =>
        match getSProp declCls propName st with
        | (.error e, st1) => (.error e, st1)
        | (.ok r, st1) =>
          let storage := r.sProp
          match Class.getValueFromArr tvSentinel propArr propName with
          | .error e => (.error e, st1)
          | .ok (some value) =>
            match storage with
            | none => (.error .nullDeref, st1)
            | some cell =>
              fillSPropTable env getSProp tvSentinel propArr this rest
                (spropTable ++ [.indirect storage]) (st1.writeCell cell value)
          | .ok none =>
            fillSPropTable env getSProp tvSentinel propArr this rest
              (spropTable ++ [.indirect storage]) st1

/-- The method `Class::initSPropsImpl`, with `getSProp` passed in. -/
def Class.initSPropsImplWith (env : Env) (ec : ExecutionContext)
    (getSProp : Class → String → RequestState → Run SPropResult)
    (this : Class) (st : RequestState) : Run (List TypedValue) :=
  let hasNonscalarInit := !this.m_sinitVec.isEmpty
  let tvSentinel : TypedValue :=
    if hasNonscalarInit then .obj ec.pinitSentinel else .uninit
  let propArr : Except Fatal (Option PropArray) :=
    if hasNonscalarInit then
      match Class.invokeInits ec this this.m_sinitVec
          (Class.sinitArray tvSentinel this.m_staticProperties.m_list []) with
      | .error e => .error e
      | .ok arr => .ok (some arr)
    else .ok none
  match propArr with
  | .error e => (.error e, st)
  | .ok propArr =>
    Class.fillSPropTable env getSProp tvSentinel propArr this this.m_staticProperties.m_list [] st

/-- The method `Class::initialize(TypedValue*& sProps)`, with `initSPropsImpl`
passed in; the result is the table `sProps`, `none` for a null pointer. -/
def Class.initializeWith (ec : ExecutionContext)
    (initSPropsImpl : Class → RequestState → Run (List TypedValue))
    (this : Class) (st : RequestState) : Run (Option (List TypedValue)) :=
  let r : Run Unit :=
    if this.m_pinitVec.length > 0 then
      if (this.getPropData st).isNone then Class.initProps ec this st else (.ok (), st)
    else (.ok (), st)
  match r with
  | (.error e, st1) => (.error e, st1)
  | (.ok (), st1) =>
    if this.m_staticProperties.size > 0 then
      match this.getSPropData st1 with
      | some sProps => (.ok (some sProps), st1)
      | none =>
        match initSPropsImpl this st1 with
        | (.error e, st2) => (.error e, st2)
        | (.ok sprops, st2) => (.ok (some sprops), this.setSPropData sprops st2)
    else (.ok none, st1)

/-- The flag `accessible` that `Class::getSProp` computes for a static property
with the attributes `sPropAttrs`, seen from the class `ctx` of the caller. -/
def Class.sPropAccessible (ec : ExecutionContext) (this : Class) (ctx : Option Class)
    (sPropAttrs : Attr) : Except Fatal Bool :=
  if ctx.map (fun c => c.m_self) = some this.m_self then .ok true
  else
    let related :=
      match ctx with
      | some c => this.isSubclassOf c || c.isSubclassOf this
      | none => false
    if related then
      if visOf sPropAttrs = AttrPublic || visOf sPropAttrs = AttrProtected then .ok true
      else if visOf sPropAttrs = AttrPrivate then .ok ec.debuggerBypassCheck
      else .error .notReached
    else
      if visOf sPropAttrs = AttrPublic then .ok true
      else if visOf sPropAttrs = AttrProtected || visOf sPropAttrs = AttrPrivate then
        .ok ec.debuggerBypassCheck
      else .error .notReached

/-- The method `Class::getSProp`, with `Class::initialize` passed in.  `ctx` is
the class of the caller, `none` for the null pointer. -/
def Class.getSPropWith (ec : ExecutionContext)
    (initCls : Class → RequestState → Run (Option (List TypedValue)))
    (this : Class) (ctx : Option Class) (sPropName : String) (st : RequestState) :
    Run SPropResult :=
  match initCls this st with
  | (.error e, st1) => (.error e, st1)
  | (.ok sProps, st1) =>
    match this.m_staticProperties.lookup sPropName with
    | none => (.ok ⟨none, false, false⟩, st1)
    | some (sPropInd, entry) =>
      match Class.sPropAccessible ec this ctx entry.m_attrs with
      | .error e => (.error e, st1)
      | .ok accessible =>
        match sProps with
        | none => (.error .nullDeref, st1)
        | some table =>
          match table[sPropInd]? with
          | none => (.error .nullDeref, st1)
          | some value =>
            (.ok ⟨tvDerefIndirect (this.m_self, sPropInd) value, true, accessible⟩, st1)

/-- The visibility bits are one of public, protected and private. -/
def visWellFormed (attrs : Attr) : Prop :=
  visOf attrs = AttrPublic ∨ visOf attrs = AttrProtected ∨ visOf attrs = AttrPrivate

/-- The methods `Class::initialize` and, through it, `Class::initSPropsImpl`
and `Class::getSProp`, which call one another along the declaring classes of
the static properties; `fuel` bounds the depth of these calls. -/
def Class.initializeFuel (env : Env) (ec : ExecutionContext) :
    Nat → Class → RequestState → Run (Option (List TypedValue))
  | 0, _, st => (.error .outOfFuel, st)
  | fuel + 1, this, st =>
    Class.initializeWith ec
      (Class.initSPropsImplWith env ec
        (fun declCls name s =>
          Class.getSPropWith ec (initializeFuel env ec fuel) declCls none name s))
      this st

/-- The method `Class::getSProp`. -/
def Class.getSProp (env : Env) (ec : ExecutionContext) (fuel : Nat) (this : Class)
    (ctx : Option Class) (sPropName : String) (st : RequestState) : Run SPropResult :=
  Class.getSPropWith ec (Class.initializeFuel env ec fuel) this ctx sPropName st

/-- The method `Class::initSPropsImpl`. -/
def Class.initSPropsImpl (env : Env) (ec : ExecutionContext) (fuel : Nat) (this : Class)
    (st : RequestState) : Run (List TypedValue) :=
  Class.initSPropsImplWith env ec
    (fun declCls name s => Class.getSProp env ec fuel declCls none name s) this st

/-- A static-property table is keyed by the names of its entries: it is well
formed and a name resolves to an entry of that name. -/
def SPropMap.NameKeyed (T : SPropMap) : Prop :=
  T.WF ∧ ∀ (n : String) (i : Nat) (e : Class.SProp), T.lookup n = some (i, e) → e.m_name = n

/-- One step of `Class::setProperties` on the builder of the static properties,
for a declaration named `n` in the class at `self`: an entry of the class itself
is added under the name, or takes the place of the entry that the name resolves
to, keeping the name of that entry.  The new entry has the attributes `a` of an
own declaration (`some a`); the import from a trait (`none`) keeps the
attributes of the entry it replaces. -/
def SStep (self : ClassId) (n : String) (a : Option Attr) (T T' : SPropMap) : Prop :=
  ∃ v : Class.SProp, v.m_class = self ∧
    ((T.lookup n = none ∧ T' = T.add n v ∧ v.m_name = n ∧ (∀ a', a = some a' → v.m_attrs = a')) ∨
     (∃ (i : Nat) (e : Class.SProp), T.lookup n = some (i, e) ∧ T' = T.set i v ∧
        v.m_name = e.m_name ∧ (∀ a', a = some a' → v.m_attrs = a') ∧
        (a = none → v.m_attrs = e.m_attrs)))

/-- A sequence of steps on the builder of the static properties whose names and
attributes satisfy `N`. -/
inductive SPath (self : ClassId) (N : String → Option Attr → Prop) :
    SPropMap → SPropMap → Prop where
  | refl (T : SPropMap) : SPath self N T T
  | step {T T1 T2 : SPropMap} (n : String) (a : Option Attr) :
      N n a → SStep self n a T T1 → SPath self N T1 T2 → SPath self N T T2

/-- The table resolves `x` to an entry that is not private and has the
declaring class `c`. -/
def StaticAt (c : ClassId) (x : String) (T : SPropMap) : Prop :=
  ∃ (i : Nat) (e : Class.SProp), T.lookup x = some (i, e) ∧ e.m_class = c ∧
    hasAttr e.m_attrs AttrPrivate = false

/-- Every entry of the list that is named `x` and not private has the declaring
class `c`. -/
def StaticOnly (c : ClassId) (x : String) (l : List Class.SProp) : Prop :=
  ∀ e, e ∈ l → e.m_name = x → hasAttr e.m_attrs AttrPrivate = false → e.m_class = c

/-- The static-property list of the parent, empty without a parent. -/
def Class.parentSPropList (parent : Option Class) : List Class.SProp :=
  match parent with
  | some p => p.m_staticProperties.m_list
  | none => []

/-- Every entry of the list is declared by the class at `self` or has the
declaring class of an entry of the parent's list. -/
def StaticClosed (self : ClassId) (parentList l : List Class.SProp) : Prop :=
  ∀ e, e ∈ l → e.m_class = self ∨ ∃ e', e' ∈ parentList ∧ e'.m_class = e.m_class

/-- The names and attributes of the static declarations of a list. -/
def ownStaticLabel (l : List PreClass.Prop) (n : String) (a : Option Attr) : Prop :=
  ∃ d, d ∈ l ∧ d.m_name = n ∧ a = some d.m_attrs ∧ hasAttr d.m_attrs AttrStatic = true

/-- The names of the static properties of a list of traits. -/
def traitStaticLabel (ts : List Class) (n : String) (a : Option Attr) : Prop :=
  a = none ∧ ∃ t, t ∈ ts ∧ ∃ sp, sp ∈ t.m_staticProperties.m_list ∧ sp.m_name = n

/-- A value that is not an indirect reference (what `cellDup` asserts of its
source). -/
def TypedValue.isCell (v : TypedValue) : Bool := v.m_type != DataType.KindOfIndirect

/-- The initialiser routines, handed an array whose values are not indirect
references, hand back an array of such values. -/
def ExecutionContext.CellValued (ec : ExecutionContext) : Prop :=
  ∀ (f : Func) (cls : ClassId) (a a' : PropArray), (∀ kv, kv ∈ a → kv.2.isCell = true) →
    ec.invokeFunc f cls a = .ok a' → ∀ kv, kv ∈ a' → kv.2.isCell = true

/-- A hierarchy `root`, `mid`, `leaf` of linked classes on the heap in which
the three static-property tables resolve `x` to the slots `ixr`, `ixm`, `ixl`
with `root` as declaring class, seen from the lazy initialisation: the
declaring classes of the entries are classes of the hierarchy, and the initial
values that the three classes declare are not indirect references. -/
structure StaticChain (env : Env) (root mid leaf : Class) (x : String) (ixr ixm ixl : Nat) :
    Prop where
  rm : root.m_self ≠ mid.m_self
  rl : root.m_self ≠ leaf.m_self
  ml : mid.m_self ≠ leaf.m_self
  heapRoot : env.classes root.m_self = some root
  heapMid : env.classes mid.m_self = some mid
  rootOwn : ∀ e, e ∈ root.m_staticProperties.m_list → e.m_class = root.m_self
  midOwn : ∀ e, e ∈ mid.m_staticProperties.m_list →
    e.m_class = mid.m_self ∨ e.m_class = root.m_self
  leafOwn : ∀ e, e ∈ leaf.m_staticProperties.m_list →
    e.m_class = leaf.m_self ∨ e.m_class = mid.m_self ∨ e.m_class = root.m_self
  rootX : ∃ e, root.m_staticProperties.lookup x = some (ixr, e)
  midX : ∃ e, mid.m_staticProperties.lookup x = some (ixm, e) ∧ e.m_class = root.m_self ∧
    e.m_name = x
  leafX : ∃ e, leaf.m_staticProperties.lookup x = some (ixl, e) ∧ e.m_class = root.m_self ∧
    e.m_name = x
  rootCells : ∀ e, e ∈ root.m_staticProperties.m_list → e.m_val.isCell = true
  midCells : ∀ e, e ∈ mid.m_staticProperties.m_list → e.m_class = mid.m_self →
    e.m_val.isCell = true
  leafCells : ∀ e, e ∈ leaf.m_staticProperties.m_list → e.m_class = leaf.m_self →
    e.m_val.isCell = true

/-- The static-property tables of a request agree with the hierarchy: the
table of `root`, once set, has a value that is not an indirect reference in
every slot; the table of `mid`, once set, has such a value in the slots that
`mid` declares and an indirect reference into the table of `root` (or a null
one) in the others, the one to the cell of `x` in the slot of `x`; the table of
`leaf`, once set, has the indirect reference to the cell of `x` of `root` in
the slot of `x`. -/
def StaticTablesOk (root mid leaf : Class) (ixr ixm ixl : Nat)
    (sp : ClassId → Option (List TypedValue)) : Prop :=
  (∀ T, sp root.m_self = some T →
    T.length = root.m_staticProperties.size ∧ ∀ v, v ∈ T → v.isCell = true) ∧
  (∀ T, sp mid.m_self = some T →
    T.length = mid.m_staticProperties.size ∧
    (∀ (i : Nat) (e : Class.SProp) (v : TypedValue),
      mid.m_staticProperties.m_list[i]? = some e → T[i]? = some v →
      (e.m_class = mid.m_self → v.isCell = true) ∧
      (e.m_class ≠ mid.m_self →
        v = .indirect none ∨ ∃ j, v = .indirect (some (root.m_self, j)))) ∧
    T[ixm]? = some (.indirect (some (root.m_self, ixr)))) ∧
  (∀ T, sp leaf.m_self = some T → T[ixl]? = some (.indirect (some (root.m_self, ixr))))

/-- A cell that `initSPropsImpl` may write through the pointer of an inherited
static property: a cell of `root`, or a cell of `mid` in a slot that `mid`
declares. -/
def SafeCell (root mid : Class) (p : CellRef) : Prop :=
  p.1 = root.m_self ∨
  (p.1 = mid.m_self ∧ ∃ e, mid.m_staticProperties.m_list[p.2]? = some e ∧ e.m_class = mid.m_self)

/-- The value `v` fits the entry `e` of the static-property table of the class
at `self`: it is not an indirect reference when the class declares the entry,
and it is an indirect reference to a cell that satisfies `Q` otherwise. -/
def SlotOk (self : ClassId) (Q : Class.SProp → Option CellRef → Prop) (e : Class.SProp)
    (v : TypedValue) : Prop :=
  (e.m_class = self → v.isCell = true) ∧
  (e.m_class ≠ self → ∃ p, v = .indirect p ∧ Q e p)

/-- The table `T` is `T0` followed by one value for each entry of `L`, in
order, and each value fits its entry by `R`. -/
def SlotsOk {α β : Type} (R : α → β → Prop) (L : List α) (T0 T : List β) : Prop :=
  ∃ vals, T = T0 ++ vals ∧ vals.length = L.length ∧
    ∀ (i : Nat) (e : α), L[i]? = some e → ∃ w, vals[i]? = some w ∧ R e w

/-- No class of the hierarchy has initialiser routines, and the visibility bits
of the static properties are well formed. -/
structure QuietChain (root mid leaf : Class) : Prop where
  rootP : root.m_pinitVec = []
  rootS : root.m_sinitVec = []
  midP : mid.m_pinitVec = []
  midS : mid.m_sinitVec = []
  leafP : leaf.m_pinitVec = []
  leafS : leaf.m_sinitVec = []
  rootVis : ∀ e, e ∈ root.m_staticProperties.m_list → visWellFormed e.m_attrs
  midVis : ∀ e, e ∈ mid.m_staticProperties.m_list → visWellFormed e.m_attrs
  leafVis : ∀ e, e ∈ leaf.m_staticProperties.m_list → visWellFormed e.m_attrs

/-- The storage that `mid` binds for an inherited entry: a cell of `root` or
null, and the cell of `x` for the entry named `x`. -/
def MidStorage (root : Class) (x : String) (ixr : Nat) (e : Class.SProp)
    (p : Option CellRef) : Prop :=
  (p = none ∨ ∃ j, p = some (root.m_self, j)) ∧ (e.m_name = x → p = some (root.m_self, ixr))

/-- The storage that `leaf` binds for an inherited entry: the cell of `x` of
`root` for the entry named `x` that `root` declares. -/
def LeafStorage (root : Class) (x : String) (ixr : Nat) (e : Class.SProp)
    (p : Option CellRef) : Prop :=
  e.m_name = x → e.m_class = root.m_self → p = some (root.m_self, ixr)

/-- The declaration `class R { public static $x = 1; }`. -/
def preStaticRoot : PreClass :=
  exPre "R" none 0 [] [exProp "x" (AttrPublic ||| AttrStatic) (.int 1)]

/-- The class `R`, linked at address 50. -/
def exStaticRoot : Class := Class.linked env0 50 preStaticRoot none

/-- The heap that holds the class `R`. -/
def envStaticRoot : Env :=
  exEnv (fun id => if id = 50 then some exStaticRoot else none)
    (fun n => if n = "R" then some 50 else none)

/-- The declaration `class M extends R { public static $y = 2; }`. -/
def preStaticMid : PreClass :=
  exPre "M" (some "R") 0 [] [exProp "y" (AttrPublic ||| AttrStatic) (.int 2)]

/-- The class `M`, linked at address 51. -/
def exStaticMid : Class := Class.linked envStaticRoot 51 preStaticMid (some exStaticRoot)

/-- The heap that holds the classes `R` and `M`. -/
def envStaticMid : Env :=
  exEnv (fun id => if id = 50 then some exStaticRoot else if id = 51 then some exStaticMid
      else none)
    (fun n => if n = "R" then some 50 else if n = "M" then some 51 else none)

/-- The declaration `class L extends M { }`. -/
def preStaticLeaf : PreClass := exPre "L" (some "M") 0 [] []

/-- The class `L`, linked at address 52. -/
def exStaticLeaf : Class := Class.linked envStaticMid 52 preStaticLeaf (some exStaticMid)

/-- An execution context whose initialiser routines leave the array as it is. -/
def exEC : ExecutionContext :=
  { invokeFunc := fun _ _ a => .ok a, debuggerBypassCheck := false, pinitSentinel := 999 }

/-- The declaration `class Sealed { final public function get() }`. -/
def preSealed : PreClass :=
  exPre "Sealed" none 0 [exFunc "get" (AttrPublic ||| AttrFinal) 1 "Sealed"] []

/-- The class `Sealed`, linked at address 60. -/
def exSealed : Class := Class.linked env0 60 preSealed none

/-- The heap that holds `Sealed`. -/
def envSealed : Env := exEnv (fun id => if id = 60 then some exSealed else none)
  (fun n => if n = "Sealed" then some 60 else none)

/-- The declaration `<<__MockClass>> class Mock extends Sealed { public function get() }`. -/
def preMock : PreClass :=
  { exPre "Mock" (some "Sealed") 0 [exFunc "get" AttrPublic 2 "Mock"] [] with
    m_userAttributes := [sd___MockClass] }

/-- The class `Mock`, linked at address 61. -/
def exMock : Class := Class.linked envSealed 61 preMock (some exSealed)

/-- The declaration `class Auto extends Sealed` with a compiler-generated
method `get`. -/
def preAuto : PreClass :=
  exPre "Auto" (some "Sealed") 0
    [{ exFunc "get" AttrPublic 3 "Auto" with m_isGenerated := true }] []

/-- The class `Auto`, linked at address 61. -/
def exAuto : Class := Class.linked envSealed 61 preAuto (some exSealed)

/-- The declaration `class Plain extends Sealed { public function get() }`. -/
def prePlain : PreClass :=
  exPre "Plain" (some "Sealed") 0 [exFunc "get" AttrPublic 4 "Plain"] []

/-- The declaration
`abstract class Shape { abstract public function area(); public function name();
public static function make() }`. -/
def preShape : PreClass :=
  exPre "Shape" none AttrAbstract
    [exFunc "area" (AttrPublic ||| AttrAbstract) 1 "Shape", exFunc "name" AttrPublic 2 "Shape",
     exFunc "make" (AttrPublic ||| AttrStatic) 3 "Shape"] []

/-- The class `Shape`, linked at address 62. -/
def exShape : Class := Class.linked env0 62 preShape none

/-- The heap that holds `Shape`. -/
def envShape : Env := exEnv (fun id => if id = 62 then some exShape else none)
  (fun n => if n = "Shape" then some 62 else none)

/-- The abstract method `area` that a subclass of `Shape` declares. -/
def exAbsArea : Func := exFunc "area" (AttrPublic ||| AttrAbstract) 4 "Sub"

/-- The abstract method `name` that a subclass of `Shape` declares. -/
def exAbsName : Func := exFunc "name" (AttrPublic ||| AttrAbstract) 5 "Sub"

/-- The instance method `make` that a subclass of `Shape` declares. -/
def exInstMake : Func := exFunc "make" AttrPublic 6 "Sub"

/-- The declaration `abstract class Sub extends Shape` with the one method `m`. -/
def preSub (m : Func) : PreClass := exPre "Sub" (some "Shape") AttrAbstract [m] []

/-- The slots of the builder of `setMethods` from slot `n` on hold methods
bound to the class at `self` with that class as base class. -/
def AppendedOwn (self : ClassId) (n : Nat) (b : MethodMap) : Prop :=
  ∀ (j : Nat) (f : Func), b.m_list[j]? = some f → n ≤ j →
    f.m_cls = some self ∧ f.m_baseCls = some self

/-- The heap that holds `Base` and the trait `A`. -/
def envKid : Env :=
  exEnv (fun id => if id = 10 then some exBase else if id = 30 then some exTraitA else none)
    (fun n => if n = "Base" then some 10 else if n = "A" then some 30 else none)

/-- The declaration `class Kid extends Base { use A; public function put() }`. -/
def preKid : PreClass :=
  { exPre "Kid" (some "Base") 0 [exFunc "put" AttrPublic 8 "Kid"] [] with
    m_usedTraits := ["A"] }

/-- The class `Kid`, linked at address 64. -/
def exKid : Class := Class.linked envKid 64 preKid (some exBase)

/-- The declaration `class Wide extends Base { public $x = 2; }`, which widens
the protected `x` of `Base`. -/
def preWide : PreClass := exPre "Wide" (some "Base") 0 [] [exProp "x" AttrPublic (.int 2)]

/-- The class `Wide`, linked at address 65. -/
def exWide : Class := Class.linked envBase 65 preWide (some exBase)

/-- The heap that holds `Base` and `Wide`. -/
def envWide : Env :=
  exEnv (fun id => if id = 10 then some exBase else if id = 65 then some exWide else none)
    (fun n => if n = "Base" then some 10 else if n = "Wide" then some 65 else none)

/-- The declaration `class Narrow extends Wide { protected $x = 3; }`. -/
def preNarrow : PreClass :=
  exPre "Narrow" (some "Wide") 0 [] [exProp "x" AttrProtected (.int 3)]

/-- The declaration `trait Props { public $p = 1; }`. -/
def preProps : PreClass := exPre "Props" none AttrTrait [] [exProp "p" AttrPublic (.int 1)]

/-- The trait `Props`, linked at address 70. -/
def exProps : Class := Class.linked env0 70 preProps none

/-- The heap that holds the trait `Props`. -/
def envProps : Env := exEnv (fun id => if id = 70 then some exProps else none)
  (fun n => if n = "Props" then some 70 else none)

/-- The declaration `class User { use Props; }`. -/
def preUser : PreClass := { exPre "User" none 0 [] [] with m_usedTraits := ["Props"] }

/-- The class `User`, linked at address 71. -/
def exUser : Class := Class.linked envProps 71 preUser none

/-- The heap that holds `Props` and `User`. -/
def envUser : Env :=
  exEnv (fun id => if id = 70 then some exProps else if id = 71 then some exUser else none)
    (fun n => if n = "Props" then some 70 else if n = "User" then some 71 else none)

/-- The declaration `class Stat extends User { public static $p = 0; }`. -/
def preStat : PreClass :=
  exPre "Stat" (some "User") 0 [] [exProp "p" (AttrPublic ||| AttrStatic) (.int 0)]

/-- The declaration `class StatX extends Base { protected static $x = 0; }`. -/
def preStatX : PreClass :=
  exPre "StatX" (some "Base") 0 [] [exProp "x" (AttrProtected ||| AttrStatic) (.int 0)]

/-- Two initial values have the same type tag and are both null, or both the
same boolean, integer, double or string value (doubles as `same` compares
them).  This is the relation that `Class::compatibleTraitPropInit` is compared
with. -/
def sameScalarInit (env : Env) (tv1 tv2 : TypedValue) : Prop :=
  tv1.m_type = tv2.m_type ∧
  ((tv1 = .null ∧ tv2 = .null) ∨ (∃ b, tv1 = .bool b ∧ tv2 = .bool b) ∨
   (∃ i, tv1 = .int i ∧ tv2 = .int i) ∨
   (∃ a b, tv1 = .dbl a ∧ tv2 = .dbl b ∧ env.dblSame a b = true) ∨
   (∃ s, tv1 = .staticStr s ∧ tv2 = .staticStr s) ∨ (∃ s, tv1 = .str s ∧ tv2 = .str s))

/-- The declaration `trait Props2 { public $p = 1; }`. -/
def preProps2 : PreClass := exPre "Props2" none AttrTrait [] [exProp "p" AttrPublic (.int 1)]

/-- The declaration `trait Props3 { public $p = 2; }`. -/
def preProps3 : PreClass := exPre "Props3" none AttrTrait [] [exProp "p" AttrPublic (.int 2)]

/-- The declaration `trait Arr1 { public $q = array(); }`, the value being the
array at address 1. -/
def preArr1 : PreClass := exPre "Arr1" none AttrTrait [] [exProp "q" AttrPublic (.arr 1)]

/-- The declaration `trait Arr2 { public $q = array(); }`, with the same array
as initial value. -/
def preArr2 : PreClass := exPre "Arr2" none AttrTrait [] [exProp "q" AttrPublic (.arr 1)]

/-- The heap that holds the traits `Props`, `Props2`, `Props3`, `Arr1` and
`Arr2` at the addresses 70, 73, 74, 75 and 76. -/
def envPropTraits : Env :=
  exEnv (fun id => if id = 70 then some exProps
      else if id = 73 then some (Class.linked env0 73 preProps2 none)
      else if id = 74 then some (Class.linked env0 74 preProps3 none)
      else if id = 75 then some (Class.linked env0 75 preArr1 none)
      else if id = 76 then some (Class.linked env0 76 preArr2 none)
      else none)
    (fun n => if n = "Props" then some 70 else if n = "Props2" then some 73
      else if n = "Props3" then some 74 else if n = "Arr1" then some 75
      else if n = "Arr2" then some 76 else none)

/-- The declaration `class Uses { use t1, t2; }`. -/
def preUses (t1 t2 : String) : PreClass :=
  { exPre "Uses" none 0 [] [] with m_usedTraits := [t1, t2] }

/-- The entry of a property table for `public $p` as declared by the class at
`cls`. -/
def exPropP (cls : ClassId) : Class.Prop :=
  { m_name := "p", m_mangledName := "p", m_originalMangledName := "p", m_class := cls,
    m_attrs := AttrPublic, m_typeConstraint := "", m_docComment := "", m_hphpcType := 0 }

/-- The state of `setProperties` of the class at address 77 after the import of
`public $p = 1` from a trait. -/
def exImportedP : PropState :=
  { curPropMap := (IndexedStringMap.empty : PropMap).add "p" (exPropP 77),
    curSPropMap := IndexedStringMap.empty, m_declPropInit := [⟨.int 1, false⟩],
    m_hasDeepInitProps := false, numInaccessible := 0 }

/-- A constant declaration for the examples. -/
def exConst (name : String) (val : TypedValue) : PreClass.Const :=
  { m_name := name, m_typeConstraint := "", m_val := val, m_phpCode := "" }

/-- The declaration `interface K1 { const K = 1; }`. -/
def preK1 : PreClass :=
  { exPre "K1" none AttrInterface [] [] with m_constants := [exConst "K" (.int 1)] }

/-- The declaration `interface K2 { const K = 2; }`. -/
def preK2 : PreClass :=
  { exPre "K2" none AttrInterface [] [] with m_constants := [exConst "K" (.int 2)] }

/-- The interface `K1`, linked at address 80. -/
def exK1 : Class := Class.linked env0 80 preK1 none

/-- The interface `K2`, linked at address 81. -/
def exK2 : Class := Class.linked env0 81 preK2 none

/-- The heap that holds `K1`. -/
def envK1 : Env := exEnv (fun id => if id = 80 then some exK1 else none)
  (fun n => if n = "K1" then some 80 else none)

/-- The declaration `interface K3 extends K1 {}`. -/
def preK3 : PreClass := { exPre "K3" none AttrInterface [] [] with m_interfaces := ["K1"] }

/-- The interface `K3`, linked at address 82. -/
def exK3 : Class := Class.linked envK1 82 preK3 none

/-- The heap that holds `K1`, `K2` and `K3`. -/
def envConsts : Env :=
  exEnv (fun id => if id = 80 then some exK1 else if id = 81 then some exK2
      else if id = 82 then some exK3 else none)
    (fun n => if n = "K1" then some 80 else if n = "K2" then some 81
      else if n = "K3" then some 82 else none)

/-- The declaration `class Impl2 implements i1, i2 {}` with the constants
`consts`. -/
def preImpl2 (i1 i2 : String) (consts : List PreClass.Const) : PreClass :=
  { exPre "Impl2" none 0 [] [] with m_interfaces := [i1, i2], m_constants := consts }

/-- The declaration `class KBase { const K = 1; }`. -/
def preKBase : PreClass := { exPre "KBase" none 0 [] [] with m_constants := [exConst "K" (.int 1)] }

/-- The class `KBase`, linked at address 84. -/
def exKBase : Class := Class.linked env0 84 preKBase none

/-- The heap that holds `KBase`. -/
def envKBase : Env := exEnv (fun id => if id = 84 then some exKBase else none)
  (fun n => if n = "KBase" then some 84 else none)

/-- The declaration `class KChild extends KBase { const L = 3; const K = 2; }`. -/
def preKChild : PreClass :=
  { exPre "KChild" (some "KBase") 0 [] [] with
    m_constants := [exConst "L" (.int 3), exConst "K" (.int 2)] }

/-- The class `KChild`, linked at address 85. -/
def exKChild : Class := Class.linked envKBase 85 preKChild (some exKBase)

/-! ## The availability check -/

/-- The result type `Class::Avail`. -/
inductive Avail where
  | True
  | Fail
  | False
deriving Repr, DecidableEq

/-- Modelled from the spec: `Unit::getClass(namedEntity, name, tryAutoload)`, the
autoloader, `isZombie()` and what `destroy()` does are declared outside the
source.  The state `σ` holds what the names of the request resolve to;
`getClass` returns the class that a name resolves to at present, or `none`,
and the state after the lookup, which an autoload may have changed; `isZombie`
tells whether a class is a zombie. -/
structure ClassResolver (σ : Type) where
  getClass : σ → String → Bool → Option ClassId × σ
  isZombie : Class → Bool

/-- What `Class::avail` leaves behind: the value it returns, the reference
parameter `parent`, whether it called `destroy()` on the class, and the
state of the request. -/
structure AvailResult (σ : Type) where
  result : Avail
  parent : Option ClassId
  destroyed : Bool
  state : σ
deriving Repr

/-- The body of the two loops of `Class::avail`, over the declared interfaces
and over the used traits: `none` when the dependency resolves to the class
that `this` recorded, and the result of `avail` otherwise. -/
def Class.availDep {σ : Type} (env : Env) (rs : ClassResolver σ) (tryAutoload : Bool)
    (parent : Option ClassId) (dep : ClassId) (s : σ) :
    Except Fatal (Option (AvailResult σ) × σ) :=
  match env.deref dep with
  | .error e => .error e
  | .ok declared =>
    let found := rs.getClass s declared.m_preClass.m_name tryAutoload
    if found.1 != some dep then
      if found.1 = none then
        .ok (some { result := .Fail, parent := some dep, destroyed := false, state := found.2 },
          found.2)
      else
        .ok (some { result := .False, parent := parent, destroyed := rs.isZombie declared,
                    state := found.2 }, found.2)
    else .ok (none, found.2)

/-- One of the two loops of `Class::avail`. -/
def Class.availLoop {σ : Type} (env : Env) (rs : ClassResolver σ) (tryAutoload : Bool)
    (parent : Option ClassId) : List ClassId → σ → Except Fatal (Option (AvailResult σ) × σ)
  | [], s => .ok (none, s)
  | dep :: rest, s =>
    match Class.availDep env rs tryAutoload parent dep s with
    | .error e => .error e
    | .ok (some r, s1) => .ok (some r, s1)
    | .ok (none, s1) => availLoop env rs tryAutoload parent rest s1

/-- The first part of `Class::avail`, the check of the parent: the result of
`avail` if the check decides it, and in any case the reference parameter
`parent` and the state after the check. -/
def Class.availParent {σ : Type} (env : Env) (rs : ClassResolver σ) (this : Class)
    (parent : Option ClassId) (tryAutoload : Bool) (s : σ) :
    Except Fatal (Option (AvailResult σ) × Option ClassId × σ) :=
  match this.m_parent with
  | none => .ok (none, parent, s)
  | some ourParentId =>
    match env.deref ourParentId with
    | .error e => .error e
    | .ok ourParent =>
      let looked : Option ClassId × σ :=
        match parent with
        | none => rs.getClass s ourParent.m_preClass.m_name tryAutoload
        | some p => (some p, s)
      match looked.1 with
      | none =>
        .ok (some { result := .Fail, parent := some ourParentId, destroyed := false,
                    state := looked.2 }, some ourParentId, looked.2)
      | some p =>
        if p != ourParentId then
          .ok (some { result := .False, parent := some p, destroyed := rs.isZombie ourParent,
                      state := looked.2 }, some p, looked.2)
        else .ok (none, some p, looked.2)

/-- The method `Class::avail`. -/
def Class.avail {σ : Type} (env : Env) (rs : ClassResolver σ) (this : Class)
    (parent : Option ClassId) (tryAutoload : Bool) (s : σ) : Except Fatal (AvailResult σ) :=
  match Class.availParent env rs this parent tryAutoload s with
  | .error e => .error e
  | .ok (some r, _, _) => .ok r
  | .ok (none, parent, s1) =>
    match Class.availLoop env rs tryAutoload parent this.m_declInterfaces s1 with
    | .error e => .error e
    | .ok (some r, _) => .ok r
    | .ok (none, s2) =>
      match Class.availLoop env rs tryAutoload parent this.m_usedTraits s2 with
      | .error e => .error e
      | .ok (some r, _) => .ok r
      | .ok (none, s3) =>
        .ok { result := .True, parent := parent, destroyed := false, state := s3 }

/-- The dependencies of a class in the order in which the availability check
examines them: the parent, if any, the declared interfaces, the used
traits. -/
def Class.dependencies (this : Class) : List ClassId :=
  this.m_parent.toList ++ this.m_declInterfaces ++ this.m_usedTraits

/-- In the words of the specification: the first dependency of the list that
does not resolve, at the time it is examined, to the class recorded, together
with what it resolves to; `none` when all of them resolve to the classes
recorded. -/
def firstUnresolved {σ : Type} (env : Env) (rs : ClassResolver σ) (tryAutoload : Bool) :
    List ClassId → σ → Option (ClassId × Option ClassId)
  | [], _ => none
  | dep :: rest, s =>
    match env.classes dep with
    | none => some (dep, none)
    | some declared =>
      let found := rs.getClass s declared.m_preClass.m_name tryAutoload
      if found.1 = some dep then firstUnresolved env rs tryAutoload rest found.2
      else some (dep, found.1)

/-- A resolver without autoload over a fixed table of names, for the
examples; no class is a zombie. -/
def exResolver (table : String → Option ClassId) : ClassResolver Unit :=
  { getClass := fun s n _ => (table n, s), isZombie := fun _ => false }

/-- The declaration `class InitP { public $log = <expr>; public static $s = <expr>; }`
with the routines `86pinit` and `86sinit` that the compiler makes for
initial values that are not scalar. -/
def preInitP : PreClass :=
  exPre "InitP" none 0
    [{ exFunc "86pinit" AttrPublic 1 "InitP" with m_isGenerated := true },
     { exFunc "86sinit" (AttrPublic ||| AttrStatic) 2 "InitP" with m_isGenerated := true }]
    [exProp "log" AttrPublic .uninit, exProp "s" (AttrPublic ||| AttrStatic) .uninit]

/-- The class `InitP`, linked at address 90. -/
def exInitP : Class := Class.linked env0 90 preInitP none

/-- The heap that holds `InitP`. -/
def envInitP : Env := exEnv (fun id => if id = 90 then some exInitP else none)
  (fun n => if n = "InitP" then some 90 else none)

/-- The declaration `class InitC extends InitP { public $c = <expr>; public static $t = <expr>; }`
with its own `86pinit` and `86sinit`. -/
def preInitC : PreClass :=
  exPre "InitC" (some "InitP") 0
    [{ exFunc "86pinit" AttrPublic 3 "InitC" with m_isGenerated := true },
     { exFunc "86sinit" (AttrPublic ||| AttrStatic) 4 "InitC" with m_isGenerated := true }]
    [exProp "c" AttrPublic .uninit, exProp "t" (AttrPublic ||| AttrStatic) .uninit]

/-- The class `InitC`, linked at address 91. -/
def exInitC : Class := Class.linked envInitP 91 preInitC (some exInitP)

/-- The heap that holds `InitP` and `InitC`. -/
def envInitC : Env :=
  exEnv (fun id => if id = 90 then some exInitP else if id = 91 then some exInitC else none)
    (fun n => if n = "InitP" then some 90 else if n = "InitC" then some 91 else none)

/-- The routine `86pinit` of `InitP` as the linked class holds it. -/
def exPinitP : Func :=
  { exFunc "86pinit" AttrPublic 1 "InitP" with
    m_isGenerated := true, m_cls := some 90, m_baseCls := some 90 }

/-- The routine `86pinit` of `InitC` as the linked class holds it. -/
def exPinitC : Func :=
  { exFunc "86pinit" AttrPublic 3 "InitC" with
    m_isGenerated := true, m_cls := some 91, m_baseCls := some 91 }

/-- The routine `86sinit` of `InitP` as the linked class holds it. -/
def exSinitP : Func :=
  { exFunc "86sinit" (AttrPublic ||| AttrStatic) 2 "InitP" with
    m_isGenerated := true, m_cls := some 90, m_baseCls := some 90 }

/-- The routine `86sinit` of `InitC` as the linked class holds it. -/
def exSinitC : Func :=
  { exFunc "86sinit" (AttrPublic ||| AttrStatic) 4 "InitC" with
    m_isGenerated := true, m_cls := some 91, m_baseCls := some 91 }

/-- An execution context whose initialiser routines keep a log: every routine
appends the name of its `PreClass` to the string under the key `log`, and sets
every other key that still holds the sentinel to null. -/
def exLogEC : ExecutionContext :=
  { invokeFunc := fun f _ a =>
      let prev := match a.nvGet "log" with
        | some (.str s) => s
        | _ => ""
      .ok (PropArray.set
        (a.map (fun e => if e.2 == TypedValue.obj 999 then (e.1, TypedValue.null) else e))
        "log" (TypedValue.str (prev ++ f.m_preClass ++ ";"))),
    debuggerBypassCheck := false, pinitSentinel := 999 }

/-- An execution context whose initialiser routines raise. -/
def exFailEC : ExecutionContext :=
  { invokeFunc := fun f _ _ => .error (.thrown f.m_name),
    debuggerBypassCheck := false, pinitSentinel := 999 }

/-- The declaration `trait TInit { public $u = <expr>; }` with its `86pinit`. -/
def preTInit : PreClass :=
  exPre "TInit" none AttrTrait
    [{ exFunc "86pinit" AttrPublic 5 "TInit" with m_isGenerated := true },
     { exFunc "86sinit" (AttrPublic ||| AttrStatic) 6 "TInit" with m_isGenerated := true }]
    [exProp "u" AttrPublic .uninit]

/-- The trait `TInit`, linked at address 92. -/
def exTInit : Class := Class.linked env0 92 preTInit none

/-- The heap that holds `InitP` and `TInit`. -/
def envTInit : Env :=
  exEnv (fun id => if id = 90 then some exInitP else if id = 92 then some exTInit else none)
    (fun n => if n = "InitP" then some 90 else if n = "TInit" then some 92 else none)

/-- The declaration `class Flat { use TInit; }` of a class whose traits the
compiler has flattened already (`AttrNoExpandTrait`). -/
def preFlat : PreClass :=
  { exPre "Flat" none AttrNoExpandTrait [] [exProp "u" AttrPublic .uninit] with
    m_usedTraits := ["TInit"] }

/-- The class `Flat`, linked at address 93. -/
def exFlat : Class := Class.linked envTInit 93 preFlat none

/-- The declaration `class UseT extends InitP { use TInit; }` with its own
`86pinit`. -/
def preUseT : PreClass :=
  { exPre "UseT" (some "InitP") 0
      [{ exFunc "86pinit" AttrPublic 7 "UseT" with m_isGenerated := true }] [] with
    m_usedTraits := ["TInit"] }

/-- The class `UseT`, linked at address 94. -/
def exUseT : Class := Class.linked envTInit 94 preUseT (some exInitP)

/-- The instance-property vectors that are set in the state `s` are set in
`s'`, to the same vectors. -/
def RequestState.PropDataKept (s s' : RequestState) : Prop :=
  ∀ (id : ClassId) (v : List TypedValueAux), s.propData id = some v → s'.propData id = some v

/-- The declaration
`class Acc { protected static $p = 1; private static $q = 2; public static $r = 3; }`. -/
def preAcc : PreClass :=
  exPre "Acc" none 0 []
    [exProp "p" (AttrProtected ||| AttrStatic) (.int 1),
     exProp "q" (AttrPrivate ||| AttrStatic) (.int 2),
     exProp "r" (AttrPublic ||| AttrStatic) (.int 3)]

/-- The class `Acc`, linked at address 95. -/
def exAcc : Class := Class.linked env0 95 preAcc none

/-- The heap that holds `Acc`. -/
def envAcc : Env := exEnv (fun id => if id = 95 then some exAcc else none)
  (fun n => if n = "Acc" then some 95 else none)

/-- The declaration `class AccSub extends Acc {}`. -/
def preAccSub : PreClass := exPre "AccSub" (some "Acc") 0 [] []

/-- The class `AccSub`, linked at address 96. -/
def exAccSub : Class := Class.linked envAcc 96 preAccSub (some exAcc)

/-- The declaration `class AliasS { use A { foo as static bar; } }`. -/
def preAliasS : PreClass :=
  { exPre "AliasS" none 0 [] [] with
    m_usedTraits := ["A"], m_traitAliasRules := [⟨"A", "foo", "bar", AttrStatic⟩] }

/-- The declaration `class AliasP { use A { foo as protected bar; } }`. -/
def preAliasP : PreClass :=
  { exPre "AliasP" none 0 [] [] with
    m_usedTraits := ["A"], m_traitAliasRules := [⟨"A", "foo", "bar", AttrProtected⟩] }

/-- The class `AliasP`, linked at address 97. -/
def exAliasP : Class := Class.linked envTraits 97 preAliasP none

/-- The declaration `final class Last {}`. -/
def preLast : PreClass := exPre "Last" none AttrFinal [] []

/-- The class `Last`, linked at address 98. -/
def exLast : Class := Class.linked env0 98 preLast none

/-- The heap that holds `Last`. -/
def envLast : Env := exEnv (fun id => if id = 98 then some exLast else none)
  (fun n => if n = "Last" then some 98 else none)

/-- The declaration `class Sub extends p {}` with the user attributes
`userAttributes`. -/
def preExtends (p : String) (userAttributes : List String) : PreClass :=
  { exPre "Sub" (some p) 0 [] [] with m_userAttributes := userAttributes }

/-! ## Destruction -/

/-- The work item `FreeClassTrigger`: it holds the class that it releases when
the treadmill runs it. -/
structure FreeClassTrigger where
  m_cls : ClassId
deriving Repr, DecidableEq

/-- What `destroy()` calls outside the source, over the state `σ` of the
process: `NamedEntity::removeClass`, on the named entity of a `PreClass`,
and `Treadmill::WorkItem::enqueue`. -/
structure ClassRegistry (σ : Type) where
  removeClass : σ → PreClass → ClassId → σ
  enqueue : σ → FreeClassTrigger → σ

/-- A `Class` after it is linked, with what changes later: `m_cachedOffset`,
zero until the class is put on the class list of its name and again after
`destroy()`, and the slots of the method table, `none` for a slot that
`releaseRefs` has set to null. -/
structure LinkedClass where
  cls : Class
  m_cachedOffset : Nat
  methodSlots : List (Option Func)
deriving Repr, DecidableEq

/-- A linked class with the handle `offset` in `m_cachedOffset` and all the
slots of its method table set. -/
def LinkedClass.installed (cls : Class) (offset : Nat) : LinkedClass :=
  { cls := cls, m_cachedOffset := offset, methodSlots := cls.m_methods.m_list.map some }

/-- The loop of `Class::releaseRefs` over `mutableMethodRange()`: the slots
after it, and `okToReleaseParent`. -/
def Class.releaseRefsLoop (self : ClassId) (okToReleaseParent : Bool) :
    List (Option Func) → List (Option Func) × Bool
  | [] => ([], okToReleaseParent)
  | none :: rest =>
    let r := Class.releaseRefsLoop self okToReleaseParent rest
    (none :: r.1, r.2)
  | some meth :: rest =>
    if meth.m_cls != some self &&
        (hasAttr meth.m_attrs AttrPrivate || !meth.m_hasStaticLocals) then
      let r := Class.releaseRefsLoop self false rest
      (none :: r.1, r.2)
    else
      let r := Class.releaseRefsLoop self okToReleaseParent rest
      (some meth :: r.1, r.2)

/-- The method `Class::releaseRefs`. -/
def Class.releaseRefs (this : LinkedClass) : LinkedClass :=
  let r := Class.releaseRefsLoop this.cls.m_self true this.methodSlots
  { this with
    methodSlots := r.1,
    cls := { this.cls with
      m_parent := if r.2 then none else this.cls.m_parent,
      m_declInterfaces := [],
      m_usedTraits := [] } }

/-- The method `Class::destroy`, in sequential use: the lock on
`Unit::s_classesMutex` is always free. -/
def Class.destroy {σ : Type} (rt : ClassRegistry σ) (this : LinkedClass) (st : σ) :
    LinkedClass × σ :=
  if this.m_cachedOffset = 0 then (this, st)
  else
    -- Need to recheck now we have the lock
    if this.m_cachedOffset = 0 then (this, st)
    else
      let this1 := { this with m_cachedOffset := 0 }
      let st1 := rt.removeClass st this1.cls.m_preClass this1.cls.m_self
      let this2 := Class.releaseRefs this1
      (this2, rt.enqueue st1 ⟨this2.cls.m_self⟩)

/-- A sequence of `n` calls of `destroy()` on one class. -/
def Class.destroyTimes {σ : Type} (rt : ClassRegistry σ) :
    Nat → LinkedClass → σ → LinkedClass × σ
  | 0, this, st => (this, st)
  | n + 1, this, st =>
    let r := Class.destroy rt this st
    Class.destroyTimes rt n r.1 r.2

/-- A call that `destroy()` makes outside the source. -/
inductive RegistryCall where
  | removeClass (name : String) (cls : ClassId)
  | enqueue (item : FreeClassTrigger)
deriving Repr, DecidableEq

/-- The registry that only records the calls made, in order. -/
def ClassRegistry.log : ClassRegistry (List RegistryCall) :=
  { removeClass := fun s pre cls => s ++ [.removeClass pre.m_name cls],
    enqueue := fun s item => s ++ [.enqueue item] }

/-- The work items for `cls` among the recorded calls. -/
def enqueuedFor (cls : ClassId) (calls : List RegistryCall) : Nat :=
  calls.count (.enqueue ⟨cls⟩)

/-- The class `InitC` installed at the handle 8. -/
def exInstalledC : LinkedClass := LinkedClass.installed exInitC 8

/-- The routines that the loop `invokeInits` calls, in the order of the calls:
the loop ends with the first routine that raises. -/
def Class.invokedInits (ec : ExecutionContext) (this : Class) :
    List Func → PropArray → List Func
  | [], _ => []
  | f :: rest, a =>
    match ec.invokeFunc f this.m_self a with
    | .error _ => [f]
    | .ok a1 => f :: invokedInits ec this rest a1

/-- The routines that `Class::initPropsImpl` calls, in the order of the
calls. -/
def Class.initPropsCalls (ec : ExecutionContext) (this : Class) : List Func :=
  match Class.pinitArray (TypedValue.obj ec.pinitSentinel) this.m_declProperties.m_list
      this.m_declPropInit [] with
  | .error _ => []
  | .ok arg0 => Class.invokedInits ec this this.m_pinitVec.reverse arg0

/-- The initialiser chain in the words of the specification: the chain of the
parent, then the own routine if there is one, then for each used trait in
order those entries of its chain that are not yet present. -/
def specInitChain (parentChain : List Func) (own : Option Func)
    (traitChains : List (List Func)) : List Func :=
  traitChains.foldl
    (fun chain traitChain => chain ++ traitChain.filter (fun m => !chain.contains m))
    (parentChain ++ own.toList)

/-- The routine `86pinit` of `TInit` as the linked trait holds it. -/
def exPinitT : Func :=
  { exFunc "86pinit" AttrPublic 5 "TInit" with
    m_isGenerated := true, m_cls := some 92, m_baseCls := some 92 }

/-- The routine `86sinit` of `TInit` as the linked trait holds it. -/
def exSinitT : Func :=
  { exFunc "86sinit" (AttrPublic ||| AttrStatic) 6 "TInit" with
    m_isGenerated := true, m_cls := some 92, m_baseCls := some 92 }

/-- The routine `86pinit` of `UseT` as the linked class holds it. -/
def exPinitU : Func :=
  { exFunc "86pinit" AttrPublic 7 "UseT" with
    m_isGenerated := true, m_cls := some 94, m_baseCls := some 94 }

/-- The vector that `Class::setInitializers` copies from the parent; a class
without a parent starts from the empty vector. -/
def Class.parentPinitVec (parent : Option Class) : List Func :=
  match parent with
  | some p => p.m_pinitVec
  | none => []

/-- The test of the loop of `Class::releaseRefs` on the method that a slot
holds: it belongs to another class, and it is private or has no static
locals. -/
def Class.releasesSlot (self : ClassId) (meth : Func) : Bool :=
  meth.m_cls != some self && (hasAttr meth.m_attrs AttrPrivate || !meth.m_hasStaticLocals)

/-- A method of `InitP` as a class at another address holds it in a slot. -/
def exInheritedRun : Func :=
  { exFunc "run" AttrPublic 11 "InitP" with m_cls := some 90, m_baseCls := some 90 }

/-- A method with static locals of `InitP`, which a class that inherits it
holds as its own copy. -/
def exInheritedCount : Func :=
  { exFunc "count" AttrPublic 12 "InitP" with
    m_cls := some 90, m_baseCls := some 90, m_hasStaticLocals := true }

/-- The class `InitC` with three method slots: two methods of the parent and
one of its own. -/
def exWithSlots : LinkedClass :=
  { cls := exInitC, m_cachedOffset := 0,
    methodSlots := [some exInheritedRun, some exInheritedCount,
      some { exInheritedRun with m_name := "own", m_cls := some 91 }] }

/-- The declaration `class Mixed { public $log = 5; public $b = <expr>; }`
with the routine `86pinit` for the initial value that is not scalar. -/
def preMixed : PreClass :=
  exPre "Mixed" none 0
    [{ exFunc "86pinit" AttrPublic 13 "Mixed" with m_isGenerated := true }]
    [exProp "log" AttrPublic (.int 5), exProp "b" (AttrPublic ||| AttrDeepInit) .uninit]

/-- The class `Mixed`, linked at address 100. -/
def exMixed : Class := Class.linked env0 100 preMixed none

/-- The loop of `Class::getClassInfo` over the constants: for every constant
whose declaring class is the class itself, the name and the value text (the
`m_phpCode` of the entry) that the `ConstantInfo` gets. -/
def Class.getClassInfoConstants (this : Class) : List (String × String) :=
  (this.m_constants.m_list.filter (fun c => c.m_class == this.m_self)).map
    (fun c => (c.m_name, c.m_phpCode))

/-- The declaration `class CodeBase { const K = 1; }`, with the source text of
the value. -/
def preCodeBase : PreClass :=
  { exPre "CodeBase" none 0 [] [] with
    m_constants := [{ exConst "K" (.int 1) with m_phpCode := "1" }] }

/-- The class `CodeBase`, linked at address 101. -/
def exCodeBase : Class := Class.linked env0 101 preCodeBase none

/-- The heap that holds `CodeBase`. -/
def envCodeBase : Env := exEnv (fun id => if id = 101 then some exCodeBase else none)
  (fun n => if n = "CodeBase" then some 101 else none)

/-- The declaration `class CodeChild extends CodeBase { const K = 1 + 1; }`. -/
def preCodeChild : PreClass :=
  { exPre "CodeChild" (some "CodeBase") 0 [] [] with
    m_constants := [{ exConst "K" (.int 2) with m_phpCode := "1 + 1" }] }

/-- The class `CodeChild`, linked at address 102. -/
def exCodeChild : Class := Class.linked envCodeBase 102 preCodeChild (some exCodeBase)

/-- The builders of `setProperties` go from `st` to `st'` in step: the count
of inaccessible properties stays, the vector of initial values grows by as many
entries as the property list, and the name map stays well formed. -/
def PropState.Balanced (st st' : PropState) : Prop :=
  st'.numInaccessible = st.numInaccessible ∧
  st'.m_declPropInit.length + st.curPropMap.m_list.length =
    st.m_declPropInit.length + st'.curPropMap.m_list.length ∧
  (st.curPropMap.WF → st'.curPropMap.WF)

/-- Every class of the heap has one initial value for each slot of its
declared-property table, and the name map of the table is well formed. -/
def HeapPropInv (h : ClassId → Option Class) : Prop :=
  ∀ id c, h id = some c →
    c.m_declPropInit.length = c.m_declProperties.m_list.length ∧ c.m_declProperties.WF

/-- The heap that holds `P` and `Q`. -/
def heapPriv : ClassId → Option Class :=
  fun id => if id = 41 then some exPrivChild else envPriv.classes id

/-- The declaration `trait TX { public static $x = 1; }`. -/
def preTraitX : PreClass :=
  exPre "TX" none AttrTrait [] [exProp "x" (AttrPublic ||| AttrStatic) (.int 1)]

/-- The trait `TX`, linked at address 103. -/
def exTraitX : Class := Class.linked env0 103 preTraitX none

/-- The heap that holds the class `R` and the trait `TX`. -/
def envTraitX : Env :=
  exEnv (fun id => if id = 50 then some exStaticRoot else if id = 103 then some exTraitX
      else none)
    (fun n => if n = "R" then some 50 else if n = "TX" then some 103 else none)

/-- The declaration `class UX extends R { use TX; }`: the trait declares the
static property `x` that the class inherits from `R`. -/
def preUseX : PreClass :=
  { exPre "UX" (some "R") 0 [] [] with m_usedTraits := ["TX"] }

/-- The class `UX`, linked at address 104. -/
def exUseX : Class := Class.linked envTraitX 104 preUseX (some exStaticRoot)

/-- The declaration `class PX extends R { }`, which inherits `x` and uses no
trait. -/
def prePlainX : PreClass := exPre "PX" (some "R") 0 [] []

/-- The class `PX`, linked at address 105. -/
def exPlainX : Class := Class.linked envTraitX 105 prePlainX (some exStaticRoot)

/-- The builders of `setProperties` for `UX` before the import of the trait
properties: the static property `x` of `R`, aliased. -/
def exBeforeImportX : PropState := Class.inheritedProps (some exStaticRoot)

/-- Every entry of the static-property table is the entry that its name
resolves to. -/
def SPropMap.AllFound (T : SPropMap) : Prop :=
  ∀ (j : Nat) (e : Class.SProp), T.m_list[j]? = some e → T.find e.m_name = some j

/-- The invariant of the static-property tables of a linked heap: every class
sits at its own address, its table is keyed by the names of its entries, each
one found under its name; the declaring class of every entry is a class of the
heap whose own table resolves the name of the entry to an entry that it
declares itself; and an entry that the class does not declare is not private
and holds the uninit marker. -/
def HeapStaticInv (h : ClassId → Option Class) : Prop :=
  ∀ id c, h id = some c →
    c.m_self = id ∧ SPropMap.NameKeyed c.m_staticProperties ∧
    SPropMap.AllFound c.m_staticProperties ∧
    ∀ e, e ∈ c.m_staticProperties.m_list →
      (∃ d i e', h e.m_class = some d ∧
        d.m_staticProperties.lookup e.m_name = some (i, e') ∧ e'.m_class = e.m_class ∧
        e'.m_name = e.m_name) ∧
      (e.m_class ≠ id → e.m_val = .uninit ∧ hasAttr e.m_attrs AttrPrivate = false)

/-- The declaration `class SP { private static $s = 1; public static $t = 2; }`. -/
def preSecret : PreClass :=
  exPre "SP" none 0 []
    [exProp "s" (AttrPrivate ||| AttrStatic) (.int 1), exProp "t" (AttrPublic ||| AttrStatic) (.int 2)]

/-- The class `SP`, linked at address 106. -/
def exSecret : Class := Class.linked env0 106 preSecret none

/-- The heap that holds `SP`. -/
def envSecret : Env := exEnv (fun id => if id = 106 then some exSecret else none)
  (fun n => if n = "SP" then some 106 else none)

/-- The declaration `class SQ extends SP { public static $u = 3; }`. -/
def preSecretKid : PreClass :=
  exPre "SQ" (some "SP") 0 [] [exProp "u" (AttrPublic ||| AttrStatic) (.int 3)]

/-- The class `SQ`, linked at address 107. -/
def exSecretKid : Class := Class.linked envSecret 107 preSecretKid (some exSecret)

/-- The heap that holds `SP` and `SQ`. -/
def envSecretKid : Env :=
  exEnv (fun id => if id = 107 then some exSecretKid else envSecret.classes id)
    (fun n => if n = "SP" then some 106 else if n = "SQ" then some 107 else none)

/-- The method `Class::IsPropAccessible`; `ctx` is `none` for the null
pointer, and `classof` is `isSubclassOf`. -/
def Class.IsPropAccessible (env : Env) (prop : Class.Prop) (ctx : Option Class) :
    Except Fatal Bool :=
  if hasAttr prop.m_attrs AttrPublic then .ok true
  else if hasAttr prop.m_attrs AttrPrivate then
    .ok (decide (ctx.map (fun c => c.m_self) = some prop.m_class))
  else
    match ctx with
    | none => .ok false
    | some c =>
      match env.deref prop.m_class with
      | .error e => .error e
      | .ok declCls => .ok (declCls.isSubclassOf c || c.isSubclassOf declCls)

/-- The last part of `Class::getDeclPropIndex`, reached with the slot
`propInd` found in the table of `this` and the flag `accessible` as set so
far: when `ctx` is an ancestor of `this`, a private property that `ctx`
declares itself under the name trumps the property found. -/
def Class.getDeclPropIndexCtx (this : Class) (ctx : Option Class) (key : String)
    (propInd : Option Nat) (accessible : Bool) : Except Fatal (Option Nat × Bool) :=
  match ctx with
  | none => .ok (propInd, accessible)
  | some c =>
    if this.isSubclassOf c then
      match c.lookupDeclProp key with
      | none => .ok (propInd, accessible)
      | some ctxPropInd =>
        match c.m_declProperties.get? ctxPropInd with
        | none => .error .nullDeref
        | some ctxProp =>
          if decide (ctxProp.m_class = c.m_self) && hasAttr ctxProp.m_attrs AttrPrivate then
            .ok (some ctxPropInd, true)
          else .ok (propInd, accessible)
    else .ok (propInd, accessible)

/-- The method `Class::getDeclPropIndex`: the slot (`kInvalidSlot` is `none`)
and the flag `accessible`.  `ctx` is the class of the caller, `none` for the
null pointer, and `classof` is `isSubclassOf`. -/
def Class.getDeclPropIndex (ec : ExecutionContext) (env : Env) (this : Class)
    (ctx : Option Class) (key : String) : Except Fatal (Option Nat × Bool) :=
  match this.lookupDeclProp key with
  | none => Class.getDeclPropIndexCtx this ctx key none false
  | some propInd =>
    match this.m_declProperties.get? propInd with
    | none => .error .nullDeref
    | some prop =>
      let attrs := prop.m_attrs
      if (attrs &&& (AttrProtected ||| AttrPrivate) != 0) && !ec.debuggerBypassCheck then
        let baseClass := prop.m_class
        if ctx.map (fun c => c.m_self) = some baseClass then .ok (some propInd, true)
        else
          match ctx with
          | none => .ok (some propInd, false)
          | some c =>
            if hasAttr attrs AttrPrivate then
              Class.getDeclPropIndexCtx this ctx key (some propInd) false
            else
              match env.deref baseClass with
              | .error e => .error e
              | .ok base =>
                if c.isSubclassOf base then .ok (some propInd, true)
                else if !base.isSubclassOf c then .ok (some propInd, false)
                else Class.getDeclPropIndexCtx this ctx key (some propInd) true
      else
        if ctx.map (fun c => c.m_self) = some this.m_self then .ok (some propInd, true)
        else Class.getDeclPropIndexCtx this ctx key (some propInd) true

/-- Spec side of `getDeclPropIndex`: the class has its own private property of
the name, which is the property that the name resolves to in its table. -/
def Class.hasOwnPrivateProp (c : Class) (key : String) : Bool :=
  match c.m_declProperties.lookup key with
  | some (_, q) => decide (q.m_class = c.m_self) && hasAttr q.m_attrs AttrPrivate
  | none => false

/-- Spec side of `getDeclPropIndex`: the table that the returned slot refers
to, the table of `ctx` when `ctx` is an ancestor of `this` with its own
private property of the name, and the table of `this` otherwise. -/
def Class.specPropTable (this : Class) (ctx : Option Class) (key : String) : PropMap :=
  match ctx with
  | some c =>
    if this.isSubclassOf c && c.hasOwnPrivateProp key then c.m_declProperties
    else this.m_declProperties
  | none => this.m_declProperties

/-- The visibility part of the attributes is exactly one of public, protected
and private. -/
def OneVis (a : Attr) : Prop :=
  visOf a = AttrPublic ∨ visOf a = AttrProtected ∨ visOf a = AttrPrivate

/-- Every property of the table has exactly one visibility. -/
def PropMap.AllVis (T : PropMap) : Prop :=
  ∀ e, e ∈ T.m_list → OneVis e.m_attrs

/-- The invariant of the declared properties of a linked heap: every property
of a class has exactly one visibility, its declaring class is an ancestor of
the class (or the class itself) and in the heap, and each class between the
two holds in the same slot a property that it derives from. -/
def HeapDeclInv (h : ClassId → Option Class) : Prop :=
  ∀ id C, h id = some C →
    ∀ (i : Nat) (e : Class.Prop), C.m_declProperties.m_list[i]? = some e →
      OneVis e.m_attrs ∧
      ∃ a, h e.m_class = some a ∧ C.isSubclassOf a = true ∧
        ∀ c, h c.m_self = some c → C.isSubclassOf c = true → c.isSubclassOf a = true →
          ∃ e', c.m_declProperties.m_list[i]? = some e' ∧ e'.Derives e

/-- The heap that holds `P` and `Q`, with the loader of `envPriv`. -/
def envPrivQ : Env := { envPriv with classes := heapPriv }
/-- The name map of a builder of declared properties, in a class whose parent
has `n0` declared properties: every binding points to a property of that name,
which is not private when it sits below `n0`; no name is bound twice; and every
property that is not private, or sits at `n0` or above, is bound under its
name. -/
def PropMap.Named (n0 : Nat) (T : PropMap) : Prop :=
  (∀ x, x ∈ T.m_map → ∃ e, T.m_list[x.2]? = some e ∧ e.m_name = x.1 ∧
      (x.2 < n0 → hasAttr e.m_attrs AttrPrivate = false)) ∧
  T.m_map.Pairwise (fun x y => x.1 ≠ y.1) ∧
  (∀ (i : Nat) (e : Class.Prop), T.m_list[i]? = some e →
      (n0 ≤ i ∨ hasAttr e.m_attrs AttrPrivate = false) → (e.m_name, i) ∈ T.m_map)

/-- The property map of a `PreClass` binds each name once: the declarations of
the class have distinct names. -/
def PreClass.DistinctProps (pre : PreClass) : Prop :=
  pre.m_properties.Pairwise (fun a b => a.m_name ≠ b.m_name)

/-- The invariant of the names of the declared properties of a linked heap: a
name resolves to a property of that name, and every property that the class
declares itself or that is not private is what its name resolves to. -/
def HeapNamedInv (h : ClassId → Option Class) : Prop :=
  ∀ id C, h id = some C →
    (∀ (n : String) (i : Nat), C.m_declProperties.find n = some i →
      ∃ e, C.m_declProperties.m_list[i]? = some e ∧ e.m_name = n) ∧
    (∀ (i : Nat) (e : Class.Prop), C.m_declProperties.m_list[i]? = some e →
      (e.m_class = id ∨ hasAttr e.m_attrs AttrPrivate = false) →
      C.m_declProperties.find e.m_name = some i)

/-- In the builders of `Class::setProperties` the name `p` is bound to an
instance property and is the name of no static property. -/
def PropState.InstanceOnly (p : String) (st : PropState) : Prop :=
  st.curPropMap.find p ≠ none ∧ ∀ e, e ∈ st.curSPropMap.m_list → e.m_name ≠ p

/-- Every entry of the builder of the static properties has its name bound. -/
def SPropMap.Bound (T : SPropMap) : Prop :=
  ∀ e, e ∈ T.m_list → T.find e.m_name ≠ none

/-- The declaration of a class named `X<NUL>Y` with `private $p = 1`. -/
def preNulParent : PreClass := exPre "X\x00Y" none 0 [] [exProp "p" AttrPrivate (.int 1)]

/-- The class `X<NUL>Y`, linked at address 110. -/
def exNulParent : Class := Class.linked env0 110 preNulParent none

/-- The heap that holds the class `X<NUL>Y`. -/
def envNul : Env := exEnv (fun id => if id = 110 then some exNulParent else none)
  (fun n => if n = "X\x00Y" then some 110 else none)

/-- The declaration of a class named `X<NUL>Z` that extends `X<NUL>Y`, with
`private $p = 2`. -/
def preNulChild : PreClass :=
  exPre "X\x00Z" (some "X\x00Y") 0 [] [exProp "p" AttrPrivate (.int 2)]

/-- The class `X<NUL>Z`, linked at address 111. -/
def exNulChild : Class := Class.linked envNul 111 preNulChild (some exNulParent)

/-- The declaration `final class FP { private $p = 1; }`. -/
def preFinalP : PreClass := exPre "FP" none AttrFinal [] [exProp "p" AttrPrivate (.int 1)]

/-- The class `FP`, linked at address 112. -/
def exFinalP : Class := Class.linked env0 112 preFinalP none

/-- The heap that holds the class `FP`. -/
def envFinalP : Env := exEnv (fun id => if id = 112 then some exFinalP else none)
  (fun n => if n = "FP" then some 112 else none)

/-- The declaration `class FQ extends FP { private $p = 2; }`. -/
def preFinalKid : PreClass := exPre "FQ" (some "FP") 0 [] [exProp "p" AttrPrivate (.int 2)]

/-- The state `st'` of `setProperties` keeps what `st` holds: the entries and
the initial values of `st` are there in the same slots, and a name that `st`
binds is bound to the same slot. -/
def PropState.Keeps (st st' : PropState) : Prop :=
  (∃ ex, st'.curPropMap.m_list = st.curPropMap.m_list ++ ex) ∧
  (∃ ex, st'.m_declPropInit = st.m_declPropInit ++ ex) ∧
  ∀ n j, st.curPropMap.find n = some j → st'.curPropMap.find n = some j

/-- The declaration `class FlatP { use Props; public $p = 5; }` of a class
whose traits the compiler has flattened already (`AttrNoExpandTrait`). -/
def preFlatP : PreClass :=
  { exPre "FlatP" none AttrNoExpandTrait [] [exProp "p" AttrPublic (.int 5)] with
    m_usedTraits := ["Props"] }

/-- The class that `newClass` hands to `setProperties`, for examples whose
earlier stages succeed. -/
def Class.beforeProperties (env : Env) (self : ClassId) (pre : PreClass) (parent : Option Class)
    (usedTraits : List Class) : Class :=
  match Class.setMethods env parent usedTraits (Class.beforeMethods self pre parent usedTraits) with
  | .error _ => Class.init self pre parent 0
  | .ok c3 =>
    match Class.setInterfaces env parent usedTraits c3 with
    | .error _ => Class.init self pre parent 0
    | .ok c4 =>
      match Class.setConstants env parent c4 with
      | .error _ => Class.init self pre parent 0
      | .ok c5 => c5

/-- The interface builder `b` names its entries: a name that `b` binds is
bound to a slot that holds a class of the heap with that name, up to case. -/
def InterfaceMap.Named (env : Env) (b : InterfaceMap) : Prop :=
  ∀ k j, b.find k = some j →
    ∃ id c, b.m_list[j]? = some id ∧ env.classes id = some c ∧ isame c.name k = true

/-- The interface table `b` holds the class at `i`, a class of the heap, or
another class of the heap with the same name up to case. -/
def InterfaceMap.Holds (env : Env) (b : InterfaceMap) (i : ClassId) : Prop :=
  ∃ j c jc, j ∈ b.m_list ∧ env.classes i = some c ∧ env.classes j = some jc ∧
    isame jc.name c.name = true

/-- The heap holds at most one class of a name, up to case. -/
def Env.NamesDistinct (env : Env) : Prop :=
  ∀ i j a b, env.classes i = some a → env.classes j = some b →
    isame a.name b.name = true → i = j

/-- The full interface set of a class in the words of the spec: the interfaces
of the parent (inherited), the declared interfaces, the interfaces of the
declared interfaces (super-interfaces) and the interfaces of the used
traits. -/
def Class.specInterfaceSet (env : Env) (parent : Option Class) (usedTraits : List Class)
    (pre : PreClass) (i : ClassId) : Prop :=
  (∃ p, parent = some p ∧ i ∈ p.m_interfaces.m_list) ∨
  (∃ n, n ∈ pre.m_interfaces ∧ env.loadClass n = some i) ∨
  (∃ n d cp, n ∈ pre.m_interfaces ∧ env.loadClass n = some d ∧ env.classes d = some cp ∧
    i ∈ cp.m_interfaces.m_list) ∨
  (∃ t, t ∈ usedTraits ∧ i ∈ t.m_interfaces.m_list)

/-- The declaration `interface J extends I { public function put(); }`. -/
def preJ : PreClass :=
  { exPre "J" none AttrInterface [exFunc "put" (AttrPublic ||| AttrAbstract) 5 "J"] [] with
    m_interfaces := ["I"] }

/-- The interface `J`, linked at address 22. -/
def exJ : Class := Class.linked envIface 22 preJ none

/-- The heap that holds `I` and `J`. -/
def envJ : Env :=
  exEnv (fun id => if id = 20 then some exIface else if id = 22 then some exJ else none)
    (fun n => if n = "I" then some 20 else if n = "J" then some 22 else none)

/-- The declaration `class ImplJ implements J` with the methods `get` and
`put`. -/
def preImplJ : PreClass :=
  { exPre "ImplJ" none 0 [exFunc "get" AttrPublic 6 "ImplJ", exFunc "put" AttrPublic 7 "ImplJ"] []
    with m_interfaces := ["J"] }

/-- The class `ImplJ`, linked at address 23. -/
def exImplJ : Class := Class.linked envJ 23 preImplJ none

/-- The declaration `class BadJ implements J` with the method `put` only. -/
def preBadJ : PreClass :=
  { exPre "BadJ" none 0 [exFunc "put" AttrPublic 8 "BadJ"] [] with m_interfaces := ["J"] }

/-- The class that `setMethods` returns to `newClass`, for examples in which it
succeeds. -/
def Class.afterMethods (env : Env) (self : ClassId) (pre : PreClass) (parent : Option Class)
    (usedTraits : List Class) : Class :=
  match Class.setMethods env parent usedTraits (Class.beforeMethods self pre parent usedTraits) with
  | .ok c3 => c3
  | .error _ => Class.init self pre parent 0

/-- The candidates that the used traits contribute under `name`, in the order
of the traits. -/
def Class.candidatesOfAll (usedTraits : List Class) (name : String) : TraitMethodList :=
  (usedTraits.map (fun t => Class.candidatesOf t name)).flatten

/-- The heap that holds the traits `A` and `B` and the class `FooBase`. -/
def envOver : Env :=
  exEnv (fun id => if id = 30 then some exTraitA else if id = 31 then some exTraitB
      else if id = 35 then some exFooBase else none)
    (fun n => if n = "A" then some 30 else if n = "B" then some 31
      else if n = "FooBase" then some 35 else none)

/-- The declaration
`class UseOver extends FooBase { use B, A { A::foo insteadof B; } }`. -/
def preUseOver : PreClass :=
  { exPre "UseOver" (some "FooBase") 0 [] [] with
    m_usedTraits := ["B", "A"], m_traitPrecRules := [⟨"foo", "A", ["B"]⟩] }

/-- The class `UseOver`, linked at address 37. -/
def exUseOver : Class := Class.linked envOver 37 preUseOver (some exFooBase)

/-! # Theorems -/

/-! ## What the stages of the constructor leave alone -/

theorem Class.SameCore.refl (a : Class) : Class.SameCore a a := ⟨rfl, rfl, rfl, rfl, rfl⟩

theorem Class.SameCore.trans {a b c : Class} (h1 : Class.SameCore a b)
    (h2 : Class.SameCore b c) : Class.SameCore a c := by
  obtain ⟨a1, a2, a3, a4, a5⟩ := h1
  obtain ⟨b1, b2, b3, b4, b5⟩ := h2
  exact ⟨b1.trans a1, b2.trans a2, b3.trans a3, b4.trans a4, b5.trans a5⟩

theorem Class.cacheAttrs_fields (parent : Option Class) (this : Class) :
    (Class.cacheAttrs parent this).m_self = this.m_self ∧
    (Class.cacheAttrs parent this).m_preClass = this.m_preClass ∧
    (Class.cacheAttrs parent this).m_parent = this.m_parent ∧
    (Class.cacheAttrs parent this).m_classVecLen = this.m_classVecLen ∧
    (Class.cacheAttrs parent this).m_attrCopy = this.m_preClass.m_attrs ∧
    (Class.cacheAttrs parent this).m_traitAliases = this.m_traitAliases ∧
    (Class.cacheAttrs parent this).m_methods = this.m_methods := by
  unfold Class.cacheAttrs
  cases parent <;> simp only [] <;> split <;> simp

theorem Class.setParent_ok {parent : Option Class} {this c : Class}
    (h : Class.setParent parent this = .ok c) :
    c = Class.cacheAttrs parent this := by
  unfold Class.setParent at h
  cases hv : Class.validateParent parent this with
  | error e => simp [hv] at h
  | ok u => simp [hv] at h; exact h.symm

theorem Class.importTraitMethods_core {env : Env} {usedTraits : List Class} {this : Class}
    {builder : MethodMap} {r : Class × MethodMap}
    (h : Class.importTraitMethods env usedTraits this builder = .ok r) :
    Class.SameCore this r.1 := by
  unfold Class.importTraitMethods at h
  cases hc : Class.traitCandidates env usedTraits this with
  | error e => simp [hc] at h
  | ok st =>
    simp only [hc] at h
    cases hl : Class.importTraitMethodsLoop env { this with m_traitAliases := st.1 } st.2 builder with
    | error e => simp [hl] at h
    | ok b =>
      simp only [hl] at h
      injection h with h
      subst h
      exact ⟨rfl, rfl, rfl, rfl, rfl⟩

theorem Class.importTraitMethodsIfAny_core {env : Env} {usedTraits : List Class} {this : Class}
    {builder : MethodMap} {r : Class × MethodMap}
    (h : Class.importTraitMethodsIfAny env usedTraits this builder = .ok r) :
    Class.SameCore this r.1 := by
  unfold Class.importTraitMethodsIfAny at h
  split at h
  · exact Class.importTraitMethods_core h
  · injection h with h
    subst h
    exact Class.SameCore.refl _

theorem Class.buildMethods_core {env : Env} {parent : Option Class} {usedTraits : List Class}
    {this : Class} {r : Class × MethodMap}
    (h : Class.buildMethods env parent usedTraits this = .ok r) :
    Class.SameCore this r.1 := by
  unfold Class.buildMethods at h
  cases ho : Class.addOwnMethods env this this.m_preClass.m_methods
      (Class.inheritedMethods parent).1 with
  | error e => simp [ho] at h
  | ok builder =>
    simp only [ho] at h
    cases hi : Class.importTraitMethodsIfAny env usedTraits
        { this with m_traitsBeginIdx := builder.size } builder with
    | error e => simp [hi] at h
    | ok r1 =>
      simp only [hi] at h
      injection h with h
      subst h
      have := Class.importTraitMethodsIfAny_core hi
      exact ⟨this.1, this.2.1, this.2.2.1, this.2.2.2.1, this.2.2.2.2⟩

theorem Class.setMethods_ok {env : Env} {parent : Option Class} {usedTraits : List Class}
    {this c : Class} (h : Class.setMethods env parent usedTraits this = .ok c) :
    ∃ r, Class.buildMethods env parent usedTraits this = .ok r ∧
      Class.checkConcrete r.1 r.2 = .ok () ∧
      c.m_methods = { r.2 with m_list := Class.setMethodSlots r.2.m_list 0 } ∧
      Class.SameCore this c := by
  unfold Class.setMethods at h
  cases hb : Class.buildMethods env parent usedTraits this with
  | error e => simp [hb] at h
  | ok r =>
    simp only [hb] at h
    cases hc : Class.checkConcrete r.1 r.2 with
    | error e => simp [hc] at h
    | ok u =>
      simp only [hc] at h
      injection h with h
      subst h
      refine ⟨r, rfl, hc, rfl, ?_⟩
      have := Class.buildMethods_core hb
      exact ⟨this.1, this.2.1, this.2.2.1, this.2.2.2.1, this.2.2.2.2⟩

theorem Class.setInterfaces_ok {env : Env} {parent : Option Class} {usedTraits : List Class}
    {this c : Class} (h : Class.setInterfaces env parent usedTraits this = .ok c) :
    ∃ st, Class.buildInterfaces env parent usedTraits this.m_preClass = .ok st ∧
      c = { this with m_declInterfaces := st.2, m_interfaces := st.1 } ∧
      Class.checkInterfaceMethods env c = .ok () := by
  unfold Class.setInterfaces at h
  cases hb : Class.buildInterfaces env parent usedTraits this.m_preClass with
  | error e => simp [hb] at h
  | ok st =>
    simp only [hb] at h
    cases hc : Class.checkInterfaceMethods env
        { this with m_declInterfaces := st.2, m_interfaces := st.1 } with
    | error e => simp [hc] at h
    | ok u =>
      simp only [hc] at h
      injection h with h
      subst h
      exact ⟨st, rfl, rfl, hc⟩

theorem Class.setConstants_ok {env : Env} {parent : Option Class} {this c : Class}
    (h : Class.setConstants env parent this = .ok c) :
    ∃ b, c = { this with m_constants := b } := by
  unfold Class.setConstants at h
  cases h1 : Class.addAllInterfaceConstants env this.m_declInterfaces
      (Class.inheritedConstants parent) with
  | error e => simp [h1] at h
  | ok b1 =>
    simp only [h1] at h
    cases h2 : Class.addOwnConstants env this this.m_preClass.m_constants b1 with
    | error e => simp [h2] at h
    | ok b2 =>
      simp only [h2] at h
      injection h with h
      exact ⟨b2, h.symm⟩

theorem Class.setProperties_ok {env : Env} {parent : Option Class} {usedTraits : List Class}
    {this c : Class} (h : Class.setProperties env parent usedTraits this = .ok c) :
    ∃ st, Class.buildProps env parent usedTraits this = .ok st ∧
      c = { this with
            m_hasDeepInitProps := st.m_hasDeepInitProps
            m_declPropInit := st.m_declPropInit
            m_declProperties := st.curPropMap
            m_staticProperties := st.curSPropMap
            m_declPropNumAccessible := (st.curPropMap.size : Int) - (st.numInaccessible : Int) } := by
  unfold Class.setProperties at h
  cases hb : Class.buildProps env parent usedTraits this with
  | error e => simp [hb] at h
  | ok st =>
    simp only [hb] at h
    injection h with h
    exact ⟨st, rfl, h.symm⟩

/-- The stages of the constructor, one after the other: what a successful
`newClass` went through. -/
theorem Class.newClass_ok {env : Env} {self : ClassId} {pre : PreClass} {parent : Option Class}
    {cls : Class} (h : Class.newClass env self pre parent = .ok cls) :
    ∃ (usedTraits : List Class) (c3 c4 c5 c6 : Class),
      Class.validateParent parent (Class.init self pre parent
        (Class.newClassVecLen parent)) = .ok () ∧
      Class.loadUsedTraits env pre.m_name pre.m_usedTraits = .ok usedTraits ∧
      Class.setMethods env parent usedTraits
        { Class.cacheAttrs parent (Class.init self pre parent
            (Class.newClassVecLen parent)) with
          m_usedTraits := usedTraits.map (fun t => t.m_self) } = .ok c3 ∧
      Class.setInterfaces env parent usedTraits c3 = .ok c4 ∧
      Class.setConstants env parent c4 = .ok c5 ∧
      Class.setProperties env parent usedTraits c5 = .ok c6 ∧
      cls = Class.setClassVec parent (Class.setInitializers parent usedTraits c6) := by
  unfold Class.newClass Class.setParent at h
  cases h0 : Class.validateParent parent (Class.init self pre parent
        (Class.newClassVecLen parent)) with
  | error e => simp [h0] at h
  | ok u =>
    simp only [h0] at h
    cases h1 : Class.loadUsedTraits env pre.m_name pre.m_usedTraits with
    | error e => simp [h1] at h
    | ok usedTraits =>
      simp only [h1] at h
      cases h2 : Class.setMethods env parent usedTraits
        { Class.cacheAttrs parent (Class.init self pre parent
            (Class.newClassVecLen parent)) with
          m_usedTraits := usedTraits.map (fun t => t.m_self) } with
      | error e => simp [h2] at h
      | ok c3 =>
        simp only [h2] at h
        cases h3 : Class.setInterfaces env parent usedTraits c3 with
        | error e => simp [h3] at h
        | ok c4 =>
          simp only [h3] at h
          cases h4 : Class.setConstants env parent c4 with
          | error e => simp [h4] at h
          | ok c5 =>
            simp only [h4] at h
            cases h5 : Class.setProperties env parent usedTraits c5 with
            | error e => simp [h5] at h
            | ok c6 =>
              simp only [h5] at h
              injection h with h
              exact ⟨usedTraits, c3, c4, c5, c6, rfl, rfl, h2, h3, h4, h5, h.symm⟩

/-- The class that `newClass` hands to `setMethods`. -/
theorem Class.newClass_start_fields (self : ClassId) (pre : PreClass) (parent : Option Class)
    (ids : List ClassId) :
    let this0 : Class :=
      { Class.cacheAttrs parent (Class.init self pre parent (Class.newClassVecLen parent)) with
        m_usedTraits := ids }
    this0.m_self = self ∧ this0.m_preClass = pre ∧
    this0.m_parent = parent.map (fun p => p.m_self) ∧
    this0.m_classVecLen = Class.newClassVecLen parent ∧ this0.m_attrCopy = pre.m_attrs := by
  have h := Class.cacheAttrs_fields parent
    (Class.init self pre parent (Class.newClassVecLen parent))
  obtain ⟨h1, h2, h3, h4, h5, -, -⟩ := h
  refine ⟨?_, ?_, ?_, ?_, ?_⟩
  · simpa [Class.init] using h1
  · simpa [Class.init] using h2
  · simpa [Class.init] using h3
  · simpa [Class.init] using h4
  · simpa [Class.init] using h5

/-- What a successful `newClass` says about the fields that the member
initialisers, `setParent` and `setClassVec` write. -/
theorem Class.newClass_core {env : Env} {self : ClassId} {pre : PreClass}
    {parent : Option Class} {cls : Class} (h : Class.newClass env self pre parent = .ok cls) :
    cls.m_self = self ∧ cls.m_preClass = pre ∧
    cls.m_parent = parent.map (fun p => p.m_self) ∧
    cls.m_classVecLen = Class.newClassVecLen parent ∧ cls.m_attrCopy = pre.m_attrs ∧
    cls.m_classVec = Class.copiedClassVec parent (Class.newClassVecLen parent) ++ [self] := by
  obtain ⟨usedTraits, c3, c4, c5, c6, -, -, h2, h3, h4, h5, hcls⟩ := Class.newClass_ok h
  obtain ⟨r, -, -, -, hcore⟩ := Class.setMethods_ok h2
  obtain ⟨st, -, hc4, -⟩ := Class.setInterfaces_ok h3
  obtain ⟨b, hc5⟩ := Class.setConstants_ok h4
  obtain ⟨ps, -, hc6⟩ := Class.setProperties_ok h5
  obtain ⟨s1, s2, s3, s4, s5⟩ := Class.newClass_start_fields self pre parent
    (usedTraits.map (fun t => t.m_self))
  obtain ⟨k1, k2, k3, k4, k5⟩ := hcore
  subst hcls hc6 hc5 hc4
  simp only [Class.setClassVec, Class.setInitializers]
  refine ⟨k1.trans s1, k2.trans s2, k3.trans s3, k4.trans s4, k5.trans s5, ?_⟩
  rw [k4, s4, k1, s1]

/-- What a successful `newClass` says about the method table: it is the
builder of `buildMethods`, which passed the final check, with the slots
filled in. -/
theorem Class.newClass_methods {env : Env} {self : ClassId} {pre : PreClass}
    {parent : Option Class} {cls : Class} (h : Class.newClass env self pre parent = .ok cls) :
    ∃ (usedTraits : List Class) (this0 : Class) (r : Class × MethodMap),
      Class.loadUsedTraits env pre.m_name pre.m_usedTraits = .ok usedTraits ∧
      this0.m_self = self ∧ this0.m_preClass = pre ∧ this0.m_attrCopy = pre.m_attrs ∧
      this0.m_traitAliases = [] ∧
      Class.buildMethods env parent usedTraits this0 = .ok r ∧
      Class.checkConcrete r.1 r.2 = .ok () ∧
      r.1.m_self = self ∧ r.1.m_preClass = pre ∧ r.1.m_attrCopy = pre.m_attrs ∧
      cls.m_methods = { r.2 with m_list := Class.setMethodSlots r.2.m_list 0 } := by
  obtain ⟨usedTraits, c3, c4, c5, c6, -, h1, h2, h3, h4, h5, hcls⟩ := Class.newClass_ok h
  obtain ⟨r, hb, hchk, hm, hcore⟩ := Class.setMethods_ok h2
  obtain ⟨st, -, hc4, -⟩ := Class.setInterfaces_ok h3
  obtain ⟨b, hc5⟩ := Class.setConstants_ok h4
  obtain ⟨ps, -, hc6⟩ := Class.setProperties_ok h5
  obtain ⟨s1, s2, s3, s4, s5⟩ := Class.newClass_start_fields self pre parent
    (usedTraits.map (fun t => t.m_self))
  obtain ⟨k1, k2, k3, k4, k5⟩ := Class.buildMethods_core hb
  refine ⟨usedTraits, _, r, h1, s1, s2, s5, ?_, hb, hchk, k1.trans s1, k2.trans s2,
    k5.trans s5, ?_⟩
  · have := (Class.cacheAttrs_fields parent
      (Class.init self pre parent (Class.newClassVecLen parent))).2.2.2.2.2.1
    simpa [Class.init] using this
  · subst hcls hc6 hc5 hc4
    simpa [Class.setClassVec, Class.setInitializers] using hm

/-- What a successful `newClass` says about the interfaces: the class that
passed `checkInterfaceMethods` has the method table, the interface table, the
attributes and the `PreClass` of the result. -/
theorem Class.newClass_interfaces {env : Env} {self : ClassId} {pre : PreClass}
    {parent : Option Class} {cls : Class} (h : Class.newClass env self pre parent = .ok cls) :
    ∃ c4 : Class, Class.checkInterfaceMethods env c4 = .ok () ∧
      c4.m_methods = cls.m_methods ∧ c4.m_interfaces = cls.m_interfaces ∧
      c4.m_attrCopy = cls.m_attrCopy ∧ c4.m_preClass = cls.m_preClass := by
  obtain ⟨usedTraits, c3, c4, c5, c6, -, h1, h2, h3, h4, h5, hcls⟩ := Class.newClass_ok h
  obtain ⟨st, -, hc4, hchk⟩ := Class.setInterfaces_ok h3
  obtain ⟨b, hc5⟩ := Class.setConstants_ok h4
  obtain ⟨ps, -, hc6⟩ := Class.setProperties_ok h5
  refine ⟨c4, hchk, ?_, ?_, ?_, ?_⟩ <;>
  · subst hcls hc6 hc5
    simp [Class.setClassVec, Class.setInitializers]

/-- What a successful `newClass` says about the properties: the tables and the
initial values are those of `buildProps`. -/
theorem Class.newClass_props {env : Env} {self : ClassId} {pre : PreClass}
    {parent : Option Class} {cls : Class} (h : Class.newClass env self pre parent = .ok cls) :
    ∃ (usedTraits : List Class) (c5 : Class) (st : PropState),
      Class.loadUsedTraits env pre.m_name pre.m_usedTraits = .ok usedTraits ∧
      c5.m_self = self ∧ c5.m_preClass = pre ∧ c5.m_attrCopy = pre.m_attrs ∧
      c5.m_classVecLen = Class.newClassVecLen parent ∧
      Class.buildProps env parent usedTraits c5 = .ok st ∧
      cls.m_declProperties = st.curPropMap ∧ cls.m_staticProperties = st.curSPropMap ∧
      cls.m_declPropInit = st.m_declPropInit ∧
      cls.m_declPropNumAccessible = (st.curPropMap.size : Int) - (st.numInaccessible : Int) := by
  obtain ⟨usedTraits, c3, c4, c5, c6, -, h1, h2, h3, h4, h5, hcls⟩ := Class.newClass_ok h
  obtain ⟨r, -, -, -, hcore⟩ := Class.setMethods_ok h2
  obtain ⟨sti, -, hc4, -⟩ := Class.setInterfaces_ok h3
  obtain ⟨b, hc5⟩ := Class.setConstants_ok h4
  obtain ⟨ps, hbp, hc6⟩ := Class.setProperties_ok h5
  obtain ⟨s1, s2, s3, s4, s5⟩ := Class.newClass_start_fields self pre parent
    (usedTraits.map (fun t => t.m_self))
  obtain ⟨k1, k2, k3, k4, k5⟩ := hcore
  refine ⟨usedTraits, c5, ps, h1, ?_, ?_, ?_, ?_, hbp, ?_, ?_, ?_, ?_⟩
  · subst hc5 hc4; exact k1.trans s1
  · subst hc5 hc4; exact k2.trans s2
  · subst hc5 hc4; exact k5.trans s5
  · subst hc5 hc4; exact k4.trans s4
  all_goals
    subst hcls hc6
    simp [Class.setClassVec, Class.setInitializers]

/-! ## Ancestor vectors -/

theorem Class.commonAncestorScan_hit (v1 v2 : List ClassId) (k : Nat) (a : ClassId)
    (h1 : v1[k]? = some a) (h2 : v2[k]? = some a) :
    Class.commonAncestorScan v1 v2 k = some a := by
  cases k with
  | zero => simp [Class.commonAncestorScan, h1, h2]
  | succ n => simp [Class.commonAncestorScan, h1, h2]

theorem Class.commonAncestorScan_skip (v1 v2 : List ClassId) (n : Nat)
    (h : ¬ ∃ y, v1[n + 1]? = some y ∧ v2[n + 1]? = some y) :
    Class.commonAncestorScan v1 v2 (n + 1) = Class.commonAncestorScan v1 v2 n := by
  rw [Class.commonAncestorScan]
  split
  · rename_i a b ha hb
    split
    · rename_i hab
      subst hab
      exact absurd ⟨a, ha, hb⟩ h
    · rfl
  · rfl

theorem Class.commonAncestorScan_first (v1 v2 : List ClassId) (d : Nat) (x : ClassId)
    (h1 : v1[d]? = some x) (h2 : v2[d]? = some x) :
    ∀ k, d ≤ k → (∀ j, d < j → j ≤ k → ¬ ∃ y, v1[j]? = some y ∧ v2[j]? = some y) →
      Class.commonAncestorScan v1 v2 k = some x := by
  intro k
  induction k with
  | zero =>
    intro hd _
    have : d = 0 := by omega
    subst this
    exact Class.commonAncestorScan_hit v1 v2 0 x h1 h2
  | succ n ih =>
    intro hd hno
    by_cases hdn : d = n + 1
    · subst hdn
      exact Class.commonAncestorScan_hit v1 v2 (n + 1) x h1 h2
    · rw [Class.commonAncestorScan_skip v1 v2 n (hno (n + 1) (by omega) (by omega))]
      exact ih (by omega) (fun j hj1 hj2 => hno j hj1 (by omega))

theorem Class.commonAncestorScan_none (v1 v2 : List ClassId) :
    ∀ k, (∀ j, j ≤ k → ¬ ∃ y, v1[j]? = some y ∧ v2[j]? = some y) →
      Class.commonAncestorScan v1 v2 k = none := by
  intro k
  induction k with
  | zero =>
    intro hno
    have h0 := hno 0 (by omega)
    rw [Class.commonAncestorScan]
    split
    · rename_i a b ha hb
      split
      · rename_i hab
        subst hab
        exact absurd ⟨a, ha, hb⟩ h0
      · rfl
    · rfl
  | succ n ih =>
    intro hno
    rw [Class.commonAncestorScan_skip v1 v2 n (hno (n + 1) (by omega))]
    exact ih (fun j hj => hno j (by omega))

theorem Class.copiedClassVec_none : Class.copiedClassVec none (Class.newClassVecLen none) = [] := by
  simp [Class.copiedClassVec, Class.newClassVecLen]

theorem Class.copiedClassVec_some (p : Class) (hp : p.m_classVec.length = p.m_classVecLen)
    (hpos : 0 < p.m_classVecLen) :
    Class.copiedClassVec (some p) (Class.newClassVecLen (some p)) = p.m_classVec := by
  unfold Class.copiedClassVec Class.newClassVecLen
  simp only []
  rw [if_pos (by omega)]
  simp only [Nat.add_sub_cancel]
  rw [← hp]
  exact List.take_length _

/-- Along a lineage the ancestor vector of the first class lists the addresses
of the lineage from the root down, and `m_classVecLen` is its length. -/
theorem Lineage.classVec {l : List Class} (h : Lineage l) :
    ∀ c rest, l = c :: rest →
      c.m_classVec = (l.map (fun a => a.m_self)).reverse ∧ c.m_classVecLen = l.length := by
  induction h with
  | root env self pre cls hn =>
    intro c rest hl
    injection hl with hc hr
    subst hc
    obtain ⟨k1, -, -, k4, -, k6⟩ := Class.newClass_core hn
    rw [Class.copiedClassVec_none] at k6
    simp [k6, k1, k4, Class.newClassVecLen]
  | child env self pre cls p rest0 hp hn ih =>
    intro c rest hl
    injection hl with hc hr
    subst hc
    obtain ⟨ih1, ih2⟩ := ih p rest0 rfl
    obtain ⟨k1, -, -, k4, -, k6⟩ := Class.newClass_core hn
    have hlen : p.m_classVec.length = p.m_classVecLen := by
      rw [ih1, ih2]; simp
    rw [Class.copiedClassVec_some p hlen (by rw [ih2]; simp)] at k6
    constructor
    · rw [k6, ih1]; simp [k1]
    · rw [k4]; simp [Class.newClassVecLen, ih2]

/-- C8: for every linked class (the head of a lineage `cls :: rest`, `rest`
being its parent, grandparent, ... up to the root) the ancestor vector is the
parent's ancestor vector followed by the class itself (just the class itself
without a parent); its length is the depth `rest.length` plus one, its last
entry is the class itself, the ancestor at depth `i` sits at index `i`,
`isSubclassOf` (containment in the ancestor vector) holds for the class itself
and each of its ancestors, and `commonAncestor(parent, cls)` is the parent. -/
theorem C8_ancestor_vector (cls : Class) (rest : List Class) (h : Lineage (cls :: rest)) :
    cls.m_classVec = (match rest with | p :: _ => p.m_classVec | [] => []) ++ [cls.m_self] ∧
    cls.m_classVec.length = rest.length + 1 ∧
    cls.m_classVecLen = rest.length + 1 ∧
    cls.m_classVec.getLast? = some cls.m_self ∧
    (∀ (i : Nat) (a : Class), (cls :: rest).reverse[i]? = some a →
      cls.m_classVec[i]? = some a.m_self) ∧
    (∀ a : Class, a ∈ cls :: rest → cls.isSubclassOf a = true) ∧
    (∀ p : Class, rest.head? = some p → Class.commonAncestor p cls = some p.m_self) := by
  obtain ⟨hv, hlen⟩ := Lineage.classVec h cls rest rfl
  have hparent : ∀ p tl, rest = p :: tl →
      p.m_classVec = ((p :: tl).map (fun a => a.m_self)).reverse ∧
      p.m_classVecLen = (p :: tl).length := by
    intro p tl hr
    subst hr
    cases h with
    | child env self pre _ _ _ hp hn => exact Lineage.classVec hp p tl rfl
  refine ⟨?_, ?_, ?_, ?_, ?_, ?_, ?_⟩
  · cases rest with
    | nil => simp [hv]
    | cons p tl =>
      obtain ⟨hpv, -⟩ := hparent p tl rfl
      simp only [hv, hpv]
      simp
  · rw [hv]; simp
  · rw [hlen]; simp
  · rw [hv]; simp
  · intro i a hi
    rw [hv, ← List.map_reverse, List.getElem?_map, hi]
    rfl
  · intro a ha
    unfold Class.isSubclassOf
    rw [hv]
    simp only [List.contains_eq_any_beq, List.any_eq_true, List.mem_reverse, List.mem_map]
    exact ⟨a.m_self, ⟨a, ha, rfl⟩, by simp⟩
  · intro p hp
    cases rest with
    | nil => simp at hp
    | cons q tl =>
      simp only [List.head?_cons, Option.some.injEq] at hp
      subst hp
      obtain ⟨hpv, hpl⟩ := hparent q tl rfl
      unfold Class.commonAncestor
      simp only [hlen, hpl, List.length_cons]
      have hmin : min (tl.length + 1) (tl.length + 1 + 1) - 1 = tl.length := by omega
      rw [hmin]
      apply Class.commonAncestorScan_hit
      · rw [hpv]; simp
      · rw [hv]
        simp only [List.map_cons, List.reverse_cons, List.append_assoc, List.singleton_append]
        rw [List.getElem?_append_right (by simp)]
        simp

theorem exBase_linked : Class.newClass env0 10 preBase none = .ok exBase := by rfl

theorem exChild_linked : Class.newClass envBase 11 preChild (some exBase) = .ok exChild := by rfl

/-- Witness of C8: `Child extends Base`, linked at the addresses 11 and 10. -/
theorem C8_ancestor_vector_witness :
    Lineage [exChild, exBase] ∧
    (exChild.m_classVec = exBase.m_classVec ++ [exChild.m_self] ∧
    exChild.m_classVec.length = [exBase].length + 1 ∧
    exChild.m_classVecLen = [exBase].length + 1 ∧
    exChild.m_classVec.getLast? = some exChild.m_self ∧
    (∀ (i : Nat) (a : Class), [exChild, exBase].reverse[i]? = some a →
      exChild.m_classVec[i]? = some a.m_self) ∧
    (∀ a : Class, a ∈ [exChild, exBase] → exChild.isSubclassOf a = true) ∧
    (∀ p : Class, [exBase].head? = some p → Class.commonAncestor p exChild = some p.m_self)) :=
  have h : Lineage [exChild, exBase] :=
    Lineage.child envBase 11 preChild exChild exBase []
      (Lineage.root env0 10 preBase exBase exBase_linked) exChild_linked
  ⟨h, C8_ancestor_vector exChild [exBase] h⟩

theorem Class.newClass_vec_none {env : Env} {self : ClassId} {pre : PreClass} {cls : Class}
    (hn : Class.newClass env self pre none = .ok cls) :
    cls.m_self = self ∧ cls.m_classVec = [self] ∧ cls.m_classVecLen = 1 := by
  obtain ⟨k1, -, -, k4, -, k6⟩ := Class.newClass_core hn
  rw [Class.copiedClassVec_none] at k6
  exact ⟨k1, by simpa using k6, by simpa [Class.newClassVecLen] using k4⟩

theorem Class.newClass_vec_some {env : Env} {self : ClassId} {pre : PreClass} {p cls : Class}
    (hp : p.m_classVec.length = p.m_classVecLen) (hpos : 0 < p.m_classVecLen)
    (hn : Class.newClass env self pre (some p) = .ok cls) :
    cls.m_self = self ∧ cls.m_classVec = p.m_classVec ++ [self] ∧
    cls.m_classVecLen = p.m_classVecLen + 1 := by
  obtain ⟨k1, -, -, k4, -, k6⟩ := Class.newClass_core hn
  rw [Class.copiedClassVec_some p hp hpos] at k6
  exact ⟨k1, k6, by simpa [Class.newClassVecLen] using k4⟩

theorem LinkedHeap.vecInv {h : ClassId → Option Class} (hl : LinkedHeap h) : HeapVecInv h := by
  induction hl with
  | empty => intro id c hc; simp at hc
  | link env self pre parent cls hprev hfresh hpar hn ih =>
    have hold : ∀ x a, env.classes x = some a →
        (fun id => if id = self then some cls else env.classes id) x = some a := by
      intro x a hx
      have : x ≠ self := by
        intro hxs; rw [hxs, hfresh] at hx; cases hx
      simp [this, hx]
    have hnew : (fun id => if id = self then some cls else env.classes id) self = some cls := by
      simp
    intro id c hc
    by_cases hid : id = self
    · subst hid
      simp only [if_true] at hc
      injection hc with hc
      subst hc
      cases parent with
      | none =>
        obtain ⟨k1, hv, hlen⟩ := Class.newClass_vec_none hn
        refine ⟨k1, by rw [hv, hlen]; rfl, by rw [hlen]; omega, by rw [hv]; rfl, ?_⟩
        intro i x hix
        rw [hv] at hix
        cases i with
        | zero =>
          simp at hix
          subst hix
          exact ⟨cls, hnew, by rw [hv]; rfl⟩
        | succ n => simp at hix
      | some p =>
        obtain ⟨-, p2, p3, -, p5⟩ := ih p.m_self p (hpar p rfl)
        obtain ⟨k1, hv, hlen⟩ := Class.newClass_vec_some p2 p3 hn
        refine ⟨k1, by rw [hv, hlen]; simp [p2], by rw [hlen]; omega, by rw [hv]; simp, ?_⟩
        intro i x hix
        rw [hv] at hix
        by_cases hi : i < p.m_classVec.length
        · rw [List.getElem?_append_left hi] at hix
          obtain ⟨a, ha, hav⟩ := p5 i x hix
          refine ⟨a, hold x a ha, ?_⟩
          rw [hav, hv, List.take_append_of_le_length (by omega)]
        · have hi2 : p.m_classVec.length ≤ i := by omega
          rw [List.getElem?_append_right hi2] at hix
          have hi3 : i - p.m_classVec.length = 0 := by
            by_contra hne
            have : ([id] : List ClassId)[i - p.m_classVec.length]? = none := by
              apply List.getElem?_eq_none
              simp; omega
            rw [this] at hix; cases hix
          rw [hi3] at hix
          simp at hix
          subst hix
          refine ⟨cls, hnew, ?_⟩
          have hi4 : i = p.m_classVec.length := by omega
          rw [List.take_of_length_le]
          rw [hv, hi4]
          simp
    · simp only [hid, if_false] at hc
      obtain ⟨q1, q2, q3, q4, q5⟩ := ih id c hc
      refine ⟨q1, q2, q3, q4, ?_⟩
      intro i x hix
      obtain ⟨a, ha, hav⟩ := q5 i x hix
      exact ⟨a, hold x a ha, hav⟩

theorem List.getElem?_lt_of_some {α : Type} {l : List α} {i : Nat} {a : α}
    (h : l[i]? = some a) : i < l.length := by
  by_contra hn
  rw [List.getElem?_eq_none (by omega)] at h
  cases h

/-- In a linked heap two ancestor vectors that hold the same class at an index
agree up to that index. -/
theorem HeapVecInv.agree_below {h : ClassId → Option Class} (hinv : HeapVecInv h)
    {i1 i2 : ClassId} {c1 c2 : Class} (h1 : h i1 = some c1) (h2 : h i2 = some c2)
    {j : Nat} {y : ClassId} (hj1 : c1.m_classVec[j]? = some y) (hj2 : c2.m_classVec[j]? = some y)
    {d : Nat} (hd : d ≤ j) : c1.m_classVec[d]? = c2.m_classVec[d]? := by
  obtain ⟨a, ha, hav⟩ := (hinv i1 c1 h1).2.2.2.2 j y hj1
  obtain ⟨b, hb, hbv⟩ := (hinv i2 c2 h2).2.2.2.2 j y hj2
  rw [ha] at hb
  injection hb with hb
  subst hb
  rw [← List.getElem?_take_of_lt (show d < j + 1 by omega), ← hav, hbv,
    List.getElem?_take_of_lt (show d < j + 1 by omega)]

/-- C7: in a heap whose classes were all built by linking, for two classes
`c1` and `c2`: if their ancestor vectors hold the same class `x` at depth `d`
and differ at depth `d + 1` (or one of them ends at depth `d`), then
`commonAncestor` returns exactly `x`; if the vectors agree at no index, it
returns none. -/
theorem C7_common_ancestor (h : ClassId → Option Class) (hl : LinkedHeap h)
    (i1 i2 : ClassId) (c1 c2 : Class) (h1 : h i1 = some c1) (h2 : h i2 = some c2) :
    (∀ (d : Nat) (x : ClassId), c1.m_classVec[d]? = some x → c2.m_classVec[d]? = some x →
        (c1.m_classVec[d + 1]? ≠ c2.m_classVec[d + 1]? ∨ c1.m_classVec[d + 1]? = none ∨
          c2.m_classVec[d + 1]? = none) →
        Class.commonAncestor c1 c2 = some x) ∧
    ((∀ d : Nat, ¬ ∃ x, c1.m_classVec[d]? = some x ∧ c2.m_classVec[d]? = some x) →
        Class.commonAncestor c1 c2 = none) := by
  have hinv := LinkedHeap.vecInv hl
  obtain ⟨-, a2, a3, -, -⟩ := hinv i1 c1 h1
  obtain ⟨-, b2, b3, -, -⟩ := hinv i2 c2 h2
  constructor
  · intro d x hd1 hd2 hdiff
    have l1 := List.getElem?_lt_of_some hd1
    have l2 := List.getElem?_lt_of_some hd2
    unfold Class.commonAncestor
    apply Class.commonAncestorScan_first _ _ d x hd1 hd2
    · omega
    · intro j hdj hjk hex
      obtain ⟨y, hy1, hy2⟩ := hex
      have hag := HeapVecInv.agree_below hinv h1 h2 hy1 hy2 (show d + 1 ≤ j by omega)
      have m1 := List.getElem?_lt_of_some hy1
      have m2 := List.getElem?_lt_of_some hy2
      rcases hdiff with hne | hn1 | hn2
      · exact hne hag
      · rw [List.getElem?_eq_none_iff] at hn1; omega
      · rw [List.getElem?_eq_none_iff] at hn2; omega
  · intro hno
    unfold Class.commonAncestor
    exact Class.commonAncestorScan_none _ _ _ (fun j _ => hno j)

/-! ## The method table -/

theorem Class.beforeMethods_fields (self : ClassId) (pre : PreClass) (parent : Option Class)
    (usedTraits : List Class) :
    (Class.beforeMethods self pre parent usedTraits).m_self = self ∧
    (Class.beforeMethods self pre parent usedTraits).m_preClass = pre ∧
    (Class.beforeMethods self pre parent usedTraits).m_attrCopy = pre.m_attrs ∧
    (Class.beforeMethods self pre parent usedTraits).m_traitAliases = [] := by
  obtain ⟨s1, s2, -, -, s5⟩ := Class.newClass_start_fields self pre parent
    (usedTraits.map (fun t => t.m_self))
  refine ⟨s1, s2, s5, ?_⟩
  have := (Class.cacheAttrs_fields parent
    (Class.init self pre parent (Class.newClassVecLen parent))).2.2.2.2.2.1
  simpa [Class.beforeMethods, Class.init] using this

/-- A class links only if its traits load and `setMethods` succeeds on the
class that `newClass` hands to it. -/
theorem Class.newClass_setMethods {env : Env} {self : ClassId} {pre : PreClass}
    {parent : Option Class} {cls : Class} (h : Class.newClass env self pre parent = .ok cls) :
    ∃ (usedTraits : List Class) (c3 : Class),
      Class.loadUsedTraits env pre.m_name pre.m_usedTraits = .ok usedTraits ∧
      Class.setMethods env parent usedTraits (Class.beforeMethods self pre parent usedTraits)
        = .ok c3 ∧ cls.m_methods = c3.m_methods := by
  obtain ⟨usedTraits, c3, c4, c5, c6, -, h1, h2, h3, h4, h5, hcls⟩ := Class.newClass_ok h
  obtain ⟨st, -, hc4, -⟩ := Class.setInterfaces_ok h3
  obtain ⟨b, hc5⟩ := Class.setConstants_ok h4
  obtain ⟨ps, -, hc6⟩ := Class.setProperties_ok h5
  refine ⟨usedTraits, c3, h1, h2, ?_⟩
  subst hcls hc6 hc5 hc4
  simp [Class.setClassVec, Class.setInitializers]

/-- When `setMethods` fails, linking fails. -/
theorem Class.newClass_fails_of_setMethods {env : Env} {self : ClassId} {pre : PreClass}
    {parent : Option Class} {usedTraits : List Class} {e : Fatal}
    (hl : Class.loadUsedTraits env pre.m_name pre.m_usedTraits = .ok usedTraits)
    (hm : Class.setMethods env parent usedTraits (Class.beforeMethods self pre parent usedTraits)
      = .error e) :
    ∃ e', Class.newClass env self pre parent = .error e' := by
  cases hn : Class.newClass env self pre parent with
  | error e' => exact ⟨e', rfl⟩
  | ok cls =>
    obtain ⟨ts, c3, h1, h2, -⟩ := Class.newClass_setMethods hn
    rw [hl] at h1
    injection h1 with h1
    subst h1
    rw [hm] at h2
    cases h2

theorem Class.checkNoAbstract_ok (clsName : String) (l : List Func) :
    Class.checkNoAbstract clsName l = .ok () ↔ ∀ f, f ∈ l → hasAttr f.m_attrs AttrAbstract = false := by
  induction l with
  | nil => simp [Class.checkNoAbstract]
  | cons g rest ih =>
    rw [Class.checkNoAbstract]
    by_cases hg : hasAttr g.m_attrs AttrAbstract = true
    · simp [hg]
    · simp only [hg, Bool.false_eq_true, if_false, List.mem_cons, forall_eq_or_imp]
      rw [ih]
      simp at hg
      simp [hg]

theorem Class.setMethodSlots_attrs (l : List Func) :
    ∀ (i : Nat) (f : Func), f ∈ Class.setMethodSlots l i →
      ∃ g, g ∈ l ∧ f.m_attrs = g.m_attrs ∧ f.m_name = g.m_name := by
  induction l with
  | nil => intro i f hf; simp [Class.setMethodSlots] at hf
  | cons g rest ih =>
    intro i f hf
    rw [Class.setMethodSlots, List.mem_cons] at hf
    rcases hf with hf | hf
    · exact ⟨g, List.mem_cons_self _ _, by rw [hf]; rfl, by rw [hf]; rfl⟩
    · obtain ⟨g', hg', ha⟩ := ih (i + 1) f hf
      exact ⟨g', List.mem_cons_of_mem _ hg', ha⟩

/-- C9: for a class that is neither abstract nor a trait nor an interface, a
successful construction of the method table (and so a successful link) leaves
no abstract entry in the table; and when the builder after parent copy, own
methods and trait imports holds an abstract entry, `setMethods` raises the
`contains abstract method` error and linking fails. -/
theorem C9_no_abstract_in_concrete (env : Env) (self : ClassId) (pre : PreClass)
    (parent : Option Class)
    (hconcrete : hasAttr pre.m_attrs (AttrTrait ||| AttrInterface ||| AttrAbstract) = false) :
    (∀ (usedTraits : List Class) (c : Class),
      Class.setMethods env parent usedTraits (Class.beforeMethods self pre parent usedTraits)
        = .ok c →
      ∀ f, f ∈ c.m_methods.m_list → hasAttr f.m_attrs AttrAbstract = false) ∧
    (∀ cls, Class.newClass env self pre parent = .ok cls →
      ∀ f, f ∈ cls.m_methods.m_list → hasAttr f.m_attrs AttrAbstract = false) ∧
    (∀ (usedTraits : List Class) (r : Class × MethodMap),
      Class.loadUsedTraits env pre.m_name pre.m_usedTraits = .ok usedTraits →
      Class.buildMethods env parent usedTraits (Class.beforeMethods self pre parent usedTraits)
        = .ok r →
      (∃ f, f ∈ r.2.m_list ∧ hasAttr f.m_attrs AttrAbstract = true) →
      (∃ name, Class.setMethods env parent usedTraits
          (Class.beforeMethods self pre parent usedTraits)
          = .error (.containsAbstract pre.m_name name)) ∧
      ∃ e, Class.newClass env self pre parent = .error e) := by
  have key : ∀ (usedTraits : List Class) (c : Class),
      Class.setMethods env parent usedTraits (Class.beforeMethods self pre parent usedTraits)
        = .ok c →
      ∀ f, f ∈ c.m_methods.m_list → hasAttr f.m_attrs AttrAbstract = false := by
    intro usedTraits c hc f hf
    obtain ⟨r, hb, hchk, hm, -⟩ := Class.setMethods_ok hc
    obtain ⟨-, -, k5, -⟩ := Class.beforeMethods_fields self pre parent usedTraits
    obtain ⟨-, -, -, -, c5⟩ := Class.buildMethods_core hb
    have hattr : r.1.attrs = pre.m_attrs := by
      unfold Class.attrs; rw [c5, k5]
    unfold Class.checkConcrete at hchk
    rw [hattr, hconcrete] at hchk
    simp only [Bool.not_false, if_true] at hchk
    rw [Class.checkNoAbstract_ok] at hchk
    rw [hm] at hf
    obtain ⟨g, hg, ha, -⟩ := Class.setMethodSlots_attrs _ _ _ hf
    rw [ha]
    exact hchk g hg
  refine ⟨key, ?_, ?_⟩
  · intro cls hcls f hf
    obtain ⟨usedTraits, c3, -, h2, hm⟩ := Class.newClass_setMethods hcls
    rw [hm] at hf
    exact key usedTraits c3 h2 f hf
  · intro usedTraits r hl hb hex
    obtain ⟨-, k2, k5, -⟩ := Class.beforeMethods_fields self pre parent usedTraits
    obtain ⟨-, c2, -, -, c5⟩ := Class.buildMethods_core hb
    have hattr : r.1.attrs = pre.m_attrs := by
      unfold Class.attrs; rw [c5, k5]
    have hfail : ∃ name, Class.checkConcrete r.1 r.2 = .error (.containsAbstract pre.m_name name) := by
      unfold Class.checkConcrete
      rw [hattr, hconcrete, c2, k2]
      simp only [Bool.not_false, if_true]
      obtain ⟨f, hf, hfa⟩ := hex
      generalize r.2.m_list = l at hf
      induction l with
      | nil => cases hf
      | cons g rest ih =>
        rw [Class.checkNoAbstract]
        by_cases hg : hasAttr g.m_attrs AttrAbstract = true
        · exact ⟨g.m_name, by simp [hg]⟩
        · rw [List.mem_cons] at hf
          rcases hf with hf | hf
          · subst hf; exact absurd hfa hg
          · simp only [hg, Bool.false_eq_true, if_false]
            exact ih hf
    obtain ⟨name, hname⟩ := hfail
    have hsm : Class.setMethods env parent usedTraits
        (Class.beforeMethods self pre parent usedTraits)
        = .error (.containsAbstract pre.m_name name) := by
      unfold Class.setMethods
      rw [hb]
      simp only [hname]
    exact ⟨⟨name, hsm⟩, Class.newClass_fails_of_setMethods hl hsm⟩

/-! ## Indexed string maps -/

theorem IndexedStringMap.lookup_some {α : Type} {cs : Bool} {m : IndexedStringMap α cs}
    {name : String} {i : Nat} {v : α} (h : m.lookup name = some (i, v)) :
    m.m_list[i]? = some v ∧ ∃ k, (k, i) ∈ m.m_map ∧ keyEq cs k name = true := by
  unfold IndexedStringMap.lookup at h
  cases hf : m.find name with
  | none => simp [hf] at h
  | some j =>
    simp only [hf] at h
    cases hg : m.m_list[j]? with
    | none => simp [hg] at h
    | some w =>
      simp only [hg, Option.some.injEq, Prod.mk.injEq] at h
      obtain ⟨hji, hwv⟩ := h
      subst hji hwv
      refine ⟨hg, ?_⟩
      unfold IndexedStringMap.find at hf
      cases hfind : List.find? (fun e => keyEq cs e.1 name) m.m_map with
      | none => simp [hfind] at hf
      | some e =>
        simp only [hfind, Option.map_some', Option.some.injEq] at hf
        have hmem := List.mem_of_find?_eq_some hfind
        have hp := List.find?_some hfind
        refine ⟨e.1, ?_, hp⟩
        rw [← hf]
        exact hmem

theorem isame_symm (a b : String) : isame a b = isame b a := by
  unfold isame
  by_cases h : foldCase a = foldCase b
  · simp [h]
  · have h2 : ¬ foldCase b = foldCase a := fun e => h e.symm
    simp [h, h2]

theorem isame_trans {a b c : String} (h1 : isame a b = true) (h2 : isame b c = true) :
    isame a c = true := by
  unfold isame at *
  simp only [beq_iff_eq] at *
  exact h1.trans h2

theorem isame_refl (a : String) : isame a a = true := by
  unfold isame; simp

/-! ## Override checks -/

theorem Class.methodOverrideCheck_ok {env : Env} {this : Class} {parentMethod method : Func}
    (h : Class.methodOverrideCheck env this parentMethod method = .ok ()) :
    method.m_isGenerated = true ∨
      (visOf method.m_attrs ≤ visOf parentMethod.m_attrs ∧
       hasAttr method.m_attrs AttrAbstract = false ∧
       (method.m_attrs &&& AttrStatic) = (parentMethod.m_attrs &&& AttrStatic) ∧
       (hasAttr parentMethod.m_attrs AttrFinal = true → this.m_preClass.isMockClass = true)) := by
  unfold Class.methodOverrideCheck at h
  by_cases hg : method.m_isGenerated = true
  · exact Or.inl hg
  · right
    rw [if_neg hg] at h
    split at h
    · cases h
    · rename_i hfin
      split at h
      · cases h
      · rename_i habs
        split at h
        · cases h
        · rename_i hvis
          split at h
          · cases h
          · rename_i hst
            refine ⟨by omega, by simpa using habs, by simpa using hst, ?_⟩
            intro hf
            simp only [hf, Bool.true_and, Bool.not_eq_true', Bool.not_eq_false] at hfin
            exact hfin

theorem Class.methodOverrideCheck_narrower {env : Env} {this : Class}
    {parentMethod method : Func} (hg : method.m_isGenerated = false)
    (hv : visOf method.m_attrs > visOf parentMethod.m_attrs) :
    ∃ e, Class.methodOverrideCheck env this parentMethod method = .error e := by
  cases h : Class.methodOverrideCheck env this parentMethod method with
  | error e => exact ⟨e, rfl⟩
  | ok u =>
    rcases Class.methodOverrideCheck_ok h with h1 | h1
    · rw [hg] at h1; cases h1
    · omega

theorem MethodsInv.mono {R S : Func → Func → Prop} {G : List Func} {b : MethodMap}
    (hRS : ∀ e g, R e g → S e g) (h : MethodsInv R G b) : MethodsInv S G b :=
  ⟨h.1, fun i e g he hg => ⟨hRS e g (h.2.1 i e g he hg).1, (h.2.1 i e g he hg).2⟩, h.2.2⟩

theorem MethodsInv.of_add {R : Func → Func → Prop} {G : List Func} {b : MethodMap}
    (h : MethodsInv R G b) (name : String) (v : Func) : MethodsInv R G (b.add name v) := by
  obtain ⟨h1, h2, h3⟩ := h
  refine ⟨?_, ?_, ?_⟩
  · simp only [IndexedStringMap.add, List.length_append, List.length_singleton]; omega
  · intro i e g he hg
    have hi : i < G.length := List.getElem?_lt_of_some hg
    simp only [IndexedStringMap.add] at he
    rw [List.getElem?_append_left (by omega)] at he
    exact h2 i e g he hg
  · intro k i g hk hg
    have hi : i < G.length := List.getElem?_lt_of_some hg
    simp only [IndexedStringMap.add, List.mem_cons, Prod.mk.injEq] at hk
    rcases hk with ⟨-, hk⟩ | hk
    · omega
    · exact h3 k i g hk hg

theorem MethodsInv.of_set {R : Func → Func → Prop} {G : List Func} {b : MethodMap}
    (h : MethodsInv R G b) (slot : Nat) (v : Func)
    (hv : ∀ g, G[slot]? = some g → R v g ∧ isame g.m_name v.m_name = true) :
    MethodsInv R G (b.set slot v) := by
  obtain ⟨h1, h2, h3⟩ := h
  refine ⟨?_, ?_, h3⟩
  · simp only [IndexedStringMap.set, List.length_set]; exact h1
  · intro i e g he hg
    simp only [IndexedStringMap.set] at he
    by_cases his : slot = i
    · subst his
      rw [List.getElem?_set_self'] at he
      cases hb : b.m_list[slot]? with
      | none => simp [hb] at he
      | some w =>
        simp [hb] at he
        subst he
        exact hv g hg
    · rw [List.getElem?_set_ne his] at he
      exact h2 i e g he hg

theorem Class.copyParentMethods_spec (l : List Func) :
    ∀ (i : Nat) (st : MethodMap × List Nat), st.1.m_list.length = i →
      (Class.copyParentMethods l i st).1.m_list = st.1.m_list ++ l ∧
      ∀ (k : String) (j : Nat), (k, j) ∈ (Class.copyParentMethods l i st).1.m_map →
        (k, j) ∈ st.1.m_map ∨ ∃ f, l[j - i]? = some f ∧ i ≤ j ∧ k = f.m_name := by
  induction l with
  | nil =>
    intro i st _
    simp [Class.copyParentMethods]
  | cons f rest ih =>
    intro i st hlen
    rw [Class.copyParentMethods]
    have hlen2 : (st.1.add f.m_name f).m_list.length = i + 1 := by
      simp [IndexedStringMap.add, hlen]
    obtain ⟨ih1, ih2⟩ := ih (i + 1) (st.1.add f.m_name f,
      if hasAttr f.m_attrs AttrClone || (!hasAttr f.m_attrs AttrPrivate && f.m_hasStaticLocals)
      then st.2 ++ [i] else st.2) hlen2
    constructor
    · rw [ih1]; simp [IndexedStringMap.add]
    · intro k j hk
      rcases ih2 k j hk with hk2 | ⟨g, hg1, hg2, hg3⟩
      · simp only [IndexedStringMap.add, List.mem_cons, Prod.mk.injEq] at hk2
        rcases hk2 with ⟨hk3, hj⟩ | hk2
        · right
          refine ⟨f, ?_, by omega, hk3⟩
          have : j - i = 0 := by omega
          rw [this]; simp
        · exact Or.inl hk2
      · right
        refine ⟨g, ?_, by omega, hg3⟩
        have : j - i = (j - (i + 1)) + 1 := by omega
        rw [this]
        simpa using hg1

theorem Class.inheritedMethods_inv (pre : PreClass) (parent : Option Class) :
    MethodsInv (OverrideRelOwn pre) (Class.parentMethodList parent)
      (Class.inheritedMethods parent).1 := by
  cases parent with
  | none =>
    refine ⟨by simp [Class.parentMethodList], ?_, ?_⟩
    · intro i e g _ hg; simp [Class.parentMethodList] at hg
    · intro k i g _ hg; simp [Class.parentMethodList] at hg
  | some p =>
    obtain ⟨h1', h2'⟩ := Class.copyParentMethods_spec p.m_methods.m_list 0
      (IndexedStringMap.empty, []) rfl
    have h1 : (Class.copyParentMethods p.m_methods.m_list 0
        (IndexedStringMap.empty, [])).1.m_list = p.m_methods.m_list := by
      rw [h1']; rfl
    have h2 : ∀ (k : String) (j : Nat), (k, j) ∈ (Class.copyParentMethods p.m_methods.m_list 0
        (IndexedStringMap.empty, [])).1.m_map →
        ∃ f, p.m_methods.m_list[j]? = some f ∧ k = f.m_name := by
      intro k j hk
      rcases h2' k j hk with hk2 | ⟨f, hf1, -, hf3⟩
      · simp [IndexedStringMap.empty] at hk2
      · exact ⟨f, by simpa using hf1, hf3⟩
    refine ⟨?_, ?_, ?_⟩
    · simp only [Class.inheritedMethods, Class.parentMethodList]
      rw [h1]
    · intro i e g he hg
      simp only [Class.inheritedMethods, Class.parentMethodList] at he hg
      rw [h1, hg] at he
      injection he with he
      subst he
      exact ⟨Or.inl (Nat.le_refl _), isame_refl _⟩
    · intro k i g hk hg
      simp only [Class.inheritedMethods, Class.parentMethodList] at hk hg
      obtain ⟨f, hf1, hf3⟩ := h2 k i hk
      rw [hg] at hf1
      injection hf1 with hf1
      subst hf1
      exact hf3

theorem Class.overlay_fields (this : Class) (parentMethod f : Func) :
    (Class.overlay this parentMethod f).m_attrs = f.m_attrs ∧
    (Class.overlay this parentMethod f).m_name = f.m_name ∧
    (Class.overlay this parentMethod f).m_isGenerated = f.m_isGenerated ∧
    (Class.overlay this parentMethod f).m_cls = f.m_cls ∧
    (Class.overlay this parentMethod f).m_shared = f.m_shared := by
  simp [Class.overlay]

theorem Class.addOwnMethod_inv {env : Env} {this : Class} {pre : PreClass} {G : List Func}
    {method : Func} {b b' : MethodMap}
    (hm : method ∈ pre.m_methods) (hinv : MethodsInv (OverrideRelOwn pre) G b)
    (h : Class.addOwnMethod env this method b = .ok b') :
    MethodsInv (OverrideRelOwn pre) G b' := by
  unfold Class.addOwnMethod at h
  split at h
  · injection h with h; subst h; exact hinv
  · cases hl : b.lookup method.m_name with
    | none =>
      simp only [hl] at h
      injection h with h; subst h
      exact hinv.of_add _ _
    | some r =>
      obtain ⟨slot, pm⟩ := r
      simp only [hl] at h
      cases hc : Class.methodOverrideCheck env this pm method with
      | error e => simp [hc] at h
      | ok u =>
        simp only [hc] at h
        injection h with h; subst h
        apply hinv.of_set
        intro g hg
        obtain ⟨hpm, k, hk, hkeq⟩ := IndexedStringMap.lookup_some hl
        have hkg := hinv.2.2 k slot g hk hg
        subst hkg
        obtain ⟨hR, -⟩ := hinv.2.1 slot pm g hpm hg
        have hkeq' : isame g.m_name method.m_name = true := by simpa [keyEq] using hkeq
        obtain ⟨o1, o2, -, -, -⟩ := Class.overlay_fields this pm (method.clone (some this.m_self))
        refine ⟨?_, by rw [o2]; exact hkeq'⟩
        unfold OverrideRelOwn
        rw [o1]
        rcases Class.methodOverrideCheck_ok hc with hgen | ⟨hvis, -⟩
        · exact Or.inr ⟨method, hm, hkeq', hgen⟩
        · rcases hR with hR | hR
          · exact Or.inl (Nat.le_trans hvis hR)
          · exact Or.inr hR

theorem Class.addOwnMethods_inv {env : Env} {this : Class} {pre : PreClass} {G : List Func}
    (l : List Func) :
    ∀ (b b' : MethodMap), (∀ m, m ∈ l → m ∈ pre.m_methods) →
      MethodsInv (OverrideRelOwn pre) G b → Class.addOwnMethods env this l b = .ok b' →
      MethodsInv (OverrideRelOwn pre) G b' := by
  induction l with
  | nil =>
    intro b b' _ hinv h
    rw [Class.addOwnMethods] at h
    injection h with h; subst h; exact hinv
  | cons m rest ih =>
    intro b b' hsub hinv h
    rw [Class.addOwnMethods] at h
    cases h1 : Class.addOwnMethod env this m b with
    | error e => simp [h1] at h
    | ok b1 =>
      simp only [h1] at h
      exact ih b1 b' (fun x hx => hsub x (List.mem_cons_of_mem _ hx))
        (Class.addOwnMethod_inv (hsub m (List.mem_cons_self _ _)) hinv h1) h

theorem Class.importTraitMethod_inv {env : Env} {this : Class} {pre : PreClass}
    {G : List Func} {tm : TraitMethod} {methName : String} {b b' : MethodMap}
    (hinv : MethodsInv (OverrideRel this.m_self pre) G b)
    (h : Class.importTraitMethod env this tm methName b = .ok b') :
    MethodsInv (OverrideRel this.m_self pre) G b' := by
  unfold Class.importTraitMethod at h
  simp only [] at h
  split at h
  · injection h with h; subst h; exact hinv
  · cases hl : b.lookup methName with
    | none =>
      simp only [hl] at h
      injection h with h; subst h
      exact hinv.of_add _ _
    | some r =>
      obtain ⟨slot, pm⟩ := r
      simp only [hl] at h
      split at h
      · injection h with h; subst h; exact hinv
      · rename_i hcls
        split at h
        · cases h
        · rename_i hc
          injection h with h; subst h
          apply hinv.of_set
          intro g hg
          obtain ⟨hpm, k, hk, hkeq⟩ := IndexedStringMap.lookup_some hl
          have hkg := hinv.2.2 k slot g hk hg
          subst hkg
          obtain ⟨hR, -⟩ := hinv.2.1 slot pm g hpm hg
          have hkeq' : isame g.m_name methName = true := by simpa [keyEq] using hkeq
          obtain ⟨o1, o2, o3, o4, -⟩ := Class.overlay_fields this pm
            (((tm.m_method.clone (some this.m_self)).setName methName).setAttrs
              (Class.importModifiers tm.m_method tm.m_modifiers))
          refine ⟨?_, by rw [o2]; exact hkeq'⟩
          unfold OverrideRel OverrideRelOwn
          rw [o1, o3, o4]
          rcases Class.methodOverrideCheck_ok hc with hgen | ⟨hvis, -⟩
          · exact Or.inr ⟨hgen, rfl⟩
          · rcases hR with hR | hR
            · left
              rcases hR with hR | hR
              · exact Or.inl (Nat.le_trans hvis hR)
              · exact Or.inr hR
            · exact absurd hR.2 hcls

theorem Class.importTraitMethodsLoop_inv {env : Env} {this : Class} {pre : PreClass}
    {G : List Func} (l : MethodToTraitListMap) :
    ∀ (b b' : MethodMap), MethodsInv (OverrideRel this.m_self pre) G b →
      Class.importTraitMethodsLoop env this l b = .ok b' →
      MethodsInv (OverrideRel this.m_self pre) G b' := by
  induction l with
  | nil =>
    intro b b' hinv h
    rw [Class.importTraitMethodsLoop] at h
    injection h with h; subst h; exact hinv
  | cons entry rest ih =>
    intro b b' hinv h
    rw [Class.importTraitMethodsLoop] at h
    cases h1 : Class.importTraitMethodsStep env this entry b with
    | error e => simp [h1] at h
    | ok b1 =>
      simp only [h1] at h
      refine ih b1 b' ?_ h
      unfold Class.importTraitMethodsStep at h1
      split at h1
      · injection h1 with h1; subst h1; exact hinv
      · split at h1
        · split at h1
          · injection h1 with h1; subst h1; exact hinv
          · cases h1
        · exact Class.importTraitMethod_inv hinv h1

theorem Class.recloneMethods_inv {this : Class} {pre : PreClass} {G : List Func}
    (l : List Nat) :
    ∀ (b : MethodMap), MethodsInv (OverrideRel this.m_self pre) G b →
      MethodsInv (OverrideRel this.m_self pre) G (Class.recloneMethods this l b) := by
  induction l with
  | nil => intro b hinv; exact hinv
  | cons slot rest ih =>
    intro b hinv
    rw [Class.recloneMethods]
    cases hg : b.get? slot with
    | none => simp only []; exact ih b hinv
    | some f =>
      simp only []
      split
      · rename_i hcls
        apply ih
        apply hinv.of_set
        intro g hgg
        obtain ⟨hR, hn⟩ := hinv.2.1 slot f g hg hgg
        refine ⟨?_, hn⟩
        rcases hR with hR | hR
        · exact Or.inl hR
        · exfalso
          simp [hR.2] at hcls
      · exact ih b hinv

theorem Class.importTraitMethods_inv {env : Env} {usedTraits : List Class} {this : Class}
    {pre : PreClass} {G : List Func} {b : MethodMap} {r : Class × MethodMap}
    (hinv : MethodsInv (OverrideRel this.m_self pre) G b)
    (h : Class.importTraitMethods env usedTraits this b = .ok r) :
    MethodsInv (OverrideRel this.m_self pre) G r.2 := by
  unfold Class.importTraitMethods at h
  cases hc : Class.traitCandidates env usedTraits this with
  | error e => simp [hc] at h
  | ok st =>
    simp only [hc] at h
    cases hl : Class.importTraitMethodsLoop env { this with m_traitAliases := st.1 } st.2 b with
    | error e => simp [hl] at h
    | ok b1 =>
      simp only [hl] at h
      injection h with h
      subst h
      exact @Class.importTraitMethodsLoop_inv env { this with m_traitAliases := st.1 } pre G
        st.2 b b1 hinv hl

/-- The builder of `setMethods` keeps the slots of the parent, and no entry in
them has narrowed its visibility unless it is generated or the class declares a
generated method of that name. -/
theorem Class.buildMethods_inv {env : Env} {parent : Option Class} {usedTraits : List Class}
    {this : Class} {r : Class × MethodMap}
    (h : Class.buildMethods env parent usedTraits this = .ok r) :
    MethodsInv (OverrideRel this.m_self this.m_preClass) (Class.parentMethodList parent) r.2 := by
  unfold Class.buildMethods at h
  cases ho : Class.addOwnMethods env this this.m_preClass.m_methods
      (Class.inheritedMethods parent).1 with
  | error e => simp [ho] at h
  | ok builder =>
    simp only [ho] at h
    have hown := @Class.addOwnMethods_inv env this this.m_preClass
      (Class.parentMethodList parent) this.m_preClass.m_methods _ _
      (fun m hm => hm) (Class.inheritedMethods_inv this.m_preClass parent) ho
    have hown2 : MethodsInv (OverrideRel this.m_self this.m_preClass)
        (Class.parentMethodList parent) builder :=
      hown.mono (fun e g hr => Or.inl hr)
    cases hi : Class.importTraitMethodsIfAny env usedTraits
        { this with m_traitsBeginIdx := builder.size } builder with
    | error e => simp [hi] at h
    | ok r1 =>
      simp only [hi] at h
      injection h with h
      subst h
      have himp : MethodsInv (OverrideRel this.m_self this.m_preClass)
          (Class.parentMethodList parent) r1.2 := by
        unfold Class.importTraitMethodsIfAny at hi
        split at hi
        · exact @Class.importTraitMethods_inv env usedTraits
            { this with m_traitsBeginIdx := builder.size } this.m_preClass
            (Class.parentMethodList parent) builder r1 hown2 hi
        · injection hi with hi
          subst hi
          exact hown2
      have hs : ({ r1.1 with m_traitsEndIdx := r1.2.size } : Class).m_self = this.m_self := by
        have := (Class.importTraitMethodsIfAny_core hi).1
        simpa using this
      have := @Class.recloneMethods_inv { r1.1 with m_traitsEndIdx := r1.2.size }
        this.m_preClass (Class.parentMethodList parent)
        (Class.inheritedMethods parent).2 r1.2 (by rw [hs]; exact himp)
      rw [hs] at this
      exact this

theorem Class.setMethodSlots_getElem? (l : List Func) :
    ∀ (i j : Nat), (Class.setMethodSlots l i)[j]? = (l[j]?).map (fun f => f.setMethodSlot (i + j)) := by
  induction l with
  | nil => intro i j; simp [Class.setMethodSlots]
  | cons f rest ih =>
    intro i j
    rw [Class.setMethodSlots]
    cases j with
    | zero => simp
    | succ n =>
      simp only [List.getElem?_cons_succ]
      rw [ih (i + 1) n]
      have : i + 1 + n = i + (n + 1) := by omega
      rw [this]

/-- C1, as stated, fails: `Gen extends Base` links although its own
(compiler-generated) method `get` is protected and takes the place of the
public `get` of `Base`. -/
theorem C1_counterexample :
    Class.newClass envBase 11 preGen (some exBase) = .ok exGen ∧
    exGen.m_methods.m_list.map (fun f => (f.m_name, visOf f.m_attrs, f.m_cls))
      = [("get", AttrProtected, some 11)] ∧
    exBase.m_methods.m_list.map (fun f => (f.m_name, visOf f.m_attrs))
      = [("get", AttrPublic)] ∧
    AttrProtected > AttrPublic :=
  ⟨rfl, rfl, rfl, by decide⟩

/-- C1 (amended): when a class links with the parent `p`, every slot of the
method table of `p` holds in the class a method of the same name up to case
whose visibility is equal to or wider than that of the method of `p`
(numerically not greater, `AttrPublic < AttrProtected < AttrPrivate`), provided
the method in the slot is not compiler-generated and the class declares no
compiler-generated method of that name.  And when a method of the class that
is not generated, or a trait method that is not generated, would take the place
of a method with a wider visibility, `addOwnMethod` or `importTraitMethod`
raises an error. -/
theorem C1_override_visibility (env : Env) (self : ClassId) (pre : PreClass) (p : Class) :
    (∀ (cls : Class), Class.newClass env self pre (some p) = .ok cls →
      ∀ (i : Nat) (f g : Func), cls.m_methods.m_list[i]? = some f →
        p.m_methods.m_list[i]? = some g → f.m_isGenerated = false →
        (∀ m, m ∈ pre.m_methods → isame g.m_name m.m_name = true → m.m_isGenerated = false) →
        visOf f.m_attrs ≤ visOf g.m_attrs ∧ isame g.m_name f.m_name = true) ∧
    (∀ (this : Class) (method : Func) (builder : MethodMap) (slot : Nat) (parentMethod : Func),
      builder.lookup method.m_name = some (slot, parentMethod) →
      (isSpecial method.m_name && (method.m_name == sd86ctor || method.m_name == sd86sinit ||
        method.m_name == sd86pinit)) = false →
      method.m_isGenerated = false →
      visOf method.m_attrs > visOf parentMethod.m_attrs →
      ∃ e, Class.addOwnMethod env this method builder = .error e) ∧
    (∀ (this : Class) (tm : TraitMethod) (methName : String) (builder : MethodMap) (slot : Nat)
      (existingMethod : Func),
      builder.lookup methName = some (slot, existingMethod) →
      existingMethod.m_cls ≠ some this.m_self →
      hasAttr tm.m_modifiers AttrAbstract = false →
      tm.m_method.m_isGenerated = false →
      visOf (Class.importModifiers tm.m_method tm.m_modifiers) > visOf existingMethod.m_attrs →
      ∃ e, Class.importTraitMethod env this tm methName builder = .error e) := by
  refine ⟨?_, ?_, ?_⟩
  · intro cls hcls i f g hf hg hfg hown
    obtain ⟨usedTraits, this0, r, -, s1, s2, -, -, hb, -, -, -, -, hm⟩ :=
      Class.newClass_methods hcls
    have hinv := Class.buildMethods_inv hb
    rw [s1, s2] at hinv
    rw [hm] at hf
    simp only [] at hf
    rw [Class.setMethodSlots_getElem?] at hf
    cases he : r.2.m_list[i]? with
    | none => simp [he] at hf
    | some e =>
      simp only [he, Option.map_some', Option.some.injEq] at hf
      subst hf
      obtain ⟨hR, hn⟩ := hinv.2.1 i e g he hg
      refine ⟨?_, hn⟩
      rcases hR with hR | hR
      · rcases hR with hR | hR
        · exact hR
        · obtain ⟨m, hm1, hm2, hm3⟩ := hR
          rw [hown m hm1 hm2] at hm3
          cases hm3
      · have : e.m_isGenerated = false := hfg
        rw [this] at hR
        cases hR.1
  · intro this method builder slot parentMethod hl hskip hgen hvis
    obtain ⟨e, he⟩ := @Class.methodOverrideCheck_narrower env this parentMethod method hgen hvis
    refine ⟨e, ?_⟩
    unfold Class.addOwnMethod
    rw [hskip]
    simp only [Bool.false_eq_true, if_false, hl, he]
  · intro this tm methName builder slot existingMethod hl hcls habs hgen hvis
    obtain ⟨e, he⟩ := @Class.methodOverrideCheck_narrower env this existingMethod
      (((tm.m_method.clone (some this.m_self)).setName methName).setAttrs
        (Class.importModifiers tm.m_method tm.m_modifiers)) hgen hvis
    refine ⟨e, ?_⟩
    unfold Class.importTraitMethod
    simp only [hl, habs, Bool.false_and, Bool.false_eq_true, if_false, hcls, he]

theorem exOther_linked : Class.newClass envChild 12 preOther (some exBase) = .ok exOther := by rfl

theorem heapOther_linked : LinkedHeap heapOther := by
  have h0 : LinkedHeap env0.classes := LinkedHeap.empty
  have h1 : LinkedHeap envBase.classes :=
    LinkedHeap.link env0 10 preBase none exBase h0 rfl (fun p hp => by cases hp) exBase_linked
  have h2 : LinkedHeap envChild.classes :=
    LinkedHeap.link envBase 11 preChild (some exBase) exChild h1 rfl
      (fun p hp => by injection hp with hp; subst hp; rfl) exChild_linked
  exact LinkedHeap.link envChild 12 preOther (some exBase) exOther h2 rfl
      (fun p hp => by injection hp with hp; subst hp; rfl) exOther_linked

/-- Witness of C7: `Child` and `Other` both extend `Base` (addresses 11, 12 and
10); their ancestor vectors share `Base` at depth 0 and differ at depth 1, and
`commonAncestor` returns `Base`. -/
theorem C7_common_ancestor_witness :
    exChild.m_classVec = [10, 11] ∧ exOther.m_classVec = [10, 12] ∧
    Class.commonAncestor exChild exOther = some 10 :=
  ⟨rfl, rfl,
    (C7_common_ancestor heapOther heapOther_linked 11 12 exChild exOther rfl rfl).1 0 10 rfl rfl
      (Or.inl (by decide))⟩

/-- Witness of C9: `Base` is concrete and its linked method table has no
abstract entry. -/
theorem C9_no_abstract_in_concrete_witness :
    hasAttr preBase.m_attrs (AttrTrait ||| AttrInterface ||| AttrAbstract) = false ∧
    ∀ f, f ∈ exBase.m_methods.m_list → hasAttr f.m_attrs AttrAbstract = false :=
  ⟨by decide,
    (C9_no_abstract_in_concrete env0 10 preBase none (by decide)).2.1 exBase exBase_linked⟩

/-! ## Interface methods -/

theorem Class.checkInterfaceMethod_ok {env : Env} {this : Class} {imeth : Func}
    (h : Class.checkInterfaceMethod env this imeth = .ok ())
    (hs : isSpecial imeth.m_name = false)
    (hc : hasAttr this.attrs (AttrTrait ||| AttrInterface ||| AttrAbstract) = false) :
    ∃ meth, this.lookupMethod imeth.m_name = some meth ∧
      hasAttr meth.m_attrs AttrAbstract = false ∧
      hasAttr meth.m_attrs AttrStatic = hasAttr imeth.m_attrs AttrStatic ∧
      (hasAttr imeth.m_attrs AttrPublic = true → hasAttr meth.m_attrs AttrPublic = true) ∧
      env.parametersCompat this.m_preClass meth imeth = true := by
  unfold Class.checkInterfaceMethod at h
  simp only [hs, Bool.false_eq_true, if_false, hc] at h
  cases hl : this.lookupMethod imeth.m_name with
  | none => simp [hl] at h
  | some meth =>
    simp only [hl] at h
    refine ⟨meth, rfl, ?_⟩
    split at h
    · cases h
    · rename_i habs
      split at h
      · cases h
      · rename_i hst
        split at h
        · cases h
        · rename_i hpub
          split at h
          · rename_i hpc
            refine ⟨by simpa using habs, by simpa using hst, ?_, hpc⟩
            intro hip
            simpa [hip] using hpub
          · cases h

theorem Class.checkInterfaceMethodList_ok {env : Env} {this : Class} (l : List Func)
    (h : Class.checkInterfaceMethodList env this l = .ok ()) :
    ∀ imeth, imeth ∈ l → Class.checkInterfaceMethod env this imeth = .ok () := by
  induction l with
  | nil => intro imeth hm; cases hm
  | cons f rest ih =>
    rw [Class.checkInterfaceMethodList] at h
    cases h1 : Class.checkInterfaceMethod env this f with
    | error e => simp [h1] at h
    | ok u =>
      simp only [h1] at h
      intro imeth hm
      rw [List.mem_cons] at hm
      rcases hm with hm | hm
      · subst hm; exact h1
      · exact ih h imeth hm

theorem Class.checkInterfaceMethodsLoop_ok {env : Env} {this : Class} (l : List ClassId)
    (h : Class.checkInterfaceMethodsLoop env this l = .ok ()) :
    ∀ i iface, i ∈ l → env.classes i = some iface →
      Class.checkInterfaceMethodList env this iface.m_methods.m_list = .ok () := by
  induction l with
  | nil => intro i iface hm; cases hm
  | cons j rest ih =>
    rw [Class.checkInterfaceMethodsLoop] at h
    cases h1 : env.deref j with
    | error e => simp [h1] at h
    | ok jc =>
      simp only [h1] at h
      cases h2 : Class.checkInterfaceMethodList env this jc.m_methods.m_list with
      | error e => simp [h2] at h
      | ok u =>
        simp only [h2] at h
        intro i iface hm hi
        rw [List.mem_cons] at hm
        rcases hm with hm | hm
        · subst hm
          unfold Env.deref at h1
          rw [hi] at h1
          injection h1 with h1
          subst h1
          exact h2
        · exact ih h i iface hm hi

/-! ## More on indexed string maps -/

theorem IndexedStringMap.find_add {α : Type} {cs : Bool} (m : IndexedStringMap α cs)
    (k : String) (v : α) (n : String) :
    (m.add k v).find n = if keyEq cs k n = true then some m.m_list.length else m.find n := by
  unfold IndexedStringMap.find IndexedStringMap.add
  simp only [List.find?_cons]
  by_cases h : keyEq cs k n = true
  · simp [h]
  · simp [h]

theorem IndexedStringMap.find_set {α : Type} {cs : Bool} (m : IndexedStringMap α cs)
    (i : Nat) (v : α) (n : String) : (m.set i v).find n = m.find n := rfl

theorem IndexedStringMap.find_addUnnamed {α : Type} {cs : Bool} (m : IndexedStringMap α cs)
    (v : α) (n : String) : (m.addUnnamed v).find n = m.find n := rfl

theorem IndexedStringMap.lookup_eq_some {α : Type} {cs : Bool} {m : IndexedStringMap α cs}
    {n : String} {i : Nat} {v : α} :
    m.lookup n = some (i, v) ↔ m.find n = some i ∧ m.m_list[i]? = some v := by
  unfold IndexedStringMap.lookup
  cases hf : m.find n with
  | none => simp
  | some j =>
    simp only [Option.some.injEq]
    cases hg : m.m_list[j]? with
    | none =>
      constructor
      · intro h; cases h
      · rintro ⟨h1, h2⟩
        subst h1
        rw [hg] at h2
        cases h2
    | some w =>
      simp only [Option.some.injEq, Prod.mk.injEq]
      constructor
      · rintro ⟨h1, h2⟩
        subst h1 h2
        exact ⟨rfl, hg⟩
      · rintro ⟨h1, h2⟩
        subst h1
        rw [hg] at h2
        injection h2 with h2
        exact ⟨rfl, h2⟩

theorem IndexedStringMap.lookup_eq_none {α : Type} {cs : Bool} {m : IndexedStringMap α cs}
    (hwf : m.WF) {n : String} : m.lookup n = none ↔ m.find n = none := by
  unfold IndexedStringMap.lookup
  cases hf : m.find n with
  | none => simp
  | some j =>
    simp only [reduceCtorEq, iff_false]
    unfold IndexedStringMap.find at hf
    cases hfind : List.find? (fun e => keyEq cs e.1 n) m.m_map with
    | none => simp [hfind] at hf
    | some e =>
      simp only [hfind, Option.map_some', Option.some.injEq] at hf
      have hlt := hwf.1 e (List.mem_of_find?_eq_some hfind)
      rw [hf] at hlt
      have : ∃ w, m.m_list[j]? = some w := ⟨m.m_list[j], List.getElem?_eq_getElem hlt⟩
      obtain ⟨w, hw⟩ := this
      simp [hw]

theorem IndexedStringMap.lookup_add_self {α : Type} {cs : Bool} (m : IndexedStringMap α cs)
    (k : String) (v : α) (n : String) (h : keyEq cs k n = true) :
    (m.add k v).lookup n = some (m.m_list.length, v) := by
  rw [IndexedStringMap.lookup_eq_some, IndexedStringMap.find_add, if_pos h]
  exact ⟨rfl, by simp [IndexedStringMap.add]⟩

theorem IndexedStringMap.lookup_add_other {α : Type} {cs : Bool} (m : IndexedStringMap α cs)
    (k : String) (v : α) (n : String) (h : keyEq cs k n = false) {r : Nat × α}
    (hl : m.lookup n = some r) : (m.add k v).lookup n = some r := by
  obtain ⟨i, w⟩ := r
  rw [IndexedStringMap.lookup_eq_some] at hl ⊢
  rw [IndexedStringMap.find_add]
  simp only [h, Bool.false_eq_true, if_false]
  refine ⟨hl.1, ?_⟩
  have hi := List.getElem?_lt_of_some hl.2
  simp only [IndexedStringMap.add]
  rw [List.getElem?_append_left hi]
  exact hl.2

theorem IndexedStringMap.lookup_set_same {α : Type} {cs : Bool} (m : IndexedStringMap α cs)
    (n : String) (i : Nat) (e v : α) (hl : m.lookup n = some (i, e)) :
    (m.set i v).lookup n = some (i, v) := by
  rw [IndexedStringMap.lookup_eq_some] at hl ⊢
  refine ⟨hl.1, ?_⟩
  simp only [IndexedStringMap.set]
  rw [List.getElem?_set_self (List.getElem?_lt_of_some hl.2)]

theorem IndexedStringMap.lookup_set_other {α : Type} {cs : Bool} (m : IndexedStringMap α cs)
    (n : String) (i s : Nat) (e v : α) (hl : m.lookup n = some (i, e)) (hs : s ≠ i) :
    (m.set s v).lookup n = some (i, e) := by
  rw [IndexedStringMap.lookup_eq_some] at hl ⊢
  refine ⟨hl.1, ?_⟩
  simp only [IndexedStringMap.set]
  rw [List.getElem?_set_ne hs]
  exact hl.2

theorem IndexedStringMap.find_congr {α : Type} (m : IndexedStringMap α false)
    {n n' : String} (h : isame n n' = true) : m.find n = m.find n' := by
  unfold IndexedStringMap.find
  have : (fun e : String × Nat => keyEq false e.1 n) = (fun e => keyEq false e.1 n') := by
    funext e
    unfold keyEq isame at *
    simp only [Bool.false_eq_true, if_false]
    simp only [beq_iff_eq] at h
    rw [h]
  rw [this]

theorem IndexedStringMap.lookup_congr {α : Type} (m : IndexedStringMap α false)
    {n n' : String} (h : isame n n' = true) : m.lookup n = m.lookup n' := by
  unfold IndexedStringMap.lookup
  rw [IndexedStringMap.find_congr m h]

theorem IndexedStringMap.WF.empty {α : Type} {cs : Bool} :
    (IndexedStringMap.empty : IndexedStringMap α cs).WF := by
  constructor
  · intro x hx; simp [IndexedStringMap.empty] at hx
  · simp [IndexedStringMap.empty]

theorem IndexedStringMap.WF.add {α : Type} {cs : Bool} {m : IndexedStringMap α cs}
    (h : m.WF) (k : String) (v : α) : (m.add k v).WF := by
  constructor
  · intro x hx
    simp only [IndexedStringMap.add, List.mem_cons] at hx
    simp only [IndexedStringMap.add, List.length_append, List.length_singleton]
    rcases hx with hx | hx
    · subst hx; simp
    · have := h.1 x hx; omega
  · simp only [IndexedStringMap.add, List.pairwise_cons]
    refine ⟨?_, h.2⟩
    intro y hy
    have := h.1 y hy
    simp only [ne_eq]
    omega

theorem IndexedStringMap.WF.addUnnamed {α : Type} {cs : Bool} {m : IndexedStringMap α cs}
    (h : m.WF) (v : α) : (m.addUnnamed v).WF := by
  constructor
  · intro x hx
    have := h.1 x hx
    simp only [IndexedStringMap.addUnnamed, List.length_append, List.length_singleton]
    omega
  · exact h.2

theorem IndexedStringMap.WF.set {α : Type} {cs : Bool} {m : IndexedStringMap α cs}
    (h : m.WF) (i : Nat) (v : α) : (m.set i v).WF := by
  constructor
  · intro x hx
    have := h.1 x hx
    simpa [IndexedStringMap.set] using this
  · exact h.2

/-- In a well-formed map two names that are bound to the same index match one
and the same key. -/
theorem IndexedStringMap.WF.same_slot {α : Type} {cs : Bool} {m : IndexedStringMap α cs}
    (h : m.WF) {n1 n2 : String} {i : Nat} (h1 : m.find n1 = some i) (h2 : m.find n2 = some i) :
    ∃ k, keyEq cs k n1 = true ∧ keyEq cs k n2 = true := by
  unfold IndexedStringMap.find at h1 h2
  cases hf1 : List.find? (fun e => keyEq cs e.1 n1) m.m_map with
  | none => simp [hf1] at h1
  | some e1 =>
    cases hf2 : List.find? (fun e => keyEq cs e.1 n2) m.m_map with
    | none => simp [hf2] at h2
    | some e2 =>
      simp only [hf1, Option.map_some', Option.some.injEq] at h1
      simp only [hf2, Option.map_some', Option.some.injEq] at h2
      have m1 := List.mem_of_find?_eq_some hf1
      have m2 := List.mem_of_find?_eq_some hf2
      have p1 := List.find?_some hf1
      have p2 := List.find?_some hf2
      have heq : e1 = e2 := by
        by_contra hne
        exact List.Pairwise.forall (fun x y hxy => fun e => hxy e.symm) h.2 m1 m2 hne
          (h1.trans h2.symm)
      subst heq
      exact ⟨e1.1, p1, p2⟩

/-! ## Special names and case folding -/

theorem Char.toLower_eq_digit (c d : Char) (hd : d.toNat < 65) :
    c.toLower = d ↔ c = d := by
  unfold Char.toLower
  simp only []
  split
  · rename_i h
    have hc : c = Char.ofNat c.toNat := (Char.ofNat_toNat c).symm
    constructor
    · intro he
      exfalso
      have h2 : (Char.ofNat (c.toNat + 32)).toNat = c.toNat + 32 := by
        generalize c.toNat = n at h
        obtain ⟨h1, h2⟩ := h
        interval_cases n <;> rfl
      rw [he] at h2
      omega
    · intro he
      subst he
      omega
  · exact Iff.rfl

/-- The test of `isSpecial` on a list of characters. -/
theorem starts86_eq (l : List Char) :
    List.isPrefixOf ("86".data) l =
      (match l with
       | a :: b :: _ => a == '8' && b == '6'
       | _ => false) := by
  have : "86".data = ['8', '6'] := rfl
  rw [this]
  cases l with
  | nil => rfl
  | cons a t =>
    cases t with
    | nil => simp [List.isPrefixOf]
    | cons b t2 =>
      have e1 : ('8' == a) = (a == '8') := by
        by_cases ha : a = '8'
        · subst ha; rfl
        · have ha2 : ¬ '8' = a := fun e => ha e.symm
          simp [ha, ha2]
      have e2 : ('6' == b) = (b == '6') := by
        by_cases hb : b = '6'
        · subst hb; rfl
        · have hb2 : ¬ '6' = b := fun e => hb e.symm
          simp [hb, hb2]
      simp only [List.isPrefixOf, e1, e2, Bool.and_true]

theorem isSpecial_foldCase (s : String) : isSpecial (foldCase s) = isSpecial s := by
  unfold isSpecial foldCase
  rw [starts86_eq, starts86_eq]
  simp only []
  cases hs : s.data with
  | nil => rfl
  | cons a t =>
    cases t with
    | nil => rfl
    | cons b t2 =>
      simp only [List.map_cons]
      have ha : (a.toLower == '8') = (a == '8') := by
        have := Char.toLower_eq_digit a '8' (by decide)
        by_cases h : a = '8'
        · simp [h, this.mpr h]
        · have h2 : ¬ a.toLower = '8' := fun e => h (this.mp e)
          simp [h, h2]
      have hb : (b.toLower == '6') = (b == '6') := by
        have := Char.toLower_eq_digit b '6' (by decide)
        by_cases h : b = '6'
        · simp [h, this.mpr h]
        · have h2 : ¬ b.toLower = '6' := fun e => h (this.mp e)
          simp [h, h2]
      rw [ha, hb]

theorem isSpecial_congr {a b : String} (h : isame a b = true) : isSpecial a = isSpecial b := by
  unfold isame at h
  simp only [beq_iff_eq] at h
  rw [← isSpecial_foldCase a, ← isSpecial_foldCase b, h]

/-! ## Methods of the class itself in the method table -/

theorem OwnEntry.congr {self : ClassId} {pre : PreClass} {n n' : String} {e : Func}
    (h : OwnEntry self pre n e) (hn : isame n n' = true) : OwnEntry self pre n' e := by
  obtain ⟨h1, m, hm, hi, rest⟩ := h
  exact ⟨h1, m, hm, isame_trans hi hn, rest⟩

theorem ownEntry_clone (self : ClassId) (pre : PreClass) (m v : Func)
    (hm : m ∈ pre.m_methods) (h1 : v.m_cls = some self) (h2 : v.m_name = m.m_name)
    (h3 : v.m_attrs = m.m_attrs) (h4 : v.m_shared = m.m_shared)
    (h5 : v.m_preClass = m.m_preClass) (h6 : v.m_isGenerated = m.m_isGenerated) :
    OwnEntry self pre m.m_name v :=
  ⟨h1, m, hm, isame_refl _, h2, h3, h4, h5, h6⟩

theorem Class.addOwnMethod_ownAt {env : Env} {this : Class} {pre : PreClass}
    {m2 : Func} {b b' : MethodMap} (hwf : b.WF) (hm : m2 ∈ pre.m_methods)
    (h : Class.addOwnMethod env this m2 b = .ok b') :
    b'.WF ∧ (∀ name, OwnAt this.m_self pre b name → OwnAt this.m_self pre b' name) ∧
    (skippedOwnMethod m2 = false → OwnAt this.m_self pre b' m2.m_name) := by
  unfold Class.addOwnMethod at h
  by_cases hskip : skippedOwnMethod m2 = true
  · have hskip' := hskip
    unfold skippedOwnMethod at hskip'
    rw [if_pos hskip'] at h
    injection h with h; subst h
    exact ⟨hwf, fun name hn => hn, fun hf => by rw [hskip] at hf; cases hf⟩
  · have hskip' := hskip
    unfold skippedOwnMethod at hskip'
    rw [if_neg hskip'] at h
    cases hl : b.lookup m2.m_name with
    | none =>
      simp only [hl] at h
      injection h with h; subst h
      have hv : OwnEntry this.m_self pre m2.m_name
          (((m2.clone (some this.m_self)).setBaseCls this.m_self).setHasPrivateAncestor false) :=
        ownEntry_clone _ _ m2 _ hm rfl rfl rfl rfl rfl rfl
      refine ⟨hwf.add _ _, ?_, ?_⟩
      · intro name hn
        obtain ⟨i, e, hle, hoe⟩ := hn
        by_cases hk : keyEq false m2.m_name name = true
        · refine ⟨_, _, IndexedStringMap.lookup_add_self b _ _ name hk, ?_⟩
          exact hv.congr (by simpa [keyEq] using hk)
        · exact ⟨i, e, IndexedStringMap.lookup_add_other b _ _ name (by simpa using hk) hle, hoe⟩
      · intro _
        exact ⟨_, _, IndexedStringMap.lookup_add_self b _ _ m2.m_name
          (by simp [keyEq, isame_refl]), hv⟩
    | some r =>
      obtain ⟨slot, pm⟩ := r
      simp only [hl] at h
      cases hc : Class.methodOverrideCheck env this pm m2 with
      | error e => simp [hc] at h
      | ok u =>
        simp only [hc] at h
        injection h with h; subst h
        obtain ⟨o1, o2, o3, o4, o5⟩ := Class.overlay_fields this pm (m2.clone (some this.m_self))
        have hv : OwnEntry this.m_self pre m2.m_name
            (Class.overlay this pm (m2.clone (some this.m_self))) :=
          ownEntry_clone _ _ m2 _ hm (by rw [o4]; rfl) (by rw [o2]; rfl) (by rw [o1]; rfl)
            (by rw [o5]; rfl) (by simp [Class.overlay, Func.clone]) (by rw [o3]; rfl)
        refine ⟨hwf.set _ _, ?_, ?_⟩
        · intro name hn
          obtain ⟨i, e, hle, hoe⟩ := hn
          by_cases hs : slot = i
          · subst hs
            refine ⟨slot, _, IndexedStringMap.lookup_set_same b name slot e _ hle, ?_⟩
            have f1 := (IndexedStringMap.lookup_eq_some.mp hl).1
            have f2 := (IndexedStringMap.lookup_eq_some.mp hle).1
            obtain ⟨k, hk1, hk2⟩ := hwf.same_slot f1 f2
            have hk1' : isame k m2.m_name = true := by simpa [keyEq] using hk1
            have hk2' : isame k name = true := by simpa [keyEq] using hk2
            rw [isame_symm] at hk1'
            exact hv.congr (isame_trans hk1' hk2')
          · exact ⟨i, e, IndexedStringMap.lookup_set_other b name i slot e _ hle hs, hoe⟩
        · intro _
          exact ⟨slot, _, IndexedStringMap.lookup_set_same b m2.m_name slot pm _ hl, hv⟩

theorem Class.addOwnMethods_ownAt {env : Env} {this : Class} {pre : PreClass} (l : List Func) :
    ∀ (b b' : MethodMap), b.WF → (∀ m, m ∈ l → m ∈ pre.m_methods) →
      Class.addOwnMethods env this l b = .ok b' →
      b'.WF ∧ (∀ name, OwnAt this.m_self pre b name → OwnAt this.m_self pre b' name) ∧
      (∀ m, m ∈ l → skippedOwnMethod m = false → OwnAt this.m_self pre b' m.m_name) := by
  induction l with
  | nil =>
    intro b b' hwf _ h
    rw [Class.addOwnMethods] at h
    injection h with h; subst h
    exact ⟨hwf, fun _ hn => hn, fun m hm => by cases hm⟩
  | cons m2 rest ih =>
    intro b b' hwf hsub h
    rw [Class.addOwnMethods] at h
    cases h1 : Class.addOwnMethod env this m2 b with
    | error e => simp [h1] at h
    | ok b1 =>
      simp only [h1] at h
      obtain ⟨w1, p1, q1⟩ := Class.addOwnMethod_ownAt hwf (hsub m2 (List.mem_cons_self _ _)) h1
      obtain ⟨w2, p2, q2⟩ := ih b1 b' w1 (fun x hx => hsub x (List.mem_cons_of_mem _ hx)) h
      refine ⟨w2, fun name hn => p2 name (p1 name hn), ?_⟩
      intro m hm hs
      rw [List.mem_cons] at hm
      rcases hm with hm | hm
      · subst hm; exact p2 _ (q1 hs)
      · exact q2 m hm hs

theorem Class.importTraitMethod_ownAt {env : Env} {this : Class} {pre : PreClass}
    {tm : TraitMethod} {methName : String} {b b' : MethodMap} (hwf : b.WF)
    (h : Class.importTraitMethod env this tm methName b = .ok b') :
    b'.WF ∧ ∀ name, OwnAt this.m_self pre b name → OwnAt this.m_self pre b' name := by
  unfold Class.importTraitMethod at h
  simp only [] at h
  split at h
  · injection h with h; subst h; exact ⟨hwf, fun _ hn => hn⟩
  · cases hl : b.lookup methName with
    | none =>
      simp only [hl] at h
      injection h with h; subst h
      refine ⟨hwf.add _ _, ?_⟩
      intro name hn
      obtain ⟨i, e, hle, hoe⟩ := hn
      have hk : keyEq false methName name = false := by
        by_contra hk
        have hk' : isame methName name = true := by simpa [keyEq] using hk
        rw [IndexedStringMap.lookup_congr b hk', hle] at hl
        cases hl
      exact ⟨i, e, IndexedStringMap.lookup_add_other b _ _ name hk hle, hoe⟩
    | some r =>
      obtain ⟨slot, pm⟩ := r
      simp only [hl] at h
      split at h
      · injection h with h; subst h; exact ⟨hwf, fun _ hn => hn⟩
      · rename_i hcls
        split at h
        · cases h
        · injection h with h; subst h
          refine ⟨hwf.set _ _, ?_⟩
          intro name hn
          obtain ⟨i, e, hle, hoe⟩ := hn
          have hs : slot ≠ i := by
            intro hs
            subst hs
            have f1 := (IndexedStringMap.lookup_eq_some.mp hl).2
            have f2 := (IndexedStringMap.lookup_eq_some.mp hle).2
            rw [f1] at f2
            injection f2 with f2
            subst f2
            exact hcls hoe.1
          exact ⟨i, e, IndexedStringMap.lookup_set_other b name i slot e _ hle hs, hoe⟩

theorem Class.importTraitMethodsLoop_ownAt {env : Env} {this : Class} {pre : PreClass}
    (l : MethodToTraitListMap) :
    ∀ (b b' : MethodMap), b.WF → Class.importTraitMethodsLoop env this l b = .ok b' →
      b'.WF ∧ ∀ name, OwnAt this.m_self pre b name → OwnAt this.m_self pre b' name := by
  induction l with
  | nil =>
    intro b b' hwf h
    rw [Class.importTraitMethodsLoop] at h
    injection h with h; subst h; exact ⟨hwf, fun _ hn => hn⟩
  | cons entry rest ih =>
    intro b b' hwf h
    rw [Class.importTraitMethodsLoop] at h
    cases h1 : Class.importTraitMethodsStep env this entry b with
    | error e => simp [h1] at h
    | ok b1 =>
      simp only [h1] at h
      have hstep : b1.WF ∧ ∀ name, OwnAt this.m_self pre b name → OwnAt this.m_self pre b1 name := by
        unfold Class.importTraitMethodsStep at h1
        split at h1
        · injection h1 with h1; subst h1; exact ⟨hwf, fun _ hn => hn⟩
        · split at h1
          · split at h1
            · injection h1 with h1; subst h1; exact ⟨hwf, fun _ hn => hn⟩
            · cases h1
          · exact Class.importTraitMethod_ownAt hwf h1
      obtain ⟨w2, p2⟩ := ih b1 b' hstep.1 h
      exact ⟨w2, fun name hn => p2 name (hstep.2 name hn)⟩

theorem Class.recloneMethods_ownAt {this : Class} {pre : PreClass} (l : List Nat) :
    ∀ (b : MethodMap), b.WF →
      (Class.recloneMethods this l b).WF ∧
      ∀ name, OwnAt this.m_self pre b name →
        OwnAt this.m_self pre (Class.recloneMethods this l b) name := by
  induction l with
  | nil => intro b hwf; exact ⟨hwf, fun _ hn => hn⟩
  | cons slot rest ih =>
    intro b hwf
    rw [Class.recloneMethods]
    cases hg : b.get? slot with
    | none => simp only []; exact ih b hwf
    | some f =>
      simp only []
      split
      · rename_i hcls
        obtain ⟨w2, p2⟩ := ih (b.set slot
          (f.clone (if hasAttr f.m_attrs AttrClone = true then some this.m_self else f.m_cls)))
          (hwf.set _ _)
        refine ⟨w2, ?_⟩
        intro name hn
        apply p2
        obtain ⟨i, e, hle, hoe⟩ := hn
        have hs : slot ≠ i := by
          intro hs
          subst hs
          have f2 := (IndexedStringMap.lookup_eq_some.mp hle).2
          unfold IndexedStringMap.get? at hg
          rw [hg] at f2
          injection f2 with f2
          subst f2
          simp [hoe.1] at hcls
        exact ⟨i, e, IndexedStringMap.lookup_set_other b name i slot e _ hle hs, hoe⟩
      · exact ih b hwf

theorem Class.copyParentMethods_wf (l : List Func) :
    ∀ (i : Nat) (st : MethodMap × List Nat), st.1.WF → (Class.copyParentMethods l i st).1.WF := by
  induction l with
  | nil => intro i st h; exact h
  | cons f rest ih =>
    intro i st h
    rw [Class.copyParentMethods]
    exact ih _ _ (h.add _ _)

theorem Class.inheritedMethods_wf (parent : Option Class) :
    (Class.inheritedMethods parent).1.WF := by
  cases parent with
  | none => exact IndexedStringMap.WF.empty
  | some p => exact Class.copyParentMethods_wf _ _ _ IndexedStringMap.WF.empty

/-- The builder of `setMethods` resolves the name of every method that the
class declares (other than `86ctor`, `86sinit`, `86pinit`) to a method of the
class itself. -/
theorem Class.buildMethods_ownAt {env : Env} {parent : Option Class} {usedTraits : List Class}
    {this : Class} {r : Class × MethodMap}
    (h : Class.buildMethods env parent usedTraits this = .ok r) :
    r.2.WF ∧ ∀ m, m ∈ this.m_preClass.m_methods → skippedOwnMethod m = false →
      OwnAt this.m_self this.m_preClass r.2 m.m_name := by
  unfold Class.buildMethods at h
  cases ho : Class.addOwnMethods env this this.m_preClass.m_methods
      (Class.inheritedMethods parent).1 with
  | error e => simp [ho] at h
  | ok builder =>
    simp only [ho] at h
    obtain ⟨w1, -, q1⟩ := @Class.addOwnMethods_ownAt env this this.m_preClass
      this.m_preClass.m_methods _ _ (Class.inheritedMethods_wf parent) (fun m hm => hm) ho
    cases hi : Class.importTraitMethodsIfAny env usedTraits
        { this with m_traitsBeginIdx := builder.size } builder with
    | error e => simp [hi] at h
    | ok r1 =>
      simp only [hi] at h
      injection h with h
      subst h
      have himp : r1.2.WF ∧ ∀ name, OwnAt this.m_self this.m_preClass builder name →
          OwnAt this.m_self this.m_preClass r1.2 name := by
        unfold Class.importTraitMethodsIfAny at hi
        split at hi
        · unfold Class.importTraitMethods at hi
          cases hc : Class.traitCandidates env usedTraits
              { this with m_traitsBeginIdx := builder.size } with
          | error e => simp [hc] at hi
          | ok st =>
            simp only [hc] at hi
            cases hl : Class.importTraitMethodsLoop env
                { this with m_traitsBeginIdx := builder.size, m_traitAliases := st.1 }
                st.2 builder with
            | error e => simp [hl] at hi
            | ok b1 =>
              simp only [hl] at hi
              injection hi with hi
              subst hi
              exact @Class.importTraitMethodsLoop_ownAt env
                { this with m_traitsBeginIdx := builder.size, m_traitAliases := st.1 }
                this.m_preClass st.2 builder b1 w1 hl
        · injection hi with hi
          subst hi
          exact ⟨w1, fun _ hn => hn⟩
      have hs : ({ r1.1 with m_traitsEndIdx := r1.2.size } : Class).m_self = this.m_self := by
        have := (Class.importTraitMethodsIfAny_core hi).1
        simpa using this
      obtain ⟨w3, p3⟩ := @Class.recloneMethods_ownAt { r1.1 with m_traitsEndIdx := r1.2.size }
        this.m_preClass (Class.inheritedMethods parent).2 r1.2 himp.1
      rw [hs] at p3
      exact ⟨w3, fun m hm hsk => p3 _ (himp.2 _ (q1 m hm hsk))⟩

theorem Class.lookup_setMethodSlots (b : MethodMap) (name : String) (i : Nat) (e : Func)
    (h : b.lookup name = some (i, e)) :
    ({ b with m_list := Class.setMethodSlots b.m_list 0 } : MethodMap).lookup name
      = some (i, e.setMethodSlot i) := by
  rw [IndexedStringMap.lookup_eq_some] at h ⊢
  refine ⟨h.1, ?_⟩
  simp only []
  rw [Class.setMethodSlots_getElem?, h.2]
  simp

theorem PreClass.hasMethod_iff (pre : PreClass) (name : String) :
    pre.hasMethod name = true ↔ ∃ m, m ∈ pre.m_methods ∧ isame m.m_name name = true := by
  unfold PreClass.hasMethod
  simp [List.any_eq_true]

theorem skippedOwnMethod_of_not_special {m : Func} (h : isSpecial m.m_name = false) :
    skippedOwnMethod m = false := by
  unfold skippedOwnMethod
  rw [h]
  rfl

/-- When a class links, its method table resolves every name under which the
class declares a method, if the name is not special, to a method of the class
itself. -/
theorem Class.newClass_own_method {env : Env} {self : ClassId} {pre : PreClass}
    {parent : Option Class} {cls : Class} (h : Class.newClass env self pre parent = .ok cls)
    {name : String} (hhas : pre.hasMethod name = true) (hs : isSpecial name = false) :
    ∃ f, cls.lookupMethod name = some f ∧ OwnEntry self pre name f := by
  obtain ⟨usedTraits, this0, r, -, s1, s2, -, -, hb, -, -, -, -, hm⟩ := Class.newClass_methods h
  obtain ⟨-, hown⟩ := Class.buildMethods_ownAt hb
  rw [s1, s2] at hown
  obtain ⟨m, hmem, hiso⟩ := (PreClass.hasMethod_iff pre name).mp hhas
  have hsm : isSpecial m.m_name = false := by rw [isSpecial_congr hiso]; exact hs
  obtain ⟨i, e, hl, hoe⟩ := hown m hmem (skippedOwnMethod_of_not_special hsm)
  rw [IndexedStringMap.lookup_congr r.2 hiso] at hl
  refine ⟨e.setMethodSlot i, ?_, ?_⟩
  · unfold Class.lookupMethod
    rw [hm, Class.lookup_setMethodSlots r.2 name i e hl]
    rfl
  · exact hoe.congr hiso

/-! ## The candidate map of the trait methods -/

theorem MethodToTraitListMap.update_plain_of_name {f : TraitMethodList → TraitMethodList}
    {name : String} (hn : isSpecial name = false) (m : MethodToTraitListMap)
    (h : CandidateKeysPlain m) : CandidateKeysPlain (MethodToTraitListMap.update f m name) := by
  induction m with
  | nil =>
    intro e he _
    simp only [MethodToTraitListMap.update, List.mem_singleton] at he
    subst he
    exact hn
  | cons x rest ih =>
    obtain ⟨k, l⟩ := x
    rw [MethodToTraitListMap.update]
    split
    · rename_i hk
      intro e he hne
      rw [List.mem_cons] at he
      rcases he with he | he
      · subst he
        rw [isSpecial_congr hk]; exact hn
      · exact h e (List.mem_cons_of_mem _ he) hne
    · intro e he hne
      rw [List.mem_cons] at he
      rcases he with he | he
      · subst he
        exact h (k, l) (List.mem_cons_self _ _) hne
      · exact ih (fun e' he' => h e' (List.mem_cons_of_mem _ he')) e he hne

theorem MethodToTraitListMap.update_plain_of_shrink {f : TraitMethodList → TraitMethodList}
    (name : String) (hf : f [] = []) (m : MethodToTraitListMap)
    (h : CandidateKeysPlain m) : CandidateKeysPlain (MethodToTraitListMap.update f m name) := by
  induction m with
  | nil =>
    intro e he hne
    simp only [MethodToTraitListMap.update, List.mem_singleton] at he
    subst he
    exact absurd hf hne
  | cons x rest ih =>
    obtain ⟨k, l⟩ := x
    rw [MethodToTraitListMap.update]
    split
    · intro e he hne
      rw [List.mem_cons] at he
      rcases he with he | he
      · subst he
        apply h (k, l) (List.mem_cons_self _ _)
        intro hl
        simp only [] at hl
        subst hl
        exact hne hf
      · exact h e (List.mem_cons_of_mem _ he) hne
    · intro e he hne
      rw [List.mem_cons] at he
      rcases he with he | he
      · subst he
        exact h (k, l) (List.mem_cons_self _ _) hne
      · exact ih (fun e' he' => h e' (List.mem_cons_of_mem _ he')) e he hne

theorem MethodToTraitListMap.update_congr_found {f g : TraitMethodList → TraitMethodList}
    (name : String) (m : MethodToTraitListMap) (l0 : TraitMethodList)
    (hfind : MethodToTraitListMap.find m name = some l0) (hfg : f l0 = g l0) :
    MethodToTraitListMap.update f m name = MethodToTraitListMap.update g m name := by
  induction m with
  | nil => simp [MethodToTraitListMap.find] at hfind
  | cons x rest ih =>
    obtain ⟨k, l⟩ := x
    rw [MethodToTraitListMap.update, MethodToTraitListMap.update]
    unfold MethodToTraitListMap.find at hfind
    rw [List.find?_cons] at hfind
    by_cases hk : isame k name = true
    · simp only [hk, Option.map_some', Option.some.injEq] at hfind
      subst hfind
      simp only [hk, if_true, hfg]
    · simp only [hk] at hfind
      have hk' : isame k name = false := by simpa using hk
      simp only [hk', Bool.false_eq_true, if_false]
      rw [ih hfind]

theorem Class.applyTraitPrecRuleLoop_nil (sel : String) (others : List String) :
    (Class.applyTraitPrecRuleLoop sel [] others).2.2 = [] := rfl

theorem Class.applyTraitPrecRule_plain {rule : PreClass.TraitPrecRule}
    {m m' : MethodToTraitListMap} (h : CandidateKeysPlain m)
    (hr : Class.applyTraitPrecRule rule m = .ok m') : CandidateKeysPlain m' := by
  unfold Class.applyTraitPrecRule at hr
  simp only [] at hr
  cases hf : MethodToTraitListMap.find m rule.m_methodName with
  | none => simp [hf] at hr
  | some methList =>
    simp only [hf] at hr
    split at hr
    · cases hr
    · split at hr
      · cases hr
      · injection hr with hr
        subst hr
        unfold MethodToTraitListMap.replace
        rw [MethodToTraitListMap.update_congr_found (g := fun l =>
          (Class.applyTraitPrecRuleLoop rule.m_selectedTraitName l rule.m_otherTraitNames).2.2)
          rule.m_methodName m methList hf rfl]
        exact MethodToTraitListMap.update_plain_of_shrink _ rfl m h

theorem Class.applyTraitPrecRules_plain (rules : List PreClass.TraitPrecRule) :
    ∀ (m m' : MethodToTraitListMap), CandidateKeysPlain m →
      Class.applyTraitPrecRules rules m = .ok m' → CandidateKeysPlain m' := by
  induction rules with
  | nil =>
    intro m m' h hr
    rw [Class.applyTraitPrecRules] at hr
    injection hr with hr; subst hr; exact h
  | cons r rest ih =>
    intro m m' h hr
    rw [Class.applyTraitPrecRules] at hr
    cases h1 : Class.applyTraitPrecRule r m with
    | error e => simp [h1] at hr
    | ok m1 =>
      simp only [h1] at hr
      exact ih m1 m' (Class.applyTraitPrecRule_plain h h1) hr

theorem Class.applyTraitAliasRule_plain {env : Env} {usedTraits : List Class}
    {rule : PreClass.TraitAliasRule} {st st' : List (String × String) × MethodToTraitListMap}
    (h : CandidateKeysPlain st.2)
    (hr : Class.applyTraitAliasRule env usedTraits rule st = .ok st') :
    CandidateKeysPlain st'.2 := by
  unfold Class.applyTraitAliasRule at hr
  simp only [] at hr
  split at hr
  · cases hr
  · split at hr
    · cases hr
    · split at hr
      · cases hr
      · split at hr
        · cases hr
        · injection hr with hr
          subst hr
          simp only []
          split
          · exact MethodToTraitListMap.update_plain_of_shrink _ rfl _ h
          · split
            · rename_i hsp
              exact MethodToTraitListMap.update_plain_of_name (by simpa using hsp) _ h
            · exact h

theorem Class.applyTraitAliasRules_plain {env : Env} {usedTraits : List Class}
    (rules : List PreClass.TraitAliasRule) :
    ∀ (st st' : List (String × String) × MethodToTraitListMap), CandidateKeysPlain st.2 →
      Class.applyTraitAliasRules env usedTraits rules st = .ok st' →
      CandidateKeysPlain st'.2 := by
  induction rules with
  | nil =>
    intro st st' h hr
    rw [Class.applyTraitAliasRules] at hr
    injection hr with hr; subst hr; exact h
  | cons r rest ih =>
    intro st st' h hr
    rw [Class.applyTraitAliasRules] at hr
    cases h1 : Class.applyTraitAliasRule env usedTraits r st with
    | error e => simp [h1] at hr
    | ok st1 =>
      simp only [h1] at hr
      exact ih st1 st' (Class.applyTraitAliasRule_plain h h1) hr

theorem Class.findTraitMethods_plain (trait : Class) (l : List Func) :
    ∀ (m : MethodToTraitListMap), CandidateKeysPlain m →
      CandidateKeysPlain (Class.findTraitMethods trait l m) := by
  induction l with
  | nil => intro m h; exact h
  | cons f rest ih =>
    intro m h
    rw [Class.findTraitMethods]
    split
    · rename_i hsp
      exact ih _ (MethodToTraitListMap.update_plain_of_name (by simpa using hsp) _ h)
    · exact ih _ h

theorem Class.findAllTraitMethods_plain (ts : List Class) :
    ∀ (m : MethodToTraitListMap), CandidateKeysPlain m →
      CandidateKeysPlain (Class.findAllTraitMethods ts m) := by
  induction ts with
  | nil => intro m h; exact h
  | cons t rest ih =>
    intro m h
    rw [Class.findAllTraitMethods]
    exact ih _ (Class.findTraitMethods_plain t _ m h)

theorem Class.removeSpareAbstractInList_nil : Class.removeSpareAbstractInList [] = [] := rfl

theorem Class.traitCandidates_plain {env : Env} {usedTraits : List Class} {this : Class}
    {st : List (String × String) × MethodToTraitListMap}
    (h : Class.traitCandidates env usedTraits this = .ok st) : CandidateKeysPlain st.2 := by
  unfold Class.traitCandidates at h
  simp only [] at h
  cases hr : Class.applyTraitRules env usedTraits this.m_preClass
      (this.m_traitAliases, Class.findAllTraitMethods usedTraits []) with
  | error e => simp [hr] at h
  | ok st1 =>
    simp only [hr] at h
    injection h with h
    subst h
    have h0 : CandidateKeysPlain (Class.findAllTraitMethods usedTraits []) :=
      Class.findAllTraitMethods_plain usedTraits [] (fun e he => by cases he)
    have h1 : CandidateKeysPlain st1.2 := by
      unfold Class.applyTraitRules at hr
      cases hp : Class.applyTraitPrecRules this.m_preClass.m_traitPrecRules
          (Class.findAllTraitMethods usedTraits []) with
      | error e => simp [hp] at hr
      | ok m1 =>
        simp only [hp] at hr
        exact Class.applyTraitAliasRules_plain _ _ _
          (Class.applyTraitPrecRules_plain _ _ _ h0 hp) hr
    intro e he hne
    simp only [Class.removeSpareTraitAbstractMethods, List.mem_map] at he
    obtain ⟨x, hx, hxe⟩ := he
    subst hxe
    apply h1 x hx
    intro hx2
    simp only [] at hne
    rw [hx2] at hne
    exact hne Class.removeSpareAbstractInList_nil

theorem Class.traitCandidates_beginIdx (env : Env) (usedTraits : List Class) (this : Class)
    (n : Nat) :
    Class.traitCandidates env usedTraits { this with m_traitsBeginIdx := n } =
      Class.traitCandidates env usedTraits this := rfl

/-- When the candidate map holds a name with more than one candidate that the
class does not declare, the import loop fails whatever the builder is. -/
theorem Class.importTraitMethodsLoop_conflict {env : Env} {this : Class}
    (m : MethodToTraitListMap) {name : String} {candidates : TraitMethodList}
    (hmem : (name, candidates) ∈ m) (hlen : candidates.length > 1)
    (hown : this.m_preClass.hasMethod name = false) :
    ∀ b, ∃ e, Class.importTraitMethodsLoop env this m b = .error e := by
  induction m with
  | nil => cases hmem
  | cons entry rest ih =>
    intro b
    rw [Class.importTraitMethodsLoop]
    cases h1 : Class.importTraitMethodsStep env this entry b with
    | error e => exact ⟨e, rfl⟩
    | ok b1 =>
      simp only []
      rw [List.mem_cons] at hmem
      rcases hmem with hmem | hmem
      · subst hmem
        exfalso
        unfold Class.importTraitMethodsStep at h1
        cases hc : candidates with
        | nil => rw [hc] at hlen; simp at hlen
        | cons a t =>
          simp only [hc] at h1
          rw [hc] at hlen
          simp only [hlen, decide_True, if_true, hown, Bool.false_eq_true, if_false] at h1
          cases h1
      · exact ih hmem b1

theorem Class.importTraitMethodsStep_conflict (env : Env) (this : Class) (name : String)
    (candidates : TraitMethodList) (b : MethodMap) (hlen : candidates.length > 1) :
    Class.importTraitMethodsStep env this (name, candidates) b =
      if this.m_preClass.hasMethod name = true then .ok b else .error (.multipleTraits name) := by
  unfold Class.importTraitMethodsStep
  cases hc : candidates with
  | nil => rw [hc] at hlen; simp at hlen
  | cons a t =>
    rw [hc] at hlen
    simp only [hlen, decide_True, if_true]

/-- C2: for a name that the candidate map of the trait methods (after the
precedence rules, the alias rules and the removal of spare abstract
candidates) binds to more than one candidate: if the class declares a method
of that name, the import step raises no error and leaves the builder as it is
(no candidate is imported), and the method table of the linked class resolves
the name to the method of the class itself; otherwise the import step raises
the `declared in multiple traits` error and linking fails. -/
theorem C2_trait_conflict (env : Env) (self : ClassId) (pre : PreClass) (parent : Option Class)
    (usedTraits : List Class) (st : List (String × String) × MethodToTraitListMap)
    (name : String) (candidates : TraitMethodList)
    (hl : Class.loadUsedTraits env pre.m_name pre.m_usedTraits = .ok usedTraits)
    (hne : usedTraits ≠ [])
    (hc : Class.traitCandidates env usedTraits (Class.beforeMethods self pre parent usedTraits)
      = .ok st)
    (hmem : (name, candidates) ∈ st.2) (hlen : candidates.length > 1) :
    (pre.hasMethod name = true →
      (∀ (this : Class) (b : MethodMap), this.m_preClass = pre →
        Class.importTraitMethodsStep env this (name, candidates) b = .ok b) ∧
      (∀ cls, Class.newClass env self pre parent = .ok cls →
        ∃ f, cls.lookupMethod name = some f ∧ OwnEntry self pre name f)) ∧
    (pre.hasMethod name = false →
      (∀ (this : Class) (b : MethodMap), this.m_preClass = pre →
        Class.importTraitMethodsStep env this (name, candidates) b
          = .error (.multipleTraits name)) ∧
      ∃ e, Class.newClass env self pre parent = .error e) := by
  have hplain : isSpecial name = false := by
    apply Class.traitCandidates_plain hc (name, candidates) hmem
    intro h0
    simp only [] at h0
    rw [h0] at hlen
    simp at hlen
  constructor
  · intro hhas
    constructor
    · intro this b hp
      rw [Class.importTraitMethodsStep_conflict env this name candidates b hlen, hp, hhas]
      rfl
    · intro cls hcls
      exact Class.newClass_own_method hcls hhas hplain
  · intro hhas
    constructor
    · intro this b hp
      rw [Class.importTraitMethodsStep_conflict env this name candidates b hlen, hp, hhas]
      rfl
    · cases hn : Class.newClass env self pre parent with
      | error e => exact ⟨e, rfl⟩
      | ok cls =>
        exfalso
        obtain ⟨ts, c3, h1, h2, -⟩ := Class.newClass_setMethods hn
        rw [hl] at h1
        injection h1 with h1
        subst h1
        obtain ⟨r, hb, -, -, -⟩ := Class.setMethods_ok h2
        unfold Class.buildMethods at hb
        cases ho : Class.addOwnMethods env (Class.beforeMethods self pre parent usedTraits)
            (Class.beforeMethods self pre parent usedTraits).m_preClass.m_methods
            (Class.inheritedMethods parent).1 with
        | error e => simp [ho] at hb
        | ok builder =>
          simp only [ho] at hb
          cases hi : Class.importTraitMethodsIfAny env usedTraits
              { Class.beforeMethods self pre parent usedTraits with
                m_traitsBeginIdx := builder.size } builder with
          | error e => simp [hi] at hb
          | ok r1 =>
            unfold Class.importTraitMethodsIfAny at hi
            have hlen0 : (usedTraits.length != 0) = true := by
              cases usedTraits with
              | nil => exact absurd rfl hne
              | cons a t => simp
            rw [if_pos hlen0] at hi
            unfold Class.importTraitMethods at hi
            rw [Class.traitCandidates_beginIdx, hc] at hi
            simp only [] at hi
            obtain ⟨e, he⟩ := @Class.importTraitMethodsLoop_conflict env
              { Class.beforeMethods self pre parent usedTraits with
                m_traitsBeginIdx := builder.size, m_traitAliases := st.1 }
              st.2 name candidates hmem hlen
              (by
                have := (Class.beforeMethods_fields self pre parent usedTraits).2.1
                simp only []
                rw [this]
                exact hhas) builder
            rw [he] at hi
            cases hi

theorem exUseOwn_linked : Class.newClass envTraits 32 preUseOwn none = .ok exUseOwn := by rfl

/-- Witness of C2: the traits `A` and `B` each declare `foo` and no precedence
rule is given.  `UseBoth`, which uses both and declares no `foo`, fails to link
with the `declared in multiple traits` error; `UseOwn`, which declares `foo`
itself, links and its `foo` is its own method. -/
theorem C2_trait_conflict_witness :
    Class.newClass envTraits 32 preUseBoth none = .error (.multipleTraits "foo") ∧
    (∃ e, Class.newClass envTraits 32 preUseBoth none = .error e) ∧
    (∃ f, exUseOwn.lookupMethod "foo" = some f ∧ OwnEntry 32 preUseOwn "foo" f) ∧
    (exUseOwn.lookupMethod "foo").map (fun f => (f.m_cls, f.m_shared)) = some (some 32, 9) :=
  ⟨rfl,
    ((C2_trait_conflict envTraits 32 preUseBoth none [exTraitA, exTraitB]
      ([], [("foo", exFooCandidates)]) "foo" exFooCandidates rfl (by simp) rfl
      (by simp) (by decide)).2 rfl).2,
    ((C2_trait_conflict envTraits 32 preUseOwn none [exTraitA, exTraitB]
      ([], [("foo", exFooCandidates)]) "foo" exFooCandidates rfl (by simp) rfl
      (by simp) (by decide)).1 rfl).2 exUseOwn exUseOwn_linked,
    rfl⟩

/-! ## Precedence rules -/

theorem Class.applyTraitPrecRuleLoop_found (T : String) (L : TraitMethodList) :
    ∀ S : List String, (Class.applyTraitPrecRuleLoop T L S).1 = true ↔
      ∃ tm, tm ∈ L ∧ tm.m_trait.name = T := by
  induction L with
  | nil => intro S; simp [Class.applyTraitPrecRuleLoop]
  | cons tm rest ih =>
    intro S
    rw [Class.applyTraitPrecRuleLoop]
    simp only []
    by_cases h1 : tm.m_trait.name = T
    · simp only [h1, if_true]
      constructor
      · intro _; exact ⟨tm, List.mem_cons_self _ _, h1⟩
      · intro _; trivial
    · simp only [h1, if_false]
      have hrest : (∃ x, x ∈ tm :: rest ∧ x.m_trait.name = T) ↔
          ∃ x, x ∈ rest ∧ x.m_trait.name = T := by
        constructor
        · rintro ⟨x, hx, hxT⟩
          rw [List.mem_cons] at hx
          rcases hx with hx | hx
          · subst hx; exact absurd hxT h1
          · exact ⟨x, hx, hxT⟩
        · rintro ⟨x, hx, hxT⟩
          exact ⟨x, List.mem_cons_of_mem _ hx, hxT⟩
      rw [hrest]
      split
      · exact ih _
      · exact ih _

theorem Class.applyTraitPrecRuleLoop_others (T : String) (L : TraitMethodList) :
    ∀ S : List String, (Class.applyTraitPrecRuleLoop T L S).2.1 =
      S.filter (fun s => L.all (fun tm => decide (tm.m_trait.name = T) ||
        !isame s tm.m_trait.name)) := by
  induction L with
  | nil => intro S; simp [Class.applyTraitPrecRuleLoop]
  | cons tm rest ih =>
    intro S
    rw [Class.applyTraitPrecRuleLoop]
    simp only []
    by_cases h1 : tm.m_trait.name = T
    · simp only [h1, if_true, List.all_cons, decide_True, Bool.true_or, Bool.true_and]
      exact ih S
    · simp only [h1, if_false, List.all_cons, decide_False, Bool.false_or]
      split
      · rw [ih]
        unfold TraitNameSet.erase
        rw [List.filter_filter]
        apply List.filter_congr
        intro s _
        rw [Bool.and_comm]
      · rename_i hc
        rw [ih]
        apply List.filter_congr
        intro s hs
        have : isame s tm.m_trait.name = false := by
          by_contra hne
          apply hc
          unfold TraitNameSet.contains
          rw [List.any_eq_true]
          exact ⟨s, hs, by simpa using hne⟩
        simp [this]

theorem TraitNameSet.contains_erase (S : List String) (a b : String)
    (hab : isame a b = false) :
    TraitNameSet.contains (TraitNameSet.erase S a) b = TraitNameSet.contains S b := by
  unfold TraitNameSet.contains TraitNameSet.erase
  by_cases h : (S.any fun n => isame n b) = true
  · rw [h]
    rw [List.any_eq_true] at h ⊢
    obtain ⟨s, hs, hsb⟩ := h
    refine ⟨s, ?_, hsb⟩
    rw [List.mem_filter]
    refine ⟨hs, ?_⟩
    by_contra hsa
    simp only [Bool.not_eq_true', Bool.not_eq_false] at hsa
    have h1 : isame a s = true := by rw [isame_symm]; exact hsa
    rw [isame_trans h1 hsb] at hab
    cases hab
  · have h' : (S.any fun n => isame n b) = false := by simpa using h
    rw [h']
    rw [List.any_eq_false] at h' ⊢
    intro s hs
    rw [List.mem_filter] at hs
    exact h' s hs.1

theorem Class.applyTraitPrecRuleLoop_list (T : String) (L : TraitMethodList)
    (hd : L.Pairwise (fun x y => isame x.m_trait.name y.m_trait.name = false)) :
    ∀ S : List String, (Class.applyTraitPrecRuleLoop T L S).2.2 =
      L.filter (fun tm => decide (tm.m_trait.name = T) ||
        !TraitNameSet.contains S tm.m_trait.name) := by
  induction L with
  | nil => intro S; rfl
  | cons tm rest ih =>
    intro S
    rw [List.pairwise_cons] at hd
    rw [Class.applyTraitPrecRuleLoop]
    simp only []
    by_cases h1 : tm.m_trait.name = T
    · simp only [h1, if_true]
      rw [List.filter_cons]
      simp only [h1, decide_True, Bool.true_or, if_true]
      rw [ih hd.2 S]
    · simp only [h1, if_false]
      by_cases hc : TraitNameSet.contains S tm.m_trait.name = true
      · simp only [hc, if_true]
        rw [List.filter_cons]
        simp only [h1, decide_False, hc, Bool.not_true, Bool.or_self, Bool.false_eq_true,
          if_false]
        rw [ih hd.2]
        apply List.filter_congr
        intro x hx
        rw [TraitNameSet.contains_erase S _ _ (hd.1 x hx)]
      · have hc' : TraitNameSet.contains S tm.m_trait.name = false := by simpa using hc
        simp only [hc', Bool.false_eq_true, if_false]
        rw [List.filter_cons]
        simp only [h1, decide_False, hc', Bool.not_false, Bool.or_true, if_true]
        rw [ih hd.2 S]

theorem MethodToTraitListMap.find_update_same (f : TraitMethodList → TraitMethodList)
    (m : MethodToTraitListMap) (name : String) (l0 : TraitMethodList)
    (h : MethodToTraitListMap.find m name = some l0) :
    MethodToTraitListMap.find (MethodToTraitListMap.update f m name) name = some (f l0) := by
  induction m with
  | nil => simp [MethodToTraitListMap.find] at h
  | cons x rest ih =>
    obtain ⟨k, l⟩ := x
    rw [MethodToTraitListMap.update]
    unfold MethodToTraitListMap.find at h ⊢
    rw [List.find?_cons] at h
    by_cases hk : isame k name = true
    · simp only [hk, Option.map_some', Option.some.injEq] at h
      subst h
      simp [hk, List.find?_cons]
    · have hk' : isame k name = false := by simpa using hk
      simp only [hk'] at h
      simp only [hk', Bool.false_eq_true, if_false, List.find?_cons]
      exact ih h

theorem MethodToTraitListMap.find_update_other (f : TraitMethodList → TraitMethodList)
    (m : MethodToTraitListMap) (name n : String) (hn : isame name n = false)
    (hfound : (MethodToTraitListMap.find m name).isSome = true) :
    MethodToTraitListMap.find (MethodToTraitListMap.update f m name) n =
      MethodToTraitListMap.find m n := by
  induction m with
  | nil => simp [MethodToTraitListMap.find] at hfound
  | cons x rest ih =>
    obtain ⟨k, l⟩ := x
    rw [MethodToTraitListMap.update]
    unfold MethodToTraitListMap.find at hfound ⊢
    rw [List.find?_cons] at hfound
    by_cases hk : isame k name = true
    · simp only [hk, if_true, List.find?_cons]
      have hkn : isame k n = false := by
        by_contra hne
        have h1 : isame name k = true := by rw [isame_symm]; exact hk
        rw [isame_trans h1 (by simpa using hne)] at hn
        cases hn
      simp [hkn]
    · have hk' : isame k name = false := by simpa using hk
      simp only [hk'] at hfound
      simp only [hk', Bool.false_eq_true, if_false, List.find?_cons]
      by_cases hkn : isame k n = true
      · simp [hkn]
      · have hkn' : isame k n = false := by simpa using hkn
        simp only [hkn']
        exact ih hfound

theorem Class.applyTraitPrecRule_cases (rule : PreClass.TraitPrecRule)
    (m : MethodToTraitListMap) :
    (MethodToTraitListMap.find m rule.m_methodName = none ∧
      Class.applyTraitPrecRule rule m = .error (.unknownMethod rule.m_methodName)) ∨
    ∃ L, MethodToTraitListMap.find m rule.m_methodName = some L ∧
      (((Class.applyTraitPrecRuleLoop rule.m_selectedTraitName L rule.m_otherTraitNames).1 = false ∧
          Class.applyTraitPrecRule rule m = .error (.unknownTrait rule.m_selectedTraitName)) ∨
       ((Class.applyTraitPrecRuleLoop rule.m_selectedTraitName L rule.m_otherTraitNames).1 = true ∧
          (∃ n t, (Class.applyTraitPrecRuleLoop rule.m_selectedTraitName L
              rule.m_otherTraitNames).2.1 = n :: t ∧
            Class.applyTraitPrecRule rule m = .error (.unknownTrait n))) ∨
       ((Class.applyTraitPrecRuleLoop rule.m_selectedTraitName L rule.m_otherTraitNames).1 = true ∧
          (Class.applyTraitPrecRuleLoop rule.m_selectedTraitName L
              rule.m_otherTraitNames).2.1 = [] ∧
          Class.applyTraitPrecRule rule m = .ok (MethodToTraitListMap.replace m
            rule.m_methodName (Class.applyTraitPrecRuleLoop rule.m_selectedTraitName L
              rule.m_otherTraitNames).2.2))) := by
  unfold Class.applyTraitPrecRule
  simp only []
  cases hf : MethodToTraitListMap.find m rule.m_methodName with
  | none => left; exact ⟨rfl, rfl⟩
  | some L =>
    right
    refine ⟨L, rfl, ?_⟩
    simp only []
    cases h1 : (Class.applyTraitPrecRuleLoop rule.m_selectedTraitName L
        rule.m_otherTraitNames).1 with
    | false => left; exact ⟨rfl, by simp⟩
    | true =>
      right
      cases h2 : (Class.applyTraitPrecRuleLoop rule.m_selectedTraitName L
          rule.m_otherTraitNames).2.1 with
      | nil => right; exact ⟨rfl, rfl, by simp⟩
      | cons n t => left; exact ⟨rfl, n, t, rfl, by simp⟩

theorem DistinctTraits.not_isame {L : TraitMethodList} (hd : DistinctTraits L)
    {x y : TraitMethod} (hx : x ∈ L) (hy : y ∈ L) (hne : x.m_trait.name ≠ y.m_trait.name) :
    isame x.m_trait.name y.m_trait.name = false := by
  have hxy : x ≠ y := fun e => hne (by rw [e])
  have hsymm : Symmetric (fun a b : TraitMethod =>
      isame a.m_trait.name b.m_trait.name = false) := by
    intro a b hab
    rw [isame_symm]; exact hab
  exact List.Pairwise.forall hsymm hd hx hy hxy

/-- What `applyTraitPrecRule` does for the rule `prefer T over S` for the
name `m`, when the candidates of `m` come from distinct traits. -/
theorem Class.applyTraitPrecRule_spec (rule : PreClass.TraitPrecRule)
    (m : MethodToTraitListMap)
    (hd : ∀ L, MethodToTraitListMap.find m rule.m_methodName = some L → DistinctTraits L) :
    ((∃ e, Class.applyTraitPrecRule rule m = .error e) ↔
      MethodToTraitListMap.find m rule.m_methodName = none ∨
      ∃ L, MethodToTraitListMap.find m rule.m_methodName = some L ∧
        ((∀ tm, tm ∈ L → tm.m_trait.name ≠ rule.m_selectedTraitName) ∨
         ∃ s, s ∈ rule.m_otherTraitNames ∧
           (isame s rule.m_selectedTraitName = true ∨
            ∀ tm, tm ∈ L → isame s tm.m_trait.name = false))) ∧
    (∀ m', Class.applyTraitPrecRule rule m = .ok m' →
      ∃ L, MethodToTraitListMap.find m rule.m_methodName = some L ∧
        MethodToTraitListMap.find m' rule.m_methodName =
          some (L.filter (fun tm =>
            !TraitNameSet.contains rule.m_otherTraitNames tm.m_trait.name)) ∧
        (∃ tm, tm ∈ L ∧ tm.m_trait.name = rule.m_selectedTraitName ∧
          TraitNameSet.contains rule.m_otherTraitNames tm.m_trait.name = false) ∧
        ∀ n, isame rule.m_methodName n = false →
          MethodToTraitListMap.find m' n = MethodToTraitListMap.find m n) := by
  -- the names left in `otherTraitNames`, in terms of the candidates
  have hleft : ∀ L, DistinctTraits L →
      (∃ tm, tm ∈ L ∧ tm.m_trait.name = rule.m_selectedTraitName) →
      ((Class.applyTraitPrecRuleLoop rule.m_selectedTraitName L rule.m_otherTraitNames).2.1 ≠ []
        ↔ ∃ s, s ∈ rule.m_otherTraitNames ∧
           (isame s rule.m_selectedTraitName = true ∨
            ∀ tm, tm ∈ L → isame s tm.m_trait.name = false)) := by
    intro L hdl hT
    obtain ⟨tmT, hTmem, hTname⟩ := hT
    rw [Class.applyTraitPrecRuleLoop_others]
    have hne : ∀ (p : String → Bool) (S : List String),
        S.filter p ≠ [] ↔ ∃ s, s ∈ S ∧ p s = true := by
      intro p S
      constructor
      · intro h
        by_contra hcon
        apply h
        rw [List.filter_eq_nil_iff]
        intro a ha hp
        exact hcon ⟨a, ha, hp⟩
      · rintro ⟨s, hs, hp⟩ h
        rw [List.filter_eq_nil_iff] at h
        exact h s hs hp
    rw [hne]
    have hp : ∀ s : String, (L.all (fun tm => decide (tm.m_trait.name = rule.m_selectedTraitName)
        || !isame s tm.m_trait.name) = true) ↔
        ∀ tm, tm ∈ L → tm.m_trait.name = rule.m_selectedTraitName ∨
          isame s tm.m_trait.name = false := by
      intro s
      rw [List.all_eq_true]
      constructor
      · intro h tm htm
        have := h tm htm
        simpa using this
      · intro h tm htm
        have := h tm htm
        simpa using this
    constructor
    · rintro ⟨s, hs, hall⟩
      rw [hp] at hall
      refine ⟨s, hs, ?_⟩
      by_cases hsT : isame s rule.m_selectedTraitName = true
      · exact Or.inl hsT
      · right
        intro tm htm
        rcases hall tm htm with h | h
        · rw [h]; simpa using hsT
        · exact h
    · rintro ⟨s, hs, hor⟩
      refine ⟨s, hs, ?_⟩
      rw [hp]
      intro tm htm
      rcases hor with hsT | hnone
      · by_cases hname : tm.m_trait.name = rule.m_selectedTraitName
        · exact Or.inl hname
        · right
          by_contra hne
          have h1 : isame s tm.m_trait.name = true := by simpa using hne
          have h2 : isame tm.m_trait.name s = true := by rw [isame_symm]; exact h1
          have h3 := isame_trans h2 hsT
          have h4 := hdl.not_isame htm hTmem (by rw [hTname]; exact hname)
          rw [hTname, h3] at h4
          cases h4
      · exact Or.inr (hnone tm htm)
  constructor
  · constructor
    · rintro ⟨e, he⟩
      rcases Class.applyTraitPrecRule_cases rule m with ⟨hn, -⟩ | ⟨L, hL, hcase⟩
      · exact Or.inl hn
      · right
        refine ⟨L, hL, ?_⟩
        rcases hcase with ⟨hf, -⟩ | ⟨hf, n, t, hnt, -⟩ | ⟨-, -, hok⟩
        · left
          intro tm htm hname
          have := (Class.applyTraitPrecRuleLoop_found rule.m_selectedTraitName L
            rule.m_otherTraitNames).mpr ⟨tm, htm, hname⟩
          rw [hf] at this
          cases this
        · right
          have hT := (Class.applyTraitPrecRuleLoop_found rule.m_selectedTraitName L
            rule.m_otherTraitNames).mp hf
          exact (hleft L (hd L hL) hT).mp (by rw [hnt]; simp)
        · rw [hok] at he
          cases he
    · intro h
      rcases Class.applyTraitPrecRule_cases rule m with ⟨-, herr⟩ | ⟨L, hL, hcase⟩
      · exact ⟨_, herr⟩
      · rcases hcase with ⟨-, herr⟩ | ⟨-, n, t, -, herr⟩ | ⟨hf, hnil, -⟩
        · exact ⟨_, herr⟩
        · exact ⟨_, herr⟩
        · exfalso
          have hT := (Class.applyTraitPrecRuleLoop_found rule.m_selectedTraitName L
            rule.m_otherTraitNames).mp hf
          rcases h with h | ⟨L2, hL2, h⟩
          · rw [hL] at h; cases h
          · rw [hL] at hL2
            injection hL2 with hL2
            subst hL2
            rcases h with h | h
            · obtain ⟨tm, htm, hname⟩ := hT
              exact h tm htm hname
            · exact (hleft L (hd L hL) hT).mpr h hnil
  · intro m' hm'
    rcases Class.applyTraitPrecRule_cases rule m with ⟨-, herr⟩ | ⟨L, hL, hcase⟩
    · rw [herr] at hm'; cases hm'
    · rcases hcase with ⟨-, herr⟩ | ⟨-, n, t, -, herr⟩ | ⟨hf, hnil, hok⟩
      · rw [herr] at hm'; cases hm'
      · rw [herr] at hm'; cases hm'
      · rw [hok] at hm'
        injection hm' with hm'
        subst hm'
        have hT := (Class.applyTraitPrecRuleLoop_found rule.m_selectedTraitName L
          rule.m_otherTraitNames).mp hf
        have hdl := hd L hL
        -- the preferred trait is not among the others
        have hTS : TraitNameSet.contains rule.m_otherTraitNames rule.m_selectedTraitName
            = false := by
          by_contra hc
          have hc' : TraitNameSet.contains rule.m_otherTraitNames rule.m_selectedTraitName
              = true := by simpa using hc
          unfold TraitNameSet.contains at hc'
          rw [List.any_eq_true] at hc'
          obtain ⟨s, hs, hsT⟩ := hc'
          exact (hleft L hdl hT).mpr ⟨s, hs, Or.inl hsT⟩ hnil
        refine ⟨L, hL, ?_, ?_, ?_⟩
        · unfold MethodToTraitListMap.replace
          rw [MethodToTraitListMap.find_update_same _ m _ L hL]
          rw [Class.applyTraitPrecRuleLoop_list _ L hdl]
          congr 1
          apply List.filter_congr
          intro tm htm
          by_cases hname : tm.m_trait.name = rule.m_selectedTraitName
          · rw [hname, hTS]; simp
          · simp [hname]
        · obtain ⟨tm, htm, hname⟩ := hT
          exact ⟨tm, htm, hname, by rw [hname]; exact hTS⟩
        · intro n hn
          unfold MethodToTraitListMap.replace
          exact MethodToTraitListMap.find_update_other _ m _ n hn (by rw [hL]; rfl)

/-! ## Imported trait methods in the method table -/

theorem Class.importTraitMethod_boundAt {env : Env} {this : Class} {P : Func → Prop}
    {tm : TraitMethod} {methName : String} {b b' : MethodMap}
    (h : Class.importTraitMethod env this tm methName b = .ok b') :
    ∀ name, BoundAt this.m_self P b name → BoundAt this.m_self P b' name := by
  unfold Class.importTraitMethod at h
  simp only [] at h
  split at h
  · injection h with h; subst h; exact fun _ hn => hn
  · cases hl : b.lookup methName with
    | none =>
      simp only [hl] at h
      injection h with h; subst h
      intro name hn
      obtain ⟨i, e, hle, hoe⟩ := hn
      have hk : keyEq false methName name = false := by
        by_contra hk
        have hk' : isame methName name = true := by simpa [keyEq] using hk
        rw [IndexedStringMap.lookup_congr b hk', hle] at hl
        cases hl
      exact ⟨i, e, IndexedStringMap.lookup_add_other b _ _ name hk hle, hoe⟩
    | some r =>
      obtain ⟨slot, pm⟩ := r
      simp only [hl] at h
      split at h
      · injection h with h; subst h; exact fun _ hn => hn
      · rename_i hcls
        split at h
        · cases h
        · injection h with h; subst h
          intro name hn
          obtain ⟨i, e, hle, hoe⟩ := hn
          have hs : slot ≠ i := by
            intro hs
            subst hs
            have f1 := (IndexedStringMap.lookup_eq_some.mp hl).2
            have f2 := (IndexedStringMap.lookup_eq_some.mp hle).2
            rw [f1] at f2
            injection f2 with f2
            subst f2
            exact hcls hoe.1
          exact ⟨i, e, IndexedStringMap.lookup_set_other b name i slot e _ hle hs, hoe⟩

theorem Class.importTraitMethodsStep_boundAt {env : Env} {this : Class} {P : Func → Prop}
    {entry : String × TraitMethodList} {b b' : MethodMap}
    (h : Class.importTraitMethodsStep env this entry b = .ok b') :
    ∀ name, BoundAt this.m_self P b name → BoundAt this.m_self P b' name := by
  unfold Class.importTraitMethodsStep at h
  split at h
  · injection h with h; subst h; exact fun _ hn => hn
  · split at h
    · split at h
      · injection h with h; subst h; exact fun _ hn => hn
      · cases h
    · exact Class.importTraitMethod_boundAt h

theorem Class.importTraitMethodsLoop_boundAt {env : Env} {this : Class} {P : Func → Prop}
    (l : MethodToTraitListMap) :
    ∀ (b b' : MethodMap), Class.importTraitMethodsLoop env this l b = .ok b' →
      ∀ name, BoundAt this.m_self P b name → BoundAt this.m_self P b' name := by
  induction l with
  | nil =>
    intro b b' h
    rw [Class.importTraitMethodsLoop] at h
    injection h with h; subst h; exact fun _ hn => hn
  | cons entry rest ih =>
    intro b b' h
    rw [Class.importTraitMethodsLoop] at h
    cases h1 : Class.importTraitMethodsStep env this entry b with
    | error e => simp [h1] at h
    | ok b1 =>
      simp only [h1] at h
      exact fun name hn => ih b1 b' h name (Class.importTraitMethodsStep_boundAt h1 name hn)

theorem Class.recloneMethods_boundAt {this : Class} {P : Func → Prop} (l : List Nat) :
    ∀ (b : MethodMap) (name : String), BoundAt this.m_self P b name →
      BoundAt this.m_self P (Class.recloneMethods this l b) name := by
  induction l with
  | nil => intro b name hn; exact hn
  | cons slot rest ih =>
    intro b name hn
    rw [Class.recloneMethods]
    cases hg : b.get? slot with
    | none => simp only []; exact ih b name hn
    | some f =>
      simp only []
      split
      · rename_i hcls
        apply ih
        obtain ⟨i, e, hle, hoe⟩ := hn
        have hs : slot ≠ i := by
          intro hs
          subst hs
          have f2 := (IndexedStringMap.lookup_eq_some.mp hle).2
          unfold IndexedStringMap.get? at hg
          rw [hg] at f2
          injection f2 with f2
          subst f2
          simp [hoe.1] at hcls
        exact ⟨i, e, IndexedStringMap.lookup_set_other b name i slot e _ hle hs, hoe⟩
      · exact ih b name hn

theorem Class.addOwnMethods_find_none {env : Env} {this : Class} {name : String}
    (l : List Func) :
    ∀ (b b' : MethodMap), b.WF → (∀ m, m ∈ l → isame m.m_name name = false) →
      b.find name = none → Class.addOwnMethods env this l b = .ok b' →
      b'.WF ∧ b'.find name = none := by
  induction l with
  | nil =>
    intro b b' hwf _ hf h
    rw [Class.addOwnMethods] at h
    injection h with h; subst h; exact ⟨hwf, hf⟩
  | cons m rest ih =>
    intro b b' hwf hno hf h
    rw [Class.addOwnMethods] at h
    cases h1 : Class.addOwnMethod env this m b with
    | error e => simp [h1] at h
    | ok b1 =>
      simp only [h1] at h
      have hm := hno m (List.mem_cons_self _ _)
      have hstep : b1.WF ∧ b1.find name = none := by
        unfold Class.addOwnMethod at h1
        split at h1
        · injection h1 with h1; subst h1; exact ⟨hwf, hf⟩
        · cases hl : b.lookup m.m_name with
          | none =>
            simp only [hl] at h1
            injection h1 with h1; subst h1
            refine ⟨hwf.add _ _, ?_⟩
            rw [IndexedStringMap.find_add]
            simp [keyEq, hm, hf]
          | some r =>
            obtain ⟨slot, pm⟩ := r
            simp only [hl] at h1
            split at h1
            · cases h1
            · injection h1 with h1; subst h1
              exact ⟨hwf.set _ _, hf⟩
      exact ih b1 b' hstep.1 (fun x hx => hno x (List.mem_cons_of_mem _ hx)) hstep.2 h

theorem Class.importTraitMethod_find_none {env : Env} {this : Class} {name : String}
    {tm : TraitMethod} {methName : String} {b b' : MethodMap} (hwf : b.WF)
    (hk : isame methName name = false) (hf : b.find name = none)
    (h : Class.importTraitMethod env this tm methName b = .ok b') :
    b'.WF ∧ b'.find name = none := by
  unfold Class.importTraitMethod at h
  simp only [] at h
  split at h
  · injection h with h; subst h; exact ⟨hwf, hf⟩
  · cases hl : b.lookup methName with
    | none =>
      simp only [hl] at h
      injection h with h; subst h
      refine ⟨hwf.add _ _, ?_⟩
      rw [IndexedStringMap.find_add]
      simp [keyEq, hk, hf]
    | some r =>
      obtain ⟨slot, pm⟩ := r
      simp only [hl] at h
      split at h
      · injection h with h; subst h; exact ⟨hwf, hf⟩
      · split at h
        · cases h
        · injection h with h; subst h
          exact ⟨hwf.set _ _, hf⟩

theorem Class.importTraitMethodsLoop_find_none {env : Env} {this : Class} {name : String}
    (l : MethodToTraitListMap) :
    ∀ (b b' : MethodMap), b.WF → (∀ e, e ∈ l → isame e.1 name = false) →
      b.find name = none → Class.importTraitMethodsLoop env this l b = .ok b' →
      b'.WF ∧ b'.find name = none := by
  induction l with
  | nil =>
    intro b b' hwf _ hf h
    rw [Class.importTraitMethodsLoop] at h
    injection h with h; subst h; exact ⟨hwf, hf⟩
  | cons entry rest ih =>
    intro b b' hwf hno hf h
    rw [Class.importTraitMethodsLoop] at h
    cases h1 : Class.importTraitMethodsStep env this entry b with
    | error e => simp [h1] at h
    | ok b1 =>
      simp only [h1] at h
      have hstep : b1.WF ∧ b1.find name = none := by
        unfold Class.importTraitMethodsStep at h1
        split at h1
        · injection h1 with h1; subst h1; exact ⟨hwf, hf⟩
        · split at h1
          · split at h1
            · injection h1 with h1; subst h1; exact ⟨hwf, hf⟩
            · cases h1
          · exact Class.importTraitMethod_find_none hwf
              (hno entry (List.mem_cons_self _ _)) hf h1
      exact ih b1 b' hstep.1 (fun x hx => hno x (List.mem_cons_of_mem _ hx)) hstep.2 h

theorem Class.importTraitMethodsLoop_append {env : Env} {this : Class}
    (l1 l2 : MethodToTraitListMap) :
    ∀ (b : MethodMap), Class.importTraitMethodsLoop env this (l1 ++ l2) b =
      match Class.importTraitMethodsLoop env this l1 b with
      | .error e => .error e
      | .ok b1 => Class.importTraitMethodsLoop env this l2 b1 := by
  induction l1 with
  | nil => intro b; rfl
  | cons entry rest ih =>
    intro b
    rw [List.cons_append, Class.importTraitMethodsLoop, Class.importTraitMethodsLoop]
    cases h1 : Class.importTraitMethodsStep env this entry b with
    | error e => rfl
    | ok b1 => exact ih b1

theorem MethodToTraitListMap.find_split {m : MethodToTraitListMap} {name : String}
    {L : TraitMethodList} (hd : CandidateKeysDistinct m)
    (h : MethodToTraitListMap.find m name = some L) :
    ∃ before k after, m = before ++ (k, L) :: after ∧ isame k name = true ∧
      (∀ e, e ∈ before → isame e.1 name = false) ∧
      (∀ e, e ∈ after → isame e.1 name = false) := by
  induction m with
  | nil => simp [MethodToTraitListMap.find] at h
  | cons x rest ih =>
    obtain ⟨k, l⟩ := x
    unfold MethodToTraitListMap.find at h
    rw [List.find?_cons] at h
    unfold CandidateKeysDistinct at hd
    rw [List.pairwise_cons] at hd
    by_cases hk : isame k name = true
    · simp only [hk, Option.map_some', Option.some.injEq] at h
      subst h
      refine ⟨[], k, rest, rfl, hk, (fun e he => by cases he), ?_⟩
      intro e he
      have h1 := hd.1 e he
      simp only [] at h1
      cases h2 : isame e.1 name with
      | false => rfl
      | true =>
        have h3 : isame k e.1 = true := isame_trans hk (by rw [isame_symm]; exact h2)
        rw [h3] at h1
        cases h1
    · have hk' : isame k name = false := by simpa using hk
      simp only [hk', Bool.false_eq_true] at h
      obtain ⟨before, k2, after, e1, e2, e3, e4⟩ := ih hd.2 h
      refine ⟨(k, l) :: before, k2, after, by rw [e1]; rfl, e2, ?_, e4⟩
      intro e he
      rw [List.mem_cons] at he
      rcases he with he | he
      · subst he; exact hk'
      · exact e3 e he

/-- A name that the candidate map binds to one candidate only, that the class
does not declare and that the inherited table does not resolve: the import loop
adds the candidate under the name of the map, bound to the class. -/
theorem Class.importTraitMethodsLoop_imported {env : Env} {this : Class}
    {m : MethodToTraitListMap} {name : String} {tm : TraitMethod} {b b' : MethodMap}
    (hd : CandidateKeysDistinct m) (hfind : MethodToTraitListMap.find m name = some [tm])
    (hwf : b.WF) (hnone : b.find name = none)
    (h : Class.importTraitMethodsLoop env this m b = .ok b') :
    ∃ k, isame k name = true ∧
      BoundAt this.m_self (fun e => e = Class.importedMethod this.m_self tm k) b' name := by
  obtain ⟨before, k, after, e1, e2, e3, e4⟩ := MethodToTraitListMap.find_split hd hfind
  refine ⟨k, e2, ?_⟩
  subst e1
  rw [Class.importTraitMethodsLoop_append] at h
  cases h1 : Class.importTraitMethodsLoop env this before b with
  | error e => simp [h1] at h
  | ok b1 =>
    simp only [h1] at h
    obtain ⟨w1, f1⟩ := Class.importTraitMethodsLoop_find_none before b b1 hwf e3 hnone h1
    rw [Class.importTraitMethodsLoop] at h
    cases h2 : Class.importTraitMethodsStep env this (k, [tm]) b1 with
    | error e => simp [h2] at h
    | ok b2 =>
      simp only [h2] at h
      apply Class.importTraitMethodsLoop_boundAt after b2 b' h
      have hl : b1.lookup k = none := by
        rw [IndexedStringMap.lookup_eq_none w1, IndexedStringMap.find_congr b1 e2]
        exact f1
      unfold Class.importTraitMethodsStep at h2
      simp only [List.length_singleton, gt_iff_lt, lt_self_iff_false, decide_False,
        Bool.false_eq_true, if_false] at h2
      unfold Class.importTraitMethod at h2
      simp only [hl, Option.isSome_none, Bool.and_false, Bool.false_eq_true, if_false] at h2
      injection h2 with h2
      subst h2
      refine ⟨b1.m_list.length, _, IndexedStringMap.lookup_add_self b1 k _ name ?_, ?_, rfl⟩
      · simpa [keyEq] using e2
      · rfl

theorem Class.buildMethods_imported {env : Env} {parent : Option Class}
    {usedTraits : List Class} {this : Class} {r : Class × MethodMap}
    {st : List (String × String) × MethodToTraitListMap} {name : String} {tm : TraitMethod}
    (h : Class.buildMethods env parent usedTraits this = .ok r)
    (hne : usedTraits ≠ [])
    (hc : Class.traitCandidates env usedTraits this = .ok st)
    (hd : CandidateKeysDistinct st.2)
    (hfind : MethodToTraitListMap.find st.2 name = some [tm])
    (hown : this.m_preClass.hasMethod name = false)
    (hpar : (Class.inheritedMethods parent).1.find name = none) :
    ∃ k, isame k name = true ∧
      BoundAt this.m_self (fun e => e = Class.importedMethod this.m_self tm k) r.2 name := by
  unfold Class.buildMethods at h
  cases ho : Class.addOwnMethods env this this.m_preClass.m_methods
      (Class.inheritedMethods parent).1 with
  | error e => simp [ho] at h
  | ok builder =>
    simp only [ho] at h
    have hno : ∀ m, m ∈ this.m_preClass.m_methods → isame m.m_name name = false := by
      intro m hm
      cases hi : isame m.m_name name with
      | false => rfl
      | true =>
        have := (PreClass.hasMethod_iff this.m_preClass name).mpr ⟨m, hm, hi⟩
        rw [hown] at this
        cases this
    obtain ⟨w1, f1⟩ := Class.addOwnMethods_find_none this.m_preClass.m_methods _ _
      (Class.inheritedMethods_wf parent) hno hpar ho
    cases hi : Class.importTraitMethodsIfAny env usedTraits
        { this with m_traitsBeginIdx := builder.size } builder with
    | error e => simp [hi] at h
    | ok r1 =>
      simp only [hi] at h
      injection h with h
      subst h
      have hs : ({ r1.1 with m_traitsEndIdx := r1.2.size } : Class).m_self = this.m_self := by
        have := (Class.importTraitMethodsIfAny_core hi).1
        simpa using this
      have himp : ∃ k, isame k name = true ∧
          BoundAt this.m_self (fun e => e = Class.importedMethod this.m_self tm k) r1.2 name := by
        unfold Class.importTraitMethodsIfAny at hi
        have hlen : (usedTraits.length != 0) = true := by
          cases usedTraits with
          | nil => exact absurd rfl hne
          | cons a t => simp
        rw [if_pos hlen] at hi
        unfold Class.importTraitMethods at hi
        rw [Class.traitCandidates_beginIdx, hc] at hi
        simp only [] at hi
        cases hl : Class.importTraitMethodsLoop env
            { this with m_traitsBeginIdx := builder.size, m_traitAliases := st.1 }
            st.2 builder with
        | error e => simp [hl] at hi
        | ok b1 =>
          simp only [hl] at hi
          injection hi with hi
          subst hi
          exact @Class.importTraitMethodsLoop_imported env
            { this with m_traitsBeginIdx := builder.size, m_traitAliases := st.1 }
            st.2 name tm builder b1 hd hfind w1 f1 hl
      obtain ⟨k, hk, hb⟩ := himp
      refine ⟨k, hk, ?_⟩
      have := @Class.recloneMethods_boundAt { r1.1 with m_traitsEndIdx := r1.2.size }
        (fun e => e = Class.importedMethod this.m_self tm k) (Class.inheritedMethods parent).2
        r1.2 name
      rw [hs] at this
      exact this hb

/-! ## The names of the candidate map -/

theorem MethodToTraitListMap.mem_update {f : TraitMethodList → TraitMethodList}
    {name : String} (m : MethodToTraitListMap) {y : String × TraitMethodList}
    (h : y ∈ MethodToTraitListMap.update f m name) :
    (∃ x, x ∈ m ∧ x.1 = y.1) ∨ y.1 = name := by
  induction m with
  | nil =>
    simp only [MethodToTraitListMap.update, List.mem_singleton] at h
    subst h
    exact Or.inr rfl
  | cons x rest ih =>
    obtain ⟨k, l⟩ := x
    rw [MethodToTraitListMap.update] at h
    split at h
    · rw [List.mem_cons] at h
      rcases h with h | h
      · subst h
        exact Or.inl ⟨(k, l), List.mem_cons_self _ _, rfl⟩
      · exact Or.inl ⟨y, List.mem_cons_of_mem _ h, rfl⟩
    · rw [List.mem_cons] at h
      rcases h with h | h
      · subst h
        exact Or.inl ⟨(k, l), List.mem_cons_self _ _, rfl⟩
      · rcases ih h with ⟨x, hx, hxy⟩ | hy
        · exact Or.inl ⟨x, List.mem_cons_of_mem _ hx, hxy⟩
        · exact Or.inr hy

theorem MethodToTraitListMap.update_distinct (f : TraitMethodList → TraitMethodList)
    (name : String) (m : MethodToTraitListMap) (h : CandidateKeysDistinct m) :
    CandidateKeysDistinct (MethodToTraitListMap.update f m name) := by
  induction m with
  | nil =>
    unfold CandidateKeysDistinct
    simp [MethodToTraitListMap.update]
  | cons x rest ih =>
    obtain ⟨k, l⟩ := x
    unfold CandidateKeysDistinct at h ⊢
    rw [List.pairwise_cons] at h
    rw [MethodToTraitListMap.update]
    split
    · rw [List.pairwise_cons]
      exact ⟨h.1, h.2⟩
    · rename_i hk
      rw [List.pairwise_cons]
      refine ⟨?_, ih h.2⟩
      intro y hy
      rcases MethodToTraitListMap.mem_update rest hy with ⟨x, hx, hxy⟩ | hyn
      · have := h.1 x hx
        simp only [] at this ⊢
        rw [← hxy]; exact this
      · simp only []
        rw [hyn]
        simpa using hk

theorem Class.findTraitMethods_distinct (trait : Class) (l : List Func) :
    ∀ m, CandidateKeysDistinct m → CandidateKeysDistinct (Class.findTraitMethods trait l m) := by
  induction l with
  | nil => intro m h; exact h
  | cons method rest ih =>
    intro m h
    rw [Class.findTraitMethods]
    split
    · exact ih _ (MethodToTraitListMap.update_distinct _ _ m h)
    · exact ih _ h

theorem Class.findAllTraitMethods_distinct (ts : List Class) :
    ∀ m, CandidateKeysDistinct m → CandidateKeysDistinct (Class.findAllTraitMethods ts m) := by
  induction ts with
  | nil => intro m h; exact h
  | cons t rest ih =>
    intro m h
    rw [Class.findAllTraitMethods]
    exact ih _ (Class.findTraitMethods_distinct t _ m h)

theorem Class.applyTraitPrecRule_distinct {rule : PreClass.TraitPrecRule}
    {m m' : MethodToTraitListMap} (hd : CandidateKeysDistinct m)
    (h : Class.applyTraitPrecRule rule m = .ok m') : CandidateKeysDistinct m' := by
  unfold Class.applyTraitPrecRule at h
  simp only [] at h
  split at h
  · cases h
  · split at h
    · cases h
    · split at h
      · cases h
      · injection h with h
        subst h
        exact MethodToTraitListMap.update_distinct _ _ m hd

theorem Class.applyTraitPrecRules_distinct (rules : List PreClass.TraitPrecRule) :
    ∀ (m m' : MethodToTraitListMap), CandidateKeysDistinct m →
      Class.applyTraitPrecRules rules m = .ok m' → CandidateKeysDistinct m' := by
  induction rules with
  | nil =>
    intro m m' hd h
    rw [Class.applyTraitPrecRules] at h
    injection h with h; subst h; exact hd
  | cons r rest ih =>
    intro m m' hd h
    rw [Class.applyTraitPrecRules] at h
    cases h1 : Class.applyTraitPrecRule r m with
    | error e => simp [h1] at h
    | ok m1 =>
      simp only [h1] at h
      exact ih m1 m' (Class.applyTraitPrecRule_distinct hd h1) h

theorem Class.applyTraitAliasRule_distinct {env : Env} {usedTraits : List Class}
    {rule : PreClass.TraitAliasRule}
    {st st' : List (String × String) × MethodToTraitListMap} (hd : CandidateKeysDistinct st.2)
    (h : Class.applyTraitAliasRule env usedTraits rule st = .ok st') :
    CandidateKeysDistinct st'.2 := by
  unfold Class.applyTraitAliasRule at h
  simp only [] at h
  split at h
  · cases h
  · split at h
    · cases h
    · split at h
      · cases h
      · split at h
        · cases h
        · injection h with h
          subst h
          simp only []
          split
          · exact MethodToTraitListMap.update_distinct _ _ _ hd
          · split
            · exact MethodToTraitListMap.update_distinct _ _ _ hd
            · exact hd

theorem Class.applyTraitAliasRules_distinct {env : Env} {usedTraits : List Class}
    (rules : List PreClass.TraitAliasRule) :
    ∀ (st st' : List (String × String) × MethodToTraitListMap), CandidateKeysDistinct st.2 →
      Class.applyTraitAliasRules env usedTraits rules st = .ok st' →
      CandidateKeysDistinct st'.2 := by
  induction rules with
  | nil =>
    intro st st' hd h
    rw [Class.applyTraitAliasRules] at h
    injection h with h; subst h; exact hd
  | cons r rest ih =>
    intro st st' hd h
    rw [Class.applyTraitAliasRules] at h
    cases h1 : Class.applyTraitAliasRule env usedTraits r st with
    | error e => simp [h1] at h
    | ok st1 =>
      simp only [h1] at h
      exact ih st1 st' (Class.applyTraitAliasRule_distinct hd h1) h

theorem Class.traitCandidates_distinct {env : Env} {usedTraits : List Class} {this : Class}
    {st : List (String × String) × MethodToTraitListMap}
    (h : Class.traitCandidates env usedTraits this = .ok st) : CandidateKeysDistinct st.2 := by
  unfold Class.traitCandidates at h
  simp only [] at h
  cases hr : Class.applyTraitRules env usedTraits this.m_preClass
      (this.m_traitAliases, Class.findAllTraitMethods usedTraits []) with
  | error e => simp [hr] at h
  | ok st1 =>
    simp only [hr] at h
    injection h with h
    subst h
    have h0 : CandidateKeysDistinct (Class.findAllTraitMethods usedTraits []) :=
      Class.findAllTraitMethods_distinct usedTraits [] List.Pairwise.nil
    have h1 : CandidateKeysDistinct st1.2 := by
      unfold Class.applyTraitRules at hr
      cases hp : Class.applyTraitPrecRules this.m_preClass.m_traitPrecRules
          (Class.findAllTraitMethods usedTraits []) with
      | error e => simp [hp] at hr
      | ok m1 =>
        simp only [hp] at hr
        exact Class.applyTraitAliasRules_distinct _ _ _
          (Class.applyTraitPrecRules_distinct _ _ _ h0 hp) hr
    unfold CandidateKeysDistinct Class.removeSpareTraitAbstractMethods at *
    rw [List.pairwise_map]
    exact h1

/-! ## The candidates of a name -/

theorem MethodToTraitListMap.find_update_isame (f : TraitMethodList → TraitMethodList)
    (m : MethodToTraitListMap) (name n : String) (hn : isame name n = true) :
    MethodToTraitListMap.find (MethodToTraitListMap.update f m name) n =
      some (f ((MethodToTraitListMap.find m n).getD [])) := by
  induction m with
  | nil =>
    simp [MethodToTraitListMap.update, MethodToTraitListMap.find, hn]
  | cons x rest ih =>
    obtain ⟨k, l⟩ := x
    rw [MethodToTraitListMap.update]
    by_cases hk : isame k name = true
    · have hkn : isame k n = true := isame_trans hk hn
      simp [MethodToTraitListMap.find, hk, hkn]
    · have hk' : isame k name = false := by simpa using hk
      have hkn : isame k n = false := by
        cases h2 : isame k n with
        | false => rfl
        | true =>
          have := isame_trans h2 (by rw [isame_symm]; exact hn)
          rw [hk'] at this
          cases this
      unfold MethodToTraitListMap.find at ih ⊢
      simp only [hk', Bool.false_eq_true, if_false, List.find?_cons, hkn]
      exact ih

theorem MethodToTraitListMap.find_update_ne (f : TraitMethodList → TraitMethodList)
    (m : MethodToTraitListMap) (name n : String) (hn : isame name n = false) :
    MethodToTraitListMap.find (MethodToTraitListMap.update f m name) n =
      MethodToTraitListMap.find m n := by
  induction m with
  | nil =>
    simp [MethodToTraitListMap.update, MethodToTraitListMap.find, hn]
  | cons x rest ih =>
    obtain ⟨k, l⟩ := x
    rw [MethodToTraitListMap.update]
    by_cases hk : isame k name = true
    · have hkn : isame k n = false := by
        cases h2 : isame k n with
        | false => rfl
        | true =>
          have := isame_trans (by rw [isame_symm]; exact hk) h2
          rw [hn] at this
          cases this
      simp [MethodToTraitListMap.find, hk, hkn]
    · have hk' : isame k name = false := by simpa using hk
      unfold MethodToTraitListMap.find at ih ⊢
      simp only [hk', Bool.false_eq_true, if_false, List.find?_cons]
      by_cases hkn : isame k n = true
      · simp [hkn]
      · have hkn' : isame k n = false := by simpa using hkn
        simp only [hkn']
        exact ih

/-- The candidate list of `name` after the methods of one trait were collected:
the candidates of the trait under that name are appended in order. -/
theorem Class.find_findTraitMethods (trait : Class) (name : String) (l : List Func) :
    ∀ m, MethodToTraitListMap.find (Class.findTraitMethods trait l m) name =
      if (l.filter (fun f => !isSpecial f.m_name && isame f.m_name name)) = [] then
        MethodToTraitListMap.find m name
      else some ((MethodToTraitListMap.find m name).getD [] ++
        (l.filter (fun f => !isSpecial f.m_name && isame f.m_name name)).map
          (fun f => ⟨trait, f, f.m_attrs⟩)) := by
  induction l with
  | nil => intro m; simp [Class.findTraitMethods]
  | cons method rest ih =>
    intro m
    rw [Class.findTraitMethods]
    by_cases hs : isSpecial method.m_name = true
    · simp only [hs, Bool.not_true, Bool.false_eq_true, if_false]
      rw [ih m]
      simp [List.filter_cons, hs]
    · have hs' : isSpecial method.m_name = false := by simpa using hs
      simp only [hs', Bool.not_false, if_true]
      rw [ih]
      by_cases hk : isame method.m_name name = true
      · unfold MethodToTraitListMap.pushBack
        rw [MethodToTraitListMap.find_update_isame _ m _ _ hk]
        simp only [List.filter_cons, hs', hk, Bool.not_false, Bool.and_self, if_true,
          Option.getD_some, List.map_cons, List.append_assoc, List.singleton_append,
          reduceCtorEq, if_false]
        split <;> simp_all
      · have hk' : isame method.m_name name = false := by simpa using hk
        unfold MethodToTraitListMap.pushBack
        rw [MethodToTraitListMap.find_update_ne _ m _ _ hk']
        simp [List.filter_cons, hs', hk']

theorem Class.find_removeSpare (m : MethodToTraitListMap) (name : String) :
    MethodToTraitListMap.find (Class.removeSpareTraitAbstractMethods m) name =
      (MethodToTraitListMap.find m name).map Class.removeSpareAbstractInList := by
  unfold Class.removeSpareTraitAbstractMethods MethodToTraitListMap.find
  induction m with
  | nil => rfl
  | cons x rest ih =>
    simp only [List.map_cons, List.find?_cons]
    by_cases hk : isame x.1 name = true
    · simp [hk]
    · have hk' : isame x.1 name = false := by simpa using hk
      simp only [hk']
      exact ih

theorem Class.removeSpareAbstractInList_single (tm : TraitMethod) :
    Class.removeSpareAbstractInList [tm] = [tm] := by
  unfold Class.removeSpareAbstractInList
  by_cases ha : hasAttr tm.m_modifiers AttrAbstract = true
  · simp [ha, List.countP_cons]
  · have ha' : hasAttr tm.m_modifiers AttrAbstract = false := by simpa using ha
    simp [ha', Class.eraseSpareAbstract]

theorem Class.copyParentMethods_find_none (name : String) (l : List Func) :
    ∀ (i : Nat) (st : MethodMap × List Nat), st.1.find name = none →
      (∀ f, f ∈ l → isame f.m_name name = false) →
      (Class.copyParentMethods l i st).1.find name = none := by
  induction l with
  | nil => intro i st h _; exact h
  | cons f rest ih =>
    intro i st h hno
    rw [Class.copyParentMethods]
    apply ih
    · simp only []
      rw [IndexedStringMap.find_add]
      simp [keyEq, hno f (List.mem_cons_self _ _), h]
    · exact fun g hg => hno g (List.mem_cons_of_mem _ hg)

theorem Class.inheritedMethods_find_none (parent : Option Class) (name : String)
    (hpar : ∀ p, parent = some p → ∀ f, f ∈ p.m_methods.m_list → isame f.m_name name = false) :
    (Class.inheritedMethods parent).1.find name = none := by
  cases parent with
  | none => rfl
  | some p =>
    exact Class.copyParentMethods_find_none name _ 0 _ rfl (hpar p rfl)

theorem Class.importModifiers_self (f : Func) (h : f.m_attrs < 2 ^ 32) :
    Class.importModifiers f f.m_attrs = f.m_attrs := by
  unfold Class.importModifiers
  split
  · rfl
  · simp only [clearBits]
    apply Nat.eq_of_testBit_eq
    intro i
    simp only [Nat.testBit_or, Nat.testBit_and, Nat.testBit_xor]
    have h32 : (0xFFFFFFFF : Nat) = 2 ^ 32 - 1 := by norm_num
    rw [h32, Nat.testBit_two_pow_sub_one]
    by_cases hi : i < 32
    · simp only [hi, decide_True]
      generalize (Nat.testBit AttrPublic i || Nat.testBit AttrProtected i ||
        Nat.testBit AttrPrivate i || Nat.testBit AttrAbstract i || Nat.testBit AttrFinal i) = q
      cases Nat.testBit f.m_attrs i <;> cases q <;> rfl
    · have : Nat.testBit f.m_attrs i = false := by
        apply Nat.testBit_lt_two_pow
        calc f.m_attrs < 2 ^ 32 := h
          _ ≤ 2 ^ i := Nat.pow_le_pow_right (by norm_num) (by omega)
      simp [this]

theorem exFooCandidates_distinct : DistinctTraits exFooCandidates := by
  unfold DistinctTraits exFooCandidates
  refine List.Pairwise.cons ?_ (List.Pairwise.cons ?_ List.Pairwise.nil)
  · intro y hy
    rw [List.mem_singleton] at hy
    subst hy
    rfl
  · intro y hy
    cases hy

theorem exUsePrefer_linked : Class.newClass envTraits 33 preUsePrefer none = .ok exUsePrefer := by
  rfl

theorem exUseAbs_linked :
    Class.newClass envAbs 36 preUseAbs (some exFooBase) = .ok exUseAbs := by
  rfl

/-- Counterexample to C3 as stated.  First, the rule `prefer A over A` for
`foo`, applied to the candidates of `A` and `B`: the name has a candidate list,
a candidate comes from `A`, and the only trait named in the excluded set (`A`)
has a candidate, yet the rule fails.  Second, the class `UseAbs` extends
`FooBase`, which declares `foo`, and uses the traits `C` (with an abstract
`foo`) and `B` under the rule `prefer C over B`; it declares no `foo`, it links,
and its method `foo` is the inherited method of `FooBase`, not a clone of the
method of `C`. -/
theorem C3_counterexample :
    (Class.applyTraitPrecRule ⟨"foo", "A", ["A"]⟩ [("foo", exFooCandidates)]
        = .error (.unknownTrait "A") ∧
      MethodToTraitListMap.find [("foo", exFooCandidates)] "foo" = some exFooCandidates ∧
      DistinctTraits exFooCandidates ∧
      (∃ tm, tm ∈ exFooCandidates ∧ tm.m_trait.name = "A") ∧
      (∀ s, s ∈ ["A"] → ∃ tm, tm ∈ exFooCandidates ∧ isame s tm.m_trait.name = true)) ∧
    (Class.loadUsedTraits envAbs preUseAbs.m_name preUseAbs.m_usedTraits
        = .ok [exTraitC, exTraitB] ∧
      (Class.candidatesOf exTraitC "foo").map (fun tm => tm.m_method.m_shared) = [7] ∧
      (Class.candidatesOf exTraitB "foo").map (fun tm => tm.m_method.m_shared) = [6] ∧
      preUseAbs.m_traitPrecRules = [⟨"foo", exTraitC.name, [exTraitB.name]⟩] ∧
      preUseAbs.hasMethod "foo" = false ∧
      Class.newClass envAbs 36 preUseAbs (some exFooBase) = .ok exUseAbs ∧
      (exUseAbs.lookupMethod "foo").map (fun f => (f.m_cls, f.m_shared, f.m_preClass))
        = some (some 35, 8, "FooBase")) := by
  refine ⟨⟨rfl, rfl, exFooCandidates_distinct, ⟨_, List.mem_cons_self _ _, rfl⟩, ?_⟩,
    ⟨rfl, rfl, rfl, rfl, rfl, rfl, rfl⟩⟩
  intro s hs
  rw [List.mem_singleton] at hs
  subst hs
  exact ⟨_, List.mem_cons_self _ _, rfl⟩

/-! ## The order of the declared properties -/

theorem Class.Prop.Derives.derives_refl (p : Class.Prop) : p.Derives p :=
  ⟨rfl, rfl, fun h => ⟨rfl, h⟩⟩

theorem Class.Prop.Derives.derives_trans {p q r : Class.Prop} (h1 : p.Derives q) (h2 : q.Derives r) :
    p.Derives r :=
  ⟨h2.1.trans h1.1, h2.2.1.trans h1.2.1, fun h =>
    ⟨((h2.2.2 (h1.2.2 h).2).1).trans (h1.2.2 h).1, (h2.2.2 (h1.2.2 h).2).2⟩⟩

theorem PropsEvolve.evolve_refl (self : ClassId) (l : List Class.Prop) : PropsEvolve self l l :=
  ⟨Nat.le_refl _, fun _ p hp => ⟨p, hp, Class.Prop.Derives.derives_refl p⟩,
    fun j _ hj hle => absurd (List.getElem?_lt_of_some hj) (by omega)⟩

theorem PropsEvolve.evolve_trans {self : ClassId} {l k m : List Class.Prop}
    (h1 : PropsEvolve self l k) (h2 : PropsEvolve self k m) : PropsEvolve self l m := by
  obtain ⟨a1, a2, a3⟩ := h1
  obtain ⟨b1, b2, b3⟩ := h2
  refine ⟨Nat.le_trans a1 b1, ?_, ?_⟩
  · intro i p hp
    obtain ⟨q, hq, d1⟩ := a2 i p hp
    obtain ⟨r, hr, d2⟩ := b2 i q hq
    exact ⟨r, hr, d1.derives_trans d2⟩
  · intro j q hj hle
    by_cases hlt : j < k.length
    · have hk : k[j]? = some (k.get ⟨j, hlt⟩) := List.getElem?_eq_getElem hlt
      obtain ⟨r, hr, d2⟩ := b2 j _ hk
      rw [hj] at hr
      injection hr with hr
      subst hr
      rw [d2.2.1]
      exact a3 j _ hk hle
    · exact b3 j q hj (by omega)

theorem PropsEvolve.append (self : ClassId) (l : List Class.Prop) (q : Class.Prop)
    (hq : q.m_class = self) : PropsEvolve self l (l ++ [q]) := by
  refine ⟨by simp, ?_, ?_⟩
  · intro i p hp
    refine ⟨p, ?_, Class.Prop.Derives.derives_refl p⟩
    rw [List.getElem?_append_left (List.getElem?_lt_of_some hp)]
    exact hp
  · intro j q1 hj hle
    rw [List.getElem?_append_right hle] at hj
    cases hjl : j - l.length with
    | zero =>
      rw [hjl] at hj
      simp at hj
      rw [← hj]; exact hq
    | succ k =>
      rw [hjl] at hj
      simp at hj

theorem PropsEvolve.evolve_set (self : ClassId) (l : List Class.Prop) {i : Nat} {p0 v : Class.Prop}
    (hi : l[i]? = some p0) (hd : p0.Derives v) : PropsEvolve self l (l.set i v) := by
  refine ⟨by simp, ?_, ?_⟩
  · intro k p hp
    by_cases hk : i = k
    · subst hk
      rw [hi] at hp
      injection hp with hp
      subst hp
      refine ⟨v, ?_, hd⟩
      rw [List.getElem?_set_eq_of_lt _ (List.getElem?_lt_of_some hi)]
    · refine ⟨p, ?_, Class.Prop.Derives.derives_refl p⟩
      rw [List.getElem?_set_ne hk]
      exact hp
  · intro j q hj hle
    have := List.getElem?_lt_of_some hj
    simp at this
    omega

theorem Class.copyParentProps_list (l : List Class.Prop) :
    ∀ (st : PropMap × Nat), (Class.copyParentProps l st).1.m_list = st.1.m_list ++ l := by
  induction l with
  | nil => intro st; simp [Class.copyParentProps]
  | cons p rest ih =>
    intro st
    rw [Class.copyParentProps]
    simp only []
    split
    · rw [ih]
      simp [IndexedStringMap.add]
    · rw [ih]
      simp [IndexedStringMap.addUnnamed]

theorem Class.inheritedProps_list (parent : Option Class) :
    (Class.inheritedProps parent).curPropMap.m_list = Class.parentPropList parent := by
  cases parent with
  | none => rfl
  | some p =>
    simp only [Class.inheritedProps, Class.parentPropList]
    rw [Class.copyParentProps_list]
    rfl

theorem visOf_or_deepInit (a : Attr) : visOf (a ||| AttrDeepInit) = visOf a := by
  unfold visOf
  rw [Nat.and_distrib_right]
  have : AttrDeepInit &&& visMask = 0 := by decide
  rw [this]
  simp

theorem visOf_clear_deepInit (a : Attr) : visOf (clearBits a AttrDeepInit) = visOf a := by
  unfold visOf clearBits
  rw [Nat.land_assoc]
  have : (0xFFFFFFFF ^^^ AttrDeepInit) &&& visMask = visMask := by decide
  rw [this]

theorem copyDeepInitAttr_derives (preProp : PreClass.Prop) (prop : Class.Prop) :
    prop.Derives (copyDeepInitAttr preProp prop) := by
  unfold copyDeepInitAttr
  split
  · exact ⟨rfl, rfl, fun h => ⟨rfl, by simp only []; rw [visOf_or_deepInit]; exact h⟩⟩
  · exact ⟨rfl, rfl, fun h => ⟨rfl, by simp only []; rw [visOf_clear_deepInit]; exact h⟩⟩

theorem Class.appendProp_evolve {this : Class} {preProp : PreClass.Prop} {st st' : PropState}
    (h : Class.appendProp this preProp st = .ok st') :
    PropsEvolve this.m_self st.curPropMap.m_list st'.curPropMap.m_list ∧
      st'.curSPropMap = st.curSPropMap := by
  unfold Class.appendProp at h
  cases hv : this.m_preClass.lookupPropVal preProp.m_name with
  | error e => simp [hv] at h
  | ok v =>
    simp only [hv] at h
    injection h with h
    subst h
    exact ⟨PropsEvolve.append _ _ _ rfl, rfl⟩

theorem Class.overlayProp_evolve {this : Class} {preProp : PreClass.Prop} {slot : Nat}
    {prop p0 : Class.Prop} {st st' : PropState} (hslot : st.curPropMap.m_list[slot]? = some p0)
    (hd : p0.Derives prop) (h : Class.overlayProp this preProp slot prop st = .ok st') :
    PropsEvolve this.m_self st.curPropMap.m_list st'.curPropMap.m_list ∧
      st'.curSPropMap = st.curSPropMap := by
  unfold Class.overlayProp at h
  cases hv : this.m_preClass.lookupPropVal preProp.m_name with
  | error e => simp [hv] at h
  | ok v =>
    simp only [hv] at h
    injection h with h
    subst h
    exact ⟨PropsEvolve.evolve_set _ _ hslot (hd.derives_trans (copyDeepInitAttr_derives preProp prop)), rfl⟩

theorem Class.addOwnInstanceProp_evolve {parent : Option Class} {this : Class}
    {preProp : PreClass.Prop} {st st' : PropState}
    (h : Class.addOwnInstanceProp parent this preProp st = .ok st') :
    PropsEvolve this.m_self st.curPropMap.m_list st'.curPropMap.m_list ∧
      st'.curSPropMap = st.curSPropMap := by
  unfold Class.addOwnInstanceProp at h
  split at h
  · cases h
  · simp only [] at h
    split at h
    · cases h
    · have hdeep : ∀ s : PropState,
          (if hasAttr preProp.m_attrs AttrDeepInit = true then
            { s with m_hasDeepInitProps := true } else s).curPropMap = s.curPropMap ∧
          (if hasAttr preProp.m_attrs AttrDeepInit = true then
            { s with m_hasDeepInitProps := true } else s).curSPropMap = s.curSPropMap := by
        intro s; split <;> exact ⟨rfl, rfl⟩
      generalize hst1 : (if hasAttr preProp.m_attrs AttrDeepInit = true then
            { st with m_hasDeepInitProps := true } else st) = st1 at h
      have e1 : st1.curPropMap = st.curPropMap := by rw [← hst1]; exact (hdeep st).1
      have e2 : st1.curSPropMap = st.curSPropMap := by rw [← hst1]; exact (hdeep st).2
      rw [← e1, ← e2]
      split at h
      · exact Class.appendProp_evolve h
      · split at h
        · cases hl : st1.curPropMap.lookup preProp.m_name with
          | none =>
            simp only [hl] at h
            exact Class.appendProp_evolve h
          | some r =>
            obtain ⟨slot, prop⟩ := r
            simp only [hl] at h
            exact Class.overlayProp_evolve (IndexedStringMap.lookup_eq_some.mp hl).2
              (Class.Prop.Derives.derives_refl prop) h
        · split at h
          · cases hl : st1.curPropMap.lookup preProp.m_name with
            | none =>
              simp only [hl] at h
              exact Class.appendProp_evolve h
            | some r =>
              obtain ⟨slot, prop⟩ := r
              simp only [hl] at h
              refine Class.overlayProp_evolve (IndexedStringMap.lookup_eq_some.mp hl).2 ?_ h
              split
              · rename_i hprot
                refine ⟨rfl, rfl, fun hpriv => ?_⟩
                rw [hprot] at hpriv
                exact absurd hpriv (by decide)
              · exact Class.Prop.Derives.derives_refl prop
          · injection h with h
            subst h
            exact ⟨PropsEvolve.evolve_refl _ _, rfl⟩

theorem Class.addOwnStaticProp_props {env : Env} {parent : Option Class} {this : Class}
    {preProp : PreClass.Prop} {st st' : PropState}
    (h : Class.addOwnStaticProp env parent this preProp st = .ok st') :
    st'.curPropMap = st.curPropMap := by
  unfold Class.addOwnStaticProp at h
  split at h
  · split at h <;> cases h
  · simp only [] at h
    split at h
    · cases h
    · cases hv : this.m_preClass.lookupPropVal preProp.m_name with
      | error e => simp [hv] at h
      | ok v =>
        simp only [hv] at h
        cases hl : st.curSPropMap.lookup preProp.m_name with
        | none =>
          simp only [hl] at h
          injection h with h
          subst h
          rfl
        | some r =>
          simp only [hl] at h
          injection h with h
          subst h
          rfl

theorem Class.addOwnProp_evolve {env : Env} {parent : Option Class} {this : Class}
    {preProp : PreClass.Prop} {st st' : PropState}
    (h : Class.addOwnProp env parent this preProp st = .ok st') :
    PropsEvolve this.m_self st.curPropMap.m_list st'.curPropMap.m_list := by
  unfold Class.addOwnProp at h
  split at h
  · exact (Class.addOwnInstanceProp_evolve h).1
  · rw [Class.addOwnStaticProp_props h]
    exact PropsEvolve.evolve_refl _ _

theorem Class.addOwnProps_evolve {env : Env} {parent : Option Class} {this : Class}
    (l : List PreClass.Prop) :
    ∀ (st st' : PropState), Class.addOwnProps env parent this l st = .ok st' →
      PropsEvolve this.m_self st.curPropMap.m_list st'.curPropMap.m_list := by
  induction l with
  | nil =>
    intro st st' h
    rw [Class.addOwnProps] at h
    injection h with h
    subst h
    exact PropsEvolve.evolve_refl _ _
  | cons preProp rest ih =>
    intro st st' h
    rw [Class.addOwnProps] at h
    cases h1 : Class.addOwnProp env parent this preProp st with
    | error e => simp [h1] at h
    | ok st1 =>
      simp only [h1] at h
      exact (Class.addOwnProp_evolve h1).evolve_trans (ih st1 st' h)

theorem Class.importTraitInstanceProp_evolve {env : Env} {this : Class}
    {traitProp : Class.Prop} {traitPropVal : TypedValueAux} {st st' : PropState}
    (h : Class.importTraitInstanceProp env this traitProp traitPropVal st = .ok st') :
    PropsEvolve this.m_self st.curPropMap.m_list st'.curPropMap.m_list := by
  unfold Class.importTraitInstanceProp at h
  cases hf : st.curPropMap.find traitProp.m_name with
  | none =>
    simp only [hf] at h
    injection h with h
    subst h
    simp only []
    split <;> split <;> exact PropsEvolve.append _ _ _ rfl
  | some slot =>
    simp only [hf] at h
    split at h
    · split at h
      · cases h
      · injection h with h
        subst h
        exact PropsEvolve.evolve_refl _ _
    · cases h

theorem Class.importTraitInstanceProps_evolve {env : Env} {this : Class} {trait : Class}
    (l : List Class.Prop) :
    ∀ (p : Nat) (st st' : PropState),
      Class.importTraitInstanceProps env this trait l p st = .ok st' →
      PropsEvolve this.m_self st.curPropMap.m_list st'.curPropMap.m_list := by
  induction l with
  | nil =>
    intro p st st' h
    rw [Class.importTraitInstanceProps] at h
    injection h with h
    subst h
    exact PropsEvolve.evolve_refl _ _
  | cons traitProp rest ih =>
    intro p st st' h
    rw [Class.importTraitInstanceProps] at h
    cases hv : trait.m_declPropInit[p]? with
    | none => simp [hv] at h
    | some v =>
      simp only [hv] at h
      cases h1 : Class.importTraitInstanceProp env this traitProp v st with
      | error e => simp [h1] at h
      | ok st1 =>
        simp only [h1] at h
        exact (Class.importTraitInstanceProp_evolve h1).evolve_trans (ih (p + 1) st1 st' h)

theorem Class.importTraitStaticProp_props {env : Env} {this : Class}
    {traitProp : Class.SProp} {st st' : PropState}
    (h : Class.importTraitStaticProp env this traitProp st = .ok st') :
    st'.curPropMap = st.curPropMap := by
  unfold Class.importTraitStaticProp at h
  split at h
  · cases h
  · cases hf : st.curSPropMap.find traitProp.m_name with
    | none =>
      simp only [hf] at h
      injection h with h
      subst h
      rfl
    | some slot =>
      simp only [hf] at h
      cases hg : st.curSPropMap.get? slot with
      | none => simp [hg] at h
      | some prevProp =>
        simp only [hg] at h
        split at h
        · cases h
        · split at h
          · cases h
          · injection h with h
            subst h
            rfl

theorem Class.importTraitStaticProps_props {env : Env} {this : Class}
    (l : List Class.SProp) :
    ∀ (st st' : PropState), Class.importTraitStaticProps env this l st = .ok st' →
      st'.curPropMap = st.curPropMap := by
  induction l with
  | nil =>
    intro st st' h
    rw [Class.importTraitStaticProps] at h
    injection h with h
    subst h
    rfl
  | cons traitProp rest ih =>
    intro st st' h
    rw [Class.importTraitStaticProps] at h
    cases h1 : Class.importTraitStaticProp env this traitProp st with
    | error e => simp [h1] at h
    | ok st1 =>
      simp only [h1] at h
      rw [ih st1 st' h, Class.importTraitStaticProp_props h1]

theorem Class.importTraitPropsLoop_evolve {env : Env} {this : Class} (ts : List Class) :
    ∀ (st st' : PropState), Class.importTraitPropsLoop env this ts st = .ok st' →
      PropsEvolve this.m_self st.curPropMap.m_list st'.curPropMap.m_list := by
  induction ts with
  | nil =>
    intro st st' h
    rw [Class.importTraitPropsLoop] at h
    injection h with h
    subst h
    exact PropsEvolve.evolve_refl _ _
  | cons trait rest ih =>
    intro st st' h
    rw [Class.importTraitPropsLoop] at h
    cases h1 : Class.importTraitInstanceProps env this trait trait.m_declProperties.m_list 0 st with
    | error e => simp [h1] at h
    | ok st1 =>
      simp only [h1] at h
      cases h2 : Class.importTraitStaticProps env this trait.m_staticProperties.m_list st1 with
      | error e => simp [h2] at h
      | ok st2 =>
        simp only [h2] at h
        have e1 := Class.importTraitInstanceProps_evolve _ 0 st st1 h1
        have e2 := Class.importTraitStaticProps_props _ st1 st2 h2
        have e3 := ih st2 st' h
        rw [e2] at e3
        exact e1.evolve_trans e3

theorem Class.buildProps_evolve {env : Env} {parent : Option Class} {usedTraits : List Class}
    {this : Class} {st : PropState}
    (h : Class.buildProps env parent usedTraits this = .ok st) :
    PropsEvolve this.m_self (Class.parentPropList parent) st.curPropMap.m_list := by
  unfold Class.buildProps at h
  cases h1 : Class.addOwnProps env parent this this.m_preClass.m_properties
      (Class.inheritedProps parent) with
  | error e => simp [h1] at h
  | ok st1 =>
    simp only [h1] at h
    have e1 := Class.addOwnProps_evolve _ _ _ h1
    rw [Class.inheritedProps_list] at e1
    unfold Class.importTraitProps at h
    split at h
    · injection h with h
      subst h
      exact e1
    · exact e1.evolve_trans (Class.importTraitPropsLoop_evolve _ _ _ h)

/-- C4: for every class that links with a parent, the declared-property table
of the class is at least as long as that of the parent; every slot of the
table of the parent holds in the table of the class a property of the same name
and the same declaring class (a private property of the parent also keeps its
mangled name); every slot from the size of the table of the parent on holds a
property whose declaring class is the class itself; so a property that the
class declares, when no property of the parent is declared by the class, has a
slot index greater than or equal to the size of the table of the parent. -/
theorem C4_declared_props_append_only (env : Env) (self : ClassId) (pre : PreClass)
    (parent cls : Class) (h : Class.newClass env self pre (some parent) = .ok cls) :
    parent.m_declProperties.size ≤ cls.m_declProperties.size ∧
    (∀ (i : Nat) (p : Class.Prop), parent.m_declProperties.get? i = some p →
      ∃ q, cls.m_declProperties.get? i = some q ∧ q.m_name = p.m_name ∧
        q.m_class = p.m_class ∧
        (visOf p.m_attrs = AttrPrivate →
          q.m_mangledName = p.m_mangledName ∧ visOf q.m_attrs = AttrPrivate)) ∧
    (∀ (j : Nat) (q : Class.Prop), cls.m_declProperties.get? j = some q →
      parent.m_declProperties.size ≤ j → q.m_class = self) ∧
    ((∀ p, p ∈ parent.m_declProperties.m_list → p.m_class ≠ self) →
      ∀ (j : Nat) (q : Class.Prop), cls.m_declProperties.get? j = some q →
        q.m_class = self → parent.m_declProperties.size ≤ j) := by
  obtain ⟨usedTraits, c5, st, -, s1, -, -, -, hb, hd, -⟩ := Class.newClass_props h
  have hev := Class.buildProps_evolve hb
  rw [s1, ← hd] at hev
  obtain ⟨a1, a2, a3⟩ := hev
  refine ⟨a1, a2, a3, ?_⟩
  intro hfresh j q hj hq
  by_contra hlt
  have hlt' : j < parent.m_declProperties.m_list.length := by
    unfold IndexedStringMap.size at hlt
    omega
  have hp : parent.m_declProperties.m_list[j]? = some (parent.m_declProperties.m_list.get ⟨j, hlt'⟩) :=
    List.getElem?_eq_getElem hlt'
  obtain ⟨q', hq', d⟩ := a2 j _ hp
  unfold IndexedStringMap.get? at hj
  rw [hj] at hq'
  injection hq' with hq'
  subst hq'
  exact hfresh _ (List.get_mem _ _ _) (d.2.1.symm.trans hq)

theorem exPrivChild_linked :
    Class.newClass envPriv 41 prePrivChild (some exPrivParent) = .ok exPrivChild := by rfl

/-- Witness of C4: `Q extends P`, where `P` declares a private `p` and a
protected `q` and `Q` declares a private `p`, a public `q` and a public `r`.
The two slots of `P` keep name and declaring class in `Q`, and the two
properties that `Q` adds sit in the slots 2 and 3. -/
theorem C4_declared_props_append_only_witness :
    Class.newClass envPriv 41 prePrivChild (some exPrivParent) = .ok exPrivChild ∧
    exPrivParent.m_declProperties.size ≤ exPrivChild.m_declProperties.size ∧
    (∀ (j : Nat) (q : Class.Prop), exPrivChild.m_declProperties.get? j = some q →
      exPrivParent.m_declProperties.size ≤ j → q.m_class = 41) ∧
    exPrivParent.m_declProperties.m_list.map (fun p => (p.m_name, p.m_class))
      = [("p", 40), ("q", 40)] ∧
    exPrivChild.m_declProperties.m_list.map (fun p => (p.m_name, p.m_class))
      = [("p", 40), ("q", 40), ("p", 41), ("r", 41)] :=
  ⟨exPrivChild_linked,
    (C4_declared_props_append_only envPriv 41 prePrivChild exPrivParent exPrivChild
      exPrivChild_linked).1,
    (C4_declared_props_append_only envPriv 41 prePrivChild exPrivParent exPrivChild
      exPrivChild_linked).2.2.1,
    rfl, rfl⟩

/-! ## Private properties of the class itself -/

theorem PrivOwnAt.privOwn_step {self : ClassId} {mangled p : String} {n0 : Nat} {m m' : PropMap}
    (h : PrivOwnAt self mangled p n0 m) (hev : PropsEvolve self m.m_list m'.m_list)
    (hfind : m'.find p = m.find p) : PrivOwnAt self mangled p n0 m' := by
  obtain ⟨j, q, h1, h2, h3, h4, h5, h6, h7⟩ := h
  obtain ⟨q', hq', d⟩ := hev.2.1 j q h2
  exact ⟨j, q', hfind.trans h1, hq', h3, d.1.trans h4, d.2.1.trans h5,
    (d.2.2 h7).1.trans h6, (d.2.2 h7).2⟩

theorem Class.appendProp_find {this : Class} {preProp : PreClass.Prop} {st st' : PropState}
    (h : Class.appendProp this preProp st = .ok st') (p : String) :
    st'.curPropMap.find p =
      if preProp.m_name = p then some st.curPropMap.m_list.length else st.curPropMap.find p := by
  unfold Class.appendProp at h
  cases hv : this.m_preClass.lookupPropVal preProp.m_name with
  | error e => simp [hv] at h
  | ok v =>
    simp only [hv] at h
    injection h with h
    subst h
    simp only []
    rw [IndexedStringMap.find_add]
    simp [keyEq]

theorem Class.appendProp_last {this : Class} {preProp : PreClass.Prop} {st st' : PropState}
    (h : Class.appendProp this preProp st = .ok st') :
    st'.curPropMap.m_list[st.curPropMap.m_list.length]? = some (Class.newProp this preProp) := by
  unfold Class.appendProp at h
  cases hv : this.m_preClass.lookupPropVal preProp.m_name with
  | error e => simp [hv] at h
  | ok v =>
    simp only [hv] at h
    injection h with h
    subst h
    simp [IndexedStringMap.add]

theorem Class.overlayProp_find {this : Class} {preProp : PreClass.Prop} {slot : Nat}
    {prop : Class.Prop} {st st' : PropState}
    (h : Class.overlayProp this preProp slot prop st = .ok st') (p : String) :
    st'.curPropMap.find p = st.curPropMap.find p := by
  unfold Class.overlayProp at h
  cases hv : this.m_preClass.lookupPropVal preProp.m_name with
  | error e => simp [hv] at h
  | ok v =>
    simp only [hv] at h
    injection h with h
    subst h
    rfl

theorem Class.addOwnInstanceProp_find {parent : Option Class} {this : Class}
    {preProp : PreClass.Prop} {st st' : PropState}
    (h : Class.addOwnInstanceProp parent this preProp st = .ok st') (p : String)
    (hne : preProp.m_name ≠ p) : st'.curPropMap.find p = st.curPropMap.find p := by
  unfold Class.addOwnInstanceProp at h
  split at h
  · cases h
  · simp only [] at h
    split at h
    · cases h
    · generalize hst1 : (if hasAttr preProp.m_attrs AttrDeepInit = true then
            { st with m_hasDeepInitProps := true } else st) = st1 at h
      have e1 : st1.curPropMap = st.curPropMap := by rw [← hst1]; split <;> rfl
      rw [← e1]
      split at h
      · rw [Class.appendProp_find h, if_neg hne]
      · split at h
        · cases hl : st1.curPropMap.lookup preProp.m_name with
          | none =>
            simp only [hl] at h
            rw [Class.appendProp_find h, if_neg hne]
          | some r =>
            simp only [hl] at h
            exact Class.overlayProp_find h p
        · split at h
          · cases hl : st1.curPropMap.lookup preProp.m_name with
            | none =>
              simp only [hl] at h
              rw [Class.appendProp_find h, if_neg hne]
            | some r =>
              simp only [hl] at h
              exact Class.overlayProp_find h p
          · injection h with h
            subst h
            rfl

theorem PreClass.Prop.mangledName_private (className : String) (d : PreClass.Prop)
    (h : visOf d.m_attrs = AttrPrivate) :
    d.mangledName className = "\x00" ++ cStringOf className ++ "\x00" ++ cStringOf d.m_name := by
  unfold PreClass.Prop.mangledName PreClass.manglePropName
  rw [h]
  rfl

/-- The step of `setProperties` for a private declaration that is not static,
when it raises no error: the declaration gets a new slot at the end of the
table, and its name resolves to that slot. -/
theorem Class.addOwnInstanceProp_private {parent : Option Class} {this : Class}
    {d : PreClass.Prop} {st st' : PropState} (hpriv : visOf d.m_attrs = AttrPrivate)
    (h : Class.addOwnInstanceProp parent this d st = .ok st') :
    PrivOwnAt this.m_self ("\x00" ++ cStringOf this.m_preClass.m_name ++ "\x00" ++ cStringOf d.m_name) d.m_name
      st.curPropMap.m_list.length st'.curPropMap := by
  unfold Class.addOwnInstanceProp at h
  split at h
  · cases h
  · simp only [] at h
    split at h
    · cases h
    · generalize hst1 : (if hasAttr d.m_attrs AttrDeepInit = true then
            { st with m_hasDeepInitProps := true } else st) = st1 at h
      have e1 : st1.curPropMap = st.curPropMap := by rw [← hst1]; split <;> rfl
      rw [← e1]
      refine ⟨st1.curPropMap.m_list.length, Class.newProp this d, ?_, Class.appendProp_last h,
        Nat.le_refl _, rfl, rfl, ?_, hpriv⟩
      · rw [Class.appendProp_find h, if_pos rfl]
      · exact PreClass.Prop.mangledName_private _ d hpriv

theorem Class.addOwnProp_privOwn {env : Env} {parent : Option Class} {this : Class}
    {d : PreClass.Prop} {st st' : PropState} {mangled p : String} {n0 : Nat}
    (h : Class.addOwnProp env parent this d st = .ok st') (hne : d.m_name ≠ p)
    (hown : PrivOwnAt this.m_self mangled p n0 st.curPropMap) :
    PrivOwnAt this.m_self mangled p n0 st'.curPropMap := by
  refine hown.privOwn_step (Class.addOwnProp_evolve h) ?_
  unfold Class.addOwnProp at h
  split at h
  · exact Class.addOwnInstanceProp_find h p hne
  · rw [Class.addOwnStaticProp_props h]

theorem PrivOwnAt.privOwn_mono {self : ClassId} {mangled p : String} {n0 n1 : Nat} {m : PropMap}
    (h : PrivOwnAt self mangled p n1 m) (hle : n0 ≤ n1) : PrivOwnAt self mangled p n0 m := by
  obtain ⟨j, q, h1, h2, h3, h4⟩ := h
  exact ⟨j, q, h1, h2, Nat.le_trans hle h3, h4⟩

theorem Class.addOwnProps_privOwn {env : Env} {parent : Option Class} {this : Class}
    {d : PreClass.Prop} {n0 : Nat} (hpriv : visOf d.m_attrs = AttrPrivate)
    (hinst : hasAttr d.m_attrs AttrStatic = false) (l : List PreClass.Prop) :
    ∀ (st st' : PropState), Class.addOwnProps env parent this l st = .ok st' →
      l.Pairwise (fun a b => a.m_name ≠ b.m_name) →
      n0 ≤ st.curPropMap.m_list.length →
      (d ∈ l ∨
        (PrivOwnAt this.m_self ("\x00" ++ cStringOf this.m_preClass.m_name ++ "\x00" ++ cStringOf d.m_name) d.m_name
            n0 st.curPropMap ∧ ∀ d', d' ∈ l → d'.m_name ≠ d.m_name)) →
      PrivOwnAt this.m_self ("\x00" ++ cStringOf this.m_preClass.m_name ++ "\x00" ++ cStringOf d.m_name) d.m_name
        n0 st'.curPropMap := by
  induction l with
  | nil =>
    intro st st' h _ _ hc
    rw [Class.addOwnProps] at h
    injection h with h
    subst h
    rcases hc with hc | hc
    · cases hc
    · exact hc.1
  | cons d' rest ih =>
    intro st st' h hpw hn0 hc
    rw [Class.addOwnProps] at h
    rw [List.pairwise_cons] at hpw
    cases h1 : Class.addOwnProp env parent this d' st with
    | error e => simp [h1] at h
    | ok st1 =>
      simp only [h1] at h
      have hlen : n0 ≤ st1.curPropMap.m_list.length :=
        Nat.le_trans hn0 (Class.addOwnProp_evolve h1).1
      apply ih st1 st' h hpw.2 hlen
      by_cases hd : d' = d
      · subst hd
        right
        refine ⟨?_, fun d2 hd2 => fun e => hpw.1 d2 hd2 e.symm⟩
        unfold Class.addOwnProp at h1
        simp only [hinst, Bool.not_false, if_true] at h1
        exact (Class.addOwnInstanceProp_private hpriv h1).privOwn_mono hn0
      · rcases hc with hc | hc
        · rw [List.mem_cons] at hc
          rcases hc with hc | hc
          · exact absurd hc.symm hd
          · exact Or.inl hc
        · right
          exact ⟨Class.addOwnProp_privOwn h1 (hc.2 d' (List.mem_cons_self _ _)) hc.1,
            fun d2 hd2 => hc.2 d2 (List.mem_cons_of_mem _ hd2)⟩

theorem Class.importTraitInstanceProp_find {env : Env} {this : Class}
    {traitProp : Class.Prop} {traitPropVal : TypedValueAux} {st st' : PropState}
    (h : Class.importTraitInstanceProp env this traitProp traitPropVal st = .ok st')
    {p : String} {j : Nat} (hp : st.curPropMap.find p = some j) :
    st'.curPropMap.find p = some j := by
  unfold Class.importTraitInstanceProp at h
  cases hf : st.curPropMap.find traitProp.m_name with
  | none =>
    simp only [hf] at h
    injection h with h
    subst h
    have hne : traitProp.m_name ≠ p := by
      intro e
      rw [e, hp] at hf
      cases hf
    simp only []
    split <;> split <;>
      (rw [IndexedStringMap.find_add]; simp [keyEq, hne, hp])
  | some slot =>
    simp only [hf] at h
    split at h
    · split at h
      · cases h
      · injection h with h
        subst h
        exact hp
    · cases h

theorem Class.importTraitInstanceProps_privOwn {env : Env} {this : Class} {trait : Class}
    {mangled p : String} {n0 : Nat} (l : List Class.Prop) :
    ∀ (k : Nat) (st st' : PropState),
      Class.importTraitInstanceProps env this trait l k st = .ok st' →
      PrivOwnAt this.m_self mangled p n0 st.curPropMap →
      PrivOwnAt this.m_self mangled p n0 st'.curPropMap := by
  induction l with
  | nil =>
    intro k st st' h hown
    rw [Class.importTraitInstanceProps] at h
    injection h with h
    subst h
    exact hown
  | cons traitProp rest ih =>
    intro k st st' h hown
    rw [Class.importTraitInstanceProps] at h
    cases hv : trait.m_declPropInit[k]? with
    | none => simp [hv] at h
    | some v =>
      simp only [hv] at h
      cases h1 : Class.importTraitInstanceProp env this traitProp v st with
      | error e => simp [h1] at h
      | ok st1 =>
        simp only [h1] at h
        apply ih (k + 1) st1 st' h
        obtain ⟨j, q, hj, hrest⟩ := hown
        exact PrivOwnAt.privOwn_step ⟨j, q, hj, hrest⟩ (Class.importTraitInstanceProp_evolve h1)
          ((Class.importTraitInstanceProp_find h1 hj).trans hj.symm)

theorem Class.importTraitPropsLoop_privOwn {env : Env} {this : Class}
    {mangled p : String} {n0 : Nat} (ts : List Class) :
    ∀ (st st' : PropState), Class.importTraitPropsLoop env this ts st = .ok st' →
      PrivOwnAt this.m_self mangled p n0 st.curPropMap →
      PrivOwnAt this.m_self mangled p n0 st'.curPropMap := by
  induction ts with
  | nil =>
    intro st st' h hown
    rw [Class.importTraitPropsLoop] at h
    injection h with h
    subst h
    exact hown
  | cons trait rest ih =>
    intro st st' h hown
    rw [Class.importTraitPropsLoop] at h
    cases h1 : Class.importTraitInstanceProps env this trait trait.m_declProperties.m_list 0 st with
    | error e => simp [h1] at h
    | ok st1 =>
      simp only [h1] at h
      cases h2 : Class.importTraitStaticProps env this trait.m_staticProperties.m_list st1 with
      | error e => simp [h2] at h
      | ok st2 =>
        simp only [h2] at h
        apply ih st2 st' h
        rw [Class.importTraitStaticProps_props _ st1 st2 h2]
        exact Class.importTraitInstanceProps_privOwn _ 0 st st1 h1 hown

/-- A private declaration of the class that is not static has, after
`setProperties`, a slot of its own behind the slots of the parent, and its name
resolves to that slot. -/
theorem Class.buildProps_privOwn {env : Env} {parent : Option Class} {usedTraits : List Class}
    {this : Class} {st : PropState} {d : PreClass.Prop}
    (h : Class.buildProps env parent usedTraits this = .ok st)
    (hd : d ∈ this.m_preClass.m_properties) (hpriv : visOf d.m_attrs = AttrPrivate)
    (hinst : hasAttr d.m_attrs AttrStatic = false)
    (hpw : this.m_preClass.m_properties.Pairwise (fun a b => a.m_name ≠ b.m_name)) :
    PrivOwnAt this.m_self ("\x00" ++ cStringOf this.m_preClass.m_name ++ "\x00" ++ cStringOf d.m_name) d.m_name
      (Class.parentPropList parent).length st.curPropMap := by
  unfold Class.buildProps at h
  cases h1 : Class.addOwnProps env parent this this.m_preClass.m_properties
      (Class.inheritedProps parent) with
  | error e => simp [h1] at h
  | ok st1 =>
    simp only [h1] at h
    have e1 := Class.addOwnProps_privOwn hpriv hinst _ _ _ h1 hpw
      (by rw [Class.inheritedProps_list]) (Or.inl hd)
    unfold Class.importTraitProps at h
    split at h
    · injection h with h
      subst h
      exact e1
    · exact Class.importTraitPropsLoop_privOwn _ _ _ h e1

theorem Class.newClass_privOwn {env : Env} {self : ClassId} {pre : PreClass}
    {parent : Option Class} {cls : Class} {d : PreClass.Prop}
    (h : Class.newClass env self pre parent = .ok cls)
    (hd : d ∈ pre.m_properties) (hpriv : visOf d.m_attrs = AttrPrivate)
    (hinst : hasAttr d.m_attrs AttrStatic = false)
    (hpw : pre.m_properties.Pairwise (fun a b => a.m_name ≠ b.m_name)) :
    PrivOwnAt self ("\x00" ++ cStringOf pre.m_name ++ "\x00" ++ cStringOf d.m_name) d.m_name
      (Class.parentPropList parent).length cls.m_declProperties := by
  obtain ⟨usedTraits, c5, st, -, s1, s2, -, -, hb, hdp, -⟩ := Class.newClass_props h
  rw [← s2] at hd hpw
  have := Class.buildProps_privOwn hb hd hpriv hinst hpw
  rw [s1, s2, ← hdp] at this
  exact this

theorem mangled_private_injective (a b p : String)
    (h : "\x00" ++ a ++ "\x00" ++ p = "\x00" ++ b ++ "\x00" ++ p) : a = b := by
  have h1 := congrArg String.data h
  simp only [String.data_append, List.append_assoc] at h1
  have h2 := List.append_cancel_left h1
  have h3 := List.append_cancel_right h2
  exact String.ext h3

theorem PreClass.lookupPropVal_ok (pre : PreClass) (d : PreClass.Prop)
    (hd : d ∈ pre.m_properties) : ∃ v, pre.lookupPropVal d.m_name = .ok v := by
  unfold PreClass.lookupPropVal PreClass.lookupProp
  cases hf : List.find? (fun p => p.m_name == d.m_name) pre.m_properties with
  | none =>
    rw [List.find?_eq_none] at hf
    have := hf d hd
    simp at this
  | some x => exact ⟨x.m_val, rfl⟩

/-- The step of `setProperties` for a private declaration that is not static
raises no error when no static property has the name and the parent resolves
the name to a private property. -/
theorem Class.addOwnInstanceProp_private_ok {parent this : Class} {d : PreClass.Prop}
    {st : PropState} {mangled : String} {n0 : Nat}
    (hd : d ∈ this.m_preClass.m_properties) (hpriv : visOf d.m_attrs = AttrPrivate)
    (hstatic : st.curSPropMap.find d.m_name = none)
    (hpar : PrivOwnAt parent.m_self mangled d.m_name n0 parent.m_declProperties) :
    ∃ st', Class.addOwnInstanceProp (some parent) this d st = .ok st' := by
  obtain ⟨j, q, h1, h2, -, -, -, -, h7⟩ := hpar
  have hl : parent.m_declProperties.lookup d.m_name = some (j, q) :=
    IndexedStringMap.lookup_eq_some.mpr ⟨h1, h2⟩
  obtain ⟨v, hv⟩ := PreClass.lookupPropVal_ok this.m_preClass d hd
  unfold Class.addOwnInstanceProp
  simp only [hstatic, Option.isSome_none, Bool.false_eq_true, if_false, hl, Option.map_some',
    hpriv, h7, gt_iff_lt, lt_self_iff_false, decide_False, if_true]
  unfold Class.appendProp
  rw [hv]
  exact ⟨_, rfl⟩

theorem Class.newClass_propsEvolve {env : Env} {self : ClassId} {pre : PreClass}
    {parent : Option Class} {cls : Class} (h : Class.newClass env self pre parent = .ok cls) :
    PropsEvolve self (Class.parentPropList parent) cls.m_declProperties.m_list := by
  obtain ⟨usedTraits, c5, st, -, s1, -, -, -, hb, hd, -⟩ := Class.newClass_props h
  have hev := Class.buildProps_evolve hb
  rw [s1, ← hd] at hev
  exact hev

theorem exPrivParent_linked :
    Class.newClass env0 40 prePrivParent none = .ok exPrivParent := by rfl

/-! ## The static-property table at link time -/

theorem SPropMap.NameKeyed.keyed_step {self : ClassId} {n : String} {a : Option Attr}
    {T T' : SPropMap} (h : SPropMap.NameKeyed T) (hs : SStep self n a T T') :
    SPropMap.NameKeyed T' := by
  obtain ⟨hwf, hnk⟩ := h
  obtain ⟨v, -, hcase⟩ := hs
  rcases hcase with ⟨hl, hT, hv, -⟩ | ⟨i, e, hl, hT, hv, -, -⟩
  · subst hT
    refine ⟨hwf.add _ _, ?_⟩
    intro k j e hk
    rw [IndexedStringMap.lookup_eq_some, IndexedStringMap.find_add] at hk
    by_cases hkn : keyEq true n k = true
    · rw [if_pos hkn] at hk
      obtain ⟨h1, h2⟩ := hk
      injection h1 with h1
      subst h1
      simp [IndexedStringMap.add] at h2
      subst h2
      rw [hv]
      simpa [keyEq] using hkn
    · rw [if_neg hkn] at hk
      obtain ⟨h1, h2⟩ := hk
      have hlt : j < T.m_list.length := by
        unfold IndexedStringMap.find at h1
        cases hf : List.find? (fun x => keyEq true x.1 k) T.m_map with
        | none => simp [hf] at h1
        | some y =>
          simp only [hf, Option.map_some', Option.some.injEq] at h1
          have := hwf.1 y (List.mem_of_find?_eq_some hf)
          omega
      simp only [IndexedStringMap.add] at h2
      rw [List.getElem?_append_left hlt] at h2
      exact hnk k j e (IndexedStringMap.lookup_eq_some.mpr ⟨h1, h2⟩)
  · subst hT
    refine ⟨hwf.set _ _, ?_⟩
    intro k j e1 hk
    rw [IndexedStringMap.lookup_eq_some] at hk
    obtain ⟨h1, h2⟩ := hk
    have h1' : T.find k = some j := h1
    simp only [IndexedStringMap.set] at h2
    by_cases hij : i = j
    · subst hij
      have hi := (IndexedStringMap.lookup_eq_some.mp hl).2
      rw [List.getElem?_set_self (List.getElem?_lt_of_some hi)] at h2
      injection h2 with h2
      subst h2
      rw [hv]
      exact hnk k i e (IndexedStringMap.lookup_eq_some.mpr ⟨h1', hi⟩)
    · rw [List.getElem?_set_ne hij] at h2
      exact hnk k j e1 (IndexedStringMap.lookup_eq_some.mpr ⟨h1', h2⟩)

theorem StaticClosed.closed_step {self : ClassId} {P : List Class.SProp} {n : String}
    {a : Option Attr} {T T' : SPropMap} (h : StaticClosed self P T.m_list)
    (hs : SStep self n a T T') : StaticClosed self P T'.m_list := by
  obtain ⟨v, hvc, hcase⟩ := hs
  rcases hcase with ⟨-, hT, -, -⟩ | ⟨i, e, -, hT, -, -, -⟩
  · subst hT
    intro e he
    simp only [IndexedStringMap.add, List.mem_append, List.mem_singleton] at he
    rcases he with he | he
    · exact h e he
    · subst he; exact Or.inl hvc
  · subst hT
    intro e1 he
    simp only [IndexedStringMap.set] at he
    rcases List.mem_or_eq_of_mem_set he with he | he
    · exact h e1 he
    · subst he; exact Or.inl hvc

theorem StaticOnly.only_step {self c : ClassId} {x n : String} {a : Option Attr}
    {T T' : SPropMap} (hnk : SPropMap.NameKeyed T) (h : StaticOnly c x T.m_list)
    (hs : SStep self n a T T') (hcond : n ≠ x ∨ self = c) : StaticOnly c x T'.m_list := by
  obtain ⟨v, hvc, hcase⟩ := hs
  rcases hcase with ⟨-, hT, hv, -⟩ | ⟨i, e, hl, hT, hv, -, -⟩
  · subst hT
    intro e he hex hpriv
    simp only [IndexedStringMap.add, List.mem_append, List.mem_singleton] at he
    rcases he with he | he
    · exact h e he hex hpriv
    · subst he
      rcases hcond with hne | hc
      · exact absurd (hv.symm.trans hex) hne
      · exact hvc.trans hc
  · subst hT
    intro e1 he hex hpriv
    simp only [IndexedStringMap.set] at he
    rcases List.mem_or_eq_of_mem_set he with he | he
    · exact h e1 he hex hpriv
    · subst he
      rcases hcond with hne | hc
      · have := hnk.2 n i e hl
        exact absurd ((this.symm.trans hv.symm).trans hex) hne
      · exact hvc.trans hc

theorem StaticAt.at_step {self c : ClassId} {x n : String} {a : Option Attr}
    {T T' : SPropMap} (hnk : SPropMap.NameKeyed T) (h : StaticAt c x T)
    (hs : SStep self n a T T')
    (hcond : n ≠ x ∨ (self = c ∧ ∀ a', a = some a' → hasAttr a' AttrPrivate = false)) :
    StaticAt c x T' := by
  obtain ⟨ix, ex, hlx, hcx, hpx⟩ := h
  obtain ⟨v, hvc, hcase⟩ := hs
  rcases hcase with ⟨hl, hT, hv, -⟩ | ⟨i, e, hl, hT, hv, ha1, ha2⟩
  · subst hT
    have hne : n ≠ x := by
      intro e
      rw [e, hlx] at hl
      cases hl
    refine ⟨ix, ex, IndexedStringMap.lookup_add_other T n v x ?_ hlx, hcx, hpx⟩
    simpa [keyEq] using hne
  · subst hT
    by_cases hnx : n = x
    · subst hnx
      rw [hlx] at hl
      injection hl with hl
      injection hl with h1 h2
      subst h1 h2
      rcases hcond with hne | ⟨hc, hattr⟩
      · exact absurd rfl hne
      · refine ⟨ix, v, IndexedStringMap.lookup_set_same T n ix ex v hlx, hvc.trans hc, ?_⟩
        cases a with
        | none => rw [ha2 rfl]; exact hpx
        | some a' => rw [ha1 a' rfl]; exact hattr a' rfl
    · have hi : i ≠ ix := by
        intro hi
        subst hi
        have e1 := (IndexedStringMap.lookup_eq_some.mp hl).2
        have e2 := (IndexedStringMap.lookup_eq_some.mp hlx).2
        rw [e1] at e2
        injection e2 with e2
        subst e2
        exact hnx ((hnk.2 n i e hl).symm.trans (hnk.2 x i e hlx))
      exact ⟨ix, ex, IndexedStringMap.lookup_set_other T x ix i ex v hlx hi, hcx, hpx⟩

theorem StaticAt.establish {self : ClassId} {x : String} {a : Attr} {T T' : SPropMap}
    (hs : SStep self x (some a) T T') (hattr : hasAttr a AttrPrivate = false) :
    StaticAt self x T' := by
  obtain ⟨v, hvc, hcase⟩ := hs
  rcases hcase with ⟨hl, hT, hv, ha⟩ | ⟨i, e, hl, hT, hv, ha1, -⟩
  · subst hT
    refine ⟨T.m_list.length, v, IndexedStringMap.lookup_add_self T x v x ?_, hvc, ?_⟩
    · simp [keyEq]
    · rw [ha a rfl]; exact hattr
  · subst hT
    refine ⟨i, v, IndexedStringMap.lookup_set_same T x i e v hl, hvc, ?_⟩
    rw [ha1 a rfl]; exact hattr

theorem SPath.path_trans {self : ClassId} {N : String → Option Attr → Prop} {T1 T2 T3 : SPropMap}
    (h1 : SPath self N T1 T2) (h2 : SPath self N T2 T3) : SPath self N T1 T3 := by
  induction h1 with
  | refl T => exact h2
  | step n a hN hs _ ih => exact SPath.step n a hN hs (ih h2)

theorem SPath.path_mono {self : ClassId} {N N' : String → Option Attr → Prop} {T1 T2 : SPropMap}
    (h : SPath self N T1 T2) (hN : ∀ n a, N n a → N' n a) : SPath self N' T1 T2 := by
  induction h with
  | refl T => exact SPath.refl T
  | step n a hn hs _ ih => exact SPath.step n a (hN n a hn) hs ih

theorem SPath.nameKeyed {self : ClassId} {N : String → Option Attr → Prop} {T1 T2 : SPropMap}
    (h : SPath self N T1 T2) (hnk : SPropMap.NameKeyed T1) : SPropMap.NameKeyed T2 := by
  induction h with
  | refl T => exact hnk
  | step n a _ hs _ ih => exact ih (hnk.keyed_step hs)

theorem SPath.closed {self : ClassId} {N : String → Option Attr → Prop} {T1 T2 : SPropMap}
    {P : List Class.SProp} (h : SPath self N T1 T2) (hc : StaticClosed self P T1.m_list) :
    StaticClosed self P T2.m_list := by
  induction h with
  | refl T => exact hc
  | step n a _ hs _ ih => exact ih (hc.closed_step hs)

theorem SPath.staticOnly {self c : ClassId} {x : String} {N : String → Option Attr → Prop}
    {T1 T2 : SPropMap} (h : SPath self N T1 T2) (hN : ∀ n a, N n a → n ≠ x ∨ self = c)
    (hnk : SPropMap.NameKeyed T1) (ho : StaticOnly c x T1.m_list) :
    StaticOnly c x T2.m_list := by
  induction h with
  | refl T => exact ho
  | step n a hn hs _ ih => exact ih (hnk.keyed_step hs) (StaticOnly.only_step hnk ho hs (hN n a hn))

theorem SPath.staticAt {self c : ClassId} {x : String} {N : String → Option Attr → Prop}
    {T1 T2 : SPropMap} (h : SPath self N T1 T2)
    (hN : ∀ n a, N n a →
      n ≠ x ∨ (self = c ∧ ∀ a', a = some a' → hasAttr a' AttrPrivate = false))
    (hnk : SPropMap.NameKeyed T1) (ha : StaticAt c x T1) : StaticAt c x T2 := by
  induction h with
  | refl T => exact ha
  | step n a hn hs _ ih => exact ih (hnk.keyed_step hs) (StaticAt.at_step hnk ha hs (hN n a hn))

theorem Class.addOwnStaticProp_shape {env : Env} {parent : Option Class} {this : Class}
    {preProp : PreClass.Prop} {st st' : PropState}
    (h : Class.addOwnStaticProp env parent this preProp st = .ok st') :
    SStep this.m_self preProp.m_name (some preProp.m_attrs) st.curSPropMap st'.curSPropMap := by
  unfold Class.addOwnStaticProp at h
  split at h
  · split at h <;> cases h
  · simp only [] at h
    split at h
    · cases h
    · cases hv : this.m_preClass.lookupPropVal preProp.m_name with
      | error e => simp [hv] at h
      | ok v =>
        simp only [hv] at h
        cases hl : st.curSPropMap.lookup preProp.m_name with
        | none =>
          simp only [hl] at h
          injection h with h
          subst h
          exact ⟨_, rfl, Or.inl ⟨hl, rfl, rfl,
            (fun a1 ha => by injection ha)⟩⟩
        | some r =>
          obtain ⟨i, e⟩ := r
          simp only [hl] at h
          injection h with h
          subst h
          exact ⟨_, rfl, Or.inr ⟨i, e, hl, rfl, rfl,
            (fun a1 ha => by injection ha), (fun ha => by cases ha)⟩⟩

theorem Class.importTraitStaticProp_shape {env : Env} {this : Class}
    {traitProp : Class.SProp} {st st' : PropState}
    (h : Class.importTraitStaticProp env this traitProp st = .ok st') :
    SStep this.m_self traitProp.m_name none st.curSPropMap st'.curSPropMap := by
  unfold Class.importTraitStaticProp at h
  split at h
  · cases h
  · cases hf : st.curSPropMap.find traitProp.m_name with
    | none =>
      simp only [hf] at h
      injection h with h
      subst h
      refine ⟨_, rfl, Or.inl ⟨?_, rfl, rfl, (fun a' ha => by cases ha)⟩⟩
      unfold IndexedStringMap.lookup
      rw [hf]
    | some slot =>
      simp only [hf] at h
      cases hg : st.curSPropMap.get? slot with
      | none => simp [hg] at h
      | some prevProp =>
        simp only [hg] at h
        split at h
        · cases h
        · split at h
          · cases h
          · injection h with h
            subst h
            exact ⟨_, rfl, Or.inr ⟨slot, prevProp,
              IndexedStringMap.lookup_eq_some.mpr ⟨hf, hg⟩, rfl, rfl,
              (fun a' ha => by cases ha), (fun _ => rfl)⟩⟩

theorem Class.importTraitInstanceProp_sprops {env : Env} {this : Class}
    {traitProp : Class.Prop} {traitPropVal : TypedValueAux} {st st' : PropState}
    (h : Class.importTraitInstanceProp env this traitProp traitPropVal st = .ok st') :
    st'.curSPropMap = st.curSPropMap := by
  unfold Class.importTraitInstanceProp at h
  cases hf : st.curPropMap.find traitProp.m_name with
  | none =>
    simp only [hf] at h
    injection h with h
    subst h
    simp only []
    split <;> split <;> rfl
  | some slot =>
    simp only [hf] at h
    split at h
    · split at h
      · cases h
      · injection h with h
        subst h
        rfl
    · cases h

theorem Class.importTraitInstanceProps_sprops {env : Env} {this : Class} {trait : Class}
    (l : List Class.Prop) :
    ∀ (k : Nat) (st st' : PropState),
      Class.importTraitInstanceProps env this trait l k st = .ok st' →
      st'.curSPropMap = st.curSPropMap := by
  induction l with
  | nil =>
    intro k st st' h
    rw [Class.importTraitInstanceProps] at h
    injection h with h
    subst h
    rfl
  | cons traitProp rest ih =>
    intro k st st' h
    rw [Class.importTraitInstanceProps] at h
    cases hv : trait.m_declPropInit[k]? with
    | none => simp [hv] at h
    | some v =>
      simp only [hv] at h
      cases h1 : Class.importTraitInstanceProp env this traitProp v st with
      | error e => simp [h1] at h
      | ok st1 =>
        simp only [h1] at h
        rw [ih (k + 1) st1 st' h, Class.importTraitInstanceProp_sprops h1]

theorem Class.addOwnProp_spath {env : Env} {parent : Option Class} {this : Class}
    {d : PreClass.Prop} {st st' : PropState}
    (h : Class.addOwnProp env parent this d st = .ok st') :
    SPath this.m_self (ownStaticLabel [d]) st.curSPropMap st'.curSPropMap := by
  unfold Class.addOwnProp at h
  split at h
  · rw [(Class.addOwnInstanceProp_evolve h).2]
    exact SPath.refl _
  · rename_i hs
    refine SPath.step d.m_name (some d.m_attrs) ⟨d, List.mem_singleton.mpr rfl, rfl, rfl, ?_⟩
      (Class.addOwnStaticProp_shape h) (SPath.refl _)
    simpa using hs

theorem Class.addOwnProps_spath {env : Env} {parent : Option Class} {this : Class}
    (l : List PreClass.Prop) :
    ∀ (st st' : PropState), Class.addOwnProps env parent this l st = .ok st' →
      SPath this.m_self (ownStaticLabel l) st.curSPropMap st'.curSPropMap := by
  induction l with
  | nil =>
    intro st st' h
    rw [Class.addOwnProps] at h
    injection h with h
    subst h
    exact SPath.refl _
  | cons d rest ih =>
    intro st st' h
    rw [Class.addOwnProps] at h
    cases h1 : Class.addOwnProp env parent this d st with
    | error e => simp [h1] at h
    | ok st1 =>
      simp only [h1] at h
      refine SPath.path_trans ((Class.addOwnProp_spath h1).path_mono ?_) ((ih st1 st' h).path_mono ?_)
      · rintro n a ⟨d', hd', r⟩
        rw [List.mem_singleton] at hd'
        subst hd'
        exact ⟨d', List.mem_cons_self _ _, r⟩
      · rintro n a ⟨d', hd', r⟩
        exact ⟨d', List.mem_cons_of_mem _ hd', r⟩

theorem Class.importTraitStaticProps_spath {env : Env} {this : Class} {trait : Class}
    (l : List Class.SProp) (hl : ∀ sp, sp ∈ l → sp ∈ trait.m_staticProperties.m_list) :
    ∀ (st st' : PropState), Class.importTraitStaticProps env this l st = .ok st' →
      SPath this.m_self (traitStaticLabel [trait]) st.curSPropMap st'.curSPropMap := by
  induction l with
  | nil =>
    intro st st' h
    rw [Class.importTraitStaticProps] at h
    injection h with h
    subst h
    exact SPath.refl _
  | cons sp rest ih =>
    intro st st' h
    rw [Class.importTraitStaticProps] at h
    cases h1 : Class.importTraitStaticProp env this sp st with
    | error e => simp [h1] at h
    | ok st1 =>
      simp only [h1] at h
      exact SPath.step sp.m_name none
        ⟨rfl, trait, List.mem_singleton.mpr rfl, sp, hl sp (List.mem_cons_self _ _), rfl⟩
        (Class.importTraitStaticProp_shape h1)
        (ih (fun s hs => hl s (List.mem_cons_of_mem _ hs)) st1 st' h)

theorem Class.importTraitPropsLoop_spath {env : Env} {this : Class} (ts : List Class) :
    ∀ (st st' : PropState), Class.importTraitPropsLoop env this ts st = .ok st' →
      SPath this.m_self (traitStaticLabel ts) st.curSPropMap st'.curSPropMap := by
  induction ts with
  | nil =>
    intro st st' h
    rw [Class.importTraitPropsLoop] at h
    injection h with h
    subst h
    exact SPath.refl _
  | cons trait rest ih =>
    intro st st' h
    rw [Class.importTraitPropsLoop] at h
    cases h1 : Class.importTraitInstanceProps env this trait trait.m_declProperties.m_list 0 st with
    | error e => simp [h1] at h
    | ok st1 =>
      simp only [h1] at h
      cases h2 : Class.importTraitStaticProps env this trait.m_staticProperties.m_list st1 with
      | error e => simp [h2] at h
      | ok st2 =>
        simp only [h2] at h
        have e1 := Class.importTraitInstanceProps_sprops _ 0 st st1 h1
        have p2 := Class.importTraitStaticProps_spath (trait.m_staticProperties.m_list)
          (fun _ hs => hs) st1 st2 h2
        rw [e1] at p2
        refine SPath.path_trans (p2.path_mono ?_) ((ih st2 st' h).path_mono ?_)
        · rintro n a ⟨ha, t, ht, r⟩
          rw [List.mem_singleton] at ht
          subst ht
          exact ⟨ha, t, List.mem_cons_self _ _, r⟩
        · rintro n a ⟨ha, t, ht, r⟩
          exact ⟨ha, t, List.mem_cons_of_mem _ ht, r⟩

theorem Class.importTraitProps_spath {env : Env} {usedTraits : List Class} {this : Class}
    {st st' : PropState} (h : Class.importTraitProps env usedTraits this st = .ok st') :
    SPath this.m_self (traitStaticLabel usedTraits) st.curSPropMap st'.curSPropMap := by
  unfold Class.importTraitProps at h
  split at h
  · injection h with h
    subst h
    exact SPath.refl _
  · exact Class.importTraitPropsLoop_spath _ _ _ h

theorem SPropMap.NameKeyed.keyed_add {T : SPropMap} (h : SPropMap.NameKeyed T) (k : String)
    (v : Class.SProp) (hv : v.m_name = k) : SPropMap.NameKeyed (IndexedStringMap.add T k v) := by
  obtain ⟨hwf, hnk⟩ := h
  refine ⟨hwf.add _ _, ?_⟩
  intro n j e hk
  rw [IndexedStringMap.lookup_eq_some, IndexedStringMap.find_add] at hk
  by_cases hkn : keyEq true k n = true
  · rw [if_pos hkn] at hk
    obtain ⟨h1, h2⟩ := hk
    injection h1 with h1
    subst h1
    simp [IndexedStringMap.add] at h2
    subst h2
    rw [hv]
    simpa [keyEq] using hkn
  · rw [if_neg hkn] at hk
    obtain ⟨h1, h2⟩ := hk
    have hlt : j < T.m_list.length := by
      unfold IndexedStringMap.find at h1
      cases hf : List.find? (fun x => keyEq true x.1 n) T.m_map with
      | none => simp [hf] at h1
      | some y =>
        simp only [hf, Option.map_some', Option.some.injEq] at h1
        have := hwf.1 y (List.mem_of_find?_eq_some hf)
        omega
    simp only [IndexedStringMap.add] at h2
    rw [List.getElem?_append_left hlt] at h2
    exact hnk n j e (IndexedStringMap.lookup_eq_some.mpr ⟨h1, h2⟩)

theorem SPropMap.NameKeyed.keyed_empty : SPropMap.NameKeyed (IndexedStringMap.empty : SPropMap) := by
  refine ⟨IndexedStringMap.WF.empty, ?_⟩
  intro n i e h
  simp [IndexedStringMap.lookup, IndexedStringMap.find, IndexedStringMap.empty] at h

theorem Class.copyParentSProps_nameKeyed (l : List Class.SProp) :
    ∀ T : SPropMap, SPropMap.NameKeyed T → SPropMap.NameKeyed (Class.copyParentSProps l T) := by
  induction l with
  | nil => intro T h; exact h
  | cons p rest ih =>
    intro T h
    rw [Class.copyParentSProps]
    split
    · exact ih T h
    · exact ih _ (h.keyed_add _ _ rfl)

theorem Class.copyParentSProps_mem (l : List Class.SProp) :
    ∀ (T : SPropMap) (e : Class.SProp), e ∈ (Class.copyParentSProps l T).m_list →
      e ∈ T.m_list ∨ ∃ e', e' ∈ l ∧ e'.m_class = e.m_class ∧ e'.m_name = e.m_name ∧
        e'.m_attrs = e.m_attrs ∧ hasAttr e'.m_attrs AttrPrivate = false := by
  induction l with
  | nil => intro T e h; exact Or.inl h
  | cons p rest ih =>
    intro T e h
    rw [Class.copyParentSProps] at h
    split at h
    · rcases ih T e h with h1 | ⟨e', he', r⟩
      · exact Or.inl h1
      · exact Or.inr ⟨e', List.mem_cons_of_mem _ he', r⟩
    · rename_i hp
      rcases ih _ e h with h1 | ⟨e', he', r⟩
      · simp only [IndexedStringMap.add, List.mem_append, List.mem_singleton] at h1
        rcases h1 with h1 | h1
        · exact Or.inl h1
        · subst h1
          exact Or.inr ⟨p, List.mem_cons_self _ _, rfl, rfl, rfl, by simpa using hp⟩
      · exact Or.inr ⟨e', List.mem_cons_of_mem _ he', r⟩

theorem Class.copyParentSProps_staticAt {c : ClassId} {x : String} (l : List Class.SProp) :
    ∀ T : SPropMap, StaticOnly c x l →
      (StaticAt c x T ∨ ∃ e, e ∈ l ∧ e.m_name = x ∧ hasAttr e.m_attrs AttrPrivate = false) →
      StaticAt c x (Class.copyParentSProps l T) := by
  induction l with
  | nil =>
    intro T _ h
    rcases h with h | ⟨e, he, -⟩
    · exact h
    · cases he
  | cons p rest ih =>
    intro T ho h
    have ho' : StaticOnly c x rest := fun e he => ho e (List.mem_cons_of_mem _ he)
    rw [Class.copyParentSProps]
    split
    · rename_i hp
      apply ih T ho'
      rcases h with h | ⟨e, he, hn, hpriv⟩
      · exact Or.inl h
      · rw [List.mem_cons] at he
        rcases he with he | he
        · subst he
          rw [hpriv] at hp
          cases hp
        · exact Or.inr ⟨e, he, hn, hpriv⟩
    · rename_i hp
      have hp' : hasAttr p.m_attrs AttrPrivate = false := by simpa using hp
      apply ih _ ho'
      by_cases hpx : p.m_name = x
      · left
        refine ⟨T.m_list.length, _, IndexedStringMap.lookup_add_self T _ _ x ?_, ?_, hp'⟩
        · simpa [keyEq] using hpx
        · exact ho p (List.mem_cons_self _ _) hpx hp'
      · rcases h with h | ⟨e, he, hn, hpriv⟩
        · left
          obtain ⟨i, e, hl, r⟩ := h
          refine ⟨i, e, IndexedStringMap.lookup_add_other T _ _ x ?_ hl, r⟩
          simpa [keyEq] using hpx
        · rw [List.mem_cons] at he
          rcases he with he | he
          · subst he
            exact absurd hn hpx
          · exact Or.inr ⟨e, he, hn, hpriv⟩

theorem Class.inheritedProps_sprops (parent : Option Class) :
    (Class.inheritedProps parent).curSPropMap =
      Class.copyParentSProps (Class.parentSPropList parent) IndexedStringMap.empty := by
  cases parent with
  | none => rfl
  | some p => rfl

/-- What `setProperties` does to the builder of the static properties after the
copy from the parent: steps for the static declarations of the class and for
the static properties of the used traits. -/
theorem Class.buildProps_spath {env : Env} {parent : Option Class} {usedTraits : List Class}
    {this : Class} {st : PropState}
    (h : Class.buildProps env parent usedTraits this = .ok st) :
    SPath this.m_self
      (fun n a => ownStaticLabel this.m_preClass.m_properties n a ∨
        traitStaticLabel usedTraits n a)
      (Class.copyParentSProps (Class.parentSPropList parent) IndexedStringMap.empty)
      st.curSPropMap := by
  unfold Class.buildProps at h
  cases h1 : Class.addOwnProps env parent this this.m_preClass.m_properties
      (Class.inheritedProps parent) with
  | error e => simp [h1] at h
  | ok st1 =>
    simp only [h1] at h
    have p1 := Class.addOwnProps_spath _ _ _ h1
    rw [Class.inheritedProps_sprops] at p1
    exact SPath.path_trans (p1.path_mono (fun _ _ hn => Or.inl hn))
      ((Class.importTraitProps_spath h).path_mono (fun _ _ hn => Or.inr hn))

theorem Class.newClass_spath {env : Env} {self : ClassId} {pre : PreClass}
    {parent : Option Class} {cls : Class} (h : Class.newClass env self pre parent = .ok cls) :
    ∃ usedTraits, Class.loadUsedTraits env pre.m_name pre.m_usedTraits = .ok usedTraits ∧
      SPath self
        (fun n a => ownStaticLabel pre.m_properties n a ∨ traitStaticLabel usedTraits n a)
        (Class.copyParentSProps (Class.parentSPropList parent) IndexedStringMap.empty)
        cls.m_staticProperties := by
  obtain ⟨usedTraits, c5, st, hl, s1, s2, -, -, hb, -, hs, -⟩ := Class.newClass_props h
  have := Class.buildProps_spath hb
  rw [s1, s2, ← hs] at this
  exact ⟨usedTraits, hl, this⟩

theorem Class.newClass_static_nameKeyed {env : Env} {self : ClassId} {pre : PreClass}
    {parent : Option Class} {cls : Class} (h : Class.newClass env self pre parent = .ok cls) :
    SPropMap.NameKeyed cls.m_staticProperties := by
  obtain ⟨usedTraits, -, hp⟩ := Class.newClass_spath h
  exact hp.nameKeyed (Class.copyParentSProps_nameKeyed _ _ SPropMap.NameKeyed.keyed_empty)

theorem Class.newClass_static_closed {env : Env} {self : ClassId} {pre : PreClass}
    {parent : Option Class} {cls : Class} (h : Class.newClass env self pre parent = .ok cls) :
    StaticClosed self (Class.parentSPropList parent) cls.m_staticProperties.m_list := by
  obtain ⟨usedTraits, -, hp⟩ := Class.newClass_spath h
  apply hp.closed
  intro e he
  rcases Class.copyParentSProps_mem _ _ e he with h1 | ⟨e', he', hc, -⟩
  · simp [IndexedStringMap.empty] at h1
  · exact Or.inr ⟨e', he', hc⟩

/-- A class without a parent is the declaring class of all its static
properties. -/
theorem Class.newClass_root_statics {env : Env} {self : ClassId} {pre : PreClass}
    {cls : Class} (h : Class.newClass env self pre none = .ok cls) :
    ∀ e, e ∈ cls.m_staticProperties.m_list → e.m_class = self := by
  intro e he
  rcases Class.newClass_static_closed h e he with h1 | ⟨e', he', -⟩
  · exact h1
  · cases he'

theorem Class.addOwnProps_staticAt {env : Env} {parent : Option Class} {this : Class}
    {d : PreClass.Prop} (hstatic : hasAttr d.m_attrs AttrStatic = true)
    (hnp : hasAttr d.m_attrs AttrPrivate = false) (l : List PreClass.Prop) :
    ∀ (st st' : PropState), Class.addOwnProps env parent this l st = .ok st' →
      l.Pairwise (fun a b => a.m_name ≠ b.m_name) →
      SPropMap.NameKeyed st.curSPropMap →
      (d ∈ l ∨ (StaticAt this.m_self d.m_name st.curSPropMap ∧
        ∀ d', d' ∈ l → d'.m_name ≠ d.m_name)) →
      StaticAt this.m_self d.m_name st'.curSPropMap := by
  induction l with
  | nil =>
    intro st st' h _ _ hc
    rw [Class.addOwnProps] at h
    injection h with h
    subst h
    rcases hc with hc | hc
    · cases hc
    · exact hc.1
  | cons d' rest ih =>
    intro st st' h hpw hnk hc
    rw [Class.addOwnProps] at h
    rw [List.pairwise_cons] at hpw
    cases h1 : Class.addOwnProp env parent this d' st with
    | error e => simp [h1] at h
    | ok st1 =>
      simp only [h1] at h
      have hp1 := Class.addOwnProp_spath h1
      apply ih st1 st' h hpw.2 (hp1.nameKeyed hnk)
      by_cases hd : d' = d
      · subst hd
        right
        refine ⟨?_, fun d2 hd2 => fun e => hpw.1 d2 hd2 e.symm⟩
        unfold Class.addOwnProp at h1
        simp only [hstatic, Bool.not_true, Bool.false_eq_true, if_false] at h1
        exact StaticAt.establish (Class.addOwnStaticProp_shape h1) hnp
      · rcases hc with hc | hc
        · rw [List.mem_cons] at hc
          rcases hc with hc | hc
          · exact absurd hc.symm hd
          · exact Or.inl hc
        · right
          refine ⟨hp1.staticAt ?_ hnk hc.1, fun d2 hd2 => hc.2 d2 (List.mem_cons_of_mem _ hd2)⟩
          rintro n a ⟨d2, hd2, hn, -, -⟩
          rw [List.mem_singleton] at hd2
          subst hd2
          left
          rw [← hn]
          exact hc.2 d2 (List.mem_cons_self _ _)

/-- A class that declares a static property `x` that is not private resolves
`x`, once linked, to an entry that is not private and has the class itself as
declaring class. -/
theorem Class.newClass_declares_static {env : Env} {self : ClassId} {pre : PreClass}
    {parent : Option Class} {cls : Class} {d : PreClass.Prop}
    (h : Class.newClass env self pre parent = .ok cls)
    (hd : d ∈ pre.m_properties) (hstatic : hasAttr d.m_attrs AttrStatic = true)
    (hnp : hasAttr d.m_attrs AttrPrivate = false)
    (hpw : pre.m_properties.Pairwise (fun a b => a.m_name ≠ b.m_name)) :
    StaticAt self d.m_name cls.m_staticProperties := by
  obtain ⟨usedTraits, c5, st, -, s1, s2, -, -, hb, -, hs, -⟩ := Class.newClass_props h
  rw [hs, ← s1]
  rw [← s2] at hd hpw
  unfold Class.buildProps at hb
  cases h1 : Class.addOwnProps env parent c5 c5.m_preClass.m_properties
      (Class.inheritedProps parent) with
  | error e => simp [h1] at hb
  | ok st1 =>
    simp only [h1] at hb
    have hnk0 : SPropMap.NameKeyed (Class.inheritedProps parent).curSPropMap := by
      rw [Class.inheritedProps_sprops]
      exact Class.copyParentSProps_nameKeyed _ _ SPropMap.NameKeyed.keyed_empty
    have a1 := Class.addOwnProps_staticAt hstatic hnp _ _ _ h1 hpw hnk0 (Or.inl hd)
    have hnk1 := (Class.addOwnProps_spath _ _ _ h1).nameKeyed hnk0
    refine (Class.importTraitProps_spath hb).staticAt ?_ hnk1 a1
    rintro n a ⟨ha, -⟩
    right
    refine ⟨rfl, ?_⟩
    intro a' ha'
    rw [ha] at ha'
    cases ha'

/-- A class that neither declares a property `x` nor uses a trait with a static
property `x`, and whose parent resolves `x` to a static property that is not
private, with `c` as the declaring class of its static properties of that name:
the linked class resolves `x` to an entry with the declaring class `c`, too. -/
theorem Class.newClass_inherits_static {env : Env} {self c : ClassId} {pre : PreClass}
    {parent cls : Class} {x : String}
    (h : Class.newClass env self pre (some parent) = .ok cls)
    (hnk : SPropMap.NameKeyed parent.m_staticProperties)
    (hat : StaticAt c x parent.m_staticProperties)
    (honly : StaticOnly c x parent.m_staticProperties.m_list)
    (hown : pre.hasProp x = false)
    (htraits : ∀ ts, Class.loadUsedTraits env pre.m_name pre.m_usedTraits = .ok ts →
      ∀ t, t ∈ ts → ∀ sp, sp ∈ t.m_staticProperties.m_list → sp.m_name ≠ x) :
    StaticAt c x cls.m_staticProperties ∧ StaticOnly c x cls.m_staticProperties.m_list := by
  obtain ⟨usedTraits, hl, hp⟩ := Class.newClass_spath h
  have hN : ∀ n a, (ownStaticLabel pre.m_properties n a ∨ traitStaticLabel usedTraits n a) →
      n ≠ x := by
    rintro n a (⟨d, hd, hn, -, -⟩ | ⟨-, t, ht, sp, hsp, hn⟩)
    · intro e
      have : pre.hasProp x = true := by
        unfold PreClass.hasProp
        rw [List.any_eq_true]
        exact ⟨d, hd, by simp [hn, e]⟩
      rw [hown] at this
      cases this
    · rw [← hn]
      exact htraits usedTraits hl t ht sp hsp
  have hnk0 := Class.copyParentSProps_nameKeyed (Class.parentSPropList (some parent)) _
    SPropMap.NameKeyed.keyed_empty
  obtain ⟨i, e, hle, hce, hpe⟩ := hat
  have hmem : e ∈ parent.m_staticProperties.m_list :=
    List.getElem?_mem (IndexedStringMap.lookup_eq_some.mp hle).2
  have hat0 : StaticAt c x
      (Class.copyParentSProps (Class.parentSPropList (some parent)) IndexedStringMap.empty) :=
    Class.copyParentSProps_staticAt _ _ honly (Or.inr ⟨e, hmem, hnk.2 x i e hle, hpe⟩)
  have honly0 : StaticOnly c x
      (Class.copyParentSProps (Class.parentSPropList (some parent))
        IndexedStringMap.empty).m_list := by
    intro e1 he1 hn1 hp1
    rcases Class.copyParentSProps_mem _ _ e1 he1 with h1 | ⟨e', he', hc', hn', ha', -⟩
    · simp [IndexedStringMap.empty] at h1
    · rw [← hc']
      exact honly e' he' (hn'.trans hn1) (by rw [ha']; exact hp1)
  exact ⟨hp.staticAt (fun n a hn => Or.inl (hN n a hn)) hnk0 hat0,
    hp.staticOnly (fun n a hn => Or.inl (hN n a hn)) hnk0 honly0⟩

/-! ## Lazy initialisation of the static properties -/

theorem Class.initPropsImpl_sprops (ec : ExecutionContext) (this : Class) (st : RequestState) :
    (Class.initPropsImpl ec this st).2.sPropData = st.sPropData := by
  unfold Class.initPropsImpl
  simp only []
  split
  · rfl
  · split
    · rfl
    · split
      · rfl
      · split <;> rfl

theorem Class.initProps_sprops (ec : ExecutionContext) (this : Class) (st : RequestState) :
    (Class.initProps ec this st).2.sPropData = st.sPropData := by
  have h := Class.initPropsImpl_sprops ec this st
  unfold Class.initProps
  cases hr : Class.initPropsImpl ec this st with
  | mk res st1 =>
    rw [hr] at h
    cases res with
    | error e => exact h
    | ok v => exact h

theorem TypedValue.isCell_deref {v : TypedValue} (h : v.isCell = true) (cell : CellRef) :
    tvDerefIndirect cell v = some cell := by
  cases v <;> first | rfl | (simp [TypedValue.isCell, TypedValue.m_type] at h)

theorem StaticTablesOk.write {env : Env} {root mid leaf : Class} {x : String}
    {ixr ixm ixl : Nat} (hc : StaticChain env root mid leaf x ixr ixm ixl)
    {st : RequestState} (h : StaticTablesOk root mid leaf ixr ixm ixl st.sPropData)
    {p : CellRef} (hp : SafeCell root mid p) {v : TypedValue} (hv : v.isCell = true) :
    StaticTablesOk root mid leaf ixr ixm ixl (st.writeCell p v).sPropData := by
  obtain ⟨hR, hM, hL⟩ := h
  rcases hp with hp | ⟨hp, e0, he0, hce0⟩
  · -- a cell of the root
    refine ⟨?_, ?_, ?_⟩
    · intro T hT
      simp only [RequestState.writeCell, hp, if_true] at hT
      cases hs : st.sPropData root.m_self with
      | none => simp [hs] at hT
      | some T0 =>
        simp only [hs, Option.map_some', Option.some.injEq] at hT
        subst hT
        obtain ⟨h1, h2⟩ := hR T0 hs
        refine ⟨by simpa using h1, ?_⟩
        intro w hw
        rcases List.mem_or_eq_of_mem_set hw with hw | hw
        · exact h2 w hw
        · subst hw; exact hv
    · intro T hT
      simp only [RequestState.writeCell, hp, hc.rm.symm, if_false] at hT
      exact hM T hT
    · intro T hT
      simp only [RequestState.writeCell, hp, hc.rl.symm, if_false] at hT
      exact hL T hT
  · -- a cell of the middle class that it declares
    refine ⟨?_, ?_, ?_⟩
    · intro T hT
      simp only [RequestState.writeCell, hp, hc.rm, if_false] at hT
      exact hR T hT
    · intro T hT
      simp only [RequestState.writeCell, hp, if_true] at hT
      cases hs : st.sPropData mid.m_self with
      | none => simp [hs] at hT
      | some T0 =>
        simp only [hs, Option.map_some', Option.some.injEq] at hT
        subst hT
        obtain ⟨h1, h2, h3⟩ := hM T0 hs
        refine ⟨by simpa using h1, ?_, ?_⟩
        · intro i e w hi hw
          by_cases hpi : p.2 = i
          · subst hpi
            have hlt : p.2 < T0.length := by
              have := List.getElem?_lt_of_some hw
              simpa using this
            rw [List.getElem?_set_self hlt] at hw
            injection hw with hw
            subst hw
            rw [he0] at hi
            injection hi with hi
            subst hi
            exact ⟨fun _ => hv, fun hne => absurd hce0 hne⟩
          · rw [List.getElem?_set_ne hpi] at hw
            exact h2 i e w hi hw
        · have hne : p.2 ≠ ixm := by
            intro hpe
            obtain ⟨em, hlm, hcm, -⟩ := hc.midX
            have := (IndexedStringMap.lookup_eq_some.mp hlm).2
            rw [← hpe, he0] at this
            injection this with this
            subst this
            exact hc.rm (hcm.symm.trans hce0)
          rw [List.getElem?_set_ne hne]
          exact h3
    · intro T hT
      simp only [RequestState.writeCell, hp, hc.ml.symm, if_false] at hT
      exact hL T hT

theorem Class.invokeInits_cells {ec : ExecutionContext} (hec : ec.CellValued) (this : Class)
    (l : List Func) :
    ∀ (a a' : PropArray), (∀ kv, kv ∈ a → kv.2.isCell = true) →
      Class.invokeInits ec this l a = .ok a' → ∀ kv, kv ∈ a' → kv.2.isCell = true := by
  induction l with
  | nil =>
    intro a a' ha h
    rw [Class.invokeInits] at h
    injection h with h
    subst h
    exact ha
  | cons f rest ih =>
    intro a a' ha h
    rw [Class.invokeInits] at h
    cases h1 : ec.invokeFunc f this.m_self a with
    | error e => simp [h1] at h
    | ok a1 =>
      simp only [h1] at h
      exact ih a1 a' (hec f this.m_self a a1 ha h1) h

theorem PropArray.set_cells (a : PropArray) (k : String) (v : TypedValue)
    (ha : ∀ kv, kv ∈ a → kv.2.isCell = true) (hv : v.isCell = true) :
    ∀ kv, kv ∈ a.set k v → kv.2.isCell = true := by
  intro kv hkv
  unfold PropArray.set at hkv
  split at hkv
  · rw [List.mem_map] at hkv
    obtain ⟨e, he, hek⟩ := hkv
    split at hek
    · subst hek; exact hv
    · subst hek; exact ha e he
  · rw [List.mem_append, List.mem_singleton] at hkv
    rcases hkv with hkv | hkv
    · exact ha kv hkv
    · subst hkv; exact hv

theorem Class.sinitArray_cells (tvSentinel : TypedValue) (hs : tvSentinel.isCell = true)
    (l : List Class.SProp) :
    ∀ a : PropArray, (∀ kv, kv ∈ a → kv.2.isCell = true) →
      ∀ kv, kv ∈ Class.sinitArray tvSentinel l a → kv.2.isCell = true := by
  induction l with
  | nil => intro a ha; exact ha
  | cons sp rest ih =>
    intro a ha
    rw [Class.sinitArray]
    exact ih _ (PropArray.set_cells a _ _ ha hs)

theorem Class.getValueFromArr_cell {tvSentinel : TypedValue} {propArr : Option PropArray}
    {name : String} {v : TypedValue}
    (ha : ∀ arr, propArr = some arr → ∀ kv, kv ∈ arr → kv.2.isCell = true)
    (h : Class.getValueFromArr tvSentinel propArr name = .ok (some v)) : v.isCell = true := by
  unfold Class.getValueFromArr at h
  cases propArr with
  | none => simp at h
  | some arr =>
    simp only [] at h
    cases hg : arr.nvGet name with
    | none => simp [hg] at h
    | some w =>
      simp only [hg] at h
      split at h
      · injection h with h
        injection h with h
        subst h
        unfold PropArray.nvGet at hg
        cases hf : List.find? (fun e => e.1 == name) arr with
        | none => simp [hf] at hg
        | some kv =>
          simp only [hf, Option.map_some', Option.some.injEq] at hg
          subst hg
          exact ha arr rfl kv (List.mem_of_find?_eq_some hf)
      · injection h with h
        cases h

theorem Class.getValueFromArr_none (tvSentinel : TypedValue) (name : String) :
    Class.getValueFromArr tvSentinel none name = .ok none := rfl

theorem SlotsOk.nil {α β : Type} (R : α → β → Prop) (T0 : List β) : SlotsOk R [] T0 T0 :=
  ⟨[], by simp, rfl, fun i e h => by simp at h⟩

theorem SlotsOk.cons {α β : Type} {R : α → β → Prop} {a : α} {v : β} {rest : List α}
    {T0 T : List β} (hv : R a v) (h : SlotsOk R rest (T0 ++ [v]) T) :
    SlotsOk R (a :: rest) T0 T := by
  obtain ⟨vals, hT, hlen, hslots⟩ := h
  refine ⟨v :: vals, by rw [hT]; simp, by simp [hlen], ?_⟩
  intro i e hi
  cases i with
  | zero =>
    simp at hi
    subst hi
    exact ⟨v, by simp, hv⟩
  | succ k =>
    simp at hi
    obtain ⟨w, hw, hr⟩ := hslots k e hi
    exact ⟨w, by simpa using hw, hr⟩

/-- The loop of `initSPropsImpl` over the static properties keeps the tables of
the request in order, gives every slot a value that fits its entry, and
returns when the calls of `getSProp` do and no initialiser routine is
involved. -/
theorem Class.fillSPropTable_spec {env : Env} {root mid leaf : Class} {x : String}
    {ixr ixm ixl : Nat} (hc : StaticChain env root mid leaf x ixr ixm ixl)
    (g : Class → String → RequestState → Run SPropResult) (tvSentinel : TypedValue)
    (propArr : Option PropArray) (this : Class)
    (Q : Class.SProp → Option CellRef → Prop) (S : Prop)
    (harr : ∀ arr, propArr = some arr → ∀ kv, kv ∈ arr → kv.2.isCell = true)
    (L : List Class.SProp) :
    (∀ e, e ∈ L → e.m_class = this.m_self → e.m_val.isCell = true) →
    (∀ e, e ∈ L → e.m_class ≠ this.m_self →
      ∃ declCls, env.deref e.m_class = .ok declCls ∧
        ∀ s : RequestState, StaticTablesOk root mid leaf ixr ixm ixl s.sPropData →
          StaticTablesOk root mid leaf ixr ixm ixl (g declCls e.m_name s).2.sPropData ∧
          (∀ r, (g declCls e.m_name s).1 = .ok r →
            Q e r.sProp ∧ ∀ p, r.sProp = some p → SafeCell root mid p) ∧
          (S → ∃ r, (g declCls e.m_name s).1 = .ok r)) →
    ∀ (T0 : List TypedValue) (st : RequestState),
      StaticTablesOk root mid leaf ixr ixm ixl st.sPropData →
      StaticTablesOk root mid leaf ixr ixm ixl
        (Class.fillSPropTable env g tvSentinel propArr this L T0 st).2.sPropData ∧
      (∀ T, (Class.fillSPropTable env g tvSentinel propArr this L T0 st).1 = .ok T →
        SlotsOk (SlotOk this.m_self Q) L T0 T) ∧
      (S → propArr = none →
        ∃ T, (Class.fillSPropTable env g tvSentinel propArr this L T0 st).1 = .ok T) := by
  induction L with
  | nil =>
    intro _ _ T0 st hok
    rw [Class.fillSPropTable]
    refine ⟨hok, ?_, fun _ _ => ⟨T0, rfl⟩⟩
    intro T hT
    injection hT with hT
    subst hT
    exact SlotsOk.nil _ _
  | cons sProp rest ih =>
    intro hown hG T0 st hok
    have ih' := ih (fun e he => hown e (List.mem_cons_of_mem _ he))
      (fun e he => hG e (List.mem_cons_of_mem _ he))
    rw [Class.fillSPropTable]
    simp only []
    by_cases hcls : sProp.m_class = this.m_self
    · rw [if_pos hcls]
      cases hv : Class.getValueFromArr tvSentinel propArr sProp.m_name with
      | error e =>
        simp only []
        refine ⟨hok, (fun T hT => by cases hT), fun _ hnone => ?_⟩
        rw [hnone, Class.getValueFromArr_none] at hv
        cases hv
      | ok o =>
        cases o with
        | some value =>
          simp only []
          obtain ⟨i1, i2, i3⟩ := ih' (T0 ++ [value]) st hok
          refine ⟨i1, fun T hT => SlotsOk.cons ?_ (i2 T hT), i3⟩
          exact ⟨fun _ => Class.getValueFromArr_cell harr hv, fun hne => absurd hcls hne⟩
        | none =>
          simp only []
          obtain ⟨i1, i2, i3⟩ := ih' (T0 ++ [sProp.m_val]) st hok
          refine ⟨i1, fun T hT => SlotsOk.cons ?_ (i2 T hT), i3⟩
          exact ⟨fun _ => hown sProp (List.mem_cons_self _ _) hcls, fun hne => absurd hcls hne⟩
    · rw [if_neg hcls]
      obtain ⟨declCls, hderef, hg⟩ := hG sProp (List.mem_cons_self _ _) hcls
      rw [hderef]
      simp only []
      obtain ⟨g1, g2, g3⟩ := hg st hok
      cases hgr : g declCls sProp.m_name st with
      | mk res st1 =>
        rw [hgr] at g1 g2 g3
        cases res with
        | error e =>
          simp only []
          refine ⟨g1, (fun T hT => by cases hT), fun hS _ => ?_⟩
          obtain ⟨r, hr⟩ := g3 hS
          cases hr
        | ok r =>
          simp only []
          obtain ⟨q1, q2⟩ := g2 r rfl
          cases hv : Class.getValueFromArr tvSentinel propArr sProp.m_name with
          | error e =>
            simp only []
            refine ⟨g1, (fun T hT => by cases hT), fun _ hnone => ?_⟩
            rw [hnone, Class.getValueFromArr_none] at hv
            cases hv
          | ok o =>
            cases o with
            | some value =>
              simp only []
              cases hs : r.sProp with
              | none =>
                simp only []
                refine ⟨g1, (fun T hT => by cases hT), fun _ hnone => ?_⟩
                rw [hnone, Class.getValueFromArr_none] at hv
                cases hv
              | some cell =>
                simp only []
                have hw := StaticTablesOk.write hc g1 (q2 cell hs)
                  (Class.getValueFromArr_cell harr hv)
                obtain ⟨i1, i2, i3⟩ := ih' (T0 ++ [.indirect (some cell)])
                  (st1.writeCell cell value) hw
                refine ⟨i1, fun T hT => SlotsOk.cons ?_ (i2 T hT), i3⟩
                refine ⟨fun he => absurd he hcls, fun _ => ⟨some cell, rfl, ?_⟩⟩
                rw [← hs]; exact q1
            | none =>
              simp only []
              obtain ⟨i1, i2, i3⟩ := ih' (T0 ++ [.indirect r.sProp]) st1 g1
              refine ⟨i1, fun T hT => SlotsOk.cons ?_ (i2 T hT), i3⟩
              exact ⟨fun he => absurd he hcls, fun _ => ⟨r.sProp, rfl, q1⟩⟩

theorem Class.initSPropsImplWith_spec {env : Env} {ec : ExecutionContext} {root mid leaf : Class}
    {x : String} {ixr ixm ixl : Nat} (hc : StaticChain env root mid leaf x ixr ixm ixl)
    (hec : ec.CellValued)
    (g : Class → String → RequestState → Run SPropResult) (this : Class)
    (Q : Class.SProp → Option CellRef → Prop) (S : Prop)
    (hown : ∀ e, e ∈ this.m_staticProperties.m_list → e.m_class = this.m_self →
      e.m_val.isCell = true)
    (hG : ∀ e, e ∈ this.m_staticProperties.m_list → e.m_class ≠ this.m_self →
      ∃ declCls, env.deref e.m_class = .ok declCls ∧
        ∀ s : RequestState, StaticTablesOk root mid leaf ixr ixm ixl s.sPropData →
          StaticTablesOk root mid leaf ixr ixm ixl (g declCls e.m_name s).2.sPropData ∧
          (∀ r, (g declCls e.m_name s).1 = .ok r →
            Q e r.sProp ∧ ∀ p, r.sProp = some p → SafeCell root mid p) ∧
          (S → ∃ r, (g declCls e.m_name s).1 = .ok r))
    (st : RequestState) (hok : StaticTablesOk root mid leaf ixr ixm ixl st.sPropData) :
    StaticTablesOk root mid leaf ixr ixm ixl
      (Class.initSPropsImplWith env ec g this st).2.sPropData ∧
    (∀ T, (Class.initSPropsImplWith env ec g this st).1 = .ok T →
      SlotsOk (SlotOk this.m_self Q) this.m_staticProperties.m_list [] T) ∧
    (S → this.m_sinitVec = [] → ∃ T, (Class.initSPropsImplWith env ec g this st).1 = .ok T) := by
  unfold Class.initSPropsImplWith
  simp only []
  by_cases hne : this.m_sinitVec.isEmpty = true
  · simp only [hne, Bool.not_true, Bool.false_eq_true, if_false]
    obtain ⟨f1, f2, f3⟩ := Class.fillSPropTable_spec hc g .uninit none this Q S
      (fun arr h => by cases h) this.m_staticProperties.m_list hown hG [] st hok
    exact ⟨f1, f2, fun hS _ => f3 hS rfl⟩
  · have hne' : this.m_sinitVec.isEmpty = false := by simpa using hne
    simp only [hne', Bool.not_false, if_true]
    cases hi : Class.invokeInits ec this this.m_sinitVec
        (Class.sinitArray (.obj ec.pinitSentinel) this.m_staticProperties.m_list []) with
    | error e =>
      simp only []
      refine ⟨hok, (fun T hT => by cases hT), fun _ hnil => ?_⟩
      rw [hnil] at hne'
      cases hne'
    | ok arr =>
      simp only []
      have harr : ∀ arr', some arr = some arr' → ∀ kv, kv ∈ arr' → kv.2.isCell = true := by
        intro arr' h
        injection h with h
        subst h
        exact Class.invokeInits_cells hec this _ _ _
          (Class.sinitArray_cells (.obj ec.pinitSentinel) rfl _ [] (fun kv h => by cases h)) hi
      obtain ⟨f1, f2, -⟩ := Class.fillSPropTable_spec hc g (.obj ec.pinitSentinel) (some arr)
        this Q S harr this.m_staticProperties.m_list hown hG [] st hok
      refine ⟨f1, f2, fun _ hnil => ?_⟩
      rw [hnil] at hne'
      cases hne'

/-- The method `initialize`, given what `initSPropsImpl` does for the class:
the tables of the request stay in order, the table that is returned is the one
that the request holds for the class afterwards, and the call returns when no
initialiser routine is involved and `initSPropsImpl` returns. -/
theorem Class.initializeWith_spec {ec : ExecutionContext} {root mid leaf : Class}
    {ixr ixm ixl : Nat}
    (impl : Class → RequestState → Run (List TypedValue)) (this : Class) (S : Prop)
    (himpl : ∀ s : RequestState, StaticTablesOk root mid leaf ixr ixm ixl s.sPropData →
      StaticTablesOk root mid leaf ixr ixm ixl (impl this s).2.sPropData ∧
      (∀ T, (impl this s).1 = .ok T →
        StaticTablesOk root mid leaf ixr ixm ixl
          (this.setSPropData T (impl this s).2).sPropData) ∧
      (S → ∃ T, (impl this s).1 = .ok T))
    (st : RequestState) (hok : StaticTablesOk root mid leaf ixr ixm ixl st.sPropData) :
    StaticTablesOk root mid leaf ixr ixm ixl (Class.initializeWith ec impl this st).2.sPropData ∧
    (∀ o, (Class.initializeWith ec impl this st).1 = .ok o →
      (this.m_staticProperties.size > 0 →
        ∃ T, o = some T ∧
          (Class.initializeWith ec impl this st).2.sPropData this.m_self = some T)) ∧
    (S → this.m_pinitVec = [] → ∃ o, (Class.initializeWith ec impl this st).1 = .ok o) := by
  unfold Class.initializeWith
  simp only []
  -- the instance part leaves the static tables alone
  generalize hr : (if this.m_pinitVec.length > 0 then
      if (this.getPropData st).isNone = true then Class.initProps ec this st else (.ok (), st)
    else (.ok (), st) : Run Unit) = r
  have hr2 : r.2.sPropData = st.sPropData := by
    rw [← hr]
    split
    · split
      · exact Class.initProps_sprops ec this st
      · rfl
    · rfl
  have hr1 : this.m_pinitVec = [] → r.1 = .ok () := by
    intro hnil
    rw [← hr, hnil]
    rfl
  obtain ⟨res, st1⟩ := r
  simp only [] at hr2 hr1
  have hok1 : StaticTablesOk root mid leaf ixr ixm ixl st1.sPropData := by
    rw [hr2]; exact hok
  cases res with
  | error e =>
    simp only []
    refine ⟨hok1, (fun o ho => by cases ho), fun _ hnil => ?_⟩
    have := hr1 hnil
    cases this
  | ok u =>
    simp only []
    by_cases hsz : this.m_staticProperties.size > 0
    · rw [if_pos hsz]
      cases hg : this.getSPropData st1 with
      | some sProps =>
        simp only []
        refine ⟨hok1, ?_, fun _ _ => ⟨_, rfl⟩⟩
        intro o ho _
        injection ho with ho
        exact ⟨sProps, ho.symm, hg⟩
      | none =>
        simp only []
        obtain ⟨i1, i2, i3⟩ := himpl st1 hok1
        cases hi : impl this st1 with
        | mk res2 st2 =>
          rw [hi] at i1 i2 i3
          cases res2 with
          | error e =>
            simp only []
            refine ⟨i1, (fun o ho => by cases ho), fun hS _ => ?_⟩
            obtain ⟨T, hT⟩ := i3 hS
            cases hT
          | ok sprops =>
            simp only []
            refine ⟨i2 sprops rfl, ?_, fun _ _ => ⟨_, rfl⟩⟩
            intro o ho _
            injection ho with ho
            refine ⟨sprops, ho.symm, ?_⟩
            simp [Class.setSPropData]
    · rw [if_neg hsz]
      exact ⟨hok1, fun o _ h => absurd h hsz, fun _ _ => ⟨_, rfl⟩⟩

theorem Class.getSPropWith_state (ec : ExecutionContext)
    (init : Class → RequestState → Run (Option (List TypedValue))) (this : Class)
    (ctx : Option Class) (name : String) (st : RequestState) :
    (Class.getSPropWith ec init this ctx name st).2 = (init this st).2 := by
  unfold Class.getSPropWith
  cases hi : init this st with
  | mk res st1 =>
    cases res with
    | error e => rfl
    | ok sProps =>
      simp only []
      cases hl : this.m_staticProperties.lookup name with
      | none => rfl
      | some ie =>
        simp only []
        cases Class.sPropAccessible ec this ctx ie.2.m_attrs with
        | error e => rfl
        | ok b =>
          simp only []
          cases sProps with
          | none => rfl
          | some table =>
            simp only []
            cases table[ie.1]? <;> rfl

theorem Class.getSPropWith_ok {ec : ExecutionContext}
    {init : Class → RequestState → Run (Option (List TypedValue))} {this : Class}
    {ctx : Option Class} {name : String} {st : RequestState} {r : SPropResult}
    (h : (Class.getSPropWith ec init this ctx name st).1 = .ok r) :
    ∃ o, (init this st).1 = .ok o ∧
      ((this.m_staticProperties.lookup name = none ∧ r.sProp = none) ∨
       ∃ (i : Nat) (e : Class.SProp) (T : List TypedValue) (v : TypedValue),
         this.m_staticProperties.lookup name = some (i, e) ∧ o = some T ∧ T[i]? = some v ∧
         r.sProp = tvDerefIndirect (this.m_self, i) v ∧ r.visible = true) := by
  unfold Class.getSPropWith at h
  cases hi : init this st with
  | mk res st1 =>
    rw [hi] at h
    cases res with
    | error e => cases h
    | ok sProps =>
      refine ⟨sProps, rfl, ?_⟩
      simp only [] at h
      cases hl : this.m_staticProperties.lookup name with
      | none =>
        simp only [hl] at h
        injection h with h
        subst h
        exact Or.inl ⟨rfl, rfl⟩
      | some ie =>
        obtain ⟨i, e⟩ := ie
        simp only [hl] at h
        right
        cases ha : Class.sPropAccessible ec this ctx e.m_attrs with
        | error e => simp [ha] at h
        | ok b =>
          simp only [ha] at h
          cases sProps with
          | none => cases h
          | some table =>
            simp only [] at h
            cases ht : table[i]? with
            | none => simp [ht] at h
            | some value =>
              simp only [ht] at h
              injection h with h
              subst h
              exact ⟨i, e, table, value, rfl, rfl, ht, rfl, rfl⟩

theorem Class.sPropAccessible_ok (ec : ExecutionContext) (this : Class) (ctx : Option Class)
    {attrs : Attr} (h : visWellFormed attrs) :
    ∃ b, Class.sPropAccessible ec this ctx attrs = .ok b := by
  unfold Class.sPropAccessible
  simp only []
  rcases h with hv | hv | hv <;> rw [hv] <;>
    (split
     · exact ⟨_, rfl⟩
     · split <;> exact ⟨_, rfl⟩)

theorem Class.getSPropWith_succeeds {ec : ExecutionContext}
    {init : Class → RequestState → Run (Option (List TypedValue))} {this : Class}
    {ctx : Option Class} {name : String} {st : RequestState} {o : Option (List TypedValue)}
    (hinit : (init this st).1 = .ok o)
    (hl : ∀ (i : Nat) (e : Class.SProp), this.m_staticProperties.lookup name = some (i, e) →
      visWellFormed e.m_attrs ∧ ∃ T v, o = some T ∧ T[i]? = some v) :
    ∃ r, (Class.getSPropWith ec init this ctx name st).1 = .ok r := by
  unfold Class.getSPropWith
  cases hi : init this st with
  | mk res st1 =>
    rw [hi] at hinit
    simp only [] at hinit
    subst hinit
    simp only []
    cases hlk : this.m_staticProperties.lookup name with
    | none => exact ⟨_, rfl⟩
    | some ie =>
      obtain ⟨i, e⟩ := ie
      obtain ⟨hvis, T, v, ho, hT⟩ := hl i e hlk
      subst ho
      obtain ⟨b, hb⟩ := Class.sPropAccessible_ok ec this ctx hvis
      simp only [hb, hT]
      exact ⟨_, rfl⟩

theorem SlotsOk.table {α β : Type} {R : α → β → Prop} {L : List α} {T : List β}
    (h : SlotsOk R L [] T) :
    T.length = L.length ∧ ∀ (i : Nat) (e : α) (v : β), L[i]? = some e → T[i]? = some v → R e v := by
  obtain ⟨vals, hT, hlen, hs⟩ := h
  simp only [List.nil_append] at hT
  subst hT
  refine ⟨hlen, ?_⟩
  intro i e v hi hv
  obtain ⟨w, hw, hr⟩ := hs i e hi
  rw [hw] at hv
  injection hv with hv
  subst hv
  exact hr

theorem StaticTablesOk.installRoot {env : Env} {root mid leaf : Class} {x : String}
    {ixr ixm ixl : Nat} (hc : StaticChain env root mid leaf x ixr ixm ixl)
    {Q : Class.SProp → Option CellRef → Prop} {st : RequestState} {T : List TypedValue}
    (h : StaticTablesOk root mid leaf ixr ixm ixl st.sPropData)
    (hT : SlotsOk (SlotOk root.m_self Q) root.m_staticProperties.m_list [] T) :
    StaticTablesOk root mid leaf ixr ixm ixl (root.setSPropData T st).sPropData := by
  obtain ⟨hR, hM, hL⟩ := h
  obtain ⟨hlen, hslots⟩ := hT.table
  refine ⟨?_, ?_, ?_⟩
  · intro T1 hT1
    simp only [Class.setSPropData, if_true, Option.some.injEq] at hT1
    subst hT1
    refine ⟨hlen, ?_⟩
    intro v hv
    obtain ⟨i, hi⟩ := List.getElem?_of_mem hv
    have hlt : i < root.m_staticProperties.m_list.length := by
      rw [← hlen]; exact List.getElem?_lt_of_some hi
    have he : root.m_staticProperties.m_list[i]? =
        some (root.m_staticProperties.m_list.get ⟨i, hlt⟩) := List.getElem?_eq_getElem hlt
    exact (hslots i _ v he hi).1 (hc.rootOwn _ (List.getElem?_mem he))
  · intro T1 hT1
    simp only [Class.setSPropData, hc.rm.symm, if_false] at hT1
    exact hM T1 hT1
  · intro T1 hT1
    simp only [Class.setSPropData, hc.rl.symm, if_false] at hT1
    exact hL T1 hT1

theorem StaticTablesOk.installMid {env : Env} {root mid leaf : Class} {x : String}
    {ixr ixm ixl : Nat} (hc : StaticChain env root mid leaf x ixr ixm ixl)
    {st : RequestState} {T : List TypedValue}
    (h : StaticTablesOk root mid leaf ixr ixm ixl st.sPropData)
    (hT : SlotsOk (SlotOk mid.m_self (MidStorage root x ixr)) mid.m_staticProperties.m_list [] T) :
    StaticTablesOk root mid leaf ixr ixm ixl (mid.setSPropData T st).sPropData := by
  obtain ⟨hR, hM, hL⟩ := h
  obtain ⟨hlen, hslots⟩ := hT.table
  refine ⟨?_, ?_, ?_⟩
  · intro T1 hT1
    simp only [Class.setSPropData, hc.rm, if_false] at hT1
    exact hR T1 hT1
  · intro T1 hT1
    simp only [Class.setSPropData, if_true, Option.some.injEq] at hT1
    subst hT1
    refine ⟨hlen, ?_, ?_⟩
    · intro i e v hi hv
      obtain ⟨s1, s2⟩ := hslots i e v hi hv
      refine ⟨s1, fun hne => ?_⟩
      obtain ⟨p, hp, hq, -⟩ := s2 hne
      subst hp
      rcases hq with hq | ⟨j, hq⟩
      · exact Or.inl (by rw [hq])
      · exact Or.inr ⟨j, by rw [hq]⟩
    · obtain ⟨em, hlm, hcm, hnm⟩ := hc.midX
      have hi := (IndexedStringMap.lookup_eq_some.mp hlm).2
      have hlt : ixm < T.length := by
        rw [hlen]; exact List.getElem?_lt_of_some hi
      have hv : T[ixm]? = some (T.get ⟨ixm, hlt⟩) := List.getElem?_eq_getElem hlt
      obtain ⟨-, s2⟩ := hslots ixm em _ hi hv
      have hne : em.m_class ≠ mid.m_self := by
        rw [hcm]; exact hc.rm
      obtain ⟨p, hp, -, hq⟩ := s2 hne
      rw [hv, hp, hq hnm]
  · intro T1 hT1
    simp only [Class.setSPropData, hc.ml.symm, if_false] at hT1
    exact hL T1 hT1

theorem StaticTablesOk.installLeaf {env : Env} {root mid leaf : Class} {x : String}
    {ixr ixm ixl : Nat} (hc : StaticChain env root mid leaf x ixr ixm ixl)
    {st : RequestState} {T : List TypedValue}
    (h : StaticTablesOk root mid leaf ixr ixm ixl st.sPropData)
    (hT : SlotsOk (SlotOk leaf.m_self (LeafStorage root x ixr))
      leaf.m_staticProperties.m_list [] T) :
    StaticTablesOk root mid leaf ixr ixm ixl (leaf.setSPropData T st).sPropData ∧
      T[ixl]? = some (.indirect (some (root.m_self, ixr))) := by
  obtain ⟨hR, hM, hL⟩ := h
  obtain ⟨hlen, hslots⟩ := hT.table
  have hx : T[ixl]? = some (.indirect (some (root.m_self, ixr))) := by
    obtain ⟨el, hll, hcl, hnl⟩ := hc.leafX
    have hi := (IndexedStringMap.lookup_eq_some.mp hll).2
    have hlt : ixl < T.length := by
      rw [hlen]; exact List.getElem?_lt_of_some hi
    have hv : T[ixl]? = some (T.get ⟨ixl, hlt⟩) := List.getElem?_eq_getElem hlt
    obtain ⟨-, s2⟩ := hslots ixl el _ hi hv
    have hne : el.m_class ≠ leaf.m_self := by
      rw [hcl]; exact hc.rl
    obtain ⟨p, hp, hq⟩ := s2 hne
    rw [hv, hp, hq hnl hcl]
  refine ⟨⟨?_, ?_, ?_⟩, hx⟩
  · intro T1 hT1
    simp only [Class.setSPropData, hc.rl, if_false] at hT1
    exact hR T1 hT1
  · intro T1 hT1
    simp only [Class.setSPropData, hc.ml, if_false] at hT1
    exact hM T1 hT1
  · intro T1 hT1
    simp only [Class.setSPropData, if_true, Option.some.injEq] at hT1
    subst hT1
    exact hx

/-! ## The three classes of the hierarchy -/

theorem Class.initSPropsImplWith_root {env : Env} {ec : ExecutionContext} {root mid leaf : Class}
    {x : String} {ixr ixm ixl : Nat} (hc : StaticChain env root mid leaf x ixr ixm ixl)
    (hec : ec.CellValued) (g : Class → String → RequestState → Run SPropResult)
    (st : RequestState) (hok : StaticTablesOk root mid leaf ixr ixm ixl st.sPropData) :
    StaticTablesOk root mid leaf ixr ixm ixl
      (Class.initSPropsImplWith env ec g root st).2.sPropData ∧
    (∀ T, (Class.initSPropsImplWith env ec g root st).1 = .ok T →
      SlotsOk (SlotOk root.m_self (fun _ _ => True)) root.m_staticProperties.m_list [] T) ∧
    (QuietChain root mid leaf → ∃ T, (Class.initSPropsImplWith env ec g root st).1 = .ok T) := by
  obtain ⟨h1, h2, h3⟩ := Class.initSPropsImplWith_spec hc hec g root (fun _ _ => True)
    (QuietChain root mid leaf) (fun e he _ => hc.rootCells e he)
    (fun e he hne => absurd (hc.rootOwn e he) hne) st hok
  exact ⟨h1, h2, fun hq => h3 hq hq.rootS⟩

theorem Class.initializeFuel_root {env : Env} {ec : ExecutionContext} {root mid leaf : Class}
    {x : String} {ixr ixm ixl : Nat} (hc : StaticChain env root mid leaf x ixr ixm ixl)
    (hec : ec.CellValued) (fuel : Nat)
    (st : RequestState) (hok : StaticTablesOk root mid leaf ixr ixm ixl st.sPropData) :
    StaticTablesOk root mid leaf ixr ixm ixl (Class.initializeFuel env ec fuel root st).2.sPropData ∧
    (∀ o, (Class.initializeFuel env ec fuel root st).1 = .ok o →
      (root.m_staticProperties.size > 0 →
        ∃ T, o = some T ∧
          (Class.initializeFuel env ec fuel root st).2.sPropData root.m_self = some T)) ∧
    (QuietChain root mid leaf → fuel ≥ 1 →
      ∃ o, (Class.initializeFuel env ec fuel root st).1 = .ok o) := by
  cases fuel with
  | zero =>
    rw [Class.initializeFuel]
    exact ⟨hok, (fun o ho => by cases ho), fun _ h => absurd h (by omega)⟩
  | succ n =>
    rw [Class.initializeFuel]
    obtain ⟨h1, h2, h3⟩ := @Class.initializeWith_spec ec root mid leaf ixr ixm ixl
      (Class.initSPropsImplWith env ec (fun declCls name s =>
        Class.getSPropWith ec (Class.initializeFuel env ec n) declCls none name s))
      root (QuietChain root mid leaf)
      (fun s hs => by
        obtain ⟨a1, a2, a3⟩ := Class.initSPropsImplWith_root hc hec _ s hs
        exact ⟨a1, fun T hT => StaticTablesOk.installRoot hc a1 (a2 T hT), a3⟩)
      st hok
    exact ⟨h1, h2, fun hq _ => h3 hq hq.rootP⟩

theorem Class.getSProp_root {env : Env} {ec : ExecutionContext} {root mid leaf : Class}
    {x : String} {ixr ixm ixl : Nat} (hc : StaticChain env root mid leaf x ixr ixm ixl)
    (hec : ec.CellValued) (fuel : Nat) (ctx : Option Class) (name : String)
    (st : RequestState) (hok : StaticTablesOk root mid leaf ixr ixm ixl st.sPropData) :
    StaticTablesOk root mid leaf ixr ixm ixl
      (Class.getSPropWith ec (Class.initializeFuel env ec fuel) root ctx name st).2.sPropData ∧
    (∀ r, (Class.getSPropWith ec (Class.initializeFuel env ec fuel) root ctx name st).1 = .ok r →
      (r.sProp = none ∨ ∃ j, r.sProp = some (root.m_self, j)) ∧
      (name = x → r.sProp = some (root.m_self, ixr))) ∧
    (QuietChain root mid leaf → fuel ≥ 1 →
      ∃ r, (Class.getSPropWith ec (Class.initializeFuel env ec fuel) root ctx name st).1
        = .ok r) := by
  obtain ⟨i1, i2, i3⟩ := Class.initializeFuel_root hc hec fuel st hok
  refine ⟨?_, ?_, ?_⟩
  · rw [Class.getSPropWith_state]; exact i1
  · intro r hr
    obtain ⟨o, ho, hcase⟩ := Class.getSPropWith_ok hr
    rcases hcase with ⟨hl, hs⟩ | ⟨i, e, T, v, hl, hoT, hT, hs, -⟩
    · refine ⟨Or.inl hs, fun hx => ?_⟩
      obtain ⟨ex, hlx⟩ := hc.rootX
      rw [hx, hlx] at hl
      cases hl
    · have hi := (IndexedStringMap.lookup_eq_some.mp hl).2
      have hsz : root.m_staticProperties.size > 0 := by
        have := List.getElem?_lt_of_some hi
        unfold IndexedStringMap.size
        omega
      obtain ⟨T', hT', hst⟩ := i2 o ho hsz
      rw [hoT] at hT'
      injection hT' with hT'
      subst hT'
      have hcell : v.isCell = true := (i1.1 T hst).2 v (List.getElem?_mem hT)
      rw [TypedValue.isCell_deref hcell] at hs
      refine ⟨Or.inr ⟨i, hs⟩, fun hx => ?_⟩
      obtain ⟨ex, hlx⟩ := hc.rootX
      rw [hx, hlx] at hl
      injection hl with hl
      injection hl with h1 h2
      rw [hs, h1]
  · intro hq hf
    obtain ⟨o, ho⟩ := i3 hq hf
    apply Class.getSPropWith_succeeds ho
    intro i e hl
    have hi := (IndexedStringMap.lookup_eq_some.mp hl).2
    refine ⟨hq.rootVis e (List.getElem?_mem hi), ?_⟩
    have hsz : root.m_staticProperties.size > 0 := by
      have := List.getElem?_lt_of_some hi
      unfold IndexedStringMap.size
      omega
    obtain ⟨T, hT, hst⟩ := i2 o ho hsz
    have hlen := (i1.1 T hst).1
    have hlt : i < T.length := by
      rw [hlen]; exact List.getElem?_lt_of_some hi
    exact ⟨T, T.get ⟨i, hlt⟩, hT, List.getElem?_eq_getElem hlt⟩

theorem Class.initSPropsImplWith_mid {env : Env} {ec : ExecutionContext} {root mid leaf : Class}
    {x : String} {ixr ixm ixl : Nat} (hc : StaticChain env root mid leaf x ixr ixm ixl)
    (hec : ec.CellValued) (fuel : Nat)
    (st : RequestState) (hok : StaticTablesOk root mid leaf ixr ixm ixl st.sPropData) :
    StaticTablesOk root mid leaf ixr ixm ixl
      (Class.initSPropsImplWith env ec (fun declCls name s =>
        Class.getSPropWith ec (Class.initializeFuel env ec fuel) declCls none name s)
        mid st).2.sPropData ∧
    (∀ T, (Class.initSPropsImplWith env ec (fun declCls name s =>
        Class.getSPropWith ec (Class.initializeFuel env ec fuel) declCls none name s)
        mid st).1 = .ok T →
      SlotsOk (SlotOk mid.m_self (MidStorage root x ixr)) mid.m_staticProperties.m_list [] T) ∧
    (QuietChain root mid leaf → fuel ≥ 1 →
      ∃ T, (Class.initSPropsImplWith env ec (fun declCls name s =>
        Class.getSPropWith ec (Class.initializeFuel env ec fuel) declCls none name s)
        mid st).1 = .ok T) := by
  obtain ⟨h1, h2, h3⟩ := Class.initSPropsImplWith_spec hc hec
    (fun declCls name s =>
      Class.getSPropWith ec (Class.initializeFuel env ec fuel) declCls none name s)
    mid (MidStorage root x ixr)
    (QuietChain root mid leaf ∧ fuel ≥ 1) (fun e he hcl => hc.midCells e he hcl)
    (fun e he hne => by
      have hr : e.m_class = root.m_self := by
        rcases hc.midOwn e he with h | h
        · exact absurd h hne
        · exact h
      refine ⟨root, by unfold Env.deref; rw [hr, hc.heapRoot], ?_⟩
      intro s hs
      obtain ⟨g1, g2, g3⟩ := Class.getSProp_root hc hec fuel none e.m_name s hs
      refine ⟨g1, ?_, fun hq => g3 hq.1 hq.2⟩
      intro r hr
      obtain ⟨q1, q2⟩ := g2 r hr
      refine ⟨⟨q1, q2⟩, ?_⟩
      intro p hp
      rcases q1 with q1 | ⟨j, q1⟩
      · rw [q1] at hp; cases hp
      · rw [q1] at hp
        injection hp with hp
        subst hp
        exact Or.inl rfl)
    st hok
  exact ⟨h1, h2, fun hq hf => h3 ⟨hq, hf⟩ hq.midS⟩

theorem SlotsOk.midX {env : Env} {root mid leaf : Class} {x : String}
    {ixr ixm ixl : Nat} (hc : StaticChain env root mid leaf x ixr ixm ixl) {T : List TypedValue}
    (hT : SlotsOk (SlotOk mid.m_self (MidStorage root x ixr)) mid.m_staticProperties.m_list [] T) :
    T[ixm]? = some (.indirect (some (root.m_self, ixr))) := by
  obtain ⟨hlen, hslots⟩ := hT.table
  obtain ⟨em, hlm, hcm, hnm⟩ := hc.midX
  have hi := (IndexedStringMap.lookup_eq_some.mp hlm).2
  have hlt : ixm < T.length := by
    rw [hlen]; exact List.getElem?_lt_of_some hi
  have hv : T[ixm]? = some (T.get ⟨ixm, hlt⟩) := List.getElem?_eq_getElem hlt
  obtain ⟨-, s2⟩ := hslots ixm em _ hi hv
  have hne : em.m_class ≠ mid.m_self := by
    rw [hcm]; exact hc.rm
  obtain ⟨p, hp, -, hq⟩ := s2 hne
  rw [hv, hp, hq hnm]

theorem Class.initializeFuel_mid {env : Env} {ec : ExecutionContext} {root mid leaf : Class}
    {x : String} {ixr ixm ixl : Nat} (hc : StaticChain env root mid leaf x ixr ixm ixl)
    (hec : ec.CellValued) (fuel : Nat)
    (st : RequestState) (hok : StaticTablesOk root mid leaf ixr ixm ixl st.sPropData) :
    StaticTablesOk root mid leaf ixr ixm ixl (Class.initializeFuel env ec fuel mid st).2.sPropData ∧
    (∀ o, (Class.initializeFuel env ec fuel mid st).1 = .ok o →
      (mid.m_staticProperties.size > 0 →
        ∃ T, o = some T ∧
          (Class.initializeFuel env ec fuel mid st).2.sPropData mid.m_self = some T)) ∧
    (QuietChain root mid leaf → fuel ≥ 2 →
      ∃ o, (Class.initializeFuel env ec fuel mid st).1 = .ok o) := by
  cases fuel with
  | zero =>
    rw [Class.initializeFuel]
    exact ⟨hok, (fun o ho => by cases ho), fun _ h => absurd h (by omega)⟩
  | succ n =>
    rw [Class.initializeFuel]
    obtain ⟨h1, h2, h3⟩ := @Class.initializeWith_spec ec root mid leaf ixr ixm ixl
      (Class.initSPropsImplWith env ec (fun declCls name s =>
        Class.getSPropWith ec (Class.initializeFuel env ec n) declCls none name s))
      mid (QuietChain root mid leaf ∧ n ≥ 1)
      (fun s hs => by
        obtain ⟨a1, a2, a3⟩ := Class.initSPropsImplWith_mid hc hec n s hs
        exact ⟨a1, fun T hT => StaticTablesOk.installMid hc a1 (a2 T hT),
          fun hq => a3 hq.1 hq.2⟩)
      st hok
    exact ⟨h1, h2, fun hq hf => h3 ⟨hq, by omega⟩ hq.midP⟩

theorem Class.getSProp_mid {env : Env} {ec : ExecutionContext} {root mid leaf : Class}
    {x : String} {ixr ixm ixl : Nat} (hc : StaticChain env root mid leaf x ixr ixm ixl)
    (hec : ec.CellValued) (fuel : Nat) (ctx : Option Class) (name : String)
    (st : RequestState) (hok : StaticTablesOk root mid leaf ixr ixm ixl st.sPropData) :
    StaticTablesOk root mid leaf ixr ixm ixl
      (Class.getSPropWith ec (Class.initializeFuel env ec fuel) mid ctx name st).2.sPropData ∧
    (∀ r, (Class.getSPropWith ec (Class.initializeFuel env ec fuel) mid ctx name st).1 = .ok r →
      (∀ p, r.sProp = some p → SafeCell root mid p) ∧
      (name = x → r.sProp = some (root.m_self, ixr))) ∧
    (QuietChain root mid leaf → fuel ≥ 2 →
      ∃ r, (Class.getSPropWith ec (Class.initializeFuel env ec fuel) mid ctx name st).1
        = .ok r) := by
  obtain ⟨i1, i2, i3⟩ := Class.initializeFuel_mid hc hec fuel st hok
  refine ⟨?_, ?_, ?_⟩
  · rw [Class.getSPropWith_state]; exact i1
  · intro r hr
    obtain ⟨o, ho, hcase⟩ := Class.getSPropWith_ok hr
    rcases hcase with ⟨hl, hs⟩ | ⟨i, e, T, v, hl, hoT, hT, hs, -⟩
    · refine ⟨(fun p hp => by rw [hs] at hp; cases hp), fun hx => ?_⟩
      obtain ⟨ex, hlx, -⟩ := hc.midX
      rw [hx, hlx] at hl
      cases hl
    · have hi := (IndexedStringMap.lookup_eq_some.mp hl).2
      have hsz : mid.m_staticProperties.size > 0 := by
        have := List.getElem?_lt_of_some hi
        unfold IndexedStringMap.size
        omega
      obtain ⟨T', hT', hst⟩ := i2 o ho hsz
      rw [hoT] at hT'
      injection hT' with hT'
      subst hT'
      obtain ⟨-, hslots, hxslot⟩ := i1.2.1 T hst
      obtain ⟨s1, s2⟩ := hslots i e v hi hT
      refine ⟨?_, fun hx => ?_⟩
      · intro p hp
        by_cases hcl : e.m_class = mid.m_self
        · rw [hs, TypedValue.isCell_deref (s1 hcl)] at hp
          injection hp with hp
          subst hp
          exact Or.inr ⟨rfl, e, hi, hcl⟩
        · rcases s2 hcl with hv | ⟨j, hv⟩
          · rw [hs, hv] at hp
            cases hp
          · rw [hs, hv] at hp
            injection hp with hp
            subst hp
            exact Or.inl rfl
      · obtain ⟨ex, hlx, -⟩ := hc.midX
        rw [hx, hlx] at hl
        injection hl with hl
        injection hl with h1 h2
        subst h1
        rw [hxslot] at hT
        injection hT with hT
        subst hT
        rw [hs]
        rfl
  · intro hq hf
    obtain ⟨o, ho⟩ := i3 hq hf
    apply Class.getSPropWith_succeeds ho
    intro i e hl
    have hi := (IndexedStringMap.lookup_eq_some.mp hl).2
    refine ⟨hq.midVis e (List.getElem?_mem hi), ?_⟩
    have hsz : mid.m_staticProperties.size > 0 := by
      have := List.getElem?_lt_of_some hi
      unfold IndexedStringMap.size
      omega
    obtain ⟨T, hT, hst⟩ := i2 o ho hsz
    have hlen := (i1.2.1 T hst).1
    have hlt : i < T.length := by
      rw [hlen]; exact List.getElem?_lt_of_some hi
    exact ⟨T, T.get ⟨i, hlt⟩, hT, List.getElem?_eq_getElem hlt⟩

theorem Class.initSPropsImplWith_leaf {env : Env} {ec : ExecutionContext} {root mid leaf : Class}
    {x : String} {ixr ixm ixl : Nat} (hc : StaticChain env root mid leaf x ixr ixm ixl)
    (hec : ec.CellValued) (fuel : Nat)
    (st : RequestState) (hok : StaticTablesOk root mid leaf ixr ixm ixl st.sPropData) :
    StaticTablesOk root mid leaf ixr ixm ixl
      (Class.initSPropsImplWith env ec (fun declCls name s =>
        Class.getSPropWith ec (Class.initializeFuel env ec fuel) declCls none name s)
        leaf st).2.sPropData ∧
    (∀ T, (Class.initSPropsImplWith env ec (fun declCls name s =>
        Class.getSPropWith ec (Class.initializeFuel env ec fuel) declCls none name s)
        leaf st).1 = .ok T →
      SlotsOk (SlotOk leaf.m_self (LeafStorage root x ixr)) leaf.m_staticProperties.m_list [] T) ∧
    (QuietChain root mid leaf → fuel ≥ 2 →
      ∃ T, (Class.initSPropsImplWith env ec (fun declCls name s =>
        Class.getSPropWith ec (Class.initializeFuel env ec fuel) declCls none name s)
        leaf st).1 = .ok T) := by
  obtain ⟨h1, h2, h3⟩ := Class.initSPropsImplWith_spec hc hec
    (fun declCls name s =>
      Class.getSPropWith ec (Class.initializeFuel env ec fuel) declCls none name s)
    leaf (LeafStorage root x ixr)
    (QuietChain root mid leaf ∧ fuel ≥ 2) (fun e he hcl => hc.leafCells e he hcl)
    (fun e he hne => by
      rcases hc.leafOwn e he with h | h | h
      · exact absurd h hne
      · refine ⟨mid, by unfold Env.deref; rw [h, hc.heapMid], ?_⟩
        intro s hs
        obtain ⟨g1, g2, g3⟩ := Class.getSProp_mid hc hec fuel none e.m_name s hs
        refine ⟨g1, ?_, fun hq => g3 hq.1 hq.2⟩
        intro r hr
        obtain ⟨q1, q2⟩ := g2 r hr
        refine ⟨fun _ hcr => ?_, q1⟩
        exact absurd (h.symm.trans hcr) hc.rm.symm
      · refine ⟨root, by unfold Env.deref; rw [h, hc.heapRoot], ?_⟩
        intro s hs
        obtain ⟨g1, g2, g3⟩ := Class.getSProp_root hc hec fuel none e.m_name s hs
        refine ⟨g1, ?_, fun hq => g3 hq.1 (by omega)⟩
        intro r hr
        obtain ⟨q1, q2⟩ := g2 r hr
        refine ⟨fun hx _ => q2 hx, ?_⟩
        intro p hp
        rcases q1 with q1 | ⟨j, q1⟩
        · rw [q1] at hp; cases hp
        · rw [q1] at hp
          injection hp with hp
          subst hp
          exact Or.inl rfl)
    st hok
  exact ⟨h1, h2, fun hq hf => h3 ⟨hq, hf⟩ hq.leafS⟩

theorem Class.initializeFuel_leaf {env : Env} {ec : ExecutionContext} {root mid leaf : Class}
    {x : String} {ixr ixm ixl : Nat} (hc : StaticChain env root mid leaf x ixr ixm ixl)
    (hec : ec.CellValued) (fuel : Nat)
    (st : RequestState) (hok : StaticTablesOk root mid leaf ixr ixm ixl st.sPropData) :
    StaticTablesOk root mid leaf ixr ixm ixl (Class.initializeFuel env ec fuel leaf st).2.sPropData ∧
    (∀ o, (Class.initializeFuel env ec fuel leaf st).1 = .ok o →
      (leaf.m_staticProperties.size > 0 →
        ∃ T, o = some T ∧
          (Class.initializeFuel env ec fuel leaf st).2.sPropData leaf.m_self = some T)) ∧
    (QuietChain root mid leaf → fuel ≥ 3 →
      ∃ o, (Class.initializeFuel env ec fuel leaf st).1 = .ok o) := by
  cases fuel with
  | zero =>
    rw [Class.initializeFuel]
    exact ⟨hok, (fun o ho => by cases ho), fun _ h => absurd h (by omega)⟩
  | succ n =>
    rw [Class.initializeFuel]
    obtain ⟨h1, h2, h3⟩ := @Class.initializeWith_spec ec root mid leaf ixr ixm ixl
      (Class.initSPropsImplWith env ec (fun declCls name s =>
        Class.getSPropWith ec (Class.initializeFuel env ec n) declCls none name s))
      leaf (QuietChain root mid leaf ∧ n ≥ 2)
      (fun s hs => by
        obtain ⟨a1, a2, a3⟩ := Class.initSPropsImplWith_leaf hc hec n s hs
        exact ⟨a1, fun T hT => (StaticTablesOk.installLeaf hc a1 (a2 T hT)).1,
          fun hq => a3 hq.1 hq.2⟩)
      st hok
    exact ⟨h1, h2, fun hq hf => h3 ⟨hq, by omega⟩ hq.leafP⟩

theorem Class.getSProp_leaf {env : Env} {ec : ExecutionContext} {root mid leaf : Class}
    {x : String} {ixr ixm ixl : Nat} (hc : StaticChain env root mid leaf x ixr ixm ixl)
    (hec : ec.CellValued) (fuel : Nat) (ctx : Option Class)
    (st : RequestState) (hok : StaticTablesOk root mid leaf ixr ixm ixl st.sPropData) :
    StaticTablesOk root mid leaf ixr ixm ixl
      (Class.getSPropWith ec (Class.initializeFuel env ec fuel) leaf ctx x st).2.sPropData ∧
    (∀ r, (Class.getSPropWith ec (Class.initializeFuel env ec fuel) leaf ctx x st).1 = .ok r →
      r.sProp = some (root.m_self, ixr)) ∧
    (QuietChain root mid leaf → fuel ≥ 3 →
      ∃ r, (Class.getSPropWith ec (Class.initializeFuel env ec fuel) leaf ctx x st).1
        = .ok r) := by
  obtain ⟨i1, i2, i3⟩ := Class.initializeFuel_leaf hc hec fuel st hok
  obtain ⟨ex, hlx, -⟩ := hc.leafX
  have hix := (IndexedStringMap.lookup_eq_some.mp hlx).2
  have hsz : leaf.m_staticProperties.size > 0 := by
    have := List.getElem?_lt_of_some hix
    unfold IndexedStringMap.size
    omega
  refine ⟨?_, ?_, ?_⟩
  · rw [Class.getSPropWith_state]; exact i1
  · intro r hr
    obtain ⟨o, ho, hcase⟩ := Class.getSPropWith_ok hr
    rcases hcase with ⟨hl, hs⟩ | ⟨i, e, T, v, hl, hoT, hT, hs, -⟩
    · rw [hlx] at hl
      cases hl
    · obtain ⟨T', hT', hst⟩ := i2 o ho hsz
      rw [hoT] at hT'
      injection hT' with hT'
      subst hT'
      rw [hlx] at hl
      injection hl with hl
      injection hl with h1 h2
      subst h1
      rw [i1.2.2 T hst] at hT
      injection hT with hT
      subst hT
      rw [hs]
      rfl
  · intro hq hf
    obtain ⟨o, ho⟩ := i3 hq hf
    apply Class.getSPropWith_succeeds ho
    intro i e hl
    have hi := (IndexedStringMap.lookup_eq_some.mp hl).2
    refine ⟨hq.leafVis e (List.getElem?_mem hi), ?_⟩
    obtain ⟨T, hT, hst⟩ := i2 o ho hsz
    rw [hlx] at hl
    injection hl with hl
    injection hl with h1 h2
    subst h1
    exact ⟨T, _, hT, i1.2.2 T hst⟩

theorem StaticTablesOk.fresh (root mid leaf : Class) (ixr ixm ixl : Nat) :
    StaticTablesOk root mid leaf ixr ixm ixl RequestState.fresh.sPropData :=
  ⟨(fun T h => by cases h), (fun T h => by cases h), (fun T h => by cases h)⟩

/-- The hierarchy `root`, `mid`, `leaf`, linked one from the other, in which
`root` declares the static property `x`, not private, and neither `mid` nor
`leaf` nor their traits declare a property of that name, is a static chain. -/
theorem StaticChain.ofLinked {envR envM envL env : Env} {r m l : ClassId}
    {rootPre midPre leafPre : PreClass} {root mid leaf : Class} {d : PreClass.Prop}
    (hroot : Class.newClass envR r rootPre none = .ok root)
    (hmid : Class.newClass envM m midPre (some root) = .ok mid)
    (hleaf : Class.newClass envL l leafPre (some mid) = .ok leaf)
    (hrm : r ≠ m) (hrl : r ≠ l) (hml : m ≠ l)
    (heapRoot : env.classes r = some root) (heapMid : env.classes m = some mid)
    (hd : d ∈ rootPre.m_properties) (hstatic : hasAttr d.m_attrs AttrStatic = true)
    (hnp : hasAttr d.m_attrs AttrPrivate = false)
    (hpw : rootPre.m_properties.Pairwise (fun a b => a.m_name ≠ b.m_name))
    (hmidOwn : midPre.hasProp d.m_name = false) (hleafOwn : leafPre.hasProp d.m_name = false)
    (hmidTraits : ∀ ts, Class.loadUsedTraits envM midPre.m_name midPre.m_usedTraits = .ok ts →
      ∀ t, t ∈ ts → ∀ sp, sp ∈ t.m_staticProperties.m_list → sp.m_name ≠ d.m_name)
    (hleafTraits : ∀ ts, Class.loadUsedTraits envL leafPre.m_name leafPre.m_usedTraits = .ok ts →
      ∀ t, t ∈ ts → ∀ sp, sp ∈ t.m_staticProperties.m_list → sp.m_name ≠ d.m_name)
    (hrootCells : ∀ e, e ∈ root.m_staticProperties.m_list → e.m_val.isCell = true)
    (hmidCells : ∀ e, e ∈ mid.m_staticProperties.m_list → e.m_class = m →
      e.m_val.isCell = true)
    (hleafCells : ∀ e, e ∈ leaf.m_staticProperties.m_list → e.m_class = l →
      e.m_val.isCell = true) :
    ∃ ixr ixm ixl, StaticChain env root mid leaf d.m_name ixr ixm ixl := by
  have sr : root.m_self = r := (Class.newClass_core hroot).1
  have sm : mid.m_self = m := (Class.newClass_core hmid).1
  have sl : leaf.m_self = l := (Class.newClass_core hleaf).1
  have hRootOwn := Class.newClass_root_statics hroot
  have hAtR := Class.newClass_declares_static hroot hd hstatic hnp hpw
  have hOnlyR : StaticOnly r d.m_name root.m_staticProperties.m_list :=
    fun e he _ _ => hRootOwn e he
  obtain ⟨hAtM, hOnlyM⟩ := Class.newClass_inherits_static hmid
    (Class.newClass_static_nameKeyed hroot) hAtR hOnlyR hmidOwn hmidTraits
  obtain ⟨hAtL, -⟩ := Class.newClass_inherits_static hleaf
    (Class.newClass_static_nameKeyed hmid) hAtM hOnlyM hleafOwn hleafTraits
  obtain ⟨ixr, er, hlr, -, -⟩ := hAtR
  obtain ⟨ixm, em, hlm, hcm, -⟩ := hAtM
  obtain ⟨ixl, el, hll, hcl, -⟩ := hAtL
  have hMidOwn : ∀ e, e ∈ mid.m_staticProperties.m_list → e.m_class = m ∨ e.m_class = r := by
    intro e he
    rcases Class.newClass_static_closed hmid e he with h | ⟨e', he', hc'⟩
    · exact Or.inl h
    · exact Or.inr (hc'.symm.trans (hRootOwn e' he'))
  refine ⟨ixr, ixm, ixl, ?_⟩
  refine
    { rm := by rw [sr, sm]; exact hrm
      rl := by rw [sr, sl]; exact hrl
      ml := by rw [sm, sl]; exact hml
      heapRoot := by rw [sr]; exact heapRoot
      heapMid := by rw [sm]; exact heapMid
      rootOwn := by rw [sr]; exact hRootOwn
      midOwn := by rw [sr, sm]; exact hMidOwn
      leafOwn := ?_
      rootX := ⟨er, hlr⟩
      midX := ⟨em, hlm, by rw [sr]; exact hcm,
        (Class.newClass_static_nameKeyed hmid).2 _ _ _ hlm⟩
      leafX := ⟨el, hll, by rw [sr]; exact hcl,
        (Class.newClass_static_nameKeyed hleaf).2 _ _ _ hll⟩
      rootCells := hrootCells
      midCells := by rw [sm]; exact hmidCells
      leafCells := by rw [sl]; exact hleafCells }
  intro e he
  rw [sr, sm, sl]
  rcases Class.newClass_static_closed hleaf e he with h | ⟨e', he', hc'⟩
  · exact Or.inl h
  · rcases hMidOwn e' he' with h | h
    · exact Or.inr (Or.inl (hc'.symm.trans h))
    · exact Or.inr (Or.inr (hc'.symm.trans h))

/-- C5: in a hierarchy `root`, `mid`, `leaf`, linked one from the other on a
heap, in which only `root` declares the static property `x` (not private; `mid`
and `leaf` declare no property `x`, and no trait they use has a static property
`x`), with initial values and initialiser results that are not indirect
references: the static-property tables of the three classes resolve `x` to
slots `ixr`, `ixm`, `ixl` whose entries have `root` as declaring class.  In
every request state in which the static tables of the three classes are as
lazy initialisation leaves them (the state at the start of a request is such a
state, and `initSPropsImpl` and `getSProp` keep it so), `initSPropsImpl` of
`mid` and of `leaf`, when it returns, has stored in the slot of `x` an indirect
reference to the cell `ixr` of the table of `root`, and `getSProp` for `x`
through `root`, `mid` or `leaf`, when it returns, gives that same cell.  With
fuel 3 or more, when the three classes have no initialiser routines and well
formed visibility bits, all these calls return. -/
theorem C5_static_aliasing (envR envM envL env : Env) (ec : ExecutionContext)
    (r m l : ClassId) (rootPre midPre leafPre : PreClass) (root mid leaf : Class)
    (d : PreClass.Prop)
    (hroot : Class.newClass envR r rootPre none = .ok root)
    (hmid : Class.newClass envM m midPre (some root) = .ok mid)
    (hleaf : Class.newClass envL l leafPre (some mid) = .ok leaf)
    (hrm : r ≠ m) (hrl : r ≠ l) (hml : m ≠ l)
    (heapRoot : env.classes r = some root) (heapMid : env.classes m = some mid)
    (hd : d ∈ rootPre.m_properties) (hstatic : hasAttr d.m_attrs AttrStatic = true)
    (hnp : hasAttr d.m_attrs AttrPrivate = false)
    (hpw : rootPre.m_properties.Pairwise (fun a b => a.m_name ≠ b.m_name))
    (hmidOwn : midPre.hasProp d.m_name = false) (hleafOwn : leafPre.hasProp d.m_name = false)
    (hmidTraits : ∀ ts, Class.loadUsedTraits envM midPre.m_name midPre.m_usedTraits = .ok ts →
      ∀ t, t ∈ ts → ∀ sp, sp ∈ t.m_staticProperties.m_list → sp.m_name ≠ d.m_name)
    (hleafTraits : ∀ ts, Class.loadUsedTraits envL leafPre.m_name leafPre.m_usedTraits = .ok ts →
      ∀ t, t ∈ ts → ∀ sp, sp ∈ t.m_staticProperties.m_list → sp.m_name ≠ d.m_name)
    (hrootCells : ∀ e, e ∈ root.m_staticProperties.m_list → e.m_val.isCell = true)
    (hmidCells : ∀ e, e ∈ mid.m_staticProperties.m_list → e.m_class = m →
      e.m_val.isCell = true)
    (hleafCells : ∀ e, e ∈ leaf.m_staticProperties.m_list → e.m_class = l →
      e.m_val.isCell = true)
    (hec : ec.CellValued) :
    ∃ ixr ixm ixl,
      (∃ e, root.m_staticProperties.lookup d.m_name = some (ixr, e) ∧ e.m_class = r) ∧
      (∃ e, mid.m_staticProperties.lookup d.m_name = some (ixm, e) ∧ e.m_class = r) ∧
      (∃ e, leaf.m_staticProperties.lookup d.m_name = some (ixl, e) ∧ e.m_class = r) ∧
      StaticTablesOk root mid leaf ixr ixm ixl RequestState.fresh.sPropData ∧
      (∀ (fuel : Nat) (st : RequestState),
        StaticTablesOk root mid leaf ixr ixm ixl st.sPropData →
        (StaticTablesOk root mid leaf ixr ixm ixl
            (Class.initSPropsImpl env ec fuel mid st).2.sPropData ∧
          ∀ T, (Class.initSPropsImpl env ec fuel mid st).1 = .ok T →
            T[ixm]? = some (.indirect (some (r, ixr)))) ∧
        (StaticTablesOk root mid leaf ixr ixm ixl
            (Class.initSPropsImpl env ec fuel leaf st).2.sPropData ∧
          ∀ T, (Class.initSPropsImpl env ec fuel leaf st).1 = .ok T →
            T[ixl]? = some (.indirect (some (r, ixr)))) ∧
        ∀ ctx : Option Class,
          (StaticTablesOk root mid leaf ixr ixm ixl
              (Class.getSProp env ec fuel root ctx d.m_name st).2.sPropData ∧
            ∀ res, (Class.getSProp env ec fuel root ctx d.m_name st).1 = .ok res →
              res.sProp = some (r, ixr)) ∧
          (StaticTablesOk root mid leaf ixr ixm ixl
              (Class.getSProp env ec fuel mid ctx d.m_name st).2.sPropData ∧
            ∀ res, (Class.getSProp env ec fuel mid ctx d.m_name st).1 = .ok res →
              res.sProp = some (r, ixr)) ∧
          (StaticTablesOk root mid leaf ixr ixm ixl
              (Class.getSProp env ec fuel leaf ctx d.m_name st).2.sPropData ∧
            ∀ res, (Class.getSProp env ec fuel leaf ctx d.m_name st).1 = .ok res →
              res.sProp = some (r, ixr))) ∧
      (QuietChain root mid leaf → ∀ (fuel : Nat), fuel ≥ 3 →
        ∀ (ctx : Option Class) (st : RequestState),
          StaticTablesOk root mid leaf ixr ixm ixl st.sPropData →
          (∃ T, (Class.initSPropsImpl env ec fuel mid st).1 = .ok T) ∧
          (∃ T, (Class.initSPropsImpl env ec fuel leaf st).1 = .ok T) ∧
          (∃ res, (Class.getSProp env ec fuel root ctx d.m_name st).1 = .ok res) ∧
          (∃ res, (Class.getSProp env ec fuel mid ctx d.m_name st).1 = .ok res) ∧
          (∃ res, (Class.getSProp env ec fuel leaf ctx d.m_name st).1 = .ok res)) := by
  obtain ⟨ixr, ixm, ixl, hc⟩ := @StaticChain.ofLinked envR envM envL env r m l rootPre midPre
    leafPre root mid leaf d hroot hmid hleaf hrm hrl hml heapRoot heapMid hd hstatic hnp hpw
    hmidOwn hleafOwn hmidTraits hleafTraits hrootCells hmidCells hleafCells
  have sr : root.m_self = r := (Class.newClass_core hroot).1
  refine ⟨ixr, ixm, ixl, ?_, ?_, ?_, StaticTablesOk.fresh _ _ _ _ _ _, ?_, ?_⟩
  · obtain ⟨e, he⟩ := hc.rootX
    exact ⟨e, he, sr ▸ hc.rootOwn e (List.getElem?_mem (IndexedStringMap.lookup_eq_some.mp he).2)⟩
  · obtain ⟨e, he, hce, -⟩ := hc.midX
    exact ⟨e, he, hce.trans sr⟩
  · obtain ⟨e, he, hce, -⟩ := hc.leafX
    exact ⟨e, he, hce.trans sr⟩
  · intro fuel st hok
    rw [← sr]
    refine ⟨?_, ?_, ?_⟩
    · obtain ⟨a1, a2, -⟩ := Class.initSPropsImplWith_mid hc hec fuel st hok
      exact ⟨a1, fun T hT => SlotsOk.midX hc (a2 T hT)⟩
    · obtain ⟨a1, a2, -⟩ := Class.initSPropsImplWith_leaf hc hec fuel st hok
      exact ⟨a1, fun T hT => (StaticTablesOk.installLeaf hc a1 (a2 T hT)).2⟩
    · intro ctx
      obtain ⟨a1, a2, -⟩ := Class.getSProp_root hc hec fuel ctx d.m_name st hok
      obtain ⟨b1, b2, -⟩ := Class.getSProp_mid hc hec fuel ctx d.m_name st hok
      obtain ⟨c1, c2, -⟩ := Class.getSProp_leaf hc hec fuel ctx st hok
      exact ⟨⟨a1, fun res h => (a2 res h).2 rfl⟩, ⟨b1, fun res h => (b2 res h).2 rfl⟩, c1, c2⟩
  · intro hq fuel hf ctx st hok
    refine ⟨?_, ?_, ?_, ?_, ?_⟩
    · exact (Class.initSPropsImplWith_mid hc hec fuel st hok).2.2 hq (by omega)
    · exact (Class.initSPropsImplWith_leaf hc hec fuel st hok).2.2 hq (by omega)
    · exact (Class.getSProp_root hc hec fuel ctx d.m_name st hok).2.2 hq (by omega)
    · exact (Class.getSProp_mid hc hec fuel ctx d.m_name st hok).2.2 hq (by omega)
    · exact (Class.getSProp_leaf hc hec fuel ctx st hok).2.2 hq hf

theorem exStaticRoot_linked :
    Class.newClass env0 50 preStaticRoot none = .ok exStaticRoot := by rfl

theorem exStaticMid_linked :
    Class.newClass envStaticRoot 51 preStaticMid (some exStaticRoot) = .ok exStaticMid := by rfl

theorem exStaticLeaf_linked :
    Class.newClass envStaticMid 52 preStaticLeaf (some exStaticMid) = .ok exStaticLeaf := by rfl

theorem exEC_cellValued : exEC.CellValued := by
  intro f cls a a' ha h
  have h2 : a = a' := by
    simp only [exEC] at h
    injection h
  subst h2
  exact ha

/-- Witness of C5: `R` declares the public static `x`, `M extends R` declares a
static `y`, and `L extends M` declares nothing.  The three tables resolve `x`
to entries with the declaring class `R`; initialised in a fresh request, the
tables of `M` and `L` hold in the slot of `x` the indirect reference to cell 0
of `R`, and `getSProp` gives that cell through each of the three classes. -/
theorem C5_static_aliasing_witness :
    Class.newClass env0 50 preStaticRoot none = .ok exStaticRoot ∧
    Class.newClass envStaticRoot 51 preStaticMid (some exStaticRoot) = .ok exStaticMid ∧
    Class.newClass envStaticMid 52 preStaticLeaf (some exStaticMid) = .ok exStaticLeaf ∧
    (∃ ixr ixm ixl,
      (∃ e, exStaticRoot.m_staticProperties.lookup "x" = some (ixr, e) ∧ e.m_class = 50) ∧
      (∃ e, exStaticMid.m_staticProperties.lookup "x" = some (ixm, e) ∧ e.m_class = 50) ∧
      (∃ e, exStaticLeaf.m_staticProperties.lookup "x" = some (ixl, e) ∧ e.m_class = 50)) ∧
    (Class.initSPropsImpl envStaticMid exEC 3 exStaticMid RequestState.fresh).1
      = .ok [.indirect (some (50, 0)), .int 2] ∧
    (Class.initSPropsImpl envStaticMid exEC 3 exStaticLeaf RequestState.fresh).1
      = .ok [.indirect (some (50, 0)), .indirect (some (51, 1))] ∧
    (Class.getSProp envStaticMid exEC 3 exStaticRoot none "x" RequestState.fresh).1
      = .ok ⟨some (50, 0), true, true⟩ ∧
    (Class.getSProp envStaticMid exEC 3 exStaticMid none "x" RequestState.fresh).1
      = .ok ⟨some (50, 0), true, true⟩ ∧
    (Class.getSProp envStaticMid exEC 3 exStaticLeaf none "x" RequestState.fresh).1
      = .ok ⟨some (50, 0), true, true⟩ :=
  ⟨exStaticRoot_linked, exStaticMid_linked, exStaticLeaf_linked,
    (let ⟨ixr, ixm, ixl, h1, h2, h3, _⟩ :=
      C5_static_aliasing env0 envStaticRoot envStaticMid envStaticMid exEC 50 51 52
        preStaticRoot preStaticMid preStaticLeaf exStaticRoot exStaticMid exStaticLeaf
        (exProp "x" (AttrPublic ||| AttrStatic) (.int 1))
        exStaticRoot_linked exStaticMid_linked exStaticLeaf_linked
        (by decide) (by decide) (by decide) rfl rfl
        (by simp [preStaticRoot, exPre]) (by decide) (by decide)
        (by simp [preStaticRoot, exPre]) rfl rfl
        (fun ts h t ht => by
          have h2 : ts = [] := by
            have h0 : Class.loadUsedTraits envStaticRoot preStaticMid.m_name
                preStaticMid.m_usedTraits = .ok [] := rfl
            rw [h0] at h
            injection h with h
            exact h.symm
          rw [h2] at ht
          cases ht)
        (fun ts h t ht => by
          have h2 : ts = [] := by
            have h0 : Class.loadUsedTraits envStaticMid preStaticLeaf.m_name
                preStaticLeaf.m_usedTraits = .ok [] := rfl
            rw [h0] at h
            injection h with h
            exact h.symm
          rw [h2] at ht
          cases ht)
        (fun e he => by
          have hl : exStaticRoot.m_staticProperties.m_list =
              [⟨"x", 18, "", "", 50, .int 1⟩] := rfl
          rw [hl, List.mem_singleton] at he
          subst he
          rfl)
        (fun e he _ => by
          have hl : exStaticMid.m_staticProperties.m_list =
              [⟨"x", 18, "", "", 50, .uninit⟩, ⟨"y", 18, "", "", 51, .int 2⟩] := rfl
          rw [hl] at he
          simp only [List.mem_cons, List.mem_singleton, List.mem_nil_iff, or_false] at he
          rcases he with he | he <;> (subst he; rfl))
        (fun e he _ => by
          have hl : exStaticLeaf.m_staticProperties.m_list =
              [⟨"x", 18, "", "", 50, .uninit⟩, ⟨"y", 18, "", "", 51, .uninit⟩] := rfl
          rw [hl] at he
          simp only [List.mem_cons, List.mem_singleton, List.mem_nil_iff, or_false] at he
          rcases he with he | he <;> (subst he; rfl))
        exEC_cellValued
     ⟨ixr, ixm, ixl, h1, h2, h3⟩),
    rfl, rfl, rfl, rfl, rfl⟩

theorem Class.addOwnMethod_wf {env : Env} {this : Class} {method : Func} {b b1 : MethodMap}
    (hwf : b.WF) (h : Class.addOwnMethod env this method b = .ok b1) : b1.WF := by
  unfold Class.addOwnMethod at h
  split at h
  · injection h with h; subst h; exact hwf
  · cases hl : b.lookup method.m_name with
    | none =>
      simp only [hl] at h
      injection h with h; subst h; exact hwf.add _ _
    | some r =>
      obtain ⟨slot, pm⟩ := r
      simp only [hl] at h
      cases hc : Class.methodOverrideCheck env this pm method with
      | error e => simp [hc] at h
      | ok u =>
        simp only [hc] at h
        injection h with h; subst h; exact hwf.set _ _

/-- The builder resolves `name` to an entry that satisfies `P`. -/
theorem Class.addOwnMethod_keeps {env : Env} {this : Class} {method : Func} {b b1 : MethodMap}
    {P : Func → Prop} {name : String}
    (hstep : ∀ pm, P pm → isame method.m_name name = true → skippedOwnMethod method = false →
      Class.methodOverrideCheck env this pm method = .ok () →
      P (Class.overlay this pm (method.clone (some this.m_self))))
    (hwf : b.WF) (hP : ∃ i g, b.lookup name = some (i, g) ∧ P g)
    (h : Class.addOwnMethod env this method b = .ok b1) :
    ∃ i g, b1.lookup name = some (i, g) ∧ P g := by
  obtain ⟨i, g, hl, hg⟩ := hP
  unfold Class.addOwnMethod at h
  split at h
  · injection h with h; subst h; exact ⟨i, g, hl, hg⟩
  · rename_i hsk
    have hsk : skippedOwnMethod method = false := by
      unfold skippedOwnMethod
      simpa using hsk
    cases hlm : b.lookup method.m_name with
    | none =>
      simp only [hlm] at h
      injection h with h; subst h
      have hne : keyEq false method.m_name name = false := by
        cases hk : keyEq false method.m_name name with
        | false => rfl
        | true =>
          have hi : isame method.m_name name = true := by simpa [keyEq] using hk
          rw [IndexedStringMap.lookup_congr b hi, hl] at hlm
          cases hlm
      exact ⟨i, g, IndexedStringMap.lookup_add_other b _ _ name hne hl, hg⟩
    | some r =>
      obtain ⟨slot, pm⟩ := r
      simp only [hlm] at h
      cases hc : Class.methodOverrideCheck env this pm method with
      | error e => simp [hc] at h
      | ok u =>
        simp only [hc] at h
        injection h with h; subst h
        by_cases hi : isame method.m_name name = true
        · rw [IndexedStringMap.lookup_congr b hi, hl] at hlm
          injection hlm with hlm
          injection hlm with h1 h2
          subst h1 h2
          exact ⟨i, _, IndexedStringMap.lookup_set_same b name i g _ hl, hstep g hg hi hsk hc⟩
        · have hs : slot ≠ i := by
            intro hs
            subst hs
            obtain ⟨k, k1, k2⟩ := hwf.same_slot
              ((IndexedStringMap.lookup_eq_some.mp hlm).1) ((IndexedStringMap.lookup_eq_some.mp hl).1)
            apply hi
            have k1' : isame k method.m_name = true := by simpa [keyEq] using k1
            have k2' : isame k name = true := by simpa [keyEq] using k2
            rw [isame_symm] at k1'
            exact isame_trans k1' k2'
          exact ⟨i, g, IndexedStringMap.lookup_set_other b name i slot g _ hl hs, hg⟩

/-- The loop over the methods of the `PreClass` fails when the builder resolves
the name of one of them to an entry with which `methodOverrideCheck` rejects
it, and the methods before it keep such an entry in place. -/
theorem Class.addOwnMethods_fails {env : Env} {this : Class} {P : Func → Prop} {m : Func}
    (hsk : skippedOwnMethod m = false)
    (hbad : ∀ pm, P pm → ∃ e, Class.methodOverrideCheck env this pm m = .error e) :
    ∀ (l : List Func) (b : MethodMap), m ∈ l →
      (∀ m', m' ∈ l → ∀ pm, P pm → isame m'.m_name m.m_name = true →
        skippedOwnMethod m' = false →
        Class.methodOverrideCheck env this pm m' = .ok () →
        P (Class.overlay this pm (m'.clone (some this.m_self)))) →
      b.WF → (∃ i g, b.lookup m.m_name = some (i, g) ∧ P g) →
      ∃ e, Class.addOwnMethods env this l b = .error e := by
  intro l
  induction l with
  | nil => intro b hm; cases hm
  | cons m' rest ih =>
    intro b hm hstep hwf hP
    rw [Class.addOwnMethods]
    cases h1 : Class.addOwnMethod env this m' b with
    | error e => exact ⟨e, rfl⟩
    | ok b1 =>
      simp only []
      have hP1 := Class.addOwnMethod_keeps (hstep m' (List.mem_cons_self _ _)) hwf hP h1
      have hm' : m ∈ rest := by
        rcases List.mem_cons.mp hm with hm | hm
        · subst hm
          exfalso
          obtain ⟨i, g, hl, hg⟩ := hP
          obtain ⟨e, he⟩ := hbad g hg
          unfold Class.addOwnMethod at h1
          have hsk' : (isSpecial m.m_name && (m.m_name == sd86ctor || m.m_name == sd86sinit ||
              m.m_name == sd86pinit)) = false := hsk
          rw [hsk'] at h1
          simp [hl, he] at h1
        · exact hm
      exact ih b1 hm' (fun m2 h2 => hstep m2 (List.mem_cons_of_mem _ h2))
        (Class.addOwnMethod_wf hwf h1) hP1

/-- Linking fails when the loop over the methods of the `PreClass` fails. -/
theorem Class.newClass_fails_of_addOwnMethods {env : Env} {self : ClassId} {pre : PreClass}
    {parent : Option Class}
    (h : ∀ this : Class, this.m_self = self → this.m_preClass = pre →
      ∃ e, Class.addOwnMethods env this pre.m_methods (Class.inheritedMethods parent).1
        = .error e) :
    ∃ e, Class.newClass env self pre parent = .error e := by
  cases hn : Class.newClass env self pre parent with
  | error e => exact ⟨e, rfl⟩
  | ok cls =>
    exfalso
    obtain ⟨usedTraits, this0, r, -, s1, s2, -, -, hb, -⟩ := Class.newClass_methods hn
    obtain ⟨e, he⟩ := h this0 s1 s2
    unfold Class.buildMethods at hb
    rw [s2, he] at hb
    cases hb
theorem Class.methodOverrideCheck_final {env : Env} {this : Class} {parentMethod method : Func}
    (hg : method.m_isGenerated = false) (hf : hasAttr parentMethod.m_attrs AttrFinal = true)
    (hm : this.m_preClass.isMockClass = false) :
    Class.methodOverrideCheck env this parentMethod method
      = .error (.overrideFinal parentMethod.m_name) := by
  unfold Class.methodOverrideCheck
  simp [hg, hf, hm]

theorem Class.methodOverrideCheck_abstract {env : Env} {this : Class}
    {parentMethod method : Func}
    (hg : method.m_isGenerated = false) (ha : hasAttr method.m_attrs AttrAbstract = true) :
    ∃ e, Class.methodOverrideCheck env this parentMethod method = .error e := by
  cases h : Class.methodOverrideCheck env this parentMethod method with
  | error e => exact ⟨e, rfl⟩
  | ok u =>
    rcases Class.methodOverrideCheck_ok h with h1 | h1
    · rw [hg] at h1; cases h1
    · rw [ha] at h1; cases h1.2.1

theorem Class.methodOverrideCheck_static {env : Env} {this : Class}
    {parentMethod method : Func} (hg : method.m_isGenerated = false)
    (hs : (method.m_attrs &&& AttrStatic) ≠ (parentMethod.m_attrs &&& AttrStatic)) :
    ∃ e, Class.methodOverrideCheck env this parentMethod method = .error e := by
  cases h : Class.methodOverrideCheck env this parentMethod method with
  | error e => exact ⟨e, rfl⟩
  | ok u =>
    rcases Class.methodOverrideCheck_ok h with h1 | h1
    · rw [hg] at h1; cases h1
    · exact absurd h1.2.2.1 hs

theorem exSealed_linked : Class.newClass env0 60 preSealed none = .ok exSealed := by rfl

theorem exShape_linked : Class.newClass env0 62 preShape none = .ok exShape := by rfl

/-- C11, as stated, fails: `Sealed` declares the final method `get`; the class
`Mock`, which carries the user attribute `__MockClass`, and the class `Auto`,
whose method `get` is compiler-generated, both declare `get` and link. -/
theorem C11_counterexample :
    exSealed.m_methods.m_list.map (fun f => (f.m_name, hasAttr f.m_attrs AttrFinal))
      = [("get", true)] ∧
    preMock.m_methods.map (fun f => f.m_name) = ["get"] ∧
    Class.newClass envSealed 61 preMock (some exSealed) = .ok exMock ∧
    preAuto.m_methods.map (fun f => f.m_name) = ["get"] ∧
    Class.newClass envSealed 61 preAuto (some exSealed) = .ok exAuto :=
  ⟨rfl, rfl, rfl, rfl, rfl⟩

/-- C11 (amended): a class does not link when it declares a method `m` that is
not compiler-generated (and is not one of `86ctor`, `86sinit`, `86pinit`, which
stay out of the method table), the class does not carry the user attribute
`__MockClass`, and the table copied down from the parent resolves the name of
`m` to a final method.  The methods of a `PreClass` have names that differ up
to case. -/
theorem C11_final_override (env : Env) (self : ClassId) (pre : PreClass) (p : Class)
    (m : Func) (slot : Nat) (g : Func)
    (hm : m ∈ pre.m_methods) (hsk : skippedOwnMethod m = false)
    (hgen : m.m_isGenerated = false)
    (huniq : ∀ m', m' ∈ pre.m_methods → isame m'.m_name m.m_name = true → m' = m)
    (hmock : pre.isMockClass = false)
    (hinh : (Class.inheritedMethods (some p)).1.lookup m.m_name = some (slot, g))
    (hfin : hasAttr g.m_attrs AttrFinal = true) :
    ∃ e, Class.newClass env self pre (some p) = .error e := by
  apply Class.newClass_fails_of_addOwnMethods
  intro this hself hpre
  have hmk : this.m_preClass.isMockClass = false := by rw [hpre]; exact hmock
  refine @Class.addOwnMethods_fails env this (fun f => hasAttr f.m_attrs AttrFinal = true) m hsk
    (fun pm hpm => ⟨_, Class.methodOverrideCheck_final hgen hpm hmk⟩)
    pre.m_methods _ hm ?_ (Class.inheritedMethods_wf (some p)) ⟨slot, g, hinh, hfin⟩
  intro m' hm' pm hpm hi _ hok
  have := huniq m' hm' hi
  subst this
  rw [Class.methodOverrideCheck_final hgen hpm hmk] at hok
  cases hok

/-- Witness of C11: `Plain extends Sealed` declares `get`, which `Sealed`
declares final, and does not link. -/
theorem C11_final_override_witness :
    (Class.inheritedMethods (some exSealed)).1.lookup "get"
      = some (0, { exFunc "get" (AttrPublic ||| AttrFinal) 1 "Sealed" with
          m_cls := some 60, m_baseCls := some 60 }) ∧
    ∃ e, Class.newClass envSealed 61 prePlain (some exSealed) = .error e :=
  ⟨rfl, C11_final_override envSealed 61 prePlain exSealed (exFunc "get" AttrPublic 4 "Plain") 0
    { exFunc "get" (AttrPublic ||| AttrFinal) 1 "Sealed" with
      m_cls := some 60, m_baseCls := some 60 }
    (by simp [prePlain, exPre]) rfl rfl
    (by intro m' h _; simpa [prePlain, exPre] using h) rfl rfl rfl⟩

/-- C12: a class does not link when it declares a method `m` that is not
compiler-generated (nor one of `86ctor`, `86sinit`, `86pinit`, which stay out
of the method table) under a name that the table copied down from the parent
resolves to a method `g`, and `m` is abstract, whether `g` is abstract or not;
nor does it link when `m` is static and `g` is not, or the other way round.
The methods of a `PreClass` have names that differ up to case. -/
theorem C12_abstract_or_static_override (env : Env) (self : ClassId) (pre : PreClass)
    (p : Class) (m : Func) (slot : Nat) (g : Func)
    (hm : m ∈ pre.m_methods) (hsk : skippedOwnMethod m = false)
    (hgen : m.m_isGenerated = false)
    (huniq : ∀ m', m' ∈ pre.m_methods → isame m'.m_name m.m_name = true → m' = m)
    (hinh : (Class.inheritedMethods (some p)).1.lookup m.m_name = some (slot, g)) :
    (hasAttr m.m_attrs AttrAbstract = true →
      ∃ e, Class.newClass env self pre (some p) = .error e) ∧
    ((m.m_attrs &&& AttrStatic) ≠ (g.m_attrs &&& AttrStatic) →
      ∃ e, Class.newClass env self pre (some p) = .error e) := by
  constructor
  · intro habs
    apply Class.newClass_fails_of_addOwnMethods
    intro this hself hpre
    refine @Class.addOwnMethods_fails env this (fun _ => True) m hsk
      (fun pm _ => Class.methodOverrideCheck_abstract hgen habs)
      pre.m_methods _ hm ?_ (Class.inheritedMethods_wf (some p)) ⟨slot, g, hinh, trivial⟩
    intros
    trivial
  · intro hst
    apply Class.newClass_fails_of_addOwnMethods
    intro this hself hpre
    refine @Class.addOwnMethods_fails env this
      (fun f => (f.m_attrs &&& AttrStatic) = (g.m_attrs &&& AttrStatic)) m hsk
      (fun pm hpm => Class.methodOverrideCheck_static hgen (by rw [hpm]; exact hst))
      pre.m_methods _ hm ?_ (Class.inheritedMethods_wf (some p)) ⟨slot, g, hinh, rfl⟩
    intro m' hm' pm hpm hi _ hok
    have := huniq m' hm' hi
    subst this
    rcases Class.methodOverrideCheck_ok hok with h1 | h1
    · rw [hgen] at h1; cases h1
    · show ((Class.overlay this pm (m'.clone (some this.m_self))).m_attrs &&& AttrStatic)
        = (g.m_attrs &&& AttrStatic)
      rw [← hpm, ← h1.2.2.1]
      rfl

/-- Witness of C12: `Shape` declares the abstract method `area`, the method
`name` and the static method `make`.  A subclass that declares `area` abstract
does not link, nor does one that declares `name` abstract, nor one that
declares `make` as an instance method. -/
theorem C12_abstract_or_static_override_witness :
    (∃ e, Class.newClass envShape 63 (preSub exAbsArea) (some exShape) = .error e) ∧
    (∃ e, Class.newClass envShape 63 (preSub exAbsName) (some exShape) = .error e) ∧
    (∃ e, Class.newClass envShape 63 (preSub exInstMake) (some exShape) = .error e) :=
  ⟨(C12_abstract_or_static_override envShape 63 (preSub exAbsArea) exShape exAbsArea 0
      { exFunc "area" (AttrPublic ||| AttrAbstract) 1 "Shape" with
        m_cls := some 62, m_baseCls := some 62 }
      (by simp [preSub, exPre]) rfl rfl
      (by intro m' h _; simpa [preSub, exPre] using h) rfl).1 rfl,
   (C12_abstract_or_static_override envShape 63 (preSub exAbsName) exShape exAbsName 1
      { exFunc "name" AttrPublic 2 "Shape" with
        m_cls := some 62, m_baseCls := some 62, m_methodSlot := 1 }
      (by simp [preSub, exPre]) rfl rfl
      (by intro m' h _; simpa [preSub, exPre] using h) rfl).1 rfl,
   (C12_abstract_or_static_override envShape 63 (preSub exInstMake) exShape exInstMake 2
      { exFunc "make" (AttrPublic ||| AttrStatic) 3 "Shape" with
        m_cls := some 62, m_baseCls := some 62, m_methodSlot := 2 }
      (by simp [preSub, exPre]) rfl rfl
      (by intro m' h _; simpa [preSub, exPre] using h) rfl).2 (by decide)⟩

theorem AppendedOwn.appended_add {self : ClassId} {n : Nat} {b : MethodMap}
    (h : AppendedOwn self n b) (k : String) (v : Func)
    (hv : v.m_cls = some self ∧ v.m_baseCls = some self) : AppendedOwn self n (b.add k v) := by
  intro j f hj hn
  simp only [IndexedStringMap.add] at hj
  by_cases hlt : j < b.m_list.length
  · rw [List.getElem?_append_left hlt] at hj
    exact h j f hj hn
  · rw [List.getElem?_append_right (by omega)] at hj
    cases hd : j - b.m_list.length with
    | zero =>
      rw [hd] at hj
      simp only [List.getElem?_cons_zero, Option.some.injEq] at hj
      subst hj
      exact hv
    | succ d =>
      rw [hd] at hj
      simp at hj

theorem AppendedOwn.appended_set {self : ClassId} {n : Nat} {b : MethodMap}
    (h : AppendedOwn self n b) (slot : Nat) (v : Func)
    (hv : n ≤ slot → v.m_cls = some self ∧ v.m_baseCls = some self) :
    AppendedOwn self n (b.set slot v) := by
  intro j f hj hn
  simp only [IndexedStringMap.set] at hj
  by_cases hs : slot = j
  · subst hs
    by_cases hlt : slot < b.m_list.length
    · rw [List.getElem?_set_self hlt] at hj
      injection hj with hj
      subst hj
      exact hv hn
    · rw [List.getElem?_eq_none (by simpa using hlt)] at hj
      cases hj
  · rw [List.getElem?_set_ne hs] at hj
    exact h j f hj hn

theorem Class.overlay_baseCls (this : Class) (parentMethod f : Func)
    (h : parentMethod.m_baseCls = some this.m_self) :
    (Class.overlay this parentMethod f).m_baseCls = some this.m_self := by
  unfold Class.overlay
  simp only []
  split
  · rfl
  · exact h

theorem Class.addOwnMethod_appended {env : Env} {this : Class} {n : Nat}
    {method : Func} {b b' : MethodMap}
    (hinv : AppendedOwn this.m_self n b)
    (h : Class.addOwnMethod env this method b = .ok b') : AppendedOwn this.m_self n b' := by
  unfold Class.addOwnMethod at h
  split at h
  · injection h with h; subst h; exact hinv
  · cases hl : b.lookup method.m_name with
    | none =>
      simp only [hl] at h
      injection h with h; subst h
      exact hinv.appended_add _ _ ⟨rfl, rfl⟩
    | some r =>
      obtain ⟨slot, pm⟩ := r
      simp only [hl] at h
      cases hc : Class.methodOverrideCheck env this pm method with
      | error e => simp [hc] at h
      | ok u =>
        simp only [hc] at h
        injection h with h; subst h
        apply hinv.appended_set
        intro hn
        have hpm := (IndexedStringMap.lookup_eq_some.mp hl).2
        exact ⟨rfl, Class.overlay_baseCls this pm _ (hinv slot pm hpm hn).2⟩

theorem Class.addOwnMethods_appended {env : Env} {this : Class} {n : Nat} (l : List Func) :
    ∀ (b b' : MethodMap), AppendedOwn this.m_self n b →
      Class.addOwnMethods env this l b = .ok b' → AppendedOwn this.m_self n b' := by
  induction l with
  | nil =>
    intro b b' hinv h
    rw [Class.addOwnMethods] at h
    injection h with h; subst h; exact hinv
  | cons m rest ih =>
    intro b b' hinv h
    rw [Class.addOwnMethods] at h
    cases h1 : Class.addOwnMethod env this m b with
    | error e => simp [h1] at h
    | ok b1 =>
      simp only [h1] at h
      exact ih b1 b' (Class.addOwnMethod_appended hinv h1) h

theorem Class.importTraitMethod_appended {env : Env} {this : Class} {n : Nat}
    {tm : TraitMethod} {methName : String} {b b' : MethodMap}
    (hinv : AppendedOwn this.m_self n b)
    (h : Class.importTraitMethod env this tm methName b = .ok b') :
    AppendedOwn this.m_self n b' := by
  unfold Class.importTraitMethod at h
  simp only [] at h
  split at h
  · injection h with h; subst h; exact hinv
  · cases hl : b.lookup methName with
    | none =>
      simp only [hl] at h
      injection h with h; subst h
      exact hinv.appended_add _ _ ⟨rfl, rfl⟩
    | some r =>
      obtain ⟨slot, pm⟩ := r
      simp only [hl] at h
      split at h
      · injection h with h; subst h; exact hinv
      · rename_i hcls
        split at h
        · cases h
        · injection h with h; subst h
          apply hinv.appended_set
          intro hn
          have hpm := (IndexedStringMap.lookup_eq_some.mp hl).2
          exact absurd (hinv slot pm hpm hn).1 hcls

theorem Class.importTraitMethodsLoop_appended {env : Env} {this : Class} {n : Nat}
    (l : MethodToTraitListMap) :
    ∀ (b b' : MethodMap), AppendedOwn this.m_self n b →
      Class.importTraitMethodsLoop env this l b = .ok b' → AppendedOwn this.m_self n b' := by
  induction l with
  | nil =>
    intro b b' hinv h
    rw [Class.importTraitMethodsLoop] at h
    injection h with h; subst h; exact hinv
  | cons entry rest ih =>
    intro b b' hinv h
    rw [Class.importTraitMethodsLoop] at h
    cases h1 : Class.importTraitMethodsStep env this entry b with
    | error e => simp [h1] at h
    | ok b1 =>
      simp only [h1] at h
      refine ih b1 b' ?_ h
      unfold Class.importTraitMethodsStep at h1
      split at h1
      · injection h1 with h1; subst h1; exact hinv
      · split at h1
        · split at h1
          · injection h1 with h1; subst h1; exact hinv
          · cases h1
        · exact Class.importTraitMethod_appended hinv h1

theorem Class.recloneMethods_appended {this : Class} {n : Nat} (l : List Nat) :
    ∀ (b : MethodMap), AppendedOwn this.m_self n b →
      AppendedOwn this.m_self n (Class.recloneMethods this l b) := by
  induction l with
  | nil => intro b hinv; exact hinv
  | cons slot rest ih =>
    intro b hinv
    rw [Class.recloneMethods]
    cases hg : b.get? slot with
    | none => simp only []; exact ih b hinv
    | some f =>
      simp only []
      split
      · rename_i hcls
        apply ih
        apply hinv.appended_set
        intro hn
        exfalso
        have := (hinv slot f hg hn).1
        simp [this] at hcls
      · exact ih b hinv

theorem Class.inheritedMethods_length (parent : Option Class) :
    (Class.inheritedMethods parent).1.m_list = Class.parentMethodList parent := by
  cases parent with
  | none => rfl
  | some p =>
    have := (Class.copyParentMethods_spec p.m_methods.m_list 0
      (IndexedStringMap.empty, []) rfl).1
    simpa [Class.inheritedMethods, Class.parentMethodList, IndexedStringMap.empty] using this

/-- The builder of `setMethods` holds, from the size of the table of the parent
on, methods bound to the class itself with the class as base class. -/
theorem Class.buildMethods_appended {env : Env} {parent : Option Class}
    {usedTraits : List Class} {this : Class} {r : Class × MethodMap}
    (h : Class.buildMethods env parent usedTraits this = .ok r) :
    AppendedOwn this.m_self (Class.parentMethodList parent).length r.2 := by
  unfold Class.buildMethods at h
  cases ho : Class.addOwnMethods env this this.m_preClass.m_methods
      (Class.inheritedMethods parent).1 with
  | error e => simp [ho] at h
  | ok builder =>
    simp only [ho] at h
    have h0 : AppendedOwn this.m_self (Class.parentMethodList parent).length
        (Class.inheritedMethods parent).1 := by
      intro j f hj hn
      rw [Class.inheritedMethods_length] at hj
      rw [List.getElem?_eq_none hn] at hj
      cases hj
    have hown := Class.addOwnMethods_appended _ _ _ h0 ho
    cases hi : Class.importTraitMethodsIfAny env usedTraits
        { this with m_traitsBeginIdx := builder.size } builder with
    | error e => simp [hi] at h
    | ok r1 =>
      simp only [hi] at h
      injection h with h
      subst h
      have himp : AppendedOwn this.m_self (Class.parentMethodList parent).length r1.2 := by
        unfold Class.importTraitMethodsIfAny at hi
        split at hi
        · unfold Class.importTraitMethods at hi
          cases hc : Class.traitCandidates env usedTraits
              { this with m_traitsBeginIdx := builder.size } with
          | error e => simp [hc] at hi
          | ok st =>
            simp only [hc] at hi
            cases hl : Class.importTraitMethodsLoop env
                { this with m_traitsBeginIdx := builder.size, m_traitAliases := st.1 }
                st.2 builder with
            | error e => simp [hl] at hi
            | ok b1 =>
              simp only [hl] at hi
              injection hi with hi
              subst hi
              exact @Class.importTraitMethodsLoop_appended env
                { this with m_traitsBeginIdx := builder.size, m_traitAliases := st.1 }
                _ st.2 builder b1 hown hl
        · injection hi with hi
          subst hi
          exact hown
      have hs : ({ r1.1 with m_traitsEndIdx := r1.2.size } : Class).m_self = this.m_self := by
        have := (Class.importTraitMethodsIfAny_core hi).1
        simpa using this
      have := @Class.recloneMethods_appended { r1.1 with m_traitsEndIdx := r1.2.size }
        (Class.parentMethodList parent).length
        (Class.inheritedMethods parent).2 r1.2 (by rw [hs]; exact himp)
      rw [hs] at this
      exact this

/-- C13: when a class links with the parent `p`, every slot of the method
table of `p` holds in the class a method of the same name up to case; every
slot from the size of the table of `p` on holds a method bound to the class
with the class itself as base class; a name that no method of `p` has is
resolved, if at all, to such a slot; and the class resolves to such a slot the
name of every method it declares (other than `86ctor`, `86sinit`, `86pinit`)
that no method of `p` has, and every name that no method of `p` has, the class
does not declare, and for which the used traits leave one candidate: there the
entry is the imported copy of the candidate. -/
theorem C13_method_slots (env : Env) (self : ClassId) (pre : PreClass) (p cls : Class)
    (h : Class.newClass env self pre (some p) = .ok cls) :
    (∀ (i : Nat) (g : Func), p.m_methods.m_list[i]? = some g →
      ∃ f, cls.m_methods.m_list[i]? = some f ∧ isame g.m_name f.m_name = true) ∧
    (∀ (j : Nat) (f : Func), cls.m_methods.m_list[j]? = some f →
      p.m_methods.m_list.length ≤ j → f.m_cls = some self ∧ f.m_baseCls = some self) ∧
    (∀ (name : String) (j : Nat) (f : Func), cls.m_methods.lookup name = some (j, f) →
      (∀ g, g ∈ p.m_methods.m_list → isame g.m_name name = false) →
      p.m_methods.m_list.length ≤ j) ∧
    (∀ m, m ∈ pre.m_methods → skippedOwnMethod m = false →
      (∀ g, g ∈ p.m_methods.m_list → isame g.m_name m.m_name = false) →
      ∃ j f, cls.m_methods.lookup m.m_name = some (j, f) ∧ p.m_methods.m_list.length ≤ j ∧
        f.m_baseCls = some self ∧ f.m_methodSlot = j ∧ OwnEntry self pre m.m_name f) ∧
    (∀ (usedTraits : List Class) (st : List (String × String) × MethodToTraitListMap)
        (name : String) (tm : TraitMethod),
      Class.loadUsedTraits env pre.m_name pre.m_usedTraits = .ok usedTraits →
      usedTraits ≠ [] →
      Class.traitCandidates env usedTraits (Class.beforeMethods self pre (some p) usedTraits)
        = .ok st →
      MethodToTraitListMap.find st.2 name = some [tm] →
      pre.hasMethod name = false →
      (∀ g, g ∈ p.m_methods.m_list → isame g.m_name name = false) →
      ∃ j k, isame k name = true ∧ p.m_methods.m_list.length ≤ j ∧
        cls.m_methods.lookup name
          = some (j, (Class.importedMethod self tm k).setMethodSlot j)) := by
  obtain ⟨usedTraits, c3, hl, hset, hm⟩ := Class.newClass_setMethods h
  obtain ⟨r, hb, -, hm3, -⟩ := Class.setMethods_ok hset
  obtain ⟨s1, s2, -, -⟩ := Class.beforeMethods_fields self pre (some p) usedTraits
  have hinv := Class.buildMethods_inv hb
  have happ := Class.buildMethods_appended hb
  obtain ⟨hwf, hown⟩ := Class.buildMethods_ownAt hb
  rw [s1, s2] at hinv hown
  rw [s1] at happ
  simp only [Class.parentMethodList] at hinv happ
  have hlist : cls.m_methods.m_list = Class.setMethodSlots r.2.m_list 0 := by rw [hm, hm3]
  have hlook : ∀ name j e, r.2.lookup name = some (j, e) →
      cls.m_methods.lookup name = some (j, e.setMethodSlot j) := by
    intro name j e he
    rw [hm, hm3]
    exact Class.lookup_setMethodSlots r.2 name j e he
  have hlook' : ∀ name j f, cls.m_methods.lookup name = some (j, f) →
      ∃ e, r.2.lookup name = some (j, e) := by
    intro name j f hf
    rw [hm, hm3] at hf
    rw [IndexedStringMap.lookup_eq_some] at hf
    obtain ⟨hf1, hf2⟩ := hf
    simp only [] at hf2
    rw [Class.setMethodSlots_getElem?] at hf2
    cases he : r.2.m_list[j]? with
    | none => simp [he] at hf2
    | some e => exact ⟨e, IndexedStringMap.lookup_eq_some.mpr ⟨hf1, he⟩⟩
  have hslot : ∀ name j e, r.2.lookup name = some (j, e) →
      (∀ g, g ∈ p.m_methods.m_list → isame g.m_name name = false) →
      p.m_methods.m_list.length ≤ j := by
    intro name j e he hno
    by_contra hlt
    have hlt : j < p.m_methods.m_list.length := by omega
    obtain ⟨-, k, hk, hkeq⟩ := IndexedStringMap.lookup_some he
    have hg : p.m_methods.m_list[j]? = some p.m_methods.m_list[j] :=
      List.getElem?_eq_getElem hlt
    have hkg := hinv.2.2 k j _ hk hg
    have := hno _ (List.getElem_mem hlt)
    rw [← hkg] at this
    have hkeq' : isame k name = true := by simpa [keyEq] using hkeq
    rw [this] at hkeq'
    cases hkeq'
  refine ⟨?_, ?_, ?_, ?_, ?_⟩
  · intro i g hg
    have hlt : i < r.2.m_list.length := by
      have := (List.getElem?_eq_some.mp hg).1
      have := hinv.1
      omega
    have he : r.2.m_list[i]? = some r.2.m_list[i] := List.getElem?_eq_getElem hlt
    refine ⟨(r.2.m_list[i]).setMethodSlot i, ?_, ?_⟩
    · rw [hlist, Class.setMethodSlots_getElem?, he]
      simp
    · exact (hinv.2.1 i _ g he hg).2
  · intro j f hf hn
    rw [hlist, Class.setMethodSlots_getElem?] at hf
    cases he : r.2.m_list[j]? with
    | none => simp [he] at hf
    | some e =>
      simp only [he, Option.map_some', Option.some.injEq] at hf
      subst hf
      exact happ j e he hn
  · intro name j f hf hno
    obtain ⟨e, he⟩ := hlook' name j f hf
    exact hslot name j e he hno
  · intro m hmem hsk hno
    obtain ⟨j, e, he, hoe⟩ := hown m hmem hsk
    have hj := hslot _ j e he hno
    refine ⟨j, e.setMethodSlot j, hlook _ j e he, hj, ?_, rfl, ?_⟩
    · exact (happ j e (IndexedStringMap.lookup_eq_some.mp he).2 hj).2
    · exact hoe
  · intro ts st name tm hts hne hc hfind hnown hno
    rw [hl] at hts
    injection hts with hts
    subst hts
    have hpar := Class.inheritedMethods_find_none (some p) name
      (fun q hq => by injection hq with hq; subst hq; exact hno)
    obtain ⟨k, hk, j, e, he, -, hee⟩ := Class.buildMethods_imported hb hne hc
      (Class.traitCandidates_distinct hc) hfind (by rw [s2]; exact hnown) hpar
    rw [s1] at hee
    subst hee
    exact ⟨j, k, hk, hslot _ j _ he hno, hlook _ j _ he⟩

theorem exKid_linked : Class.newClass envKid 64 preKid (some exBase) = .ok exKid := by rfl

/-- Witness of C13: `Kid extends Base` uses the trait `A` and declares `put`.
Slot 0 holds `get` as in `Base`; `put` and the imported `foo` follow in
slots 1 and 2, bound to `Kid` with `Kid` as base class. -/
theorem C13_method_slots_witness :
    exBase.m_methods.m_list.map (fun f => f.m_name) = ["get"] ∧
    exKid.m_methods.m_list.map (fun f => (f.m_name, f.m_cls, f.m_baseCls))
      = [("get", some 10, some 10), ("put", some 64, some 64), ("foo", some 64, some 64)] ∧
    (∀ (j : Nat) (f : Func), exKid.m_methods.m_list[j]? = some f →
      exBase.m_methods.m_list.length ≤ j → f.m_cls = some 64 ∧ f.m_baseCls = some 64) :=
  ⟨rfl, rfl, (C13_method_slots envKid 64 preKid exBase exKid exKid_linked).2.1⟩

theorem Class.addOwnInstanceProp_narrower {parent : Class} {this : Class}
    {preProp : PreClass.Prop} {st : PropState} {slot : Nat} {pp : Class.Prop}
    (hl : parent.m_declProperties.lookup preProp.m_name = some (slot, pp))
    (hv : visOf preProp.m_attrs > visOf pp.m_attrs) :
    ∃ e, Class.addOwnInstanceProp (some parent) this preProp st = .error e := by
  unfold Class.addOwnInstanceProp
  split
  · exact ⟨_, rfl⟩
  · simp only [hl, Option.map_some', hv, decide_True, if_true]
    exact ⟨_, rfl⟩

theorem Class.addOwnProps_narrower {env : Env} {parent : Class} {this : Class}
    {d : PreClass.Prop} {slot : Nat} {pp : Class.Prop}
    (hs : hasAttr d.m_attrs AttrStatic = false)
    (hl : parent.m_declProperties.lookup d.m_name = some (slot, pp))
    (hv : visOf d.m_attrs > visOf pp.m_attrs) :
    ∀ (l : List PreClass.Prop) (st : PropState), d ∈ l →
      ∃ e, Class.addOwnProps env (some parent) this l st = .error e := by
  intro l
  induction l with
  | nil => intro st hd; cases hd
  | cons d' rest ih =>
    intro st hd
    rw [Class.addOwnProps]
    cases h1 : Class.addOwnProp env (some parent) this d' st with
    | error e => exact ⟨e, rfl⟩
    | ok st1 =>
      simp only []
      rcases List.mem_cons.mp hd with hd | hd
      · subst hd
        exfalso
        unfold Class.addOwnProp at h1
        simp only [hs, Bool.not_false, if_true] at h1
        obtain ⟨e, he⟩ := @Class.addOwnInstanceProp_narrower parent this d st slot pp hl hv
        rw [he] at h1
        cases h1
      · exact ih st1 hd

/-- Linking fails when the main loop of `setProperties` fails. -/
theorem Class.newClass_fails_of_addOwnProps {env : Env} {self : ClassId} {pre : PreClass}
    {parent : Option Class}
    (h : ∀ this : Class, this.m_self = self → this.m_preClass = pre →
      this.m_classVecLen = Class.newClassVecLen parent →
      ∃ e, Class.addOwnProps env parent this pre.m_properties (Class.inheritedProps parent)
        = .error e) :
    ∃ e, Class.newClass env self pre parent = .error e := by
  cases hn : Class.newClass env self pre parent with
  | error e => exact ⟨e, rfl⟩
  | ok cls =>
    exfalso
    obtain ⟨usedTraits, c5, st, -, s1, s2, -, s4, hb, -⟩ := Class.newClass_props hn
    obtain ⟨e, he⟩ := h c5 s1 s2 s4
    unfold Class.buildProps at hb
    rw [s2, he] at hb
    cases hb

/-- C14: a class does not link when it declares a property that is not static
under a name that the property table of the parent resolves to an entry, and
the visibility of the declaration is narrower than the visibility the entry
has in that table (numerically greater, `AttrPublic < AttrProtected <
AttrPrivate`).  In particular it does not link when it declares the property
protected and the entry of the parent is public, as it is after an ancestor
has widened it. -/
theorem C14_no_narrowing (env : Env) (self : ClassId) (pre : PreClass) (p : Class)
    (d : PreClass.Prop) (slot : Nat) (pp : Class.Prop)
    (hd : d ∈ pre.m_properties) (hs : hasAttr d.m_attrs AttrStatic = false)
    (hl : p.m_declProperties.lookup d.m_name = some (slot, pp)) :
    (visOf d.m_attrs > visOf pp.m_attrs →
      ∃ e, Class.newClass env self pre (some p) = .error e) ∧
    (visOf d.m_attrs = AttrProtected → visOf pp.m_attrs = AttrPublic →
      ∃ e, Class.newClass env self pre (some p) = .error e) := by
  have main : visOf d.m_attrs > visOf pp.m_attrs →
      ∃ e, Class.newClass env self pre (some p) = .error e := by
    intro hv
    apply Class.newClass_fails_of_addOwnProps
    intro this _ _ _
    exact Class.addOwnProps_narrower hs hl hv pre.m_properties _ hd
  refine ⟨main, ?_⟩
  intro h1 h2
  apply main
  rw [h1, h2]
  decide

theorem exWide_linked : Class.newClass envBase 65 preWide (some exBase) = .ok exWide := by rfl

/-- Witness of C14: `Base` declares `x` protected, `Wide extends Base` declares
it public, and `Narrow extends Wide`, which declares it protected again, does
not link. -/
theorem C14_no_narrowing_witness :
    (exBase.m_declProperties.lookup "x").map (fun e => visOf e.2.m_attrs) = some AttrProtected ∧
    Class.newClass envBase 65 preWide (some exBase) = .ok exWide ∧
    (exWide.m_declProperties.lookup "x").map (fun e => visOf e.2.m_attrs) = some AttrPublic ∧
    ∃ e, Class.newClass envWide 66 preNarrow (some exWide) = .error e :=
  ⟨rfl, rfl, rfl,
    (C14_no_narrowing envWide 66 preNarrow exWide (exProp "x" AttrProtected (.int 3)) 0
      { m_name := "x", m_mangledName := "x", m_originalMangledName := "x",
        m_attrs := AttrPublic, m_class := 10, m_typeConstraint := "", m_docComment := "",
        m_hphpcType := 0 }
      (by simp [preNarrow, exPre]) rfl rfl).2 rfl rfl⟩

theorem hasAttr_or_deepInit (a : Attr) : hasAttr (a ||| AttrDeepInit) AttrDeepInit = true := by
  unfold hasAttr
  have h : (a ||| AttrDeepInit) &&& AttrDeepInit = AttrDeepInit := by
    apply Nat.eq_of_testBit_eq
    intro i
    simp only [Nat.testBit_and, Nat.testBit_or]
    cases a.testBit i <;> cases AttrDeepInit.testBit i <;> rfl
  rw [h]
  decide

theorem hasAttr_clear_deepInit (a : Attr) :
    hasAttr (clearBits a AttrDeepInit) AttrDeepInit = false := by
  unfold hasAttr clearBits
  rw [Nat.land_assoc]
  have : (0xFFFFFFFF ^^^ AttrDeepInit) &&& AttrDeepInit = 0 := by decide
  rw [this]
  simp

theorem copyDeepInitAttr_flag (preProp : PreClass.Prop) (prop : Class.Prop) :
    hasAttr (copyDeepInitAttr preProp prop).m_attrs AttrDeepInit
      = hasAttr preProp.m_attrs AttrDeepInit := by
  unfold copyDeepInitAttr
  by_cases h : hasAttr preProp.m_attrs AttrDeepInit = true
  · rw [if_pos h, h]
    exact hasAttr_or_deepInit _
  · rw [if_neg h]
    simp only [Bool.not_eq_true] at h
    rw [h]
    exact hasAttr_clear_deepInit _

theorem copyDeepInitAttr_fields (preProp : PreClass.Prop) (prop : Class.Prop) :
    (copyDeepInitAttr preProp prop).m_name = prop.m_name ∧
    (copyDeepInitAttr preProp prop).m_class = prop.m_class ∧
    (copyDeepInitAttr preProp prop).m_mangledName = prop.m_mangledName ∧
    (copyDeepInitAttr preProp prop).m_originalMangledName = prop.m_originalMangledName ∧
    visOf (copyDeepInitAttr preProp prop).m_attrs = visOf prop.m_attrs := by
  unfold copyDeepInitAttr
  split
  · exact ⟨rfl, rfl, rfl, rfl, visOf_or_deepInit _⟩
  · exact ⟨rfl, rfl, rfl, rfl, visOf_clear_deepInit _⟩

theorem visOf_widen (a : Attr) (h : visOf a = AttrProtected) :
    visOf (a ^^^ (AttrProtected ||| AttrPublic)) = AttrPublic := by
  unfold visOf at *
  rw [Nat.and_xor_distrib_right, h]
  decide

theorem PreClass.Prop.mangledName_public (className : String) (d : PreClass.Prop)
    (h : visOf d.m_attrs = AttrPublic) : d.mangledName className = d.m_name := by
  unfold PreClass.Prop.mangledName PreClass.manglePropName
  simp [h]

theorem PropInitVec.assign_length (v : List TypedValueAux) (i : Nat) (tv : TypedValue) :
    (PropInitVec.assign v i tv).length = v.length := by
  unfold PropInitVec.assign
  cases v[i]? with
  | none => rfl
  | some old => simp

theorem PropInitVec.assign_same (v : List TypedValueAux) (i : Nat) (tv : TypedValue)
    (old : TypedValueAux) (h : v[i]? = some old) :
    (PropInitVec.assign v i tv)[i]? = some { old with tv := tv } := by
  unfold PropInitVec.assign
  rw [h]
  simp only []
  exact List.getElem?_set_self (List.getElem?_eq_some.mp h).1

theorem PropInitVec.assign_other (v : List TypedValueAux) (i j : Nat) (tv : TypedValue)
    (h : j ≠ i) : (PropInitVec.assign v i tv)[j]? = v[j]? := by
  unfold PropInitVec.assign
  cases v[i]? with
  | none => rfl
  | some old => exact List.getElem?_set_ne (Ne.symm h)

/-- C15: the step of the main loop of `setProperties` for a declaration `d`
that is public and not static, when the builder resolves its name to a
protected entry `prop` in slot `slot`.  (The name is bound to no static
property, the entry of the parent for the name has a visibility, and the
`PreClass` finds `d` under its name, so the checks before pass.)  The step
succeeds; the table keeps its size and its bindings; the name still resolves
to slot `slot`, whose entry keeps name and declaring class of `prop`, is
public, has the plain name as mangled name and takes the deep-init flag of
`d`; the initial value of the slot is the value of `d`; all other slots and
initial values, and the number of initial values, are as before. -/
theorem C15_widen_protected (env : Env) (parent : Option Class) (this : Class)
    (d : PreClass.Prop) (st : PropState) (slot : Nat) (prop : Class.Prop)
    (hs : hasAttr d.m_attrs AttrStatic = false) (hpub : visOf d.m_attrs = AttrPublic)
    (hl : st.curPropMap.lookup d.m_name = some (slot, prop))
    (hprot : visOf prop.m_attrs = AttrProtected)
    (hnos : st.curSPropMap.find d.m_name = none)
    (hpar : ∀ p i pp, parent = some p → p.m_declProperties.lookup d.m_name = some (i, pp) →
      AttrPublic ≤ visOf pp.m_attrs)
    (hval : this.m_preClass.lookupProp d.m_name = some d) :
    ∃ st' e, Class.addOwnProp env parent this d st = .ok st' ∧
      st'.curPropMap.m_list.length = st.curPropMap.m_list.length ∧
      st'.curPropMap.m_map = st.curPropMap.m_map ∧
      st'.curPropMap.lookup d.m_name = some (slot, e) ∧
      e.m_name = prop.m_name ∧ e.m_class = prop.m_class ∧
      visOf e.m_attrs = AttrPublic ∧
      e.m_mangledName = d.m_name ∧ e.m_originalMangledName = d.m_name ∧
      hasAttr e.m_attrs AttrDeepInit = hasAttr d.m_attrs AttrDeepInit ∧
      (∀ old, st.m_declPropInit[slot]? = some old →
        st'.m_declPropInit[slot]? = some { old with tv := d.m_val }) ∧
      st'.m_declPropInit.length = st.m_declPropInit.length ∧
      (∀ j, j ≠ slot → st'.curPropMap.m_list[j]? = st.curPropMap.m_list[j]? ∧
        st'.m_declPropInit[j]? = st.m_declPropInit[j]?) ∧
      st'.curSPropMap = st.curSPropMap ∧ st'.numInaccessible = st.numInaccessible := by
  have hv : this.m_preClass.lookupPropVal d.m_name = .ok d.m_val := by
    unfold PreClass.lookupPropVal
    rw [hval]
  have hne1 : ¬ (AttrPublic = AttrPrivate) := by decide
  have hne2 : ¬ (AttrPublic = AttrProtected) := by decide
  have heq : Class.addOwnProp env parent this d st
      = .ok { st with
          m_hasDeepInitProps :=
            (if hasAttr d.m_attrs AttrDeepInit then true else st.m_hasDeepInitProps)
          m_declPropInit := PropInitVec.assign st.m_declPropInit slot d.m_val
          curPropMap := st.curPropMap.set slot (copyDeepInitAttr d
            { prop with m_mangledName := d.mangledName this.m_preClass.m_name
                        m_originalMangledName := d.mangledName this.m_preClass.m_name
                        m_attrs := prop.m_attrs ^^^ (AttrProtected ||| AttrPublic)
                        m_typeConstraint := d.m_typeConstraint }) } := by
    unfold Class.addOwnProp
    simp only [hs, Bool.not_false, if_true]
    unfold Class.addOwnInstanceProp
    cases parent with
    | none =>
      by_cases hdi : hasAttr d.m_attrs AttrDeepInit = true
      · simp only [hnos, Option.isSome_none, Bool.false_eq_true, if_false, hne1, hne2, hpub,
          if_true, hl, hprot, Class.overlayProp, hv, hdi]
      · simp only [hnos, Option.isSome_none, Bool.false_eq_true, if_false, hne1, hne2, hpub,
          if_true, hl, hprot, Class.overlayProp, hv, hdi]
    | some p =>
      cases hp : p.m_declProperties.lookup d.m_name with
      | none =>
        by_cases hdi : hasAttr d.m_attrs AttrDeepInit = true
        · simp only [hnos, Option.isSome_none, Bool.false_eq_true, if_false, hne1, hne2, hpub,
            if_true, hl, hprot, Class.overlayProp, hv, hdi, hp, Option.map_none']
        · simp only [hnos, Option.isSome_none, Bool.false_eq_true, if_false, hne1, hne2, hpub,
            if_true, hl, hprot, Class.overlayProp, hv, hdi, hp, Option.map_none']
      | some r =>
        obtain ⟨i, pp⟩ := r
        have hle := hpar p i pp rfl hp
        have hdec : decide (AttrPublic > visOf pp.m_attrs) = false := by
          simp only [decide_eq_false_iff_not, not_lt, ge_iff_le, gt_iff_lt]
          exact hle
        by_cases hdi : hasAttr d.m_attrs AttrDeepInit = true
        · simp only [hnos, Option.isSome_none, Bool.false_eq_true, if_false, hne1, hne2, hpub,
            if_true, hl, hprot, Class.overlayProp, hv, hdi, hp, Option.map_some', hdec]
        · simp only [hnos, Option.isSome_none, Bool.false_eq_true, if_false, hne1, hne2, hpub,
            if_true, hl, hprot, Class.overlayProp, hv, hdi, hp, Option.map_some', hdec]
  obtain ⟨f1, f2, f3, f4, f5⟩ := copyDeepInitAttr_fields d
    { prop with m_mangledName := d.mangledName this.m_preClass.m_name
                m_originalMangledName := d.mangledName this.m_preClass.m_name
                m_attrs := prop.m_attrs ^^^ (AttrProtected ||| AttrPublic)
                m_typeConstraint := d.m_typeConstraint }
  refine ⟨_, _, heq, ?_, rfl, IndexedStringMap.lookup_set_same _ _ slot prop _ hl,
    f1, f2, ?_, ?_, ?_, copyDeepInitAttr_flag d _, ?_, ?_, ?_, rfl, rfl⟩
  · simp [IndexedStringMap.set]
  · rw [f5]; exact visOf_widen _ hprot
  · rw [f3]; exact PreClass.Prop.mangledName_public _ d hpub
  · rw [f4]; exact PreClass.Prop.mangledName_public _ d hpub
  · intro old hold
    exact PropInitVec.assign_same _ _ _ old hold
  · exact PropInitVec.assign_length _ _ _
  · intro j hj
    refine ⟨?_, PropInitVec.assign_other _ _ _ _ hj⟩
    simp only [IndexedStringMap.set]
    exact List.getElem?_set_ne (Ne.symm hj)
/-- Witness of C15: `Base` declares `protected $x = 1` and `Wide extends Base`
declares `public $x = 2`.  The step for the declaration of `Wide` succeeds on
the builder that holds the properties of `Base`, and the linked `Wide` has the
one slot of `Base`, now public, under the plain name and with the value 2. -/
theorem C15_widen_protected_witness :
    (exBase.m_declProperties.m_list.map (fun q => (q.m_name, q.m_class, visOf q.m_attrs)),
      exBase.m_declPropInit.map (fun v => v.tv)) = ([("x", 10, AttrProtected)], [.int 1]) ∧
    Class.newClass envBase 65 preWide (some exBase) = .ok exWide ∧
    (exWide.m_declProperties.m_list.map
        (fun q => (q.m_name, q.m_class, visOf q.m_attrs, q.m_mangledName)),
      exWide.m_declPropInit.map (fun v => v.tv)) = ([("x", 10, AttrPublic, "x")], [.int 2]) ∧
    ∃ st' e, Class.addOwnProp envBase (some exBase) (Class.init 65 preWide (some exBase) 1)
        (exProp "x" AttrPublic (.int 2)) (Class.inheritedProps (some exBase)) = .ok st' ∧
      st'.curPropMap.lookup "x" = some (0, e) ∧ visOf e.m_attrs = AttrPublic ∧
      st'.curPropMap.m_list.length = 1 :=
  ⟨rfl, rfl, rfl, by
    obtain ⟨st', e, h1, h2, -, h4, -, -, h7, -⟩ :=
      C15_widen_protected envBase (some exBase) (Class.init 65 preWide (some exBase) 1)
        (exProp "x" AttrPublic (.int 2)) (Class.inheritedProps (some exBase)) 0
        { m_name := "x", m_mangledName := "\x00*\x00x", m_originalMangledName := "\x00*\x00x",
          m_attrs := AttrProtected, m_class := 10, m_typeConstraint := "", m_docComment := "",
          m_hphpcType := 0 }
        rfl rfl rfl rfl rfl
        (by
          intro p i pp hp hl
          injection hp with hp
          subst hp
          have hx : exBase.m_declProperties.lookup "x" = some (0,
              { m_name := "x", m_mangledName := "\x00*\x00x",
                m_originalMangledName := "\x00*\x00x", m_attrs := AttrProtected, m_class := 10,
                m_typeConstraint := "", m_docComment := "", m_hphpcType := 0 }) := rfl
          have hl' : exBase.m_declProperties.lookup "x" = some (i, pp) := hl
          rw [hx] at hl'
          injection hl' with hl'
          injection hl' with h1 h2
          subst h2
          decide)
        rfl
    exact ⟨st', e, h1, h4, h7, h2⟩⟩

/-- C16: the search for the declaring ancestor runs past the root.  The trait
`Props` declares `public $p`, the class `User` uses `Props` and declares no
property, so that its table holds `p` while its `PreClass` does not; `Stat
extends User` declares `public static $p`.  Linking `Stat` finds `p` in the
builder, walks from `User` to the parent of `User`, which is null, and
dereferences it.  For comparison, `StatX extends Base`, which declares `x`
static while the `PreClass` of `Base` declares it, gets the error of the
redeclaration. -/
theorem C16_ancestor_search_past_root :
    Class.newClass env0 70 preProps none = .ok exProps ∧
    Class.newClass envProps 71 preUser none = .ok exUser ∧
    exUser.m_declProperties.m_list.map (fun q => (q.m_name, q.m_class, visOf q.m_attrs))
      = [("p", 71, AttrPublic)] ∧
    exUser.m_parent = none ∧ preUser.hasProp "p" = false ∧
    Class.findDeclaringAncestor envUser "p" 2 (some exUser) = .error .nullDeref ∧
    Class.newClass envUser 72 preStat (some exUser) = .error .nullDeref ∧
    Class.newClass envBase 72 preStatX (some exBase) = .error (.redeclareNonStatic "x") :=
  ⟨rfl, rfl, rfl, rfl, rfl, rfl, rfl, rfl⟩

theorem Class.compatibleTraitPropInit_iff (env : Env) (tv1 tv2 : TypedValue) :
    Class.compatibleTraitPropInit env tv1 tv2 = true ↔ sameScalarInit env tv1 tv2 := by
  unfold Class.compatibleTraitPropInit sameScalarInit
  cases tv1 <;> cases tv2 <;> simp [TypedValue.m_type] <;> exact eq_comm

theorem Class.addInterfaceConstants_append (l1 l2 : List Class.Const) :
    ∀ (b b1 : ConstMap), Class.addInterfaceConstants l1 b = .ok b1 →
      Class.addInterfaceConstants (l1 ++ l2) b = Class.addInterfaceConstants l2 b1 := by
  induction l1 with
  | nil =>
    intro b b1 h
    rw [Class.addInterfaceConstants] at h
    injection h with h
    subst h
    rfl
  | cons c rest ih =>
    intro b b1 h
    rw [List.cons_append, Class.addInterfaceConstants]
    rw [Class.addInterfaceConstants] at h
    split at h
    · cases h
    · rename_i hc
      rw [if_neg hc]
      exact ih _ _ h

theorem Class.addAllInterfaceConstants_append (env : Env) (l1 l2 : List ClassId) :
    ∀ (b b1 : ConstMap), Class.addAllInterfaceConstants env l1 b = .ok b1 →
      Class.addAllInterfaceConstants env (l1 ++ l2) b
        = Class.addAllInterfaceConstants env l2 b1 := by
  induction l1 with
  | nil =>
    intro b b1 h
    rw [Class.addAllInterfaceConstants] at h
    injection h with h
    subst h
    rfl
  | cons i rest ih =>
    intro b b1 h
    rw [List.cons_append, Class.addAllInterfaceConstants]
    rw [Class.addAllInterfaceConstants] at h
    cases hd : env.deref i with
    | error e => simp [hd] at h
    | ok di =>
      simp only [hd] at h ⊢
      cases h1 : Class.addInterfaceConstants di.m_constants.m_list b with
      | error e => simp [h1] at h
      | ok b2 =>
        simp only [h1] at h ⊢
        exact ih _ _ h

/-- C18: the loop of `setConstants` over the declared interfaces, at the
constant `iConst` of the declared interface `i`: the interfaces before `i` and
the constants of `i` before `iConst` have been added, and the builder binds
the name of `iConst` to the entry `existing`, which came from the parent or
from an earlier interface.  If the declaring class of `existing` is not the
declaring class of `iConst`, `setConstants` raises the error of the
previously-inherited constant.  If it is the same, no error is raised for
`iConst`: the loop adds it and goes on with the constants after it. -/
theorem C18_interface_constant_clash (env : Env) (parent : Option Class) (this : Class)
    (before after : List ClassId) (i : ClassId) (di : Class)
    (cs1 cs2 : List Class.Const) (iConst existing : Class.Const) (b1 b2 : ConstMap) (slot : Nat)
    (hdecl : this.m_declInterfaces = before ++ i :: after)
    (h0 : Class.addAllInterfaceConstants env before (Class.inheritedConstants parent) = .ok b1)
    (hdi : env.deref i = .ok di)
    (hcs : di.m_constants.m_list = cs1 ++ iConst :: cs2)
    (h1 : Class.addInterfaceConstants cs1 b1 = .ok b2)
    (hl : b2.lookup iConst.m_name = some (slot, existing)) :
    (existing.m_class ≠ iConst.m_class →
      Class.setConstants env parent this = .error (.inheritConstant iConst.m_name)) ∧
    (existing.m_class = iConst.m_class →
      Class.addInterfaceConstants di.m_constants.m_list b1
        = Class.addInterfaceConstants cs2 (b2.add iConst.m_name iConst)) := by
  have hstep : Class.addInterfaceConstants di.m_constants.m_list b1
      = Class.addInterfaceConstants (iConst :: cs2) b2 := by
    rw [hcs]
    exact Class.addInterfaceConstants_append cs1 _ b1 b2 h1
  constructor
  · intro hne
    have herr : Class.addInterfaceConstants di.m_constants.m_list b1
        = .error (.inheritConstant iConst.m_name) := by
      rw [hstep, Class.addInterfaceConstants]
      simp [hl, hne]
    unfold Class.setConstants
    rw [hdecl, Class.addAllInterfaceConstants_append env before _ _ b1 h0,
      Class.addAllInterfaceConstants]
    simp only [hdi, herr]
  · intro heq
    rw [hstep, Class.addInterfaceConstants]
    simp [hl, heq]

theorem exK1_linked : Class.newClass env0 80 preK1 none = .ok exK1 := by rfl

/-- Witness of C18: the interfaces `K1` and `K2` both declare the constant `K`.
For a class that implements `K1` and `K2`, `setConstants` reaches the `K` of
`K2` with the `K` of `K1` in the builder and raises the error, and the class
does not link; a class that implements `K1` and `K3`, which extends `K1` and
so hands on the `K` of `K1`, links. -/
theorem C18_interface_constant_clash_witness :
    Class.setConstants envConsts none
        { Class.init 83 (preImpl2 "K1" "K2" []) none 1 with m_declInterfaces := [80, 81] }
      = .error (.inheritConstant "K") ∧
    Class.newClass envConsts 83 (preImpl2 "K1" "K2" []) none = .error (.inheritConstant "K") ∧
    (∃ cls, Class.newClass envConsts 83 (preImpl2 "K1" "K3" []) none = .ok cls ∧
      cls.m_declInterfaces = [80, 82] ∧
      cls.m_constants.m_list = [⟨80, "K", .int 1, ""⟩, ⟨80, "K", .int 1, ""⟩]) :=
  ⟨(C18_interface_constant_clash envConsts none
      { Class.init 83 (preImpl2 "K1" "K2" []) none 1 with m_declInterfaces := [80, 81] }
      [80] [] 81 exK2 [] [] ⟨81, "K", .int 2, ""⟩ ⟨80, "K", .int 1, ""⟩
      ((IndexedStringMap.empty : ConstMap).add "K" ⟨80, "K", .int 1, ""⟩)
      ((IndexedStringMap.empty : ConstMap).add "K" ⟨80, "K", .int 1, ""⟩) 0
      rfl rfl rfl rfl rfl rfl).1 (by decide),
    rfl, ⟨Class.linked envConsts 83 (preImpl2 "K1" "K3" []) none, rfl, rfl, rfl⟩⟩

theorem Class.copyParentConstants_wf (l : List Class.Const) :
    ∀ (b : ConstMap), b.WF → (Class.copyParentConstants l b).WF := by
  induction l with
  | nil => intro b h; exact h
  | cons c rest ih =>
    intro b h
    rw [Class.copyParentConstants]
    exact ih _ (h.add _ _)

theorem Class.inheritedConstants_wf (parent : Option Class) :
    (Class.inheritedConstants parent).WF := by
  cases parent with
  | none => exact IndexedStringMap.WF.empty
  | some p => exact Class.copyParentConstants_wf _ _ IndexedStringMap.WF.empty

theorem Class.addInterfaceConstants_wf (l : List Class.Const) :
    ∀ (b b1 : ConstMap), b.WF → Class.addInterfaceConstants l b = .ok b1 → b1.WF := by
  induction l with
  | nil =>
    intro b b1 h h1
    rw [Class.addInterfaceConstants] at h1
    injection h1 with h1
    subst h1
    exact h
  | cons c rest ih =>
    intro b b1 h h1
    rw [Class.addInterfaceConstants] at h1
    split at h1
    · cases h1
    · exact ih _ _ (h.add _ _) h1

theorem Class.addAllInterfaceConstants_wf (env : Env) (l : List ClassId) :
    ∀ (b b1 : ConstMap), b.WF → Class.addAllInterfaceConstants env l b = .ok b1 → b1.WF := by
  induction l with
  | nil =>
    intro b b1 h h1
    rw [Class.addAllInterfaceConstants] at h1
    injection h1 with h1
    subst h1
    exact h
  | cons i rest ih =>
    intro b b1 h h1
    rw [Class.addAllInterfaceConstants] at h1
    cases hd : env.deref i with
    | error e => simp [hd] at h1
    | ok di =>
      simp only [hd] at h1
      cases h2 : Class.addInterfaceConstants di.m_constants.m_list b with
      | error e => simp [h2] at h1
      | ok b2 =>
        simp only [h2] at h1
        exact ih _ _ (Class.addInterfaceConstants_wf _ _ _ h h2) h1

/-- What a successful step of the loop over the constants of the `PreClass`
does. -/
theorem Class.addOwnConstant_ok {env : Env} {this : Class} {c : PreClass.Const}
    {b b1 : ConstMap} (h : Class.addOwnConstant env this c b = .ok b1) :
    (∃ slot existing owner, b.lookup c.m_name = some (slot, existing) ∧
      env.derefIn this existing.m_class = .ok owner ∧
      hasAttr owner.attrs AttrInterface = false ∧
      b1 = b.set slot { existing with m_class := this.m_self, m_val := c.m_val }) ∨
    (b.lookup c.m_name = none ∧
      b1 = b.add c.m_name ⟨this.m_self, c.m_name, c.m_val, c.m_phpCode⟩) := by
  unfold Class.addOwnConstant at h
  cases hl : b.lookup c.m_name with
  | none =>
    simp only [hl] at h
    injection h with h
    exact Or.inr ⟨rfl, h.symm⟩
  | some r =>
    obtain ⟨slot, existing⟩ := r
    simp only [hl] at h
    cases hd : env.derefIn this existing.m_class with
    | error e => simp [hd] at h
    | ok owner =>
      simp only [hd] at h
      split at h
      · rename_i hi
        injection h with h
        exact Or.inl ⟨slot, existing, owner, rfl, hd, by simpa using hi, h.symm⟩
      · cases h

theorem Class.addOwnConstant_wf {env : Env} {this : Class} {c : PreClass.Const}
    {b b1 : ConstMap} (hwf : b.WF) (h : Class.addOwnConstant env this c b = .ok b1) :
    b1.WF ∧ b.size ≤ b1.size := by
  rcases Class.addOwnConstant_ok h with ⟨slot, existing, owner, -, -, -, hb⟩ | ⟨-, hb⟩
  · subst hb
    exact ⟨hwf.set _ _, by simp [IndexedStringMap.size, IndexedStringMap.set]⟩
  · subst hb
    exact ⟨hwf.add _ _, by simp [IndexedStringMap.size, IndexedStringMap.add]⟩

theorem keyEq_sensitive (a b : String) : keyEq true a b = true ↔ a = b := by
  simp [keyEq]

/-- A step for a constant with another name leaves what the builder binds the
name `n` to. -/
theorem Class.addOwnConstant_other {env : Env} {this : Class} {c : PreClass.Const}
    {b b1 : ConstMap} {n : String} (hne : c.m_name ≠ n) (hwf : b.WF)
    (h : Class.addOwnConstant env this c b = .ok b1) :
    b1.find n = b.find n ∧ ∀ r, b.lookup n = some r → b1.lookup n = some r := by
  rcases Class.addOwnConstant_ok h with ⟨slot, existing, owner, hl, -, -, hb⟩ | ⟨-, hb⟩
  · subst hb
    refine ⟨rfl, ?_⟩
    intro r hr
    obtain ⟨i, e⟩ := r
    have hs : slot ≠ i := by
      intro hs
      subst hs
      obtain ⟨k, k1, k2⟩ := hwf.same_slot (IndexedStringMap.lookup_eq_some.mp hl).1
        (IndexedStringMap.lookup_eq_some.mp hr).1
      rw [keyEq_sensitive] at k1 k2
      exact hne (k1.symm.trans k2)
    exact IndexedStringMap.lookup_set_other b n i slot e _ hr hs
  · subst hb
    have hk : keyEq true c.m_name n = false := by
      cases hk : keyEq true c.m_name n with
      | false => rfl
      | true => exact absurd ((keyEq_sensitive _ _).mp hk) hne
    refine ⟨?_, ?_⟩
    · rw [IndexedStringMap.find_add, hk]
      simp
    · intro r hr
      exact IndexedStringMap.lookup_add_other b _ _ n hk hr

theorem Class.addOwnConstants_settled {env : Env} {this : Class} {c : PreClass.Const}
    {j : Nat} {e : Class.Const} (he1 : e.m_class = this.m_self) (he2 : e.m_val = c.m_val) :
    ∀ (l : List PreClass.Const) (b b' : ConstMap),
      (∀ c', c' ∈ l → c'.m_name = c.m_name → c' = c) → b.WF →
      Class.addOwnConstants env this l b = .ok b' →
      b.lookup c.m_name = some (j, e) → b'.lookup c.m_name = some (j, e) := by
  intro l
  induction l with
  | nil =>
    intro b b' _ _ h hl
    rw [Class.addOwnConstants] at h
    injection h with h
    subst h
    exact hl
  | cons c' rest ih =>
    intro b b' hu hwf h hl
    rw [Class.addOwnConstants] at h
    cases h1 : Class.addOwnConstant env this c' b with
    | error x => simp [h1] at h
    | ok b1 =>
      simp only [h1] at h
      refine ih b1 b' (fun x hx => hu x (List.mem_cons_of_mem _ hx))
        (Class.addOwnConstant_wf hwf h1).1 h ?_
      by_cases hn : c'.m_name = c.m_name
      · have hc := hu c' (List.mem_cons_self _ _) hn
        subst hc
        rcases Class.addOwnConstant_ok h1 with ⟨slot, existing, owner, hl', -, -, hb⟩ | ⟨hl', -⟩
        · rw [hl] at hl'
          injection hl' with hl'
          injection hl' with q1 q2
          subst q1 q2 hb
          have := IndexedStringMap.lookup_set_same b c'.m_name j e
            { e with m_class := this.m_self, m_val := c'.m_val } hl
          rw [this]
          cases e
          simp only [] at he1 he2
          subst he1 he2
          rfl
        · rw [hl] at hl'
          cases hl'
      · exact (Class.addOwnConstant_other hn hwf h1).2 _ hl

theorem Class.addOwnConstants_overlay {env : Env} {this : Class} {c : PreClass.Const}
    {slot : Nat} {existing : Class.Const} :
    ∀ (l : List PreClass.Const) (b b' : ConstMap),
      (∀ c', c' ∈ l → c'.m_name = c.m_name → c' = c) → b.WF →
      Class.addOwnConstants env this l b = .ok b' → c ∈ l →
      b.lookup c.m_name = some (slot, existing) →
      b'.lookup c.m_name
        = some (slot, { existing with m_class := this.m_self, m_val := c.m_val }) ∧
      ∃ owner, env.derefIn this existing.m_class = .ok owner ∧
        hasAttr owner.attrs AttrInterface = false := by
  intro l
  induction l with
  | nil => intro b b' _ _ _ hc; cases hc
  | cons c' rest ih =>
    intro b b' hu hwf h hc hl
    rw [Class.addOwnConstants] at h
    cases h1 : Class.addOwnConstant env this c' b with
    | error x => simp [h1] at h
    | ok b1 =>
      simp only [h1] at h
      have hu' : ∀ x, x ∈ rest → x.m_name = c.m_name → x = c :=
        fun x hx => hu x (List.mem_cons_of_mem _ hx)
      have hwf1 := (Class.addOwnConstant_wf hwf h1).1
      by_cases hn : c'.m_name = c.m_name
      · have hcc := hu c' (List.mem_cons_self _ _) hn
        subst hcc
        rcases Class.addOwnConstant_ok h1 with ⟨slot', existing', owner, hl', hd, hi, hb⟩ | ⟨hl', -⟩
        · rw [hl] at hl'
          injection hl' with hl'
          injection hl' with q1 q2
          subst q1 q2 hb
          have hl1 := IndexedStringMap.lookup_set_same b c'.m_name slot existing
            { existing with m_class := this.m_self, m_val := c'.m_val } hl
          exact ⟨Class.addOwnConstants_settled rfl rfl rest _ b' hu' hwf1 h hl1, owner, hd, hi⟩
        · rw [hl] at hl'
          cases hl'
      · have hc' : c ∈ rest := by
          rcases List.mem_cons.mp hc with hc | hc
          · subst hc; exact absurd rfl hn
          · exact hc
        exact ih b1 b' hu' hwf1 h hc' ((Class.addOwnConstant_other hn hwf h1).2 _ hl)

theorem Class.addOwnConstants_appended {env : Env} {this : Class} {c : PreClass.Const} :
    ∀ (l : List PreClass.Const) (b b' : ConstMap),
      (∀ c', c' ∈ l → c'.m_name = c.m_name → c' = c) → b.WF →
      Class.addOwnConstants env this l b = .ok b' → c ∈ l →
      b.lookup c.m_name = none →
      ∃ j, b.size ≤ j ∧
        b'.lookup c.m_name = some (j, ⟨this.m_self, c.m_name, c.m_val, c.m_phpCode⟩) := by
  intro l
  induction l with
  | nil => intro b b' _ _ _ hc; cases hc
  | cons c' rest ih =>
    intro b b' hu hwf h hc hl
    rw [Class.addOwnConstants] at h
    cases h1 : Class.addOwnConstant env this c' b with
    | error x => simp [h1] at h
    | ok b1 =>
      simp only [h1] at h
      have hu' : ∀ x, x ∈ rest → x.m_name = c.m_name → x = c :=
        fun x hx => hu x (List.mem_cons_of_mem _ hx)
      obtain ⟨hwf1, hsz⟩ := Class.addOwnConstant_wf hwf h1
      by_cases hn : c'.m_name = c.m_name
      · have hcc := hu c' (List.mem_cons_self _ _) hn
        subst hcc
        rcases Class.addOwnConstant_ok h1 with ⟨slot', existing', owner, hl', -, -, -⟩ | ⟨-, hb⟩
        · rw [hl] at hl'
          cases hl'
        · subst hb
          have hl1 := IndexedStringMap.lookup_add_self b c'.m_name
            ⟨this.m_self, c'.m_name, c'.m_val, c'.m_phpCode⟩ c'.m_name
            ((keyEq_sensitive _ _).mpr rfl)
          exact ⟨b.m_list.length, Nat.le_refl _,
            Class.addOwnConstants_settled rfl rfl rest _ b' hu' hwf1 h hl1⟩
      · have hc' : c ∈ rest := by
          rcases List.mem_cons.mp hc with hc | hc
          · subst hc; exact absurd rfl hn
          · exact hc
        have hl1 : b1.lookup c.m_name = none := by
          rw [IndexedStringMap.lookup_eq_none hwf1, (Class.addOwnConstant_other hn hwf h1).1,
            ← IndexedStringMap.lookup_eq_none hwf]
          exact hl
        obtain ⟨j, hj, hr⟩ := ih b1 b' hu' hwf1 h hc' hl1
        exact ⟨j, Nat.le_trans hsz hj, hr⟩

theorem Class.addOwnConstants_fails {env : Env} {this : Class} {c : PreClass.Const}
    {slot : Nat} {existing : Class.Const} {owner : Class}
    (hd : env.derefIn this existing.m_class = .ok owner)
    (hi : hasAttr owner.attrs AttrInterface = true) :
    ∀ (l : List PreClass.Const) (b : ConstMap),
      (∀ c', c' ∈ l → c'.m_name = c.m_name → c' = c) → b.WF → c ∈ l →
      b.lookup c.m_name = some (slot, existing) →
      ∃ e, Class.addOwnConstants env this l b = .error e := by
  intro l
  induction l with
  | nil => intro b _ _ hc; cases hc
  | cons c' rest ih =>
    intro b hu hwf hc hl
    rw [Class.addOwnConstants]
    cases h1 : Class.addOwnConstant env this c' b with
    | error x => exact ⟨x, rfl⟩
    | ok b1 =>
      simp only []
      have hu' : ∀ x, x ∈ rest → x.m_name = c.m_name → x = c :=
        fun x hx => hu x (List.mem_cons_of_mem _ hx)
      have hwf1 := (Class.addOwnConstant_wf hwf h1).1
      by_cases hn : c'.m_name = c.m_name
      · exfalso
        have hcc := hu c' (List.mem_cons_self _ _) hn
        subst hcc
        rcases Class.addOwnConstant_ok h1 with ⟨slot', existing', owner', hl', hd', hi', -⟩ | ⟨hl', -⟩
        · rw [hl] at hl'
          injection hl' with hl'
          injection hl' with q1 q2
          subst q1 q2
          rw [hd] at hd'
          injection hd' with hd'
          subst hd'
          rw [hi] at hi'
          cases hi'
        · rw [hl] at hl'
          cases hl'
      · have hc' : c ∈ rest := by
          rcases List.mem_cons.mp hc with hc | hc
          · subst hc; exact absurd rfl hn
          · exact hc
        exact ih b1 hu' hwf1 hc' ((Class.addOwnConstant_other hn hwf h1).2 _ hl)

/-- What a successful `newClass` says about the constants: `setConstants`
succeeded on a class with the address, the `PreClass` and the declared
interfaces of the result, and made its table of constants. -/
theorem Class.newClass_constants {env : Env} {self : ClassId} {pre : PreClass}
    {parent : Option Class} {cls : Class} (h : Class.newClass env self pre parent = .ok cls) :
    ∃ c4 c5 : Class, c4.m_self = self ∧ c4.m_preClass = pre ∧
      c4.m_declInterfaces = cls.m_declInterfaces ∧
      Class.setConstants env parent c4 = .ok c5 ∧ cls.m_constants = c5.m_constants := by
  obtain ⟨usedTraits, c3, c4, c5, c6, -, h1, h2, h3, h4, h5, hcls⟩ := Class.newClass_ok h
  obtain ⟨r, -, -, -, hcore⟩ := Class.setMethods_ok h2
  obtain ⟨sti, -, hc4, -⟩ := Class.setInterfaces_ok h3
  obtain ⟨b, hc5⟩ := Class.setConstants_ok h4
  obtain ⟨ps, hbp, hc6⟩ := Class.setProperties_ok h5
  obtain ⟨s1, s2, s3, s4, s5⟩ := Class.newClass_start_fields self pre parent
    (usedTraits.map (fun t => t.m_self))
  obtain ⟨k1, k2, k3, k4, k5⟩ := hcore
  refine ⟨c4, c5, ?_, ?_, ?_, h4, ?_⟩
  · subst hc4; exact k1.trans s1
  · subst hc4; exact k2.trans s2
  · subst hcls hc6 hc5
    simp [Class.setClassVec, Class.setInitializers]
  · subst hcls hc6
    simp [Class.setClassVec, Class.setInitializers]

/-- C19: a constant `c` that the class declares (the constants of a
`PreClass` have names that differ).  When the class links, let `b` be the
builder of `setConstants` after the constants of the parent and of the
declared interfaces.  If `b` binds the name of `c` to the entry `existing` in
slot `slot`, the class of `existing` is not an interface and the table of the
class binds the name to slot `slot`, where the entry is `existing` with the
class itself as declaring class and the value of `c`.  If `b` does not bind
the name, the table binds it to a slot from the size of `b` on, whose entry has
the class itself as declaring class and the name, value and code of `c`.  And
whenever the builder binds the name of `c` to an entry whose class is an
interface, the loop over the constants of the `PreClass` raises an error, so
that the class does not link. -/
theorem C19_own_constants (env : Env) (self : ClassId) (pre : PreClass)
    (parent : Option Class) (c : PreClass.Const) (hc : c ∈ pre.m_constants)
    (huniq : ∀ c', c' ∈ pre.m_constants → c'.m_name = c.m_name → c' = c) :
    (∀ cls, Class.newClass env self pre parent = .ok cls →
      ∃ b, Class.addAllInterfaceConstants env cls.m_declInterfaces
          (Class.inheritedConstants parent) = .ok b ∧
        (∀ slot existing, b.lookup c.m_name = some (slot, existing) →
          cls.m_constants.lookup c.m_name
            = some (slot, { existing with m_class := self, m_val := c.m_val }) ∧
          (∀ owner, existing.m_class ≠ self → env.deref existing.m_class = .ok owner →
            hasAttr owner.attrs AttrInterface = false)) ∧
        (b.lookup c.m_name = none →
          ∃ j, b.size ≤ j ∧
            cls.m_constants.lookup c.m_name
              = some (j, ⟨self, c.m_name, c.m_val, c.m_phpCode⟩))) ∧
    (∀ (this : Class) (b : ConstMap) (slot : Nat) (existing : Class.Const) (owner : Class),
      this.m_preClass = pre → b.WF → b.lookup c.m_name = some (slot, existing) →
      env.derefIn this existing.m_class = .ok owner →
      hasAttr owner.attrs AttrInterface = true →
      ∃ e, Class.addOwnConstants env this this.m_preClass.m_constants b = .error e) := by
  constructor
  · intro cls h
    obtain ⟨c4, c5, s1, s2, s3, hset, hm⟩ := Class.newClass_constants h
    unfold Class.setConstants at hset
    rw [s3] at hset
    cases h1 : Class.addAllInterfaceConstants env cls.m_declInterfaces
        (Class.inheritedConstants parent) with
    | error e => simp [h1] at hset
    | ok b =>
      simp only [h1] at hset
      have hwf := Class.addAllInterfaceConstants_wf env _ _ _
        (Class.inheritedConstants_wf parent) h1
      cases h2 : Class.addOwnConstants env c4 c4.m_preClass.m_constants b with
      | error e => simp [h2] at hset
      | ok b2 =>
        simp only [h2] at hset
        injection hset with hset
        subst hset
        simp only [] at hm
        rw [s2] at h2
        refine ⟨b, rfl, ?_, ?_⟩
        · intro slot existing hl
          obtain ⟨hr, owner, hd, hi⟩ :=
            Class.addOwnConstants_overlay pre.m_constants b b2 huniq hwf h2 hc hl
          rw [s1] at hr
          refine ⟨by rw [hm]; exact hr, ?_⟩
          intro owner' hne hd'
          unfold Env.derefIn at hd
          rw [s1, if_neg hne, hd'] at hd
          injection hd with hd
          subst hd
          exact hi
        · intro hl
          obtain ⟨j, hj, hr⟩ :=
            Class.addOwnConstants_appended pre.m_constants b b2 huniq hwf h2 hc hl
          rw [s1] at hr
          exact ⟨j, hj, by rw [hm]; exact hr⟩
  · intro this b slot existing owner hp hwf hl hd hi
    rw [hp]
    exact Class.addOwnConstants_fails hd hi pre.m_constants b huniq hwf hc hl

theorem exKChild_linked :
    Class.newClass envKBase 85 preKChild (some exKBase) = .ok exKChild := by rfl

/-- Witness of C19: `KBase` declares `K = 1`; `KChild extends KBase` declares
`L = 3` and `K = 2`.  The linked `KChild` has `K` in slot 0, as `KBase` has,
with `KChild` as declaring class and the value 2, and `L` in slot 1.  A class
that implements the interface `K1`, which declares `K`, and declares `K`
itself does not link. -/
theorem C19_own_constants_witness :
    exKBase.m_constants.m_list = [⟨84, "K", .int 1, ""⟩] ∧
    exKChild.m_constants.lookup "K" = some (0, ⟨85, "K", .int 2, ""⟩) ∧
    (∃ j, 1 ≤ j ∧ exKChild.m_constants.lookup "L" = some (j, ⟨85, "L", .int 3, ""⟩)) ∧
    Class.newClass envConsts 83 (preImpl2 "K1" "K3" [exConst "K" (.int 5)]) none
      = .error (.overrideConstant "K") := by
  have hK := (C19_own_constants envKBase 85 preKChild (some exKBase) (exConst "K" (.int 2))
    (by simp [preKChild, exPre])
    (by
      intro c' h1 h2
      simp only [preKChild, exPre, List.mem_cons, List.mem_singleton, List.not_mem_nil,
        or_false] at h1
      rcases h1 with h1 | h1
      · subst h1; exact absurd h2 (by decide)
      · exact h1)).1 exKChild exKChild_linked
  have hL := (C19_own_constants envKBase 85 preKChild (some exKBase) (exConst "L" (.int 3))
    (by simp [preKChild, exPre])
    (by
      intro c' h1 h2
      simp only [preKChild, exPre, List.mem_cons, List.mem_singleton, List.not_mem_nil,
        or_false] at h1
      rcases h1 with h1 | h1
      · exact h1
      · subst h1; exact absurd h2 (by decide))).1 exKChild exKChild_linked
  obtain ⟨b, hb, hK1, -⟩ := hK
  obtain ⟨b', hb', -, hL2⟩ := hL
  have hbv : Class.addAllInterfaceConstants envKBase exKChild.m_declInterfaces
      (Class.inheritedConstants (some exKBase))
      = .ok ((IndexedStringMap.empty : ConstMap).add "K" ⟨84, "K", .int 1, ""⟩) := rfl
  rw [hbv] at hb hb'
  injection hb with hb
  injection hb' with hb'
  subst hb hb'
  exact ⟨rfl, (hK1 0 ⟨84, "K", .int 1, ""⟩ rfl).1, hL2 rfl, rfl⟩

theorem Env.deref_of_classes {env : Env} {id : ClassId} {c : Class}
    (h : env.classes id = some c) : env.deref id = .ok c := by
  unfold Env.deref
  rw [h]

/-- The two loops of `Class::avail` against the first unresolved dependency. -/
theorem Class.availLoop_spec {σ : Type} (env : Env) (rs : ClassResolver σ) (ta : Bool)
    (parent : Option ClassId) (l : List ClassId) :
    ∀ (s : σ) (l2 : List ClassId), (∀ d, d ∈ l → ∃ c, env.classes d = some c) →
      (∃ s', Class.availLoop env rs ta parent l s = .ok (none, s') ∧
        firstUnresolved env rs ta (l ++ l2) s = firstUnresolved env rs ta l2 s') ∨
      (∃ r s' d x, Class.availLoop env rs ta parent l s = .ok (some r, s') ∧
        firstUnresolved env rs ta (l ++ l2) s = some (d, x) ∧
        ((x = none ∧ r.result = .Fail ∧ r.parent = some d) ∨
         (∃ c, x = some c ∧ r.result = .False ∧ r.parent = parent))) := by
  induction l with
  | nil =>
    intro s l2 _
    exact Or.inl ⟨s, rfl, rfl⟩
  | cons dep rest ih =>
    intro s l2 hh
    obtain ⟨declared, hd⟩ := hh dep (List.mem_cons_self _ _)
    have hrest : ∀ d, d ∈ rest → ∃ c, env.classes d = some c :=
      fun d hd => hh d (List.mem_cons_of_mem _ hd)
    rw [List.cons_append, Class.availLoop, firstUnresolved]
    unfold Class.availDep
    rw [Env.deref_of_classes hd, hd]
    simp only []
    by_cases hf : (rs.getClass s declared.m_preClass.m_name ta).1 = some dep
    · have hne : ((rs.getClass s declared.m_preClass.m_name ta).1 != some dep) = false := by
        rw [hf]; simp
      rw [hne, if_pos hf]
      simp only [Bool.false_eq_true, if_false]
      exact ih _ l2 hrest
    · have hne : ((rs.getClass s declared.m_preClass.m_name ta).1 != some dep) = true := by
        simpa using hf
      rw [hne, if_neg hf]
      simp only [if_true]
      right
      cases hx : (rs.getClass s declared.m_preClass.m_name ta).1 with
      | none =>
        simp only [if_true]
        exact ⟨_, _, dep, none, rfl, rfl, Or.inl ⟨rfl, rfl, rfl⟩⟩
      | some c =>
        simp only [reduceCtorEq, if_false]
        exact ⟨_, _, dep, some c, rfl, rfl, Or.inr ⟨c, rfl, rfl, rfl⟩⟩

/-- The check of the parent, called without a parent, against the first
unresolved dependency. -/
theorem Class.availParent_spec {σ : Type} (env : Env) (rs : ClassResolver σ) (ta : Bool)
    (this : Class) (s : σ) (l2 : List ClassId)
    (hh : ∀ d, d ∈ this.m_parent.toList → ∃ c, env.classes d = some c) :
    (∃ p s', Class.availParent env rs this none ta s = .ok (none, p, s') ∧
      firstUnresolved env rs ta (this.m_parent.toList ++ l2) s
        = firstUnresolved env rs ta l2 s') ∨
    (∃ r p s' d x, Class.availParent env rs this none ta s = .ok (some r, p, s') ∧
      firstUnresolved env rs ta (this.m_parent.toList ++ l2) s = some (d, x) ∧
      ((x = none ∧ r.result = .Fail ∧ r.parent = some d) ∨
       (∃ c, x = some c ∧ r.result = .False))) := by
  unfold Class.availParent
  cases hp : this.m_parent with
  | none =>
    exact Or.inl ⟨none, s, rfl, rfl⟩
  | some ourParentId =>
    obtain ⟨ourParent, hd⟩ := hh ourParentId (by rw [hp]; simp)
    simp only [Option.toList, List.cons_append, List.nil_append]
    rw [firstUnresolved, Env.deref_of_classes hd, hd]
    simp only []
    cases hx : (rs.getClass s ourParent.m_preClass.m_name ta).1 with
    | none =>
      simp only [reduceCtorEq, if_false]
      exact Or.inr ⟨_, _, _, ourParentId, none, rfl, rfl, Or.inl ⟨rfl, rfl, rfl⟩⟩
    | some p =>
      simp only []
      by_cases hpp : p = ourParentId
      · subst hpp
        simp only [bne_self_eq_false, Bool.false_eq_true, if_false, if_true]
        exact Or.inl ⟨_, _, rfl, rfl⟩
      · have hne : (p != ourParentId) = true := by simpa using hpp
        have hne2 : ¬ (some p = some ourParentId) := by
          intro h; injection h with h; exact hpp h
        rw [hne, if_neg hne2]
        simp only [if_true]
        exact Or.inr ⟨_, _, _, ourParentId, some p, rfl, rfl, Or.inr ⟨p, rfl, rfl⟩⟩

theorem firstUnresolved_none_iff {σ : Type} (env : Env) (rs : ClassResolver σ) (ta : Bool)
    (hpure : ∀ s' n, (rs.getClass s' n ta).2 = s') (s : σ) (l : List ClassId) :
    (∀ d, d ∈ l → ∃ c, env.classes d = some c) →
    (firstUnresolved env rs ta l s = none ↔
      ∀ d c, d ∈ l → env.classes d = some c →
        (rs.getClass s c.m_preClass.m_name ta).1 = some d) := by
  induction l with
  | nil =>
    intro _
    simp [firstUnresolved]
  | cons dep rest ih =>
    intro hh
    obtain ⟨declared, hd⟩ := hh dep (List.mem_cons_self _ _)
    have hrest : ∀ d, d ∈ rest → ∃ c, env.classes d = some c :=
      fun d hd => hh d (List.mem_cons_of_mem _ hd)
    rw [firstUnresolved, hd]
    simp only []
    by_cases hf : (rs.getClass s declared.m_preClass.m_name ta).1 = some dep
    · rw [if_pos hf, hpure, ih hrest]
      constructor
      · intro h d c hmem hc
        rcases List.mem_cons.mp hmem with hmem | hmem
        · subst hmem
          rw [hd] at hc
          injection hc with hc
          subst hc
          exact hf
        · exact h d c hmem hc
      · intro h d c hmem hc
        exact h d c (List.mem_cons_of_mem _ hmem) hc
    · rw [if_neg hf]
      simp only [reduceCtorEq, false_iff]
      intro h
      exact hf (h dep declared (List.mem_cons_self _ _) hd)

/-- C20: `Class::avail`, called without a parent on a class whose dependencies
are classes of the heap, returns, and what it returns is decided by the first
dependency, in the order parent, declared interfaces, used traits, that does
not resolve to the class recorded: `Fail`, with the reference parameter set to
that dependency, if it resolves to nothing, and `False` if it resolves to
another class; it returns `True` exactly when there is no such dependency.
When the lookups do not change what names resolve to, that is exactly when the
parent, every declared interface and every used trait resolve to the classes
recorded. -/
theorem C20_avail {σ : Type} (env : Env) (rs : ClassResolver σ) (this : Class)
    (tryAutoload : Bool) (s : σ)
    (hheap : ∀ d, d ∈ this.dependencies → ∃ c, env.classes d = some c) :
    ∃ r, Class.avail env rs this none tryAutoload s = .ok r ∧
      (firstUnresolved env rs tryAutoload this.dependencies s = none → r.result = .True) ∧
      (∀ d, firstUnresolved env rs tryAutoload this.dependencies s = some (d, none) →
        r.result = .Fail ∧ r.parent = some d) ∧
      (∀ d c, firstUnresolved env rs tryAutoload this.dependencies s = some (d, some c) →
        r.result = .False) ∧
      (r.result = .True ↔ firstUnresolved env rs tryAutoload this.dependencies s = none) ∧
      ((∀ s' n, (rs.getClass s' n tryAutoload).2 = s') →
        (r.result = .True ↔
          ∀ d c, d ∈ this.dependencies → env.classes d = some c →
            (rs.getClass s c.m_preClass.m_name tryAutoload).1 = some d)) := by
  have hdec : ∃ r, Class.avail env rs this none tryAutoload s = .ok r ∧
      ((firstUnresolved env rs tryAutoload this.dependencies s = none ∧ r.result = .True) ∨
       (∃ d, firstUnresolved env rs tryAutoload this.dependencies s = some (d, none) ∧
          r.result = .Fail ∧ r.parent = some d) ∨
       (∃ d c, firstUnresolved env rs tryAutoload this.dependencies s = some (d, some c) ∧
          r.result = .False)) := by
    have hdeps : this.dependencies
        = this.m_parent.toList ++ (this.m_declInterfaces ++ this.m_usedTraits) := by
      unfold Class.dependencies
      rw [List.append_assoc]
    have h1 : ∀ d, d ∈ this.m_parent.toList → ∃ c, env.classes d = some c := by
      intro d hd
      apply hheap
      rw [hdeps]
      exact List.mem_append_left _ hd
    have h2 : ∀ d, d ∈ this.m_declInterfaces → ∃ c, env.classes d = some c := by
      intro d hd
      apply hheap
      rw [hdeps]
      exact List.mem_append_right _ (List.mem_append_left _ hd)
    have h3 : ∀ d, d ∈ this.m_usedTraits → ∃ c, env.classes d = some c := by
      intro d hd
      apply hheap
      rw [hdeps]
      exact List.mem_append_right _ (List.mem_append_right _ hd)
    rw [hdeps]
    unfold Class.avail
    rcases Class.availParent_spec env rs tryAutoload this s
        (this.m_declInterfaces ++ this.m_usedTraits) h1 with
      ⟨p, s1, e1, f1⟩ | ⟨r, p, s1, d, x, e1, f1, hx⟩
    · rw [e1, f1]
      simp only []
      rcases Class.availLoop_spec env rs tryAutoload p this.m_declInterfaces s1
          this.m_usedTraits h2 with ⟨s2, e2, f2⟩ | ⟨r, s2, d, x, e2, f2, hx⟩
      · rw [e2, f2]
        simp only []
        rcases Class.availLoop_spec env rs tryAutoload p this.m_usedTraits s2 [] h3 with
          ⟨s3, e3, f3⟩ | ⟨r, s3, d, x, e3, f3, hx⟩
        · rw [e3]
          rw [List.append_nil] at f3
          rw [f3]
          exact ⟨_, rfl, Or.inl ⟨rfl, rfl⟩⟩
        · rw [e3]
          rw [List.append_nil] at f3
          rw [f3]
          refine ⟨r, rfl, Or.inr ?_⟩
          rcases hx with ⟨hx, q1, q2⟩ | ⟨c, hx, q1, -⟩
          · subst hx; exact Or.inl ⟨d, rfl, q1, q2⟩
          · subst hx; exact Or.inr ⟨d, c, rfl, q1⟩
      · rw [e2, f2]
        refine ⟨r, rfl, Or.inr ?_⟩
        rcases hx with ⟨hx, q1, q2⟩ | ⟨c, hx, q1, -⟩
        · subst hx; exact Or.inl ⟨d, rfl, q1, q2⟩
        · subst hx; exact Or.inr ⟨d, c, rfl, q1⟩
    · rw [e1, f1]
      refine ⟨r, rfl, Or.inr ?_⟩
      rcases hx with ⟨hx, q1, q2⟩ | ⟨c, hx, q1⟩
      · subst hx; exact Or.inl ⟨d, rfl, q1, q2⟩
      · subst hx; exact Or.inr ⟨d, c, rfl, q1⟩
  obtain ⟨r, hr, hcase⟩ := hdec
  have hiff : r.result = .True ↔
      firstUnresolved env rs tryAutoload this.dependencies s = none := by
    rcases hcase with ⟨f, q⟩ | ⟨d, f, q, -⟩ | ⟨d, c, f, q⟩
    · simp [f, q]
    · simp [f, q]
    · simp [f, q]
  refine ⟨r, hr, ?_, ?_, ?_, hiff, ?_⟩
  · intro h
    exact hiff.mpr h
  · intro d h
    rcases hcase with ⟨f, q⟩ | ⟨d', f, q1, q2⟩ | ⟨d', c, f, q⟩
    · rw [f] at h; cases h
    · rw [f] at h
      injection h with h
      injection h with h1 h2
      subst h1
      exact ⟨q1, q2⟩
    · rw [f] at h
      injection h with h
      injection h with h1 h2
      cases h2
  · intro d c h
    rcases hcase with ⟨f, q⟩ | ⟨d', f, q1, q2⟩ | ⟨d', c', f, q⟩
    · rw [f] at h; cases h
    · rw [f] at h
      injection h with h
      injection h with h1 h2
      cases h2
    · exact q
  · intro hpure
    rw [hiff]
    exact firstUnresolved_none_iff env rs tryAutoload hpure s _ hheap

/-- Witness of C20: `Kid` records the parent `Base` (address 10) and the trait
`A` (address 30).  When both names resolve to these classes the check returns
`True`; when `A` resolves to nothing it returns `Fail` and names `A`; when
`Base` resolves to another class it returns `False` before `A` is looked
at. -/
theorem C20_avail_witness :
    exKid.dependencies = [10, 30] ∧
    (∃ r, Class.avail envKid (exResolver envKid.loadClass) exKid none false () = .ok r ∧
      r.result = .True) ∧
    Class.avail envKid (exResolver envKid.loadClass) exKid none false ()
      = .ok ⟨.True, some 10, false, ()⟩ ∧
    Class.avail envKid (exResolver (fun n => if n = "Base" then some 10 else none)) exKid none
      false () = .ok ⟨.Fail, some 30, false, ()⟩ ∧
    Class.avail envKid (exResolver (fun n => if n = "Base" then some 99 else none)) exKid none
      false () = .ok ⟨.False, some 99, false, ()⟩ := by
  have hheap : ∀ d, d ∈ exKid.dependencies → ∃ c, envKid.classes d = some c := by
    intro d hd
    have hdeps : exKid.dependencies = [10, 30] := rfl
    rw [hdeps] at hd
    simp only [List.mem_cons, List.mem_singleton, List.not_mem_nil, or_false] at hd
    rcases hd with hd | hd
    · subst hd; exact ⟨exBase, rfl⟩
    · subst hd; exact ⟨exTraitA, rfl⟩
  obtain ⟨r, hr, h1, -⟩ :=
    C20_avail envKid (exResolver envKid.loadClass) exKid false () hheap
  exact ⟨rfl, ⟨r, hr, h1 rfl⟩, rfl, rfl, rfl⟩

theorem Class.initPropsImpl_propData (ec : ExecutionContext) (this : Class) (st : RequestState) :
    (Class.initPropsImpl ec this st).2.propData = st.propData := by
  unfold Class.initPropsImpl
  simp only []
  split
  · rfl
  · split
    · rfl
    · split
      · rfl
      · split <;> rfl

/-- The instance-property vectors after `initProps`: the one of the class is
set when `initPropsImpl` succeeds, the others stay. -/
theorem Class.initProps_propData (ec : ExecutionContext) (this : Class) (st : RequestState)
    (id : ClassId) (hid : id ≠ this.m_self) :
    (Class.initProps ec this st).2.propData id = st.propData id := by
  have h := Class.initPropsImpl_propData ec this st
  unfold Class.initProps
  cases hr : Class.initPropsImpl ec this st with
  | mk res st1 =>
    rw [hr] at h
    simp only [] at h
    cases res with
    | error e => simp only []; rw [h]
    | ok pv => simp only [Class.setPropData, if_neg hid]; rw [h]

/-- A relation between the states before and after that holds across
`initialize` when it holds across every `initProps` that `initialize` may run
and across every step that leaves the instance-property vectors alone. -/
theorem Class.fillSPropTable_rel {env : Env} {R : RequestState → RequestState → Prop}
    {P : Class → Prop}
    (hrefl : ∀ s, R s s) (htrans : ∀ s1 s2 s3, R s1 s2 → R s2 s3 → R s1 s3)
    (hsame : ∀ s s' : RequestState, s'.propData = s.propData → R s s')
    (hheap : ∀ i c, env.classes i = some c → P c)
    {getSProp : Class → String → RequestState → Run SPropResult}
    (hget : ∀ (c : Class) (n : String) (s : RequestState), P c → R s (getSProp c n s).2)
    (tvSentinel : TypedValue) (propArr : Option PropArray) (this : Class)
    (l : List Class.SProp) :
    ∀ (T : List TypedValue) (st : RequestState),
      R st (Class.fillSPropTable env getSProp tvSentinel propArr this l T st).2 := by
  induction l with
  | nil => intro T st; exact hrefl st
  | cons sProp rest ih =>
    intro T st
    rw [Class.fillSPropTable]
    simp only []
    split
    · split
      · exact hrefl st
      · exact ih _ st
      · exact ih _ st
    · split
      · exact hrefl st
      · rename_i declCls hd
        have hP : P declCls := by
          unfold Env.deref at hd
          cases hc : env.classes sProp.m_class with
          | none => simp [hc] at hd
          | some c =>
            simp only [hc] at hd
            injection hd with hd
            subst hd
            exact hheap _ _ hc
        have hg := hget declCls sProp.m_name st hP
        split
        · rename_i e st1 hr
          rw [hr] at hg
          exact hg
        · rename_i r st1 hr
          rw [hr] at hg
          simp only [] at hg
          split
          · exact hg
          · split
            · exact hg
            · rename_i cell hc
              exact htrans _ _ _ hg (htrans _ (st1.writeCell cell _) _ (hsame _ _ rfl) (ih _ _))
          · exact htrans _ _ _ hg (ih _ _)

theorem Class.initSPropsImplWith_rel {env : Env} {ec : ExecutionContext}
    {R : RequestState → RequestState → Prop} {P : Class → Prop}
    (hrefl : ∀ s, R s s) (htrans : ∀ s1 s2 s3, R s1 s2 → R s2 s3 → R s1 s3)
    (hsame : ∀ s s' : RequestState, s'.propData = s.propData → R s s')
    (hheap : ∀ i c, env.classes i = some c → P c)
    {getSProp : Class → String → RequestState → Run SPropResult}
    (hget : ∀ (c : Class) (n : String) (s : RequestState), P c → R s (getSProp c n s).2)
    (this : Class) (st : RequestState) :
    R st (Class.initSPropsImplWith env ec getSProp this st).2 := by
  unfold Class.initSPropsImplWith
  simp only []
  split
  · exact hrefl st
  · exact Class.fillSPropTable_rel hrefl htrans hsame hheap hget _ _ this _ _ st

theorem Class.initializeWith_rel {ec : ExecutionContext}
    {R : RequestState → RequestState → Prop}
    (hrefl : ∀ s, R s s) (htrans : ∀ s1 s2 s3, R s1 s2 → R s2 s3 → R s1 s3)
    (hsame : ∀ s s' : RequestState, s'.propData = s.propData → R s s')
    {initSPropsImpl : Class → RequestState → Run (List TypedValue)}
    (this : Class)
    (hprops : ∀ s, this.m_pinitVec.length > 0 → this.getPropData s = none →
      R s (Class.initProps ec this s).2)
    (hinit : ∀ (s : RequestState), R s (initSPropsImpl this s).2) (st : RequestState) :
    R st (Class.initializeWith ec initSPropsImpl this st).2 := by
  unfold Class.initializeWith
  simp only []
  have h1 : R st
      (if this.m_pinitVec.length > 0 then
        if (this.getPropData st).isNone then Class.initProps ec this st else (.ok (), st)
       else (.ok (), st) : Run Unit).2 := by
    split
    · rename_i hlen
      split
      · rename_i hn
        exact hprops st hlen (by simpa using hn)
      · exact hrefl st
    · exact hrefl st
  generalize (if this.m_pinitVec.length > 0 then
        if (this.getPropData st).isNone then Class.initProps ec this st else (.ok (), st)
       else (.ok (), st) : Run Unit) = r at h1
  obtain ⟨res, st1⟩ := r
  cases res with
  | error e => exact h1
  | ok u =>
    simp only [] at h1 ⊢
    split
    · split
      · exact h1
      · have h2 := hinit st1
        split
        · rename_i e st2 hr
          rw [hr] at h2
          exact htrans _ _ _ h1 h2
        · rename_i sprops st2 hr
          rw [hr] at h2
          exact htrans _ _ _ h1 (htrans _ _ _ h2 (hsame _ _ rfl))
    · exact h1

theorem Class.initializeFuel_rel (env : Env) (ec : ExecutionContext)
    {R : RequestState → RequestState → Prop} {P : Class → Prop}
    (hrefl : ∀ s, R s s) (htrans : ∀ s1 s2 s3, R s1 s2 → R s2 s3 → R s1 s3)
    (hsame : ∀ s s' : RequestState, s'.propData = s.propData → R s s')
    (hheap : ∀ i c, env.classes i = some c → P c)
    (hprops : ∀ (c : Class) (s : RequestState), P c → c.m_pinitVec.length > 0 →
      c.getPropData s = none → R s (Class.initProps ec c s).2) :
    ∀ (fuel : Nat) (this : Class) (st : RequestState), P this →
      R st (Class.initializeFuel env ec fuel this st).2 := by
  intro fuel
  induction fuel with
  | zero => intro this st _; exact hrefl st
  | succ n ih =>
    intro this st hP
    rw [Class.initializeFuel]
    apply Class.initializeWith_rel hrefl htrans hsame this (fun s => hprops this s hP)
    intro s
    apply Class.initSPropsImplWith_rel hrefl htrans hsame hheap
    intro d name s' hd
    rw [Class.getSPropWith_state]
    exact ih d s' hd

theorem Class.initializeFuel_kept (env : Env) (ec : ExecutionContext) (fuel : Nat)
    (this : Class) (st : RequestState) :
    st.PropDataKept (Class.initializeFuel env ec fuel this st).2 := by
  refine @Class.initializeFuel_rel env ec RequestState.PropDataKept (fun _ => True)
    (fun s _ _ h => h) (fun _ _ _ h1 h2 id v h => h2 id v (h1 id v h))
    (fun s s' h id v hv => by rw [h]; exact hv) (fun _ _ _ => trivial) ?_ fuel this st trivial
  intro c s _ _ hn id v hv
  have hid : id ≠ c.m_self := by
    intro hid
    subst hid
    unfold Class.getPropData at hn
    rw [hn] at hv
    cases hv
  rw [Class.initProps_propData ec c s id hid]
  exact hv

/-- The vector of the address `id` is not written by `initialize` when every
class at that address has an empty chain of `86pinit` routines. -/
theorem Class.initializeFuel_untouched (env : Env) (ec : ExecutionContext) (id : ClassId)
    (hheap : ∀ i c, env.classes i = some c → c.m_self = id → c.m_pinitVec = [])
    (fuel : Nat) (this : Class) (st : RequestState)
    (hthis : this.m_self = id → this.m_pinitVec = []) :
    (Class.initializeFuel env ec fuel this st).2.propData id = st.propData id := by
  refine @Class.initializeFuel_rel env ec (fun s s' => s'.propData id = s.propData id)
    (fun c => c.m_self = id → c.m_pinitVec = [])
    (fun s => rfl) (fun _ _ _ h1 h2 => h2.trans h1)
    (fun s s' h => by show s'.propData id = s.propData id; rw [h]) hheap ?_ fuel this st hthis
  intro c s hc hlen _
  have hid : id ≠ c.m_self := by
    intro hid
    have := hc hid.symm
    rw [this] at hlen
    simp at hlen
  exact Class.initProps_propData ec c s id hid

/-- The state after a successful `initialize`: the instance-property vector is
set if the class has `86pinit` routines, and the static-property table that
`initialize` gives is the one that is set. -/
theorem Class.initializeWith_ok {ec : ExecutionContext}
    {initSPropsImpl : Class → RequestState → Run (List TypedValue)}
    (hk : ∀ (s : RequestState) (this : Class), s.PropDataKept (initSPropsImpl this s).2)
    {this : Class} {st : RequestState} {sProps : Option (List TypedValue)}
    (h : (Class.initializeWith ec initSPropsImpl this st).1 = .ok sProps) :
    (this.m_pinitVec.length > 0 →
      ∃ v, this.getPropData (Class.initializeWith ec initSPropsImpl this st).2 = some v) ∧
    (this.m_staticProperties.size > 0 →
      ∃ T, sProps = some T ∧
        this.getSPropData (Class.initializeWith ec initSPropsImpl this st).2 = some T) ∧
    (¬ this.m_staticProperties.size > 0 → sProps = none) := by
  unfold Class.initializeWith at h ⊢
  simp only [] at h ⊢
  have h1 : ∀ res sa,
      (if this.m_pinitVec.length > 0 then
        if (this.getPropData st).isNone then Class.initProps ec this st else (.ok (), st)
       else (.ok (), st) : Run Unit) = (Except.ok res, sa) →
      this.m_pinitVec.length > 0 → ∃ v, sa.propData this.m_self = some v := by
    intro res sa hr hlen
    rw [if_pos hlen] at hr
    split at hr
    · unfold Class.initProps at hr
      cases hi : Class.initPropsImpl ec this st with
      | mk r1 s1 =>
        rw [hi] at hr
        cases r1 with
        | error e => simp at hr
        | ok pv =>
          simp only [Prod.mk.injEq] at hr
          obtain ⟨-, hr⟩ := hr
          subst hr
          exact ⟨pv, by simp [Class.setPropData]⟩
    · rename_i hn
      simp only [Prod.mk.injEq] at hr
      obtain ⟨-, hr⟩ := hr
      subst hr
      cases hg : this.getPropData st with
      | none => simp [hg] at hn
      | some v => exact ⟨v, hg⟩
  generalize (if this.m_pinitVec.length > 0 then
        if (this.getPropData st).isNone then Class.initProps ec this st else (.ok (), st)
       else (.ok (), st) : Run Unit) = r at h h1 ⊢
  obtain ⟨res, sa⟩ := r
  cases res with
  | error e => simp at h
  | ok u =>
    have h1' := h1 u sa rfl
    simp only [] at h ⊢
    by_cases hsz : this.m_staticProperties.size > 0
    · simp only [hsz, if_true] at h ⊢
      cases hc : this.getSPropData sa with
      | some T =>
        simp only [hc] at h ⊢
        injection h with h
        subst h
        exact ⟨h1', fun _ => ⟨T, rfl, rfl⟩, fun hno => absurd trivial hno⟩
      | none =>
        simp only [hc] at h ⊢
        have hk' := hk sa this
        cases hi : initSPropsImpl this sa with
        | mk r2 s2 =>
          rw [hi] at hk'
          simp only [hi] at h ⊢
          cases r2 with
          | error e => simp at h
          | ok sprops =>
            simp only [] at h ⊢
            injection h with h
            subst h
            refine ⟨?_, fun _ => ⟨sprops, rfl, by simp [Class.getSPropData, Class.setSPropData]⟩,
              fun hno => absurd trivial hno⟩
            intro hlen
            obtain ⟨v, hv⟩ := h1' hlen
            exact ⟨v, hk' _ _ hv⟩
    · simp only [hsz, if_false] at h ⊢
      injection h with h
      subst h
      exact ⟨h1', fun hs => absurd hs (by simp), fun _ => rfl⟩

/-- With the vector and the table set, `initialize` gives the table and leaves
the state alone, whatever the execution context and `initSPropsImpl` are: it
calls neither `initProps` nor `initSPropsImpl`. -/
theorem Class.initializeWith_cached (ec : ExecutionContext)
    (initSPropsImpl : Class → RequestState → Run (List TypedValue))
    {this : Class} {st : RequestState} {sProps : Option (List TypedValue)}
    (hp : this.m_pinitVec.length > 0 → ∃ v, this.getPropData st = some v)
    (hs : this.m_staticProperties.size > 0 →
      ∃ T, sProps = some T ∧ this.getSPropData st = some T)
    (hn : ¬ this.m_staticProperties.size > 0 → sProps = none) :
    Class.initializeWith ec initSPropsImpl this st = (.ok sProps, st) := by
  unfold Class.initializeWith
  simp only []
  have h1 : (if this.m_pinitVec.length > 0 then
        if (this.getPropData st).isNone then Class.initProps ec this st else (.ok (), st)
       else (.ok (), st) : Run Unit) = (.ok (), st) := by
    split
    · rename_i hlen
      obtain ⟨v, hv⟩ := hp hlen
      rw [hv]
      rfl
    · rfl
  rw [h1]
  simp only []
  by_cases hsz : this.m_staticProperties.size > 0
  · obtain ⟨T, hT, hg⟩ := hs hsz
    subst hT
    simp only [hsz, if_true, hg]
  · simp only [hsz, if_false, hn hsz]

/-- C21: `initialize` of a class succeeds in a request and gives the table
`sProps`.  In the state it leaves, the instance-property vector of the class is
set if the class has `86pinit` routines, and the static-property table that is
set is `sProps` if the class has static properties.  Every further
`initialize` in that state gives `sProps` again and leaves the state, so the
vector too, as it is, whatever the heap and the initialiser routines of the
execution context are: no routine is run.  And `initialize` of a class
without `86pinit` routines leaves the vector of the class unset if it was
unset, when the classes of the heap at the address of the class have no such
routines either. -/
theorem C21_initialize_cached (env : Env) (ec : ExecutionContext) (fuel : Nat) (this : Class)
    (st : RequestState) (sProps : Option (List TypedValue))
    (h : (Class.initializeFuel env ec fuel this st).1 = .ok sProps) :
    (this.m_pinitVec ≠ [] →
      ∃ v, this.getPropData (Class.initializeFuel env ec fuel this st).2 = some v) ∧
    (this.m_staticProperties.size > 0 →
      ∃ T, sProps = some T ∧
        this.getSPropData (Class.initializeFuel env ec fuel this st).2 = some T) ∧
    (∀ (env' : Env) (ec' : ExecutionContext) (n : Nat),
      Class.initializeFuel env' ec' (n + 1) this (Class.initializeFuel env ec fuel this st).2
        = (.ok sProps, (Class.initializeFuel env ec fuel this st).2)) ∧
    (this.m_pinitVec = [] →
      (∀ i c, env.classes i = some c → c.m_self = this.m_self → c.m_pinitVec = []) →
      this.getPropData (Class.initializeFuel env ec fuel this st).2 = this.getPropData st) := by
  cases fuel with
  | zero => simp [Class.initializeFuel] at h
  | succ k =>
    have hk : ∀ (s : RequestState) (c : Class), s.PropDataKept
        ((Class.initSPropsImplWith env ec
          (fun declCls name s =>
            Class.getSPropWith ec (Class.initializeFuel env ec k) declCls none name s)) c s).2 := by
      intro s c
      refine @Class.initSPropsImplWith_rel env ec RequestState.PropDataKept (fun _ => True)
        (fun s _ _ h => h) (fun _ _ _ h1 h2 id v h => h2 id v (h1 id v h))
        (fun s s' h id v hv => by rw [h]; exact hv) (fun _ _ _ => trivial) _ ?_ c s
      intro d name s' _
      rw [Class.getSPropWith_state]
      exact Class.initializeFuel_kept env ec k d s'
    rw [Class.initializeFuel] at h ⊢
    obtain ⟨h1, h2, h3⟩ := Class.initializeWith_ok hk h
    have hlen : this.m_pinitVec.length > 0 → this.m_pinitVec ≠ [] := by
      intro hl hn
      rw [hn] at hl
      simp at hl
    refine ⟨?_, h2, ?_, ?_⟩
    · intro hne
      apply h1
      cases hv : this.m_pinitVec with
      | nil => exact absurd hv hne
      | cons a t => simp
    · intro env' ec' n
      rw [Class.initializeFuel]
      exact Class.initializeWith_cached ec' _ h1 h2 h3
    · intro hnil hheap
      have := Class.initializeFuel_untouched env ec this.m_self hheap (k + 1) this st
        (fun _ => hnil)
      rw [Class.initializeFuel] at this
      exact this

/-- Witness of C21: `InitC extends InitP`, both with `86pinit` and `86sinit`
routines, is initialised in a fresh request.  The vector and the table are
set, and a further `initialize` in an execution context whose routines raise
gives the same table and the same state. -/
theorem C21_initialize_cached_witness :
    (Class.initializeFuel envInitC exLogEC 3 exInitC RequestState.fresh).1
      = .ok (some [.indirect (some (90, 0)), .null]) ∧
    exInitC.getPropData (Class.initializeFuel envInitC exLogEC 3 exInitC RequestState.fresh).2
      = some [⟨.staticStr "InitC;InitP;", false⟩, ⟨.null, false⟩] ∧
    Class.initializeFuel env0 exFailEC 1 exInitC
        (Class.initializeFuel envInitC exLogEC 3 exInitC RequestState.fresh).2
      = (.ok (some [.indirect (some (90, 0)), .null]),
          (Class.initializeFuel envInitC exLogEC 3 exInitC RequestState.fresh).2) :=
  ⟨rfl, rfl,
    (C21_initialize_cached envInitC exLogEC 3 exInitC RequestState.fresh
      (some [.indirect (some (90, 0)), .null]) rfl).2.2.1 env0 exFailEC 0⟩

theorem Class.invokeInits_raise (ec : ExecutionContext) (this : Class) (l1 : List Func) :
    ∀ (a a1 : PropArray) (f : Func) (l2 : List Func) (e : Fatal),
      Class.invokeInits ec this l1 a = .ok a1 → ec.invokeFunc f this.m_self a1 = .error e →
      Class.invokeInits ec this (l1 ++ f :: l2) a = .error e := by
  induction l1 with
  | nil =>
    intro a a1 f l2 e h1 h2
    rw [Class.invokeInits] at h1
    injection h1 with h1
    subst h1
    rw [List.nil_append, Class.invokeInits, h2]
  | cons g rest ih =>
    intro a a1 f l2 e h1 h2
    rw [Class.invokeInits] at h1
    rw [List.cons_append, Class.invokeInits]
    cases hg : ec.invokeFunc g this.m_self a with
    | error x => simp [hg] at h1
    | ok a2 =>
      simp only [hg] at h1 ⊢
      exact ih a2 a1 f l2 e h1 h2

/-- C22: the class has `86pinit` routines and its vector is not set; the
routines before `f` in the order of invocation succeed and `f` raises `e`.
Then `initPropsImpl`, `initProps` and `initialize` raise `e` and leave the
state of the request exactly as it was: the arena frame that `initPropsImpl`
opened is closed again, and the vector of the class is still not set, so that
a later `initialize` starts from the same state. -/
theorem C22_pinit_failure (ec : ExecutionContext) (this : Class) (st : RequestState)
    (arg0 a1 : PropArray) (l1 l2 : List Func) (f : Func) (e : Fatal)
    (hnone : this.getPropData st = none)
    (harr : Class.pinitArray (.obj ec.pinitSentinel) this.m_declProperties.m_list
      this.m_declPropInit [] = .ok arg0)
    (hsplit : this.m_pinitVec.reverse = l1 ++ f :: l2)
    (hbefore : Class.invokeInits ec this l1 arg0 = .ok a1)
    (hraise : ec.invokeFunc f this.m_self a1 = .error e) :
    Class.initPropsImpl ec this st = (.error e, st) ∧
    Class.initProps ec this st = (.error e, st) ∧
    (∀ (env : Env) (fuel : Nat),
      Class.initializeFuel env ec (fuel + 1) this st = (.error e, st) ∧
      (Class.initializeFuel env ec (fuel + 1) this st).2.arenaFrames = st.arenaFrames ∧
      this.getPropData (Class.initializeFuel env ec (fuel + 1) this st).2 = none) := by
  have himpl : Class.initPropsImpl ec this st = (.error e, st) := by
    unfold Class.initPropsImpl
    simp only [harr, hsplit, Class.invokeInits_raise ec this l1 arg0 a1 f l2 e hbefore hraise]
    cases st
    simp
  have hprops : Class.initProps ec this st = (.error e, st) := by
    unfold Class.initProps
    rw [himpl]
  have hlen : this.m_pinitVec.length > 0 := by
    have : this.m_pinitVec.reverse.length > 0 := by rw [hsplit]; simp
    simpa using this
  refine ⟨himpl, hprops, ?_⟩
  intro env fuel
  have hinit : Class.initializeFuel env ec (fuel + 1) this st = (.error e, st) := by
    rw [Class.initializeFuel]
    unfold Class.initializeWith
    simp only [hlen, if_true, hnone, Option.isNone_none, hprops]
  rw [hinit]
  exact ⟨rfl, rfl, hnone⟩

/-- Witness of C22: in an execution context whose routines raise, `initialize`
of `InitC` raises what its own `86pinit`, the first to be invoked, raises, and
leaves the fresh state of the request as it is. -/
theorem C22_pinit_failure_witness :
    Class.initializeFuel envInitC exFailEC 3 exInitC RequestState.fresh
      = (.error (.thrown "86pinit"), RequestState.fresh) ∧
    exInitC.getPropData RequestState.fresh = none :=
  ⟨((C22_pinit_failure exFailEC exInitC RequestState.fresh
      [("log", .obj 999), ("c", .obj 999)] [("log", .obj 999), ("c", .obj 999)]
      [] [exPinitP] exPinitC (.thrown "86pinit") rfl rfl rfl rfl rfl).2.2 envInitC 2).1, rfl⟩

/-- The flag that `sPropAccessible` computes when the debugger bypass is
off. -/
theorem Class.sPropAccessible_spec {ec : ExecutionContext} (hoff : ec.debuggerBypassCheck = false)
    (this : Class) (ctx : Option Class) {attrs : Attr} {b : Bool}
    (h : Class.sPropAccessible ec this ctx attrs = .ok b) :
    (b = true ↔
      (ctx.map (fun c => c.m_self) = some this.m_self ∨ visOf attrs = AttrPublic ∨
       (visOf attrs = AttrProtected ∧
        ∃ c, ctx = some c ∧ (this.isSubclassOf c = true ∨ c.isSubclassOf this = true)))) := by
  unfold Class.sPropAccessible at h
  by_cases hsame : ctx.map (fun c => c.m_self) = some this.m_self
  · rw [if_pos hsame] at h
    injection h with h
    subst h
    simp [hsame]
  · rw [if_neg hsame] at h
    simp only [] at h
    have hpp : AttrPublic ≠ AttrProtected := by decide
    have hpv : AttrPublic ≠ AttrPrivate := by decide
    have hrv : AttrProtected ≠ AttrPrivate := by decide
    cases ctx with
    | none =>
      simp only [Bool.false_eq_true, if_false] at h
      by_cases hpub : visOf attrs = AttrPublic
      · simp only [hpub, if_true] at h
        injection h with h
        subst h
        simp [hpub]
      · simp only [hpub, if_false] at h
        split at h
        · injection h with h
          rw [hoff] at h
          subst h
          simp [hsame, hpub]
        · cases h
    | some c =>
      simp only [] at h
      by_cases hrel : (this.isSubclassOf c || c.isSubclassOf this) = true
      · rw [if_pos hrel] at h
        have hrel' : this.isSubclassOf c = true ∨ c.isSubclassOf this = true := by
          simpa using hrel
        split at h
        · rename_i hv
          injection h with h
          subst h
          have hv' : visOf attrs = AttrPublic ∨ visOf attrs = AttrProtected := by
            simpa using hv
          simp only [true_iff]
          rcases hv' with hv' | hv'
          · exact Or.inr (Or.inl hv')
          · exact Or.inr (Or.inr ⟨hv', c, rfl, hrel'⟩)
        · rename_i hv
          have hv' : ¬ (visOf attrs = AttrPublic ∨ visOf attrs = AttrProtected) := by
            simpa using hv
          split at h
          · injection h with h
            rw [hoff] at h
            subst h
            simp only [Bool.false_eq_true, false_iff]
            rintro (h1 | h1 | h1)
            · exact hsame h1
            · exact hv' (Or.inl h1)
            · exact hv' (Or.inr h1.1)
          · cases h
      · rw [if_neg hrel] at h
        have hrel' : ¬ (this.isSubclassOf c = true ∨ c.isSubclassOf this = true) := by
          simpa using hrel
        by_cases hpub : visOf attrs = AttrPublic
        · simp only [hpub, if_true] at h
          injection h with h
          subst h
          simp [hpub]
        · simp only [hpub, if_false] at h
          split at h
          · injection h with h
            rw [hoff] at h
            subst h
            simp only [Bool.false_eq_true, false_iff]
            rintro (h1 | h1 | ⟨-, c', hc', h1⟩)
            · exact hsame h1
            · exact hpub h1
            · injection hc' with hc'
              subst hc'
              exact hrel' h1
          · cases h

/-- C23: `getSProp` with the debugger bypass off.  When it returns: for a name
that the static table of the class does not hold, the result is not visible,
not accessible and without a value; for a name that the table holds, the
result is visible, and it is accessible exactly when the context is the class
itself, or the property is public, or the property is protected and the
context is a class of which the class is a subclass or which is a subclass of
the class.  So a private property is accessible only from the class itself, and
a null context reaches public properties only.  And `getSProp` returns
whenever `initialize` returns a table that has the slot of the name. -/
theorem C23_static_access (env : Env) (ec : ExecutionContext) (fuel : Nat) (this : Class)
    (ctx : Option Class) (n : String) (st : RequestState)
    (hoff : ec.debuggerBypassCheck = false) :
    (∀ r, (Class.getSProp env ec fuel this ctx n st).1 = .ok r →
      (this.m_staticProperties.lookup n = none → r = ⟨none, false, false⟩) ∧
      (∀ i e, this.m_staticProperties.lookup n = some (i, e) →
        r.visible = true ∧
        (r.accessible = true ↔
          (ctx.map (fun c => c.m_self) = some this.m_self ∨ visOf e.m_attrs = AttrPublic ∨
           (visOf e.m_attrs = AttrProtected ∧
            ∃ c, ctx = some c ∧
              (this.isSubclassOf c = true ∨ c.isSubclassOf this = true)))) ∧
        (visOf e.m_attrs = AttrPrivate →
          (r.accessible = true ↔ ctx.map (fun c => c.m_self) = some this.m_self)) ∧
        (ctx = none → (r.accessible = true ↔ visOf e.m_attrs = AttrPublic)))) ∧
    (∀ o, (Class.initializeFuel env ec fuel this st).1 = .ok o →
      (∀ (i : Nat) (e : Class.SProp), this.m_staticProperties.lookup n = some (i, e) →
        visWellFormed e.m_attrs ∧ ∃ T v, o = some T ∧ T[i]? = some v) →
      ∃ r, (Class.getSProp env ec fuel this ctx n st).1 = .ok r) := by
  constructor
  · intro r h
    unfold Class.getSProp Class.getSPropWith at h
    cases hi : Class.initializeFuel env ec fuel this st with
    | mk res st1 =>
      rw [hi] at h
      cases res with
      | error e => cases h
      | ok sProps =>
        simp only [] at h
        cases hl : this.m_staticProperties.lookup n with
        | none =>
          simp only [hl] at h
          injection h with h
          subst h
          exact ⟨fun _ => rfl, fun i e he => by cases he⟩
        | some ie =>
          obtain ⟨i, e⟩ := ie
          simp only [hl] at h
          refine ⟨(fun hno => by cases hno), ?_⟩
          intro i' e' he'
          injection he' with he'
          injection he' with q1 q2
          subst q1 q2
          cases ha : Class.sPropAccessible ec this ctx e.m_attrs with
          | error x => simp [ha] at h
          | ok b =>
            simp only [ha] at h
            cases sProps with
            | none => cases h
            | some table =>
              simp only [] at h
              cases ht : table[i]? with
              | none => simp [ht] at h
              | some value =>
                simp only [ht] at h
                injection h with h
                subst h
                have hspec := Class.sPropAccessible_spec hoff this ctx ha
                refine ⟨rfl, hspec, ?_, ?_⟩
                · intro hpriv
                  show b = true ↔ _
                  rw [hspec]
                  constructor
                  · rintro (h1 | h1 | h1)
                    · exact h1
                    · rw [hpriv] at h1; exact absurd h1 (by decide)
                    · rw [hpriv] at h1; exact absurd h1.1 (by decide)
                  · exact fun h1 => Or.inl h1
                · intro hctx
                  show b = true ↔ _
                  rw [hspec]
                  subst hctx
                  constructor
                  · rintro (h1 | h1 | ⟨-, c, hc, -⟩)
                    · cases h1
                    · exact h1
                    · cases hc
                  · exact fun h1 => Or.inr (Or.inl h1)
  · intro o ho hl
    unfold Class.getSProp
    exact Class.getSPropWith_succeeds ho hl

theorem exAcc_linked : Class.newClass env0 95 preAcc none = .ok exAcc := by rfl

/-- Witness of C23: `Acc` declares the static properties `p` (protected), `q`
(private) and `r` (public); `AccSub` extends `Acc`.  From the unrelated class
`Base` and from the null context only `r` is accessible; from `AccSub`, `p`
and `r` are; from `Acc` itself all three; a name that `Acc` does not have is
not visible. -/
theorem C23_static_access_witness :
    Class.newClass envAcc 96 preAccSub (some exAcc) = .ok exAccSub ∧
    (Class.getSProp envAcc exEC 2 exAcc none "p" RequestState.fresh).1
      = .ok ⟨some (95, 0), true, false⟩ ∧
    (Class.getSProp envAcc exEC 2 exAcc (some exBase) "p" RequestState.fresh).1
      = .ok ⟨some (95, 0), true, false⟩ ∧
    (Class.getSProp envAcc exEC 2 exAcc (some exAccSub) "p" RequestState.fresh).1
      = .ok ⟨some (95, 0), true, true⟩ ∧
    (Class.getSProp envAcc exEC 2 exAcc (some exAccSub) "q" RequestState.fresh).1
      = .ok ⟨some (95, 1), true, false⟩ ∧
    (Class.getSProp envAcc exEC 2 exAcc (some exAcc) "q" RequestState.fresh).1
      = .ok ⟨some (95, 1), true, true⟩ ∧
    (Class.getSProp envAcc exEC 2 exAcc none "r" RequestState.fresh).1
      = .ok ⟨some (95, 2), true, true⟩ ∧
    (Class.getSProp envAcc exEC 2 exAcc (some exAcc) "zz" RequestState.fresh).1
      = .ok ⟨none, false, false⟩ ∧
    ∀ r, (Class.getSProp envAcc exEC 2 exAcc none "q" RequestState.fresh).1 = .ok r →
      r.accessible = false := by
  refine ⟨rfl, rfl, rfl, rfl, rfl, rfl, rfl, rfl, ?_⟩
  intro r hr
  have h := ((C23_static_access envAcc exEC 2 exAcc none "q" RequestState.fresh rfl).1 r hr).2
    1 ⟨"q", AttrPrivate ||| AttrStatic, "", "", 95, .int 2⟩ rfl
  cases hacc : r.accessible with
  | false => rfl
  | true =>
    have := (h.2.2.2 rfl).mp hacc
    exact absurd this (by decide)

/-- The bits outside the mask of `importTraitMethod` are those of the method
of the trait. -/
theorem Class.importModifiers_outside (method : Func) (modifiers bits : Attr)
    (hb : bits < 2 ^ 32)
    (hd : bits &&& (AttrPublic ||| AttrProtected ||| AttrPrivate ||| AttrAbstract ||| AttrFinal)
      = 0) :
    Class.importModifiers method modifiers &&& bits = method.m_attrs &&& bits := by
  unfold Class.importModifiers
  simp only []
  generalize (AttrPublic ||| AttrProtected ||| AttrPrivate ||| AttrAbstract ||| AttrFinal)
    = mask at hd ⊢
  split
  · rfl
  · simp only [clearBits]
    apply Nat.eq_of_testBit_eq
    intro i
    have hdi := congrArg (fun x => Nat.testBit x i) hd
    simp only [Nat.testBit_and, Nat.zero_testBit] at hdi
    simp only [Nat.testBit_or, Nat.testBit_and, Nat.testBit_xor]
    have h32 : (0xFFFFFFFF : Nat) = 2 ^ 32 - 1 := by norm_num
    rw [h32, Nat.testBit_two_pow_sub_one]
    by_cases hi : i < 32
    · simp only [hi, decide_True]
      cases Nat.testBit method.m_attrs i <;> cases Nat.testBit modifiers i <;>
        cases hq : Nat.testBit mask i <;> cases hbi : Nat.testBit bits i <;> simp_all
    · have : Nat.testBit bits i = false := by
        apply Nat.testBit_lt_two_pow
        calc bits < 2 ^ 32 := hb
          _ ≤ 2 ^ i := Nat.pow_le_pow_right (by norm_num) (by omega)
      simp [this]

/-- What a successful `importTraitMethod` does: nothing, or the builder
resolves the name to the copy of the method of the trait with the attributes of
the import. -/
theorem Class.importTraitMethod_ok {env : Env} {this : Class} {tm : TraitMethod}
    {methName : String} {b b' : MethodMap}
    (h : Class.importTraitMethod env this tm methName b = .ok b') :
    b' = b ∨ ∃ slot f, b'.lookup methName = some (slot, f) ∧
      f.m_cls = some this.m_self ∧ f.m_name = methName ∧
      f.m_attrs = Class.importModifiers tm.m_method tm.m_modifiers ∧
      f.m_shared = tm.m_method.m_shared := by
  unfold Class.importTraitMethod at h
  simp only [] at h
  split at h
  · injection h with h; exact Or.inl h.symm
  · cases hl : b.lookup methName with
    | none =>
      simp only [hl] at h
      injection h with h; subst h
      right
      exact ⟨_, _, IndexedStringMap.lookup_add_self b methName _ methName
        (by simp [keyEq, isame_refl]), rfl, rfl, rfl, rfl⟩
    | some r =>
      obtain ⟨slot, pm⟩ := r
      simp only [hl] at h
      split at h
      · injection h with h; exact Or.inl h.symm
      · split at h
        · cases h
        · injection h with h; subst h
          right
          obtain ⟨o1, o2, -, o4, o5⟩ := Class.overlay_fields this pm
            (((tm.m_method.clone (some this.m_self)).setName methName).setAttrs
              (Class.importModifiers tm.m_method tm.m_modifiers))
          exact ⟨slot, _, IndexedStringMap.lookup_set_same b methName slot pm _ hl,
            o4, o2, o1, o5⟩

theorem Class.applyTraitAliasRule_static {env : Env} {usedTraits : List Class}
    {rule : PreClass.TraitAliasRule} (hs : hasAttr rule.m_modifiers AttrStatic = true)
    (st : List (String × String) × MethodToTraitListMap) :
    ∃ e, Class.applyTraitAliasRule env usedTraits rule st = .error e := by
  cases h : Class.applyTraitAliasRule env usedTraits rule st with
  | error e => exact ⟨e, rfl⟩
  | ok r =>
    exfalso
    unfold Class.applyTraitAliasRule at h
    simp only [] at h
    split at h
    · cases h
    · split at h
      · cases h
      · split at h
        · cases h
        · simp [hs] at h

theorem Class.applyTraitAliasRules_static {env : Env} {usedTraits : List Class}
    {rule : PreClass.TraitAliasRule} (hs : hasAttr rule.m_modifiers AttrStatic = true) :
    ∀ (rules : List PreClass.TraitAliasRule)
      (st : List (String × String) × MethodToTraitListMap), rule ∈ rules →
      ∃ e, Class.applyTraitAliasRules env usedTraits rules st = .error e := by
  intro rules
  induction rules with
  | nil => intro st h; cases h
  | cons r rest ih =>
    intro st hmem
    rw [Class.applyTraitAliasRules]
    cases h1 : Class.applyTraitAliasRule env usedTraits r st with
    | error e => exact ⟨e, rfl⟩
    | ok st1 =>
      simp only []
      rcases List.mem_cons.mp hmem with hm | hm
      · subst hm
        obtain ⟨e, he⟩ := @Class.applyTraitAliasRule_static env usedTraits rule hs st
        rw [he] at h1
        cases h1
      · exact ih st1 hm

theorem Class.traitCandidates_static {env : Env} {usedTraits : List Class} {this : Class}
    {rule : PreClass.TraitAliasRule} (hs : hasAttr rule.m_modifiers AttrStatic = true)
    (hmem : rule ∈ this.m_preClass.m_traitAliasRules) :
    ∃ e, Class.traitCandidates env usedTraits this = .error e := by
  unfold Class.traitCandidates Class.applyTraitRules
  simp only []
  cases h1 : Class.applyTraitPrecRules this.m_preClass.m_traitPrecRules
      (Class.findAllTraitMethods usedTraits []) with
  | error e => exact ⟨e, rfl⟩
  | ok m1 =>
    simp only []
    obtain ⟨e, he⟩ := Class.applyTraitAliasRules_static hs
      this.m_preClass.m_traitAliasRules (this.m_traitAliases, m1) hmem
    rw [he]
    exact ⟨e, rfl⟩

theorem Class.loadUsedTraits_length {env : Env} {clsName : String} (names : List String) :
    ∀ ts, Class.loadUsedTraits env clsName names = .ok ts → ts.length = names.length := by
  induction names with
  | nil =>
    intro ts h
    rw [Class.loadUsedTraits] at h
    injection h with h
    subst h
    rfl
  | cons n rest ih =>
    intro ts h
    rw [Class.loadUsedTraits] at h
    split at h
    · cases h
    · split at h
      · cases h
      · split at h
        · cases h
        · split at h
          · cases h
          · rename_i ts' hr
            injection h with h
            subst h
            simp [ih ts' hr]

/-- C24: a class that uses traits does not link when one of its alias rules
has `static` among its modifiers.  And whenever `importTraitMethod` installs a
method, the copy it installs has the static bit of the method of the trait,
and every other bit of the 32 outside public, protected, private, abstract and
final as well. -/
theorem C24_alias_static (env : Env) (self : ClassId) (pre : PreClass)
    (parent : Option Class) (rule : PreClass.TraitAliasRule)
    (hmem : rule ∈ pre.m_traitAliasRules)
    (hs : hasAttr rule.m_modifiers AttrStatic = true)
    (hused : pre.m_usedTraits ≠ []) :
    (∃ e, Class.newClass env self pre parent = .error e) ∧
    (∀ (this : Class) (tm : TraitMethod) (methName : String) (b b' : MethodMap),
      Class.importTraitMethod env this tm methName b = .ok b' →
      b' = b ∨ ∃ slot f, b'.lookup methName = some (slot, f) ∧ f.m_cls = some this.m_self ∧
        f.m_attrs &&& AttrStatic = tm.m_method.m_attrs &&& AttrStatic ∧
        ∀ bits, bits < 2 ^ 32 →
          bits &&& (AttrPublic ||| AttrProtected ||| AttrPrivate ||| AttrAbstract ||| AttrFinal)
            = 0 →
          f.m_attrs &&& bits = tm.m_method.m_attrs &&& bits) := by
  constructor
  · cases hn : Class.newClass env self pre parent with
    | error e => exact ⟨e, rfl⟩
    | ok cls =>
      exfalso
      obtain ⟨usedTraits, this0, r, hl, s1, s2, -, -, hb, -⟩ := Class.newClass_methods hn
      have hlen : (usedTraits.length != 0) = true := by
        have h1 := Class.loadUsedTraits_length pre.m_usedTraits usedTraits hl
        cases hu : pre.m_usedTraits with
        | nil => exact absurd hu hused
        | cons a t =>
          rw [hu] at h1
          simp [h1]
      unfold Class.buildMethods at hb
      cases ho : Class.addOwnMethods env this0 this0.m_preClass.m_methods
          (Class.inheritedMethods parent).1 with
      | error e => simp [ho] at hb
      | ok builder =>
        simp only [ho] at hb
        unfold Class.importTraitMethodsIfAny at hb
        rw [if_pos hlen] at hb
        unfold Class.importTraitMethods at hb
        obtain ⟨e, he⟩ := @Class.traitCandidates_static env usedTraits
          { this0 with m_traitsBeginIdx := builder.size } rule hs (by rw [s2]; exact hmem)
        rw [he] at hb
        simp at hb
  · intro this tm methName b b' h
    rcases Class.importTraitMethod_ok h with h1 | ⟨slot, f, hl, hc, -, ha, -⟩
    · exact Or.inl h1
    · right
      refine ⟨slot, f, hl, hc, ?_, ?_⟩
      · rw [ha]
        exact Class.importModifiers_outside _ _ AttrStatic (by norm_num) (by decide)
      · intro bits hb hd
        rw [ha]
        exact Class.importModifiers_outside _ _ bits hb hd

/-- Witness of C24: the class `AliasS` uses the trait `A` under the rule `foo
as static bar` and does not link; `AliasP`, under the rule `foo as protected
bar`, links and holds `bar`, protected and not static as `foo` is. -/
theorem C24_alias_static_witness :
    (∃ e, Class.newClass envTraits 97 preAliasS none = .error e) ∧
    Class.newClass envTraits 97 preAliasS none = .error .staticAsModifier ∧
    Class.newClass envTraits 97 preAliasP none = .ok exAliasP ∧
    exAliasP.m_methods.m_list.map
        (fun f => (f.m_name, visOf f.m_attrs, hasAttr f.m_attrs AttrStatic))
      = [("foo", AttrPublic, false), ("bar", AttrProtected, false)] :=
  ⟨(C24_alias_static envTraits 97 preAliasS none ⟨"A", "foo", "bar", AttrStatic⟩
      (by simp [preAliasS, exPre]) rfl (by simp [preAliasS, exPre])).1, rfl, rfl, rfl⟩

theorem hasAttr_or (a x y : Attr) : hasAttr a (x ||| y) = (hasAttr a x || hasAttr a y) := by
  unfold hasAttr
  rw [Nat.land_comm a (x ||| y), Nat.and_distrib_right, Nat.land_comm x a, Nat.land_comm y a]
  generalize a &&& x = u
  generalize a &&& y = v
  have key : u ||| v = 0 ↔ u = 0 ∧ v = 0 := by
    constructor
    · intro h
      constructor <;>
      · apply Nat.eq_of_testBit_eq
        intro i
        have := congrArg (fun z => Nat.testBit z i) h
        simp only [Nat.testBit_or, Nat.zero_testBit, Bool.or_eq_false_iff] at this
        rw [Nat.zero_testBit]
        first | exact this.1 | exact this.2
    · rintro ⟨h1, h2⟩
      subst h1 h2
      rfl
  rw [Bool.eq_iff_iff]
  simp only [bne_iff_ne, ne_eq, Bool.or_eq_true, key]
  tauto

theorem hasAttr_parentMask (a : Attr) :
    hasAttr a (AttrFinal ||| AttrInterface ||| AttrTrait) = true ↔
      (hasAttr a AttrFinal = true ∨ hasAttr a AttrInterface = true ∨
        hasAttr a AttrTrait = true) := by
  rw [hasAttr_or, hasAttr_or]
  simp only [Bool.or_eq_true]
  tauto

/-- What `setParent` does with the class that `newClass` starts from. -/
theorem Class.setParent_spec (env : Env) (self : ClassId) (pre : PreClass)
    (parent : Option Class) :
    ((∃ e, Class.setParent parent
          (Class.init self pre parent (Class.newClassVecLen parent)) = .error e) ↔
      ∃ p, parent = some p ∧
        hasAttr p.attrs (AttrFinal ||| AttrInterface ||| AttrTrait) = true ∧
        ¬ (hasAttr p.attrs AttrFinal = true ∧ pre.isMockClass = true)) ∧
    (∀ p, parent = some p →
      hasAttr p.attrs (AttrFinal ||| AttrInterface ||| AttrTrait) = true →
      ¬ (hasAttr p.attrs AttrFinal = true ∧ pre.isMockClass = true) →
      Class.newClass env self pre parent = .error (.mayNotInherit pre.m_name p.name)) ∧
    (parent = none →
      ∃ c, Class.setParent parent
        (Class.init self pre parent (Class.newClassVecLen parent)) = .ok c) ∧
    (∀ p, parent = some p →
      hasAttr p.attrs (AttrFinal ||| AttrInterface ||| AttrTrait) = false →
      ∃ c, Class.setParent parent
        (Class.init self pre parent (Class.newClassVecLen parent)) = .ok c) ∧
    (∀ p, parent = some p → hasAttr p.attrs AttrFinal = true → pre.isMockClass = true →
      ∃ c, Class.setParent parent
        (Class.init self pre parent (Class.newClassVecLen parent)) = .ok c) := by
  have hpre : (Class.init self pre parent (Class.newClassVecLen parent)).m_preClass = pre := rfl
  have key : ∀ p, parent = some p →
      (hasAttr p.attrs (AttrFinal ||| AttrInterface ||| AttrTrait) = true ∧
        ¬ (hasAttr p.attrs AttrFinal = true ∧ pre.isMockClass = true) →
        Class.validateParent parent (Class.init self pre parent (Class.newClassVecLen parent))
          = .error (.mayNotInherit pre.m_name p.name)) ∧
      (¬ (hasAttr p.attrs (AttrFinal ||| AttrInterface ||| AttrTrait) = true ∧
        ¬ (hasAttr p.attrs AttrFinal = true ∧ pre.isMockClass = true)) →
        Class.validateParent parent (Class.init self pre parent (Class.newClassVecLen parent))
          = .ok ()) := by
    intro p hp
    subst hp
    unfold Class.validateParent
    simp only [hpre]
    constructor
    · rintro ⟨h1, h2⟩
      rw [if_pos h1]
      have : (!hasAttr p.attrs AttrFinal || !pre.isMockClass) = true := by
        cases hf : hasAttr p.attrs AttrFinal <;> cases hm : pre.isMockClass <;> simp_all
      rw [if_pos this]
    · intro h
      by_cases h1 : hasAttr p.attrs (AttrFinal ||| AttrInterface ||| AttrTrait) = true
      · rw [if_pos h1]
        have h2 : hasAttr p.attrs AttrFinal = true ∧ pre.isMockClass = true := by
          by_contra hc
          exact h ⟨h1, hc⟩
        simp [h2.1, h2.2]
      · rw [if_neg h1]
  have hset : ∀ p, parent = some p →
      ¬ (hasAttr p.attrs (AttrFinal ||| AttrInterface ||| AttrTrait) = true ∧
        ¬ (hasAttr p.attrs AttrFinal = true ∧ pre.isMockClass = true)) →
      ∃ c, Class.setParent parent
        (Class.init self pre parent (Class.newClassVecLen parent)) = .ok c := by
    intro p hp h
    unfold Class.setParent
    rw [(key p hp).2 h]
    exact ⟨_, rfl⟩
  refine ⟨?_, ?_, ?_, ?_, ?_⟩
  · constructor
    · rintro ⟨e, he⟩
      cases hp : parent with
      | none =>
        subst hp
        simp [Class.setParent, Class.validateParent] at he
      | some p =>
        refine ⟨p, rfl, ?_⟩
        by_contra hc
        obtain ⟨c, hc'⟩ := hset p hp (by
          intro h
          exact hc h)
        rw [hc'] at he
        cases he
    · rintro ⟨p, hp, h1, h2⟩
      refine ⟨.mayNotInherit pre.m_name p.name, ?_⟩
      unfold Class.setParent
      rw [(key p hp).1 ⟨h1, h2⟩]
  · intro p hp h1 h2
    unfold Class.newClass Class.setParent
    rw [(key p hp).1 ⟨h1, h2⟩]
  · intro hp
    subst hp
    exact ⟨_, rfl⟩
  · intro p hp h1
    exact hset p hp (by rintro ⟨h, -⟩; rw [h1] at h; cases h)
  · intro p hp h1 h2
    exact hset p hp (by rintro ⟨-, h⟩; exact h ⟨h1, h2⟩)

/-- C25: `setParent` raises the error of the illegal parent exactly when there
is a parent whose attributes have one of final, interface and trait, unless
the parent is final and the class has the user attribute `__MockClass`.  It
is the first step of `newClass`, which then returns that error.  A class
without a parent, or with a parent that is none of the three, passes. -/
theorem C25_parent_validation (env : Env) (self : ClassId) (pre : PreClass)
    (parent : Option Class) :
    ((∃ e, Class.setParent parent
          (Class.init self pre parent (Class.newClassVecLen parent)) = .error e) ↔
      ∃ p, parent = some p ∧
        (hasAttr p.attrs AttrFinal = true ∨ hasAttr p.attrs AttrInterface = true ∨
          hasAttr p.attrs AttrTrait = true) ∧
        ¬ (hasAttr p.attrs AttrFinal = true ∧ pre.isMockClass = true)) ∧
    (∀ p, parent = some p →
      (hasAttr p.attrs AttrFinal = true ∨ hasAttr p.attrs AttrInterface = true ∨
        hasAttr p.attrs AttrTrait = true) →
      ¬ (hasAttr p.attrs AttrFinal = true ∧ pre.isMockClass = true) →
      Class.newClass env self pre parent = .error (.mayNotInherit pre.m_name p.name)) ∧
    (parent = none →
      ∃ c, Class.setParent parent
        (Class.init self pre parent (Class.newClassVecLen parent)) = .ok c) ∧
    (∀ p, parent = some p →
      hasAttr p.attrs AttrFinal = false → hasAttr p.attrs AttrInterface = false →
      hasAttr p.attrs AttrTrait = false →
      ∃ c, Class.setParent parent
        (Class.init self pre parent (Class.newClassVecLen parent)) = .ok c) ∧
    (∀ p, parent = some p → hasAttr p.attrs AttrFinal = true → pre.isMockClass = true →
      ∃ c, Class.setParent parent
        (Class.init self pre parent (Class.newClassVecLen parent)) = .ok c) := by
  obtain ⟨h1, h2, h3, h4, h5⟩ := Class.setParent_spec env self pre parent
  refine ⟨?_, ?_, h3, ?_, h5⟩
  · rw [h1]
    constructor
    · rintro ⟨p, hp, q1, q2⟩
      exact ⟨p, hp, (hasAttr_parentMask _).mp q1, q2⟩
    · rintro ⟨p, hp, q1, q2⟩
      exact ⟨p, hp, (hasAttr_parentMask _).mpr q1, q2⟩
  · intro p hp q1 q2
    exact h2 p hp ((hasAttr_parentMask _).mpr q1) q2
  · intro p hp q1 q2 q3
    apply h4 p hp
    cases hm : hasAttr p.attrs (AttrFinal ||| AttrInterface ||| AttrTrait) with
    | false => rfl
    | true =>
      rcases (hasAttr_parentMask _).mp hm with h | h | h
      · rw [q1] at h; cases h
      · rw [q2] at h; cases h
      · rw [q3] at h; cases h

/-- Examples for `setParent`: `Last` is a final class.  A class that extends
`Last` does not link, a class with the user attribute `__MockClass` that
extends `Last` links, and a class that extends the interface `I` does not
link. -/
theorem setParent_examples :
    Class.newClass envLast 99 (preExtends "Last" []) (some exLast)
      = .error (.mayNotInherit "Sub" "Last") ∧
    (∃ c, Class.newClass envLast 99 (preExtends "Last" [sd___MockClass]) (some exLast)
      = .ok c) ∧
    Class.newClass envIface 99 (preExtends "I" [sd___MockClass]) (some exIface)
      = .error (.mayNotInherit "Sub" "I") :=
  ⟨rfl, ⟨Class.linked envLast 99 (preExtends "Last" [sd___MockClass]) (some exLast), rfl⟩, rfl⟩

theorem Class.releaseRefsLoop_same (self : ClassId) :
    ∀ (l : List (Option Func)) (ok : Bool),
      (Class.releaseRefsLoop self ok l).1 = l → (Class.releaseRefsLoop self ok l).2 = ok := by
  intro l
  induction l with
  | nil => intro ok _; simp [Class.releaseRefsLoop]
  | cons m rest ih =>
    intro ok h
    cases m with
    | none =>
      simp only [Class.releaseRefsLoop, List.cons.injEq, true_and] at h ⊢
      exact ih ok h
    | some f =>
      by_cases hc : (f.m_cls != some self &&
        (hasAttr f.m_attrs AttrPrivate || !f.m_hasStaticLocals)) = true
      · simp [Class.releaseRefsLoop, hc] at h
      · simp only [Class.releaseRefsLoop, hc, Bool.false_eq_true, if_false, List.cons.injEq,
          true_and] at h ⊢
        exact ih ok h

theorem Class.destroy_zombie {σ : Type} (rt : ClassRegistry σ) (this : LinkedClass) (st : σ)
    (h : this.m_cachedOffset = 0) : Class.destroy rt this st = (this, st) := by
  simp [Class.destroy, h]

theorem Class.destroy_installed {σ : Type} (rt : ClassRegistry σ) (this : LinkedClass)
    (st : σ) (h : this.m_cachedOffset ≠ 0) :
    Class.destroy rt this st =
      (Class.releaseRefs { this with m_cachedOffset := 0 },
        rt.enqueue (rt.removeClass st this.cls.m_preClass this.cls.m_self)
          ⟨this.cls.m_self⟩) := by
  simp [Class.destroy, h, Class.releaseRefs]

theorem Class.destroy_clears {σ : Type} (rt : ClassRegistry σ) (this : LinkedClass) (st : σ) :
    (Class.destroy rt this st).1.m_cachedOffset = 0 := by
  by_cases h : this.m_cachedOffset = 0
  · rw [Class.destroy_zombie rt this st h]; exact h
  · rw [Class.destroy_installed rt this st h]; simp [Class.releaseRefs]

theorem Class.destroyTimes_zombie {σ : Type} (rt : ClassRegistry σ) :
    ∀ (n : Nat) (this : LinkedClass) (st : σ), this.m_cachedOffset = 0 →
      Class.destroyTimes rt n this st = (this, st) := by
  intro n
  induction n with
  | zero => intro this st _; rfl
  | succ k ih =>
    intro this st h
    simp only [Class.destroyTimes, Class.destroy_zombie rt this st h]
    exact ih this st h

theorem Class.destroyTimes_succ {σ : Type} (rt : ClassRegistry σ) (n : Nat)
    (this : LinkedClass) (st : σ) :
    Class.destroyTimes rt (n + 1) this st = Class.destroy rt this st := by
  simp only [Class.destroyTimes]
  exact Class.destroyTimes_zombie rt n _ _ (Class.destroy_clears rt this st)

/-- C26: `destroy()` on a class whose `m_cachedOffset` is zero returns with the
class and the process state as they were.  On a class with a non-zero
`m_cachedOffset` it sets `m_cachedOffset` to zero, calls `removeClass` on the
named entity of the class, releases the references (the declared interfaces
and the used traits are dropped, and the parent too unless a method slot had
to be set to null) and enqueues one `FreeClassTrigger` for the class.  A second
call changes nothing, any sequence of one or more calls leaves what the first
call leaves, and the calls recorded for a sequence of any length hold at most
one more work item for the class than before; exactly one more when the class
was installed and the sequence is not empty. -/
theorem C26_destroy_idempotent {σ : Type} (rt : ClassRegistry σ) (this : LinkedClass)
    (st : σ) :
    (this.m_cachedOffset = 0 → Class.destroy rt this st = (this, st)) ∧
    (this.m_cachedOffset ≠ 0 →
      Class.destroy rt this st =
        (Class.releaseRefs { this with m_cachedOffset := 0 },
          rt.enqueue (rt.removeClass st this.cls.m_preClass this.cls.m_self)
            ⟨this.cls.m_self⟩) ∧
      (Class.destroy rt this st).1.m_cachedOffset = 0 ∧
      (Class.destroy rt this st).1.cls.m_declInterfaces = [] ∧
      (Class.destroy rt this st).1.cls.m_usedTraits = [] ∧
      ((Class.destroy rt this st).1.cls.m_parent = none ∨
        ((Class.destroy rt this st).1.cls.m_parent = this.cls.m_parent ∧
          (Class.destroy rt this st).1.methodSlots ≠ this.methodSlots))) ∧
    Class.destroy rt (Class.destroy rt this st).1 (Class.destroy rt this st).2 =
      Class.destroy rt this st ∧
    (∀ n, Class.destroyTimes rt (n + 1) this st = Class.destroy rt this st) ∧
    (∀ (n : Nat) (calls : List RegistryCall),
      enqueuedFor this.cls.m_self (Class.destroyTimes ClassRegistry.log n this calls).2 ≤
        enqueuedFor this.cls.m_self calls + 1 ∧
      (this.m_cachedOffset ≠ 0 → 0 < n →
        enqueuedFor this.cls.m_self (Class.destroyTimes ClassRegistry.log n this calls).2 =
          enqueuedFor this.cls.m_self calls + 1)) := by
  refine ⟨Class.destroy_zombie rt this st, ?_, ?_, fun n => Class.destroyTimes_succ rt n this st, ?_⟩
  · intro h
    refine ⟨Class.destroy_installed rt this st h, Class.destroy_clears rt this st, ?_⟩
    rw [Class.destroy_installed rt this st h]
    refine ⟨by simp [Class.releaseRefs], by simp [Class.releaseRefs], ?_⟩
    cases hok : (Class.releaseRefsLoop this.cls.m_self true this.methodSlots).2 with
    | true => left; simp [Class.releaseRefs, hok]
    | false =>
      right
      refine ⟨by simp [Class.releaseRefs, hok], ?_⟩
      intro heq
      have h3 := Class.releaseRefsLoop_same this.cls.m_self this.methodSlots true
        (by simpa [Class.releaseRefs] using heq)
      rw [hok] at h3
      cases h3
  · exact Class.destroy_zombie rt _ _ (Class.destroy_clears rt this st)
  · intro n calls
    have hone : ∀ (c : List RegistryCall),
        enqueuedFor this.cls.m_self
          (c ++ [RegistryCall.removeClass this.cls.m_preClass.m_name this.cls.m_self] ++
            [RegistryCall.enqueue ⟨this.cls.m_self⟩]) = enqueuedFor this.cls.m_self c + 1 := by
      intro c
      simp [enqueuedFor, List.count_append]
    cases n with
    | zero =>
      refine ⟨Nat.le_succ _, fun _ h => absurd h (by decide)⟩
    | succ k =>
      rw [Class.destroyTimes_succ]
      by_cases h : this.m_cachedOffset = 0
      · rw [Class.destroy_zombie _ this calls h]
        exact ⟨Nat.le_succ _, fun h' => absurd h h'⟩
      · rw [Class.destroy_installed _ this calls h]
        have := hone calls
        simp only [ClassRegistry.log] at this ⊢
        exact ⟨le_of_eq this, fun _ _ => this⟩

/-- Three calls of `destroy()` on the installed class `InitC` make the two
outside calls of the first one and no more, and leave a zombie without
declared interfaces and used traits. -/
theorem destroy_examples :
    (Class.destroyTimes ClassRegistry.log 3 exInstalledC []).2 =
      [.removeClass "InitC" 91, .enqueue ⟨91⟩] ∧
    (Class.destroyTimes ClassRegistry.log 3 exInstalledC []).1.m_cachedOffset = 0 ∧
    (Class.destroyTimes ClassRegistry.log 3 exInstalledC []).1 =
      (Class.destroy ClassRegistry.log exInstalledC []).1 ∧
    Class.destroy ClassRegistry.log (LinkedClass.installed exInitC 0) [] =
      (LinkedClass.installed exInitC 0, []) :=
  ⟨rfl, rfl, rfl, rfl⟩

theorem Class.cacheAttrs_inits (parent : Option Class) (this : Class) :
    (Class.cacheAttrs parent this).m_pinitVec = this.m_pinitVec ∧
    (Class.cacheAttrs parent this).m_sinitVec = this.m_sinitVec := by
  unfold Class.cacheAttrs
  cases parent <;> simp only [] <;> split <;> simp

theorem Class.importTraitMethodsIfAny_inits {env : Env} {usedTraits : List Class} {this : Class}
    {builder : MethodMap} {r : Class × MethodMap}
    (h : Class.importTraitMethodsIfAny env usedTraits this builder = .ok r) :
    r.1.m_pinitVec = this.m_pinitVec ∧ r.1.m_sinitVec = this.m_sinitVec := by
  unfold Class.importTraitMethodsIfAny at h
  split at h
  · unfold Class.importTraitMethods at h
    cases hc : Class.traitCandidates env usedTraits this with
    | error e => simp [hc] at h
    | ok st =>
      simp only [hc] at h
      cases hl : Class.importTraitMethodsLoop env { this with m_traitAliases := st.1 } st.2
          builder with
      | error e => simp [hl] at h
      | ok b =>
        simp only [hl] at h
        injection h with h
        subst h
        exact ⟨rfl, rfl⟩
  · injection h with h
    subst h
    exact ⟨rfl, rfl⟩

theorem Class.setMethods_inits {env : Env} {parent : Option Class} {usedTraits : List Class}
    {this c : Class} (h : Class.setMethods env parent usedTraits this = .ok c) :
    c.m_pinitVec = this.m_pinitVec ∧ c.m_sinitVec = this.m_sinitVec := by
  unfold Class.setMethods at h
  cases hb : Class.buildMethods env parent usedTraits this with
  | error e => simp [hb] at h
  | ok r =>
    simp only [hb] at h
    cases hc : Class.checkConcrete r.1 r.2 with
    | error e => simp [hc] at h
    | ok u =>
      simp only [hc] at h
      injection h with h
      subst h
      unfold Class.buildMethods at hb
      cases ho : Class.addOwnMethods env this this.m_preClass.m_methods
          (Class.inheritedMethods parent).1 with
      | error e => simp [ho] at hb
      | ok builder =>
        simp only [ho] at hb
        cases hi : Class.importTraitMethodsIfAny env usedTraits
            { this with m_traitsBeginIdx := builder.size } builder with
        | error e => simp [hi] at hb
        | ok r1 =>
          simp only [hi] at hb
          injection hb with hb
          subst hb
          have := Class.importTraitMethodsIfAny_inits hi
          exact ⟨this.1, this.2⟩

/-- The initialiser vectors that a successful `newClass` leaves are those that
`setInitializers` builds from the empty vectors of the fresh class. -/
theorem Class.newClass_inits {env : Env} {self : ClassId} {pre : PreClass}
    {parent : Option Class} {cls : Class} (h : Class.newClass env self pre parent = .ok cls) :
    ∃ (usedTraits : List Class) (c6 : Class),
      Class.loadUsedTraits env pre.m_name pre.m_usedTraits = .ok usedTraits ∧
      c6.m_self = self ∧ c6.m_preClass = pre ∧ c6.m_attrCopy = pre.m_attrs ∧
      c6.m_pinitVec = [] ∧ c6.m_sinitVec = [] ∧
      cls.m_pinitVec = Class.buildPinitVec parent usedTraits c6 ∧
      cls.m_sinitVec = Class.buildSinitVec usedTraits c6 := by
  obtain ⟨usedTraits, c3, c4, c5, c6, -, h1, h2, h3, h4, h5, hcls⟩ := Class.newClass_ok h
  obtain ⟨r, -, -, -, hcore⟩ := Class.setMethods_ok h2
  obtain ⟨i1, i2⟩ := Class.setMethods_inits h2
  obtain ⟨sti, -, hc4, -⟩ := Class.setInterfaces_ok h3
  obtain ⟨b, hc5⟩ := Class.setConstants_ok h4
  obtain ⟨ps, hbp, hc6⟩ := Class.setProperties_ok h5
  obtain ⟨s1, s2, s3, s4, s5⟩ := Class.newClass_start_fields self pre parent
    (usedTraits.map (fun t => t.m_self))
  obtain ⟨k1, k2, k3, k4, k5⟩ := hcore
  have j := Class.cacheAttrs_inits parent (Class.init self pre parent (Class.newClassVecLen parent))
  refine ⟨usedTraits, c6, h1, ?_, ?_, ?_, ?_, ?_, ?_, ?_⟩
  · subst hc6 hc5 hc4; exact k1.trans s1
  · subst hc6 hc5 hc4; exact k2.trans s2
  · subst hc6 hc5 hc4; exact k5.trans s5
  · subst hc6 hc5 hc4; simp only []; rw [i1]; simpa [Class.init] using j.1
  · subst hc6 hc5 hc4; simp only []; rw [i2]; simpa [Class.init] using j.2
  · subst hcls; simp [Class.setClassVec, Class.setInitializers]
  · subst hcls; simp [Class.setClassVec, Class.setInitializers]

/-- What the inner loop of `addTraitPropInitializers` appends: entries that
were absent, each once. -/
theorem Class.addTraitInitVec_appends :
    ∀ (traitInitVec thisInitVec : List Func),
      ∃ extra, Class.addTraitInitVec traitInitVec thisInitVec = thisInitVec ++ extra ∧
        (∀ x, x ∈ extra → x ∉ thisInitVec ∧ x ∈ traitInitVec) ∧ extra.Nodup := by
  intro tv
  induction tv with
  | nil => intro acc; exact ⟨[], by simp [Class.addTraitInitVec], by simp, List.nodup_nil⟩
  | cons m rest ih =>
    intro acc
    by_cases hc : acc.contains m = true
    · obtain ⟨e, h1, h2, h3⟩ := ih acc
      refine ⟨e, by simp only [Class.addTraitInitVec, hc, if_true]; exact h1, ?_, h3⟩
      intro x hx
      exact ⟨(h2 x hx).1, List.mem_cons_of_mem _ (h2 x hx).2⟩
    · obtain ⟨e, h1, h2, h3⟩ := ih (acc ++ [m])
      have hm : m ∉ acc := by simpa using hc
      refine ⟨m :: e, ?_, ?_, ?_⟩
      · simp only [Class.addTraitInitVec, hc, Bool.false_eq_true, if_false]
        rw [h1]; simp
      · intro x hx
        rcases List.mem_cons.1 hx with rfl | hx
        · exact ⟨hm, List.mem_cons_self _ _⟩
        · exact ⟨fun hin => (h2 x hx).1 (List.mem_append_left _ hin),
            List.mem_cons_of_mem _ (h2 x hx).2⟩
      · refine List.nodup_cons.2 ⟨?_, h3⟩
        intro hin
        exact (h2 m hin).1 (by simp)

/-- For a trait vector without repetitions the inner loop appends the entries
that are absent from the vector of the class. -/
theorem Class.addTraitInitVec_filter :
    ∀ (traitInitVec thisInitVec : List Func), traitInitVec.Nodup →
      Class.addTraitInitVec traitInitVec thisInitVec =
        thisInitVec ++ traitInitVec.filter (fun m => !thisInitVec.contains m) := by
  intro tv
  induction tv with
  | nil => intro acc _; simp [Class.addTraitInitVec]
  | cons m rest ih =>
    intro acc hnd
    obtain ⟨hm, hrest⟩ := List.nodup_cons.1 hnd
    by_cases hc : acc.contains m = true
    · simp only [Class.addTraitInitVec, hc, if_true]
      have hm' : m ∈ acc := by simpa using hc
      rw [ih acc hrest, List.filter_cons]
      simp [hm']
    · simp only [Class.addTraitInitVec, hc, Bool.false_eq_true, if_false]
      rw [ih (acc ++ [m]) hrest, List.filter_cons]
      have hcf : acc.contains m = false := by simpa using hc
      simp only [hcf, Bool.not_false, if_true, List.append_assoc, List.singleton_append]
      congr 2
      apply List.filter_congr
      intro x hx
      have hxm : x ≠ m := fun h => hm (h ▸ hx)
      simp [hxm]

theorem Class.addTraitPropInitializersLoop_appends (staticProps : Bool) :
    ∀ (usedTraits : List Class) (thisInitVec : List Func),
      ∃ extra, Class.addTraitPropInitializersLoop staticProps usedTraits thisInitVec =
          thisInitVec ++ extra ∧
        (∀ x, x ∈ extra → x ∉ thisInitVec ∧
          ∃ t, t ∈ usedTraits ∧ x ∈ (if staticProps then t.m_sinitVec else t.m_pinitVec)) ∧
        extra.Nodup := by
  intro ts
  induction ts with
  | nil =>
    intro acc
    exact ⟨[], by simp [Class.addTraitPropInitializersLoop], by simp, List.nodup_nil⟩
  | cons t rest ih =>
    intro acc
    obtain ⟨e1, h1, h2, h3⟩ := Class.addTraitInitVec_appends
      (if staticProps then t.m_sinitVec else t.m_pinitVec) acc
    obtain ⟨e2, k1, k2, k3⟩ := ih (acc ++ e1)
    refine ⟨e1 ++ e2, ?_, ?_, ?_⟩
    · simp only [Class.addTraitPropInitializersLoop]
      rw [h1, k1, List.append_assoc]
    · intro x hx
      rcases List.mem_append.1 hx with hx | hx
      · exact ⟨(h2 x hx).1, t, List.mem_cons_self _ _, (h2 x hx).2⟩
      · obtain ⟨t', ht', hxt'⟩ := (k2 x hx).2
        exact ⟨fun hin => (k2 x hx).1 (List.mem_append_left _ hin), t',
          List.mem_cons_of_mem _ ht', hxt'⟩
    · refine List.nodup_append.2 ⟨h3, k3, ?_⟩
      intro x hx1 hx2
      exact (k2 x hx2).1 (List.mem_append_right _ hx1)

theorem Class.addTraitPropInitializersLoop_spec (staticProps : Bool) :
    ∀ (usedTraits : List Class) (thisInitVec : List Func),
      (∀ t, t ∈ usedTraits → (if staticProps then t.m_sinitVec else t.m_pinitVec).Nodup) →
      Class.addTraitPropInitializersLoop staticProps usedTraits thisInitVec =
        List.foldl
          (fun chain traitChain => chain ++ traitChain.filter (fun m => !chain.contains m))
          thisInitVec
          (usedTraits.map (fun t => if staticProps then t.m_sinitVec else t.m_pinitVec)) := by
  intro ts
  induction ts with
  | nil => intro acc _; simp [Class.addTraitPropInitializersLoop]
  | cons t rest ih =>
    intro acc hnd
    simp only [Class.addTraitPropInitializersLoop, List.map_cons, List.foldl_cons]
    rw [Class.addTraitInitVec_filter _ _ (hnd t (List.mem_cons_self _ _))]
    exact ih _ (fun t' ht' => hnd t' (List.mem_cons_of_mem _ ht'))

/-- The vector that `addTraitPropInitializers` leaves: the vector it found, and
after it entries that were absent, each once; none for a class with
`AttrNoExpandTrait`. -/
theorem Class.addTraitPropInitializers_appends (usedTraits : List Class) (staticProps : Bool)
    (this : Class) (thisInitVec : List Func) :
    ∃ extra, Class.addTraitPropInitializers usedTraits staticProps this thisInitVec =
        thisInitVec ++ extra ∧
      (∀ x, x ∈ extra → x ∉ thisInitVec ∧
        ∃ t, t ∈ usedTraits ∧ x ∈ (if staticProps then t.m_sinitVec else t.m_pinitVec)) ∧
      extra.Nodup ∧
      (hasAttr this.attrs AttrNoExpandTrait = true → extra = []) := by
  unfold Class.addTraitPropInitializers
  by_cases hn : hasAttr this.attrs AttrNoExpandTrait = true
  · exact ⟨[], by simp [hn], by simp, List.nodup_nil, fun _ => rfl⟩
  · obtain ⟨e, h1, h2, h3⟩ :=
      Class.addTraitPropInitializersLoop_appends staticProps usedTraits thisInitVec
    exact ⟨e, by simp [hn, h1], h2, h3, fun h => absurd h hn⟩

theorem findSpecialMethod_congr (a b : Class) (name : String) (h1 : a.m_self = b.m_self)
    (h2 : a.m_preClass = b.m_preClass) : findSpecialMethod a name = findSpecialMethod b name := by
  simp [findSpecialMethod, h1, h2]

/-- The instance vector of a linked class: the vector of the parent, the own
`86pinit`, and what `addTraitPropInitializers` adds. -/
theorem Class.newClass_pinitVec {env : Env} {self : ClassId} {pre : PreClass}
    {parent : Option Class} {cls : Class} (h : Class.newClass env self pre parent = .ok cls) :
    ∃ (usedTraits : List Class) (c6 : Class),
      Class.loadUsedTraits env pre.m_name pre.m_usedTraits = .ok usedTraits ∧
      c6.attrs = pre.m_attrs ∧
      cls.m_pinitVec = Class.addTraitPropInitializers usedTraits false c6
        (Class.parentPinitVec parent ++
          (findSpecialMethod (Class.init self pre parent (Class.newClassVecLen parent))
            sd86pinit).toList) := by
  obtain ⟨usedTraits, c6, h1, h2, h3, h4, h5, h6, h7, h8⟩ := Class.newClass_inits h
  refine ⟨usedTraits, c6, h1, h4, ?_⟩
  rw [h7]
  unfold Class.buildPinitVec
  rw [findSpecialMethod_congr c6 (Class.init self pre parent (Class.newClassVecLen parent))
    sd86pinit (by simp [h2, Class.init]) (by simp [h3, Class.init]), h5]
  cases parent <;>
    cases findSpecialMethod (Class.init self pre _ (Class.newClassVecLen _)) sd86pinit <;>
    simp [Class.parentPinitVec]

/-- The static vector of a linked class: the own `86sinit`, and what
`addTraitPropInitializers` adds. -/
theorem Class.newClass_sinitVec {env : Env} {self : ClassId} {pre : PreClass}
    {parent : Option Class} {cls : Class} (h : Class.newClass env self pre parent = .ok cls) :
    ∃ (usedTraits : List Class) (c6 : Class),
      Class.loadUsedTraits env pre.m_name pre.m_usedTraits = .ok usedTraits ∧
      c6.attrs = pre.m_attrs ∧
      cls.m_sinitVec = Class.addTraitPropInitializers usedTraits true c6
        (findSpecialMethod (Class.init self pre parent (Class.newClassVecLen parent))
            sd86sinit).toList := by
  obtain ⟨usedTraits, c6, h1, h2, h3, h4, h5, h6, h7, h8⟩ := Class.newClass_inits h
  refine ⟨usedTraits, c6, h1, h4, ?_⟩
  rw [h8]
  unfold Class.buildSinitVec
  rw [findSpecialMethod_congr c6 (Class.init self pre parent (Class.newClassVecLen parent))
    sd86sinit (by simp [h2, Class.init]) (by simp [h3, Class.init]), h6]
  cases findSpecialMethod (Class.init self pre parent (Class.newClassVecLen parent)) sd86sinit <;>
    simp

theorem findSpecialMethod_cls {cls : Class} {name : String} {f : Func}
    (h : findSpecialMethod cls name = some f) : f.m_cls = some cls.m_self := by
  unfold findSpecialMethod at h
  split at h
  · cases h
  · cases hl : cls.m_preClass.lookupMethod name with
    | none => simp [hl] at h
    | some g =>
      simp only [hl, Option.some.injEq] at h
      subst h
      simp [Func.clone, Func.setBaseCls, Func.setHasPrivateAncestor]

theorem Class.invokedInits_prefix (ec : ExecutionContext) (this : Class) :
    ∀ (l : List Func) (a : PropArray), Class.invokedInits ec this l a <+: l := by
  intro l
  induction l with
  | nil => intro a; simp [Class.invokedInits]
  | cons f rest ih =>
    intro a
    unfold Class.invokedInits
    cases hf : ec.invokeFunc f this.m_self a with
    | error e => simp
    | ok a1 =>
      simp only []
      exact (List.prefix_cons_inj f).2 (ih a1)

theorem Class.invokedInits_ok (ec : ExecutionContext) (this : Class) :
    ∀ (l : List Func) (a r : PropArray), Class.invokeInits ec this l a = .ok r →
      Class.invokedInits ec this l a = l := by
  intro l
  induction l with
  | nil => intro a r _; simp [Class.invokedInits]
  | cons f rest ih =>
    intro a r h
    unfold Class.invokeInits at h
    unfold Class.invokedInits
    cases hf : ec.invokeFunc f this.m_self a with
    | error e => simp [hf] at h
    | ok a1 =>
      simp only [hf] at h
      simp only []
      rw [ih a1 r h]

/-- The calls of the loop on a list with a marked entry: either the loop ends
before it reaches the marked entry, or it calls everything before the entry,
then the entry, and then goes on in what follows it. -/
theorem Class.invokedInits_split (ec : ExecutionContext) (this : Class) (x : Func)
    (l2 : List Func) :
    ∀ (l1 : List Func) (a : PropArray),
      Class.invokedInits ec this (l1 ++ x :: l2) a <+: l1 ∨
      ∃ rest, Class.invokedInits ec this (l1 ++ x :: l2) a = l1 ++ x :: rest ∧ rest <+: l2 := by
  intro l1
  induction l1 with
  | nil =>
    intro a
    right
    simp only [List.nil_append]
    unfold Class.invokedInits
    cases hf : ec.invokeFunc x this.m_self a with
    | error e => exact ⟨[], rfl, List.nil_prefix⟩
    | ok a1 => exact ⟨_, rfl, Class.invokedInits_prefix ec this l2 a1⟩
  | cons y l1 ih =>
    intro a
    simp only [List.cons_append]
    unfold Class.invokedInits
    cases hf : ec.invokeFunc y this.m_self a with
    | error e =>
      left
      simp only []
      exact (List.prefix_cons_inj y).2 List.nil_prefix
    | ok a1 =>
      simp only []
      rcases ih a1 with hp | ⟨rest, hr, hp⟩
      · left
        exact (List.prefix_cons_inj y).2 hp
      · right
        exact ⟨rest, by rw [hr], hp⟩

theorem Class.initPropsCalls_ok (ec : ExecutionContext) (this : Class) (st : RequestState)
    (propVec : List TypedValueAux) (h : (Class.initPropsImpl ec this st).1 = .ok propVec) :
    Class.initPropsCalls ec this = this.m_pinitVec.reverse := by
  unfold Class.initPropsImpl at h
  unfold Class.initPropsCalls
  cases ha : Class.pinitArray (TypedValue.obj ec.pinitSentinel) this.m_declProperties.m_list
      this.m_declPropInit [] with
  | error e => simp [ha] at h
  | ok arg0 =>
    simp only [ha] at h ⊢
    cases hi : Class.invokeInits ec this this.m_pinitVec.reverse arg0 with
    | error e => simp [hi] at h
    | ok r => exact Class.invokedInits_ok ec this _ _ r hi

/-- C28 (refuted as written): `InitC` extends `InitP` and both have an
`86pinit`; `initPropsImpl` of `InitC` calls the routine of `InitC` first and
the routine of `InitP`, the parent, after it, as the log that the routines
keep shows too. -/
theorem C28_counterexample :
    Class.newClass envInitP 91 preInitC (some exInitP) = .ok exInitC ∧
    exInitP.m_pinitVec = [exPinitP] ∧
    exInitC.m_pinitVec = [exPinitP, exPinitC] ∧
    Class.initPropsCalls exLogEC exInitC = [exPinitC, exPinitP] ∧
    (Class.initPropsCalls exLogEC exInitC).indexOf exPinitC <
      (Class.initPropsCalls exLogEC exInitC).indexOf exPinitP ∧
    (Class.initPropsImpl exLogEC exInitC RequestState.fresh).1 =
      .ok [⟨.staticStr "InitC;InitP;", false⟩, ⟨.null, false⟩] :=
  ⟨rfl, rfl, rfl, rfl, by decide, rfl⟩

/-- C28 (amended): during the lazy initialisation of the instance properties
the routines of the chain are called from the end of the chain to its start,
descendants first and ancestors last: for a class with a parent and an own
`86pinit`, the calls are first the routines that came from the traits, then
the own routine, then the routines of the chain of the parent from its end to
its start.  The loop ends with the first routine that raises, so the calls are
either only routines from the traits, none of which is in the chain of the
parent, or they go through the own routine before any routine of the parent;
when `initPropsImpl` returns a vector, all of them were called. -/
theorem C28_own_hook_first (env : Env) (self : ClassId) (pre : PreClass) (p cls : Class)
    (own : Func) (ec : ExecutionContext)
    (h : Class.newClass env self pre (some p) = .ok cls)
    (hown : findSpecialMethod (Class.init self pre (some p) (Class.newClassVecLen (some p)))
      sd86pinit = some own) :
    ∃ fromTraits,
      cls.m_pinitVec.reverse = fromTraits ++ own :: p.m_pinitVec.reverse ∧
      (∀ g, g ∈ fromTraits → g ∉ p.m_pinitVec ∧ g ≠ own) ∧
      (Class.initPropsCalls ec cls <+: fromTraits ∨
        ∃ rest, Class.initPropsCalls ec cls = fromTraits ++ own :: rest ∧
          rest <+: p.m_pinitVec.reverse) ∧
      (∀ st propVec, (Class.initPropsImpl ec cls st).1 = .ok propVec →
        Class.initPropsCalls ec cls = fromTraits ++ own :: p.m_pinitVec.reverse) := by
  obtain ⟨ts, c6, -, -, hvec⟩ := Class.newClass_pinitVec h
  rw [hown] at hvec
  obtain ⟨extra, e1, e2, -, -⟩ :=
    Class.addTraitPropInitializers_appends ts false c6
      (Class.parentPinitVec (some p) ++ (some own).toList)
  rw [e1] at hvec
  have hrev : cls.m_pinitVec.reverse = extra.reverse ++ own :: p.m_pinitVec.reverse := by
    rw [hvec]
    simp [Class.parentPinitVec]
  refine ⟨extra.reverse, hrev, ?_, ?_, ?_⟩
  · intro g hg
    have hg' := (e2 g (List.mem_reverse.1 hg)).1
    simp only [Class.parentPinitVec, Option.toList, List.mem_append, List.mem_singleton,
      not_or] at hg'
    exact hg'
  · unfold Class.initPropsCalls
    cases ha : Class.pinitArray (TypedValue.obj ec.pinitSentinel) cls.m_declProperties.m_list
        cls.m_declPropInit [] with
    | error e => left; exact List.nil_prefix
    | ok arg0 =>
      simp only []
      rw [hrev]
      exact Class.invokedInits_split ec cls own p.m_pinitVec.reverse extra.reverse arg0
  · intro st propVec hok
    rw [Class.initPropsCalls_ok ec cls st propVec hok, hrev]

/-- Witness of C28: for `InitC`, which extends `InitP`, nothing comes from
traits, and the calls are the routine of `InitC` and then that of `InitP`. -/
theorem C28_own_hook_first_witness :
    Class.newClass envInitP 91 preInitC (some exInitP) = .ok exInitC ∧
    findSpecialMethod (Class.init 91 preInitC (some exInitP)
      (Class.newClassVecLen (some exInitP))) sd86pinit = some exPinitC ∧
    ∃ fromTraits,
      exInitC.m_pinitVec.reverse = fromTraits ++ exPinitC :: exInitP.m_pinitVec.reverse ∧
      (∀ g, g ∈ fromTraits → g ∉ exInitP.m_pinitVec ∧ g ≠ exPinitC) ∧
      (Class.initPropsCalls exLogEC exInitC <+: fromTraits ∨
        ∃ rest, Class.initPropsCalls exLogEC exInitC = fromTraits ++ exPinitC :: rest ∧
          rest <+: exInitP.m_pinitVec.reverse) ∧
      (∀ st propVec, (Class.initPropsImpl exLogEC exInitC st).1 = .ok propVec →
        Class.initPropsCalls exLogEC exInitC =
          fromTraits ++ exPinitC :: exInitP.m_pinitVec.reverse) :=
  ⟨rfl, rfl, C28_own_hook_first envInitP 91 preInitC exInitP exInitC exPinitC exLogEC rfl rfl⟩

/-- C29 (refuted as written): `InitC` extends `InitP`, both have an `86sinit`;
the static chain of `InitC` holds its own routine only, not the chain of the
parent before it.  And `Flat`, which has `AttrNoExpandTrait`, takes nothing
from the static chain of the trait `TInit` that it uses. -/
theorem C29_counterexample :
    Class.newClass envInitP 91 preInitC (some exInitP) = .ok exInitC ∧
    exInitP.m_sinitVec = [exSinitP] ∧
    findSpecialMethod (Class.init 91 preInitC (some exInitP)
      (Class.newClassVecLen (some exInitP))) sd86sinit = some exSinitC ∧
    specInitChain exInitP.m_sinitVec (some exSinitC) [] = [exSinitP, exSinitC] ∧
    exInitC.m_sinitVec = [exSinitC] ∧
    exInitC.m_sinitVec ≠ specInitChain exInitP.m_sinitVec (some exSinitC) [] ∧
    Class.newClass envTInit 93 preFlat none = .ok exFlat ∧
    Class.loadUsedTraits envTInit preFlat.m_name preFlat.m_usedTraits = .ok [exTInit] ∧
    exTInit.m_sinitVec = [exSinitT] ∧
    exFlat.m_sinitVec = [] ∧
    exFlat.m_sinitVec ≠ specInitChain [] none [exTInit.m_sinitVec] :=
  ⟨rfl, rfl, rfl, rfl, rfl, by decide, rfl, rfl, rfl, rfl, by decide⟩

/-- C29 (amended): the static initialiser chain of a linked class does not
start with the static chain of the parent: it is the own `86sinit` if the
declaration has one, and then, unless the class has `AttrNoExpandTrait`, for
each used trait in order the entries of its static chain that are not yet
present; for a class with `AttrNoExpandTrait` nothing is taken from the
traits.  So every routine of the chain is the own one or comes from the chain
of a used trait, and the chain has no repetition. -/
theorem C29_sinit_chain (env : Env) (self : ClassId) (pre : PreClass) (parent : Option Class)
    (cls : Class) (usedTraits : List Class)
    (h : Class.newClass env self pre parent = .ok cls)
    (hl : Class.loadUsedTraits env pre.m_name pre.m_usedTraits = .ok usedTraits) :
    (hasAttr pre.m_attrs AttrNoExpandTrait = true →
      cls.m_sinitVec =
        specInitChain []
          (findSpecialMethod (Class.init self pre parent (Class.newClassVecLen parent))
            sd86sinit) []) ∧
    (hasAttr pre.m_attrs AttrNoExpandTrait = false →
      (∀ t, t ∈ usedTraits → t.m_sinitVec.Nodup) →
      cls.m_sinitVec =
        specInitChain []
          (findSpecialMethod (Class.init self pre parent (Class.newClassVecLen parent))
            sd86sinit)
          (usedTraits.map (fun t => t.m_sinitVec))) ∧
    (∀ f, f ∈ cls.m_sinitVec →
      findSpecialMethod (Class.init self pre parent (Class.newClassVecLen parent))
          sd86sinit = some f ∨
        ∃ t, t ∈ usedTraits ∧ f ∈ t.m_sinitVec) ∧
    cls.m_sinitVec.Nodup := by
  obtain ⟨ts, c6, h1, hattr, hvec⟩ := Class.newClass_sinitVec h
  rw [hl] at h1
  injection h1 with h1
  subst h1
  generalize findSpecialMethod (Class.init self pre parent (Class.newClassVecLen parent))
      sd86sinit = own at hvec ⊢
  obtain ⟨extra, e1, e2, e3, e4⟩ :=
    Class.addTraitPropInitializers_appends usedTraits true c6 own.toList
  refine ⟨?_, ?_, ?_, ?_⟩
  · intro hn
    rw [hvec, e1, e4 (by rw [hattr]; exact hn)]
    simp [specInitChain]
  · intro hn hnd
    rw [hvec]
    unfold Class.addTraitPropInitializers
    rw [hattr, hn]
    simp only [Bool.false_eq_true, if_false]
    rw [Class.addTraitPropInitializersLoop_spec true usedTraits _
      (fun t ht => by simpa using hnd t ht)]
    simp [specInitChain]
  · intro f hf
    rw [hvec, e1] at hf
    rcases List.mem_append.1 hf with hf | hf
    · left
      cases own with
      | none => simp at hf
      | some g =>
        have : f = g := by simpa using hf
        rw [this]
    · right
      obtain ⟨t, ht, hft⟩ := (e2 f hf).2
      exact ⟨t, ht, by simpa using hft⟩
  · rw [hvec, e1]
    refine List.nodup_append.2 ⟨?_, e3, ?_⟩
    · cases own <;> simp
    · intro x hx1 hx2
      exact (e2 x hx2).1 hx1

/-- Witness of C29: `UseT` extends `InitP`, which has an `86sinit`, has none of
its own and uses the trait `TInit`; its static chain is the routine of `TInit`
alone. -/
theorem C29_sinit_chain_witness :
    Class.newClass envTInit 94 preUseT (some exInitP) = .ok exUseT ∧
    exInitP.m_sinitVec = [exSinitP] ∧
    exUseT.m_sinitVec = specInitChain [] none [exTInit.m_sinitVec] ∧
    exUseT.m_sinitVec = [exSinitT] ∧
    exUseT.m_sinitVec.Nodup :=
  ⟨rfl, rfl,
   (C29_sinit_chain envTInit 94 preUseT (some exInitP) exUseT [exTInit] rfl rfl).2.1 rfl
     (by decide),
   rfl,
   (C29_sinit_chain envTInit 94 preUseT (some exInitP) exUseT [exTInit] rfl rfl).2.2.2⟩

/-- C30 (refuted as written): the class `Flat` has `AttrNoExpandTrait` and uses
the trait `TInit`, whose instance chain holds one routine that is not in the
chain of `Flat`; the chain that the claim describes holds that routine, the
chain of the linked class is empty. -/
theorem C30_counterexample :
    Class.newClass envTInit 93 preFlat none = .ok exFlat ∧
    Class.loadUsedTraits envTInit preFlat.m_name preFlat.m_usedTraits = .ok [exTInit] ∧
    exTInit.m_pinitVec = [exPinitT] ∧
    findSpecialMethod (Class.init 93 preFlat none (Class.newClassVecLen none)) sd86pinit = none ∧
    specInitChain [] none [exTInit.m_pinitVec] = [exPinitT] ∧
    exFlat.m_pinitVec = [] ∧
    exFlat.m_pinitVec ≠ specInitChain [] none [exTInit.m_pinitVec] :=
  ⟨rfl, rfl, rfl, rfl, by decide, rfl, by decide⟩

/-- C30 (amended): the instance initialiser chain of a linked class is the
chain of the parent (empty without a parent), then the own `86pinit` if the
declaration has one, and then, unless the class has `AttrNoExpandTrait`, for
each used trait in order the entries of its chain that are not yet present;
for a class with `AttrNoExpandTrait` nothing is taken from the traits.  The
chain of the parent is a prefix of it, and it has no repetition when the chain
of the parent has none and no routine of that chain belongs to the address of
the new class (the own routine is a fresh copy bound to that address). -/
theorem C30_pinit_chain (env : Env) (self : ClassId) (pre : PreClass) (parent : Option Class)
    (cls : Class) (usedTraits : List Class)
    (h : Class.newClass env self pre parent = .ok cls)
    (hl : Class.loadUsedTraits env pre.m_name pre.m_usedTraits = .ok usedTraits) :
    (hasAttr pre.m_attrs AttrNoExpandTrait = true →
      cls.m_pinitVec =
        specInitChain (Class.parentPinitVec parent)
          (findSpecialMethod (Class.init self pre parent (Class.newClassVecLen parent))
            sd86pinit) []) ∧
    (hasAttr pre.m_attrs AttrNoExpandTrait = false →
      (∀ t, t ∈ usedTraits → t.m_pinitVec.Nodup) →
      cls.m_pinitVec =
        specInitChain (Class.parentPinitVec parent)
          (findSpecialMethod (Class.init self pre parent (Class.newClassVecLen parent))
            sd86pinit)
          (usedTraits.map (fun t => t.m_pinitVec))) ∧
    Class.parentPinitVec parent <+: cls.m_pinitVec ∧
    ((Class.parentPinitVec parent).Nodup →
      (∀ g, g ∈ Class.parentPinitVec parent → g.m_cls ≠ some self) →
      cls.m_pinitVec.Nodup) := by
  obtain ⟨ts, c6, h1, hattr, hvec⟩ := Class.newClass_pinitVec h
  rw [hl] at h1
  injection h1 with h1
  subst h1
  generalize hpc : Class.parentPinitVec parent = parentChain at hvec ⊢
  have hself : (Class.init self pre parent (Class.newClassVecLen parent)).m_self = self := by
    simp [Class.init]
  generalize hown : findSpecialMethod (Class.init self pre parent (Class.newClassVecLen parent))
      sd86pinit = own at hvec ⊢
  obtain ⟨extra, e1, e2, e3, e4⟩ :=
    Class.addTraitPropInitializers_appends usedTraits false c6 (parentChain ++ own.toList)
  refine ⟨?_, ?_, ?_, ?_⟩
  · intro hn
    rw [hvec, e1, e4 (by rw [hattr]; exact hn)]
    simp [specInitChain]
  · intro hn hnd
    rw [hvec]
    unfold Class.addTraitPropInitializers
    rw [hattr, hn]
    simp only [Bool.false_eq_true, if_false]
    rw [Class.addTraitPropInitializersLoop_spec false usedTraits _
      (fun t ht => by simpa using hnd t ht)]
    simp [specInitChain]
  · rw [hvec, e1, List.append_assoc]
    exact List.prefix_append _ _
  · intro hnd hfresh
    rw [hvec, e1]
    refine List.nodup_append.2 ⟨?_, e3, ?_⟩
    · cases own with
      | none => simpa using hnd
      | some f =>
        have hf : f.m_cls = some self := by
          have := findSpecialMethod_cls hown
          rwa [hself] at this
        refine List.nodup_append.2 ⟨hnd, by simp, ?_⟩
        intro x hx1 hx2
        have hxf : x = f := by simpa using hx2
        subst hxf
        exact hfresh x hx1 hf
    · intro x hx1 hx2
      exact (e2 x hx2).1 hx1

/-- Witness of C30: the class `UseT` extends `InitP`, has its own `86pinit` and
uses the trait `TInit`; its chain is the routine of `InitP`, its own, and the
routine of `TInit`. -/
theorem C30_pinit_chain_witness :
    Class.newClass envTInit 94 preUseT (some exInitP) = .ok exUseT ∧
    exUseT.m_pinitVec = specInitChain exInitP.m_pinitVec (some exPinitU) [exTInit.m_pinitVec] ∧
    exUseT.m_pinitVec = [exPinitP, exPinitU, exPinitT] ∧
    exInitP.m_pinitVec <+: exUseT.m_pinitVec ∧
    exUseT.m_pinitVec.Nodup :=
  ⟨rfl,
   (C30_pinit_chain envTInit 94 preUseT (some exInitP) exUseT [exTInit] rfl rfl).2.1 rfl
     (by decide),
   rfl,
   (C30_pinit_chain envTInit 94 preUseT (some exInitP) exUseT [exTInit] rfl rfl).2.2.1,
   (C30_pinit_chain envTInit 94 preUseT (some exInitP) exUseT [exTInit] rfl rfl).2.2.2
     (by decide) (by decide)⟩

theorem Class.eraseSpareAbstract_some (l : TraitMethodList) (b : Bool) :
    Class.eraseSpareAbstract true l b =
      l.filter (fun tm => !hasAttr tm.m_modifiers AttrAbstract) := by
  induction l generalizing b with
  | nil => rfl
  | cons tm rest ih =>
    by_cases ha : hasAttr tm.m_modifiers AttrAbstract = true
    · simp [Class.eraseSpareAbstract, ha, ih]
    · simp [Class.eraseSpareAbstract, ha, ih]

theorem Class.eraseSpareAbstract_rest (l : TraitMethodList)
    (hall : ∀ tm, tm ∈ l → hasAttr tm.m_modifiers AttrAbstract = true) :
    Class.eraseSpareAbstract false l false = [] := by
  induction l with
  | nil => rfl
  | cons tm rest ih =>
    have ha := hall tm (List.mem_cons_self _ _)
    simp [Class.eraseSpareAbstract, ha, ih (fun t ht => hall t (List.mem_cons_of_mem _ ht))]

theorem Class.eraseSpareAbstract_first (l : TraitMethodList)
    (hall : ∀ tm, tm ∈ l → hasAttr tm.m_modifiers AttrAbstract = true) :
    Class.eraseSpareAbstract false l true = l.take 1 := by
  cases l with
  | nil => rfl
  | cons tm rest =>
    have ha := hall tm (List.mem_cons_self _ _)
    simp [Class.eraseSpareAbstract, ha,
      Class.eraseSpareAbstract_rest rest (fun t ht => hall t (List.mem_cons_of_mem _ ht))]

/-- What the pruning makes of one candidate list: with a candidate that is not
abstract, the candidates that are not abstract; otherwise the first
candidate. -/
theorem Class.removeSpareAbstractInList_spec (l : TraitMethodList) :
    Class.removeSpareAbstractInList l =
      if l.any (fun tm => !hasAttr tm.m_modifiers AttrAbstract) then
        l.filter (fun tm => !hasAttr tm.m_modifiers AttrAbstract)
      else l.take 1 := by
  unfold Class.removeSpareAbstractInList
  by_cases hany : l.any (fun tm => !hasAttr tm.m_modifiers AttrAbstract) = true
  · simp only [hany, Bool.true_or, if_true]
    exact Class.eraseSpareAbstract_some l true
  · have hall : ∀ tm, tm ∈ l → hasAttr tm.m_modifiers AttrAbstract = true := by
      intro tm htm
      by_contra hc
      exact hany (List.any_eq_true.2 ⟨tm, htm, by simpa using hc⟩)
    have hany' : l.any (fun tm => !hasAttr tm.m_modifiers AttrAbstract) = false := by
      simpa using hany
    simp only [hany', Bool.false_or, Bool.false_eq_true, if_false]
    by_cases hc : List.countP (fun tm => hasAttr tm.m_modifiers AttrAbstract) l > 1
    · simp only [hc, decide_True, if_true]
      exact Class.eraseSpareAbstract_first l hall
    · simp only [hc, decide_False, Bool.false_eq_true, if_false]
      have hlen : List.countP (fun tm => hasAttr tm.m_modifiers AttrAbstract) l = l.length :=
        List.countP_eq_length.2 (fun tm htm => hall tm htm)
      rw [hlen] at hc
      cases l with
      | nil => rfl
      | cons a rest =>
        cases rest with
        | nil => rfl
        | cons b r => simp at hc

/-- C33: after `removeSpareTraitAbstractMethods`, the candidate list of every
method name is the pruned list it had before: if the list had a candidate that
is not abstract, the result holds no abstract candidate and is the list of the
candidates that are not abstract, in their order; if the list had abstract
candidates only, the first of them remains alone; an empty list stays empty;
a name without a list has none afterwards.  Pruning a pruned map changes
nothing. -/
theorem C33_abstract_pruning (m : MethodToTraitListMap) (name : String) :
    (MethodToTraitListMap.find (Class.removeSpareTraitAbstractMethods m) name =
      (MethodToTraitListMap.find m name).map Class.removeSpareAbstractInList) ∧
    (∀ l : TraitMethodList,
      ((∃ tm, tm ∈ l ∧ hasAttr tm.m_modifiers AttrAbstract = false) →
        Class.removeSpareAbstractInList l =
            l.filter (fun tm => !hasAttr tm.m_modifiers AttrAbstract) ∧
          (∀ tm, tm ∈ Class.removeSpareAbstractInList l →
            hasAttr tm.m_modifiers AttrAbstract = false) ∧
          (∀ tm, tm ∈ l → hasAttr tm.m_modifiers AttrAbstract = false →
            tm ∈ Class.removeSpareAbstractInList l) ∧
          (Class.removeSpareAbstractInList l).Sublist l) ∧
      (∀ first rest, l = first :: rest →
        (∀ tm, tm ∈ l → hasAttr tm.m_modifiers AttrAbstract = true) →
        Class.removeSpareAbstractInList l = [first]) ∧
      (l = [] → Class.removeSpareAbstractInList l = []) ∧
      Class.removeSpareAbstractInList (Class.removeSpareAbstractInList l) =
        Class.removeSpareAbstractInList l) ∧
    Class.removeSpareTraitAbstractMethods (Class.removeSpareTraitAbstractMethods m) =
      Class.removeSpareTraitAbstractMethods m := by
  have hidem : ∀ l : TraitMethodList,
      Class.removeSpareAbstractInList (Class.removeSpareAbstractInList l) =
        Class.removeSpareAbstractInList l := by
    intro l
    rw [Class.removeSpareAbstractInList_spec l]
    by_cases hany : l.any (fun tm => !hasAttr tm.m_modifiers AttrAbstract) = true
    · simp only [hany, if_true]
      rw [Class.removeSpareAbstractInList_spec]
      obtain ⟨tm, htm, hna⟩ := List.any_eq_true.1 hany
      have hany2 : (l.filter (fun tm => !hasAttr tm.m_modifiers AttrAbstract)).any
          (fun tm => !hasAttr tm.m_modifiers AttrAbstract) = true :=
        List.any_eq_true.2 ⟨tm, List.mem_filter.2 ⟨htm, hna⟩, hna⟩
      simp only [hany2, if_true, List.filter_filter, Bool.and_self]
    · simp only [hany, Bool.false_eq_true, if_false]
      rw [Class.removeSpareAbstractInList_spec]
      have hany2 : (l.take 1).any (fun tm => !hasAttr tm.m_modifiers AttrAbstract) = false := by
        rw [Bool.eq_false_iff]
        intro h2
        obtain ⟨tm, htm, hna⟩ := List.any_eq_true.1 h2
        exact hany (List.any_eq_true.2 ⟨tm, List.mem_of_mem_take htm, hna⟩)
      simp only [hany2, Bool.false_eq_true, if_false, List.take_take, Nat.min_self]
  refine ⟨Class.find_removeSpare m name, ?_, ?_⟩
  · intro l
    refine ⟨?_, ?_, ?_, hidem l⟩
    · rintro ⟨tm, htm, hna⟩
      have hany : l.any (fun tm => !hasAttr tm.m_modifiers AttrAbstract) = true :=
        List.any_eq_true.2 ⟨tm, htm, by simp [hna]⟩
      have heq : Class.removeSpareAbstractInList l =
          l.filter (fun tm => !hasAttr tm.m_modifiers AttrAbstract) := by
        rw [Class.removeSpareAbstractInList_spec, if_pos hany]
      refine ⟨heq, ?_, ?_, ?_⟩
      · intro t ht
        rw [heq] at ht
        simpa using (List.mem_filter.1 ht).2
      · intro t ht hta
        rw [heq]
        exact List.mem_filter.2 ⟨ht, by simp [hta]⟩
      · rw [heq]
        exact List.filter_sublist _
    · intro first rest hl hall
      have hany : l.any (fun tm => !hasAttr tm.m_modifiers AttrAbstract) = false := by
        rw [Bool.eq_false_iff]
        intro h2
        obtain ⟨tm, htm, hna⟩ := List.any_eq_true.1 h2
        rw [hall tm htm] at hna
        cases hna
      rw [Class.removeSpareAbstractInList_spec, hany, hl]
      rfl
    · intro hl
      rw [hl]
      rfl
  · unfold Class.removeSpareTraitAbstractMethods
    rw [List.map_map]
    apply List.map_congr_left
    intro e _
    simp only [Function.comp]
    rw [hidem]

/-- Pruning at work: an abstract candidate next to one that is not abstract
goes; of two abstract candidates the first stays. -/
theorem removeSpareAbstract_examples :
    Class.removeSpareAbstractInList
        [⟨exTraitA, exTraitAFoo, AttrPublic ||| AttrAbstract⟩, ⟨exTraitB, exTraitBFoo, AttrPublic⟩]
      = [⟨exTraitB, exTraitBFoo, AttrPublic⟩] ∧
    Class.removeSpareAbstractInList
        [⟨exTraitA, exTraitAFoo, AttrPublic ||| AttrAbstract⟩,
         ⟨exTraitB, exTraitBFoo, AttrPublic ||| AttrAbstract⟩]
      = [⟨exTraitA, exTraitAFoo, AttrPublic ||| AttrAbstract⟩] :=
  ⟨by decide, by decide⟩

theorem Class.releasesSlot_iff (self : ClassId) (f : Func) :
    Class.releasesSlot self f = true ↔
      (f.m_cls ≠ some self ∧
        (hasAttr f.m_attrs AttrPrivate = true ∨ f.m_hasStaticLocals = false)) := by
  simp [Class.releasesSlot]

theorem Class.releaseRefsLoop_cons (self : ClassId) (ok : Bool) (f : Func)
    (rest : List (Option Func)) :
    Class.releaseRefsLoop self ok (some f :: rest) =
      if Class.releasesSlot self f then
        (none :: (Class.releaseRefsLoop self false rest).1,
          (Class.releaseRefsLoop self false rest).2)
      else
        (some f :: (Class.releaseRefsLoop self ok rest).1,
          (Class.releaseRefsLoop self ok rest).2) := rfl

/-- The loop of `releaseRefs`, slot by slot: a slot that holds a function bound
to another class, private or without static locals, is set to null, and any
other slot stays; `okToReleaseParent` stays set when no slot was set to
null. -/
theorem Class.releaseRefsLoop_slots (self : ClassId) :
    ∀ (l : List (Option Func)) (ok : Bool),
      (Class.releaseRefsLoop self ok l).1 =
          l.map (fun s => s.bind (fun f =>
            if Class.releasesSlot self f then none else some f)) ∧
      (Class.releaseRefsLoop self ok l).2 =
          (ok && l.all (fun s => s.all (fun f => !Class.releasesSlot self f))) := by
  intro l
  induction l with
  | nil => intro ok; simp [Class.releaseRefsLoop]
  | cons s rest ih =>
    intro ok
    cases s with
    | none =>
      obtain ⟨h1, h2⟩ := ih ok
      simp [Class.releaseRefsLoop, h1, h2]
    | some f =>
      rw [Class.releaseRefsLoop_cons]
      by_cases hc : Class.releasesSlot self f = true
      · obtain ⟨h1, h2⟩ := ih false
        rw [Bool.false_and] at h2
        simp [hc, h1, h2]
      · obtain ⟨h1, h2⟩ := ih ok
        have hc' : Class.releasesSlot self f = false := by simpa using hc
        simp [hc', h1, h2]

/-- When the loop found no slot to set to null, the slots are as before. -/
theorem Class.releaseRefsLoop_clean (self : ClassId) (l : List (Option Func))
    (h : l.all (fun s => s.all (fun f => !Class.releasesSlot self f)) = true) :
    l.map (fun s => s.bind (fun f =>
      if Class.releasesSlot self f then none else some f)) = l := by
  conv_rhs => rw [← List.map_id l]
  apply List.map_congr_left
  intro s hs
  have := (List.all_eq_true.1 h) s hs
  cases s with
  | none => rfl
  | some f =>
    have hf : Class.releasesSlot self f = false := by simpa using this
    simp [hf]

/-- After the loop of `releaseRefs` no slot is left that it would set to
null. -/
theorem Class.releaseRefsLoop_done (self : ClassId) (l : List (Option Func)) :
    (l.map (fun s => s.bind (fun f =>
      if Class.releasesSlot self f then none else some f))).all
        (fun s => s.all (fun f => !Class.releasesSlot self f)) = true := by
  rw [List.all_eq_true]
  intro s hs
  obtain ⟨s0, -, rfl⟩ := List.mem_map.1 hs
  cases s0 with
  | none => rfl
  | some f =>
    by_cases hc : Class.releasesSlot self f = true
    · simp [hc]
    · have hc' : Class.releasesSlot self f = false := by simpa using hc
      simp [hc']

/-- C35: `releaseRefs` empties the declared interfaces and the used traits.
A method slot that holds a function bound to another class that is private or
has no static locals is set to null; every other slot keeps what it holds, in
particular every function bound to the class itself.  The parent is dropped
when no slot was set to null in the call, and kept otherwise.  A second call
sets no slot to null and so drops the parent: after two calls the class has no
parent, no declared interfaces and no used traits. -/
theorem C35_release_refs (this : LinkedClass) :
    (Class.releaseRefs this).cls.m_declInterfaces = [] ∧
    (Class.releaseRefs this).cls.m_usedTraits = [] ∧
    (Class.releaseRefs this).methodSlots.length = this.methodSlots.length ∧
    (∀ (i : Nat) (f : Func), this.methodSlots[i]? = some (some f) →
      ((f.m_cls ≠ some this.cls.m_self ∧
          (hasAttr f.m_attrs AttrPrivate = true ∨ f.m_hasStaticLocals = false)) →
        (Class.releaseRefs this).methodSlots[i]? = some none) ∧
      (¬ (f.m_cls ≠ some this.cls.m_self ∧
          (hasAttr f.m_attrs AttrPrivate = true ∨ f.m_hasStaticLocals = false)) →
        (Class.releaseRefs this).methodSlots[i]? = some (some f)) ∧
      (f.m_cls = some this.cls.m_self →
        (Class.releaseRefs this).methodSlots[i]? = some (some f))) ∧
    (∀ i : Nat, this.methodSlots[i]? = some none →
      (Class.releaseRefs this).methodSlots[i]? = some none) ∧
    ((Class.releaseRefs this).methodSlots = this.methodSlots →
      (Class.releaseRefs this).cls.m_parent = none) ∧
    ((Class.releaseRefs this).methodSlots ≠ this.methodSlots →
      (Class.releaseRefs this).cls.m_parent = this.cls.m_parent) ∧
    (Class.releaseRefs (Class.releaseRefs this)).methodSlots =
      (Class.releaseRefs this).methodSlots ∧
    (Class.releaseRefs (Class.releaseRefs this)).cls.m_parent = none ∧
    (Class.releaseRefs (Class.releaseRefs this)).cls.m_declInterfaces = [] ∧
    (Class.releaseRefs (Class.releaseRefs this)).cls.m_usedTraits = [] := by
  obtain ⟨hs, hok⟩ := Class.releaseRefsLoop_slots this.cls.m_self this.methodSlots true
  have hslots : (Class.releaseRefs this).methodSlots =
      (Class.releaseRefsLoop this.cls.m_self true this.methodSlots).1 := rfl
  have hpar : (Class.releaseRefs this).cls.m_parent =
      if (Class.releaseRefsLoop this.cls.m_self true this.methodSlots).2 then none
      else this.cls.m_parent := rfl
  have hself : (Class.releaseRefs this).cls.m_self = this.cls.m_self := rfl
  obtain ⟨hs2, hok2⟩ := Class.releaseRefsLoop_slots this.cls.m_self
    (Class.releaseRefs this).methodSlots true
  have hdone : (Class.releaseRefs this).methodSlots.all
      (fun s => s.all (fun f => !Class.releasesSlot this.cls.m_self f)) = true := by
    rw [hslots, hs]
    exact Class.releaseRefsLoop_done _ _
  refine ⟨rfl, rfl, ?_, ?_, ?_, ?_, ?_, ?_, ?_, rfl, rfl⟩
  · rw [hslots, hs, List.length_map]
  · intro i f hi
    rw [hslots, hs, List.getElem?_map, hi]
    refine ⟨?_, ?_, ?_⟩
    · intro hc
      have := (Class.releasesSlot_iff this.cls.m_self f).2 hc
      simp [this]
    · intro hn
      have : Class.releasesSlot this.cls.m_self f = false := by
        rw [Bool.eq_false_iff]
        exact fun hc => hn ((Class.releasesSlot_iff _ f).1 hc)
      simp [this]
    · intro hc
      have : Class.releasesSlot this.cls.m_self f = false := by
        rw [Bool.eq_false_iff]
        exact fun h => ((Class.releasesSlot_iff _ f).1 h).1 hc
      simp [this]
  · intro i hi
    rw [hslots, hs, List.getElem?_map, hi]
    rfl
  · intro heq
    rw [hpar, Class.releaseRefsLoop_same this.cls.m_self this.methodSlots true
      (by rw [← hslots]; exact heq)]
    rfl
  · intro hne
    rw [hpar]
    cases h2 : (Class.releaseRefsLoop this.cls.m_self true this.methodSlots).2 with
    | false => rfl
    | true =>
      exfalso
      apply hne
      rw [hslots, hs]
      rw [hok, Bool.true_and] at h2
      exact Class.releaseRefsLoop_clean _ _ h2
  · show (Class.releaseRefsLoop (Class.releaseRefs this).cls.m_self true
        (Class.releaseRefs this).methodSlots).1 = (Class.releaseRefs this).methodSlots
    rw [hself, hs2]
    exact Class.releaseRefsLoop_clean _ _ hdone
  · show (if (Class.releaseRefsLoop (Class.releaseRefs this).cls.m_self true
        (Class.releaseRefs this).methodSlots).2 then none
      else (Class.releaseRefs this).cls.m_parent) = none
    rw [hself, hok2, Bool.true_and, hdone]
    rfl

/-- The class `InitC` with an inherited method without static locals, an
inherited method with static locals and a method of its own: the first call of
`releaseRefs` sets the first slot to null and keeps the parent, the second call
drops the parent. -/
theorem releaseRefs_examples :
    (Class.releaseRefs exWithSlots).methodSlots =
      [none, some exInheritedCount,
        some { exInheritedRun with m_name := "own", m_cls := some 91 }] ∧
    exWithSlots.cls.m_parent = some 90 ∧
    (Class.releaseRefs exWithSlots).cls.m_parent = some 90 ∧
    (Class.releaseRefs (Class.releaseRefs exWithSlots)).cls.m_parent = none ∧
    (Class.releaseRefs (Class.releaseRefs exWithSlots)).methodSlots =
      (Class.releaseRefs exWithSlots).methodSlots :=
  ⟨rfl, rfl, rfl, rfl, rfl⟩

/-- The loop that pulls the values out of the array, slot by slot: a slot that
is not set gets the value that the array holds under the key of its property,
a slot that is set stays. -/
theorem Class.pullValues_spec (propArr : PropArray) :
    ∀ (props : List Class.Prop) (vec out : List TypedValueAux),
      Class.pullValues propArr props vec = .ok out →
      props.length ≤ vec.length ∧ out.length = vec.length ∧
      ∀ (i : Nat) (p : Class.Prop) (d : TypedValueAux), props[i]? = some p → vec[i]? = some d →
        ∃ r, out[i]? = some r ∧ r.deepInit = d.deepInit ∧
          (d.tv.m_type ≠ DataType.KindOfUninit → r.tv = d.tv) ∧
          (d.tv.m_type = DataType.KindOfUninit →
            propArr.nvGet (Class.pinitKey p) = some r.tv) := by
  intro props
  induction props with
  | nil =>
    intro vec out h
    simp only [Class.pullValues] at h
    injection h with h
    subst h
    exact ⟨Nat.zero_le _, rfl, fun i p d hp => by simp at hp⟩
  | cons p0 ps ih =>
    intro vec out h
    cases vec with
    | nil => simp [Class.pullValues] at h
    | cons d0 rest =>
      simp only [Class.pullValues] at h
      cases ht : Class.pullValues propArr ps rest with
      | error e => simp [ht] at h
      | ok tail =>
        simp only [ht] at h
        obtain ⟨l1, l2, l3⟩ := ih rest tail ht
        by_cases hu : d0.tv.m_type = DataType.KindOfUninit
        · have hu' : (d0.tv.m_type == DataType.KindOfUninit) = true := by simp [hu]
          simp only [hu', if_true] at h
          cases hv : propArr.nvGet (Class.pinitKey p0) with
          | none => simp [hv] at h
          | some value =>
            simp only [hv] at h
            injection h with h
            subst h
            refine ⟨by simp; omega, by simp [l2], ?_⟩
            intro i p d hp hd
            cases i with
            | zero =>
              simp only [List.getElem?_cons_zero, Option.some.injEq] at hp hd
              subst hp
              subst hd
              exact ⟨{ d0 with tv := value }, by simp, rfl, fun hn => absurd hu hn, fun _ => hv⟩
            | succ j =>
              simp only [List.getElem?_cons_succ] at hp hd ⊢
              exact l3 j p d hp hd
        · have hu' : (d0.tv.m_type == DataType.KindOfUninit) = false := by simp [hu]
          simp only [hu', Bool.false_eq_true, if_false] at h
          injection h with h
          subst h
          refine ⟨by simp; omega, by simp [l2], ?_⟩
          intro i p d hp hd
          cases i with
          | zero =>
            simp only [List.getElem?_cons_zero, Option.some.injEq] at hp hd
            subst hp hd
            exact ⟨d0, by simp, rfl, fun _ => rfl, fun hn => absurd hn hu⟩
          | succ j =>
            simp only [List.getElem?_cons_succ] at hp hd ⊢
            exact l3 j p d hp hd

/-- The last loop of `initPropsImpl`, slot by slot: the flag is the deep-init
attribute of the property, and the value of a slot without the attribute is
made static. -/
theorem Class.markDeepInit_spec :
    ∀ (props : List Class.Prop) (vec out : List TypedValueAux),
      Class.markDeepInit props vec = .ok out →
      vec.length ≤ props.length ∧ out.length = vec.length ∧
      ∀ (i : Nat) (p : Class.Prop) (d : TypedValueAux), props[i]? = some p → vec[i]? = some d →
        ∃ r, out[i]? = some r ∧ r.deepInit = hasAttr p.m_attrs AttrDeepInit ∧
          r.tv = (if hasAttr p.m_attrs AttrDeepInit then d.tv else d.tv.setEvalScalar) := by
  intro props
  induction props with
  | nil =>
    intro vec out h
    cases vec with
    | nil =>
      simp only [Class.markDeepInit] at h
      injection h with h
      subst h
      exact ⟨Nat.le_refl _, rfl, fun i p d hp => by simp at hp⟩
    | cons d0 rest => simp [Class.markDeepInit] at h
  | cons p0 ps ih =>
    intro vec out h
    cases vec with
    | nil =>
      simp only [Class.markDeepInit] at h
      injection h with h
      subst h
      exact ⟨Nat.zero_le _, rfl, fun i p d _ hd => by simp at hd⟩
    | cons d0 rest =>
      simp only [Class.markDeepInit] at h
      cases ht : Class.markDeepInit ps rest with
      | error e => simp [ht] at h
      | ok tail =>
        simp only [ht] at h
        obtain ⟨l1, l2, l3⟩ := ih rest tail ht
        by_cases hd : hasAttr p0.m_attrs AttrDeepInit = true
        · simp only [hd, if_true] at h
          injection h with h
          subst h
          refine ⟨by simp; omega, by simp [l2], ?_⟩
          intro i p d hp hdd
          cases i with
          | zero =>
            simp only [List.getElem?_cons_zero, Option.some.injEq] at hp hdd
            subst hp hdd
            exact ⟨{ d0 with deepInit := true }, by simp, by simp [hd], by simp [hd]⟩
          | succ j =>
            simp only [List.getElem?_cons_succ] at hp hdd ⊢
            exact l3 j p d hp hdd
        · have hd' : hasAttr p0.m_attrs AttrDeepInit = false := by simpa using hd
          simp only [hd', Bool.false_eq_true, if_false] at h
          injection h with h
          subst h
          refine ⟨by simp; omega, by simp [l2], ?_⟩
          intro i p d hp hdd
          cases i with
          | zero =>
            simp only [List.getElem?_cons_zero, Option.some.injEq] at hp hdd
            subst hp hdd
            exact ⟨{ tv := d0.tv.setEvalScalar, deepInit := false }, by simp, by simp [hd'], by simp [hd']⟩
          | succ j =>
            simp only [List.getElem?_cons_succ] at hp hdd ⊢
            exact l3 j p d hp hdd

theorem TypedValue.setEvalScalar_id (v : TypedValue) (h : v.m_type ≠ DataType.KindOfString) :
    v.setEvalScalar = v := by
  cases v <;> simp [TypedValue.setEvalScalar, TypedValue.m_type] at h ⊢

/-- C31: when `initPropsImpl` returns a vector, the vector has one entry for
each declared property.  For a property whose declared initial value is set
(not the uninit marker) the entry holds the declared value, whatever the
routines left in the array under the key of the property; for a property whose
declared value is the uninit marker the entry holds the value that the array
holds under the key of the property after the routines ran, the original
mangled name for a private property and the name otherwise.  The flag
`deepInit` of an entry is set exactly when the property has `AttrDeepInit`; a
value of a property without the attribute went through `setEvalScalar`, which
makes a counted string static and leaves every other value as it is. -/
theorem C31_init_vector (ec : ExecutionContext) (this : Class) (st : RequestState)
    (propVec : List TypedValueAux)
    (h : (Class.initPropsImpl ec this st).1 = .ok propVec) :
    ∃ (arg0 propArr : PropArray),
      Class.pinitArray (TypedValue.obj ec.pinitSentinel) this.m_declProperties.m_list
        this.m_declPropInit [] = .ok arg0 ∧
      Class.invokeInits ec this this.m_pinitVec.reverse arg0 = .ok propArr ∧
      propVec.length = this.m_declProperties.size ∧
      this.m_declPropInit.length = this.m_declProperties.size ∧
      ∀ (slot : Nat) (p : Class.Prop), this.m_declProperties.get? slot = some p →
        ∃ d r, this.m_declPropInit[slot]? = some d ∧ propVec[slot]? = some r ∧
          (r.deepInit = true ↔ hasAttr p.m_attrs AttrDeepInit = true) ∧
          (d.tv.m_type ≠ DataType.KindOfUninit →
            r.tv = (if hasAttr p.m_attrs AttrDeepInit then d.tv else d.tv.setEvalScalar) ∧
            (d.tv.m_type ≠ DataType.KindOfString → r.tv = d.tv)) ∧
          (d.tv.m_type = DataType.KindOfUninit →
            ∃ v, propArr.nvGet (if hasAttr p.m_attrs AttrPrivate then p.m_originalMangledName
                else p.m_name) = some v ∧
              r.tv = (if hasAttr p.m_attrs AttrDeepInit then v else v.setEvalScalar) ∧
              (v.m_type ≠ DataType.KindOfString → r.tv = v)) := by
  unfold Class.initPropsImpl at h
  cases ha : Class.pinitArray (TypedValue.obj ec.pinitSentinel) this.m_declProperties.m_list
      this.m_declPropInit [] with
  | error e => simp [ha] at h
  | ok arg0 =>
    simp only [ha] at h
    cases hi : Class.invokeInits ec this this.m_pinitVec.reverse arg0 with
    | error e => simp [hi] at h
    | ok propArr =>
      simp only [hi] at h
      cases hp : Class.pullValues propArr this.m_declProperties.m_list this.m_declPropInit with
      | error e => simp [hp] at h
      | ok pulled =>
        simp only [hp] at h
        cases hm : Class.markDeepInit this.m_declProperties.m_list pulled with
        | error e => simp [hm] at h
        | ok marked =>
          simp only [hm] at h
          injection h with h
          subst h
          obtain ⟨a1, a2, a3⟩ := Class.pullValues_spec propArr _ _ _ hp
          obtain ⟨b1, b2, b3⟩ := Class.markDeepInit_spec _ _ _ hm
          have hlen : this.m_declPropInit.length = this.m_declProperties.m_list.length := by
            omega
          refine ⟨arg0, propArr, rfl, hi, ?_, hlen, ?_⟩
          · show marked.length = this.m_declProperties.m_list.length
            omega
          · intro slot p hslot
            have hslot' : this.m_declProperties.m_list[slot]? = some p := hslot
            have hlt : slot < this.m_declPropInit.length := by
              rw [hlen]
              exact (List.getElem?_eq_some.1 hslot').1
            obtain ⟨d, hd⟩ : ∃ d, this.m_declPropInit[slot]? = some d :=
              ⟨_, List.getElem?_eq_getElem hlt⟩
            obtain ⟨r1, hr1, -, c1, c2⟩ := a3 slot p d hslot' hd
            obtain ⟨r, hr, e1, e2⟩ := b3 slot p r1 hslot' hr1
            refine ⟨d, r, hd, hr, by rw [e1], ?_, ?_⟩
            · intro hn
              rw [e2, c1 hn]
              refine ⟨rfl, fun hs => ?_⟩
              split
              · rfl
              · exact TypedValue.setEvalScalar_id _ hs
            · intro hu
              refine ⟨r1.tv, c2 hu, e2, fun hs => ?_⟩
              rw [e2]
              split
              · rfl
              · exact TypedValue.setEvalScalar_id _ hs

/-- Witness of C31: the class `Mixed` declares `log` with the value 5 and `b`
with a value that its `86pinit` computes; the routine writes a string under
the key `log` and null under the key `b`.  The vector holds 5 for `log` and
null for `b`, whose flag is set because `b` has `AttrDeepInit`. -/
theorem C31_init_vector_witness :
    (Class.initPropsImpl exLogEC exMixed RequestState.fresh).1
      = .ok [⟨.int 5, false⟩, ⟨.null, true⟩] ∧
    Class.invokeInits exLogEC exMixed exMixed.m_pinitVec.reverse
      [("log", .int 5), ("b", .obj 999)] = .ok [("log", .str "Mixed;"), ("b", .null)] ∧
    ∃ (arg0 propArr : PropArray),
      Class.pinitArray (TypedValue.obj exLogEC.pinitSentinel) exMixed.m_declProperties.m_list
        exMixed.m_declPropInit [] = .ok arg0 ∧
      Class.invokeInits exLogEC exMixed exMixed.m_pinitVec.reverse arg0 = .ok propArr ∧
      [(⟨.int 5, false⟩ : TypedValueAux), ⟨.null, true⟩].length = exMixed.m_declProperties.size ∧
      exMixed.m_declPropInit.length = exMixed.m_declProperties.size ∧
      ∀ (slot : Nat) (p : Class.Prop), exMixed.m_declProperties.get? slot = some p →
        ∃ d r, exMixed.m_declPropInit[slot]? = some d ∧
          [(⟨.int 5, false⟩ : TypedValueAux), ⟨.null, true⟩][slot]? = some r ∧
          (r.deepInit = true ↔ hasAttr p.m_attrs AttrDeepInit = true) ∧
          (d.tv.m_type ≠ DataType.KindOfUninit →
            r.tv = (if hasAttr p.m_attrs AttrDeepInit then d.tv else d.tv.setEvalScalar) ∧
            (d.tv.m_type ≠ DataType.KindOfString → r.tv = d.tv)) ∧
          (d.tv.m_type = DataType.KindOfUninit →
            ∃ v, propArr.nvGet (if hasAttr p.m_attrs AttrPrivate then p.m_originalMangledName
                else p.m_name) = some v ∧
              r.tv = (if hasAttr p.m_attrs AttrDeepInit then v else v.setEvalScalar) ∧
              (v.m_type ≠ DataType.KindOfString → r.tv = v)) :=
  ⟨rfl, rfl,
    C31_init_vector exLogEC exMixed RequestState.fresh [⟨.int 5, false⟩, ⟨.null, true⟩] rfl⟩

/-- What `setImportTraitMethodModifiers` does to a candidate list: the first
candidate of the trait gets the modifiers, every other candidate stays, and a
list without a candidate of the trait stays as it is. -/
theorem Class.setImportTraitMethodModifiers_spec (traitCls : Class) (modifiers : Attr) :
    ∀ l : TraitMethodList,
      (Class.setImportTraitMethodModifiers traitCls modifiers l).length = l.length ∧
      (∀ (l1 : TraitMethodList) (tm : TraitMethod) (l2 : TraitMethodList),
        l = l1 ++ tm :: l2 → (∀ x, x ∈ l1 → x.m_trait.m_self ≠ traitCls.m_self) →
        tm.m_trait.m_self = traitCls.m_self →
        Class.setImportTraitMethodModifiers traitCls modifiers l =
          l1 ++ { tm with m_modifiers := modifiers } :: l2) ∧
      ((∀ x, x ∈ l → x.m_trait.m_self ≠ traitCls.m_self) →
        Class.setImportTraitMethodModifiers traitCls modifiers l = l) := by
  intro l
  induction l with
  | nil =>
    refine ⟨rfl, ?_, fun _ => rfl⟩
    intro l1 tm l2 h
    cases l1 <;> simp at h
  | cons a rest ih =>
    obtain ⟨i1, i2, i3⟩ := ih
    by_cases ha : a.m_trait.m_self = traitCls.m_self
    · refine ⟨by simp [Class.setImportTraitMethodModifiers, ha], ?_, ?_⟩
      · intro l1 tm l2 h hl1 htm
        cases l1 with
        | nil =>
          simp only [List.nil_append, List.cons.injEq] at h
          obtain ⟨h1, h2⟩ := h
          subst h1 h2
          simp [Class.setImportTraitMethodModifiers, ha]
        | cons b l1' =>
          simp only [List.cons_append, List.cons.injEq] at h
          obtain ⟨h1, -⟩ := h
          subst h1
          exact absurd ha (hl1 a (List.mem_cons_self _ _))
      · intro hall
        exact absurd ha (hall a (List.mem_cons_self _ _))
    · refine ⟨by simp [Class.setImportTraitMethodModifiers, ha, i1], ?_, ?_⟩
      · intro l1 tm l2 h hl1 htm
        cases l1 with
        | nil =>
          simp only [List.nil_append, List.cons.injEq] at h
          obtain ⟨h1, -⟩ := h
          subst h1
          exact absurd htm ha
        | cons b l1' =>
          simp only [List.cons_append, List.cons.injEq] at h
          obtain ⟨h1, h2⟩ := h
          subst h1
          simp only [Class.setImportTraitMethodModifiers, ha, if_false, List.cons_append,
            List.cons.injEq, true_and]
          exact i2 l1' tm l2 h2 (fun x hx => hl1 x (List.mem_cons_of_mem _ hx)) htm
      · intro hall
        simp only [Class.setImportTraitMethodModifiers, ha, if_false, List.cons.injEq, true_and]
        exact i3 (fun x hx => hall x (List.mem_cons_of_mem _ hx))

theorem MethodToTraitListMap.find_isame (m : MethodToTraitListMap) {a b : String}
    (h : isame a b = true) :
    MethodToTraitListMap.find m a = MethodToTraitListMap.find m b := by
  have hk : ∀ k, isame k a = isame k b := by
    intro k
    cases h1 : isame k a with
    | true => exact (isame_trans h1 h).symm
    | false =>
      cases h2 : isame k b with
      | false => rfl
      | true =>
        have := isame_trans h2 (by rw [isame_symm]; exact h)
        rw [h1] at this
        cases this
  unfold MethodToTraitListMap.find
  simp only [hk]

/-- Counterexample to C34 as stated: the rule `A::foo as protected FOO` has a
new name that is another string than `foo` and is not special, so no
visibility-only alias for the code; it is applied without error and adds a
second candidate to the list of `foo`. -/
theorem C34_counterexample :
    ("foo" : String) ≠ "FOO" ∧ isSpecial "FOO" = false ∧
    envTraits.loadClass "A" = some 30 ∧ envTraits.classes 30 = some exTraitA ∧
    hasAttr exTraitA.attrs AttrTrait = true ∧
    exTraitA.lookupMethod "foo" = some exTraitAFoo ∧
    hasAttr AttrProtected AttrStatic = false ∧
    MethodToTraitListMap.find [("foo", [⟨exTraitA, exTraitAFoo, AttrPublic⟩])] "foo"
      = some [⟨exTraitA, exTraitAFoo, AttrPublic⟩] ∧
    ∃ st', Class.applyTraitAliasRule envTraits [exTraitA] ⟨"A", "foo", "FOO", AttrProtected⟩
        ([], [("foo", [⟨exTraitA, exTraitAFoo, AttrPublic⟩])]) = .ok st' ∧
      MethodToTraitListMap.find st'.2 "foo"
        = some [⟨exTraitA, exTraitAFoo, AttrPublic⟩, ⟨exTraitA, exTraitAFoo, AttrProtected⟩] :=
  ⟨by decide, by decide, rfl, rfl, by decide, by decide, by decide, by decide, _, rfl,
    by decide⟩

/-- C34, amended: an alias rule whose trait is known (the single used trait
with the method when the rule names no trait, the class that the name loads
otherwise), is a trait and has the method, and whose modifiers are not static,
is applied without error and records the alias.  When the new name is another
string than the name of the method and is not special, the candidate (trait,
method of the trait, modifiers of the rule) is appended to the candidate list
of the new name, and the list of every name that differs from the new name up
to case stays, the list of the method itself among them when its name differs
from the new one up to case; when the two names differ in case only, the list
of the method is the list of the new name, and the candidate is appended to it.
When the new name is the same string as the name of the method, no candidate is
added: the list of the method is the old one with the modifiers of the first
candidate of the trait replaced, and the list of every other name stays.  A new
name that is special leaves the map as it is. -/
theorem C34_alias_rule (env : Env) (usedTraits : List Class) (rule : PreClass.TraitAliasRule)
    (st : List (String × String) × MethodToTraitListMap) (traitCls : Class) (traitMeth : Func)
    (hknown : (rule.m_traitName.isEmpty = true ∧
        Class.findSingleTraitWithMethod usedTraits rule.m_origMethodName = some traitCls) ∨
      (rule.m_traitName.isEmpty = false ∧
        ∃ id, env.loadClass rule.m_traitName = some id ∧ env.classes id = some traitCls))
    (htrait : hasAttr traitCls.attrs AttrTrait = true)
    (hmeth : traitCls.lookupMethod rule.m_origMethodName = some traitMeth)
    (hstatic : hasAttr rule.m_modifiers AttrStatic = false) :
    ∃ st', Class.applyTraitAliasRule env usedTraits rule st = .ok st' ∧
      st'.1 = Class.addTraitAlias st.1 rule.m_traitName rule.m_origMethodName
        rule.m_newMethodName ∧
      (rule.m_origMethodName ≠ rule.m_newMethodName → isSpecial rule.m_newMethodName = false →
        MethodToTraitListMap.find st'.2 rule.m_newMethodName =
          some ((MethodToTraitListMap.find st.2 rule.m_newMethodName).getD [] ++
            [⟨traitCls, traitMeth, rule.m_modifiers⟩]) ∧
        (∀ n, isame rule.m_newMethodName n = false →
          MethodToTraitListMap.find st'.2 n = MethodToTraitListMap.find st.2 n) ∧
        (isame rule.m_newMethodName rule.m_origMethodName = false →
          MethodToTraitListMap.find st'.2 rule.m_origMethodName =
            MethodToTraitListMap.find st.2 rule.m_origMethodName) ∧
        (isame rule.m_newMethodName rule.m_origMethodName = true →
          MethodToTraitListMap.find st.2 rule.m_newMethodName =
            MethodToTraitListMap.find st.2 rule.m_origMethodName ∧
          MethodToTraitListMap.find st'.2 rule.m_origMethodName =
            some ((MethodToTraitListMap.find st.2 rule.m_origMethodName).getD [] ++
              [⟨traitCls, traitMeth, rule.m_modifiers⟩]))) ∧
      (rule.m_origMethodName = rule.m_newMethodName →
        MethodToTraitListMap.find st'.2 rule.m_origMethodName =
          some (Class.setImportTraitMethodModifiers traitCls rule.m_modifiers
            ((MethodToTraitListMap.find st.2 rule.m_origMethodName).getD [])) ∧
        (∀ l, MethodToTraitListMap.find st'.2 rule.m_origMethodName = some l →
          l.length = ((MethodToTraitListMap.find st.2 rule.m_origMethodName).getD []).length) ∧
        (∀ (l1 : TraitMethodList) (tm : TraitMethod) (l2 : TraitMethodList),
          MethodToTraitListMap.find st.2 rule.m_origMethodName = some (l1 ++ tm :: l2) →
          (∀ x, x ∈ l1 → x.m_trait.m_self ≠ traitCls.m_self) →
          tm.m_trait.m_self = traitCls.m_self →
          MethodToTraitListMap.find st'.2 rule.m_origMethodName =
            some (l1 ++ { tm with m_modifiers := rule.m_modifiers } :: l2)) ∧
        (∀ n, isame rule.m_origMethodName n = false →
          MethodToTraitListMap.find st'.2 n = MethodToTraitListMap.find st.2 n)) ∧
      (rule.m_origMethodName ≠ rule.m_newMethodName → isSpecial rule.m_newMethodName = true →
        st'.2 = st.2) := by
  have htrait' : (!hasAttr traitCls.attrs AttrTrait) = false := by simp [htrait]
  have hrun : Class.applyTraitAliasRule env usedTraits rule st =
      .ok (Class.addTraitAlias st.1 rule.m_traitName rule.m_origMethodName
          rule.m_newMethodName,
        if rule.m_origMethodName = rule.m_newMethodName then
          MethodToTraitListMap.update
            (Class.setImportTraitMethodModifiers traitCls rule.m_modifiers) st.2
            rule.m_origMethodName
        else if !isSpecial rule.m_newMethodName then
          MethodToTraitListMap.pushBack st.2 rule.m_newMethodName
            ⟨traitCls, traitMeth, rule.m_modifiers⟩
        else st.2) := by
    unfold Class.applyTraitAliasRule
    rcases hknown with ⟨h1, h2⟩ | ⟨h1, id, h2, h3⟩
    · simp only [h1, h2, if_true, htrait', hmeth, hstatic, Bool.false_eq_true, if_false]
    · simp only [h1, h2, h3, htrait', hmeth, hstatic, Bool.false_eq_true, if_false]
  refine ⟨_, hrun, rfl, ?_, ?_, ?_⟩
  · intro hne hsp
    simp only [hne, if_false, hsp, Bool.not_false, if_true]
    refine ⟨?_, ?_, ?_, ?_⟩
    · unfold MethodToTraitListMap.pushBack
      rw [MethodToTraitListMap.find_update_isame _ _ _ _ (isame_refl _)]
    · intro n hn
      unfold MethodToTraitListMap.pushBack
      exact MethodToTraitListMap.find_update_ne _ _ _ _ hn
    · intro hn
      unfold MethodToTraitListMap.pushBack
      exact MethodToTraitListMap.find_update_ne _ _ _ _ hn
    · intro hn
      refine ⟨MethodToTraitListMap.find_isame st.2 hn, ?_⟩
      unfold MethodToTraitListMap.pushBack
      rw [MethodToTraitListMap.find_update_isame _ _ _ _ hn]
  · intro heq
    simp only [heq, if_true]
    have hfind := MethodToTraitListMap.find_update_isame
      (Class.setImportTraitMethodModifiers traitCls rule.m_modifiers) st.2
      rule.m_newMethodName rule.m_newMethodName (isame_refl _)
    refine ⟨hfind, ?_, ?_, ?_⟩
    · intro l hl
      rw [hfind] at hl
      injection hl with hl
      rw [← hl]
      exact (Class.setImportTraitMethodModifiers_spec traitCls rule.m_modifiers _).1
    · intro l1 tm l2 hl hl1 htm
      rw [hfind, hl]
      simp only [Option.getD_some]
      rw [(Class.setImportTraitMethodModifiers_spec traitCls rule.m_modifiers _).2.1
        l1 tm l2 rfl hl1 htm]
    · intro n hn
      exact MethodToTraitListMap.find_update_ne _ _ _ _ hn
  · intro hne hsp
    simp [hne, hsp]

/-- Witness of C34: with the candidate of the trait `A` for `foo`, the rule
`A::foo as protected bar` adds the candidate of `bar` and leaves the list of
`foo`; the rule `A::foo as protected` (the same name) replaces the modifiers of
the candidate of `foo`. -/
theorem C34_alias_rule_witness :
    Class.applyTraitAliasRule envTraits [exTraitA] ⟨"A", "foo", "bar", AttrProtected⟩
        ([], [("foo", [⟨exTraitA, exTraitAFoo, AttrPublic⟩])])
      = .ok ([("bar", "A::foo")],
          [("foo", [⟨exTraitA, exTraitAFoo, AttrPublic⟩]),
           ("bar", [⟨exTraitA, exTraitAFoo, AttrProtected⟩])]) ∧
    Class.applyTraitAliasRule envTraits [exTraitA] ⟨"A", "foo", "foo", AttrProtected⟩
        ([], [("foo", [⟨exTraitA, exTraitAFoo, AttrPublic⟩])])
      = .ok ([("foo", "A::foo")], [("foo", [⟨exTraitA, exTraitAFoo, AttrProtected⟩])]) ∧
    ∃ st', Class.applyTraitAliasRule envTraits [exTraitA] ⟨"A", "foo", "bar", AttrProtected⟩
        ([], [("foo", [⟨exTraitA, exTraitAFoo, AttrPublic⟩])]) = .ok st' ∧
      MethodToTraitListMap.find st'.2 "bar" = some [⟨exTraitA, exTraitAFoo, AttrProtected⟩] ∧
      MethodToTraitListMap.find st'.2 "foo" = some [⟨exTraitA, exTraitAFoo, AttrPublic⟩] := by
  refine ⟨rfl, rfl, ?_⟩
  obtain ⟨st', h1, -, h3, -, -⟩ := C34_alias_rule envTraits [exTraitA]
    ⟨"A", "foo", "bar", AttrProtected⟩ ([], [("foo", [⟨exTraitA, exTraitAFoo, AttrPublic⟩])])
    exTraitA exTraitAFoo (Or.inr ⟨by decide, 30, rfl, rfl⟩) (by decide) (by decide) (by decide)
  obtain ⟨k1, -, k3, -⟩ := h3 (by decide) (by decide)
  exact ⟨st', h1, by rw [k1]; decide, by rw [k3 (by decide)]; decide⟩

theorem Class.copyParentConstants_list (l : List Class.Const) :
    ∀ b : ConstMap, (Class.copyParentConstants l b).m_list = b.m_list ++ l := by
  induction l with
  | nil => intro b; simp [Class.copyParentConstants]
  | cons c rest ih =>
    intro b
    rw [Class.copyParentConstants, ih]
    simp [IndexedStringMap.add]

theorem Class.addInterfaceConstants_list (l : List Class.Const) :
    ∀ (b b1 : ConstMap), Class.addInterfaceConstants l b = .ok b1 →
      b1.m_list = b.m_list ++ l := by
  induction l with
  | nil =>
    intro b b1 h
    rw [Class.addInterfaceConstants] at h
    injection h with h
    subst h
    simp
  | cons c rest ih =>
    intro b b1 h
    rw [Class.addInterfaceConstants] at h
    split at h
    · cases h
    · rw [ih _ _ h]
      simp [IndexedStringMap.add]

theorem Class.addAllInterfaceConstants_list (env : Env) (l : List ClassId) :
    ∀ (b b1 : ConstMap), Class.addAllInterfaceConstants env l b = .ok b1 →
      ∃ extra, b1.m_list = b.m_list ++ extra := by
  induction l with
  | nil =>
    intro b b1 h
    rw [Class.addAllInterfaceConstants] at h
    injection h with h
    subst h
    exact ⟨[], by simp⟩
  | cons i rest ih =>
    intro b b1 h
    rw [Class.addAllInterfaceConstants] at h
    cases hd : env.deref i with
    | error e => simp [hd] at h
    | ok di =>
      simp only [hd] at h
      cases h2 : Class.addInterfaceConstants di.m_constants.m_list b with
      | error e => simp [h2] at h
      | ok b2 =>
        simp only [h2] at h
        obtain ⟨extra, he⟩ := ih b2 b1 h
        refine ⟨di.m_constants.m_list ++ extra, ?_⟩
        rw [he, Class.addInterfaceConstants_list _ _ _ h2, List.append_assoc]

/-- C38: a constant `c` that the class declares (the constants of a `PreClass`
have names that differ), and `b` the builder of `setConstants` after the
constants of the parent and of the declared interfaces.  If `b` binds the name
of `c` to the entry `existing` in slot `slot`, the table of the linked class
binds the name to the same slot, and the entry there has the class itself as
declaring class and the value of `c`, but the name and the source text of
`existing`.  A slot below the size of the table of the parent holds the entry
of the parent in `b`, so that the text is the one of the ancestor; and
`getClassInfo` reports the constant with that text. -/
theorem C38_constant_override (env : Env) (self : ClassId) (pre : PreClass)
    (parent : Option Class) (cls : Class) (c : PreClass.Const) (b : ConstMap)
    (slot : Nat) (existing : Class.Const)
    (hc : c ∈ pre.m_constants)
    (huniq : ∀ c', c' ∈ pre.m_constants → c'.m_name = c.m_name → c' = c)
    (h : Class.newClass env self pre parent = .ok cls)
    (hb : Class.addAllInterfaceConstants env cls.m_declInterfaces
      (Class.inheritedConstants parent) = .ok b)
    (hl : b.lookup c.m_name = some (slot, existing)) :
    cls.m_constants.lookup c.m_name =
      some (slot, ⟨self, existing.m_name, c.m_val, existing.m_phpCode⟩) ∧
    (∀ p, parent = some p → slot < p.m_constants.size →
      p.m_constants.get? slot = some existing) ∧
    (existing.m_name, existing.m_phpCode) ∈ Class.getClassInfoConstants cls := by
  obtain ⟨c4, c5, s1, s2, s3, hset, hm⟩ := Class.newClass_constants h
  have hself : cls.m_self = self := (Class.newClass_core h).1
  unfold Class.setConstants at hset
  rw [s3, hb] at hset
  simp only [] at hset
  have hwf := Class.addAllInterfaceConstants_wf env _ _ _
    (Class.inheritedConstants_wf parent) hb
  cases h2 : Class.addOwnConstants env c4 c4.m_preClass.m_constants b with
  | error e => simp [h2] at hset
  | ok b2 =>
    simp only [h2] at hset
    injection hset with hset
    subst hset
    simp only [] at hm
    rw [s2] at h2
    obtain ⟨hr, -⟩ := Class.addOwnConstants_overlay pre.m_constants b b2 huniq hwf h2 hc hl
    rw [s1] at hr
    have hfin : cls.m_constants.lookup c.m_name =
        some (slot, ⟨self, existing.m_name, c.m_val, existing.m_phpCode⟩) := by
      rw [hm]; exact hr
    refine ⟨hfin, ?_, ?_⟩
    · intro p hp hlt
      subst hp
      obtain ⟨extra, he⟩ := Class.addAllInterfaceConstants_list env _ _ _ hb
      have hlist : (Class.inheritedConstants (some p)).m_list = p.m_constants.m_list := by
        simp [Class.inheritedConstants, Class.copyParentConstants_list,
          IndexedStringMap.empty]
      rw [hlist] at he
      have h1 := (IndexedStringMap.lookup_eq_some.1 hl).2
      rw [he, List.getElem?_append_left hlt] at h1
      exact h1
    · have h1 := (IndexedStringMap.lookup_eq_some.1 hfin).2
      unfold Class.getClassInfoConstants
      rw [List.mem_map]
      refine ⟨⟨self, existing.m_name, c.m_val, existing.m_phpCode⟩, ?_, rfl⟩
      rw [List.mem_filter]
      exact ⟨List.mem_iff_getElem?.2 ⟨slot, h1⟩, by simp [hself]⟩

/-- Witness of C38: `CodeChild` extends `CodeBase` and declares the constant
`K` again, with the value 2 and the text `1 + 1`; the entry of the linked class
has the value 2 and the text `1` of `CodeBase`. -/
theorem C38_constant_override_witness :
    Class.newClass envCodeBase 102 preCodeChild (some exCodeBase) = .ok exCodeChild ∧
    exCodeBase.m_constants.m_list = [⟨101, "K", .int 1, "1"⟩] ∧
    exCodeChild.m_constants.lookup "K" = some (0, ⟨102, "K", .int 2, "1"⟩) ∧
    (∀ p, some exCodeBase = some p → 0 < p.m_constants.size →
      p.m_constants.get? 0 = some ⟨101, "K", .int 1, "1"⟩) ∧
    ("K", "1") ∈ Class.getClassInfoConstants exCodeChild :=
  ⟨rfl, rfl,
    C38_constant_override envCodeBase 102 preCodeChild (some exCodeBase) exCodeChild
      { exConst "K" (.int 2) with m_phpCode := "1 + 1" } ⟨[⟨101, "K", .int 1, "1"⟩], [("K", 0)]⟩
      0 ⟨101, "K", .int 1, "1"⟩ (by simp [preCodeChild, exPre])
      (by intro c' hc' _; simpa [preCodeChild, exPre] using hc') rfl rfl rfl⟩

theorem PropState.Balanced.balanced_refl (st : PropState) : st.Balanced st :=
  ⟨rfl, rfl, fun h => h⟩

theorem PropState.Balanced.balanced_trans {a b c : PropState} (h1 : a.Balanced b)
    (h2 : b.Balanced c) : a.Balanced c := by
  obtain ⟨a1, a2, a3⟩ := h1
  obtain ⟨b1, b2, b3⟩ := h2
  exact ⟨b1.trans a1, by omega, fun h => b3 (a3 h)⟩

theorem PropState.Balanced.of_fields {st st' : PropState}
    (h1 : st'.numInaccessible = st.numInaccessible)
    (h2 : st'.m_declPropInit = st.m_declPropInit) (h3 : st'.curPropMap = st.curPropMap) :
    st.Balanced st' := by
  refine ⟨h1, ?_, ?_⟩
  · rw [h2, h3]
  · rw [h3]; exact fun h => h

theorem Class.appendProp_balanced {this : Class} {preProp : PreClass.Prop} {st st' : PropState}
    (h : Class.appendProp this preProp st = .ok st') : st.Balanced st' := by
  unfold Class.appendProp at h
  cases hv : this.m_preClass.lookupPropVal preProp.m_name with
  | error e => simp [hv] at h
  | ok v =>
    simp only [hv] at h
    injection h with h
    subst h
    refine ⟨rfl, ?_, fun hw => hw.add _ _⟩
    simp [PropInitVec.push_back, IndexedStringMap.add]
    omega

theorem Class.overlayProp_balanced {this : Class} {preProp : PreClass.Prop} {slot : Nat}
    {prop : Class.Prop} {st st' : PropState}
    (h : Class.overlayProp this preProp slot prop st = .ok st') : st.Balanced st' := by
  unfold Class.overlayProp at h
  cases hv : this.m_preClass.lookupPropVal preProp.m_name with
  | error e => simp [hv] at h
  | ok v =>
    simp only [hv] at h
    injection h with h
    subst h
    refine ⟨rfl, ?_, fun hw => hw.set _ _⟩
    simp [PropInitVec.assign_length, IndexedStringMap.set]

theorem Class.addOwnInstanceProp_balanced {parent : Option Class} {this : Class}
    {preProp : PreClass.Prop} {st st' : PropState}
    (h : Class.addOwnInstanceProp parent this preProp st = .ok st') : st.Balanced st' := by
  unfold Class.addOwnInstanceProp at h
  split at h
  · cases h
  · simp only [] at h
    split at h
    · cases h
    · have hdeep : st.Balanced (if hasAttr preProp.m_attrs AttrDeepInit = true then
            { st with m_hasDeepInitProps := true } else st) := by
        split
        · exact PropState.Balanced.of_fields rfl rfl rfl
        · exact PropState.Balanced.balanced_refl st
      generalize (if hasAttr preProp.m_attrs AttrDeepInit = true then
            { st with m_hasDeepInitProps := true } else st) = st1 at h hdeep
      refine hdeep.balanced_trans ?_
      split at h
      · exact Class.appendProp_balanced h
      · split at h
        · cases hl : st1.curPropMap.lookup preProp.m_name with
          | none =>
            simp only [hl] at h
            exact Class.appendProp_balanced h
          | some r =>
            obtain ⟨slot, prop⟩ := r
            simp only [hl] at h
            exact Class.overlayProp_balanced h
        · split at h
          · cases hl : st1.curPropMap.lookup preProp.m_name with
            | none =>
              simp only [hl] at h
              exact Class.appendProp_balanced h
            | some r =>
              obtain ⟨slot, prop⟩ := r
              simp only [hl] at h
              exact Class.overlayProp_balanced h
          · injection h with h
            subst h
            exact PropState.Balanced.balanced_refl _

theorem Class.addOwnStaticProp_balanced {env : Env} {parent : Option Class} {this : Class}
    {preProp : PreClass.Prop} {st st' : PropState}
    (h : Class.addOwnStaticProp env parent this preProp st = .ok st') : st.Balanced st' := by
  unfold Class.addOwnStaticProp at h
  split at h
  · split at h <;> cases h
  · simp only [] at h
    split at h
    · cases h
    · cases hv : this.m_preClass.lookupPropVal preProp.m_name with
      | error e => simp [hv] at h
      | ok v =>
        simp only [hv] at h
        cases hl : st.curSPropMap.lookup preProp.m_name with
        | none =>
          simp only [hl] at h
          injection h with h
          subst h
          exact PropState.Balanced.of_fields rfl rfl rfl
        | some r =>
          simp only [hl] at h
          injection h with h
          subst h
          exact PropState.Balanced.of_fields rfl rfl rfl

theorem Class.addOwnProps_balanced {env : Env} {parent : Option Class} {this : Class}
    (l : List PreClass.Prop) :
    ∀ (st st' : PropState), Class.addOwnProps env parent this l st = .ok st' →
      st.Balanced st' := by
  induction l with
  | nil =>
    intro st st' h
    rw [Class.addOwnProps] at h
    injection h with h
    subst h
    exact PropState.Balanced.balanced_refl _
  | cons preProp rest ih =>
    intro st st' h
    rw [Class.addOwnProps] at h
    cases h1 : Class.addOwnProp env parent this preProp st with
    | error e => simp [h1] at h
    | ok st1 =>
      simp only [h1] at h
      have e1 : st.Balanced st1 := by
        unfold Class.addOwnProp at h1
        split at h1
        · exact Class.addOwnInstanceProp_balanced h1
        · exact Class.addOwnStaticProp_balanced h1
      exact e1.balanced_trans (ih st1 st' h)

theorem Class.importTraitInstanceProp_balanced {env : Env} {this : Class}
    {traitProp : Class.Prop} {traitPropVal : TypedValueAux} {st st' : PropState}
    (h : Class.importTraitInstanceProp env this traitProp traitPropVal st = .ok st') :
    st.Balanced st' := by
  unfold Class.importTraitInstanceProp at h
  cases hf : st.curPropMap.find traitProp.m_name with
  | none =>
    simp only [hf] at h
    injection h with h
    subst h
    split <;> split <;>
    · refine ⟨rfl, ?_, fun hw => hw.add _ _⟩
      simp [PropInitVec.push_back, IndexedStringMap.add]
      omega
  | some slot =>
    simp only [hf] at h
    split at h
    · split at h
      · cases h
      · injection h with h
        subst h
        exact PropState.Balanced.balanced_refl _
    · cases h

theorem Class.importTraitInstanceProps_balanced {env : Env} {this : Class} {trait : Class}
    (l : List Class.Prop) :
    ∀ (p : Nat) (st st' : PropState),
      Class.importTraitInstanceProps env this trait l p st = .ok st' → st.Balanced st' := by
  induction l with
  | nil =>
    intro p st st' h
    rw [Class.importTraitInstanceProps] at h
    injection h with h
    subst h
    exact PropState.Balanced.balanced_refl _
  | cons traitProp rest ih =>
    intro p st st' h
    rw [Class.importTraitInstanceProps] at h
    cases hv : trait.m_declPropInit[p]? with
    | none => simp [hv] at h
    | some v =>
      simp only [hv] at h
      cases h1 : Class.importTraitInstanceProp env this traitProp v st with
      | error e => simp [h1] at h
      | ok st1 =>
        simp only [h1] at h
        exact (Class.importTraitInstanceProp_balanced h1).balanced_trans (ih (p + 1) st1 st' h)

theorem Class.importTraitStaticProp_balanced {env : Env} {this : Class}
    {traitProp : Class.SProp} {st st' : PropState}
    (h : Class.importTraitStaticProp env this traitProp st = .ok st') : st.Balanced st' := by
  unfold Class.importTraitStaticProp at h
  split at h
  · cases h
  · cases hf : st.curSPropMap.find traitProp.m_name with
    | none =>
      simp only [hf] at h
      injection h with h
      subst h
      exact PropState.Balanced.of_fields rfl rfl rfl
    | some slot =>
      simp only [hf] at h
      cases hg : st.curSPropMap.get? slot with
      | none => simp [hg] at h
      | some prevProp =>
        simp only [hg] at h
        split at h
        · cases h
        · split at h
          · cases h
          · injection h with h
            subst h
            exact PropState.Balanced.of_fields rfl rfl rfl

theorem Class.importTraitStaticProps_balanced {env : Env} {this : Class}
    (l : List Class.SProp) :
    ∀ (st st' : PropState), Class.importTraitStaticProps env this l st = .ok st' →
      st.Balanced st' := by
  induction l with
  | nil =>
    intro st st' h
    rw [Class.importTraitStaticProps] at h
    injection h with h
    subst h
    exact PropState.Balanced.balanced_refl _
  | cons traitProp rest ih =>
    intro st st' h
    rw [Class.importTraitStaticProps] at h
    cases h1 : Class.importTraitStaticProp env this traitProp st with
    | error e => simp [h1] at h
    | ok st1 =>
      simp only [h1] at h
      exact (Class.importTraitStaticProp_balanced h1).balanced_trans (ih st1 st' h)

theorem Class.importTraitPropsLoop_balanced {env : Env} {this : Class} (ts : List Class) :
    ∀ (st st' : PropState), Class.importTraitPropsLoop env this ts st = .ok st' →
      st.Balanced st' := by
  induction ts with
  | nil =>
    intro st st' h
    rw [Class.importTraitPropsLoop] at h
    injection h with h
    subst h
    exact PropState.Balanced.balanced_refl _
  | cons trait rest ih =>
    intro st st' h
    rw [Class.importTraitPropsLoop] at h
    cases h1 : Class.importTraitInstanceProps env this trait trait.m_declProperties.m_list 0 st with
    | error e => simp [h1] at h
    | ok st1 =>
      simp only [h1] at h
      cases h2 : Class.importTraitStaticProps env this trait.m_staticProperties.m_list st1 with
      | error e => simp [h2] at h
      | ok st2 =>
        simp only [h2] at h
        exact ((Class.importTraitInstanceProps_balanced _ 0 st st1 h1).balanced_trans
          (Class.importTraitStaticProps_balanced _ st1 st2 h2)).balanced_trans (ih st2 st' h)

/-- The builders of `setProperties` after the main loop and the import of the
trait properties are in step with what the class took over from its parent. -/
theorem Class.buildProps_balanced {env : Env} {parent : Option Class} {usedTraits : List Class}
    {this : Class} {st : PropState}
    (h : Class.buildProps env parent usedTraits this = .ok st) :
    (Class.inheritedProps parent).Balanced st := by
  unfold Class.buildProps at h
  cases h1 : Class.addOwnProps env parent this this.m_preClass.m_properties
      (Class.inheritedProps parent) with
  | error e => simp [h1] at h
  | ok st1 =>
    simp only [h1] at h
    have e1 := Class.addOwnProps_balanced _ _ _ h1
    unfold Class.importTraitProps at h
    split at h
    · injection h with h
      subst h
      exact e1
    · exact e1.balanced_trans (Class.importTraitPropsLoop_balanced _ _ _ h)

theorem Class.copyParentProps_count (l : List Class.Prop) :
    ∀ (st : PropMap × Nat), (Class.copyParentProps l st).2 =
      st.2 + l.countP (fun p => hasAttr p.m_attrs AttrPrivate) := by
  induction l with
  | nil => intro st; simp [Class.copyParentProps]
  | cons p rest ih =>
    intro st
    rw [Class.copyParentProps]
    simp only []
    by_cases hp : hasAttr p.m_attrs AttrPrivate = true
    · simp only [hp, Bool.not_true, Bool.false_eq_true, if_false]
      rw [ih, List.countP_cons]
      simp only [hp, if_true]
      omega
    · have hp' : hasAttr p.m_attrs AttrPrivate = false := by simpa using hp
      simp only [hp', Bool.not_false, if_true]
      rw [ih, List.countP_cons]
      simp only [hp', Bool.false_eq_true, if_false, Nat.add_zero]

theorem Class.copyParentProps_wf (l : List Class.Prop) :
    ∀ (st : PropMap × Nat), st.1.WF → (Class.copyParentProps l st).1.WF := by
  induction l with
  | nil => intro st h; exact h
  | cons p rest ih =>
    intro st h
    rw [Class.copyParentProps]
    simp only []
    split
    · exact ih _ (h.add _ _)
    · exact ih _ (h.addUnnamed _)

/-- What the class takes over from its parent: the count of the private
properties of the table of the parent, and a well-formed name map. -/
theorem Class.inheritedProps_fields (parent : Option Class) :
    (Class.inheritedProps parent).numInaccessible =
      (Class.parentPropList parent).countP (fun p => hasAttr p.m_attrs AttrPrivate) ∧
    (Class.inheritedProps parent).curPropMap.WF ∧
    (Class.inheritedProps parent).m_declPropInit =
      (match parent with
        | some p => p.m_declPropInit
        | none => []) := by
  cases parent with
  | none => exact ⟨rfl, IndexedStringMap.WF.empty, rfl⟩
  | some p =>
    refine ⟨?_, ?_, rfl⟩
    · simp only [Class.inheritedProps, Class.parentPropList]
      rw [Class.copyParentProps_count]
      simp
    · simp only [Class.inheritedProps]
      exact Class.copyParentProps_wf _ _ IndexedStringMap.WF.empty

/-- One link: the class has one initial value for each slot of its table when
its parent has, and the name map of its table is well formed. -/
theorem Class.newClass_sizes {env : Env} {self : ClassId} {pre : PreClass}
    {parent : Option Class} {cls : Class} (h : Class.newClass env self pre parent = .ok cls)
    (hp : ∀ p, parent = some p → p.m_declPropInit.length = p.m_declProperties.m_list.length) :
    cls.m_declPropInit.length = cls.m_declProperties.m_list.length ∧
    cls.m_declProperties.WF := by
  obtain ⟨usedTraits, c5, st, -, -, -, -, -, hb, hd, -, hi, -⟩ := Class.newClass_props h
  obtain ⟨-, b2, b3⟩ := Class.buildProps_balanced hb
  obtain ⟨-, f2, f3⟩ := Class.inheritedProps_fields parent
  have hl := Class.inheritedProps_list parent
  rw [hd, hi]
  refine ⟨?_, b3 f2⟩
  rw [f3, hl] at b2
  cases parent with
  | none =>
    simp only [Class.parentPropList, List.length_nil] at b2
    omega
  | some p =>
    have := hp p rfl
    simp only [Class.parentPropList] at b2
    omega

theorem LinkedHeap.propInv {h : ClassId → Option Class} (hl : LinkedHeap h) : HeapPropInv h := by
  induction hl with
  | empty => intro id c hc; simp at hc
  | link env self pre parent cls hprev hfresh hpar hn ih =>
    intro id c hc
    by_cases hid : id = self
    · subst hid
      simp only [if_true] at hc
      injection hc with hc
      subst hc
      exact Class.newClass_sizes hn (fun p hp => (ih p.m_self p (hpar p hp)).1)
    · simp only [hid, if_false] at hc
      exact ih id c hc

theorem Class.pinitArray_ok (tvSentinel : TypedValue) :
    ∀ (props : List Class.Prop) (vec : List TypedValueAux) (a : PropArray),
      props.length ≤ vec.length → ∃ arg0, Class.pinitArray tvSentinel props vec a = .ok arg0 := by
  intro props
  induction props with
  | nil => intro vec a _; exact ⟨a, by simp [Class.pinitArray]⟩
  | cons p ps ih =>
    intro vec a hlen
    cases vec with
    | nil => simp at hlen
    | cons d rest =>
      simp only [Class.pinitArray]
      exact ih rest _ (by simpa using hlen)

/-- C40: in a heap whose classes were all built by linking, every class has as
many declared initial values as its declared-property table has slots.  So
every slot that the table holds, and every slot that a lookup by name finds,
is an index into the vector of initial values, and the first loop of the lazy
initialisation, which reads the vector slot by slot, does not run off it. -/
theorem C40_prop_init_sizes (h : ClassId → Option Class) (hl : LinkedHeap h) (id : ClassId)
    (cls : Class) (hc : h id = some cls) :
    cls.m_declPropInit.length = cls.m_declProperties.size ∧
    (∀ (slot : Nat) (p : Class.Prop), cls.m_declProperties.get? slot = some p →
      ∃ tv, cls.m_declPropInit[slot]? = some tv) ∧
    (∀ (name : String) (slot : Nat), cls.lookupDeclProp name = some slot →
      ∃ p tv, cls.m_declProperties.get? slot = some p ∧ cls.m_declPropInit[slot]? = some tv) ∧
    (∀ tvSentinel : TypedValue, ∃ arg0,
      Class.pinitArray tvSentinel cls.m_declProperties.m_list cls.m_declPropInit [] = .ok arg0) := by
  obtain ⟨hlen, hwf⟩ := LinkedHeap.propInv hl id cls hc
  have hslot : ∀ slot : Nat, slot < cls.m_declProperties.m_list.length →
      ∃ tv, cls.m_declPropInit[slot]? = some tv := by
    intro slot hlt
    exact ⟨_, List.getElem?_eq_getElem (by rw [hlen]; exact hlt)⟩
  refine ⟨hlen, ?_, ?_, ?_⟩
  · intro slot p hp
    exact hslot slot (List.getElem?_eq_some.1 hp).1
  · intro name slot hf
    unfold Class.lookupDeclProp IndexedStringMap.find at hf
    cases hx : List.find? (fun e => keyEq true e.1 name) cls.m_declProperties.m_map with
    | none => simp [hx] at hf
    | some e =>
      simp only [hx, Option.map_some', Option.some.injEq] at hf
      have hlt : slot < cls.m_declProperties.m_list.length := by
        rw [← hf]
        exact hwf.1 e (List.mem_of_find?_eq_some hx)
      obtain ⟨tv, htv⟩ := hslot slot hlt
      exact ⟨_, tv, List.getElem?_eq_getElem hlt, htv⟩
  · intro tvSentinel
    exact Class.pinitArray_ok tvSentinel _ _ _ (by rw [hlen])

theorem heapPriv_linked : LinkedHeap heapPriv := by
  have h0 : LinkedHeap env0.classes := LinkedHeap.empty
  have h1 : LinkedHeap envPriv.classes :=
    LinkedHeap.link env0 40 prePrivParent none exPrivParent h0 rfl (fun p hp => by cases hp) rfl
  exact LinkedHeap.link envPriv 41 prePrivChild (some exPrivParent) exPrivChild h1 rfl
    (fun p hp => by injection hp with hp; subst hp; rfl) exPrivChild_linked

/-- Witness of C40: the class `Q`, which extends `P`, has four declared
properties and four initial values. -/
theorem C40_prop_init_sizes_witness :
    exPrivChild.m_declProperties.size = 4 ∧
    exPrivChild.m_declPropInit.map (fun d => d.tv) = [.int 1, .int 6, .int 2, .int 7] ∧
    exPrivChild.m_declPropInit.length = exPrivChild.m_declProperties.size :=
  ⟨rfl, rfl, (C40_prop_init_sizes heapPriv heapPriv_linked 41 exPrivChild rfl).1⟩

/-- C32 (refuted as written): the class `P` declares a private `p` and a
protected `q`; its table has two slots, one of them private, and its count of
accessible properties is 2, not 1. -/
theorem C32_counterexample :
    Class.newClass env0 40 prePrivParent none = .ok exPrivParent ∧
    exPrivParent.m_declProperties.size = 2 ∧
    exPrivParent.m_declProperties.m_list.countP (fun p => hasAttr p.m_attrs AttrPrivate) = 1 ∧
    exPrivParent.m_declPropNumAccessible = 2 ∧
    exPrivParent.m_declPropNumAccessible ≠
      (exPrivParent.m_declProperties.size : Int) -
        (exPrivParent.m_declProperties.m_list.countP
          (fun p => hasAttr p.m_attrs AttrPrivate) : Int) :=
  ⟨rfl, rfl, rfl, rfl, by decide⟩

/-- C32 (amended): for every linked class the count of accessible properties
is the size of the declared-property table minus the number of private
properties in the table of the parent (the size itself without a parent).  The
private properties of the parent are stored in the table of the class, in their
slots, private and with their mangled names; the private properties that the
class declares or imports from a trait are stored and counted. -/
theorem C32_accessible_count (env : Env) (self : ClassId) (pre : PreClass)
    (parent : Option Class) (cls : Class)
    (h : Class.newClass env self pre parent = .ok cls) :
    cls.m_declPropNumAccessible =
      (cls.m_declProperties.size : Int) -
        ((Class.parentPropList parent).countP (fun p => hasAttr p.m_attrs AttrPrivate) : Int) ∧
    (∀ (i : Nat) (p : Class.Prop), (Class.parentPropList parent)[i]? = some p →
      visOf p.m_attrs = AttrPrivate →
      ∃ q, cls.m_declProperties.get? i = some q ∧ q.m_name = p.m_name ∧
        q.m_class = p.m_class ∧ q.m_mangledName = p.m_mangledName ∧
        visOf q.m_attrs = AttrPrivate) ∧
    (parent = none → cls.m_declPropNumAccessible = (cls.m_declProperties.size : Int)) := by
  obtain ⟨usedTraits, c5, st, -, -, -, -, -, hb, hd, -, -, hn⟩ := Class.newClass_props h
  obtain ⟨b1, -, -⟩ := Class.buildProps_balanced hb
  obtain ⟨f1, -, -⟩ := Class.inheritedProps_fields parent
  have hcount : cls.m_declPropNumAccessible =
      (cls.m_declProperties.size : Int) -
        ((Class.parentPropList parent).countP (fun p => hasAttr p.m_attrs AttrPrivate) : Int) := by
    rw [hn, hd, b1, f1]
  refine ⟨hcount, ?_, ?_⟩
  · intro i p hi hpriv
    obtain ⟨-, e2, -⟩ := Class.newClass_propsEvolve h
    obtain ⟨q, hq, d1, d2, d3⟩ := e2 i p hi
    exact ⟨q, hq, d1, d2, (d3 hpriv).1, (d3 hpriv).2⟩
  · intro hp
    rw [hcount, hp]
    simp [Class.parentPropList]

/-- Witness of C32: `Q` extends `P`, which has one private property; `Q`
declares a private property too.  The table of `Q` has four slots and its count
of accessible properties is 3. -/
theorem C32_accessible_count_witness :
    Class.newClass envPriv 41 prePrivChild (some exPrivParent) = .ok exPrivChild ∧
    exPrivChild.m_declProperties.size = 4 ∧
    exPrivChild.m_declProperties.m_list.countP (fun p => hasAttr p.m_attrs AttrPrivate) = 2 ∧
    exPrivChild.m_declPropNumAccessible = 3 ∧
    exPrivChild.m_declPropNumAccessible =
      (exPrivChild.m_declProperties.size : Int) -
        ((Class.parentPropList (some exPrivParent)).countP
          (fun p => hasAttr p.m_attrs AttrPrivate) : Int) :=
  ⟨rfl, rfl, rfl, rfl,
    (C32_accessible_count envPriv 41 prePrivChild (some exPrivParent) exPrivChild rfl).1⟩

/-- The last loop of `initSPropsImpl`, slot by slot: the slot of an entry that
the class declares holds the value that an `86sinit` routine produced for the
name or else the initial value of the entry; the slot of any other entry holds
an indirect reference to the storage of the declaring class. -/
theorem Class.fillSPropTable_slots (env : Env)
    (g : Class → String → RequestState → Run SPropResult) (tvSentinel : TypedValue)
    (propArr : Option PropArray) (this : Class) :
    ∀ (L : List Class.SProp) (T0 T : List TypedValue) (st st' : RequestState),
      Class.fillSPropTable env g tvSentinel propArr this L T0 st = (.ok T, st') →
      T.length = T0.length + L.length ∧
      (∀ i : Nat, i < T0.length → T[i]? = T0[i]?) ∧
      ∀ (j : Nat) (e : Class.SProp), L[j]? = some e →
        (e.m_class = this.m_self →
          (Class.getValueFromArr tvSentinel propArr e.m_name = .ok none ∧
            T[T0.length + j]? = some e.m_val) ∨
          (∃ value, Class.getValueFromArr tvSentinel propArr e.m_name = .ok (some value) ∧
            T[T0.length + j]? = some value)) ∧
        (e.m_class ≠ this.m_self → ∃ storage, T[T0.length + j]? = some (.indirect storage)) := by
  intro L
  induction L with
  | nil =>
    intro T0 T st st' h
    simp only [Class.fillSPropTable, Prod.mk.injEq, Except.ok.injEq] at h
    obtain ⟨h1, -⟩ := h
    subst h1
    exact ⟨rfl, fun _ _ => rfl, fun j e hj => by simp at hj⟩
  | cons sProp rest ih =>
    intro T0 T st st' h
    have key : ∀ (v : TypedValue) (s1 : RequestState),
        Class.fillSPropTable env g tvSentinel propArr this rest (T0 ++ [v]) s1 = (.ok T, st') →
        T.length = T0.length + (sProp :: rest).length ∧
        (∀ i : Nat, i < T0.length → T[i]? = T0[i]?) ∧
        T[T0.length]? = some v ∧
        ∀ (j : Nat) (e : Class.SProp), rest[j]? = some e →
          (e.m_class = this.m_self →
            (Class.getValueFromArr tvSentinel propArr e.m_name = .ok none ∧
              T[T0.length + (j + 1)]? = some e.m_val) ∨
            (∃ value, Class.getValueFromArr tvSentinel propArr e.m_name = .ok (some value) ∧
              T[T0.length + (j + 1)]? = some value)) ∧
          (e.m_class ≠ this.m_self →
            ∃ storage, T[T0.length + (j + 1)]? = some (.indirect storage)) := by
      intro v s1 h1
      obtain ⟨a1, a2, a3⟩ := ih (T0 ++ [v]) T s1 st' h1
      have hlen : (T0 ++ [v]).length = T0.length + 1 := by simp
      refine ⟨by rw [a1, hlen]; simp; omega, ?_, ?_, ?_⟩
      · intro i hi
        rw [a2 i (by rw [hlen]; omega), List.getElem?_append_left hi]
      · rw [a2 T0.length (by rw [hlen]; omega)]
        simp
      · intro j e hj
        have := a3 j e hj
        rw [hlen, Nat.add_assoc, Nat.add_comm 1 j] at this
        exact this
    have fin : ∀ (v : TypedValue) (s1 : RequestState),
        Class.fillSPropTable env g tvSentinel propArr this rest (T0 ++ [v]) s1 = (.ok T, st') →
        ((sProp.m_class = this.m_self →
          (Class.getValueFromArr tvSentinel propArr sProp.m_name = .ok none ∧
            v = sProp.m_val) ∨
          (∃ value, Class.getValueFromArr tvSentinel propArr sProp.m_name = .ok (some value) ∧
            v = value)) ∧
        (sProp.m_class ≠ this.m_self → ∃ storage, v = .indirect storage)) →
        T.length = T0.length + (sProp :: rest).length ∧
        (∀ i : Nat, i < T0.length → T[i]? = T0[i]?) ∧
        ∀ (j : Nat) (e : Class.SProp), (sProp :: rest)[j]? = some e →
          (e.m_class = this.m_self →
            (Class.getValueFromArr tvSentinel propArr e.m_name = .ok none ∧
              T[T0.length + j]? = some e.m_val) ∨
            (∃ value, Class.getValueFromArr tvSentinel propArr e.m_name = .ok (some value) ∧
              T[T0.length + j]? = some value)) ∧
          (e.m_class ≠ this.m_self →
            ∃ storage, T[T0.length + j]? = some (.indirect storage)) := by
      intro v s1 h1 hv
      obtain ⟨k1, k2, k3, k4⟩ := key v s1 h1
      refine ⟨k1, k2, ?_⟩
      intro j e hj
      cases j with
      | zero =>
        simp only [List.getElem?_cons_zero, Option.some.injEq] at hj
        subst hj
        simp only [Nat.add_zero]
        refine ⟨fun ho => ?_, fun hn => ?_⟩
        · rcases hv.1 ho with ⟨g1, g2⟩ | ⟨value, g1, g2⟩
          · exact Or.inl ⟨g1, by rw [k3, g2]⟩
          · exact Or.inr ⟨value, g1, by rw [k3, g2]⟩
        · obtain ⟨storage, hs⟩ := hv.2 hn
          exact ⟨storage, by rw [k3, hs]⟩
      | succ j' =>
        simp only [List.getElem?_cons_succ] at hj
        exact k4 j' e hj
    rw [Class.fillSPropTable] at h
    simp only [] at h
    by_cases hown : sProp.m_class = this.m_self
    · rw [if_pos hown] at h
      cases hg : Class.getValueFromArr tvSentinel propArr sProp.m_name with
      | error x => simp [hg] at h
      | ok o =>
        cases o with
        | none =>
          simp only [hg] at h
          exact fin _ _ h ⟨fun _ => Or.inl ⟨hg, rfl⟩, fun hn => absurd hown hn⟩
        | some value =>
          simp only [hg] at h
          exact fin _ _ h ⟨fun _ => Or.inr ⟨value, hg, rfl⟩, fun hn => absurd hown hn⟩
    · rw [if_neg hown] at h
      cases hd : env.deref sProp.m_class with
      | error x => simp [hd] at h
      | ok declCls =>
        simp only [hd] at h
        cases hr : g declCls sProp.m_name st with
        | mk res s1 =>
          cases res with
          | error x => simp [hr] at h
          | ok r =>
            simp only [hr] at h
            cases hg : Class.getValueFromArr tvSentinel propArr sProp.m_name with
            | error x => simp [hg] at h
            | ok o =>
              cases o with
              | none =>
                simp only [hg] at h
                exact fin _ _ h ⟨fun ho => absurd ho hown, fun _ => ⟨_, rfl⟩⟩
              | some value =>
                simp only [hg] at h
                cases hs : r.sProp with
                | none => simp [hs] at h
                | some cell =>
                  simp only [hs] at h
                  exact fin _ _ h ⟨fun ho => absurd ho hown, fun _ => ⟨_, rfl⟩⟩

/-- The table that `initSPropsImpl` returns, slot by slot. -/
theorem Class.initSPropsImpl_slots (env : Env) (ec : ExecutionContext) (fuel : Nat)
    (this : Class) (st : RequestState) (T : List TypedValue)
    (h : (Class.initSPropsImpl env ec fuel this st).1 = .ok T) :
    T.length = this.m_staticProperties.size ∧
    ∀ (slot : Nat) (e : Class.SProp), this.m_staticProperties.get? slot = some e →
      (e.m_class = this.m_self →
        T[slot]? = some e.m_val ∨
        ∃ (arr : PropArray) (value : TypedValue),
          Class.invokeInits ec this this.m_sinitVec
            (Class.sinitArray (.obj ec.pinitSentinel) this.m_staticProperties.m_list []) =
              .ok arr ∧
          arr.nvGet e.m_name = some value ∧ value ≠ .obj ec.pinitSentinel ∧
          T[slot]? = some value) ∧
      (e.m_class ≠ this.m_self → ∃ storage, T[slot]? = some (.indirect storage)) := by
  revert h
  unfold Class.initSPropsImpl Class.initSPropsImplWith
  simp only []
  split
  · intro h; cases h
  · rename_i propArr hp
    intro h
    generalize hres : Class.fillSPropTable env
      (fun declCls name s => Class.getSProp env ec fuel declCls none name s) _ propArr
      this this.m_staticProperties.m_list [] st = res at h
    obtain ⟨r1, st'⟩ := res
    simp only [] at h
    subst h
    obtain ⟨a1, -, a3⟩ := Class.fillSPropTable_slots _ _ _ _ _ _ _ _ _ _ hres
    refine ⟨by simpa [IndexedStringMap.size] using a1, ?_⟩
    intro slot e he
    obtain ⟨b1, b2⟩ := a3 slot e he
    simp only [List.length_nil, Nat.zero_add] at b1 b2
    refine ⟨fun ho => ?_, b2⟩
    rcases b1 ho with ⟨-, g2⟩ | ⟨value, g1, g2⟩
    · exact Or.inl g2
    · right
      unfold Class.getValueFromArr at g1
      cases propArr with
      | none => simp at g1
      | some arr =>
        simp only [] at g1
        cases hn : arr.nvGet e.m_name with
        | none => simp [hn] at g1
        | some v =>
          simp only [hn] at g1
          by_cases hs : (!this.m_sinitVec.isEmpty) = true
          · simp only [hs, if_true] at hp g1
            cases hi : Class.invokeInits ec this this.m_sinitVec
                (Class.sinitArray (TypedValue.obj ec.pinitSentinel)
                  this.m_staticProperties.m_list []) with
            | error x => simp [hi] at hp
            | ok arr' =>
              simp only [hi, Except.ok.injEq, Option.some.injEq] at hp
              subst hp
              by_cases hc : (v != TypedValue.obj ec.pinitSentinel) = true
              · rw [if_pos hc] at g1
                injection g1 with g1
                injection g1 with g1
                subst g1
                exact ⟨arr', v, rfl, hn, by simpa using hc, g2⟩
              · rw [if_neg hc] at g1
                injection g1 with g1
                cases g1
          · simp only [hs, Bool.false_eq_true, if_false] at hp
            injection hp with hp
            cases hp

/-- C37: the builder of the static properties resolves the name of the static
property `traitProp` of a used trait to the entry `prev` in slot `slot`, the
class at hand is not the declaring class of `prev` (the entry is inherited and
not declared again), no instance property has the name, the declaring class
gives the initial value `v` for it, and the two declarations are compatible
(same attributes, compatible initial values).  Then the import succeeds and
leaves in slot `slot` the entry `prev` with the class itself as declaring class
and `v` as value; the name still resolves to the slot, the table has the same
size and every other slot is as before.  In the lazy initialisation of a class,
the slot of an entry that the class declares holds the initial value of the
entry or the value of an `86sinit` routine, not an alias; the slot of an entry
of another class holds an indirect reference to the storage of that class. -/
theorem C37_trait_static_import (env : Env) (this : Class) (traitProp : Class.SProp)
    (st : PropState) (slot : Nat) (prev : Class.SProp) (v : TypedValue)
    (hfree : st.curPropMap.find traitProp.m_name = none)
    (hl : st.curSPropMap.lookup traitProp.m_name = some (slot, prev))
    (hinh : prev.m_class ≠ this.m_self)
    (hval : Class.getStaticPropInitVal env prev = .ok v)
    (hattrs : prev.m_attrs = traitProp.m_attrs)
    (hcompat : Class.compatibleTraitPropInit env traitProp.m_val v = true) :
    (∃ st', Class.importTraitStaticProp env this traitProp st = .ok st' ∧
      st'.curSPropMap = st.curSPropMap.set slot { prev with m_class := this.m_self, m_val := v } ∧
      st'.curSPropMap.lookup traitProp.m_name =
        some (slot, { prev with m_class := this.m_self, m_val := v }) ∧
      st'.curSPropMap.size = st.curSPropMap.size ∧
      (∀ j : Nat, j ≠ slot → st'.curSPropMap.get? j = st.curSPropMap.get? j) ∧
      st'.curPropMap = st.curPropMap) ∧
    (∀ (ec : ExecutionContext) (fuel : Nat) (cls : Class) (s : RequestState)
      (T : List TypedValue) (i : Nat) (e : Class.SProp),
      (Class.initSPropsImpl env ec fuel cls s).1 = .ok T →
      cls.m_staticProperties.get? i = some e →
      (e.m_class = cls.m_self →
        T[i]? = some e.m_val ∨
        ∃ (arr : PropArray) (value : TypedValue),
          Class.invokeInits ec cls cls.m_sinitVec
            (Class.sinitArray (.obj ec.pinitSentinel) cls.m_staticProperties.m_list []) =
              .ok arr ∧
          arr.nvGet e.m_name = some value ∧ value ≠ .obj ec.pinitSentinel ∧
          T[i]? = some value) ∧
      (e.m_class ≠ cls.m_self → ∃ storage, T[i]? = some (.indirect storage))) := by
  constructor
  · have hf := (IndexedStringMap.lookup_eq_some.1 hl).1
    have hg : st.curSPropMap.get? slot = some prev := (IndexedStringMap.lookup_eq_some.1 hl).2
    have hrun : Class.importTraitStaticProp env this traitProp st =
        .ok { st with curSPropMap :=
          st.curSPropMap.set slot { prev with m_class := this.m_self, m_val := v } } := by
      unfold Class.importTraitStaticProp
      simp only [hfree, Option.isSome_none, Bool.false_eq_true, if_false, hf, hg,
        if_neg hinh, hval, hattrs, hcompat, bne_self_eq_false, Bool.not_true, Bool.or_self]
    refine ⟨_, hrun, rfl, ?_, ?_, ?_, rfl⟩
    · exact IndexedStringMap.lookup_set_same _ _ _ _ _ hl
    · simp [IndexedStringMap.size, IndexedStringMap.set]
    · intro j hj
      simp only [IndexedStringMap.get?, IndexedStringMap.set]
      rw [List.getElem?_set_ne (Ne.symm hj)]
  · intro ec fuel cls s T i e hT he
    exact (Class.initSPropsImpl_slots env ec fuel cls s T hT).2 i e he

/-- Witness of C37: `UX` extends `R`, which declares the static `x = 1`, and
uses the trait `TX`, which declares `x = 1` too.  The import makes `UX` the
declaring class of the entry in slot 0, with the value 1; initialised, the table
of `UX` holds 1 in the slot, while the table of `PX`, which only inherits `x`,
holds the indirect reference to the cell of `R`. -/
theorem C37_trait_static_import_witness :
    exBeforeImportX.curSPropMap.lookup "x"
      = some (0, ⟨"x", AttrPublic ||| AttrStatic, "", "", 50, .uninit⟩) ∧
    (∃ st', Class.importTraitStaticProp envTraitX exUseX
        ⟨"x", AttrPublic ||| AttrStatic, "", "", 103, .int 1⟩ exBeforeImportX = .ok st' ∧
      st'.curSPropMap.lookup "x"
        = some (0, ⟨"x", AttrPublic ||| AttrStatic, "", "", 104, .int 1⟩)) ∧
    exUseX.m_staticProperties.m_list = [⟨"x", AttrPublic ||| AttrStatic, "", "", 104, .int 1⟩] ∧
    (Class.initSPropsImpl envTraitX exEC 3 exUseX RequestState.fresh).1 = .ok [.int 1] ∧
    (Class.initSPropsImpl envTraitX exEC 3 exPlainX RequestState.fresh).1
      = .ok [.indirect (some (50, 0))] := by
  refine ⟨rfl, ?_, rfl, rfl, rfl⟩
  obtain ⟨st', h1, -, h3, -⟩ := (C37_trait_static_import envTraitX exUseX
    ⟨"x", AttrPublic ||| AttrStatic, "", "", 103, .int 1⟩ exBeforeImportX 0
    ⟨"x", AttrPublic ||| AttrStatic, "", "", 50, .uninit⟩ (.int 1)
    rfl rfl (by decide) rfl rfl rfl).1
  exact ⟨st', h1, h3⟩

theorem SPropMap.AllFound.distinct {T : SPropMap} (h : SPropMap.AllFound T) {i j : Nat}
    {a b : Class.SProp} (ha : T.m_list[i]? = some a) (hb : T.m_list[j]? = some b)
    (hn : a.m_name = b.m_name) : i = j := by
  have h1 := h i a ha
  have h2 := h j b hb
  rw [hn, h2] at h1
  injection h1 with h1
  exact h1.symm

theorem SPropMap.AllFound.lookup {T : SPropMap} (h : SPropMap.AllFound T) {j : Nat}
    {e : Class.SProp} (he : T.m_list[j]? = some e) : T.lookup e.m_name = some (j, e) :=
  IndexedStringMap.lookup_eq_some.2 ⟨h j e he, he⟩

theorem SPropMap.AllFound.found_add {T : SPropMap} (h : SPropMap.AllFound T) (n : String)
    (v : Class.SProp) (hv : v.m_name = n) (hfree : ∀ e, e ∈ T.m_list → e.m_name ≠ n) :
    SPropMap.AllFound (T.add n v) := by
  intro j e hj
  simp only [IndexedStringMap.add] at hj
  rw [IndexedStringMap.find_add]
  by_cases hlt : j < T.m_list.length
  · rw [List.getElem?_append_left hlt] at hj
    have hne : e.m_name ≠ n := hfree e (List.mem_iff_getElem?.2 ⟨j, hj⟩)
    have hk : ¬ keyEq true n e.m_name = true := by
      rw [keyEq_sensitive]
      exact fun hx => hne hx.symm
    rw [if_neg hk]
    exact h j e hj
  · have hge : T.m_list.length ≤ j := Nat.le_of_not_lt hlt
    rw [List.getElem?_append_right hge] at hj
    have hj0 : j - T.m_list.length = 0 := by
      by_contra hx
      have : ([v] : List Class.SProp)[j - T.m_list.length]? = none := by
        apply List.getElem?_eq_none
        simp
        omega
      rw [this] at hj
      cases hj
    rw [hj0] at hj
    simp only [List.getElem?_cons_zero, Option.some.injEq] at hj
    subst hj
    have hk : keyEq true n v.m_name = true := by
      rw [keyEq_sensitive]
      exact hv.symm
    rw [if_pos hk]
    congr 1
    omega

theorem SPropMap.AllFound.found_set {T : SPropMap} (h : SPropMap.AllFound T) (i : Nat)
    (e v : Class.SProp) (he : T.m_list[i]? = some e) (hv : v.m_name = e.m_name) :
    SPropMap.AllFound (T.set i v) := by
  intro j e' hj
  rw [IndexedStringMap.find_set]
  simp only [IndexedStringMap.set] at hj
  by_cases hij : i = j
  · subst hij
    rw [List.getElem?_set_self (List.getElem?_lt_of_some he)] at hj
    injection hj with hj
    subst hj
    rw [hv]
    exact h i e he
  · rw [List.getElem?_set_ne hij] at hj
    exact h j e' hj

theorem SPropMap.AllFound.found_step {self : ClassId} {n : String} {a : Option Attr}
    {T T' : SPropMap} (h : SPropMap.AllFound T)
    (hs : SStep self n a T T') : SPropMap.AllFound T' := by
  obtain ⟨v, -, hcase⟩ := hs
  rcases hcase with ⟨hl, hT, hv, -⟩ | ⟨i, e, hl, hT, hv, -, -⟩
  · subst hT
    apply h.found_add n v hv
    intro e he hn
    obtain ⟨j, hj⟩ := List.mem_iff_getElem?.1 he
    have := h.lookup hj
    rw [hn, hl] at this
    cases this
  · subst hT
    exact h.found_set i e v (IndexedStringMap.lookup_eq_some.1 hl).2 hv

theorem SPath.allFound {self : ClassId} {N : String → Option Attr → Prop} {T1 T2 : SPropMap}
    (h : SPath self N T1 T2) (hnk : SPropMap.NameKeyed T1) (ha : SPropMap.AllFound T1) :
    SPropMap.AllFound T2 := by
  induction h with
  | refl T => exact ha
  | step n a _ hs _ ih => exact ih (hnk.keyed_step hs) (ha.found_step hs)

/-- Along the steps of `setProperties` an entry of the builder of the static
properties either has the class itself as declaring class or is an entry of
the builder that the steps started from. -/
theorem SPath.entries {self : ClassId} {N : String → Option Attr → Prop} {T1 T2 : SPropMap}
    (h : SPath self N T1 T2) :
    ∀ e, e ∈ T2.m_list → e.m_class = self ∨ e ∈ T1.m_list := by
  induction h with
  | refl T => exact fun e he => Or.inr he
  | step n a _ hs _ ih =>
    intro e he
    rcases ih e he with h1 | h1
    · exact Or.inl h1
    · obtain ⟨v, hvc, hcase⟩ := hs
      rcases hcase with ⟨-, hT, -, -⟩ | ⟨i, e0, -, hT, -, -, -⟩
      · subst hT
        simp only [IndexedStringMap.add, List.mem_append, List.mem_singleton] at h1
        rcases h1 with h1 | h1
        · exact Or.inr h1
        · subst h1; exact Or.inl hvc
      · subst hT
        simp only [IndexedStringMap.set] at h1
        rcases List.mem_or_eq_of_mem_set h1 with h1 | h1
        · exact Or.inr h1
        · subst h1; exact Or.inl hvc

/-- The entries that the copy from the parent leaves in the builder: copies of
the entries of the parent that are not private, with the uninit marker as
value. -/
theorem Class.copyParentSProps_copies (l : List Class.SProp) :
    ∀ (T : SPropMap) (e : Class.SProp), e ∈ (Class.copyParentSProps l T).m_list →
      e ∈ T.m_list ∨ (e.m_val = .uninit ∧ hasAttr e.m_attrs AttrPrivate = false ∧
        ∃ e', e' ∈ l ∧ e'.m_class = e.m_class ∧ e'.m_name = e.m_name ∧
          hasAttr e'.m_attrs AttrPrivate = false) := by
  induction l with
  | nil => intro T e h; exact Or.inl h
  | cons p rest ih =>
    intro T e h
    rw [Class.copyParentSProps] at h
    split at h
    · rcases ih T e h with h1 | ⟨u, np, e', he', r⟩
      · exact Or.inl h1
      · exact Or.inr ⟨u, np, e', List.mem_cons_of_mem _ he', r⟩
    · rename_i hp
      have hp' : hasAttr p.m_attrs AttrPrivate = false := by simpa using hp
      rcases ih _ e h with h1 | ⟨u, np, e', he', r⟩
      · simp only [IndexedStringMap.add, List.mem_append, List.mem_singleton] at h1
        rcases h1 with h1 | h1
        · exact Or.inl h1
        · subst h1
          exact Or.inr ⟨rfl, hp', p, List.mem_cons_self _ _, rfl, rfl, hp'⟩
      · exact Or.inr ⟨u, np, e', List.mem_cons_of_mem _ he', r⟩

theorem Class.copyParentSProps_names (l : List Class.SProp) :
    ∀ (T : SPropMap) (e : Class.SProp), e ∈ (Class.copyParentSProps l T).m_list →
      e ∈ T.m_list ∨ ∃ e', e' ∈ l ∧ e'.m_name = e.m_name := by
  intro T e h
  rcases Class.copyParentSProps_copies l T e h with h1 | ⟨-, -, e', he', -, hn, -⟩
  · exact Or.inl h1
  · exact Or.inr ⟨e', he', hn⟩

theorem Class.copyParentSProps_allFound (l : List Class.SProp) :
    ∀ T : SPropMap, SPropMap.AllFound T → l.Pairwise (fun a b => a.m_name ≠ b.m_name) →
      (∀ a b, a ∈ l → b ∈ T.m_list → b.m_name ≠ a.m_name) →
      SPropMap.AllFound (Class.copyParentSProps l T) := by
  induction l with
  | nil => intro T h _ _; exact h
  | cons p rest ih =>
    intro T h hpw hfree
    obtain ⟨hp1, hp2⟩ := List.pairwise_cons.1 hpw
    rw [Class.copyParentSProps]
    split
    · exact ih T h hp2 (fun a b ha hb => hfree a b (List.mem_cons_of_mem _ ha) hb)
    · simp only []
      refine ih _ (SPropMap.AllFound.found_add h _ _ rfl
        (fun e he => hfree p e (List.mem_cons_self _ _) he)) hp2 ?_
      intro a b ha hb
      simp only [IndexedStringMap.add, List.mem_append, List.mem_singleton] at hb
      rcases hb with hb | hb
      · exact hfree a b (List.mem_cons_of_mem _ ha) hb
      · subst hb
        exact hp1 a ha

theorem SPropMap.AllFound.pairwise {T : SPropMap} (h : SPropMap.AllFound T) :
    T.m_list.Pairwise (fun a b => a.m_name ≠ b.m_name) := by
  rw [List.pairwise_iff_getElem]
  intro i j hi hj hij hn
  have := h.distinct (List.getElem?_eq_getElem hi) (List.getElem?_eq_getElem hj) hn
  omega

/-- One link keeps the static-property table in order: the table of the new
class is keyed by names, every entry is found under its name when this holds
for the parent, and an entry that the class does not declare is the copy of an
entry of the parent that is not private, with the uninit marker as value. -/
theorem Class.newClass_static_entries {env : Env} {self : ClassId} {pre : PreClass}
    {parent : Option Class} {cls : Class} (h : Class.newClass env self pre parent = .ok cls)
    (hp : ∀ p, parent = some p → SPropMap.AllFound p.m_staticProperties) :
    SPropMap.NameKeyed cls.m_staticProperties ∧ SPropMap.AllFound cls.m_staticProperties ∧
    ∀ e, e ∈ cls.m_staticProperties.m_list → e.m_class = self ∨
      (e.m_val = .uninit ∧ hasAttr e.m_attrs AttrPrivate = false ∧
        ∃ e', e' ∈ Class.parentSPropList parent ∧ e'.m_class = e.m_class ∧
          e'.m_name = e.m_name ∧ hasAttr e'.m_attrs AttrPrivate = false) := by
  obtain ⟨usedTraits, -, hpath⟩ := Class.newClass_spath h
  have hnk0 := Class.copyParentSProps_nameKeyed (Class.parentSPropList parent) _
    SPropMap.NameKeyed.keyed_empty
  have hpw : (Class.parentSPropList parent).Pairwise (fun a b => a.m_name ≠ b.m_name) := by
    cases parent with
    | none => exact List.Pairwise.nil
    | some p => exact (hp p rfl).pairwise
  have haf0 : SPropMap.AllFound
      (Class.copyParentSProps (Class.parentSPropList parent) IndexedStringMap.empty) := by
    apply Class.copyParentSProps_allFound _ _ _ hpw
    · intro a b _ hb
      simp [IndexedStringMap.empty] at hb
    · intro j e hj
      simp [IndexedStringMap.empty] at hj
  refine ⟨Class.newClass_static_nameKeyed h, hpath.allFound hnk0 haf0, ?_⟩
  intro e he
  rcases hpath.entries e he with h1 | h1
  · exact Or.inl h1
  · rcases Class.copyParentSProps_copies _ _ e h1 with h2 | h2
    · simp [IndexedStringMap.empty] at h2
    · exact Or.inr h2

theorem LinkedHeap.staticInv {h : ClassId → Option Class} (hl : LinkedHeap h) :
    HeapStaticInv h := by
  induction hl with
  | empty => intro id c hc; simp at hc
  | link env self pre parent cls hprev hfresh hpar hn ih =>
    have hold : ∀ x a, env.classes x = some a →
        (fun id => if id = self then some cls else env.classes id) x = some a := by
      intro x a hx
      have : x ≠ self := by
        intro hxs; rw [hxs, hfresh] at hx; cases hx
      simp [this, hx]
    intro id c hc
    by_cases hid : id = self
    · subst hid
      simp only [if_true] at hc
      injection hc with hc
      subst hc
      obtain ⟨hnk, haf, hent⟩ := Class.newClass_static_entries hn
        (fun p hp => (ih p.m_self p (hpar p hp)).2.2.1)
      refine ⟨(Class.newClass_core hn).1, hnk, haf, ?_⟩
      intro e he
      rcases hent e he with h1 | ⟨hu, hnp, e', he', hc', hn', -⟩
      · refine ⟨?_, fun hne => absurd h1 hne⟩
        obtain ⟨j, hj⟩ := List.mem_iff_getElem?.1 he
        exact ⟨cls, j, e, by simp [h1], haf.lookup hj, rfl, rfl⟩
      · constructor
        · cases parent with
          | none => simp [Class.parentSPropList] at he'
          | some p =>
            simp only [Class.parentSPropList] at he'
            obtain ⟨⟨d, i, e'', hd, hlk, hc'', hn''⟩, -⟩ :=
              (ih p.m_self p (hpar p rfl)).2.2.2 e' he'
            rw [hc'] at hd hc''
            rw [hn'] at hlk hn''
            exact ⟨d, i, e'', hold _ _ hd, hlk, hc'', hn''⟩
        · exact fun _ => ⟨hu, hnp⟩
    · simp only [hid, if_false] at hc
      obtain ⟨a1, a2, a3, a4⟩ := ih id c hc
      refine ⟨a1, a2, a3, ?_⟩
      intro e he
      obtain ⟨⟨d, i, e', hd, r⟩, b2⟩ := a4 e he
      exact ⟨⟨d, i, e', hold _ _ hd, r⟩, b2⟩
/-- C39: a class is linked into a heap whose classes were all built by
linking.  In the heap with the new class, for every class and every entry of
its static-property table, the declaring class of the entry is a class of the
heap whose own table resolves the name of the entry to an entry of that name
that it declares itself; so `getStaticPropInitVal` finds the owner and the
entry and returns the value of that entry, and the dereference of the owner in
the lazy initialisation succeeds.  An entry that the class does not declare
holds the uninit marker and is not private.  And no entry of the table of the
new class has the name and the declaring class of a private static property of
the parent. -/
theorem C39_static_owner (env : Env) (self : ClassId) (pre : PreClass)
    (parent : Option Class) (cls : Class)
    (hl : LinkedHeap env.classes) (hfresh : env.classes self = none)
    (hpar : ∀ p, parent = some p → env.classes p.m_self = some p)
    (hn : Class.newClass env self pre parent = .ok cls) :
    (∀ env' : Env, env'.classes = (fun id => if id = self then some cls else env.classes id) →
      ∀ (id : ClassId) (c : Class) (e : Class.SProp), env'.classes id = some c →
        e ∈ c.m_staticProperties.m_list →
        (∃ d i e', env'.classes e.m_class = some d ∧ env'.deref e.m_class = .ok d ∧
          d.m_self = e.m_class ∧
          d.m_staticProperties.lookup e.m_name = some (i, e') ∧
          e'.m_class = e.m_class ∧ e'.m_name = e.m_name ∧
          Class.getStaticPropInitVal env' e = .ok e'.m_val) ∧
        (e.m_class ≠ c.m_self →
          e.m_val = .uninit ∧ hasAttr e.m_attrs AttrPrivate = false)) ∧
    (∀ (p : Class) (e' : Class.SProp), parent = some p →
      e' ∈ p.m_staticProperties.m_list → hasAttr e'.m_attrs AttrPrivate = true →
      ∀ e, e ∈ cls.m_staticProperties.m_list →
        ¬ (e.m_name = e'.m_name ∧ e.m_class = e'.m_class)) := by
  have hinv0 := LinkedHeap.staticInv hl
  have hinv := LinkedHeap.staticInv (LinkedHeap.link env self pre parent cls hl hfresh hpar hn)
  constructor
  · intro env' henv id c e hc he
    rw [henv] at hc
    obtain ⟨a1, -, -, a4⟩ := hinv id c hc
    obtain ⟨⟨d, i, e', hd, hlk, hc', hn'⟩, b2⟩ := a4 e he
    have hd' : env'.classes e.m_class = some d := by rw [henv]; exact hd
    have hderef : env'.deref e.m_class = .ok d := by
      unfold Env.deref
      rw [hd']
    refine ⟨⟨d, i, e', hd', hderef, (hinv _ d hd).1, hlk, hc', hn', ?_⟩, ?_⟩
    · unfold Class.getStaticPropInitVal
      rw [hderef]
      simp only [hlk]
    · intro hne
      rw [a1] at hne
      exact b2 hne
  · intro p e' hp he' hpriv e he hsame
    obtain ⟨hname, hclass⟩ := hsame
    have hpin := hpar p hp
    obtain ⟨-, -, haf, hent⟩ := hinv0 p.m_self p hpin
    obtain ⟨-, -, hcases⟩ := Class.newClass_static_entries hn
      (fun q hq => (hinv0 q.m_self q (hpar q hq)).2.2.1)
    rcases hcases e he with h1 | ⟨-, -, e'', he'', -, hn'', hnp⟩
    · obtain ⟨⟨d, -, -, hd, -⟩, -⟩ := hent e' he'
      rw [← hclass, h1, hfresh] at hd
      cases hd
    · subst hp
      simp only [Class.parentSPropList] at he''
      obtain ⟨i, hi⟩ := List.mem_iff_getElem?.1 he'
      obtain ⟨j, hj⟩ := List.mem_iff_getElem?.1 he''
      have hij := haf.distinct hj hi (hn''.trans hname)
      subst hij
      rw [hj] at hi
      injection hi with hi
      subst hi
      rw [hnp] at hpriv
      cases hpriv

/-- Witness of C39: `SQ` extends `SP`, which declares a private static `s` and
a public static `t`.  The table of `SQ` holds `t`, declared by `SP`, with the
uninit marker, and its own `u`; `s` is not in it, and the initial value of `t`
is found in the table of `SP`. -/
theorem C39_static_owner_witness :
    Class.newClass envSecret 107 preSecretKid (some exSecret) = .ok exSecretKid ∧
    exSecret.m_staticProperties.m_list.map (fun e => (e.m_name, e.m_class, e.m_val))
      = [("s", 106, .int 1), ("t", 106, .int 2)] ∧
    exSecretKid.m_staticProperties.m_list.map (fun e => (e.m_name, e.m_class, e.m_val))
      = [("t", 106, .uninit), ("u", 107, .int 3)] ∧
    Class.getStaticPropInitVal envSecretKid ⟨"t", AttrPublic ||| AttrStatic, "", "", 106, .uninit⟩
      = .ok (.int 2) ∧
    (∀ e, e ∈ exSecretKid.m_staticProperties.m_list →
      ¬ (e.m_name = "s" ∧ e.m_class = 106)) := by
  have hheap : LinkedHeap envSecret.classes :=
    LinkedHeap.link env0 106 preSecret none exSecret LinkedHeap.empty rfl
      (fun p hp => by cases hp) rfl
  have h := C39_static_owner envSecret 107 preSecretKid (some exSecret) exSecretKid hheap rfl
    (fun p hp => by injection hp with hp; subst hp; rfl) rfl
  refine ⟨rfl, rfl, rfl, rfl, ?_⟩
  intro e he
  exact h.2 exSecret ⟨"s", AttrPrivate ||| AttrStatic, "", "", 106, .int 1⟩ rfl
    (by decide) (by decide) e he

theorem visOf_and_bit (a b : Attr) (hb : visMask &&& b = b) : a &&& b = visOf a &&& b := by
  unfold visOf
  rw [Nat.land_assoc, hb]

theorem OneVis.public_iff {a : Attr} (h : OneVis a) :
    hasAttr a AttrPublic = true ↔ visOf a = AttrPublic := by
  unfold hasAttr
  rw [visOf_and_bit a AttrPublic (by decide)]
  rcases h with h | h | h <;> rw [h] <;> decide

theorem OneVis.private_iff {a : Attr} (h : OneVis a) :
    hasAttr a AttrPrivate = true ↔ visOf a = AttrPrivate := by
  unfold hasAttr
  rw [visOf_and_bit a AttrPrivate (by decide)]
  rcases h with h | h | h <;> rw [h] <;> decide

theorem OneVis.guarded_iff {a : Attr} (h : OneVis a) :
    (a &&& (AttrProtected ||| AttrPrivate) != 0) = true ↔ visOf a ≠ AttrPublic := by
  rw [visOf_and_bit a (AttrProtected ||| AttrPrivate) (by decide)]
  rcases h with h | h | h <;> rw [h] <;> decide

theorem OneVis.of_deepInit {preProp : PreClass.Prop} {prop : Class.Prop}
    (h : OneVis prop.m_attrs) : OneVis (copyDeepInitAttr preProp prop).m_attrs := by
  unfold copyDeepInitAttr
  unfold OneVis at *
  split
  · simp only []; rw [visOf_or_deepInit]; exact h
  · simp only []; rw [visOf_clear_deepInit]; exact h

theorem PropMap.AllVis.vis_add {T : PropMap} (h : PropMap.AllVis T) (n : String) (p : Class.Prop)
    (hp : OneVis p.m_attrs) : PropMap.AllVis (T.add n p) := by
  intro e he
  simp only [IndexedStringMap.add, List.mem_append, List.mem_singleton] at he
  rcases he with he | he
  · exact h e he
  · subst he; exact hp

theorem PropMap.AllVis.vis_addUnnamed {T : PropMap} (h : PropMap.AllVis T) (p : Class.Prop)
    (hp : OneVis p.m_attrs) : PropMap.AllVis (T.addUnnamed p) := by
  intro e he
  simp only [IndexedStringMap.addUnnamed, List.mem_append, List.mem_singleton] at he
  rcases he with he | he
  · exact h e he
  · subst he; exact hp

theorem PropMap.AllVis.vis_set {T : PropMap} (h : PropMap.AllVis T) (i : Nat) (p : Class.Prop)
    (hp : OneVis p.m_attrs) : PropMap.AllVis (T.set i p) := by
  intro e he
  simp only [IndexedStringMap.set] at he
  rcases List.mem_or_eq_of_mem_set he with he | he
  · exact h e he
  · subst he; exact hp

theorem Class.copyParentProps_vis (l : List Class.Prop) :
    ∀ (st : PropMap × Nat), PropMap.AllVis st.1 → (∀ e, e ∈ l → OneVis e.m_attrs) →
      PropMap.AllVis (Class.copyParentProps l st).1 := by
  induction l with
  | nil => intro st h _; exact h
  | cons p rest ih =>
    intro st h hl
    rw [Class.copyParentProps]
    simp only []
    have hp := hl p (List.mem_cons_self _ _)
    have hr : ∀ e, e ∈ rest → OneVis e.m_attrs := fun e he => hl e (List.mem_cons_of_mem _ he)
    split
    · exact ih _ (h.vis_add _ _ hp) hr
    · exact ih _ (h.vis_addUnnamed _ hp) hr

theorem Class.appendProp_vis {this : Class} {preProp : PreClass.Prop} {st st' : PropState}
    (h : Class.appendProp this preProp st = .ok st') (hv : PropMap.AllVis st.curPropMap)
    (hp : OneVis preProp.m_attrs) : PropMap.AllVis st'.curPropMap := by
  unfold Class.appendProp at h
  cases hval : this.m_preClass.lookupPropVal preProp.m_name with
  | error e => simp [hval] at h
  | ok v =>
    simp only [hval] at h
    injection h with h
    subst h
    exact hv.vis_add _ _ hp

theorem Class.overlayProp_vis {this : Class} {preProp : PreClass.Prop} {slot : Nat}
    {prop : Class.Prop} {st st' : PropState}
    (h : Class.overlayProp this preProp slot prop st = .ok st')
    (hv : PropMap.AllVis st.curPropMap) (hp : OneVis prop.m_attrs) :
    PropMap.AllVis st'.curPropMap := by
  unfold Class.overlayProp at h
  cases hval : this.m_preClass.lookupPropVal preProp.m_name with
  | error e => simp [hval] at h
  | ok v =>
    simp only [hval] at h
    injection h with h
    subst h
    exact hv.vis_set _ _ (OneVis.of_deepInit hp)

theorem Class.addOwnInstanceProp_vis {parent : Option Class} {this : Class}
    {preProp : PreClass.Prop} {st st' : PropState}
    (h : Class.addOwnInstanceProp parent this preProp st = .ok st')
    (hv : PropMap.AllVis st.curPropMap) : PropMap.AllVis st'.curPropMap := by
  unfold Class.addOwnInstanceProp at h
  split at h
  · cases h
  · simp only [] at h
    split at h
    · cases h
    · have hdeep : PropMap.AllVis (if hasAttr preProp.m_attrs AttrDeepInit = true then
            { st with m_hasDeepInitProps := true } else st).curPropMap := by
        split
        · exact hv
        · exact hv
      generalize (if hasAttr preProp.m_attrs AttrDeepInit = true then
            { st with m_hasDeepInitProps := true } else st) = st1 at h hdeep
      split at h
      · rename_i hvis
        exact Class.appendProp_vis h hdeep (Or.inr (Or.inr hvis))
      · split at h
        · rename_i hvis
          cases hl : st1.curPropMap.lookup preProp.m_name with
          | none =>
            simp only [hl] at h
            exact Class.appendProp_vis h hdeep (Or.inr (Or.inl hvis))
          | some r =>
            obtain ⟨slot, prop⟩ := r
            simp only [hl] at h
            have hmem := List.mem_iff_getElem?.2 ⟨slot, (IndexedStringMap.lookup_some hl).1⟩
            exact Class.overlayProp_vis h hdeep (hdeep prop hmem)
        · split at h
          · rename_i hvis
            cases hl : st1.curPropMap.lookup preProp.m_name with
            | none =>
              simp only [hl] at h
              exact Class.appendProp_vis h hdeep (Or.inl hvis)
            | some r =>
              obtain ⟨slot, prop⟩ := r
              simp only [hl] at h
              have hmem := List.mem_iff_getElem?.2 ⟨slot, (IndexedStringMap.lookup_some hl).1⟩
              refine Class.overlayProp_vis h hdeep ?_
              split
              · rename_i hprot
                exact Or.inl (visOf_widen _ hprot)
              · exact hdeep prop hmem
          · injection h with h
            subst h
            exact hdeep

theorem Class.addOwnProps_vis {env : Env} {parent : Option Class} {this : Class}
    (l : List PreClass.Prop) :
    ∀ (st st' : PropState), Class.addOwnProps env parent this l st = .ok st' →
      PropMap.AllVis st.curPropMap → PropMap.AllVis st'.curPropMap := by
  induction l with
  | nil =>
    intro st st' h hv
    rw [Class.addOwnProps] at h
    injection h with h
    subst h
    exact hv
  | cons preProp rest ih =>
    intro st st' h hv
    rw [Class.addOwnProps] at h
    cases h1 : Class.addOwnProp env parent this preProp st with
    | error e => simp [h1] at h
    | ok st1 =>
      simp only [h1] at h
      refine ih st1 st' h ?_
      unfold Class.addOwnProp at h1
      split at h1
      · exact Class.addOwnInstanceProp_vis h1 hv
      · rw [Class.addOwnStaticProp_props h1]; exact hv

theorem Class.importTraitInstanceProp_vis {env : Env} {this : Class}
    {traitProp : Class.Prop} {traitPropVal : TypedValueAux} {st st' : PropState}
    (h : Class.importTraitInstanceProp env this traitProp traitPropVal st = .ok st')
    (hv : PropMap.AllVis st.curPropMap) (hp : OneVis traitProp.m_attrs) :
    PropMap.AllVis st'.curPropMap := by
  unfold Class.importTraitInstanceProp at h
  cases hf : st.curPropMap.find traitProp.m_name with
  | none =>
    simp only [hf] at h
    injection h with h
    subst h
    split <;> split <;> exact hv.vis_add _ _ hp
  | some slot =>
    simp only [hf] at h
    split at h
    · split at h
      · cases h
      · injection h with h
        subst h
        exact hv
    · cases h

theorem Class.importTraitInstanceProps_vis {env : Env} {this : Class} {trait : Class}
    (l : List Class.Prop) :
    ∀ (p : Nat) (st st' : PropState),
      Class.importTraitInstanceProps env this trait l p st = .ok st' →
      PropMap.AllVis st.curPropMap → (∀ e, e ∈ l → OneVis e.m_attrs) →
      PropMap.AllVis st'.curPropMap := by
  induction l with
  | nil =>
    intro p st st' h hv _
    rw [Class.importTraitInstanceProps] at h
    injection h with h
    subst h
    exact hv
  | cons traitProp rest ih =>
    intro p st st' h hv hl
    rw [Class.importTraitInstanceProps] at h
    cases hval : trait.m_declPropInit[p]? with
    | none => simp [hval] at h
    | some v =>
      simp only [hval] at h
      cases h1 : Class.importTraitInstanceProp env this traitProp v st with
      | error e => simp [h1] at h
      | ok st1 =>
        simp only [h1] at h
        exact ih (p + 1) st1 st' h
          (Class.importTraitInstanceProp_vis h1 hv (hl _ (List.mem_cons_self _ _)))
          (fun e he => hl e (List.mem_cons_of_mem _ he))

theorem Class.importTraitPropsLoop_vis {env : Env} {this : Class} (ts : List Class) :
    ∀ (st st' : PropState), Class.importTraitPropsLoop env this ts st = .ok st' →
      PropMap.AllVis st.curPropMap → (∀ t, t ∈ ts → PropMap.AllVis t.m_declProperties) →
      PropMap.AllVis st'.curPropMap := by
  induction ts with
  | nil =>
    intro st st' h hv _
    rw [Class.importTraitPropsLoop] at h
    injection h with h
    subst h
    exact hv
  | cons trait rest ih =>
    intro st st' h hv ht
    rw [Class.importTraitPropsLoop] at h
    cases h1 : Class.importTraitInstanceProps env this trait trait.m_declProperties.m_list 0 st with
    | error e => simp [h1] at h
    | ok st1 =>
      simp only [h1] at h
      cases h2 : Class.importTraitStaticProps env this trait.m_staticProperties.m_list st1 with
      | error e => simp [h2] at h
      | ok st2 =>
        simp only [h2] at h
        refine ih st2 st' h ?_ (fun t htm => ht t (List.mem_cons_of_mem _ htm))
        rw [Class.importTraitStaticProps_props _ _ _ h2]
        exact Class.importTraitInstanceProps_vis _ 0 st st1 h1 hv
          (ht trait (List.mem_cons_self _ _))

theorem Class.buildProps_vis {env : Env} {parent : Option Class} {usedTraits : List Class}
    {this : Class} {st : PropState}
    (h : Class.buildProps env parent usedTraits this = .ok st)
    (hp : ∀ e, e ∈ Class.parentPropList parent → OneVis e.m_attrs)
    (ht : ∀ t, t ∈ usedTraits → PropMap.AllVis t.m_declProperties) :
    PropMap.AllVis st.curPropMap := by
  have hstart : PropMap.AllVis (Class.inheritedProps parent).curPropMap := by
    cases parent with
    | none => intro e he; cases he
    | some p =>
      simp only [Class.inheritedProps]
      exact Class.copyParentProps_vis _ _ (fun e he => by cases he) hp
  unfold Class.buildProps at h
  cases h1 : Class.addOwnProps env parent this this.m_preClass.m_properties
      (Class.inheritedProps parent) with
  | error e => simp [h1] at h
  | ok st1 =>
    simp only [h1] at h
    have e1 := Class.addOwnProps_vis _ _ _ h1 hstart
    unfold Class.importTraitProps at h
    split at h
    · injection h with h
      subst h
      exact e1
    · exact Class.importTraitPropsLoop_vis _ _ _ h e1 ht

theorem Class.loadUsedTraits_mem {env : Env} {clsName : String} (names : List String) :
    ∀ (ts : List Class), Class.loadUsedTraits env clsName names = .ok ts →
      ∀ t, t ∈ ts → ∃ id, env.classes id = some t := by
  induction names with
  | nil =>
    intro ts h t ht
    rw [Class.loadUsedTraits] at h
    injection h with h
    subst h
    cases ht
  | cons n rest ih =>
    intro ts h t ht
    rw [Class.loadUsedTraits] at h
    cases hl : env.loadClass n with
    | none => simp [hl] at h
    | some id =>
      simp only [hl] at h
      cases hd : env.deref id with
      | error e => simp [hd] at h
      | ok t0 =>
        simp only [hd] at h
        split at h
        · cases h
        · cases hr : Class.loadUsedTraits env clsName rest with
          | error e => simp [hr] at h
          | ok ts0 =>
            simp only [hr] at h
            injection h with h
            subst h
            rcases List.mem_cons.1 ht with ht | ht
            · subst ht
              refine ⟨id, ?_⟩
              unfold Env.deref at hd
              cases hc : env.classes id with
              | none => simp [hc] at hd
              | some c =>
                simp only [hc] at hd
                injection hd with hd
                rw [hd]
            · exact ih ts0 hr t ht

/-- Every declared property of a class that links has exactly one visibility,
when this holds of the classes of the heap. -/
theorem Class.newClass_vis {env : Env} {self : ClassId} {pre : PreClass}
    {parent : Option Class} {cls : Class} (h : Class.newClass env self pre parent = .ok cls)
    (hp : ∀ p, parent = some p → PropMap.AllVis p.m_declProperties)
    (hh : ∀ id c, env.classes id = some c → PropMap.AllVis c.m_declProperties) :
    PropMap.AllVis cls.m_declProperties := by
  obtain ⟨usedTraits, c5, st, hload, -, -, -, -, hb, hd, -⟩ := Class.newClass_props h
  rw [hd]
  refine Class.buildProps_vis hb ?_ ?_
  · cases parent with
    | none => intro e he; cases he
    | some p => exact hp p rfl
  · intro t ht
    obtain ⟨id, hid⟩ := Class.loadUsedTraits_mem _ _ hload t ht
    exact hh id t hid
theorem Class.isSubclassOf_iff (a b : Class) :
    a.isSubclassOf b = true ↔ b.m_self ∈ a.m_classVec := by
  unfold Class.isSubclassOf
  simp

theorem HeapVecInv.self_mem {h : ClassId → Option Class} (hinv : HeapVecInv h)
    {id : ClassId} {c : Class} (hc : h id = some c) : c.isSubclassOf c = true := by
  rw [Class.isSubclassOf_iff]
  obtain ⟨h1, -, -, h4, -⟩ := hinv id c hc
  rw [h1]
  exact List.mem_of_getLast?_eq_some h4

theorem HeapVecInv.mem_heap {h : ClassId → Option Class} (hinv : HeapVecInv h)
    {id : ClassId} {c : Class} (hc : h id = some c) {x : ClassId} (hx : x ∈ c.m_classVec) :
    ∃ a, h x = some a := by
  obtain ⟨i, hi⟩ := List.mem_iff_getElem?.1 hx
  obtain ⟨a, ha, -⟩ := (hinv id c hc).2.2.2.2 i x hi
  exact ⟨a, ha⟩

theorem LinkedHeap.declInv {h : ClassId → Option Class} (hl : LinkedHeap h) : HeapDeclInv h := by
  induction hl with
  | empty => intro id c hc; simp at hc
  | link env self pre parent cls hprev hfresh hpar hn ih =>
    have hvold := LinkedHeap.vecInv hprev
    have hvnew := LinkedHeap.vecInv (LinkedHeap.link env self pre parent cls hprev hfresh hpar hn)
    have hold : ∀ x a, env.classes x = some a →
        (fun id => if id = self then some cls else env.classes id) x = some a := by
      intro x a hx
      have hne : x ≠ self := by
        intro he
        rw [he, hfresh] at hx
        cases hx
      simp only [hne, if_false]
      exact hx
    have hcls : (fun id => if id = self then some cls else env.classes id) self = some cls := by
      simp
    have hself : cls.m_self = self := (hvnew self cls hcls).1
    have hback : ∀ c : Class, (fun id => if id = self then some cls else env.classes id) c.m_self
        = some c → c.m_self ≠ self → env.classes c.m_self = some c := by
      intro c hc hne
      simpa only [hne, if_false] using hc
    have hbackS : ∀ c : Class, (fun id => if id = self then some cls else env.classes id) c.m_self
        = some c → c.m_self = self → c = cls := by
      intro c hc he
      simp only [he, if_true] at hc
      injection hc with hc
      exact hc.symm
    have hvisOld : ∀ id c, env.classes id = some c → PropMap.AllVis c.m_declProperties := by
      intro id c hc e he
      obtain ⟨i, hi⟩ := List.mem_iff_getElem?.1 he
      exact (ih id c hc i e hi).1
    intro id C hC i e he
    by_cases hid : id = self
    · subst hid
      rw [hcls] at hC
      injection hC with hC
      subst hC
      have hvis := Class.newClass_vis hn (fun p hp => hvisOld _ p (hpar p hp)) hvisOld
      refine ⟨hvis e (List.mem_iff_getElem?.2 ⟨i, he⟩), ?_⟩
      obtain ⟨hlen, hder, hown⟩ := Class.newClass_propsEvolve hn
      by_cases hi : i < (Class.parentPropList parent).length
      · cases parent with
        | none => simp [Class.parentPropList] at hi
        | some p =>
          have hp := hpar p rfl
          simp only [Class.parentPropList] at hi hder
          obtain ⟨e0, he0⟩ : ∃ e0, p.m_declProperties.m_list[i]? = some e0 :=
            ⟨_, List.getElem?_eq_getElem hi⟩
          obtain ⟨q, hq, hd⟩ := hder i e0 he0
          rw [he] at hq
          injection hq with hq
          subst hq
          obtain ⟨-, a, ha, hpa, hmid⟩ := ih _ p hp i e0 he0
          obtain ⟨p1, p2, p3, -, -⟩ := hvold _ p hp
          obtain ⟨-, hvec, -⟩ := Class.newClass_vec_some p2 p3 hn
          rw [← hd.2.1] at ha
          refine ⟨a, hold _ _ ha, ?_, ?_⟩
          · rw [Class.isSubclassOf_iff] at hpa ⊢
            rw [hvec]
            exact List.mem_append_left _ hpa
          · intro c hc hsub hca
            by_cases hcs : c.m_self = id
            · have := hbackS c hc hcs
              subst this
              exact ⟨e, he, Class.Prop.Derives.derives_refl e⟩
            · have hc' := hback c hc hcs
              rw [Class.isSubclassOf_iff, hvec] at hsub
              have hsub' : p.isSubclassOf c = true := by
                rw [Class.isSubclassOf_iff]
                rcases List.mem_append.1 hsub with hm | hm
                · exact hm
                · exact absurd (List.mem_singleton.1 hm) hcs
              obtain ⟨e', he', hd'⟩ := hmid c hc' hsub' hca
              exact ⟨e', he', hd'.derives_trans hd⟩
      · have hec := hown i e he (by omega)
        refine ⟨cls, ?_, hvnew.self_mem hcls, ?_⟩
        · rw [hec]; exact hcls
        · intro c hc hsub hca
          by_cases hcs : c.m_self = id
          · have := hbackS c hc hcs
            subst this
            exact ⟨e, he, Class.Prop.Derives.derives_refl e⟩
          · exfalso
            have hc' := hback c hc hcs
            rw [Class.isSubclassOf_iff, hself] at hca
            obtain ⟨a, ha⟩ := hvold.mem_heap hc' hca
            rw [hfresh] at ha
            cases ha
    · simp only [hid, if_false] at hC
      obtain ⟨hvis, a, ha, hCa, hmid⟩ := ih id C hC i e he
      refine ⟨hvis, a, hold _ _ ha, hCa, ?_⟩
      intro c hc hsub hca
      have hcs : c.m_self ≠ self := by
        intro hcs
        rw [Class.isSubclassOf_iff] at hsub
        obtain ⟨a', ha'⟩ := hvold.mem_heap hC hsub
        rw [hcs, hfresh] at ha'
        cases ha'
      exact hmid c (hback c hc hcs) hsub hca
theorem IndexedStringMap.WF.find_get {α : Type} {cs : Bool} {m : IndexedStringMap α cs}
    (hwf : m.WF) {n : String} {i : Nat} (hf : m.find n = some i) :
    ∃ v, m.m_list[i]? = some v ∧ m.lookup n = some (i, v) := by
  cases hl : m.lookup n with
  | none =>
    rw [IndexedStringMap.lookup_eq_none hwf, hf] at hl
    cases hl
  | some r =>
    obtain ⟨j, v⟩ := r
    obtain ⟨h1, h2⟩ := IndexedStringMap.lookup_eq_some.1 hl
    rw [hf] at h1
    injection h1 with h1
    subst h1
    exact ⟨v, h2, rfl⟩

/-- The last part of `getDeclPropIndex` in terms of the spec side: the private
property of `ctx` is returned exactly when `ctx` is an ancestor with its own
private property of the name. -/
theorem Class.getDeclPropIndexCtx_spec (this c : Class) (key : String) (propInd : Option Nat)
    (accessible : Bool) (hwf : c.m_declProperties.WF) :
    Class.getDeclPropIndexCtx this (some c) key propInd accessible =
      if (this.isSubclassOf c && c.hasOwnPrivateProp key) = true then
        .ok (c.lookupDeclProp key, true)
      else .ok (propInd, accessible) := by
  unfold Class.getDeclPropIndexCtx Class.hasOwnPrivateProp Class.lookupDeclProp
  simp only []
  by_cases hs : this.isSubclassOf c = true
  · simp only [hs, if_true, Bool.true_and]
    cases hf : c.m_declProperties.find key with
    | none =>
      have : c.m_declProperties.lookup key = none :=
        (IndexedStringMap.lookup_eq_none hwf).2 hf
      simp [this]
    | some j =>
      obtain ⟨q, hq, hl⟩ := hwf.find_get hf
      simp only [IndexedStringMap.get?, hq, hl]
  · have hs' : this.isSubclassOf c = false := by simpa using hs
    simp [hs']

theorem Class.IsPropAccessible_own (env : Env) (hinv : HeapVecInv env.classes) (q : Class.Prop)
    (c : Class) (hc : env.classes c.m_self = some c) (hq : q.m_class = c.m_self) :
    Class.IsPropAccessible env q (some c) = .ok true := by
  unfold Class.IsPropAccessible
  split
  · rfl
  · split
    · simp [hq]
    · simp only [Env.deref, hq, hc]
      rw [hinv.self_mem hc]
      rfl

/-- In a linked heap two ancestors of one class are related. -/
theorem HeapVecInv.linear {h : ClassId → Option Class} (hinv : HeapVecInv h)
    {C a b : Class} (hC : h C.m_self = some C) (ha : h a.m_self = some a)
    (hb : h b.m_self = some b) (hCa : C.isSubclassOf a = true) (hCb : C.isSubclassOf b = true) :
    a.isSubclassOf b = true ∨ b.isSubclassOf a = true := by
  rw [Class.isSubclassOf_iff] at hCa hCb
  obtain ⟨k1, hk1⟩ := List.mem_iff_getElem?.1 hCa
  obtain ⟨k2, hk2⟩ := List.mem_iff_getElem?.1 hCb
  obtain ⟨a', ha', hav⟩ := (hinv _ C hC).2.2.2.2 k1 _ hk1
  obtain ⟨b', hb', hbv⟩ := (hinv _ C hC).2.2.2.2 k2 _ hk2
  rw [ha] at ha'
  injection ha' with ha'
  subst ha'
  rw [hb] at hb'
  injection hb' with hb'
  subst hb'
  by_cases hle : k1 ≤ k2
  · right
    rw [Class.isSubclassOf_iff, hbv]
    refine List.mem_iff_getElem?.2 ⟨k1, ?_⟩
    rw [List.getElem?_take_of_lt (by omega)]
    exact hk1
  · left
    rw [Class.isSubclassOf_iff, hav]
    refine List.mem_iff_getElem?.2 ⟨k2, ?_⟩
    rw [List.getElem?_take_of_lt (by omega)]
    exact hk2

/-- The spec-side table when `ctx` trumps. -/
theorem Class.specPropTable_ctx (this c : Class) (key : String)
    (h : (this.isSubclassOf c && c.hasOwnPrivateProp key) = true) :
    Class.specPropTable this (some c) key = c.m_declProperties := by
  simp only [Class.specPropTable, h, if_true]

/-- The spec-side table when `ctx` does not trump. -/
theorem Class.specPropTable_this (this c : Class) (key : String)
    (h : ¬ (this.isSubclassOf c && c.hasOwnPrivateProp key) = true) :
    Class.specPropTable this (some c) key = this.m_declProperties := by
  simp only [Class.specPropTable]
  rw [if_neg h]

/-- The private property of `ctx` that trumps is accessible from `ctx`. -/
theorem Class.getDeclPropIndex_trump (env : Env) (hinv : HeapVecInv env.classes)
    (this c : Class) (key : String) (hc : env.classes c.m_self = some c)
    (hwf : c.m_declProperties.WF)
    (h : (this.isSubclassOf c && c.hasOwnPrivateProp key) = true) :
    ∀ slot, c.lookupDeclProp key = some slot →
      ∃ prop, (Class.specPropTable this (some c) key).get? slot = some prop ∧
        Class.IsPropAccessible env prop (some c) = .ok true := by
  intro slot hs
  rw [Class.specPropTable_ctx this c key h]
  unfold Class.lookupDeclProp at hs
  obtain ⟨q, hq, hl⟩ := hwf.find_get hs
  refine ⟨q, hq, ?_⟩
  simp only [Bool.and_eq_true] at h
  have h2 := h.2
  unfold Class.hasOwnPrivateProp at h2
  simp only [hl, Bool.and_eq_true, decide_eq_true_eq] at h2
  exact Class.IsPropAccessible_own env hinv q c hc h2.1
/-- The flag of `getDeclPropIndex` in a linked heap, with the debugger bypass
off: the method returns, and for a valid slot the flag is `IsPropAccessible`
of the property in that slot of the spec-side table. -/
theorem Class.getDeclPropIndex_flag (ec : ExecutionContext) (env : Env) (this : Class)
    (ctx : Option Class) (key : String) (hoff : ec.debuggerBypassCheck = false)
    (hl : LinkedHeap env.classes) (hC : env.classes this.m_self = some this)
    (hctx : ∀ c, ctx = some c → env.classes c.m_self = some c) :
    ∃ r, Class.getDeclPropIndex ec env this ctx key = .ok r ∧
      ∀ slot, r.1 = some slot →
        ∃ prop, (Class.specPropTable this ctx key).get? slot = some prop ∧
          Class.IsPropAccessible env prop ctx = .ok r.2 := by
  have hv := LinkedHeap.vecInv hl
  have hd := LinkedHeap.declInv hl
  have hp := LinkedHeap.propInv hl
  have hwfC := (hp _ this hC).2
  have htail : ∀ (c : Class) (propInd : Option Nat) (acc : Bool), ctx = some c →
      (¬ (this.isSubclassOf c && c.hasOwnPrivateProp key) = true →
        ∀ slot, propInd = some slot →
          ∃ prop, this.m_declProperties.get? slot = some prop ∧
            Class.IsPropAccessible env prop (some c) = .ok acc) →
      ∃ r, Class.getDeclPropIndexCtx this (some c) key propInd acc = .ok r ∧
        ∀ slot, r.1 = some slot →
          ∃ prop, (Class.specPropTable this (some c) key).get? slot = some prop ∧
            Class.IsPropAccessible env prop (some c) = .ok r.2 := by
    intro c propInd acc hcc hnot
    have hcin := hctx c hcc
    have hwfc := (hp _ c hcin).2
    rw [Class.getDeclPropIndexCtx_spec this c key propInd acc hwfc]
    by_cases hP : (this.isSubclassOf c && c.hasOwnPrivateProp key) = true
    · rw [if_pos hP]
      exact ⟨_, rfl, Class.getDeclPropIndex_trump env hv this c key hcin hwfc hP⟩
    · rw [if_neg hP]
      refine ⟨_, rfl, ?_⟩
      rw [Class.specPropTable_this this c key hP]
      exact hnot hP
  unfold Class.getDeclPropIndex
  cases hf : this.lookupDeclProp key with
  | none =>
    simp only []
    cases ctx with
    | none =>
      refine ⟨(none, false), rfl, ?_⟩
      intro slot hs
      cases hs
    | some c =>
      exact htail c none false rfl (fun _ slot hs => by cases hs)
  | some i =>
    simp only []
    unfold Class.lookupDeclProp at hf
    obtain ⟨prop, hprop, -⟩ := hwfC.find_get hf
    obtain ⟨hvis, a, ha, hCa, hmid⟩ := hd _ this hC i prop hprop
    have haself : a.m_self = prop.m_class := (hv _ a ha).1
    have ha' : env.classes a.m_self = some a := by rw [haself]; exact ha
    simp only [IndexedStringMap.get?, hprop, hoff, Bool.not_false, Bool.and_true]
    by_cases hg : (prop.m_attrs &&& (AttrProtected ||| AttrPrivate) != 0) = true
    · rw [if_pos hg]
      have hnpub : visOf prop.m_attrs ≠ AttrPublic := hvis.guarded_iff.1 hg
      have hnp : hasAttr prop.m_attrs AttrPublic = false := by
        cases hh : hasAttr prop.m_attrs AttrPublic with
        | false => rfl
        | true => exact absurd (hvis.public_iff.1 hh) hnpub
      by_cases hbase : ctx.map (fun c => c.m_self) = some prop.m_class
      · rw [if_pos hbase]
        refine ⟨_, rfl, ?_⟩
        intro slot hs
        injection hs with hs
        subst hs
        cases ctx with
        | none => cases hbase
        | some c =>
          simp only [Option.map_some', Option.some.injEq] at hbase
          have hcin := hctx c rfl
          have hac : a = c := by
            rw [hbase] at hcin
            rw [ha] at hcin
            injection hcin
          subst hac
          by_cases hP : (this.isSubclassOf a && a.hasOwnPrivateProp key) = true
          · rw [Class.specPropTable_ctx this a key hP]
            obtain ⟨e', he', hde⟩ := hmid a ha' hCa (hv.self_mem ha)
            exact ⟨e', he', Class.IsPropAccessible_own env hv e' a ha' (hde.2.1.symm ▸ hbase.symm)⟩
          · rw [Class.specPropTable_this this a key hP]
            exact ⟨prop, hprop, Class.IsPropAccessible_own env hv prop a ha' hbase.symm⟩
      · rw [if_neg hbase]
        cases ctx with
        | none =>
          refine ⟨_, rfl, ?_⟩
          intro slot hs
          injection hs with hs
          subst hs
          refine ⟨prop, hprop, ?_⟩
          unfold Class.IsPropAccessible
          simp only [hnp, Bool.false_eq_true, if_false, Option.map_none']
          split <;> simp
        | some c =>
          simp only []
          have hcin := hctx c rfl
          simp only [Option.map_some', Option.some.injEq] at hbase
          by_cases hpriv : hasAttr prop.m_attrs AttrPrivate = true
          · rw [if_pos hpriv]
            refine htail c (some i) false rfl ?_
            intro _ slot hs
            injection hs with hs
            subst hs
            refine ⟨prop, hprop, ?_⟩
            unfold Class.IsPropAccessible
            simp only [hnp, Bool.false_eq_true, if_false, hpriv, if_true, Option.map_some',
              Option.some.injEq]
            simp [hbase]
          · rw [if_neg hpriv]
            have hderef : env.deref prop.m_class = .ok a := by
              unfold Env.deref
              rw [ha]
            simp only [hderef]
            have hacc : ∀ b : Bool, (a.isSubclassOf c || c.isSubclassOf a) = b →
                Class.IsPropAccessible env prop (some c) = .ok b := by
              intro b hb
              unfold Class.IsPropAccessible
              simp only [hnp, Bool.false_eq_true, if_false, hpriv, hderef, hb]
            by_cases h1 : c.isSubclassOf a = true
            · rw [if_pos h1]
              refine ⟨_, rfl, ?_⟩
              intro slot hs
              injection hs with hs
              subst hs
              by_cases hP : (this.isSubclassOf c && c.hasOwnPrivateProp key) = true
              · rw [Class.specPropTable_ctx this c key hP]
                simp only [Bool.and_eq_true] at hP
                obtain ⟨e', he', hde⟩ := hmid c hcin hP.1 h1
                refine ⟨e', he', ?_⟩
                have hvis' := (hd _ c hcin i e' he').1
                have hnpriv' : hasAttr e'.m_attrs AttrPrivate = false := by
                  cases hh : hasAttr e'.m_attrs AttrPrivate with
                  | false => rfl
                  | true =>
                    exact absurd (hvis.private_iff.2 (hde.2.2 (hvis'.private_iff.1 hh)).2) hpriv
                unfold Class.IsPropAccessible
                by_cases hpub' : hasAttr e'.m_attrs AttrPublic = true
                · rw [if_pos hpub']
                · rw [if_neg hpub', if_neg (by rw [hnpriv']; simp)]
                  rw [← hde.2.1, hderef]
                  simp only [h1, Bool.or_true]
              · rw [Class.specPropTable_this this c key hP]
                exact ⟨prop, hprop, hacc true (by rw [h1, Bool.or_true])⟩
            · rw [if_neg h1]
              have h1' : c.isSubclassOf a = false := by simpa using h1
              by_cases h2 : a.isSubclassOf c = true
              · simp only [h2, Bool.not_true, Bool.false_eq_true, if_false]
                refine htail c (some i) true rfl ?_
                intro _ slot hs
                injection hs with hs
                subst hs
                exact ⟨prop, hprop, hacc true (by rw [h2, Bool.true_or])⟩
              · have h2' : a.isSubclassOf c = false := by simpa using h2
                simp only [h2', Bool.not_false, if_true]
                refine ⟨_, rfl, ?_⟩
                intro slot hs
                injection hs with hs
                subst hs
                by_cases hP : (this.isSubclassOf c && c.hasOwnPrivateProp key) = true
                · exfalso
                  simp only [Bool.and_eq_true] at hP
                  rcases hv.linear hC hcin ha' hP.1 hCa with h3 | h3
                  · exact h1 h3
                  · exact h2 h3
                · rw [Class.specPropTable_this this c key hP]
                  exact ⟨prop, hprop, hacc false (by rw [h1', h2']; rfl)⟩
    · rw [if_neg hg]
      have hpub : hasAttr prop.m_attrs AttrPublic = true := by
        have : ¬ visOf prop.m_attrs ≠ AttrPublic := fun hh => hg (hvis.guarded_iff.2 hh)
        exact hvis.public_iff.2 (not_not.1 this)
      have hacc : ∀ c0 : Option Class, Class.IsPropAccessible env prop c0 = .ok true := by
        intro c0
        unfold Class.IsPropAccessible
        rw [if_pos hpub]
      by_cases hthis : ctx.map (fun c => c.m_self) = some this.m_self
      · rw [if_pos hthis]
        refine ⟨_, rfl, ?_⟩
        intro slot hs
        injection hs with hs
        subst hs
        cases ctx with
        | none => cases hthis
        | some c =>
          simp only [Option.map_some', Option.some.injEq] at hthis
          have hcin := hctx c rfl
          have hcc : c = this := by
            rw [hthis, hC] at hcin
            injection hcin with hcin
            exact hcin.symm
          subst hcc
          refine ⟨prop, ?_, hacc _⟩
          simp only [Class.specPropTable, ite_self]
          exact hprop
      · rw [if_neg hthis]
        cases ctx with
        | none =>
          refine ⟨_, rfl, ?_⟩
          intro slot hs
          injection hs with hs
          subst hs
          exact ⟨prop, hprop, hacc _⟩
        | some c =>
          refine htail c (some i) true rfl ?_
          intro _ slot hs
          injection hs with hs
          subst hs
          exact ⟨prop, hprop, hacc _⟩
theorem PropMap.mem_of_find {T : PropMap} {n : String} {i : Nat} (h : T.find n = some i) :
    (n, i) ∈ T.m_map := by
  unfold IndexedStringMap.find at h
  cases hf : List.find? (fun e => keyEq true e.1 n) T.m_map with
  | none => simp [hf] at h
  | some x =>
    simp only [hf, Option.map_some', Option.some.injEq] at h
    have hm := List.mem_of_find?_eq_some hf
    have hp := List.find?_some hf
    simp only [keyEq, if_true, beq_iff_eq] at hp
    obtain ⟨k, j⟩ := x
    simp only at hp h
    subst hp h
    exact hm

theorem PropMap.find_of_mem (m : List (String × Nat)) (hd : m.Pairwise (fun x y => x.1 ≠ y.1))
    (l : List Class.Prop) {n : String} {i : Nat} (h : (n, i) ∈ m) :
    (⟨l, m⟩ : PropMap).find n = some i := by
  unfold IndexedStringMap.find
  simp only []
  induction m with
  | nil => cases h
  | cons x rest ih =>
    rw [List.pairwise_cons] at hd
    rw [List.find?_cons]
    rcases List.mem_cons.1 h with hx | hx
    · subst hx
      simp [keyEq]
    · have hne : x.1 ≠ n := hd.1 (n, i) hx
      have : keyEq true x.1 n = false := by simp [keyEq, hne]
      rw [this]
      exact ih hd.2 hx

theorem PropMap.Named.find_mem {n0 : Nat} {T : PropMap} (h : PropMap.Named n0 T) {n : String}
    {i : Nat} (hm : (n, i) ∈ T.m_map) : T.find n = some i :=
  PropMap.find_of_mem T.m_map h.2.1 T.m_list hm

theorem PropMap.Named.find_entry {n0 : Nat} {T : PropMap} (h : PropMap.Named n0 T) {n : String}
    {i : Nat} (hf : T.find n = some i) :
    ∃ e, T.m_list[i]? = some e ∧ e.m_name = n ∧
      (i < n0 → hasAttr e.m_attrs AttrPrivate = false) ∧ T.lookup n = some (i, e) := by
  obtain ⟨e, h1, h2, h3⟩ := h.1 (n, i) (PropMap.mem_of_find hf)
  exact ⟨e, h1, h2, h3, IndexedStringMap.lookup_eq_some.2 ⟨hf, h1⟩⟩

theorem PropMap.Named.named_empty (n0 : Nat) : PropMap.Named n0 (IndexedStringMap.empty : PropMap) := by
  refine ⟨?_, ?_, ?_⟩
  · intro x hx; simp [IndexedStringMap.empty] at hx
  · simp [IndexedStringMap.empty]
  · intro i e he; simp [IndexedStringMap.empty] at he

theorem PropMap.Named.named_add {n0 : Nat} {T : PropMap} (h : PropMap.Named n0 T) (n : String)
    (p : Class.Prop) (hf : T.find n = none) (hn : p.m_name = n)
    (hc : T.m_list.length < n0 → hasAttr p.m_attrs AttrPrivate = false) :
    PropMap.Named n0 (T.add n p) := by
  obtain ⟨hK, hD, hB⟩ := h
  refine ⟨?_, ?_, ?_⟩
  · intro x hx
    simp only [IndexedStringMap.add, List.mem_cons] at hx ⊢
    rcases hx with hx | hx
    · subst hx
      exact ⟨p, by simp, hn, hc⟩
    · obtain ⟨e, h1, h2, h3⟩ := hK x hx
      refine ⟨e, ?_, h2, h3⟩
      rw [List.getElem?_append_left (List.getElem?_lt_of_some h1)]  
      exact h1
  · simp only [IndexedStringMap.add, List.pairwise_cons]
    refine ⟨?_, hD⟩
    intro y hy hny
    obtain ⟨k, j⟩ := y
    simp only at hny
    subst hny
    have := PropMap.find_of_mem T.m_map hD T.m_list hy
    have h2 : (⟨T.m_list, T.m_map⟩ : PropMap) = T := rfl
    rw [h2, hf] at this
    cases this
  · intro i e he hcond
    simp only [IndexedStringMap.add] at he ⊢
    by_cases hi : i < T.m_list.length
    · rw [List.getElem?_append_left hi] at he
      exact List.mem_cons_of_mem _ (hB i e he hcond)
    · have hlt := List.getElem?_lt_of_some he
      simp only [List.length_append, List.length_singleton] at hlt
      have hie : i = T.m_list.length := by omega
      subst hie
      simp only [List.getElem?_concat_length, Option.some.injEq] at he
      subst he
      rw [hn]
      exact List.mem_cons_self _ _

theorem PropMap.Named.named_addUnnamed {n0 : Nat} {T : PropMap} (h : PropMap.Named n0 T)
    (p : Class.Prop) (hp : hasAttr p.m_attrs AttrPrivate = true) (hlen : T.m_list.length < n0) :
    PropMap.Named n0 (T.addUnnamed p) := by
  obtain ⟨hK, hD, hB⟩ := h
  refine ⟨?_, hD, ?_⟩
  · intro x hx
    simp only [IndexedStringMap.addUnnamed] at hx ⊢
    obtain ⟨e, h1, h2, h3⟩ := hK x hx
    refine ⟨e, ?_, h2, h3⟩
    rw [List.getElem?_append_left (List.getElem?_lt_of_some h1)]
    exact h1
  · intro i e he hcond
    simp only [IndexedStringMap.addUnnamed] at he ⊢
    by_cases hi : i < T.m_list.length
    · rw [List.getElem?_append_left hi] at he
      exact hB i e he hcond
    · exfalso
      have hlt := List.getElem?_lt_of_some he
      simp only [List.length_append, List.length_singleton] at hlt
      have hie : i = T.m_list.length := by omega
      subst hie
      simp only [List.getElem?_concat_length, Option.some.injEq] at he
      subst he
      rcases hcond with hcond | hcond
      · omega
      · rw [hp] at hcond
        cases hcond

theorem PropMap.Named.named_set {n0 : Nat} {T : PropMap} (h : PropMap.Named n0 T) {n : String}
    {i : Nat} {p : Class.Prop} (p' : Class.Prop) (hl : T.lookup n = some (i, p))
    (hn : p'.m_name = p.m_name)
    (hc : hasAttr p.m_attrs AttrPrivate = false → hasAttr p'.m_attrs AttrPrivate = false) :
    PropMap.Named n0 (T.set i p') := by
  obtain ⟨hf, hp⟩ := IndexedStringMap.lookup_eq_some.1 hl
  obtain ⟨hK, hD, hB⟩ := h
  have hmem := PropMap.mem_of_find hf
  obtain ⟨e0, g1, g2, g3⟩ := hK (n, i) hmem
  simp only at g1 g2 g3
  rw [hp] at g1
  injection g1 with g1
  subst g1
  have hlt := List.getElem?_lt_of_some hp
  refine ⟨?_, hD, ?_⟩
  · intro x hx
    simp only [IndexedStringMap.set] at hx ⊢
    obtain ⟨e, h1, h2, h3⟩ := hK x hx
    by_cases hxi : x.2 = i
    · refine ⟨p', ?_, ?_, ?_⟩
      · rw [hxi, List.getElem?_set_self hlt]
      · rw [hxi, hp] at h1
        injection h1 with h1
        subst h1
        rw [hn]; exact h2
      · intro hlt0
        rw [hxi, hp] at h1
        injection h1 with h1
        subst h1
        exact hc (h3 hlt0)
    · refine ⟨e, ?_, h2, h3⟩
      rw [List.getElem?_set_ne (fun hh => hxi hh.symm)]
      exact h1
  · intro j e he hcond
    simp only [IndexedStringMap.set] at he ⊢
    by_cases hji : j = i
    · subst hji
      rw [List.getElem?_set_self hlt] at he
      injection he with he
      subst he
      rw [hn, g2]
      exact hmem
    · rw [List.getElem?_set_ne (fun hh => hji hh.symm)] at he
      exact hB j e he hcond
theorem hasAttr_private_of_visOf {a b : Attr} (h : visOf a = visOf b) :
    hasAttr a AttrPrivate = hasAttr b AttrPrivate := by
  unfold hasAttr
  rw [visOf_and_bit a AttrPrivate (by decide), visOf_and_bit b AttrPrivate (by decide), h]

theorem hasAttr_private_of_private {a : Attr} (h : visOf a = AttrPrivate) :
    hasAttr a AttrPrivate = true := by
  unfold hasAttr
  rw [visOf_and_bit a AttrPrivate (by decide), h]
  decide

theorem hasAttr_private_of_public {a : Attr} (h : visOf a = AttrPublic) :
    hasAttr a AttrPrivate = false := by
  unfold hasAttr
  rw [visOf_and_bit a AttrPrivate (by decide), h]
  decide

theorem copyDeepInitAttr_private (preProp : PreClass.Prop) (prop : Class.Prop) :
    hasAttr (copyDeepInitAttr preProp prop).m_attrs AttrPrivate = hasAttr prop.m_attrs AttrPrivate ∧
    (copyDeepInitAttr preProp prop).m_name = prop.m_name := by
  unfold copyDeepInitAttr
  split
  · exact ⟨hasAttr_private_of_visOf (visOf_or_deepInit _), rfl⟩
  · exact ⟨hasAttr_private_of_visOf (visOf_clear_deepInit _), rfl⟩

theorem Class.copyParentProps_named (p : Class) (n0 : Nat)
    (hn0 : n0 = p.m_declProperties.m_list.length)
    (hNU : ∀ (i : Nat) (e : Class.Prop), p.m_declProperties.m_list[i]? = some e →
      hasAttr e.m_attrs AttrPrivate = false → p.m_declProperties.find e.m_name = some i)
    (l : List Class.Prop) :
    ∀ (st : PropMap × Nat), st.1.m_list ++ l = p.m_declProperties.m_list →
      PropMap.Named n0 st.1 → PropMap.Named n0 (Class.copyParentProps l st).1 := by
  induction l with
  | nil => intro st _ h; exact h
  | cons e0 rest ih =>
    intro st hcat hN
    rw [Class.copyParentProps]
    simp only []
    have hlen : st.1.m_list.length < n0 := by
      rw [hn0, ← hcat]
      simp
    have he0 : p.m_declProperties.m_list[st.1.m_list.length]? = some e0 := by
      rw [← hcat, List.getElem?_append_right (Nat.le_refl _)]
      simp
    by_cases hp : hasAttr e0.m_attrs AttrPrivate = true
    · simp only [hp, Bool.not_true, Bool.false_eq_true, if_false]
      refine ih _ ?_ (hN.named_addUnnamed _ hp hlen)
      simp only [IndexedStringMap.addUnnamed, List.append_assoc, List.singleton_append]
      exact hcat
    · have hp' : hasAttr e0.m_attrs AttrPrivate = false := by simpa using hp
      simp only [hp', Bool.not_false, if_true]
      refine ih _ ?_ (hN.named_add _ _ ?_ rfl (fun _ => hp'))
      · simp only [IndexedStringMap.add, List.append_assoc, List.singleton_append]
        exact hcat
      · cases hf : st.1.find e0.m_name with
        | none => rfl
        | some j =>
          exfalso
          obtain ⟨e, h1, h2, h3, -⟩ := hN.find_entry hf
          have hj := List.getElem?_lt_of_some h1
          have hpj : p.m_declProperties.m_list[j]? = some e := by
            rw [← hcat, List.getElem?_append_left hj]
            exact h1
          have f1 := hNU j e hpj (h3 (by omega))
          have f2 := hNU _ e0 he0 hp'
          rw [h2, f2] at f1
          injection f1 with f1
          omega

theorem PropMap.Named.lookup_none {n0 : Nat} {T : PropMap} (h : PropMap.Named n0 T) {n : String}
    (hl : T.lookup n = none) : T.find n = none := by
  cases hf : T.find n with
  | none => rfl
  | some j =>
    obtain ⟨e, -, -, -, h4⟩ := h.find_entry hf
    rw [hl] at h4
    cases h4

theorem Class.appendProp_named {this : Class} {preProp : PreClass.Prop} {st st' : PropState}
    {n0 : Nat} (h : Class.appendProp this preProp st = .ok st')
    (hN : PropMap.Named n0 st.curPropMap) (hlen : n0 ≤ st.curPropMap.m_list.length)
    (hf : st.curPropMap.find preProp.m_name = none) : PropMap.Named n0 st'.curPropMap := by
  unfold Class.appendProp at h
  cases hval : this.m_preClass.lookupPropVal preProp.m_name with
  | error e => simp [hval] at h
  | ok v =>
    simp only [hval] at h
    injection h with h
    subst h
    exact hN.named_add _ _ hf rfl (fun hh => absurd hh (by omega))

theorem Class.overlayProp_named {this : Class} {preProp : PreClass.Prop} {slot : Nat}
    {prop p0 : Class.Prop} {st st' : PropState} {n0 : Nat}
    (h : Class.overlayProp this preProp slot prop st = .ok st')
    (hN : PropMap.Named n0 st.curPropMap)
    (hl : st.curPropMap.lookup preProp.m_name = some (slot, p0))
    (hn : prop.m_name = p0.m_name)
    (hc : hasAttr p0.m_attrs AttrPrivate = false → hasAttr prop.m_attrs AttrPrivate = false) :
    PropMap.Named n0 st'.curPropMap := by
  unfold Class.overlayProp at h
  cases hval : this.m_preClass.lookupPropVal preProp.m_name with
  | error e => simp [hval] at h
  | ok v =>
    simp only [hval] at h
    injection h with h
    subst h
    refine hN.named_set _ hl ?_ ?_
    · rw [(copyDeepInitAttr_private preProp prop).2]; exact hn
    · intro hh
      rw [(copyDeepInitAttr_private preProp prop).1]
      exact hc hh

theorem Class.addOwnInstanceProp_named {parent : Option Class} {this : Class}
    {preProp : PreClass.Prop} {st st' : PropState} {n0 : Nat}
    (h : Class.addOwnInstanceProp parent this preProp st = .ok st')
    (hN : PropMap.Named n0 st.curPropMap) (hlen : n0 ≤ st.curPropMap.m_list.length)
    (hpriv : visOf preProp.m_attrs = AttrPrivate → st.curPropMap.find preProp.m_name = none) :
    PropMap.Named n0 st'.curPropMap := by
  unfold Class.addOwnInstanceProp at h
  split at h
  · cases h
  · simp only [] at h
    split at h
    · cases h
    · have hdeep : (if hasAttr preProp.m_attrs AttrDeepInit = true then
            { st with m_hasDeepInitProps := true } else st).curPropMap = st.curPropMap := by
        split <;> rfl
      generalize (if hasAttr preProp.m_attrs AttrDeepInit = true then
            { st with m_hasDeepInitProps := true } else st) = st1 at h hdeep
      rw [← hdeep] at hN hlen hpriv
      split at h
      · rename_i hvis
        exact Class.appendProp_named h hN hlen (hpriv hvis)
      · split at h
        · cases hl : st1.curPropMap.lookup preProp.m_name with
          | none =>
            simp only [hl] at h
            exact Class.appendProp_named h hN hlen (hN.lookup_none hl)
          | some r =>
            obtain ⟨slot, prop⟩ := r
            simp only [hl] at h
            exact Class.overlayProp_named h hN hl rfl (fun hh => hh)
        · split at h
          · cases hl : st1.curPropMap.lookup preProp.m_name with
            | none =>
              simp only [hl] at h
              exact Class.appendProp_named h hN hlen (hN.lookup_none hl)
            | some r =>
              obtain ⟨slot, prop⟩ := r
              simp only [hl] at h
              refine Class.overlayProp_named h hN hl ?_ ?_
              · split <;> rfl
              · intro hh
                split
                · rename_i hprot
                  exact hasAttr_private_of_public (visOf_widen _ hprot)
                · exact hh
          · injection h with h
            subst h
            exact hN
/-- A private declaration of the class meets no binding of its name: a binding
taken over from the parent would make the declaration a strengthening. -/
theorem Class.addOwnInstanceProp_fresh {parent : Option Class} {this : Class}
    {preProp : PreClass.Prop} {st st' : PropState} {n0 : Nat}
    (h : Class.addOwnInstanceProp parent this preProp st = .ok st')
    (hvis : visOf preProp.m_attrs = AttrPrivate)
    (hN : PropMap.Named n0 st.curPropMap)
    (hrest : ∀ j, st.curPropMap.find preProp.m_name = some j → j < n0)
    (hn0 : n0 = (Class.parentPropList parent).length)
    (hev : PropsEvolve this.m_self (Class.parentPropList parent) st.curPropMap.m_list)
    (hparVis : ∀ e, e ∈ Class.parentPropList parent → OneVis e.m_attrs)
    (hparNU : ∀ (i : Nat) (e : Class.Prop), (Class.parentPropList parent)[i]? = some e →
      hasAttr e.m_attrs AttrPrivate = false →
      ∃ p, parent = some p ∧ p.m_declProperties.lookup e.m_name = some (i, e)) :
    st.curPropMap.find preProp.m_name = none := by
  cases hf : st.curPropMap.find preProp.m_name with
  | none => rfl
  | some j =>
    exfalso
    have hj := hrest j hf
    obtain ⟨e, h1, h2, h3, -⟩ := hN.find_entry hf
    have hnp := h3 hj
    rw [hn0] at hj
    obtain ⟨e0, he0⟩ : ∃ e0, (Class.parentPropList parent)[j]? = some e0 :=
      ⟨_, List.getElem?_eq_getElem hj⟩
    obtain ⟨q, hq, hd⟩ := hev.2.1 j e0 he0
    rw [h1] at hq
    injection hq with hq
    subst hq
    have hv0 := hparVis e0 (List.mem_iff_getElem?.2 ⟨j, he0⟩)
    have hnp0 : hasAttr e0.m_attrs AttrPrivate = false := by
      cases hh : hasAttr e0.m_attrs AttrPrivate with
      | false => rfl
      | true =>
        have := hasAttr_private_of_private (hd.2.2 (hv0.private_iff.1 hh)).2
        rw [hnp] at this
        cases this
    obtain ⟨p, hp, hlk⟩ := hparNU j e0 he0 hnp0
    rw [← hd.1, h2] at hlk
    subst hp
    have hlt : visOf preProp.m_attrs > visOf e0.m_attrs := by
      rw [hvis]
      rcases hv0 with hv | hv | hv
      · rw [hv]; decide
      · rw [hv]; decide
      · rw [hasAttr_private_of_private hv] at hnp0
        cases hnp0
    unfold Class.addOwnInstanceProp at h
    split at h
    · cases h
    · simp only [hlk, Option.map_some', hlt, decide_True, if_true] at h
      cases h

theorem Class.addOwnProps_named {env : Env} {parent : Option Class} {this : Class} {n0 : Nat}
    (hn0 : n0 = (Class.parentPropList parent).length)
    (hparVis : ∀ e, e ∈ Class.parentPropList parent → OneVis e.m_attrs)
    (hparNU : ∀ (i : Nat) (e : Class.Prop), (Class.parentPropList parent)[i]? = some e →
      hasAttr e.m_attrs AttrPrivate = false →
      ∃ p, parent = some p ∧ p.m_declProperties.lookup e.m_name = some (i, e))
    (l : List PreClass.Prop) :
    ∀ (st st' : PropState), Class.addOwnProps env parent this l st = .ok st' →
      l.Pairwise (fun a b => a.m_name ≠ b.m_name) →
      PropMap.Named n0 st.curPropMap →
      PropsEvolve this.m_self (Class.parentPropList parent) st.curPropMap.m_list →
      (∀ d, d ∈ l → ∀ j, st.curPropMap.find d.m_name = some j → j < n0) →
      PropMap.Named n0 st'.curPropMap := by
  induction l with
  | nil =>
    intro st st' h _ hN _ _
    rw [Class.addOwnProps] at h
    injection h with h
    subst h
    exact hN
  | cons d rest ih =>
    intro st st' h hpw hN hev hrest
    rw [Class.addOwnProps] at h
    rw [List.pairwise_cons] at hpw
    cases h1 : Class.addOwnProp env parent this d st with
    | error e => simp [h1] at h
    | ok st1 =>
      simp only [h1] at h
      have hev1 := hev.evolve_trans (Class.addOwnProp_evolve h1)
      have hlen : n0 ≤ st.curPropMap.m_list.length := by rw [hn0]; exact hev.1
      unfold Class.addOwnProp at h1
      split at h1
      · refine ih st1 st' h hpw.2 ?_ hev1 ?_
        · refine Class.addOwnInstanceProp_named h1 hN hlen ?_
          intro hvis
          exact Class.addOwnInstanceProp_fresh h1 hvis hN
            (hrest d (List.mem_cons_self _ _)) hn0 hev hparVis hparNU
        · intro d' hd' j hj
          rw [Class.addOwnInstanceProp_find h1 d'.m_name (hpw.1 d' hd')] at hj
          exact hrest d' (List.mem_cons_of_mem _ hd') j hj
      · have heq := Class.addOwnStaticProp_props h1
        refine ih st1 st' h hpw.2 ?_ hev1 ?_
        · rw [heq]; exact hN
        · intro d' hd' j hj
          rw [heq] at hj
          exact hrest d' (List.mem_cons_of_mem _ hd') j hj

theorem Class.importTraitInstanceProp_named {env : Env} {this : Class}
    {traitProp : Class.Prop} {traitPropVal : TypedValueAux} {st st' : PropState} {n0 : Nat}
    (h : Class.importTraitInstanceProp env this traitProp traitPropVal st = .ok st')
    (hN : PropMap.Named n0 st.curPropMap) (hlen : n0 ≤ st.curPropMap.m_list.length) :
    PropMap.Named n0 st'.curPropMap := by
  unfold Class.importTraitInstanceProp at h
  cases hf : st.curPropMap.find traitProp.m_name with
  | none =>
    simp only [hf] at h
    injection h with h
    subst h
    split <;> split <;>
    · exact hN.named_add _ _ hf rfl (fun hh => absurd hh (by omega))
  | some slot =>
    simp only [hf] at h
    split at h
    · split at h
      · cases h
      · injection h with h
        subst h
        exact hN
    · cases h

theorem Class.importTraitInstanceProps_named {env : Env} {this : Class} {trait : Class}
    {n0 : Nat} (l : List Class.Prop) :
    ∀ (p : Nat) (st st' : PropState),
      Class.importTraitInstanceProps env this trait l p st = .ok st' →
      PropMap.Named n0 st.curPropMap → n0 ≤ st.curPropMap.m_list.length →
      PropMap.Named n0 st'.curPropMap := by
  induction l with
  | nil =>
    intro p st st' h hN _
    rw [Class.importTraitInstanceProps] at h
    injection h with h
    subst h
    exact hN
  | cons traitProp rest ih =>
    intro p st st' h hN hlen
    rw [Class.importTraitInstanceProps] at h
    cases hval : trait.m_declPropInit[p]? with
    | none => simp [hval] at h
    | some v =>
      simp only [hval] at h
      cases h1 : Class.importTraitInstanceProp env this traitProp v st with
      | error e => simp [h1] at h
      | ok st1 =>
        simp only [h1] at h
        exact ih (p + 1) st1 st' h (Class.importTraitInstanceProp_named h1 hN hlen)
          (Nat.le_trans hlen (Class.importTraitInstanceProp_evolve h1).1)

theorem Class.importTraitPropsLoop_named {env : Env} {this : Class} {n0 : Nat}
    (ts : List Class) :
    ∀ (st st' : PropState), Class.importTraitPropsLoop env this ts st = .ok st' →
      PropMap.Named n0 st.curPropMap → n0 ≤ st.curPropMap.m_list.length →
      PropMap.Named n0 st'.curPropMap := by
  induction ts with
  | nil =>
    intro st st' h hN _
    rw [Class.importTraitPropsLoop] at h
    injection h with h
    subst h
    exact hN
  | cons trait rest ih =>
    intro st st' h hN hlen
    rw [Class.importTraitPropsLoop] at h
    cases h1 : Class.importTraitInstanceProps env this trait trait.m_declProperties.m_list 0 st with
    | error e => simp [h1] at h
    | ok st1 =>
      simp only [h1] at h
      cases h2 : Class.importTraitStaticProps env this trait.m_staticProperties.m_list st1 with
      | error e => simp [h2] at h
      | ok st2 =>
        simp only [h2] at h
        have heq := Class.importTraitStaticProps_props _ _ _ h2
        refine ih st2 st' h ?_ ?_
        · rw [heq]
          exact Class.importTraitInstanceProps_named _ 0 st st1 h1 hN hlen
        · rw [heq]
          exact Nat.le_trans hlen (Class.importTraitInstanceProps_evolve _ 0 st st1 h1).1

theorem Class.buildProps_named {env : Env} {parent : Option Class} {usedTraits : List Class}
    {this : Class} {st : PropState}
    (h : Class.buildProps env parent usedTraits this = .ok st)
    (hpw : this.m_preClass.DistinctProps)
    (hparVis : ∀ e, e ∈ Class.parentPropList parent → OneVis e.m_attrs)
    (hparNU : ∀ (i : Nat) (e : Class.Prop), (Class.parentPropList parent)[i]? = some e →
      hasAttr e.m_attrs AttrPrivate = false →
      ∃ p, parent = some p ∧ p.m_declProperties.lookup e.m_name = some (i, e)) :
    PropMap.Named (Class.parentPropList parent).length st.curPropMap := by
  have hstart : PropMap.Named (Class.parentPropList parent).length
      (Class.inheritedProps parent).curPropMap := by
    cases parent with
    | none => exact PropMap.Named.named_empty _
    | some p =>
      simp only [Class.inheritedProps, Class.parentPropList]
      refine Class.copyParentProps_named p _ rfl ?_ _ _ (by simp [IndexedStringMap.empty])
        (PropMap.Named.named_empty _)
      intro i e he hnp
      obtain ⟨p', hp', hlk⟩ := hparNU i e he hnp
      injection hp' with hp'
      subst hp'
      exact (IndexedStringMap.lookup_eq_some.1 hlk).1
  unfold Class.buildProps at h
  cases h1 : Class.addOwnProps env parent this this.m_preClass.m_properties
      (Class.inheritedProps parent) with
  | error e => simp [h1] at h
  | ok st1 =>
    simp only [h1] at h
    have hev0 : PropsEvolve this.m_self (Class.parentPropList parent)
        (Class.inheritedProps parent).curPropMap.m_list := by
      rw [Class.inheritedProps_list]
      exact PropsEvolve.evolve_refl _ _
    have e1 := Class.addOwnProps_named rfl hparVis hparNU _ _ _ h1 hpw hstart hev0 (by
      intro d _ j hj
      obtain ⟨e, he, -⟩ := hstart.find_entry hj
      have := List.getElem?_lt_of_some he
      rw [Class.inheritedProps_list] at this
      exact this)
    have hlen1 : (Class.parentPropList parent).length ≤ st1.curPropMap.m_list.length := by
      have := (Class.addOwnProps_evolve _ _ _ h1).1
      rw [Class.inheritedProps_list] at this
      exact this
    unfold Class.importTraitProps at h
    split at h
    · injection h with h
      subst h
      exact e1
    · exact Class.importTraitPropsLoop_named _ _ _ h e1 hlen1
theorem LinkedHeap.namedInv {h : ClassId → Option Class} (hl : LinkedHeap h) :
    (∀ id c, h id = some c → c.m_preClass.DistinctProps) → HeapNamedInv h := by
  induction hl with
  | empty => intro _ id c hc; simp at hc
  | link env self pre parent cls hprev hfresh hpar hn ih =>
    intro hpw id C hC
    have hold : ∀ x a, env.classes x = some a →
        (fun id => if id = self then some cls else env.classes id) x = some a := by
      intro x a hx
      have hne : x ≠ self := by
        intro he
        rw [he, hfresh] at hx
        cases hx
      simp only [hne, if_false]
      exact hx
    have ih' := ih (fun id c hc => hpw id c (hold id c hc))
    by_cases hid : id = self
    · subst hid
      simp only [if_true] at hC
      injection hC with hC
      subst hC
      have hdold := LinkedHeap.declInv hprev
      obtain ⟨usedTraits, c5, st, -, s1, s2, -, -, hb, hd, -⟩ := Class.newClass_props hn
      have hpre : cls.m_preClass = pre := (Class.newClass_core hn).2.1
      have hdist : c5.m_preClass.DistinctProps := by
        rw [s2, ← hpre]
        exact hpw id cls (by simp)
      have hparVis : ∀ e, e ∈ Class.parentPropList parent → OneVis e.m_attrs := by
        intro e he
        cases parent with
        | none => cases he
        | some p =>
          obtain ⟨i, hi⟩ := List.mem_iff_getElem?.1 he
          exact (hdold _ p (hpar p rfl) i e hi).1
      have hparNU : ∀ (i : Nat) (e : Class.Prop), (Class.parentPropList parent)[i]? = some e →
          hasAttr e.m_attrs AttrPrivate = false →
          ∃ p, parent = some p ∧ p.m_declProperties.lookup e.m_name = some (i, e) := by
        intro i e he hnp
        cases parent with
        | none => simp [Class.parentPropList] at he
        | some p =>
          refine ⟨p, rfl, ?_⟩
          simp only [Class.parentPropList] at he
          exact IndexedStringMap.lookup_eq_some.2
            ⟨(ih' _ p (hpar p rfl)).2 i e he (Or.inr hnp), he⟩
      have hN := Class.buildProps_named hb hdist hparVis hparNU
      rw [← hd] at hN
      have hev := Class.newClass_propsEvolve hn
      refine ⟨?_, ?_⟩
      · intro n i hf
        obtain ⟨e, h1, h2, -⟩ := hN.find_entry hf
        exact ⟨e, h1, h2⟩
      · intro i e he hcond
        refine hN.find_mem (hN.2.2 i e he ?_)
        rcases hcond with hcond | hcond
        · left
          by_contra hlt
          have hlt' : i < (Class.parentPropList parent).length := by omega
          obtain ⟨e0, he0⟩ : ∃ e0, (Class.parentPropList parent)[i]? = some e0 :=
            ⟨_, List.getElem?_eq_getElem hlt'⟩
          obtain ⟨q, hq, hde⟩ := hev.2.1 i e0 he0
          rw [he] at hq
          injection hq with hq
          subst hq
          cases parent with
          | none => simp [Class.parentPropList] at he0
          | some p =>
            simp only [Class.parentPropList] at he0
            obtain ⟨-, a, ha, -⟩ := hdold _ p (hpar p rfl) i e0 he0
            rw [← hde.2.1, hcond, hfresh] at ha
            cases ha
        · exact Or.inr hcond
    · simp only [hid, if_false] at hC
      exact ih' id C hC
/-- With distinct property names in every declaration, a private property
that `ctx`, an ancestor of the class, declares itself under the name is what
`getDeclPropIndex` returns. -/
theorem Class.getDeclPropIndex_trumps (ec : ExecutionContext) (env : Env) (this c : Class)
    (key : String) (hoff : ec.debuggerBypassCheck = false)
    (hl : LinkedHeap env.classes)
    (hpw : ∀ id c, env.classes id = some c → c.m_preClass.DistinctProps)
    (hC : env.classes this.m_self = some this) (hcin : env.classes c.m_self = some c)
    (hP : (this.isSubclassOf c && c.hasOwnPrivateProp key) = true) :
    Class.getDeclPropIndex ec env this (some c) key = .ok (c.lookupDeclProp key, true) := by
  have hv := LinkedHeap.vecInv hl
  have hd := LinkedHeap.declInv hl
  have hp := LinkedHeap.propInv hl
  have hnm := LinkedHeap.namedInv hl hpw
  have hwfC := (hp _ this hC).2
  have hwfc := (hp _ c hcin).2
  have hsub : this.isSubclassOf c = true := by
    simp only [Bool.and_eq_true] at hP
    exact hP.1
  have htail : ∀ (propInd : Option Nat) (acc : Bool),
      Class.getDeclPropIndexCtx this (some c) key propInd acc =
        .ok (c.lookupDeclProp key, true) := by
    intro propInd acc
    rw [Class.getDeclPropIndexCtx_spec this c key propInd acc hwfc, if_pos hP]
  unfold Class.getDeclPropIndex
  cases hf : this.lookupDeclProp key with
  | none => exact htail none false
  | some i =>
    simp only []
    unfold Class.lookupDeclProp at hf
    obtain ⟨prop, hprop, -⟩ := hwfC.find_get hf
    obtain ⟨hvis, a, ha, hCa, hmid⟩ := hd _ this hC i prop hprop
    have haself : a.m_self = prop.m_class := (hv _ a ha).1
    have ha' : env.classes a.m_self = some a := by rw [haself]; exact ha
    have hkey : prop.m_name = key := by
      obtain ⟨e, he, hn⟩ := (hnm _ this hC).1 key i hf
      rw [hprop] at he
      injection he with he
      rw [he]; exact hn
    simp only [IndexedStringMap.get?, hprop, hoff, Bool.not_false, Bool.and_true]
    by_cases hg : (prop.m_attrs &&& (AttrProtected ||| AttrPrivate) != 0) = true
    · rw [if_pos hg]
      by_cases hbase : (some c).map (fun c => c.m_self) = some prop.m_class
      · rw [if_pos hbase]
        simp only [Option.map_some', Option.some.injEq] at hbase
        have hac : a = c := by
          have h1 := hcin
          rw [hbase, ha] at h1
          injection h1
        subst hac
        obtain ⟨e', he', hde⟩ := hmid a ha' hCa (hv.self_mem ha)
        have hfind := (hnm _ a hcin).2 i e' he' (Or.inl (hde.2.1.symm ▸ hbase.symm))
        rw [← hde.1, hkey] at hfind
        unfold Class.lookupDeclProp
        rw [hfind]
      · rw [if_neg hbase]
        by_cases hpriv : hasAttr prop.m_attrs AttrPrivate = true
        · rw [if_pos hpriv]
          exact htail (some i) false
        · rw [if_neg hpriv]
          have hderef : env.deref prop.m_class = .ok a := by
            unfold Env.deref
            rw [ha]
          simp only [hderef]
          by_cases h1 : c.isSubclassOf a = true
          · rw [if_pos h1]
            obtain ⟨e', he', hde⟩ := hmid c hcin hsub h1
            have hvis' := (hd _ c hcin i e' he').1
            have hnpriv' : hasAttr e'.m_attrs AttrPrivate = false := by
              cases hh : hasAttr e'.m_attrs AttrPrivate with
              | false => rfl
              | true =>
                exact absurd (hvis.private_iff.2 (hde.2.2 (hvis'.private_iff.1 hh)).2) hpriv
            have hfind := (hnm _ c hcin).2 i e' he' (Or.inr hnpriv')
            rw [← hde.1, hkey] at hfind
            unfold Class.lookupDeclProp
            rw [hfind]
          · rw [if_neg h1]
            by_cases h2 : a.isSubclassOf c = true
            · simp only [h2, Bool.not_true, Bool.false_eq_true, if_false]
              exact htail (some i) true
            · exfalso
              rcases hv.linear hC hcin ha' hsub hCa with h3 | h3
              · exact h1 h3
              · exact h2 h3
    · rw [if_neg hg]
      by_cases hthis : (some c).map (fun c => c.m_self) = some this.m_self
      · rw [if_pos hthis]
        simp only [Option.map_some', Option.some.injEq] at hthis
        have hcc : c = this := by
          have h1 := hcin
          rw [hthis, hC] at h1
          injection h1 with h1
          exact h1.symm
        subst hcc
        unfold Class.lookupDeclProp
        rw [hf]
      · rw [if_neg hthis]
        exact htail (some i) true

/-- C36: with the debugger bypass off, in a heap whose classes were all built
by linking, for a class `cls` of the heap, a context `ctx` (no class, or a
class of the heap) and a property name: `getDeclPropIndex` returns, and when
the slot it returns is valid, the flag it reports is `IsPropAccessible` applied
to `ctx` and to the property in that slot of the table of `ctx`, when `ctx` is
an ancestor of `cls` (or `cls` itself) whose table resolves the name to a
private property that `ctx` declares itself, and of the table of `cls`
otherwise.  When moreover the declarations of the classes of the heap have
distinct property names each, that private property of `ctx` takes
precedence: the slot returned is its slot in the table of `ctx`, and the flag
is true. -/
theorem C36_decl_prop_index (ec : ExecutionContext) (env : Env) (cls : Class)
    (ctx : Option Class) (key : String) (hoff : ec.debuggerBypassCheck = false)
    (hl : LinkedHeap env.classes) (hcls : env.classes cls.m_self = some cls)
    (hctx : ∀ c, ctx = some c → env.classes c.m_self = some c) :
    ∃ r, Class.getDeclPropIndex ec env cls ctx key = .ok r ∧
      (∀ slot, r.1 = some slot →
        ∃ prop, (Class.specPropTable cls ctx key).get? slot = some prop ∧
          Class.IsPropAccessible env prop ctx = .ok r.2) ∧
      ((∀ id c, env.classes id = some c → c.m_preClass.DistinctProps) →
        ∀ c, ctx = some c → cls.isSubclassOf c = true → c.hasOwnPrivateProp key = true →
          r = (c.lookupDeclProp key, true)) := by
  obtain ⟨r, hr, hflag⟩ := Class.getDeclPropIndex_flag ec env cls ctx key hoff hl hcls hctx
  refine ⟨r, hr, hflag, ?_⟩
  intro hpw c hc hsub hown
  subst hc
  have := Class.getDeclPropIndex_trumps ec env cls c key hoff hl hpw hcls (hctx c rfl)
    (by rw [hsub, hown]; rfl)
  rw [hr] at this
  injection this

theorem heapPriv_distinct :
    ∀ id c, envPrivQ.classes id = some c → c.m_preClass.DistinctProps := by
  intro id c hc
  have hc' : (if id = 41 then some exPrivChild else if id = 40 then some exPrivParent else none)
      = some c := hc
  split at hc'
  · injection hc' with hc'
    subst hc'
    have : exPrivChild.m_preClass = prePrivChild := rfl
    unfold PreClass.DistinctProps
    rw [this]
    decide
  · split at hc'
    · injection hc' with hc'
      subst hc'
      have : exPrivParent.m_preClass = prePrivParent := rfl
      unfold PreClass.DistinctProps
      rw [this]
      decide
    · cases hc'

/-- Witness of C36: `Q` extends `P`, and both declare a private property `p`.
Seen from `P`, the name `p`, which the table of `Q` resolves to slot 2,
resolves in `Q` to slot 0 of the table of `P`, the private property of `P`,
which is accessible from `P`. -/
theorem C36_decl_prop_index_witness :
    exEC.debuggerBypassCheck = false ∧
    Class.getDeclPropIndex exEC envPrivQ exPrivChild (some exPrivParent) "p" = .ok (some 0, true) ∧
    exPrivChild.lookupDeclProp "p" = some 2 ∧
    exPrivParent.lookupDeclProp "p" = some 0 ∧
    Class.specPropTable exPrivChild (some exPrivParent) "p" = exPrivParent.m_declProperties ∧
    (∃ prop, exPrivParent.m_declProperties.get? 0 = some prop ∧ prop.m_class = 40 ∧
      hasAttr prop.m_attrs AttrPrivate = true ∧
      Class.IsPropAccessible envPrivQ prop (some exPrivParent) = .ok true) ∧
    (∃ r, Class.getDeclPropIndex exEC envPrivQ exPrivChild (some exPrivParent) "p" = .ok r ∧
      r = (exPrivParent.lookupDeclProp "p", true)) := by
  obtain ⟨r, hr, hflag, hprec⟩ := C36_decl_prop_index exEC envPrivQ exPrivChild
    (some exPrivParent) "p" rfl heapPriv_linked rfl
    (fun c hc => by injection hc with hc; subst hc; rfl)
  have hp := hprec heapPriv_distinct exPrivParent rfl rfl rfl
  have hr' : Class.getDeclPropIndex exEC envPrivQ exPrivChild (some exPrivParent) "p"
      = .ok (some 0, true) := rfl
  have hr2 := hr
  rw [hr'] at hr
  injection hr with hr
  subst hr
  obtain ⟨prop, h1, h2⟩ := hflag 0 rfl
  have htab : Class.specPropTable exPrivChild (some exPrivParent) "p"
      = exPrivParent.m_declProperties := rfl
  rw [htab] at h1
  have h0 : exPrivParent.m_declProperties.get? 0 = some
      (Class.newProp exPrivParent (exProp "p" AttrPrivate (.int 1))) := rfl
  have hprop : prop = Class.newProp exPrivParent (exProp "p" AttrPrivate (.int 1)) := by
    rw [h0] at h1
    injection h1 with h1
    exact h1.symm
  refine ⟨rfl, hr', rfl, rfl, htab, ⟨prop, h1, ?_, ?_, h2⟩, ⟨_, hr2, hp⟩⟩
  · rw [hprop]; rfl
  · rw [hprop]; rfl

/-! ## Private properties of a parent and its child, at link level -/

theorem SStep.step_entry_names {self : ClassId} {n : String} {a : Option Attr} {T T' : SPropMap}
    (hs : SStep self n a T T') :
    ∀ e, e ∈ T'.m_list → e.m_name = n ∨ ∃ e0, e0 ∈ T.m_list ∧ e0.m_name = e.m_name := by
  intro e he
  obtain ⟨v, -, hcase⟩ := hs
  rcases hcase with ⟨-, hT, hv, -⟩ | ⟨i, e0, hl, hT, hv, -, -⟩
  · subst hT
    simp only [IndexedStringMap.add, List.mem_append, List.mem_singleton] at he
    rcases he with he | he
    · exact Or.inr ⟨e, he, rfl⟩
    · subst he; exact Or.inl hv
  · subst hT
    simp only [IndexedStringMap.set] at he
    rcases List.mem_or_eq_of_mem_set he with he | he
    · exact Or.inr ⟨e, he, rfl⟩
    · subst he
      exact Or.inr ⟨e0, List.mem_iff_getElem?.2 ⟨i, (IndexedStringMap.lookup_eq_some.1 hl).2⟩,
        hv.symm⟩

theorem SPath.path_entry_names {self : ClassId} {N : String → Option Attr → Prop} {T1 T2 : SPropMap}
    (h : SPath self N T1 T2) :
    ∀ e, e ∈ T2.m_list →
      (∃ a, N e.m_name a) ∨ ∃ e0, e0 ∈ T1.m_list ∧ e0.m_name = e.m_name := by
  induction h with
  | refl T => exact fun e he => Or.inr ⟨e, he, rfl⟩
  | step n a hN hs _ ih =>
    intro e he
    rcases ih e he with h1 | ⟨e1, he1, hn1⟩
    · exact Or.inl h1
    · rcases hs.step_entry_names e1 he1 with h2 | ⟨e0, he0, hn0⟩
      · left
        refine ⟨a, ?_⟩
        rw [← hn1, h2]
        exact hN
      · exact Or.inr ⟨e0, he0, hn0.trans hn1⟩

theorem SStep.step_bound {self : ClassId} {n : String} {a : Option Attr} {T T' : SPropMap}
    (hs : SStep self n a T T') (hb : SPropMap.Bound T) : SPropMap.Bound T' := by
  intro e he
  obtain ⟨v, -, hcase⟩ := hs
  rcases hcase with ⟨-, hT, hv, -⟩ | ⟨i, e0, hl, hT, hv, -, -⟩
  · subst hT
    rw [IndexedStringMap.find_add]
    split
    · simp
    · simp only [IndexedStringMap.add, List.mem_append, List.mem_singleton] at he
      rcases he with he | he
      · exact hb e he
      · subst he
        rename_i hk
        exact absurd (by simp [keyEq, hv]) hk
  · subst hT
    rw [IndexedStringMap.find_set]
    simp only [IndexedStringMap.set] at he
    rcases List.mem_or_eq_of_mem_set he with he | he
    · exact hb e he
    · subst he
      rw [hv]
      exact hb e0 (List.mem_iff_getElem?.2 ⟨i, (IndexedStringMap.lookup_eq_some.1 hl).2⟩)

theorem SPath.path_bound {self : ClassId} {N : String → Option Attr → Prop} {T1 T2 : SPropMap}
    (h : SPath self N T1 T2) (hb : SPropMap.Bound T1) : SPropMap.Bound T2 := by
  induction h with
  | refl T => exact hb
  | step n a _ hs _ ih => exact ih (hs.step_bound hb)

theorem Class.copyParentSProps_bound (l : List Class.SProp) :
    ∀ T : SPropMap, SPropMap.Bound T → SPropMap.Bound (Class.copyParentSProps l T) := by
  induction l with
  | nil => intro T h; exact h
  | cons p rest ih =>
    intro T h
    rw [Class.copyParentSProps]
    split
    · exact ih T h
    · refine ih _ ?_
      intro e he
      rw [IndexedStringMap.find_add]
      split
      · simp
      · simp only [IndexedStringMap.add, List.mem_append, List.mem_singleton] at he
        rcases he with he | he
        · exact h e he
        · subst he
          rename_i hk
          exact absurd (by simp [keyEq]) hk

theorem Class.addOwnProps_append {env : Env} {parent : Option Class} {this : Class}
    (l1 l2 : List PreClass.Prop) :
    ∀ st, Class.addOwnProps env parent this (l1 ++ l2) st =
      match Class.addOwnProps env parent this l1 st with
      | .error e => .error e
      | .ok st1 => Class.addOwnProps env parent this l2 st1 := by
  induction l1 with
  | nil => intro st; rfl
  | cons d rest ih =>
    intro st
    rw [List.cons_append, Class.addOwnProps, Class.addOwnProps]
    cases h1 : Class.addOwnProp env parent this d st with
    | error e => rfl
    | ok st1 => exact ih st1

theorem PropState.InstanceOnly.of_static_step {p : String} {st st' : PropState} {self : ClassId}
    {n : String} {a : Option Attr} (h : st.InstanceOnly p)
    (hp : st'.curPropMap = st.curPropMap)
    (hs : SStep self n a st.curSPropMap st'.curSPropMap) (hn : n ≠ p) :
    st'.InstanceOnly p := by
  refine ⟨by rw [hp]; exact h.1, ?_⟩
  intro e he
  rcases hs.step_entry_names e he with h1 | ⟨e0, he0, hn0⟩
  · rw [h1]; exact hn
  · rw [← hn0]; exact h.2 e0 he0

theorem Class.addOwnProp_instanceOnly {env : Env} {parent : Option Class} {this : Class}
    {d : PreClass.Prop} {st st' : PropState} {p : String}
    (h : Class.addOwnProp env parent this d st = .ok st') (hd : d.m_name ≠ p)
    (hi : st.InstanceOnly p) : st'.InstanceOnly p := by
  unfold Class.addOwnProp at h
  split at h
  · refine ⟨?_, ?_⟩
    · rw [Class.addOwnInstanceProp_find h p hd]
      exact hi.1
    · rw [(Class.addOwnInstanceProp_evolve h).2]
      exact hi.2
  · exact hi.of_static_step (Class.addOwnStaticProp_props h) (Class.addOwnStaticProp_shape h) hd

theorem Class.addOwnProps_instanceOnly {env : Env} {parent : Option Class} {this : Class}
    {p : String} (l : List PreClass.Prop) :
    ∀ (st st' : PropState), Class.addOwnProps env parent this l st = .ok st' →
      (∀ d, d ∈ l → d.m_name ≠ p) → st.InstanceOnly p → st'.InstanceOnly p := by
  induction l with
  | nil =>
    intro st st' h _ hi
    rw [Class.addOwnProps] at h
    injection h with h
    subst h
    exact hi
  | cons d rest ih =>
    intro st st' h hl hi
    rw [Class.addOwnProps] at h
    cases h1 : Class.addOwnProp env parent this d st with
    | error e => simp [h1] at h
    | ok st1 =>
      simp only [h1] at h
      exact ih st1 st' h (fun d' hd' => hl d' (List.mem_cons_of_mem _ hd'))
        (Class.addOwnProp_instanceOnly h1 (hl d (List.mem_cons_self _ _)) hi)

theorem Class.importTraitInstanceProp_instanceOnly {env : Env} {this : Class}
    {traitProp : Class.Prop} {traitPropVal : TypedValueAux} {st st' : PropState} {p : String}
    (h : Class.importTraitInstanceProp env this traitProp traitPropVal st = .ok st')
    (hi : st.InstanceOnly p) : st'.InstanceOnly p := by
  refine ⟨?_, ?_⟩
  · cases hf : st.curPropMap.find p with
    | none => exact absurd hf hi.1
    | some j =>
      rw [Class.importTraitInstanceProp_find h hf]
      simp
  · rw [Class.importTraitInstanceProp_sprops h]
    exact hi.2

theorem Class.importTraitInstanceProps_instanceOnly {env : Env} {this : Class} {trait : Class}
    {p : String} (l : List Class.Prop) :
    ∀ (k : Nat) (st st' : PropState),
      Class.importTraitInstanceProps env this trait l k st = .ok st' →
      st.InstanceOnly p → st'.InstanceOnly p := by
  induction l with
  | nil =>
    intro k st st' h hi
    rw [Class.importTraitInstanceProps] at h
    injection h with h
    subst h
    exact hi
  | cons traitProp rest ih =>
    intro k st st' h hi
    rw [Class.importTraitInstanceProps] at h
    cases hval : trait.m_declPropInit[k]? with
    | none => simp [hval] at h
    | some v =>
      simp only [hval] at h
      cases h1 : Class.importTraitInstanceProp env this traitProp v st with
      | error e => simp [h1] at h
      | ok st1 =>
        simp only [h1] at h
        exact ih (k + 1) st1 st' h (Class.importTraitInstanceProp_instanceOnly h1 hi)

theorem Class.importTraitStaticProp_instanceOnly {env : Env} {this : Class}
    {traitProp : Class.SProp} {st st' : PropState} {p : String}
    (h : Class.importTraitStaticProp env this traitProp st = .ok st')
    (hi : st.InstanceOnly p) : st'.InstanceOnly p := by
  have hn : traitProp.m_name ≠ p := by
    intro hn
    unfold Class.importTraitStaticProp at h
    rw [hn] at h
    cases hf : st.curPropMap.find p with
    | none => exact hi.1 hf
    | some j =>
      simp [hf] at h
  exact hi.of_static_step (Class.importTraitStaticProp_props h)
    (Class.importTraitStaticProp_shape h) hn

theorem Class.importTraitStaticProps_instanceOnly {env : Env} {this : Class} {p : String}
    (l : List Class.SProp) :
    ∀ (st st' : PropState), Class.importTraitStaticProps env this l st = .ok st' →
      st.InstanceOnly p → st'.InstanceOnly p := by
  induction l with
  | nil =>
    intro st st' h hi
    rw [Class.importTraitStaticProps] at h
    injection h with h
    subst h
    exact hi
  | cons traitProp rest ih =>
    intro st st' h hi
    rw [Class.importTraitStaticProps] at h
    cases h1 : Class.importTraitStaticProp env this traitProp st with
    | error e => simp [h1] at h
    | ok st1 =>
      simp only [h1] at h
      exact ih st1 st' h (Class.importTraitStaticProp_instanceOnly h1 hi)

theorem Class.importTraitPropsLoop_instanceOnly {env : Env} {this : Class} {p : String}
    (ts : List Class) :
    ∀ (st st' : PropState), Class.importTraitPropsLoop env this ts st = .ok st' →
      st.InstanceOnly p → st'.InstanceOnly p := by
  induction ts with
  | nil =>
    intro st st' h hi
    rw [Class.importTraitPropsLoop] at h
    injection h with h
    subst h
    exact hi
  | cons trait rest ih =>
    intro st st' h hi
    rw [Class.importTraitPropsLoop] at h
    cases h1 : Class.importTraitInstanceProps env this trait trait.m_declProperties.m_list 0 st with
    | error e => simp [h1] at h
    | ok st1 =>
      simp only [h1] at h
      cases h2 : Class.importTraitStaticProps env this trait.m_staticProperties.m_list st1 with
      | error e => simp [h2] at h
      | ok st2 =>
        simp only [h2] at h
        exact ih st2 st' h (Class.importTraitStaticProps_instanceOnly _ _ _ h2
          (Class.importTraitInstanceProps_instanceOnly _ 0 _ _ h1 hi))

theorem Class.inheritedProps_static (parent : Option Class) :
    (Class.inheritedProps parent).curSPropMap =
      Class.copyParentSProps (Class.parentSPropList parent) IndexedStringMap.empty := by
  cases parent <;> rfl

/-- A class that links and declares a private instance property `p` has no
static property named `p`. -/
theorem Class.newClass_instanceOnly {env : Env} {self : ClassId} {pre : PreClass}
    {parent : Option Class} {cls : Class} {d : PreClass.Prop}
    (h : Class.newClass env self pre parent = .ok cls)
    (hd : d ∈ pre.m_properties) (hpriv : visOf d.m_attrs = AttrPrivate)
    (hinst : hasAttr d.m_attrs AttrStatic = false)
    (hpw : pre.m_properties.Pairwise (fun a b => a.m_name ≠ b.m_name)) :
    ∀ e, e ∈ cls.m_staticProperties.m_list → e.m_name ≠ d.m_name := by
  obtain ⟨usedTraits, c5, st, -, s1, s2, -, -, hb, -, hs, -⟩ := Class.newClass_props h
  rw [hs]
  obtain ⟨l1, l2, hsplit⟩ := List.append_of_mem hd
  rw [hsplit, List.pairwise_append] at hpw
  obtain ⟨-, hpw2, hpw3⟩ := hpw
  rw [List.pairwise_cons] at hpw2
  unfold Class.buildProps at hb
  rw [s2, hsplit, Class.addOwnProps_append] at hb
  cases h1 : Class.addOwnProps env parent c5 l1 (Class.inheritedProps parent) with
  | error e => simp [h1] at hb
  | ok st1 =>
    simp only [h1] at hb
    rw [Class.addOwnProps] at hb
    cases h2 : Class.addOwnProp env parent c5 d st1 with
    | error e => simp [h2] at hb
    | ok st2 =>
      simp only [h2] at hb
      have hbound : SPropMap.Bound st1.curSPropMap := by
        refine (Class.addOwnProps_spath _ _ _ h1).path_bound ?_
        rw [Class.inheritedProps_static]
        exact Class.copyParentSProps_bound _ _ (fun e he => by cases he)
      have hi2 : st2.InstanceOnly d.m_name := by
        unfold Class.addOwnProp at h2
        rw [hinst] at h2
        simp only [Bool.not_false, if_true] at h2
        have hnone : st1.curSPropMap.find d.m_name = none := by
          unfold Class.addOwnInstanceProp at h2
          cases hf : st1.curSPropMap.find d.m_name with
          | none => rfl
          | some j => simp [hf] at h2
        obtain ⟨j, q, k1, -⟩ := Class.addOwnInstanceProp_private hpriv h2
        refine ⟨by rw [k1]; simp, ?_⟩
        rw [(Class.addOwnInstanceProp_evolve h2).2]
        intro e he hn
        have := hbound e he
        rw [hn] at this
        exact this hnone
      cases h3 : Class.addOwnProps env parent c5 l2 st2 with
      | error e => simp [h3] at hb
      | ok st3 =>
        simp only [h3] at hb
        have hi3 := Class.addOwnProps_instanceOnly l2 st2 st3 h3
          (fun d' hd' => (hpw2.1 d' hd').symm) hi2
        unfold Class.importTraitProps at hb
        split at hb
        · injection hb with hb
          subst hb
          exact hi3.2
        · exact (Class.importTraitPropsLoop_instanceOnly _ _ _ hb hi3).2

/-- The declaration of a private instance property `p` raises no error when
`setProperties` reaches it, in a child of a class that links and declares a
private instance property `p` itself. -/
theorem Class.addOwnProp_private_reached {envP env : Env} {pid : ClassId} {ppre : PreClass}
    {grand : Option Class} {parent this : Class} {dP dC : PreClass.Prop}
    {l1 l2 : List PreClass.Prop} {st : PropState}
    (hparent : Class.newClass envP pid ppre grand = .ok parent)
    (hP : dP ∈ ppre.m_properties) (hPpriv : visOf dP.m_attrs = AttrPrivate)
    (hPinst : hasAttr dP.m_attrs AttrStatic = false)
    (hPpw : ppre.m_properties.Pairwise (fun a b => a.m_name ≠ b.m_name))
    (hn : dC.m_name = dP.m_name)
    (hCpriv : visOf dC.m_attrs = AttrPrivate) (hCinst : hasAttr dC.m_attrs AttrStatic = false)
    (hsplit : this.m_preClass.m_properties = l1 ++ dC :: l2)
    (hCpw : this.m_preClass.m_properties.Pairwise (fun a b => a.m_name ≠ b.m_name))
    (hreach : Class.addOwnProps env (some parent) this l1 (Class.inheritedProps (some parent))
      = .ok st) :
    ∃ st', Class.addOwnProp env (some parent) this dC st = .ok st' := by
  have hpar := Class.newClass_privOwn hparent hP hPpriv hPinst hPpw
  have hself : parent.m_self = pid := (Class.newClass_core hparent).1
  have hnostatic := Class.newClass_instanceOnly hparent hP hPpriv hPinst hPpw
  have hC : dC ∈ this.m_preClass.m_properties := by rw [hsplit]; simp
  rw [hsplit, List.pairwise_append] at hCpw
  obtain ⟨-, -, hpw3⟩ := hCpw
  have hpath := Class.addOwnProps_spath _ _ _ hreach
  have hnk : SPropMap.NameKeyed st.curSPropMap := by
    refine hpath.nameKeyed ?_
    rw [Class.inheritedProps_static]
    exact Class.copyParentSProps_nameKeyed _ _ SPropMap.NameKeyed.keyed_empty
  have hstatic : st.curSPropMap.find dC.m_name = none := by
    cases hf : st.curSPropMap.find dC.m_name with
    | none => rfl
    | some j =>
      exfalso
      cases hl : st.curSPropMap.lookup dC.m_name with
      | none =>
        rw [IndexedStringMap.lookup_eq_none hnk.1, hf] at hl
        cases hl
      | some r =>
        obtain ⟨i, e⟩ := r
        have hname := hnk.2 _ _ _ hl
        have hmem : e ∈ st.curSPropMap.m_list :=
          List.mem_iff_getElem?.2 ⟨i, (IndexedStringMap.lookup_eq_some.1 hl).2⟩
        rcases hpath.path_entry_names e hmem with ⟨a, d, hd, hdn, -, -⟩ | ⟨e0, he0, hn0⟩
        · exact hpw3 d hd dC (List.mem_cons_self _ _) (hdn.trans hname)
        · rw [Class.inheritedProps_static] at he0
          rcases Class.copyParentSProps_names _ _ _ he0 with h0 | ⟨e', he', hn'⟩
          · cases h0
          · simp only [Class.parentSPropList] at he'
            exact hnostatic e' he' (by rw [hn', hn0, hname, hn])
  unfold Class.addOwnProp
  rw [hCinst]
  simp only [Bool.not_false, if_true]
  rw [← hn, ← hself] at hpar
  exact Class.addOwnInstanceProp_private_ok hC hCpriv hstatic hpar

/-- A string without a NUL byte is its own C string. -/
theorem cStringOf_eq_self (s : String) (h : ∀ c, c ∈ s.data → c ≠ Char.ofNat 0) :
    cStringOf s = s := by
  unfold cStringOf
  have : s.data.takeWhile (fun c => c != Char.ofNat 0) = s.data := by
    rw [List.takeWhile_eq_self_iff]
    intro c hc
    simpa using h c hc
  rw [this]

theorem Class.addOwnProps_error_split {env : Env} {parent : Option Class} {this : Class}
    {e : Fatal} (l : List PreClass.Prop) :
    ∀ st, Class.addOwnProps env parent this l st = .error e →
      ∃ l1 d l2 st1, l = l1 ++ d :: l2 ∧
        Class.addOwnProps env parent this l1 st = .ok st1 ∧
        Class.addOwnProp env parent this d st1 = .error e := by
  induction l with
  | nil =>
    intro st h
    rw [Class.addOwnProps] at h
    cases h
  | cons d rest ih =>
    intro st h
    rw [Class.addOwnProps] at h
    cases h1 : Class.addOwnProp env parent this d st with
    | error e1 =>
      simp only [h1] at h
      injection h with h
      subst h
      exact ⟨[], d, rest, st, rfl, rfl, h1⟩
    | ok st1 =>
      simp only [h1] at h
      obtain ⟨l1, d', l2, st2, k1, k2, k3⟩ := ih st1 h
      refine ⟨d :: l1, d', l2, st2, by rw [k1]; rfl, ?_, k3⟩
      rw [Class.addOwnProps, h1]
      exact k2

/-- Counterexample to C6 as stated.  First, the classes named `X NUL Y` and
`X NUL Z`, parent and child, each declare a private `p`; both link, their names
differ, and both slots of the child carry the mangled name NUL X NUL p, since
`manglePropName` reads the class name as a C string.  Second, the final class
`FP` and `FQ extends FP` each declare a private `p`, and linking `FQ` fails. -/
theorem C6_counterexample :
    (Class.newClass env0 110 preNulParent none = .ok exNulParent ∧
      Class.newClass envNul 111 preNulChild (some exNulParent) = .ok exNulChild ∧
      exProp "p" AttrPrivate (.int 1) ∈ preNulParent.m_properties ∧
      exProp "p" AttrPrivate (.int 2) ∈ preNulChild.m_properties ∧
      preNulParent.m_name ≠ preNulChild.m_name ∧
      exNulChild.m_declProperties.m_list.map (fun q => (q.m_name, q.m_class, q.m_mangledName))
        = [("p", 110, "\x00X\x00p"), ("p", 111, "\x00X\x00p")]) ∧
    (Class.newClass env0 112 preFinalP none = .ok exFinalP ∧
      exProp "p" AttrPrivate (.int 1) ∈ preFinalP.m_properties ∧
      exProp "p" AttrPrivate (.int 2) ∈ preFinalKid.m_properties ∧
      Class.newClass envFinalP 113 preFinalKid (some exFinalP)
        = .error (.mayNotInherit "FQ" "FP")) := by
  refine ⟨⟨rfl, rfl, ?_, ?_, by decide, rfl⟩, rfl, ?_, ?_, rfl⟩
  · simp [preNulParent, exPre]
  · simp [preNulChild, exPre]
  · simp [preFinalP, exPre]
  · simp [preFinalKid, exPre]

/-- C6, amended: a parent class (linked from `ppre`) and its child (declared by
`cpre`) each declare a private instance property `p`.  The declaration of the
child raises no error when the loop of `setProperties` over the declarations of
the child reaches it, and an error of that loop comes from a declaration of
another name.  When the child links, its declared-property table has two
distinct slots named `p`: the inherited one, among the slots of the parent,
with the parent as declaring class and the mangled name NUL parentName NUL p,
and, behind the slots of the parent, the one of the child, with the child as
declaring class and the mangled name NUL childName NUL p, the three names read
as C strings; looking `p` up by name yields the slot of the child.  The two
mangled names differ whenever the two class names differ before their first NUL
byte, so whenever they differ for class names without a NUL byte. -/
theorem C6_private_shadowing (envP env : Env) (pid cid : ClassId) (ppre cpre : PreClass)
    (grand : Option Class) (parent : Class) (dP dC : PreClass.Prop) (p : String)
    (hparent : Class.newClass envP pid ppre grand = .ok parent)
    (hP : dP ∈ ppre.m_properties) (hPn : dP.m_name = p)
    (hPpriv : visOf dP.m_attrs = AttrPrivate) (hPinst : hasAttr dP.m_attrs AttrStatic = false)
    (hPpw : ppre.m_properties.Pairwise (fun a b => a.m_name ≠ b.m_name))
    (hC : dC ∈ cpre.m_properties) (hCn : dC.m_name = p)
    (hCpriv : visOf dC.m_attrs = AttrPrivate) (hCinst : hasAttr dC.m_attrs AttrStatic = false)
    (hCpw : cpre.m_properties.Pairwise (fun a b => a.m_name ≠ b.m_name)) :
    (∀ (this : Class) (l1 l2 : List PreClass.Prop) (st : PropState),
      this.m_preClass = cpre → cpre.m_properties = l1 ++ dC :: l2 →
      Class.addOwnProps env (some parent) this l1 (Class.inheritedProps (some parent)) = .ok st →
      ∃ st', Class.addOwnProp env (some parent) this dC st = .ok st') ∧
    (∀ (this : Class) (e : Fatal), this.m_preClass = cpre →
      Class.addOwnProps env (some parent) this cpre.m_properties
        (Class.inheritedProps (some parent)) = .error e →
      ∃ l1 d l2 st, cpre.m_properties = l1 ++ d :: l2 ∧ d.m_name ≠ p ∧
        Class.addOwnProps env (some parent) this l1 (Class.inheritedProps (some parent)) = .ok st ∧
        Class.addOwnProp env (some parent) this d st = .error e) ∧
    (∀ cls, Class.newClass env cid cpre (some parent) = .ok cls →
      ∃ (i j : Nat) (qP qC : Class.Prop),
        i < parent.m_declProperties.size ∧ parent.m_declProperties.size ≤ j ∧
        cls.m_declProperties.get? i = some qP ∧ cls.m_declProperties.get? j = some qC ∧
        qP.m_name = p ∧ qP.m_class = pid ∧
        qP.m_mangledName = "\x00" ++ cStringOf ppre.m_name ++ "\x00" ++ cStringOf p ∧
        visOf qP.m_attrs = AttrPrivate ∧
        qC.m_name = p ∧ qC.m_class = cid ∧
        qC.m_mangledName = "\x00" ++ cStringOf cpre.m_name ++ "\x00" ++ cStringOf p ∧
        visOf qC.m_attrs = AttrPrivate ∧
        cls.m_declProperties.lookup p = some (j, qC)) ∧
    (cStringOf ppre.m_name ≠ cStringOf cpre.m_name →
      "\x00" ++ cStringOf ppre.m_name ++ "\x00" ++ cStringOf p ≠
        "\x00" ++ cStringOf cpre.m_name ++ "\x00" ++ cStringOf p) ∧
    ((∀ c, c ∈ ppre.m_name.data → c ≠ Char.ofNat 0) →
      (∀ c, c ∈ cpre.m_name.data → c ≠ Char.ofNat 0) →
      cStringOf ppre.m_name = ppre.m_name ∧ cStringOf cpre.m_name = cpre.m_name ∧
      (ppre.m_name ≠ cpre.m_name →
        "\x00" ++ cStringOf ppre.m_name ++ "\x00" ++ cStringOf p ≠
          "\x00" ++ cStringOf cpre.m_name ++ "\x00" ++ cStringOf p)) := by
  have hpar := Class.newClass_privOwn hparent hP hPpriv hPinst hPpw
  rw [hPn] at hpar
  have hself : parent.m_self = pid := (Class.newClass_core hparent).1
  have hreach : ∀ (this : Class) (l1 l2 : List PreClass.Prop) (st : PropState),
      this.m_preClass = cpre → cpre.m_properties = l1 ++ dC :: l2 →
      Class.addOwnProps env (some parent) this l1 (Class.inheritedProps (some parent)) = .ok st →
      ∃ st', Class.addOwnProp env (some parent) this dC st = .ok st' := by
    intro this l1 l2 st hthis hsplit hst
    rw [← hthis] at hsplit hCpw
    exact Class.addOwnProp_private_reached hparent hP hPpriv hPinst hPpw (hCn.trans hPn.symm)
      hCpriv hCinst hsplit hCpw hst
  refine ⟨hreach, ?_, ?_, fun hne e => hne (mangled_private_injective _ _ _ e), ?_⟩
  · intro this e hthis herr
    obtain ⟨l1, d, l2, st, k1, k2, k3⟩ := Class.addOwnProps_error_split _ _ herr
    refine ⟨l1, d, l2, st, k1, ?_, k2, k3⟩
    intro hdn
    have hdC : d = dC := by
      by_contra hne
      have hd : d ∈ cpre.m_properties := by rw [k1]; simp
      obtain ⟨a, b, hab⟩ := List.append_of_mem hC
      rw [hab, List.pairwise_append, List.pairwise_cons] at hCpw
      rw [hab, List.mem_append, List.mem_cons] at hd
      rcases hd with hd | hd | hd
      · exact hCpw.2.2 d hd dC (List.mem_cons_self _ _) (hdn.trans hCn.symm)
      · exact hne hd
      · exact hCpw.2.1.1 d hd (hCn.trans hdn.symm)
    subst hdC
    obtain ⟨st', hok⟩ := hreach this l1 l2 st hthis k1 k2
    rw [hok] at k3
    cases k3
  · intro cls hcls
    have hown := Class.newClass_privOwn hcls hC hCpriv hCinst hCpw
    rw [hCn] at hown
    obtain ⟨j, qC, c1, c2, c3, c4, c5, c6, c7⟩ := hown
    obtain ⟨i, qP0, p1, p2, -, p4, p5, p6, p7⟩ := hpar
    obtain ⟨-, hkeep, -⟩ := Class.newClass_propsEvolve hcls
    obtain ⟨qP, k1, k2, k3, k4⟩ := hkeep i qP0 p2
    refine ⟨i, j, qP, qC, List.getElem?_lt_of_some p2, c3, k1, c2, k2.trans p4, k3.trans p5,
      (k4 p7).1.trans p6, (k4 p7).2, c4, c5, c6, c7, ?_⟩
    exact IndexedStringMap.lookup_eq_some.mpr ⟨c1, c2⟩
  · intro h1 h2
    refine ⟨cStringOf_eq_self _ h1, cStringOf_eq_self _ h2, ?_⟩
    intro hne e
    apply hne
    have := mangled_private_injective _ _ _ e
    rwa [cStringOf_eq_self _ h1, cStringOf_eq_self _ h2] at this

/-- Witness of C6: `P` declares a private `p`, and so does `Q extends P`.  `Q`
links; slot 0 of its table is the `p` of `P` and slot 2 the `p` of `Q`, and the
name `p` resolves to slot 2. -/
theorem C6_private_shadowing_witness :
    Class.newClass env0 40 prePrivParent none = .ok exPrivParent ∧
    Class.newClass envPriv 41 prePrivChild (some exPrivParent) = .ok exPrivChild ∧
    (∃ (i j : Nat) (qP qC : Class.Prop),
        i < exPrivParent.m_declProperties.size ∧ exPrivParent.m_declProperties.size ≤ j ∧
        exPrivChild.m_declProperties.get? i = some qP ∧
        exPrivChild.m_declProperties.get? j = some qC ∧
        qP.m_name = "p" ∧ qP.m_class = 40 ∧
        qP.m_mangledName = "\x00" ++ cStringOf prePrivParent.m_name ++ "\x00" ++ cStringOf "p" ∧
        visOf qP.m_attrs = AttrPrivate ∧
        qC.m_name = "p" ∧ qC.m_class = 41 ∧
        qC.m_mangledName = "\x00" ++ cStringOf prePrivChild.m_name ++ "\x00" ++ cStringOf "p" ∧
        visOf qC.m_attrs = AttrPrivate ∧
        exPrivChild.m_declProperties.lookup "p" = some (j, qC)) ∧
    (exPrivChild.m_declProperties.lookup "p").map
        (fun r => (r.1, r.2.m_class, r.2.m_mangledName)) = some (2, 41, "\x00Q\x00p") ∧
    (exPrivChild.m_declProperties.get? 0).map (fun q => (q.m_name, q.m_class, q.m_mangledName))
      = some ("p", 40, "\x00P\x00p") :=
  ⟨exPrivParent_linked, exPrivChild_linked,
    (C6_private_shadowing env0 envPriv 40 41 prePrivParent prePrivChild none exPrivParent
      (exProp "p" AttrPrivate (.int 1)) (exProp "p" AttrPrivate (.int 2)) "p"
      exPrivParent_linked (by simp [prePrivParent, exPre]) rfl (by decide) (by decide)
      (by simp [prePrivParent, exPre, exProp])
      (by simp [prePrivChild, exPre]) rfl (by decide) (by decide)
      (by simp [prePrivChild, exPre, exProp])).2.2.1 exPrivChild exPrivChild_linked,
    rfl, rfl⟩

/-! ## Trait properties under a name that is bound, at link level -/

theorem PropState.Keeps.keeps_refl (st : PropState) : st.Keeps st :=
  ⟨⟨[], by simp⟩, ⟨[], by simp⟩, fun _ _ h => h⟩

theorem PropState.Keeps.keeps_trans {a b c : PropState} (h1 : a.Keeps b) (h2 : b.Keeps c) :
    a.Keeps c := by
  obtain ⟨⟨x1, a1⟩, ⟨y1, a2⟩, a3⟩ := h1
  obtain ⟨⟨x2, b1⟩, ⟨y2, b2⟩, b3⟩ := h2
  exact ⟨⟨x1 ++ x2, by rw [b1, a1, List.append_assoc]⟩,
    ⟨y1 ++ y2, by rw [b2, a2, List.append_assoc]⟩, fun n j h => b3 n j (a3 n j h)⟩

theorem PropState.Keeps.keeps_of_fields {st st' : PropState}
    (h1 : st'.curPropMap = st.curPropMap) (h2 : st'.m_declPropInit = st.m_declPropInit) :
    st.Keeps st' :=
  ⟨⟨[], by rw [h1]; simp⟩, ⟨[], by rw [h2]; simp⟩, fun n j h => by rw [h1]; exact h⟩

theorem Class.importTraitInstanceProp_keeps {env : Env} {this : Class}
    {traitProp : Class.Prop} {traitPropVal : TypedValueAux} {st st' : PropState}
    (h : Class.importTraitInstanceProp env this traitProp traitPropVal st = .ok st') :
    st.Keeps st' := by
  refine ⟨?_, ?_, fun n j hf => Class.importTraitInstanceProp_find h hf⟩
  · unfold Class.importTraitInstanceProp at h
    cases hf : st.curPropMap.find traitProp.m_name with
    | none =>
      simp only [hf] at h
      injection h with h
      subst h
      simp only []
      split <;> split <;> exact ⟨_, rfl⟩
    | some slot =>
      simp only [hf] at h
      split at h
      · split at h
        · cases h
        · injection h with h
          subst h
          exact ⟨[], by simp⟩
      · cases h
  · unfold Class.importTraitInstanceProp at h
    cases hf : st.curPropMap.find traitProp.m_name with
    | none =>
      simp only [hf] at h
      injection h with h
      subst h
      simp only []
      split <;> split <;> exact ⟨_, rfl⟩
    | some slot =>
      simp only [hf] at h
      split at h
      · split at h
        · cases h
        · injection h with h
          subst h
          exact ⟨[], by simp⟩
      · cases h

theorem Class.importTraitInstanceProps_keeps {env : Env} {this : Class} {trait : Class}
    (l : List Class.Prop) :
    ∀ (p : Nat) (st st' : PropState),
      Class.importTraitInstanceProps env this trait l p st = .ok st' → st.Keeps st' := by
  induction l with
  | nil =>
    intro p st st' h
    rw [Class.importTraitInstanceProps] at h
    injection h with h
    subst h
    exact PropState.Keeps.keeps_refl _
  | cons traitProp rest ih =>
    intro p st st' h
    rw [Class.importTraitInstanceProps] at h
    cases hv : trait.m_declPropInit[p]? with
    | none => simp [hv] at h
    | some v =>
      simp only [hv] at h
      cases h1 : Class.importTraitInstanceProp env this traitProp v st with
      | error e => simp [h1] at h
      | ok st1 =>
        simp only [h1] at h
        exact (Class.importTraitInstanceProp_keeps h1).keeps_trans (ih (p + 1) st1 st' h)

theorem Class.importTraitStaticProp_init {env : Env} {this : Class}
    {traitProp : Class.SProp} {st st' : PropState}
    (h : Class.importTraitStaticProp env this traitProp st = .ok st') :
    st'.m_declPropInit = st.m_declPropInit := by
  unfold Class.importTraitStaticProp at h
  split at h
  · cases h
  · cases hf : st.curSPropMap.find traitProp.m_name with
    | none =>
      simp only [hf] at h
      injection h with h
      subst h
      rfl
    | some slot =>
      simp only [hf] at h
      cases hg : st.curSPropMap.get? slot with
      | none => simp [hg] at h
      | some prevProp =>
        simp only [hg] at h
        split at h
        · cases h
        · split at h
          · cases h
          · injection h with h
            subst h
            rfl

theorem Class.importTraitStaticProps_keeps {env : Env} {this : Class}
    (l : List Class.SProp) :
    ∀ (st st' : PropState), Class.importTraitStaticProps env this l st = .ok st' →
      st.Keeps st' := by
  induction l with
  | nil =>
    intro st st' h
    rw [Class.importTraitStaticProps] at h
    injection h with h
    subst h
    exact PropState.Keeps.keeps_refl _
  | cons traitProp rest ih =>
    intro st st' h
    rw [Class.importTraitStaticProps] at h
    cases h1 : Class.importTraitStaticProp env this traitProp st with
    | error e => simp [h1] at h
    | ok st1 =>
      simp only [h1] at h
      exact (PropState.Keeps.keeps_of_fields (Class.importTraitStaticProp_props h1)
        (Class.importTraitStaticProp_init h1)).keeps_trans (ih st1 st' h)

theorem Class.importTraitPropsLoop_keeps {env : Env} {this : Class} (ts : List Class) :
    ∀ (st st' : PropState), Class.importTraitPropsLoop env this ts st = .ok st' →
      st.Keeps st' := by
  induction ts with
  | nil =>
    intro st st' h
    rw [Class.importTraitPropsLoop] at h
    injection h with h
    subst h
    exact PropState.Keeps.keeps_refl _
  | cons trait rest ih =>
    intro st st' h
    rw [Class.importTraitPropsLoop] at h
    cases h1 : Class.importTraitInstanceProps env this trait trait.m_declProperties.m_list 0 st with
    | error e => simp [h1] at h
    | ok st1 =>
      simp only [h1] at h
      cases h2 : Class.importTraitStaticProps env this trait.m_staticProperties.m_list st1 with
      | error e => simp [h2] at h
      | ok st2 =>
        simp only [h2] at h
        exact ((Class.importTraitInstanceProps_keeps _ 0 st st1 h1).keeps_trans
          (Class.importTraitStaticProps_keeps _ st1 st2 h2)).keeps_trans (ih st2 st' h)

theorem Class.importTraitInstanceProps_append {env : Env} {this : Class} {trait : Class}
    (l1 l2 : List Class.Prop) :
    ∀ (p : Nat) (st : PropState),
      Class.importTraitInstanceProps env this trait (l1 ++ l2) p st =
        match Class.importTraitInstanceProps env this trait l1 p st with
        | .error e => .error e
        | .ok st1 => Class.importTraitInstanceProps env this trait l2 (p + l1.length) st1 := by
  induction l1 with
  | nil => intro p st; rfl
  | cons d rest ih =>
    intro p st
    rw [List.cons_append, Class.importTraitInstanceProps, Class.importTraitInstanceProps]
    cases hv : trait.m_declPropInit[p]? with
    | none => rfl
    | some v =>
      simp only []
      cases h1 : Class.importTraitInstanceProp env this d v st with
      | error e => rfl
      | ok st1 =>
        simp only []
        rw [ih (p + 1) st1, List.length_cons]
        have : p + 1 + rest.length = p + (rest.length + 1) := by omega
        rw [this]

theorem Class.importTraitPropsLoop_append {env : Env} {this : Class} (ts1 ts2 : List Class) :
    ∀ (st : PropState),
      Class.importTraitPropsLoop env this (ts1 ++ ts2) st =
        match Class.importTraitPropsLoop env this ts1 st with
        | .error e => .error e
        | .ok st1 => Class.importTraitPropsLoop env this ts2 st1 := by
  induction ts1 with
  | nil => intro st; rfl
  | cons t rest ih =>
    intro st
    rw [List.cons_append, Class.importTraitPropsLoop, Class.importTraitPropsLoop]
    cases h1 : Class.importTraitInstanceProps env this t t.m_declProperties.m_list 0 st with
    | error e => rfl
    | ok st1 =>
      simp only []
      cases h2 : Class.importTraitStaticProps env this t.m_staticProperties.m_list st1 with
      | error e => rfl
      | ok st2 =>
        simp only []
        exact ih st2

/-- Linking in terms of the class that `newClass` hands to `setProperties`. -/
theorem Class.newClass_of_stages {env : Env} {self : ClassId} {pre : PreClass}
    {parent : Option Class} {usedTraits : List Class} {c3 c4 c5 : Class}
    (hl : Class.loadUsedTraits env pre.m_name pre.m_usedTraits = .ok usedTraits)
    (h3 : Class.setMethods env parent usedTraits
      (Class.beforeMethods self pre parent usedTraits) = .ok c3)
    (h4 : Class.setInterfaces env parent usedTraits c3 = .ok c4)
    (h5 : Class.setConstants env parent c4 = .ok c5) :
    (c5.m_self = self ∧ c5.m_preClass = pre ∧ c5.m_attrCopy = pre.m_attrs) ∧
    (∀ cls, Class.newClass env self pre parent = .ok cls →
      ∃ st, Class.buildProps env parent usedTraits c5 = .ok st ∧
        cls.m_declProperties = st.curPropMap ∧ cls.m_declPropInit = st.m_declPropInit) ∧
    (∀ e, Class.buildProps env parent usedTraits c5 = .error e →
      Class.setProperties env parent usedTraits c5 = .error e ∧
      ∃ e', Class.newClass env self pre parent = .error e') := by
  have hlink : ∀ cls, Class.newClass env self pre parent = .ok cls →
      ∃ st, Class.buildProps env parent usedTraits c5 = .ok st ∧
        cls.m_declProperties = st.curPropMap ∧ cls.m_declPropInit = st.m_declPropInit := by
    intro cls h
    obtain ⟨ts, d3, d4, d5, d6, -, k1, k2, k3, k4, k5, hcls⟩ := Class.newClass_ok h
    rw [hl] at k1
    injection k1 with k1
    subst k1
    have e3 : d3 = c3 := by
      have : Class.setMethods env parent usedTraits
          (Class.beforeMethods self pre parent usedTraits) = .ok d3 := k2
      rw [h3] at this
      injection this with this
      exact this.symm
    subst e3
    rw [h4] at k3
    injection k3 with k3
    subst k3
    rw [h5] at k4
    injection k4 with k4
    subst k4
    obtain ⟨ps, hbp, hc6⟩ := Class.setProperties_ok k5
    refine ⟨ps, hbp, ?_, ?_⟩
    all_goals
      subst hcls hc6
      simp [Class.setClassVec, Class.setInitializers]
  refine ⟨?_, hlink, ?_⟩
  · obtain ⟨r, -, -, -, hcore⟩ := Class.setMethods_ok h3
    obtain ⟨sti, -, hc4, -⟩ := Class.setInterfaces_ok h4
    obtain ⟨b, hc5⟩ := Class.setConstants_ok h5
    obtain ⟨s1, s2, s3, -⟩ := Class.beforeMethods_fields self pre parent usedTraits
    obtain ⟨k1, k2, -, -, k5⟩ := hcore
    subst hc5 hc4
    exact ⟨k1.trans s1, k2.trans s2, k5.trans s3⟩
  · intro e he
    refine ⟨by unfold Class.setProperties; rw [he], ?_⟩
    cases hn : Class.newClass env self pre parent with
    | error e' => exact ⟨e', rfl⟩
    | ok cls =>
      obtain ⟨st, hst, -⟩ := hlink cls hn
      rw [he] at hst
      cases hst

/-- Counterexample to C17 as stated: the class `FlatP` has `AttrNoExpandTrait`,
declares `public $p = 5` and uses the trait `Props`, which declares
`public $p = 1`.  The name `p` of the trait property is present in the table of
the class and the two initial values differ, and `FlatP` links all the same:
`importTraitProps` returns at once for such a class. -/
theorem C17_counterexample :
    hasAttr preFlatP.m_attrs AttrNoExpandTrait = true ∧
    Class.loadUsedTraits envPropTraits preFlatP.m_name preFlatP.m_usedTraits = .ok [exProps] ∧
    exProps.m_declProperties.m_list.map (fun q => (q.m_name, q.m_attrs)) = [("p", AttrPublic)] ∧
    exProps.m_declPropInit.map (fun v => v.tv) = [.int 1] ∧
    (∃ cls, Class.newClass envPropTraits 78 preFlatP none = .ok cls ∧
      cls.m_declProperties.m_list.map (fun q => (q.m_name, q.m_class, q.m_attrs))
        = [("p", 78, AttrPublic)] ∧
      cls.m_declPropInit.map (fun v => v.tv) = [.int 5]) ∧
    ¬ sameScalarInit envPropTraits (.int 5) (.int 1) := by
  refine ⟨by decide, rfl, rfl, rfl,
    ⟨Class.linked envPropTraits 78 preFlatP none, rfl, rfl, rfl⟩, ?_⟩
  simp [sameScalarInit]

/-- C17, amended: linking has loaded the used traits and `this` is the class
that `newClass` hands to `setProperties`.  The import of the trait properties
has reached the instance property `traitProp` of the used trait `t`: the loop
over the declarations of the class has left the state `st0`, the traits before
`t` the state `st1`, the properties of `t` before `traitProp` the state `st`,
and `st` binds the name of `traitProp`, to the entry `prevProp` with the
initial value `prevPropVal`.  The import of `traitProp` succeeds exactly when
the attributes of the two properties are equal and the two initial values have
the same type tag and are both null or both the same boolean, integer, double
or string value, and it then leaves the state as it is.  For a class without
`AttrNoExpandTrait`: if the class links, the two declarations are compatible
in this sense, and the linked class has the name in the same slot, with the
entry `prevProp` and the initial value `prevPropVal`; in every other case, so
for two arrays or two objects, `setProperties` raises the error of the
incompatible trait declaration and the class does not link.  For a class with
`AttrNoExpandTrait` no trait property is imported: the state of
`setProperties` is `st0`. -/
theorem C17_trait_prop_redeclared (env : Env) (self : ClassId) (pre : PreClass)
    (parent : Option Class) (usedTraits ts1 ts2 : List Class) (t this : Class)
    (l1 l2 : List Class.Prop) (traitProp : Class.Prop) (traitPropVal : TypedValueAux)
    (st0 st1 st : PropState) (slot : Nat) (prevProp : Class.Prop) (prevPropVal : TypedValueAux)
    (hl : Class.loadUsedTraits env pre.m_name pre.m_usedTraits = .ok usedTraits)
    (hstages : ∃ c3 c4,
      Class.setMethods env parent usedTraits (Class.beforeMethods self pre parent usedTraits)
        = .ok c3 ∧
      Class.setInterfaces env parent usedTraits c3 = .ok c4 ∧
      Class.setConstants env parent c4 = .ok this)
    (hts : usedTraits = ts1 ++ t :: ts2)
    (hprops : t.m_declProperties.m_list = l1 ++ traitProp :: l2)
    (hval : t.m_declPropInit[l1.length]? = some traitPropVal)
    (h0 : Class.addOwnProps env parent this pre.m_properties (Class.inheritedProps parent)
      = .ok st0)
    (h1 : Class.importTraitPropsLoop env this ts1 st0 = .ok st1)
    (h2 : Class.importTraitInstanceProps env this t l1 0 st1 = .ok st)
    (hf : st.curPropMap.find traitProp.m_name = some slot)
    (hp : st.curPropMap.get? slot = some prevProp)
    (hv : st.m_declPropInit[slot]? = some prevPropVal) :
    (Class.importTraitInstanceProp env this traitProp traitPropVal st = .ok st ↔
      prevProp.m_attrs = traitProp.m_attrs ∧
        sameScalarInit env prevPropVal.tv traitPropVal.tv) ∧
    (∀ st', Class.importTraitInstanceProp env this traitProp traitPropVal st = .ok st' →
      st' = st) ∧
    (hasAttr pre.m_attrs AttrNoExpandTrait = false →
      (∀ cls, Class.newClass env self pre parent = .ok cls →
        (prevProp.m_attrs = traitProp.m_attrs ∧
          sameScalarInit env prevPropVal.tv traitPropVal.tv) ∧
        cls.m_declProperties.find traitProp.m_name = some slot ∧
        cls.m_declProperties.get? slot = some prevProp ∧
        cls.m_declPropInit[slot]? = some prevPropVal) ∧
      (¬ (prevProp.m_attrs = traitProp.m_attrs ∧
          sameScalarInit env prevPropVal.tv traitPropVal.tv) →
        Class.setProperties env parent usedTraits this
          = .error (.traitPropIncompatible traitProp.m_name) ∧
        ∃ e, Class.newClass env self pre parent = .error e)) ∧
    (hasAttr pre.m_attrs AttrNoExpandTrait = true →
      Class.buildProps env parent usedTraits this = .ok st0) ∧
    (∀ a b, ¬ sameScalarInit env (.arr a) (.arr b)) ∧
    (∀ a b, ¬ sameScalarInit env (.obj a) (.obj b)) := by
  obtain ⟨c3, c4, g3, g4, g5⟩ := hstages
  obtain ⟨⟨-, f2, f3⟩, hlink, hfail⟩ := Class.newClass_of_stages hl g3 g4 g5
  have heq : Class.importTraitInstanceProp env this traitProp traitPropVal st
      = if prevProp.m_attrs != traitProp.m_attrs ||
            !Class.compatibleTraitPropInit env prevPropVal.tv traitPropVal.tv then
          .error (.traitPropIncompatible traitProp.m_name)
        else .ok st := by
    unfold Class.importTraitInstanceProp
    simp only [hf, hp, hv]
  have hcond : (prevProp.m_attrs != traitProp.m_attrs ||
        !Class.compatibleTraitPropInit env prevPropVal.tv traitPropVal.tv) = false ↔
      prevProp.m_attrs = traitProp.m_attrs ∧
        sameScalarInit env prevPropVal.tv traitPropVal.tv := by
    rw [← Class.compatibleTraitPropInit_iff]
    simp
  have hloop : Class.importTraitPropsLoop env this usedTraits st0 =
      match Class.importTraitInstanceProp env this traitProp traitPropVal st with
      | .error e => .error e
      | .ok st' =>
        match Class.importTraitInstanceProps env this t l2 (l1.length + 1) st' with
        | .error e => .error e
        | .ok sa =>
          match Class.importTraitStaticProps env this t.m_staticProperties.m_list sa with
          | .error e => .error e
          | .ok sb => Class.importTraitPropsLoop env this ts2 sb := by
    rw [hts, Class.importTraitPropsLoop_append, h1]
    simp only []
    rw [Class.importTraitPropsLoop, hprops, Class.importTraitInstanceProps_append, h2]
    simp only []
    rw [Class.importTraitInstanceProps, Nat.zero_add, hval]
    simp only []
    cases Class.importTraitInstanceProp env this traitProp traitPropVal st with
    | error e => rfl
    | ok st' => rfl
  have hbuild : hasAttr pre.m_attrs AttrNoExpandTrait = false →
      Class.buildProps env parent usedTraits this =
        Class.importTraitPropsLoop env this usedTraits st0 := by
    intro hno
    unfold Class.buildProps
    rw [f2, h0]
    simp only []
    unfold Class.importTraitProps
    have : this.attrs = pre.m_attrs := f3
    rw [this, hno]
    simp
  refine ⟨?_, ?_, ?_, ?_, ?_, ?_⟩
  · rw [heq]
    constructor
    · intro h
      apply hcond.mp
      cases hc : (prevProp.m_attrs != traitProp.m_attrs ||
          !Class.compatibleTraitPropInit env prevPropVal.tv traitPropVal.tv) with
      | false => rfl
      | true => rw [hc] at h; simp at h
    · intro h
      rw [hcond.mpr h]
      simp
  · intro st' h
    rw [heq] at h
    split at h
    · cases h
    · injection h with h
      exact h.symm
  · intro hno
    have hfailure : ¬ (prevProp.m_attrs = traitProp.m_attrs ∧
          sameScalarInit env prevPropVal.tv traitPropVal.tv) →
        Class.buildProps env parent usedTraits this
          = .error (.traitPropIncompatible traitProp.m_name) := by
      intro hnc
      rw [hbuild hno, hloop, heq]
      cases hc : (prevProp.m_attrs != traitProp.m_attrs ||
          !Class.compatibleTraitPropInit env prevPropVal.tv traitPropVal.tv) with
      | false => exact absurd (hcond.mp hc) hnc
      | true => simp
    constructor
    · intro cls hcls
      obtain ⟨stF, hb, e1, e2⟩ := hlink cls hcls
      have hc : prevProp.m_attrs = traitProp.m_attrs ∧
          sameScalarInit env prevPropVal.tv traitPropVal.tv := by
        by_contra hnc
        rw [hfailure hnc] at hb
        cases hb
      refine ⟨hc, ?_⟩
      rw [hbuild hno, hloop, heq, hcond.mpr hc] at hb
      simp only [Bool.false_eq_true, if_false] at hb
      cases ha : Class.importTraitInstanceProps env this t l2 (l1.length + 1) st with
      | error e => simp [ha] at hb
      | ok sa =>
        simp only [ha] at hb
        cases hs : Class.importTraitStaticProps env this t.m_staticProperties.m_list sa with
        | error e => simp [hs] at hb
        | ok sb =>
          simp only [hs] at hb
          have hk : st.Keeps stF :=
            ((Class.importTraitInstanceProps_keeps _ _ _ _ ha).keeps_trans
              (Class.importTraitStaticProps_keeps _ _ _ hs)).keeps_trans
              (Class.importTraitPropsLoop_keeps _ _ _ hb)
          obtain ⟨⟨x, k1⟩, ⟨y, k2⟩, k3⟩ := hk
          refine ⟨by rw [e1]; exact k3 _ _ hf, ?_, ?_⟩
          · rw [e1]
            unfold IndexedStringMap.get? at hp ⊢
            rw [k1, List.getElem?_append_left (List.getElem?_lt_of_some hp)]
            exact hp
          · rw [e2, k2, List.getElem?_append_left (List.getElem?_lt_of_some hv)]
            exact hv
    · intro hnc
      exact hfail _ (hfailure hnc)
  · intro hyes
    unfold Class.buildProps
    rw [f2, h0]
    simp only []
    unfold Class.importTraitProps
    have : this.attrs = pre.m_attrs := f3
    rw [this, hyes]
    simp
  · intro a b
    simp [sameScalarInit]
  · intro a b
    simp [sameScalarInit]

/-- Witness of C17: the traits `Props` and `Props2` both declare `public $p =
1`, `Props3` declares `public $p = 2`, `Arr1` and `Arr2` declare `public $q`
with the same array.  A class that uses `Props` and `Props2` links, and `p` is
in slot 0 with the entry and the value that the import of `Props` left; a class
that uses `Props` and `Props3`, or `Arr1` and `Arr2`, does not link. -/
theorem C17_trait_prop_redeclared_witness :
    ((exPropP 77).m_attrs = (exPropP 73).m_attrs ∧
        sameScalarInit envPropTraits (.int 1) (.int 1)) ∧
    (∃ cls, Class.newClass envPropTraits 77 (preUses "Props" "Props2") none = .ok cls ∧
      cls.m_declProperties.find "p" = some 0 ∧
      cls.m_declProperties.get? 0 = some (exPropP 77) ∧
      cls.m_declPropInit[0]? = some ⟨.int 1, false⟩) ∧
    (∃ e, Class.newClass envPropTraits 77 (preUses "Props" "Props3") none = .error e) ∧
    Class.newClass envPropTraits 77 (preUses "Props" "Props3") none
      = .error (.traitPropIncompatible "p") ∧
    Class.newClass envPropTraits 77 (preUses "Arr1" "Arr2") none
      = .error (.traitPropIncompatible "q") := by
  have hgood := ((C17_trait_prop_redeclared envPropTraits 77 (preUses "Props" "Props2") none
    [exProps, Class.linked env0 73 preProps2 none] [exProps] []
    (Class.linked env0 73 preProps2 none)
    (Class.beforeProperties envPropTraits 77 (preUses "Props" "Props2") none
      [exProps, Class.linked env0 73 preProps2 none])
    [] [] (exPropP 73) ⟨.int 1, false⟩ (Class.inheritedProps none) exImportedP exImportedP
    0 (exPropP 77) ⟨.int 1, false⟩ rfl ⟨_, _, rfl, rfl, rfl⟩ rfl rfl rfl rfl rfl rfl rfl rfl
    rfl).2.2.1 (by decide)).1 (Class.linked envPropTraits 77 (preUses "Props" "Props2") none) rfl
  have hbad := ((C17_trait_prop_redeclared envPropTraits 77 (preUses "Props" "Props3") none
    [exProps, Class.linked env0 74 preProps3 none] [exProps] []
    (Class.linked env0 74 preProps3 none)
    (Class.beforeProperties envPropTraits 77 (preUses "Props" "Props3") none
      [exProps, Class.linked env0 74 preProps3 none])
    [] [] (exPropP 74) ⟨.int 2, false⟩ (Class.inheritedProps none) exImportedP exImportedP
    0 (exPropP 77) ⟨.int 1, false⟩ rfl ⟨_, _, rfl, rfl, rfl⟩ rfl rfl rfl rfl rfl rfl rfl rfl
    rfl).2.2.1 (by decide)).2 (by simp [sameScalarInit])
  exact ⟨hgood.1, ⟨_, rfl, hgood.2⟩, hbad.2, rfl, rfl⟩

/-! ## The full interface set -/

theorem InterfaceMap.Holds.holds_mono {env : Env} {b b' : InterfaceMap} {i : ClassId}
    (h : InterfaceMap.Holds env b i) (hp : ∃ ex, b'.m_list = b.m_list ++ ex) :
    InterfaceMap.Holds env b' i := by
  obtain ⟨j, c, jc, h1, h2, h3, h4⟩ := h
  obtain ⟨ex, he⟩ := hp
  exact ⟨j, c, jc, by rw [he]; exact List.mem_append_left _ h1, h2, h3, h4⟩

theorem InterfaceMap.Holds.mem_of_distinct {env : Env} {b : InterfaceMap} {i : ClassId}
    (h : InterfaceMap.Holds env b i) (hn : env.NamesDistinct) : i ∈ b.m_list := by
  obtain ⟨j, c, jc, h1, h2, h3, h4⟩ := h
  have : j = i := hn j i jc c h3 h2 h4
  rw [← this]
  exact h1

theorem InterfaceMap.Named.ifaces_empty (env : Env) :
    InterfaceMap.Named env (IndexedStringMap.empty : InterfaceMap) := by
  intro k j h
  simp [IndexedStringMap.find, IndexedStringMap.empty] at h

theorem InterfaceMap.Named.ifaces_add {env : Env} {b : InterfaceMap} {i : ClassId} {c : Class}
    (h : InterfaceMap.Named env b) (hc : env.classes i = some c) :
    InterfaceMap.Named env (b.add c.name i) := by
  intro k j hf
  rw [IndexedStringMap.find_add] at hf
  split at hf
  · rename_i hk
    injection hf with hf
    subst hf
    refine ⟨i, c, by simp [IndexedStringMap.add], hc, ?_⟩
    simpa [keyEq] using hk
  · obtain ⟨id, c', h1, h2, h3⟩ := h k j hf
    refine ⟨id, c', ?_, h2, h3⟩
    simp only [IndexedStringMap.add]
    rw [List.getElem?_append_left (List.getElem?_lt_of_some h1)]
    exact h1

theorem Class.addInterfaces_holds {env : Env} {always : Bool} (l : List ClassId) :
    ∀ (b b' : InterfaceMap), Class.addInterfaces env always l b = .ok b' →
      InterfaceMap.Named env b →
      InterfaceMap.Named env b' ∧ (∃ ex, b'.m_list = b.m_list ++ ex) ∧
      (∀ i, i ∈ l → InterfaceMap.Holds env b' i) ∧
      (always = true → ∀ i, i ∈ l → i ∈ b'.m_list) := by
  induction l with
  | nil =>
    intro b b' h hn
    rw [Class.addInterfaces] at h
    injection h with h
    subst h
    exact ⟨hn, ⟨[], by simp⟩, (by intro i hi; cases hi), (by intro _ i hi; cases hi)⟩
  | cons interface rest ih =>
    intro b b' h hn
    rw [Class.addInterfaces] at h
    cases hd : env.deref interface with
    | error e => simp [hd] at h
    | ok iface =>
      simp only [hd] at h
      have hcls : env.classes interface = some iface := by
        unfold Env.deref at hd
        cases hc : env.classes interface with
        | none => simp [hc] at hd
        | some c =>
          simp only [hc] at hd
          injection hd with hd
          rw [hd]
      by_cases hcond : (always || (b.find iface.name).isNone) = true
      · rw [if_pos hcond] at h
        obtain ⟨n1, ⟨ex, p1⟩, h1, a1⟩ := ih _ b' h (hn.ifaces_add hcls)
        have hmem : interface ∈ b'.m_list := by
          rw [p1]
          apply List.mem_append_left
          simp [IndexedStringMap.add]
        refine ⟨n1, ⟨[interface] ++ ex, ?_⟩, ?_, ?_⟩
        · rw [p1]
          simp [IndexedStringMap.add]
        · intro i hi
          rw [List.mem_cons] at hi
          rcases hi with hi | hi
          · subst hi
            exact ⟨i, iface, iface, hmem, hcls, hcls, isame_refl _⟩
          · exact h1 i hi
        · intro ha i hi
          rw [List.mem_cons] at hi
          rcases hi with hi | hi
          · subst hi; exact hmem
          · exact a1 ha i hi
      · rw [if_neg hcond] at h
        obtain ⟨n1, ⟨ex, p1⟩, h1, a1⟩ := ih _ b' h hn
        have hal : always = false := by
          cases always with
          | false => rfl
          | true => simp at hcond
        have hfound : ∃ j, b.find iface.name = some j := by
          cases hf : b.find iface.name with
          | none => simp [hf] at hcond
          | some j => exact ⟨j, rfl⟩
        obtain ⟨j, hj⟩ := hfound
        obtain ⟨id, c, g1, g2, g3⟩ := hn _ _ hj
        refine ⟨n1, ⟨ex, p1⟩, ?_, ?_⟩
        · intro i hi
          rw [List.mem_cons] at hi
          rcases hi with hi | hi
          · subst hi
            refine ⟨id, iface, c, ?_, hcls, g2, g3⟩
            rw [p1]
            exact List.mem_append_left _ (List.mem_iff_getElem?.2 ⟨j, g1⟩)
          · exact h1 i hi
        · intro ha
          rw [hal] at ha
          cases ha

theorem Class.addDeclInterfaces_holds {env : Env} {clsName : String} (names : List String) :
    ∀ (st st' : InterfaceMap × List ClassId),
      Class.addDeclInterfaces env clsName names st = .ok st' →
      InterfaceMap.Named env st.1 →
      InterfaceMap.Named env st'.1 ∧ (∃ ex, st'.1.m_list = st.1.m_list ++ ex) ∧
      (∀ n d, n ∈ names → env.loadClass n = some d →
        InterfaceMap.Holds env st'.1 d ∧
        ∀ cp i, env.classes d = some cp → i ∈ cp.m_interfaces.m_list →
          InterfaceMap.Holds env st'.1 i) := by
  induction names with
  | nil =>
    intro st st' h hn
    rw [Class.addDeclInterfaces] at h
    injection h with h
    subst h
    exact ⟨hn, ⟨[], by simp⟩, by intro n d hm; cases hm⟩
  | cons n rest ih =>
    intro st st' h hn
    rw [Class.addDeclInterfaces] at h
    cases hload : env.loadClass n with
    | none => simp [hload] at h
    | some id =>
      simp only [hload] at h
      cases hd : env.deref id with
      | error e => simp [hd] at h
      | ok cp =>
        simp only [hd] at h
        have hcls : env.classes id = some cp := by
          unfold Env.deref at hd
          cases hc : env.classes id with
          | none => simp [hc] at hd
          | some c =>
            simp only [hc] at hd
            injection hd with hd
            rw [hd]
        by_cases hattr : (!hasAttr cp.attrs AttrInterface) = true
        · rw [if_pos hattr] at h
          cases h
        · rw [if_neg hattr] at h
          cases h1 : Class.addInterfaces env false cp.m_interfaces.m_list
              (if (st.1.find cp.name).isNone then st.1.add cp.name id else st.1) with
          | error e =>
            rw [h1] at h
            cases h
          | ok b1 =>
            rw [h1] at h
            simp only [] at h
            have hb0 : InterfaceMap.Named env
                (if (st.1.find cp.name).isNone then st.1.add cp.name id else st.1) ∧
              (∃ ex, (if (st.1.find cp.name).isNone then st.1.add cp.name id else st.1).m_list
                = st.1.m_list ++ ex) ∧
              InterfaceMap.Holds env
                (if (st.1.find cp.name).isNone then st.1.add cp.name id else st.1) id := by
              by_cases hf : (st.1.find cp.name).isNone = true
              · rw [if_pos hf]
                refine ⟨hn.ifaces_add hcls, ⟨[id], by simp [IndexedStringMap.add]⟩, ?_⟩
                exact ⟨id, cp, cp, by simp [IndexedStringMap.add], hcls, hcls, isame_refl _⟩
              · rw [if_neg hf]
                refine ⟨hn, ⟨[], by simp⟩, ?_⟩
                cases hfind : st.1.find cp.name with
                | none => simp [hfind] at hf
                | some j =>
                  obtain ⟨id', c, g1, g2, g3⟩ := hn _ _ hfind
                  exact ⟨id', cp, c, List.mem_iff_getElem?.2 ⟨j, g1⟩, hcls, g2, g3⟩
            obtain ⟨m0, ⟨ex0, p0⟩, hold0⟩ := hb0
            obtain ⟨m1, ⟨ex1, p1⟩, hold1, -⟩ := Class.addInterfaces_holds _ _ _ h1 m0
            obtain ⟨m2, ⟨ex2, p2⟩, hold2⟩ := ih (b1, st.2 ++ [id]) st' h m1
            simp only [] at p2
            refine ⟨m2, ⟨ex0 ++ ex1 ++ ex2, ?_⟩, ?_⟩
            · rw [p2, p1, p0]
              simp [List.append_assoc]
            · intro n' d hm hl
              rw [List.mem_cons] at hm
              by_cases hdn : n' = n
              · subst hdn
                rw [hload] at hl
                injection hl with hl
                subst hl
                refine ⟨(hold0.holds_mono ⟨ex1, p1⟩).holds_mono ⟨ex2, p2⟩, ?_⟩
                intro cp' i hcp' hi
                rw [hcls] at hcp'
                injection hcp' with hcp'
                subst hcp'
                exact (hold1 i hi).holds_mono ⟨ex2, p2⟩
              · rcases hm with hm | hm
                · exact absurd hm hdn
                · exact hold2 n' d hm hl

theorem Class.addInterfacesFromUsedTraits_holds {env : Env} (ts : List Class) :
    ∀ (b b' : InterfaceMap), Class.addInterfacesFromUsedTraits env ts b = .ok b' →
      InterfaceMap.Named env b →
      InterfaceMap.Named env b' ∧ (∃ ex, b'.m_list = b.m_list ++ ex) ∧
      (∀ t i, t ∈ ts → i ∈ t.m_interfaces.m_list → InterfaceMap.Holds env b' i) := by
  induction ts with
  | nil =>
    intro b b' h hn
    rw [Class.addInterfacesFromUsedTraits] at h
    injection h with h
    subst h
    exact ⟨hn, ⟨[], by simp⟩, by intro t i hm; cases hm⟩
  | cons trait rest ih =>
    intro b b' h hn
    rw [Class.addInterfacesFromUsedTraits] at h
    cases h1 : Class.addInterfaces env false trait.m_interfaces.m_list b with
    | error e => simp [h1] at h
    | ok b1 =>
      simp only [h1] at h
      obtain ⟨m1, ⟨ex1, p1⟩, hold1, -⟩ := Class.addInterfaces_holds _ _ _ h1 hn
      obtain ⟨m2, ⟨ex2, p2⟩, hold2⟩ := ih b1 b' h m1
      refine ⟨m2, ⟨ex1 ++ ex2, by rw [p2, p1, List.append_assoc]⟩, ?_⟩
      intro t i hm hi
      rw [List.mem_cons] at hm
      rcases hm with hm | hm
      · subst hm
        exact (hold1 i hi).holds_mono ⟨ex2, p2⟩
      · exact hold2 t i hm hi

/-- The interface table that `setInterfaces` builds holds the full interface
set: the interfaces of the parent themselves, and of the declared interfaces,
their interfaces and the interfaces of the used traits each one itself or a
class of the same name. -/
theorem Class.buildInterfaces_holds {env : Env} {parent : Option Class}
    {usedTraits : List Class} {pre : PreClass} {st : InterfaceMap × List ClassId}
    (h : Class.buildInterfaces env parent usedTraits pre = .ok st) :
    (∀ p i, parent = some p → i ∈ p.m_interfaces.m_list → i ∈ st.1.m_list) ∧
    (∀ i, Class.specInterfaceSet env parent usedTraits pre i →
      InterfaceMap.Holds env st.1 i) := by
  unfold Class.buildInterfaces at h
  cases h0 : Class.inheritedInterfaces env parent with
  | error e => simp [h0] at h
  | ok b0 =>
    simp only [h0] at h
    cases h1 : Class.addDeclInterfaces env pre.m_name pre.m_interfaces (b0, []) with
    | error e => simp [h1] at h
    | ok st1 =>
      simp only [h1] at h
      cases h2 : Class.addInterfacesFromUsedTraits env usedTraits st1.1 with
      | error e => simp [h2] at h
      | ok b2 =>
        simp only [h2] at h
        injection h with h
        subst h
        simp only []
        have hpar : InterfaceMap.Named env b0 ∧
            (∀ p i, parent = some p → i ∈ p.m_interfaces.m_list →
              i ∈ b0.m_list ∧ InterfaceMap.Holds env b0 i) := by
          unfold Class.inheritedInterfaces at h0
          cases parent with
          | none =>
            injection h0 with h0
            subst h0
            exact ⟨InterfaceMap.Named.ifaces_empty env, by intro p i hp; cases hp⟩
          | some p =>
            simp only [] at h0
            obtain ⟨m, -, hold, ha⟩ :=
              Class.addInterfaces_holds _ _ _ h0 (InterfaceMap.Named.ifaces_empty env)
            refine ⟨m, ?_⟩
            intro p' i hp hi
            injection hp with hp
            subst hp
            exact ⟨ha rfl i hi, hold i hi⟩
        obtain ⟨m0, hpar⟩ := hpar
        obtain ⟨m1, ⟨ex1, p1⟩, hold1⟩ := Class.addDeclInterfaces_holds _ _ _ h1 m0
        obtain ⟨m2, ⟨ex2, p2⟩, hold2⟩ := Class.addInterfacesFromUsedTraits_holds _ _ _ h2 m1
        simp only [] at p1
        constructor
        · intro p i hp hi
          rw [p2, p1]
          exact List.mem_append_left _ (List.mem_append_left _ (hpar p i hp hi).1)
        · intro i hi
          rcases hi with ⟨p, hp, hi⟩ | ⟨n, hn, hl⟩ | ⟨n, d, cp, hn, hl, hc, hi⟩ | ⟨t, ht, hi⟩
          · exact ((hpar p i hp hi).2.holds_mono ⟨ex1, p1⟩).holds_mono ⟨ex2, p2⟩
          · exact (hold1 n i hn hl).1.holds_mono ⟨ex2, p2⟩
          · exact ((hold1 n d hn hl).2 cp i hc hi).holds_mono ⟨ex2, p2⟩
          · exact hold2 t i ht hi

/-- The interface table of a class that links holds its full interface set. -/
theorem Class.newClass_interfaceSet {env : Env} {self : ClassId} {pre : PreClass}
    {parent : Option Class} {cls : Class} {usedTraits : List Class}
    (h : Class.newClass env self pre parent = .ok cls)
    (hl : Class.loadUsedTraits env pre.m_name pre.m_usedTraits = .ok usedTraits) :
    (∀ p i, parent = some p → i ∈ p.m_interfaces.m_list → i ∈ cls.m_interfaces.m_list) ∧
    (∀ i, Class.specInterfaceSet env parent usedTraits pre i →
      InterfaceMap.Holds env cls.m_interfaces i) := by
  obtain ⟨ts, c3, c4, c5, c6, -, h1, h2, h3, h4, h5, hcls⟩ := Class.newClass_ok h
  rw [hl] at h1
  injection h1 with h1
  subst h1
  obtain ⟨r, -, -, -, hcore⟩ := Class.setMethods_ok h2
  obtain ⟨st, hb, hc4, -⟩ := Class.setInterfaces_ok h3
  obtain ⟨b, hc5⟩ := Class.setConstants_ok h4
  obtain ⟨ps, -, hc6⟩ := Class.setProperties_ok h5
  obtain ⟨-, s2, -⟩ := Class.newClass_start_fields self pre parent
    (usedTraits.map (fun t => t.m_self))
  have hpre : c3.m_preClass = pre := hcore.2.1.trans s2
  rw [hpre] at hb
  have hif : cls.m_interfaces = st.1 := by
    subst hcls hc6 hc5 hc4
    simp [Class.setClassVec, Class.setInitializers]
  rw [hif]
  exact Class.buildInterfaces_holds hb

/-- The heap of `I` and `J` holds one class of a name. -/
theorem envJ_namesDistinct : envJ.NamesDistinct := by
  intro i j a b hi hj hs
  simp only [envJ, exEnv] at hi hj
  by_cases h1 : i = 20
  · by_cases h2 : j = 20
    · rw [h1, h2]
    · by_cases h3 : j = 22
      · subst h1 h3
        simp only [if_true] at hi
        injection hi with hi
        injection hj with hj
        subst hi hj
        exact absurd hs (by decide)
      · simp [h2, h3] at hj
  · by_cases h1' : i = 22
    · by_cases h2 : j = 20
      · subst h1' h2
        simp only [if_true] at hj
        injection hi with hi
        injection hj with hj
        subst hi hj
        exact absurd hs (by decide)
      · by_cases h3 : j = 22
        · rw [h1', h3]
        · simp [h2, h3] at hj
    · simp [h1, h1'] at hi

/-- C10: a class that is neither abstract nor a trait nor an interface.  When
it links, every method with a name that is not special of every interface of
its interface table `m_interfaces` is resolved by the method table to a method
that is not abstract, is static exactly when the method of the interface is,
and is public when the method of the interface is.  The table holds the full
interface set: every interface of the parent, and for every declared
interface, every interface of a declared interface and every interface of a
used trait that class or, when `setInterfaces` found its name bound already,
the class of the same name that the table had; so it holds every interface of
the set when the heap has one class of a name, and the methods of all of them
are resolved as said.  Otherwise linking fails: when `setMethods` succeeds with
a method table that resolves a method of an interface of the set to no method,
to an abstract one, to one that differs in being static, or to one that is not
public while the method of the interface is, the class does not link; the
check `checkInterfaceMethod` raises the error. -/
theorem C10_interface_methods (env : Env) (self : ClassId) (pre : PreClass)
    (parent : Option Class)
    (hconcrete : hasAttr pre.m_attrs (AttrTrait ||| AttrInterface ||| AttrAbstract) = false) :
    (∀ (cls : Class), Class.newClass env self pre parent = .ok cls →
      ∀ (i : ClassId) (iface : Class) (imeth : Func), i ∈ cls.m_interfaces.m_list →
        env.classes i = some iface → imeth ∈ iface.m_methods.m_list →
        isSpecial imeth.m_name = false →
        ∃ meth, cls.lookupMethod imeth.m_name = some meth ∧
          hasAttr meth.m_attrs AttrAbstract = false ∧
          hasAttr meth.m_attrs AttrStatic = hasAttr imeth.m_attrs AttrStatic ∧
          (hasAttr imeth.m_attrs AttrPublic = true → hasAttr meth.m_attrs AttrPublic = true)) ∧
    (∀ (cls : Class) (usedTraits : List Class), Class.newClass env self pre parent = .ok cls →
      Class.loadUsedTraits env pre.m_name pre.m_usedTraits = .ok usedTraits →
      (∀ p i, parent = some p → i ∈ p.m_interfaces.m_list → i ∈ cls.m_interfaces.m_list) ∧
      (∀ i, Class.specInterfaceSet env parent usedTraits pre i →
        InterfaceMap.Holds env cls.m_interfaces i) ∧
      (env.NamesDistinct → ∀ i, Class.specInterfaceSet env parent usedTraits pre i →
        i ∈ cls.m_interfaces.m_list)) ∧
    (∀ (cls : Class) (usedTraits : List Class), Class.newClass env self pre parent = .ok cls →
      Class.loadUsedTraits env pre.m_name pre.m_usedTraits = .ok usedTraits →
      env.NamesDistinct →
      ∀ (i : ClassId) (iface : Class) (imeth : Func),
        Class.specInterfaceSet env parent usedTraits pre i →
        env.classes i = some iface → imeth ∈ iface.m_methods.m_list →
        isSpecial imeth.m_name = false →
        ∃ meth, cls.lookupMethod imeth.m_name = some meth ∧
          hasAttr meth.m_attrs AttrAbstract = false ∧
          hasAttr meth.m_attrs AttrStatic = hasAttr imeth.m_attrs AttrStatic ∧
          (hasAttr imeth.m_attrs AttrPublic = true → hasAttr meth.m_attrs AttrPublic = true)) ∧
    (∀ (usedTraits : List Class) (c3 : Class),
      Class.loadUsedTraits env pre.m_name pre.m_usedTraits = .ok usedTraits →
      Class.setMethods env parent usedTraits (Class.beforeMethods self pre parent usedTraits)
        = .ok c3 →
      env.NamesDistinct →
      ∀ (i : ClassId) (iface : Class) (imeth : Func),
        Class.specInterfaceSet env parent usedTraits pre i →
        env.classes i = some iface → imeth ∈ iface.m_methods.m_list →
        isSpecial imeth.m_name = false →
        (∀ meth, c3.lookupMethod imeth.m_name = some meth →
          hasAttr meth.m_attrs AttrAbstract = true ∨
          hasAttr meth.m_attrs AttrStatic ≠ hasAttr imeth.m_attrs AttrStatic ∨
          (hasAttr imeth.m_attrs AttrPublic = true ∧ hasAttr meth.m_attrs AttrPublic = false)) →
        ∃ e, Class.newClass env self pre parent = .error e) ∧
    (∀ (this : Class) (imeth : Func), this.m_attrCopy = pre.m_attrs →
      isSpecial imeth.m_name = false →
      (∀ meth, this.lookupMethod imeth.m_name = some meth →
        hasAttr meth.m_attrs AttrAbstract = true ∨
        hasAttr meth.m_attrs AttrStatic ≠ hasAttr imeth.m_attrs AttrStatic ∨
        (hasAttr imeth.m_attrs AttrPublic = true ∧ hasAttr meth.m_attrs AttrPublic = false)) →
      ∃ e, Class.checkInterfaceMethod env this imeth = .error e) := by
  have part1 : ∀ (cls : Class), Class.newClass env self pre parent = .ok cls →
      ∀ (i : ClassId) (iface : Class) (imeth : Func), i ∈ cls.m_interfaces.m_list →
        env.classes i = some iface → imeth ∈ iface.m_methods.m_list →
        isSpecial imeth.m_name = false →
        ∃ meth, cls.lookupMethod imeth.m_name = some meth ∧
          hasAttr meth.m_attrs AttrAbstract = false ∧
          hasAttr meth.m_attrs AttrStatic = hasAttr imeth.m_attrs AttrStatic ∧
          (hasAttr imeth.m_attrs AttrPublic = true → hasAttr meth.m_attrs AttrPublic = true) := by
    intro cls hcls i iface imeth hi hiface himeth hs
    obtain ⟨c4, hchk, hm, hif, hattr, -⟩ := Class.newClass_interfaces hcls
    obtain ⟨-, -, -, -, k5, -⟩ := Class.newClass_core hcls
    unfold Class.checkInterfaceMethods at hchk
    rw [hif] at hchk
    have h1 := Class.checkInterfaceMethodsLoop_ok _ hchk i iface hi hiface
    have h2 := Class.checkInterfaceMethodList_ok _ h1 imeth himeth
    have hc : hasAttr c4.attrs (AttrTrait ||| AttrInterface ||| AttrAbstract) = false := by
      unfold Class.attrs; rw [hattr, k5]; exact hconcrete
    obtain ⟨meth, hl, a1, a2, a3, -⟩ := Class.checkInterfaceMethod_ok h2 hs hc
    refine ⟨meth, ?_, a1, a2, a3⟩
    unfold Class.lookupMethod at hl ⊢
    rw [← hm]
    exact hl
  have part3 : ∀ (cls : Class) (usedTraits : List Class),
      Class.newClass env self pre parent = .ok cls →
      Class.loadUsedTraits env pre.m_name pre.m_usedTraits = .ok usedTraits →
      env.NamesDistinct →
      ∀ (i : ClassId) (iface : Class) (imeth : Func),
        Class.specInterfaceSet env parent usedTraits pre i →
        env.classes i = some iface → imeth ∈ iface.m_methods.m_list →
        isSpecial imeth.m_name = false →
        ∃ meth, cls.lookupMethod imeth.m_name = some meth ∧
          hasAttr meth.m_attrs AttrAbstract = false ∧
          hasAttr meth.m_attrs AttrStatic = hasAttr imeth.m_attrs AttrStatic ∧
          (hasAttr imeth.m_attrs AttrPublic = true → hasAttr meth.m_attrs AttrPublic = true) := by
    intro cls usedTraits hcls hl hn i iface imeth hi hiface himeth hs
    exact part1 cls hcls i iface imeth
      (((Class.newClass_interfaceSet hcls hl).2 i hi).mem_of_distinct hn) hiface himeth hs
  refine ⟨part1, ?_, part3, ?_, ?_⟩
  · intro cls usedTraits hcls hl
    obtain ⟨h1, h2⟩ := Class.newClass_interfaceSet hcls hl
    exact ⟨h1, h2, fun hn i hi => (h2 i hi).mem_of_distinct hn⟩
  · intro usedTraits c3 hl hm hn i iface imeth hi hiface himeth hs hbad
    cases hnew : Class.newClass env self pre parent with
    | error e => exact ⟨e, rfl⟩
    | ok cls =>
      exfalso
      obtain ⟨meth, k1, a1, a2, a3⟩ := part3 cls usedTraits hnew hl hn i iface imeth hi hiface
        himeth hs
      obtain ⟨ts, d3, g1, g2, g3⟩ := Class.newClass_setMethods hnew
      rw [hl] at g1
      injection g1 with g1
      subst g1
      rw [hm] at g2
      injection g2 with g2
      subst g2
      have k2 : c3.lookupMethod imeth.m_name = some meth := by
        unfold Class.lookupMethod at k1 ⊢
        rw [← g3]
        exact k1
      rcases hbad meth k2 with hb | hb | hb
      · rw [a1] at hb; cases hb
      · exact hb a2
      · rw [a3 hb.1] at hb; cases hb.2
  · intro this imeth hattr hs hbad
    cases h : Class.checkInterfaceMethod env this imeth with
    | error e => exact ⟨e, rfl⟩
    | ok u =>
      have hc : hasAttr this.attrs (AttrTrait ||| AttrInterface ||| AttrAbstract) = false := by
        unfold Class.attrs; rw [hattr]; exact hconcrete
      obtain ⟨meth, hl, a1, a2, a3, -⟩ := Class.checkInterfaceMethod_ok h hs hc
      rcases hbad meth hl with hb | hb | hb
      · rw [a1] at hb; cases hb
      · exact absurd a2 hb
      · rw [a3 hb.1] at hb; cases hb.2

/-- Witness of C10: `J extends I`, and `ImplJ implements J`; the interface
table of `ImplJ` holds `J` and its super-interface `I`, and the method table
of `ImplJ` resolves `get` of `I` to a public method that is neither abstract
nor static.  `BadJ implements J` without a method `get` does not link. -/
theorem C10_interface_methods_witness :
    hasAttr preImplJ.m_attrs (AttrTrait ||| AttrInterface ||| AttrAbstract) = false ∧
    Class.newClass envJ 23 preImplJ none = .ok exImplJ ∧
    preImplJ.m_interfaces = ["J"] ∧ exJ.m_interfaces.m_list = [20] ∧
    exImplJ.m_interfaces.m_list = [22, 20] ∧
    exIface.m_methods.m_list = [exIfaceGet] ∧
    (∃ meth, exImplJ.lookupMethod exIfaceGet.m_name = some meth ∧
      hasAttr meth.m_attrs AttrAbstract = false ∧
      hasAttr meth.m_attrs AttrStatic = hasAttr exIfaceGet.m_attrs AttrStatic ∧
      (hasAttr exIfaceGet.m_attrs AttrPublic = true → hasAttr meth.m_attrs AttrPublic = true)) ∧
    (∃ e, Class.newClass envJ 24 preBadJ none = .error e) ∧
    Class.newClass envJ 24 preBadJ none = .error (.containsAbstract "BadJ" "get") :=
  ⟨by decide, rfl, rfl, rfl, rfl, rfl,
    (C10_interface_methods envJ 23 preImplJ none (by decide)).2.2.1 exImplJ [] rfl rfl
      envJ_namesDistinct 20 exIface exIfaceGet
      (Or.inr (Or.inr (Or.inl ⟨"J", 22, exJ, by simp [preImplJ, exPre], rfl, rfl, by decide⟩)))
      rfl (by decide) rfl,
    (C10_interface_methods envJ 24 preBadJ none (by decide)).2.2.2.1 []
      (Class.afterMethods envJ 24 preBadJ none []) rfl rfl
      envJ_namesDistinct 20 exIface exIfaceGet
      (Or.inr (Or.inr (Or.inl ⟨"J", 22, exJ, by simp [preBadJ, exPre], rfl, rfl, by decide⟩)))
      rfl (by decide) rfl (by
        intro meth hm
        have : (Class.afterMethods envJ 24 preBadJ none []).lookupMethod
          exIfaceGet.m_name = none := rfl
        rw [this] at hm
        cases hm),
    rfl⟩

/-! ## The preferred trait method, with and without an inherited method -/

theorem Class.find_findAllTraitMethods (name : String) (ts : List Class) :
    ∀ m, MethodToTraitListMap.find (Class.findAllTraitMethods ts m) name =
      if Class.candidatesOfAll ts name = [] then MethodToTraitListMap.find m name
      else some ((MethodToTraitListMap.find m name).getD [] ++ Class.candidatesOfAll ts name) := by
  induction ts with
  | nil => intro m; simp [Class.findAllTraitMethods, Class.candidatesOfAll]
  | cons t rest ih =>
    intro m
    rw [Class.findAllTraitMethods, ih, Class.find_findTraitMethods]
    have hc : Class.candidatesOfAll (t :: rest) name =
        Class.candidatesOf t name ++ Class.candidatesOfAll rest name := by
      simp [Class.candidatesOfAll]
    rw [hc]
    have hcand : Class.candidatesOf t name =
        (t.m_methods.m_list.filter (fun f => !isSpecial f.m_name && isame f.m_name name)).map
          (fun f => ⟨t, f, f.m_attrs⟩) := rfl
    by_cases h1 : t.m_methods.m_list.filter (fun f => !isSpecial f.m_name && isame f.m_name name)
        = []
    · have h1' : Class.candidatesOf t name = [] := by rw [hcand, h1]; rfl
      rw [if_pos h1, h1', List.nil_append]
    · have h1' : Class.candidatesOf t name ≠ [] := by
        rw [hcand]
        intro h
        exact h1 (List.map_eq_nil_iff.mp h)
      rw [if_neg h1, ← hcand]
      by_cases h2 : Class.candidatesOfAll rest name = []
      · rw [if_pos h2, h2, List.append_nil, if_neg h1']
      · rw [if_neg h2, if_neg (by simp [h1'])]
        simp [List.append_assoc]

theorem Class.applyTraitPrecRule_find_other {rule : PreClass.TraitPrecRule}
    {m m' : MethodToTraitListMap} (h : Class.applyTraitPrecRule rule m = .ok m')
    {n : String} (hn : isame rule.m_methodName n = false) :
    MethodToTraitListMap.find m' n = MethodToTraitListMap.find m n := by
  unfold Class.applyTraitPrecRule at h
  simp only [] at h
  cases hf : MethodToTraitListMap.find m rule.m_methodName with
  | none => simp [hf] at h
  | some L =>
    simp only [hf] at h
    split at h
    · cases h
    · split at h
      · cases h
      · injection h with h
        subst h
        unfold MethodToTraitListMap.replace
        exact MethodToTraitListMap.find_update_ne _ _ _ _ hn

theorem Class.applyTraitPrecRules_find_other {n : String} (rules : List PreClass.TraitPrecRule) :
    ∀ (m m' : MethodToTraitListMap), Class.applyTraitPrecRules rules m = .ok m' →
      (∀ r, r ∈ rules → isame r.m_methodName n = false) →
      MethodToTraitListMap.find m' n = MethodToTraitListMap.find m n := by
  induction rules with
  | nil =>
    intro m m' h _
    rw [Class.applyTraitPrecRules] at h
    injection h with h
    rw [h]
  | cons r rest ih =>
    intro m m' h hno
    rw [Class.applyTraitPrecRules] at h
    cases h1 : Class.applyTraitPrecRule r m with
    | error e => simp [h1] at h
    | ok m1 =>
      simp only [h1] at h
      rw [ih m1 m' h (fun r' hr' => hno r' (List.mem_cons_of_mem _ hr')),
        Class.applyTraitPrecRule_find_other h1 (hno r (List.mem_cons_self _ _))]

theorem Class.applyTraitPrecRules_append (rs1 rs2 : List PreClass.TraitPrecRule) :
    ∀ (m : MethodToTraitListMap), Class.applyTraitPrecRules (rs1 ++ rs2) m =
      match Class.applyTraitPrecRules rs1 m with
      | .error e => .error e
      | .ok m1 => Class.applyTraitPrecRules rs2 m1 := by
  induction rs1 with
  | nil => intro m; rfl
  | cons r rest ih =>
    intro m
    rw [List.cons_append, Class.applyTraitPrecRules, Class.applyTraitPrecRules]
    cases h1 : Class.applyTraitPrecRule r m with
    | error e => rfl
    | ok m1 => exact ih m1

theorem Class.applyTraitAliasRule_find_other {env : Env} {usedTraits : List Class}
    {rule : PreClass.TraitAliasRule} {st st' : List (String × String) × MethodToTraitListMap}
    (h : Class.applyTraitAliasRule env usedTraits rule st = .ok st')
    {n : String} (hn : isame rule.m_newMethodName n = false) :
    MethodToTraitListMap.find st'.2 n = MethodToTraitListMap.find st.2 n := by
  unfold Class.applyTraitAliasRule at h
  simp only [] at h
  split at h
  · cases h
  · split at h
    · cases h
    · split at h
      · cases h
      · split at h
        · cases h
        · injection h with h
          subst h
          simp only []
          split
          · rename_i heq
            rw [heq]
            exact MethodToTraitListMap.find_update_ne _ _ _ _ hn
          · split
            · unfold MethodToTraitListMap.pushBack
              exact MethodToTraitListMap.find_update_ne _ _ _ _ hn
            · rfl

theorem Class.applyTraitAliasRules_find_other {env : Env} {usedTraits : List Class}
    {n : String} (rules : List PreClass.TraitAliasRule) :
    ∀ (st st' : List (String × String) × MethodToTraitListMap),
      Class.applyTraitAliasRules env usedTraits rules st = .ok st' →
      (∀ r, r ∈ rules → isame r.m_newMethodName n = false) →
      MethodToTraitListMap.find st'.2 n = MethodToTraitListMap.find st.2 n := by
  induction rules with
  | nil =>
    intro st st' h _
    rw [Class.applyTraitAliasRules] at h
    injection h with h
    rw [h]
  | cons r rest ih =>
    intro st st' h hno
    rw [Class.applyTraitAliasRules] at h
    cases h1 : Class.applyTraitAliasRule env usedTraits r st with
    | error e => simp [h1] at h
    | ok st1 =>
      simp only [h1] at h
      rw [ih st1 st' h (fun r' hr' => hno r' (List.mem_cons_of_mem _ hr')),
        Class.applyTraitAliasRule_find_other h1 (hno r (List.mem_cons_self _ _))]

/-- The candidate map of a class whose used traits contribute the candidates
`a` of `tA` and `b` of `tB` for `foo`, in either order, and that has the rule
`prefer tA over tB for foo`, no other precedence rule for `foo` and no alias
rule with the new name `foo`: the name is left with the candidate of `tA`. -/
theorem Class.traitCandidates_preferred {env : Env} {usedTraits : List Class} {this : Class}
    {tA tB : Class} {foo : String} {a b : TraitMethod}
    {rs1 rs2 : List PreClass.TraitPrecRule}
    {st : List (String × String) × MethodToTraitListMap}
    (hc : Class.traitCandidates env usedTraits this = .ok st)
    (hL : Class.candidatesOfAll usedTraits foo = [a, b] ∨
      Class.candidatesOfAll usedTraits foo = [b, a])
    (hta : a.m_trait = tA) (htb : b.m_trait = tB)
    (hAB : isame tB.name tA.name = false)
    (hrules : this.m_preClass.m_traitPrecRules = rs1 ++ ⟨foo, tA.name, [tB.name]⟩ :: rs2)
    (hrs1 : ∀ r, r ∈ rs1 → isame r.m_methodName foo = false)
    (hrs2 : ∀ r, r ∈ rs2 → isame r.m_methodName foo = false)
    (halias : ∀ r, r ∈ this.m_preClass.m_traitAliasRules →
      isame r.m_newMethodName foo = false) :
    MethodToTraitListMap.find st.2 foo = some [a] := by
  have hBA : isame tA.name tB.name = false := by rw [isame_symm]; exact hAB
  unfold Class.traitCandidates at hc
  simp only [] at hc
  cases hr : Class.applyTraitRules env usedTraits this.m_preClass
      (this.m_traitAliases, Class.findAllTraitMethods usedTraits []) with
  | error e => simp [hr] at hc
  | ok st1 =>
    simp only [hr] at hc
    injection hc with hc
    subst hc
    simp only []
    rw [Class.find_removeSpare]
    unfold Class.applyTraitRules at hr
    simp only [] at hr
    cases hp : Class.applyTraitPrecRules this.m_preClass.m_traitPrecRules
        (Class.findAllTraitMethods usedTraits []) with
    | error e => simp [hp] at hr
    | ok m3 =>
      simp only [hp] at hr
      rw [Class.applyTraitAliasRules_find_other _ _ _ hr halias]
      simp only []
      rw [hrules, Class.applyTraitPrecRules_append] at hp
      cases hp1 : Class.applyTraitPrecRules rs1 (Class.findAllTraitMethods usedTraits []) with
      | error e => simp [hp1] at hp
      | ok m1 =>
        simp only [hp1] at hp
        rw [Class.applyTraitPrecRules] at hp
        cases hp2 : Class.applyTraitPrecRule ⟨foo, tA.name, [tB.name]⟩ m1 with
        | error e => simp [hp2] at hp
        | ok m2 =>
          simp only [hp2] at hp
          rw [Class.applyTraitPrecRules_find_other rs2 m2 m3 hp hrs2]
          have h0 : ∃ L, (L = [a, b] ∨ L = [b, a]) ∧
              MethodToTraitListMap.find m1 foo = some L := by
            rw [Class.applyTraitPrecRules_find_other rs1 _ m1 hp1 hrs1,
              Class.find_findAllTraitMethods]
            rcases hL with hL | hL
            · exact ⟨[a, b], Or.inl rfl, by rw [hL]; simp [MethodToTraitListMap.find]⟩
            · exact ⟨[b, a], Or.inr rfl, by rw [hL]; simp [MethodToTraitListMap.find]⟩
          obtain ⟨L, hLL, hfind⟩ := h0
          have hd : ∀ L', MethodToTraitListMap.find m1
              (⟨foo, tA.name, [tB.name]⟩ : PreClass.TraitPrecRule).m_methodName = some L' →
              DistinctTraits L' := by
            intro L' hL'
            simp only [] at hL'
            rw [hfind] at hL'
            injection hL' with hL'
            subst hL'
            unfold DistinctTraits
            rcases hLL with h | h <;> subst h <;> simp [hta, htb, hBA, hAB]
          obtain ⟨L', hL', hm2, -, -⟩ :=
            (Class.applyTraitPrecRule_spec ⟨foo, tA.name, [tB.name]⟩ m1 hd).2 m2 hp2
          simp only [] at hL' hm2
          rw [hfind] at hL'
          injection hL' with hL'
          subst hL'
          rw [hm2]
          have hfilter : List.filter (fun tm : TraitMethod =>
              !TraitNameSet.contains [tB.name] tm.m_trait.name) L = [a] := by
            rcases hLL with h | h <;> subst h <;>
              simp [TraitNameSet.contains, List.filter_cons, hta, htb, hAB, isame_refl]
          rw [hfilter]
          simp [Class.removeSpareAbstractInList_single]

theorem Class.addOwnMethod_lookup_other {env : Env} {this : Class} {method : Func}
    {b b1 : MethodMap} {name : String} {i : Nat} {g : Func}
    (hwf : b.WF) (hn : isame method.m_name name = false)
    (hl : b.lookup name = some (i, g))
    (h : Class.addOwnMethod env this method b = .ok b1) :
    b1.lookup name = some (i, g) := by
  unfold Class.addOwnMethod at h
  split at h
  · injection h with h; subst h; exact hl
  · cases hlm : b.lookup method.m_name with
    | none =>
      simp only [hlm] at h
      injection h with h; subst h
      exact IndexedStringMap.lookup_add_other b _ _ name (by simpa [keyEq] using hn) hl
    | some r =>
      obtain ⟨slot, pm⟩ := r
      simp only [hlm] at h
      cases hc : Class.methodOverrideCheck env this pm method with
      | error e => simp [hc] at h
      | ok u =>
        simp only [hc] at h
        injection h with h; subst h
        have hs : slot ≠ i := by
          intro hs
          subst hs
          obtain ⟨k, k1, k2⟩ := hwf.same_slot
            ((IndexedStringMap.lookup_eq_some.mp hlm).1) ((IndexedStringMap.lookup_eq_some.mp hl).1)
          have k1' : isame k method.m_name = true := by simpa [keyEq] using k1
          have k2' : isame k name = true := by simpa [keyEq] using k2
          rw [isame_symm] at k1'
          rw [isame_trans k1' k2'] at hn
          cases hn
        exact IndexedStringMap.lookup_set_other b name i slot g _ hl hs

theorem Class.addOwnMethods_lookup_other {env : Env} {this : Class} {name : String} {i : Nat}
    {g : Func} (l : List Func) :
    ∀ (b b' : MethodMap), b.WF → (∀ m, m ∈ l → isame m.m_name name = false) →
      b.lookup name = some (i, g) → Class.addOwnMethods env this l b = .ok b' →
      b'.WF ∧ b'.lookup name = some (i, g) := by
  induction l with
  | nil =>
    intro b b' hwf _ hl h
    rw [Class.addOwnMethods] at h
    injection h with h; subst h; exact ⟨hwf, hl⟩
  | cons m rest ih =>
    intro b b' hwf hno hl h
    rw [Class.addOwnMethods] at h
    cases h1 : Class.addOwnMethod env this m b with
    | error e => simp [h1] at h
    | ok b1 =>
      simp only [h1] at h
      exact ih b1 b' (Class.addOwnMethod_wf hwf h1)
        (fun x hx => hno x (List.mem_cons_of_mem _ hx))
        (Class.addOwnMethod_lookup_other hwf (hno m (List.mem_cons_self _ _)) hl h1) h

theorem Class.importTraitMethod_wf {env : Env} {this : Class} {tm : TraitMethod}
    {methName : String} {b b' : MethodMap} (hwf : b.WF)
    (h : Class.importTraitMethod env this tm methName b = .ok b') : b'.WF := by
  unfold Class.importTraitMethod at h
  simp only [] at h
  split at h
  · injection h with h; subst h; exact hwf
  · cases hl : b.lookup methName with
    | none =>
      simp only [hl] at h
      injection h with h; subst h
      exact hwf.add _ _
    | some r =>
      obtain ⟨slot, pm⟩ := r
      simp only [hl] at h
      split at h
      · injection h with h; subst h; exact hwf
      · split at h
        · cases h
        · injection h with h; subst h
          exact hwf.set _ _

theorem Class.importTraitMethod_lookup_other {env : Env} {this : Class} {tm : TraitMethod}
    {methName : String} {b b' : MethodMap} {name : String} {i : Nat} {g : Func}
    (hwf : b.WF) (hn : isame methName name = false)
    (hlk : b.lookup name = some (i, g))
    (h : Class.importTraitMethod env this tm methName b = .ok b') :
    b'.lookup name = some (i, g) := by
  unfold Class.importTraitMethod at h
  simp only [] at h
  split at h
  · injection h with h; subst h; exact hlk
  · cases hl : b.lookup methName with
    | none =>
      simp only [hl] at h
      injection h with h; subst h
      exact IndexedStringMap.lookup_add_other b _ _ name (by simpa [keyEq] using hn) hlk
    | some r =>
      obtain ⟨slot, pm⟩ := r
      simp only [hl] at h
      split at h
      · injection h with h; subst h; exact hlk
      · split at h
        · cases h
        · injection h with h; subst h
          have hs : slot ≠ i := by
            intro hs
            subst hs
            obtain ⟨k, k1, k2⟩ := hwf.same_slot
              ((IndexedStringMap.lookup_eq_some.mp hl).1)
              ((IndexedStringMap.lookup_eq_some.mp hlk).1)
            have k1' : isame k methName = true := by simpa [keyEq] using k1
            have k2' : isame k name = true := by simpa [keyEq] using k2
            rw [isame_symm] at k1'
            rw [isame_trans k1' k2'] at hn
            cases hn
          exact IndexedStringMap.lookup_set_other b name i slot g _ hlk hs

theorem Class.importTraitMethodsStep_wf {env : Env} {this : Class}
    {entry : String × TraitMethodList} {b b' : MethodMap} (hwf : b.WF)
    (h : Class.importTraitMethodsStep env this entry b = .ok b') : b'.WF := by
  unfold Class.importTraitMethodsStep at h
  split at h
  · injection h with h; subst h; exact hwf
  · split at h
    · split at h
      · injection h with h; subst h; exact hwf
      · cases h
    · exact Class.importTraitMethod_wf hwf h

theorem Class.importTraitMethodsLoop_wf {env : Env} {this : Class} (l : MethodToTraitListMap) :
    ∀ (b b' : MethodMap), b.WF → Class.importTraitMethodsLoop env this l b = .ok b' →
      b'.WF := by
  induction l with
  | nil =>
    intro b b' hwf h
    rw [Class.importTraitMethodsLoop] at h
    injection h with h; subst h; exact hwf
  | cons entry rest ih =>
    intro b b' hwf h
    rw [Class.importTraitMethodsLoop] at h
    cases h1 : Class.importTraitMethodsStep env this entry b with
    | error e => simp [h1] at h
    | ok b1 =>
      simp only [h1] at h
      exact ih b1 b' (Class.importTraitMethodsStep_wf hwf h1) h

theorem Class.importTraitMethodsLoop_lookup_other {env : Env} {this : Class} {name : String}
    {i : Nat} {g : Func} (l : MethodToTraitListMap) :
    ∀ (b b' : MethodMap), b.WF → (∀ e, e ∈ l → isame e.1 name = false) →
      b.lookup name = some (i, g) → Class.importTraitMethodsLoop env this l b = .ok b' →
      b'.lookup name = some (i, g) := by
  induction l with
  | nil =>
    intro b b' _ _ hl h
    rw [Class.importTraitMethodsLoop] at h
    injection h with h; subst h; exact hl
  | cons entry rest ih =>
    intro b b' hwf hno hl h
    rw [Class.importTraitMethodsLoop] at h
    cases h1 : Class.importTraitMethodsStep env this entry b with
    | error e => simp [h1] at h
    | ok b1 =>
      simp only [h1] at h
      refine ih b1 b' (Class.importTraitMethodsStep_wf hwf h1)
        (fun x hx => hno x (List.mem_cons_of_mem _ hx)) ?_ h
      unfold Class.importTraitMethodsStep at h1
      split at h1
      · injection h1 with h1; subst h1; exact hl
      · split at h1
        · split at h1
          · injection h1 with h1; subst h1; exact hl
          · cases h1
        · exact Class.importTraitMethod_lookup_other hwf (hno entry (List.mem_cons_self _ _))
            hl h1

/-- The copy that `importTraitMethod` makes of the method of the candidate `tm`
under the name `methName`, before it is put into the builder. -/
theorem Class.importTraitMethod_at {env : Env} {this : Class} {tm : TraitMethod}
    {methName : String} {b b' : MethodMap} {slot : Nat} {g : Func}
    (hl : b.lookup methName = some (slot, g))
    (h : Class.importTraitMethod env this tm methName b = .ok b') :
    (hasAttr tm.m_modifiers AttrAbstract = true → b' = b) ∧
    (hasAttr tm.m_modifiers AttrAbstract = false → g.m_cls ≠ some this.m_self →
      b'.lookup methName = some (slot, Class.overlay this g
        (((tm.m_method.clone (some this.m_self)).setName methName).setAttrs
          (Class.importModifiers tm.m_method tm.m_modifiers)))) ∧
    (g.m_cls = some this.m_self → b' = b) := by
  unfold Class.importTraitMethod at h
  simp only [hl, Option.isSome_some, Bool.and_true] at h
  refine ⟨?_, ?_, ?_⟩
  · intro ha
    rw [if_pos ha] at h
    injection h with h
    exact h.symm
  · intro ha hg
    rw [ha] at h
    simp only [Bool.false_eq_true, if_false] at h
    rw [if_neg hg] at h
    split at h
    · cases h
    · injection h with h
      subst h
      exact IndexedStringMap.lookup_set_same b methName slot g _ hl
  · intro hg
    split at h
    · injection h with h
      exact h.symm
    · injection h with h
      exact h.symm

theorem Class.recloneMethods_lookup {this : Class} {name : String} {i : Nat} (l : List Nat) :
    ∀ (b : MethodMap) (g : Func), b.lookup name = some (i, g) →
      ∃ g', (Class.recloneMethods this l b).lookup name = some (i, g') ∧
        (g' = g ∨ ∃ c, g' = g.clone c) ∧ (g.m_cls = some this.m_self → g' = g) := by
  induction l with
  | nil => intro b g hl; exact ⟨g, hl, Or.inl rfl, fun _ => rfl⟩
  | cons slot rest ih =>
    intro b g hl
    rw [Class.recloneMethods]
    cases hg : b.get? slot with
    | none => simp only []; exact ih b g hl
    | some f =>
      simp only []
      split
      · rename_i hcls
        by_cases hs : slot = i
        · subst hs
          have f2 := (IndexedStringMap.lookup_eq_some.mp hl).2
          unfold IndexedStringMap.get? at hg
          rw [hg] at f2
          injection f2 with f2
          subst f2
          obtain ⟨g', k1, k2, k3⟩ := ih _ _
            (IndexedStringMap.lookup_set_same b name slot f
              (f.clone (if hasAttr f.m_attrs AttrClone then some this.m_self else f.m_cls)) hl)
          refine ⟨g', k1, ?_, ?_⟩
          · right
            rcases k2 with k2 | ⟨c, k2⟩
            · exact ⟨_, k2⟩
            · exact ⟨c, by rw [k2]; rfl⟩
          · intro hown
            simp [hown] at hcls
        · exact ih _ g (IndexedStringMap.lookup_set_other b name i slot g _ hl hs)
      · exact ih b g hl

/-- What the import loop does for a name that the candidate map binds to one
candidate only and that the builder resolves already, to an entry that is not
bound to the class: an abstract candidate is skipped and the entry stays, any
other candidate takes the slot of the entry. -/
theorem Class.importTraitMethodsLoop_resolved {env : Env} {this : Class}
    {m : MethodToTraitListMap} {name : String} {tm : TraitMethod} {b b' : MethodMap}
    {slot : Nat} {g : Func}
    (hd : CandidateKeysDistinct m) (hfind : MethodToTraitListMap.find m name = some [tm])
    (hwf : b.WF) (hl : b.lookup name = some (slot, g))
    (h : Class.importTraitMethodsLoop env this m b = .ok b') :
    (hasAttr tm.m_modifiers AttrAbstract = true → b'.lookup name = some (slot, g)) ∧
    (hasAttr tm.m_modifiers AttrAbstract = false → g.m_cls ≠ some this.m_self →
      ∃ k, isame k name = true ∧
        b'.lookup name = some (slot, Class.overlay this g
          (((tm.m_method.clone (some this.m_self)).setName k).setAttrs
            (Class.importModifiers tm.m_method tm.m_modifiers)))) ∧
    (g.m_cls = some this.m_self → b'.lookup name = some (slot, g)) := by
  obtain ⟨before, k, after, e1, e2, e3, e4⟩ := MethodToTraitListMap.find_split hd hfind
  subst e1
  rw [Class.importTraitMethodsLoop_append] at h
  cases h1 : Class.importTraitMethodsLoop env this before b with
  | error e => simp [h1] at h
  | ok b1 =>
    simp only [h1] at h
    have w1 := Class.importTraitMethodsLoop_wf before b b1 hwf h1
    have l1 := Class.importTraitMethodsLoop_lookup_other before b b1 hwf e3 hl h1
    rw [Class.importTraitMethodsLoop] at h
    cases h2 : Class.importTraitMethodsStep env this (k, [tm]) b1 with
    | error e => simp [h2] at h
    | ok b2 =>
      simp only [h2] at h
      have w2 := Class.importTraitMethodsStep_wf w1 h2
      unfold Class.importTraitMethodsStep at h2
      simp only [List.length_singleton, gt_iff_lt, lt_self_iff_false, decide_False,
        Bool.false_eq_true, if_false] at h2
      have lk : b1.lookup k = some (slot, g) := by
        rw [IndexedStringMap.lookup_congr b1 e2]
        exact l1
      obtain ⟨s1, s2, s3⟩ := Class.importTraitMethod_at lk h2
      refine ⟨?_, ?_, ?_⟩
      · intro ha
        have := s1 ha
        subst this
        exact Class.importTraitMethodsLoop_lookup_other after b2 b' w2 e4 l1 h
      · intro ha hg
        refine ⟨k, e2, ?_⟩
        have l2 := s2 ha hg
        rw [IndexedStringMap.lookup_congr b2 e2] at l2
        exact Class.importTraitMethodsLoop_lookup_other after b2 b' w2 e4 l2 h
      · intro hg
        have := s3 hg
        subst this
        exact Class.importTraitMethodsLoop_lookup_other after b2 b' w2 e4 l1 h

theorem Class.inheritedMethods_lookup {parent : Option Class} {name : String} {slot : Nat}
    {g : Func} (h : (Class.inheritedMethods parent).1.lookup name = some (slot, g)) :
    ∃ p, parent = some p ∧ p.m_methods.m_list[slot]? = some g ∧ isame g.m_name name = true := by
  cases parent with
  | none =>
    simp [Class.inheritedMethods, IndexedStringMap.lookup, IndexedStringMap.find,
      IndexedStringMap.empty] at h
  | some p =>
    refine ⟨p, rfl, ?_⟩
    obtain ⟨h1', h2'⟩ := Class.copyParentMethods_spec p.m_methods.m_list 0
      (IndexedStringMap.empty, []) rfl
    rw [IndexedStringMap.lookup_eq_some] at h
    obtain ⟨hf, hg⟩ := h
    simp only [Class.inheritedMethods] at hf hg
    rw [h1'] at hg
    have hg' : p.m_methods.m_list[slot]? = some g := by
      simpa [IndexedStringMap.empty] using hg
    refine ⟨hg', ?_⟩
    unfold IndexedStringMap.find at hf
    cases hfind : List.find? (fun e => keyEq false e.1 name)
        (Class.copyParentMethods p.m_methods.m_list 0 (IndexedStringMap.empty, [])).1.m_map with
    | none => simp [hfind] at hf
    | some e =>
      simp only [hfind, Option.map_some', Option.some.injEq] at hf
      have hmem := List.mem_of_find?_eq_some hfind
      have hp := List.find?_some hfind
      rcases h2' e.1 e.2 hmem with hk | ⟨f, hf1, -, hf3⟩
      · simp [IndexedStringMap.empty] at hk
      · rw [hf] at hf1
        simp only [Nat.sub_zero] at hf1
        rw [hg'] at hf1
        injection hf1 with hf1
        subst hf1
        rw [← hf3]
        simpa [keyEq] using hp

theorem Class.inheritedMethods_lookup_none (parent : Option Class) (name : String)
    (hpar : ∀ p, parent = some p → ∀ f, f ∈ p.m_methods.m_list → isame f.m_name name = false) :
    (Class.inheritedMethods parent).1.lookup name = none := by
  rw [IndexedStringMap.lookup_eq_none (Class.inheritedMethods_wf parent)]
  exact Class.inheritedMethods_find_none parent name hpar

/-- What `buildMethods` does for a name that the candidate map binds to one
candidate only, that the class does not declare and that the table taken over
from the parent resolves, to an entry that is not bound to the class: an
abstract candidate is skipped and the entry or a fresh copy of it stays, any
other candidate takes the slot of the entry. -/
theorem Class.buildMethods_resolved {env : Env} {parent : Option Class}
    {usedTraits : List Class} {this : Class} {r : Class × MethodMap}
    {st : List (String × String) × MethodToTraitListMap} {name : String} {tm : TraitMethod}
    {slot : Nat} {g : Func}
    (h : Class.buildMethods env parent usedTraits this = .ok r)
    (hne : usedTraits ≠ [])
    (hc : Class.traitCandidates env usedTraits this = .ok st)
    (hd : CandidateKeysDistinct st.2)
    (hfind : MethodToTraitListMap.find st.2 name = some [tm])
    (hown : this.m_preClass.hasMethod name = false)
    (hpar : (Class.inheritedMethods parent).1.lookup name = some (slot, g)) :
    (hasAttr tm.m_modifiers AttrAbstract = true →
      ∃ g', r.2.lookup name = some (slot, g') ∧ (g' = g ∨ ∃ c, g' = g.clone c)) ∧
    (hasAttr tm.m_modifiers AttrAbstract = false → g.m_cls ≠ some this.m_self →
      ∃ k, isame k name = true ∧
        r.2.lookup name = some (slot, Class.overlay this g
          (((tm.m_method.clone (some this.m_self)).setName k).setAttrs
            (Class.importModifiers tm.m_method tm.m_modifiers)))) ∧
    (g.m_cls = some this.m_self → r.2.lookup name = some (slot, g)) := by
  unfold Class.buildMethods at h
  cases ho : Class.addOwnMethods env this this.m_preClass.m_methods
      (Class.inheritedMethods parent).1 with
  | error e => simp [ho] at h
  | ok builder =>
    simp only [ho] at h
    have hno : ∀ m, m ∈ this.m_preClass.m_methods → isame m.m_name name = false := by
      intro m hm
      cases hi : isame m.m_name name with
      | false => rfl
      | true =>
        have := (PreClass.hasMethod_iff this.m_preClass name).mpr ⟨m, hm, hi⟩
        rw [hown] at this
        cases this
    obtain ⟨w1, l1⟩ := Class.addOwnMethods_lookup_other this.m_preClass.m_methods _ _
      (Class.inheritedMethods_wf parent) hno hpar ho
    cases hi : Class.importTraitMethodsIfAny env usedTraits
        { this with m_traitsBeginIdx := builder.size } builder with
    | error e => simp [hi] at h
    | ok r1 =>
      simp only [hi] at h
      injection h with h
      subst h
      have hs : ({ r1.1 with m_traitsEndIdx := r1.2.size } : Class).m_self = this.m_self := by
        have := (Class.importTraitMethodsIfAny_core hi).1
        simpa using this
      unfold Class.importTraitMethodsIfAny at hi
      have hlen : (usedTraits.length != 0) = true := by
        cases usedTraits with
        | nil => exact absurd rfl hne
        | cons a t => simp
      rw [if_pos hlen] at hi
      unfold Class.importTraitMethods at hi
      rw [Class.traitCandidates_beginIdx, hc] at hi
      simp only [] at hi
      cases hl : Class.importTraitMethodsLoop env
          { this with m_traitsBeginIdx := builder.size, m_traitAliases := st.1 }
          st.2 builder with
      | error e => simp [hl] at hi
      | ok b1 =>
        simp only [hl] at hi
        injection hi with hi
        subst hi
        obtain ⟨c1, c2, c3⟩ := @Class.importTraitMethodsLoop_resolved env
          { this with m_traitsBeginIdx := builder.size, m_traitAliases := st.1 }
          st.2 name tm builder b1 slot g hd hfind w1 l1 hl
        simp only []
        refine ⟨?_, ?_, ?_⟩
        · intro ha
          obtain ⟨g', k1, k2, -⟩ := @Class.recloneMethods_lookup
            { ({ this with m_traitsBeginIdx := builder.size, m_traitAliases := st.1 } : Class)
              with m_traitsEndIdx := b1.size } name slot
            (Class.inheritedMethods parent).2 b1 g (c1 ha)
          exact ⟨g', k1, k2⟩
        · intro ha hg
          obtain ⟨k, hk, lk⟩ := c2 ha hg
          refine ⟨k, hk, ?_⟩
          obtain ⟨g', k1, -, k3⟩ := @Class.recloneMethods_lookup
            { ({ this with m_traitsBeginIdx := builder.size, m_traitAliases := st.1 } : Class)
              with m_traitsEndIdx := b1.size } name slot
            (Class.inheritedMethods parent).2 b1 _ lk
          rw [k1, k3 rfl]
          rfl
        · intro hg
          obtain ⟨g', k1, -, k3⟩ := @Class.recloneMethods_lookup
            { ({ this with m_traitsBeginIdx := builder.size, m_traitAliases := st.1 } : Class)
              with m_traitsEndIdx := b1.size } name slot
            (Class.inheritedMethods parent).2 b1 g (c3 hg)
          rw [k1, k3 hg]

theorem Class.buildMethods_candidates {env : Env} {parent : Option Class}
    {usedTraits : List Class} {this : Class} {r : Class × MethodMap}
    (h : Class.buildMethods env parent usedTraits this = .ok r) (hne : usedTraits ≠ []) :
    ∃ st, Class.traitCandidates env usedTraits this = .ok st := by
  unfold Class.buildMethods at h
  cases ho : Class.addOwnMethods env this this.m_preClass.m_methods
      (Class.inheritedMethods parent).1 with
  | error e => simp [ho] at h
  | ok builder =>
    simp only [ho] at h
    cases hi : Class.importTraitMethodsIfAny env usedTraits
        { this with m_traitsBeginIdx := builder.size } builder with
    | error e => simp [hi] at h
    | ok r1 =>
      unfold Class.importTraitMethodsIfAny at hi
      have hlen : (usedTraits.length != 0) = true := by
        cases usedTraits with
        | nil => exact absurd rfl hne
        | cons a t => simp
      rw [if_pos hlen] at hi
      unfold Class.importTraitMethods at hi
      rw [Class.traitCandidates_beginIdx] at hi
      cases hc : Class.traitCandidates env usedTraits this with
      | error e => simp [hc] at hi
      | ok st => exact ⟨st, rfl⟩

/-- A class that links, whose used traits contribute the candidates `a` of
`tA` and `b` of `tB` for `foo`, that has the rule `prefer tA over tB for foo`,
no other precedence rule for `foo` and no alias rule with the new name `foo`,
and that declares no `foo`. -/
theorem Class.newClass_preferred {env : Env} {self : ClassId} {pre : PreClass}
    {parent : Option Class} {cls : Class} {usedTraits : List Class} {tA tB : Class}
    {foo : String} {a b : TraitMethod} {rs1 rs2 : List PreClass.TraitPrecRule}
    (h : Class.newClass env self pre parent = .ok cls)
    (hl : Class.loadUsedTraits env pre.m_name pre.m_usedTraits = .ok usedTraits)
    (hL : Class.candidatesOfAll usedTraits foo = [a, b] ∨
      Class.candidatesOfAll usedTraits foo = [b, a])
    (hta : a.m_trait = tA) (htb : b.m_trait = tB)
    (hAB : isame tB.name tA.name = false)
    (hrules : pre.m_traitPrecRules = rs1 ++ ⟨foo, tA.name, [tB.name]⟩ :: rs2)
    (hrs1 : ∀ r, r ∈ rs1 → isame r.m_methodName foo = false)
    (hrs2 : ∀ r, r ∈ rs2 → isame r.m_methodName foo = false)
    (halias : ∀ r, r ∈ pre.m_traitAliasRules → isame r.m_newMethodName foo = false)
    (hown : pre.hasMethod foo = false) :
    ((Class.inheritedMethods parent).1.lookup foo = none →
      ∃ i k, isame k foo = true ∧
        cls.lookupMethod foo = some ((Class.importedMethod self a k).setMethodSlot i)) ∧
    (∀ slot g, (Class.inheritedMethods parent).1.lookup foo = some (slot, g) →
      (hasAttr a.m_modifiers AttrAbstract = false → g.m_cls ≠ some self →
        ∃ k this, isame k foo = true ∧ this.m_self = self ∧
          cls.lookupMethod foo = some ((Class.overlay this g
            (((a.m_method.clone (some self)).setName k).setAttrs
              (Class.importModifiers a.m_method a.m_modifiers))).setMethodSlot slot)) ∧
      (hasAttr a.m_modifiers AttrAbstract = true →
        ∃ g', cls.lookupMethod foo = some (g'.setMethodSlot slot) ∧
          (g' = g ∨ ∃ c, g' = g.clone c)) ∧
      (g.m_cls = some self → cls.lookupMethod foo = some (g.setMethodSlot slot))) := by
  obtain ⟨ts, this0, r, hl2, s1, s2, -, -, hbuild, -, -, -, -, hm⟩ :=
    Class.newClass_methods h
  rw [hl] at hl2
  injection hl2 with hl2
  subst hl2
  rw [← s2] at hrules halias hown
  have hne : usedTraits ≠ [] := by
    intro hnil
    subst hnil
    rcases hL with hL | hL <;> simp [Class.candidatesOfAll] at hL
  obtain ⟨st, hc⟩ := Class.buildMethods_candidates hbuild hne
  have hfind := Class.traitCandidates_preferred hc hL hta htb hAB hrules hrs1 hrs2 halias
  have hd := Class.traitCandidates_distinct hc
  constructor
  · intro hnone
    have hfn : (Class.inheritedMethods parent).1.find foo = none :=
      (IndexedStringMap.lookup_eq_none (Class.inheritedMethods_wf parent)).mp hnone
    obtain ⟨k, hk, i, e, hle, -, he⟩ := Class.buildMethods_imported hbuild hne hc hd hfind hown hfn
    subst he
    rw [s1] at hle
    refine ⟨i, k, hk, ?_⟩
    unfold Class.lookupMethod
    rw [hm, Class.lookup_setMethodSlots r.2 foo i _ hle]
    rfl
  · intro slot g hpar
    obtain ⟨c1, c2, c3⟩ := Class.buildMethods_resolved hbuild hne hc hd hfind hown hpar
    refine ⟨?_, ?_, ?_⟩
    · intro ha hg
      rw [← s1] at hg
      obtain ⟨k, hk, lk⟩ := c2 ha hg
      refine ⟨k, this0, hk, s1, ?_⟩
      unfold Class.lookupMethod
      rw [hm, Class.lookup_setMethodSlots r.2 foo slot _ lk, s1]
      rfl
    · intro ha
      obtain ⟨g', k1, k2⟩ := c1 ha
      refine ⟨g', ?_, k2⟩
      unfold Class.lookupMethod
      rw [hm, Class.lookup_setMethodSlots r.2 foo slot _ k1]
      rfl
    · intro hg
      rw [← s1] at hg
      have k1 := c3 hg
      unfold Class.lookupMethod
      rw [hm, Class.lookup_setMethodSlots r.2 foo slot _ k1]
      rfl

theorem Class.mem_candidatesOfAll {ts : List Class} {name : String} {tm : TraitMethod}
    (h : tm ∈ Class.candidatesOfAll ts name) :
    tm.m_trait ∈ ts ∧ tm.m_method ∈ tm.m_trait.m_methods.m_list ∧
      tm.m_modifiers = tm.m_method.m_attrs ∧ isSpecial tm.m_method.m_name = false ∧
      isame tm.m_method.m_name name = true := by
  unfold Class.candidatesOfAll at h
  rw [List.mem_flatten] at h
  obtain ⟨l, hl, hm⟩ := h
  rw [List.mem_map] at hl
  obtain ⟨t, ht, hlt⟩ := hl
  subst hlt
  unfold Class.candidatesOf at hm
  rw [List.mem_map] at hm
  obtain ⟨f, hf, hfe⟩ := hm
  subst hfe
  rw [List.mem_filter] at hf
  obtain ⟨hf1, hf2⟩ := hf
  simp only [Bool.and_eq_true, Bool.not_eq_true'] at hf2
  exact ⟨ht, hf1, rfl, hf2.1, hf2.2⟩

/-- C3 (amended): applying a precedence rule `for the method name prefer the
trait T over the traits S` to a candidate map in which the candidates of the
name come from traits with pairwise different names.  The rule fails exactly
when the name has no candidate list, or no candidate of the name comes from a
trait named T, or some name in S is T itself (up to case) or names no trait
with a candidate for the name.  On success the candidate list of the name is
the original list without the candidates of the traits named in S, in the
original order, the candidate of T is among the kept ones, and the list of
every other name is unchanged.  Consequently, for a class that links, whose
used traits contribute for `foo` the candidate `a` of the trait A and the
candidate `b` of the trait B, in either order, that has the rule `prefer A over
B for foo`, no other precedence rule for `foo` and no alias rule with the new
name `foo`, and that declares no `foo`: when the method table taken over from
the parent does not resolve `foo`, as it is when the parent has no method of
that name, the class resolves `foo` to the clone of the method of A, bound to
the class, under a name equal to `foo` up to case and with the attributes of
the method of A (as long as they fit 32 bits); when that table resolves `foo`
to the method `g` of the parent and the method of A is not abstract, the class
resolves `foo` to the clone of the method of A in the slot of `g`, with the
base class and the private-ancestor flag that `g` gives it; when the method of
A is abstract, the import is skipped and the class resolves `foo` to `g` or the
fresh copy of `g` that `setMethods` makes.  (An entry `g` that is bound to the
class under construction itself, which no inherited method is, stays as
well.) -/
theorem C3_precedence_rule (rule : PreClass.TraitPrecRule) (m : MethodToTraitListMap)
    (hd : ∀ L, MethodToTraitListMap.find m rule.m_methodName = some L → DistinctTraits L) :
    ((∃ e, Class.applyTraitPrecRule rule m = .error e) ↔
      MethodToTraitListMap.find m rule.m_methodName = none ∨
      ∃ L, MethodToTraitListMap.find m rule.m_methodName = some L ∧
        ((∀ tm, tm ∈ L → tm.m_trait.name ≠ rule.m_selectedTraitName) ∨
         ∃ s, s ∈ rule.m_otherTraitNames ∧
           (isame s rule.m_selectedTraitName = true ∨
            ∀ tm, tm ∈ L → isame s tm.m_trait.name = false))) ∧
    (∀ m', Class.applyTraitPrecRule rule m = .ok m' →
      ∃ L, MethodToTraitListMap.find m rule.m_methodName = some L ∧
        MethodToTraitListMap.find m' rule.m_methodName =
          some (L.filter (fun tm =>
            !TraitNameSet.contains rule.m_otherTraitNames tm.m_trait.name)) ∧
        (∃ tm, tm ∈ L ∧ tm.m_trait.name = rule.m_selectedTraitName ∧
          TraitNameSet.contains rule.m_otherTraitNames tm.m_trait.name = false) ∧
        ∀ n, isame rule.m_methodName n = false →
          MethodToTraitListMap.find m' n = MethodToTraitListMap.find m n) ∧
    (∀ (env : Env) (self : ClassId) (pre : PreClass) (parent : Option Class) (cls : Class)
        (usedTraits : List Class) (tA tB : Class) (foo : String) (a b : TraitMethod)
        (rs1 rs2 : List PreClass.TraitPrecRule),
      Class.newClass env self pre parent = .ok cls →
      Class.loadUsedTraits env pre.m_name pre.m_usedTraits = .ok usedTraits →
      (Class.candidatesOfAll usedTraits foo = [a, b] ∨
        Class.candidatesOfAll usedTraits foo = [b, a]) →
      a.m_trait = tA → b.m_trait = tB →
      isame tB.name tA.name = false →
      pre.m_traitPrecRules = rs1 ++ ⟨foo, tA.name, [tB.name]⟩ :: rs2 →
      (∀ r, r ∈ rs1 → isame r.m_methodName foo = false) →
      (∀ r, r ∈ rs2 → isame r.m_methodName foo = false) →
      (∀ r, r ∈ pre.m_traitAliasRules → isame r.m_newMethodName foo = false) →
      pre.hasMethod foo = false →
      (tA ∈ usedTraits ∧ a.m_method ∈ tA.m_methods.m_list ∧
        isame a.m_method.m_name foo = true ∧ a.m_modifiers = a.m_method.m_attrs ∧
        (a.m_method.m_attrs < 2 ^ 32 →
          Class.importModifiers a.m_method a.m_modifiers = a.m_method.m_attrs)) ∧
      ((∀ p, parent = some p → ∀ f, f ∈ p.m_methods.m_list → isame f.m_name foo = false) →
        (Class.inheritedMethods parent).1.lookup foo = none) ∧
      ((Class.inheritedMethods parent).1.lookup foo = none →
        ∃ i k, isame k foo = true ∧
          cls.lookupMethod foo = some
            { a.m_method with m_name := k, m_cls := some self, m_baseCls := some self,
                              m_attrs := Class.importModifiers a.m_method a.m_modifiers,
                              m_hasPrivateAncestor := false, m_methodSlot := i }) ∧
      (∀ slot g, (Class.inheritedMethods parent).1.lookup foo = some (slot, g) →
        (∃ p, parent = some p ∧ p.m_methods.m_list[slot]? = some g ∧
          isame g.m_name foo = true) ∧
        (hasAttr a.m_method.m_attrs AttrAbstract = false → g.m_cls ≠ some self →
          ∃ k this, isame k foo = true ∧ this.m_self = self ∧
            cls.lookupMethod foo = some ((Class.overlay this g
              { a.m_method with m_name := k, m_cls := some self,
                                m_attrs := Class.importModifiers a.m_method a.m_modifiers
              }).setMethodSlot slot)) ∧
        (hasAttr a.m_method.m_attrs AttrAbstract = true →
          ∃ g', cls.lookupMethod foo = some (g'.setMethodSlot slot) ∧
            (g' = g ∨ ∃ c, g' = g.clone c)) ∧
        (g.m_cls = some self → cls.lookupMethod foo = some (g.setMethodSlot slot)))) := by
  refine ⟨(Class.applyTraitPrecRule_spec rule m hd).1,
    (Class.applyTraitPrecRule_spec rule m hd).2, ?_⟩
  intro env self pre parent cls usedTraits tA tB foo a b rs1 rs2 h hl hL hta htb hAB hrules
    hrs1 hrs2 halias hown
  have hmem : a ∈ Class.candidatesOfAll usedTraits foo := by
    rcases hL with hL | hL <;> rw [hL] <;> simp
  obtain ⟨m1, m2, m3, -, m5⟩ := Class.mem_candidatesOfAll hmem
  rw [hta] at m1 m2
  obtain ⟨p1, p2⟩ := Class.newClass_preferred h hl hL hta htb hAB hrules hrs1 hrs2 halias hown
  refine ⟨⟨m1, m2, m5, m3, ?_⟩, Class.inheritedMethods_lookup_none parent foo, ?_, ?_⟩
  · intro hlt
    rw [m3]
    exact Class.importModifiers_self a.m_method hlt
  · intro hnone
    obtain ⟨i, k, hk, hlk⟩ := p1 hnone
    exact ⟨i, k, hk, hlk⟩
  · intro slot g hpar
    obtain ⟨q1, q2, q3⟩ := p2 slot g hpar
    refine ⟨Class.inheritedMethods_lookup hpar, ?_, ?_, q3⟩
    · intro ha hg
      exact q1 (by rw [m3]; exact ha) hg
    · intro ha
      exact q2 (by rw [m3]; exact ha)

theorem exUseOver_linked :
    Class.newClass envOver 37 preUseOver (some exFooBase) = .ok exUseOver := by
  rfl

/-- Witness of C3: the traits `A` and `B` each declare `foo`.  The class
`UsePrefer` uses both under the rule `prefer A over B for foo`, links, and its
`foo` is the clone of the method of `A`, bound to `UsePrefer`.  The class
`UseAbs` extends `FooBase`, which declares `foo`, and uses `C`, with an abstract
`foo`, and `B` under the rule `prefer C over B`: its `foo` is the method of
`FooBase`.  The class `UseOver` extends `FooBase` and uses `B` and `A` under
the rule `prefer A over B`: its `foo` is the clone of the method of `A` in the
slot of the method of `FooBase`. -/
theorem C3_precedence_rule_witness :
    (∀ L, MethodToTraitListMap.find [("foo", exFooCandidates)] "foo" = some L →
      DistinctTraits L) ∧
    (∃ i k, isame k "foo" = true ∧
      exUsePrefer.lookupMethod "foo" = some
        { exTraitAFoo with m_name := k, m_cls := some 33, m_baseCls := some 33,
                           m_attrs := Class.importModifiers exTraitAFoo AttrPublic,
                           m_hasPrivateAncestor := false, m_methodSlot := i }) ∧
    (exUsePrefer.lookupMethod "foo").map (fun f => (f.m_cls, f.m_shared, f.m_attrs))
      = some (some 33, 5, AttrPublic) ∧
    (Class.inheritedMethods (some exFooBase)).1.lookup "foo"
      = some (0, { exFunc "foo" AttrPublic 8 "FooBase" with
          m_cls := some 35, m_baseCls := some 35 }) ∧
    (∃ g', exUseAbs.lookupMethod "foo" = some (g'.setMethodSlot 0) ∧
      (g' = { exFunc "foo" AttrPublic 8 "FooBase" with m_cls := some 35, m_baseCls := some 35 } ∨
        ∃ c, g' = Func.clone
          { exFunc "foo" AttrPublic 8 "FooBase" with m_cls := some 35, m_baseCls := some 35 } c)) ∧
    (∃ k this, isame k "foo" = true ∧ this.m_self = 37 ∧
      exUseOver.lookupMethod "foo" = some ((Class.overlay this
        { exFunc "foo" AttrPublic 8 "FooBase" with m_cls := some 35, m_baseCls := some 35 }
        { exTraitAFoo with m_name := k, m_cls := some 37,
                           m_attrs := Class.importModifiers exTraitAFoo AttrPublic
        }).setMethodSlot 0)) ∧
    (exUseOver.lookupMethod "foo").map (fun f => (f.m_cls, f.m_baseCls, f.m_shared, f.m_attrs))
      = some (some 37, some 35, 5, AttrPublic) :=
  have hd : ∀ L, MethodToTraitListMap.find [("foo", exFooCandidates)] "foo" = some L →
      DistinctTraits L := by
    intro L hL
    have h0 : MethodToTraitListMap.find [("foo", exFooCandidates)] "foo"
        = some exFooCandidates := rfl
    rw [h0] at hL
    injection hL with hL
    subst hL
    exact exFooCandidates_distinct
  ⟨hd,
    ((C3_precedence_rule ⟨"foo", "A", ["B"]⟩ [("foo", exFooCandidates)] hd).2.2
      envTraits 33 preUsePrefer none exUsePrefer [exTraitA, exTraitB] exTraitA exTraitB "foo"
      ⟨exTraitA, exTraitAFoo, AttrPublic⟩ ⟨exTraitB, exTraitBFoo, AttrPublic⟩ [] []
      exUsePrefer_linked rfl (Or.inl rfl) rfl rfl rfl rfl
      (fun r hr => by cases hr) (fun r hr => by cases hr) (fun r hr => by cases hr)
      rfl).2.2.1 rfl,
    rfl, rfl,
    (((C3_precedence_rule ⟨"foo", "A", ["B"]⟩ [("foo", exFooCandidates)] hd).2.2
      envAbs 36 preUseAbs (some exFooBase) exUseAbs [exTraitC, exTraitB] exTraitC exTraitB "foo"
      ⟨exTraitC, { exFunc "foo" (AttrPublic ||| AttrAbstract) 7 "C" with
          m_cls := some 34, m_baseCls := some 34 }, AttrPublic ||| AttrAbstract⟩
      ⟨exTraitB, exTraitBFoo, AttrPublic⟩ [] []
      exUseAbs_linked rfl (Or.inl rfl) rfl rfl rfl rfl
      (fun r hr => by cases hr) (fun r hr => by cases hr) (fun r hr => by cases hr)
      rfl).2.2.2 0 _ rfl).2.2.1 (by decide),
    (((C3_precedence_rule ⟨"foo", "A", ["B"]⟩ [("foo", exFooCandidates)] hd).2.2
      envOver 37 preUseOver (some exFooBase) exUseOver [exTraitB, exTraitA] exTraitA exTraitB
      "foo" ⟨exTraitA, exTraitAFoo, AttrPublic⟩ ⟨exTraitB, exTraitBFoo, AttrPublic⟩ [] []
      exUseOver_linked rfl (Or.inr rfl) rfl rfl rfl rfl
      (fun r hr => by cases hr) (fun r hr => by cases hr) (fun r hr => by cases hr)
      rfl).2.2.2 0 _ rfl).2.1 (by decide) (by decide),
    rfl⟩

end HPHP
